import Mathlib

/-!
# Parsimony engine and NNI of `phylotree.cpp`

A shallow embedding of the bit-packed Fitch parsimony code of `src/phylotree.cpp`
(`getBitsBlock`, `setBitsBlock`, `computePartialParsimony`, `computeParsimonyBranch`,
`computeParsimonyScore`) and of the topology move `doNNI`.

Conventions of the embedding.

* A `UINT` array is a `List Nat` whose elements are words below `2 ^ UINT_BITS`; a read
  is `List.getD _ _ 0` and a store is `List.set`.
* Left shifts and complements are reduced to `UINT_BITS` bits, as the machine does.
* Pattern frequencies and parsimony scores are natural numbers: the source adds them
  in `int`, and the embedding assumes they stay in range.
-/

namespace PhyloTree

/-! ## Words -/

/-- Modelled from the spec: "packing uses fixed-width words". The width of the word
type `UINT` is declared in `phylotree.h`, which is not part of `src/`; it is the
32-bit `unsigned int`. -/
def UINT_BITS : Nat := 32

/-- Modelled from the spec: the shift that divides a bit index by the word width
(`phylotree.h`, not part of `src/`). -/
def BITS_DIV : Nat := 5

/-- Modelled from the spec: the mask that reduces a bit index modulo the word width
(`phylotree.h`, not part of `src/`). -/
def BITS_MODULO : Nat := 31

/-- The C expression `a << k` on a 32-bit operand. -/
def shl (a k : Nat) : Nat := (a <<< k) % 2 ^ UINT_BITS

/-- The C expression `~a` on a 32-bit operand. -/
def notW (a : Nat) : Nat := (2 ^ UINT_BITS - 1) ^^^ a

/-- The C expression `(1 << k) - 1` in 32-bit arithmetic. -/
def intMask (k : Nat) : Nat := (shl 1 k + (2 ^ UINT_BITS - 1)) % 2 ^ UINT_BITS

/-! ## Alignment -/

/-- One alignment pattern: the state of every sequence, the number of sites that show
the pattern and the constant-site flag (`Pattern` of the alignment module). -/
structure Pattern where
  states : List Nat
  frequency : Nat
  is_const : Bool
deriving DecidableEq, Repr

/-- The part of `Alignment` that the parsimony code reads. -/
structure Alignment where
  num_states : Nat
  nseq : Nat
  patterns : List Pattern
deriving DecidableEq, Repr

/-- The expression `aln->size()`: the number of patterns. -/
def Alignment.size (aln : Alignment) : Nat := aln.patterns.length

/-- The expression `aln->at(ptn).frequency`. -/
def Alignment.freq (aln : Alignment) (ptn : Nat) : Nat :=
  match aln.patterns.get? ptn with
  | some p => p.frequency
  | none => 0

/-- The expression `aln->at(ptn).is_const`. -/
def Alignment.isConst (aln : Alignment) (ptn : Nat) : Bool :=
  match aln.patterns.get? ptn with
  | some p => p.is_const
  | none => false

/-- The expression `(aln->at(ptn))[id]`: the state of sequence `id` at pattern `ptn`. -/
def Alignment.state (aln : Alignment) (ptn id : Nat) : Nat :=
  match aln.patterns.get? ptn with
  | some p => p.states.getD id 0
  | none => 0

/-! ## Bit-packed state sets -/

/-- Source: `PhyloTree::getBitsBlockSize`. The last word is reserved for the score. -/
def getBitsBlockSize (aln : Alignment) : Nat :=
  (aln.num_states * aln.size + UINT_BITS - 1) / UINT_BITS + 1

/-- Source: `PhyloTree::getBitsEntrySize`. -/
def getBitsEntrySize (aln : Alignment) : Nat :=
  (aln.num_states + UINT_BITS - 1) / UINT_BITS

/-- The loop of `getBitsBlock`; the state is `(id, rest_bits, bit_pos_begin, part1,
bits_entry)`. Every turn lowers `rest_bits` by a word, so `rest_bits` turns suffice. -/
def getBitsLoop (bit_vec : List Nat) (bit_off_begin : Nat) :
    Nat → Nat → Nat → Nat → Nat → List Nat → Nat × Nat × Nat × Nat × List Nat
  | 0, id, rest_bits, bit_pos_begin, part1, bits_entry =>
      (id, rest_bits, bit_pos_begin, part1, bits_entry)
  | fuel + 1, id, rest_bits, bit_pos_begin, part1, bits_entry =>
      if rest_bits ≥ UINT_BITS then
        let e1 := bits_entry.set id part1
        let e2 :=
          if bit_off_begin > 0 then
            e1.set id (e1.getD id 0 |||
              shl (bit_vec.getD (bit_pos_begin + 1) 0) (UINT_BITS - bit_off_begin))
          else e1
        getBitsLoop bit_vec bit_off_begin fuel (id + 1) (rest_bits - UINT_BITS)
          (bit_pos_begin + 1) (bit_vec.getD (bit_pos_begin + 1) 0 >>> bit_off_begin) e2
      else (id, rest_bits, bit_pos_begin, part1, bits_entry)

/-- Source: `PhyloTree::getBitsBlock`. Reads the state set of pattern `index` out of
`bit_vec` into the scratch buffer `bits_entry`, which is returned. -/
def getBitsBlock (aln : Alignment) (bit_vec : List Nat) (index : Nat)
    (bits_entry : List Nat) : List Nat :=
  let nstates := aln.num_states
  let myindex := index * nstates
  let bit_pos_begin := myindex >>> BITS_DIV
  let bit_off_begin := myindex &&& BITS_MODULO
  let bit_pos_end := (myindex + nstates) >>> BITS_DIV
  let bit_off_end := (myindex + nstates) &&& BITS_MODULO
  if bit_pos_begin = bit_pos_end then
    bits_entry.set 0 ((bit_vec.getD bit_pos_begin 0 >>> bit_off_begin) &&& intMask nstates)
  else
    let part1 := bit_vec.getD bit_pos_begin 0 >>> bit_off_begin
    match getBitsLoop bit_vec bit_off_begin nstates 0 nstates bit_pos_begin part1 bits_entry with
    | (id, rest_bits, bit_pos_begin, part1, bits_entry) =>
      if bit_pos_begin = bit_pos_end then
        bits_entry.set id
          ((bit_vec.getD bit_pos_begin 0 >>> bit_off_begin) &&& intMask rest_bits)
      else
        let part2 := bit_vec.getD bit_pos_end 0
        let part2 := if bit_off_end < UINT_BITS then part2 &&& intMask bit_off_end else part2
        let e1 := bits_entry.set id part1
        if bit_off_begin > 0 then
          e1.set id (e1.getD id 0 ||| shl part2 (UINT_BITS - bit_off_begin))
        else e1

/-- The loop of `setBitsBlock`; the state is `(id, rest_bits, bit_pos_begin, bit_vec)`. -/
def setBitsLoop (bits_entry : List Nat) (bit_off_begin len1 : Nat) :
    Nat → Nat → Nat → Nat → List Nat → Nat × Nat × Nat × List Nat
  | 0, id, rest_bits, bit_pos_begin, bit_vec => (id, rest_bits, bit_pos_begin, bit_vec)
  | fuel + 1, id, rest_bits, bit_pos_begin, bit_vec =>
      if rest_bits ≥ UINT_BITS then
        let v1 := bit_vec.set (bit_pos_begin + 1) (shl (bits_entry.getD (id + 1) 0) bit_off_begin)
        let v2 :=
          if len1 < UINT_BITS then
            v1.set (bit_pos_begin + 1)
              (v1.getD (bit_pos_begin + 1) 0 ||| (bits_entry.getD id 0 >>> len1))
          else v1
        setBitsLoop bits_entry bit_off_begin len1 fuel (id + 1) (rest_bits - UINT_BITS)
          (bit_pos_begin + 1) v2
      else (id, rest_bits, bit_pos_begin, bit_vec)

/-- Source: `PhyloTree::setBitsBlock`. Writes the state set `bits_entry` at pattern
`index` of `bit_vec`; the updated vector is returned, or `none` when the `assert` of the
source fails. -/
def setBitsBlock (aln : Alignment) (bit_vec : List Nat) (index : Nat)
    (bits_entry : List Nat) : Option (List Nat) :=
  let nstates := aln.num_states
  let myindex := index * nstates
  let bit_pos_begin := myindex >>> BITS_DIV
  let bit_off_begin := myindex &&& BITS_MODULO
  let bit_pos_end := (myindex + nstates) >>> BITS_DIV
  let bit_off_end := (myindex + nstates) &&& BITS_MODULO
  if bit_pos_begin = bit_pos_end then
    let allstates := intMask nstates
    let v1 := bit_vec.set bit_pos_begin
      (bit_vec.getD bit_pos_begin 0 &&& notW (shl allstates bit_off_begin))
    some (v1.set bit_pos_begin
      (v1.getD bit_pos_begin 0 ||| shl (bits_entry.getD 0 0) bit_off_begin))
  else
    let len1 := UINT_BITS - bit_off_begin
    let v1 := bit_vec.set bit_pos_begin (bit_vec.getD bit_pos_begin 0 &&& intMask bit_off_begin)
    let v2 := v1.set bit_pos_begin
      (v1.getD bit_pos_begin 0 ||| shl (bits_entry.getD 0 0) bit_off_begin)
    let rest_bits := nstates - len1
    match setBitsLoop bits_entry bit_off_begin len1 nstates 0 rest_bits bit_pos_begin v2 with
    | (id, rest_bits, bit_pos_begin, v3) =>
      if bit_pos_begin + 1 = bit_pos_end then
        let v4 := v3.set bit_pos_end (v3.getD bit_pos_end 0 &&& notW (intMask bit_off_end))
        let v5 :=
          if len1 < UINT_BITS then
            v4.set bit_pos_end (v4.getD bit_pos_end 0 ||| (bits_entry.getD id 0 >>> len1))
          else v4
        if rest_bits > bit_off_begin then
          some (v5.set bit_pos_end
            (v5.getD bit_pos_end 0 ||| shl (bits_entry.getD (id + 1) 0) bit_off_begin))
        else some v5
      else none

/-- The `memset` of `setBitsAll`: the first `n` words of the vector take the value `val`. -/
def fillWords : List Nat → Nat → Nat → List Nat
  | [], _, _ => []
  | w :: ws, 0, _ => w :: ws
  | _ :: ws, n + 1, val => val :: fillWords ws n val

/-- Source: `setBitsAll`. Sets the first `num` bits of the vector. -/
def setBitsAll (bit_vec : List Nat) (num : Nat) : List Nat :=
  let size := num / UINT_BITS
  let v1 := fillWords bit_vec size (2 ^ UINT_BITS - 1)
  let num := num &&& BITS_MODULO
  if num ≠ 0 then v1.set size (intMask num) else v1

/-- The loop and the final test of `isEmptyBitsEntry`; the state is `(i, rest_bits)`. -/
def isEmptyBitsLoop (bits_entry : List Nat) : Nat → Nat → Nat → Bool
  | 0, i, rest_bits => bits_entry.getD i 0 &&& intMask rest_bits == 0
  | fuel + 1, i, rest_bits =>
      if rest_bits ≥ UINT_BITS then
        if bits_entry.getD i 0 ≠ 0 then false
        else isEmptyBitsLoop bits_entry fuel (i + 1) (rest_bits - UINT_BITS)
      else bits_entry.getD i 0 &&& intMask rest_bits == 0

/-- Source: `PhyloTree::isEmptyBitsEntry`. -/
def isEmptyBitsEntry (aln : Alignment) (bits_entry : List Nat) : Bool :=
  isEmptyBitsLoop bits_entry aln.num_states 0 aln.num_states

/-- The loop of `unionBitsEntry`; the state is `(i, rest_bits)`, and `rest_bits` is the
part of the counter that is still positive. -/
def unionBitsLoop (bits_entry1 bits_entry2 : List Nat) : Nat → Nat → Nat → List Nat → List Nat
  | 0, _, _, bits_union => bits_union
  | fuel + 1, i, rest_bits, bits_union =>
      if rest_bits > 0 then
        unionBitsLoop bits_entry1 bits_entry2 fuel (i + 1) (rest_bits - UINT_BITS)
          (bits_union.set i (bits_entry1.getD i 0 ||| bits_entry2.getD i 0))
      else bits_union

/-- Source: `PhyloTree::unionBitsEntry`. -/
def unionBitsEntry (aln : Alignment) (bits_entry1 bits_entry2 bits_union : List Nat) :
    List Nat :=
  unionBitsLoop bits_entry1 bits_entry2 aln.num_states 0 aln.num_states bits_union

/-- Source: `PhyloTree::setBitsEntry`. -/
def setBitsEntry (bits_entry : List Nat) (id : Nat) : List Nat :=
  let bit_pos := id >>> BITS_DIV
  let bit_off := id &&& BITS_MODULO
  bits_entry.set bit_pos (bits_entry.getD bit_pos 0 ||| shl 1 bit_off)

/-- Source: `PhyloTree::getBitsEntry`. -/
def getBitsEntry (bits_entry : List Nat) (id : Nat) : Bool :=
  let bit_pos := id >>> BITS_DIV
  let bit_off := id &&& BITS_MODULO
  bits_entry.getD bit_pos 0 &&& shl 1 bit_off != 0

/-! ## The tree behind a half-edge -/

/-- The parsimony cache of a half-edge (`PhyloNeighbor`): the bit-packed state sets
with the score in the last word, and the flags, of which bit 1 says that the
parsimony cache is valid. -/
structure PhyloNeighbor where
  partial_pars : List Nat
  partial_lh_computed : Nat
deriving DecidableEq, Repr

/-- A half-edge `dad -> node` with everything the recursion of the parsimony code sees
behind it: the cache of the half-edge and either a leaf (its sequence `id`, and
whether its name is `ROOT_NAME`) or an internal node of degree 3 with its two other
half-edges in neighbor order. -/
inductive Branch where
  | leaf (nei : PhyloNeighbor) (id : Nat) (isRootName : Bool)
  | internal (nei : PhyloNeighbor) (child1 child2 : Branch)
deriving DecidableEq, Repr

/-- The cache of the half-edge. -/
def Branch.nei : Branch → PhyloNeighbor
  | .leaf nei _ _ => nei
  | .internal nei _ _ => nei

/-- The test `node->isLeaf()` on the node the half-edge points to. -/
def Branch.isLeaf : Branch → Bool
  | .leaf _ _ _ => true
  | .internal _ _ _ => false

/-- The test `node->name == ROOT_NAME` on the node the half-edge points to; internal
nodes carry no name. -/
def Branch.isRootName : Branch → Bool
  | .leaf _ _ rn => rn
  | .internal _ _ _ => false

/-- The same half-edge with another cache. -/
def Branch.setNei : Branch → PhyloNeighbor → Branch
  | .leaf _ id rn, nei => .leaf nei id rn
  | .internal _ c1 c2, nei => .internal nei c1 c2

/-! ## Partial parsimony -/

section Parsimony

variable (aln : Alignment) (STATE_UNKNOWN : Nat)

/-- The state a leaf shows at a pattern, as both parsimony routines read it: the unknown
state for a node named `ROOT_NAME`, else the alignment entry, after the `assert` that
the node id is a sequence index. -/
def leafState (id : Nat) (isRootName : Bool) (ptn : Nat) : Option Nat :=
  if isRootName then some STATE_UNKNOWN
  else if id < aln.nseq then some (aln.state ptn id)
  else none

/-- One turn of the pattern loop of the leaf case of `computePartialParsimony`. -/
def leafStep (id : Nat) (isRootName : Bool) (partial_pars : List Nat) (ptn : Nat) :
    Option (List Nat) :=
  (leafState aln STATE_UNKNOWN id isRootName ptn).bind fun state =>
    if state = STATE_UNKNOWN then some partial_pars
    else if state < aln.num_states then
      setBitsBlock aln partial_pars ptn
        (setBitsEntry (List.replicate (getBitsEntrySize aln) 0) state)
    else
      let state := state + 1 - aln.num_states
      setBitsBlock aln partial_pars ptn
        ((List.replicate (getBitsEntrySize aln) 0).set 0 state)

/-- The leaf case of `computePartialParsimony` on the vector of the half-edge. -/
def leafPartialPars (id : Nat) (isRootName : Bool) (partial_pars : List Nat) :
    Option (List Nat) :=
  let pars_size := getBitsBlockSize aln
  let p1 := setBitsAll partial_pars (aln.num_states * aln.size)
  let p2 := p1.set (pars_size - 1) 0
  (List.range aln.size).foldlM (leafStep aln STATE_UNKNOWN id isRootName) p2

/-- The loop `partial_pars_dad[i] = child1[i] & child2[i]` over the first `n` words. -/
def andWords (dad child1 child2 : List Nat) (n : Nat) : List Nat :=
  (List.range n).foldl (fun v i => v.set i (child1.getD i 0 &&& child2.getD i 0)) dad

/-- One turn of the pattern loop of the internal case of `computePartialParsimony`; the
state is the vector of the half-edge and the running score. -/
def internalStep (child1 child2 : List Nat) (st : List Nat × Nat) (ptn : Nat) :
    Option (List Nat × Nat) :=
  let scratch := List.replicate (getBitsEntrySize aln) 0
  let bits_entry := getBitsBlock aln st.1 ptn scratch
  if isEmptyBitsEntry aln bits_entry then
    let bits_entry1 := getBitsBlock aln child1 ptn scratch
    let bits_entry2 := getBitsBlock aln child2 ptn scratch
    let bits_entry := unionBitsEntry aln bits_entry1 bits_entry2 bits_entry
    (setBitsBlock aln st.1 ptn bits_entry).map fun v => (v, st.2 + aln.freq ptn)
  else some st

/-- The internal case of `computePartialParsimony` on the vector of the half-edge, from
the vectors of the two child half-edges. -/
def internalPartialPars (dad child1 child2 : List Nat) : Option (List Nat) :=
  let pars_size := getBitsBlockSize aln
  let d1 := andWords dad child1 child2 (pars_size - 1)
  let partial_pars := child1.getD (pars_size - 1) 0 + child2.getD (pars_size - 1) 0
  ((List.range aln.size).foldlM (internalStep aln child1 child2) (d1, partial_pars)).map
    fun st => st.1.set (pars_size - 1) st.2

/-- Source: `PhyloTree::computePartialParsimony`. The result is the half-edge with its
cache, and the caches behind it, filled in; `none` is a failed `assert`. -/
def computePartialParsimony : Branch → Option Branch
  | .leaf nei id rn =>
      if nei.partial_lh_computed &&& 2 ≠ 0 then some (.leaf nei id rn)
      else
        (leafPartialPars aln STATE_UNKNOWN id rn nei.partial_pars).map fun pars =>
          .leaf ⟨pars, nei.partial_lh_computed ||| 2⟩ id rn
  | .internal nei child1 child2 =>
      if nei.partial_lh_computed &&& 2 ≠ 0 then some (.internal nei child1 child2)
      else if child1.isRootName || child2.isRootName then none
      else
        (computePartialParsimony child1).bind fun c1 =>
        (computePartialParsimony child2).bind fun c2 =>
        (internalPartialPars aln nei.partial_pars c1.nei.partial_pars
            c2.nei.partial_pars).map fun pars =>
          .internal ⟨pars, nei.partial_lh_computed ||| 2⟩ c1 c2

/-- The combination step of `computeParsimonyBranch` on the vectors of the two
half-edges of the edge. -/
def combineParsimony (node_pars dad_pars : List Nat) : Nat :=
  let pars_size := getBitsBlockSize aln
  let tree_pars := node_pars.getD (pars_size - 1) 0 + dad_pars.getD (pars_size - 1) 0
  let partial_pars :=
    andWords (List.replicate pars_size 0) node_pars dad_pars (pars_size - 1)
  (List.range aln.size).foldl (fun tree_pars ptn =>
    let bits_entry := getBitsBlock aln partial_pars ptn
      (List.replicate (getBitsEntrySize aln) 0)
    if isEmptyBitsEntry aln bits_entry then tree_pars + aln.freq ptn else tree_pars)
    tree_pars

/-- Source: `PhyloTree::computeParsimonyBranch`, on the half-edge `dad -> node`
(`dad_branch`) and its reverse `node -> dad` (`node_branch`). The result is the score
with the two half-edges after their caches were filled in. -/
def computeParsimonyBranch (dad_branch node_branch : Branch) :
    Option (Nat × Branch × Branch) :=
  if dad_branch.isLeaf then
    (computePartialParsimony aln STATE_UNKNOWN node_branch).bind fun d =>
    (computePartialParsimony aln STATE_UNKNOWN dad_branch).bind fun n =>
      some (combineParsimony aln n.nei.partial_pars d.nei.partial_pars, n, d)
  else
    (computePartialParsimony aln STATE_UNKNOWN dad_branch).bind fun d =>
    (computePartialParsimony aln STATE_UNKNOWN node_branch).bind fun n =>
      some (combineParsimony aln n.nei.partial_pars d.nei.partial_pars, d, n)

/-! ## The reference Fitch score -/

/-- The state set, as an `int`, that `computeParsimonyScore` gives a leaf state. -/
def leafStates (state : Nat) : Nat :=
  if state = STATE_UNKNOWN then intMask aln.num_states
  else if state < aln.num_states then shl 1 state
  else (state + (2 ^ UINT_BITS - 3)) % 2 ^ UINT_BITS

/-- Source: `PhyloTree::computeParsimonyScore(ptn, states, node, dad)` at a node other
than the root: the score and the state set of the subtree. -/
def computeParsimonyScoreNode (ptn : Nat) : Branch → Option (Nat × Nat)
  | .leaf _ id rn =>
      (leafState aln STATE_UNKNOWN id rn ptn).map fun state =>
        (0, leafStates aln STATE_UNKNOWN state)
  | .internal _ child1 child2 =>
      (computeParsimonyScoreNode ptn child1).bind fun r1 =>
      (computeParsimonyScoreNode ptn child2).bind fun r2 =>
        let union_states := (0 ||| r1.2) ||| r2.2
        let intersect_states := (intMask aln.num_states &&& r1.2) &&& r2.2
        let score := 0 + r1.1 + r2.1
        if intersect_states ≠ 0 then some (score, intersect_states)
        else some (score + 1, union_states)

/-- Source: `PhyloTree::computeParsimonyScore(ptn, states)` called at the root, a leaf
whose single neighbor is the node `body` points to: the score and the state set. -/
def computeParsimonyScorePtn (ptn : Nat) (root body : Branch) : Option (Nat × Nat) :=
  match root with
  | .internal _ _ _ => none
  | .leaf _ id rn =>
      (leafState aln STATE_UNKNOWN id rn ptn).bind fun state =>
        let states := leafStates aln STATE_UNKNOWN state
        let union_states := if states ≠ 0 then states else 0
        let intersect_states := if states ≠ 0 then states else intMask aln.num_states
        (computeParsimonyScoreNode aln STATE_UNKNOWN ptn body).bind fun r =>
          let union_states := union_states ||| r.2
          let intersect_states := intersect_states &&& r.2
          let score := 0 + r.1
          if intersect_states ≠ 0 then some (score, intersect_states)
          else some (score + 1, union_states)

/-- Source: `PhyloTree::computeParsimonyScore()`. -/
def computeParsimonyScore (root body : Branch) : Option Nat :=
  if root.isLeaf then
    (List.range aln.size).foldlM (fun score ptn =>
      if !aln.isConst ptn then
        (computeParsimonyScorePtn aln STATE_UNKNOWN ptn root body).map fun r =>
          score + r.1 * aln.freq ptn
      else some score) 0
  else none

end Parsimony

/-! ## The tree store and `doNNI` -/

/-- A half-edge as the tree store keeps it (`Neighbor` with the fields of
`PhyloNeighbor` that the topology code touches): the node it points to, the branch
length, the branch id, the validity flags of its caches and `lh_scale_factor`, which
the IQP code uses as the bonus of the half-edge. Nodes are named by their index in the
store. -/
structure Neighbor where
  node : Nat
  length : ℚ
  id : Nat
  partial_lh_computed : Nat
  lh_scale_factor : ℚ
deriving DecidableEq, Repr

/-- A node of the tree store: its id and its neighbors in slot order. -/
structure Node where
  id : Nat
  neighbors : List Neighbor
deriving DecidableEq, Repr

/-- The tree store: the nodes, each holding its half-edges by value. A store of the
source keeps every `Neighbor` object in one slot of one node, which is what the value
representation says. -/
structure Tree where
  nodes : List Node
deriving DecidableEq, Repr

/-- Source: `NNIMove`, the two ends of the central branch and, for each, the slot
(`NeighborVec::iterator`) of the neighbor that is exchanged. -/
structure NNIMove where
  node1 : Nat
  node1Nei_it : Nat
  node2 : Nat
  node2Nei_it : Nat
deriving DecidableEq, Repr

/-- The neighbors of a node of the store (none for a name that is not in the store). -/
def Tree.neighbors (t : Tree) (n : Nat) : List Neighbor :=
  match t.nodes.get? n with
  | some nd => nd.neighbors
  | none => []

/-- The store with the neighbor vector of node `n` replaced. -/
def Tree.setNeighbors (t : Tree) (n : Nat) (ns : List Neighbor) : Tree :=
  match t.nodes.get? n with
  | some nd => ⟨t.nodes.set n { nd with neighbors := ns }⟩
  | none => t

/-- Modelled from the spec: "find the neighbor from A to B" of the tree store
(`Node::findNeighborIt`, declared in `node.h`, which is not part of `src/`): the first
slot of the vector that points to `node`. -/
def findNeighborIt (ns : List Neighbor) (node : Nat) : Option Nat :=
  ns.findIdx? (fun nei => nei.node == node)

/-- Modelled from the spec: "update one endpoint of a neighbor" of the tree store, in
the form `Node::updateNeighbor(NeighborVec::iterator, Neighbor*)` (`node.h`, not part
of `src/`): the slot takes the given half-edge. -/
def Tree.updateNeighborIt (t : Tree) (n : Nat) (nei_it : Nat) (newnei : Neighbor) :
    Option Tree :=
  if nei_it < (t.neighbors n).length then
    some (t.setNeighbors n ((t.neighbors n).set nei_it newnei))
  else none

/-- Modelled from the spec: "update one endpoint of a neighbor" of the tree store, in
the form `Node::updateNeighbor(Node*, Node*)` (`node.h`, not part of `src/`): the
half-edge of `n` that points to `node` is made to point to `newnode`. -/
def Tree.updateNeighbor (t : Tree) (n : Nat) (node newnode : Nat) : Option Tree :=
  match findNeighborIt (t.neighbors n) node with
  | some i =>
      some (t.setNeighbors n
        ((t.neighbors n).modify (fun nei => { nei with node := newnode }) i))
  | none => none

/-- Source: `PhyloNeighbor::clearPartialLh` applied to the half-edge of `n` that points
to `node`: its flags are cleared. Nothing changes when there is no such half-edge. -/
def Tree.clearPartialLh (t : Tree) (n node : Nat) : Tree :=
  match findNeighborIt (t.neighbors n) node with
  | some i =>
      t.setNeighbors n
        ((t.neighbors n).modify (fun nei => { nei with partial_lh_computed := 0 }) i)
  | none => t

/-- Modelled from the spec: "`clear_reverse_partial_lh(from, through)` clears the flags
on the half-edges pointing toward `from` from the subtree rooted at `through`"
(`PhyloNode::clearReversePartialLh`, not part of `src/`). Called on `node` with
`dad`, it clears the half-edge `node -> dad` and goes on, away from `dad`, through
every other neighbor of `node`. The recursion depth is bounded by `fuel`. -/
def clearReverseAux : Nat → Tree → Nat → Nat → Tree
  | 0, t, _, _ => t
  | fuel + 1, t, node, dad =>
      let t1 := t.clearPartialLh node dad
      ((t1.neighbors node).filter (fun nei => nei.node != dad)).foldl
        (fun acc nei => clearReverseAux fuel acc nei.node node) t1

/-- Modelled from the spec: `node->clearReversePartialLh(dad)`; in a tree the depth of
the recursion is below the number of nodes. -/
def Tree.clearReversePartialLh (t : Tree) (node dad : Nat) : Tree :=
  clearReverseAux t.nodes.length t node dad

/-- Source: `PhyloTree::doNNI`. The result is `none` when an `assert` of the source
fails or an iterator of the move is not a slot of its node. -/
def doNNI (t : Tree) (move : NNIMove) : Option Tree :=
  let node1 := move.node1
  let node2 := move.node2
  let node1Nei_it := move.node1Nei_it
  let node2Nei_it := move.node2Nei_it
  match (t.neighbors node1).get? node1Nei_it, (t.neighbors node2).get? node2Nei_it with
  | some node1Nei, some node2Nei =>
      if (t.neighbors node1).length = 3 ∧ (t.neighbors node2).length = 3 then
        (t.updateNeighborIt node1 node1Nei_it node2Nei).bind fun t1 =>
        (t1.updateNeighbor node2Nei.node node2 node1).bind fun t2 =>
        (t2.updateNeighborIt node2 node2Nei_it node1Nei).bind fun t3 =>
        (t3.updateNeighbor node1Nei.node node1 node2).bind fun t4 =>
          let t5 := t4.clearPartialLh node1 node2
          let t6 := t5.clearPartialLh node2 node1
          let t7 := t6.clearReversePartialLh node2 node1
          some (t7.clearReversePartialLh node1 node2)
      else none
  | _, _ => none

/-- The moves that the NNI search hands to `doNNI` on an unrooted binary tree: the
central branch joins two distinct nodes of degree 3; the slots of the move hold
neighbors `A` of `node1` and `B` of `node2` that are neither end of the central branch
and differ from each other; and, the tree having no cycle, `A` has a half-edge back to
`node1` and none to `node2`, and `B` one back to `node2` and none to `node1`. -/
def NNIMove.valid (t : Tree) (move : NNIMove) : Bool :=
  match (t.neighbors move.node1).get? move.node1Nei_it,
      (t.neighbors move.node2).get? move.node2Nei_it with
  | some node1Nei, some node2Nei =>
      (t.neighbors move.node1).length == 3 && (t.neighbors move.node2).length == 3 &&
      move.node1 != move.node2 &&
      node1Nei.node != move.node1 && node1Nei.node != move.node2 &&
      node2Nei.node != move.node1 && node2Nei.node != move.node2 &&
      node1Nei.node != node2Nei.node &&
      (findNeighborIt (t.neighbors node1Nei.node) move.node1).isSome &&
      (findNeighborIt (t.neighbors node1Nei.node) move.node2).isNone &&
      (findNeighborIt (t.neighbors node2Nei.node) move.node2).isSome &&
      (findNeighborIt (t.neighbors node2Nei.node) move.node1).isNone
  | _, _ => false

/-- The lengths of all half-edges of the tree, node by node and slot by slot. -/
def Tree.branchLengths (t : Tree) : List ℚ :=
  (t.nodes.map fun nd => nd.neighbors.map (·.length)).flatten

/-- The node in slot `k` of node `n`. -/
def Tree.neighborNode (t : Tree) (n k : Nat) : Option Nat :=
  ((t.neighbors n).get? k).map (·.node)

/-- The branch length in slot `k` of node `n`. -/
def Tree.neighborLength (t : Tree) (n k : Nat) : Option ℚ :=
  ((t.neighbors n).get? k).map (·.length)

/-! ## Leaf deletion and reinsertion -/

/-- Modelled from the spec: a leaf is a node with a single neighbor (`Node::isLeaf`,
declared in `node.h`, which is not part of `src/`). -/
def Tree.isLeaf (t : Tree) (n : Nat) : Bool := (t.neighbors n).length ≤ 1

/-- Modelled from the spec: "update one endpoint of a neighbor" of the tree store, in
the form `Node::updateNeighbor(Node*, Node*, double)` (`node.h`, not part of `src/`):
the half-edge of `n` that points to `node` is made to point to `newnode` and takes the
length `newlen`. -/
def Tree.updateNeighborLength (t : Tree) (n : Nat) (node newnode : Nat) (newlen : ℚ) :
    Option Tree :=
  match findNeighborIt (t.neighbors n) node with
  | some i =>
      some (t.setNeighbors n
        ((t.neighbors n).modify (fun nei => { nei with node := newnode, length := newlen }) i))
  | none => none

/-- The loop `FOR_NEIGHBOR_IT(near_node, leaf, it)` of `deleteLeaf`; the state is
`(node1, node2, sum_len)`, a null pointer being `none`. -/
def deleteLeafScan (leaf : Nat) (neighbors : List Neighbor) :
    Option Nat × Option Nat × ℚ :=
  neighbors.foldl (fun st it =>
    if it.node != leaf then
      if st.1.isNone then (some it.node, st.2.1, st.2.2 + it.length)
      else (st.1, some it.node, st.2.2 + it.length)
    else st) (none, none, 0)

/-- Source: `PhyloTree::deleteLeaf`. The result is `none` when `leaf` has no neighbor
or an `assert` of the source fails. -/
def deleteLeaf (t : Tree) (leaf : Nat) : Option Tree :=
  match (t.neighbors leaf).get? 0 with
  | none => none
  | some nei0 =>
      let near_node := nei0.node
      if t.isLeaf leaf ∧ (t.neighbors near_node).length = 3 then
        match deleteLeafScan leaf (t.neighbors near_node) with
        | (some node1, some node2, sum_len) =>
            (t.updateNeighborLength node1 near_node node2 sum_len).bind fun t1 =>
              t1.updateNeighborLength node2 near_node node1 sum_len
        | _ => none
      else none

/-- One turn of the loop `FOR_NEIGHBOR_IT(adjacent_node, leaf, it)` of `reinsertLeaf`,
at slot `k` of `adjacent_node`; the state is the tree and the variable `first`. -/
def reinsertLeafStep (leaf adjacent_node node dad : Nat) (len : ℚ) (st : Tree × Bool)
    (k : Nat) : Option (Tree × Bool) :=
  match (st.1.neighbors adjacent_node).get? k with
  | none => some st
  | some it =>
      if it.node != leaf then
        if st.2 then
          let t1 := st.1.setNeighbors adjacent_node
            ((st.1.neighbors adjacent_node).set k { it with node := node, length := len / 2 })
          (t1.updateNeighborLength node dad adjacent_node (len / 2)).map fun t2 => (t2, false)
        else
          let t1 := st.1.setNeighbors adjacent_node
            ((st.1.neighbors adjacent_node).set k { it with node := dad, length := len / 2 })
          (t1.updateNeighborLength dad node adjacent_node (len / 2)).map fun t2 => (t2, false)
      else some st

/-- The body that `PhyloTree::reinsertLeaf` and `IQPTree::reinsertLeaf` share, once
`adjacent_node` is known: `nei = node->findNeighbor(dad)`, `len = nei->length`, and the
loop over the neighbors of `adjacent_node`. -/
def reinsertLeafAt (t : Tree) (leaf adjacent_node node dad : Nat) : Option Tree :=
  match findNeighborIt (t.neighbors node) dad with
  | none => none
  | some i =>
      match (t.neighbors node).get? i with
      | none => none
      | some nei =>
          ((List.range (t.neighbors adjacent_node).length).foldlM
            (reinsertLeafStep leaf adjacent_node node dad nei.length) (t, true)).map (·.1)

/-- Source: `PhyloTree::reinsertLeaf`. -/
def reinsertLeaf (t : Tree) (leaf node dad : Nat) : Option Tree :=
  match (t.neighbors leaf).get? 0 with
  | none => none
  | some nei0 => reinsertLeafAt t leaf nei0.node node dad

/-- Source: `IQPTree::deleteLeaf`, which repeats `PhyloTree::deleteLeaf`. -/
def IQPTree.deleteLeaf (t : Tree) (leaf : Nat) : Option Tree :=
  match (t.neighbors leaf).get? 0 with
  | none => none
  | some nei0 =>
      let near_node := nei0.node
      if t.isLeaf leaf ∧ (t.neighbors near_node).length = 3 then
        match deleteLeafScan leaf (t.neighbors near_node) with
        | (some node1, some node2, sum_len) =>
            (t.updateNeighborLength node1 near_node node2 sum_len).bind fun t1 =>
              t1.updateNeighborLength node2 near_node node1 sum_len
        | _ => none
      else none

/-- Source: `IQPTree::reinsertLeaf`, which takes `adjacent_node` as an argument. -/
def IQPTree.reinsertLeaf (t : Tree) (leaf adjacent_node node dad : Nat) : Option Tree :=
  reinsertLeafAt t leaf adjacent_node node dad

/-! ## The IQP perturbation -/

/-- The variables of `IQPTree::deleteLeaves`: the tree, the two output vectors, `root`
and `remain_leaves`. -/
structure DeleteLeavesState where
  tree : Tree
  del_leaves : List Nat
  adjacent_nodes : List Nat
  root : Option Nat
  remain_leaves : Nat
deriving DecidableEq, Repr

/-- One turn of the loop of `IQPTree::deleteLeaves` at `taxon`, `r` being the value
that `rand()` returns in this turn. -/
def IQPTree.deleteLeavesStep (p_delete : ℚ) (RAND_MAX : Nat) (st : DeleteLeavesState)
    (taxon r : Nat) : Option DeleteLeavesState :=
  if (r : ℚ) / (RAND_MAX : ℚ) < p_delete ∧ st.remain_leaves > 3 then
    match (st.tree.neighbors taxon).get? 0 with
    | none => none
    | some nei0 =>
        (IQPTree.deleteLeaf st.tree taxon).map fun t1 =>
          { tree := t1, del_leaves := st.del_leaves ++ [taxon],
            adjacent_nodes := st.adjacent_nodes ++ [nei0.node], root := st.root,
            remain_leaves := st.remain_leaves - 1 }
  else if st.root.isNone then some { st with root := some taxon }
  else some st

/-- The loop of `IQPTree::deleteLeaves` over the rest of `taxa`; `k` counts the calls of
`rand()` made so far (`rand k` is the value of call `k`). -/
def IQPTree.deleteLeavesLoop (p_delete : ℚ) (RAND_MAX : Nat) (rand : Nat → Nat) :
    List Nat → Nat → DeleteLeavesState → Option DeleteLeavesState
  | [], _, st => some st
  | taxon :: rest, k, st =>
      (IQPTree.deleteLeavesStep p_delete RAND_MAX st taxon (rand k)).bind fun st1 =>
        IQPTree.deleteLeavesLoop p_delete RAND_MAX rand rest (k + 1) st1

/-- Source: `IQPTree::deleteLeaves`. The vector `taxa` is what `getTaxa` (of the tree
store, not part of `src/`) fills: the leaves of the tree; the two output vectors come
in as the caller passes them. -/
def IQPTree.deleteLeaves (p_delete : ℚ) (RAND_MAX : Nat) (rand : Nat → Nat) (t : Tree)
    (taxa : List Nat) (del_leaves adjacent_nodes : List Nat) : Option DeleteLeavesState :=
  IQPTree.deleteLeavesLoop p_delete RAND_MAX rand taxa 0
    { tree := t, del_leaves := del_leaves, adjacent_nodes := adjacent_nodes, root := none,
      remain_leaves := taxa.length }

/-- Source: `IQPTree::assessQuartet`, on the ids of the four leaves; the distance
matrix is a row-major vector, distances are rationals. -/
def IQPTree.assessQuartet (dist_matrix : List ℚ) (nseq : Nat)
    (leaf0 leaf1 leaf2 del_leaf : Nat) : Nat :=
  let dist0 := dist_matrix.getD (leaf0 * nseq + del_leaf) 0
    + dist_matrix.getD (leaf1 * nseq + leaf2) 0
  let dist1 := dist_matrix.getD (leaf1 * nseq + del_leaf) 0
    + dist_matrix.getD (leaf0 * nseq + leaf2) 0
  let dist2 := dist_matrix.getD (leaf2 * nseq + del_leaf) 0
    + dist_matrix.getD (leaf0 * nseq + leaf1) 0
  if dist0 < dist1 ∧ dist0 < dist2 then 0
  else if dist1 < dist2 then 1
  else 2

/-- The expression `((PhyloNeighbor*)(n->findNeighbor(node)))->lh_scale_factor = f(..)`:
the bonus of the half-edge of `n` that points to `node` is updated; `none` when there
is no such half-edge. -/
def Tree.updateBonus (t : Tree) (n node : Nat) (f : ℚ → ℚ) : Option Tree :=
  match findNeighborIt (t.neighbors n) node with
  | some i =>
      some (t.setNeighbors n
        ((t.neighbors n).modify
          (fun nei => { nei with lh_scale_factor := f nei.lh_scale_factor }) i))
  | none => none

/-- Source: `IQPTree::initializeBonus(node, dad)`, `dad` being `none` for the null
pointer. The recursion depth is bounded by `fuel`; `none` when the fuel runs out or a
half-edge is missing. -/
def IQPTree.initializeBonusAux : Nat → Tree → Nat → Option Nat → Option Tree
  | 0, _, _, _ => none
  | fuel + 1, t, node, dad =>
      (match dad with
        | some d =>
            (t.updateBonus node d (fun _ => 0)).bind fun t1 =>
              t1.updateBonus d node (fun _ => 0)
        | none => some t).bind fun t1 =>
      ((t1.neighbors node).filter (fun (nei : Neighbor) => some nei.node != dad)).foldlM
        (fun acc (nei : Neighbor) =>
          IQPTree.initializeBonusAux fuel acc nei.node (some node)) t1

/-- Source: `IQPTree::initializeBonus()` called with its defaults, on the tree with the
given `root`. -/
def IQPTree.initializeBonus (t : Tree) (root : Nat) : Option Tree :=
  IQPTree.initializeBonusAux (t.nodes.length + 1) t root none

/-- Source: `IQPTree::raiseBonus(node, dad)`. The recursion depth is bounded by `fuel`;
`none` when the fuel runs out or a half-edge is missing. -/
def IQPTree.raiseBonusAux : Nat → Tree → Nat → Nat → Option Tree
  | 0, _, _, _ => none
  | fuel + 1, t, node, dad =>
      (t.updateBonus node dad (fun b => b + 1)).bind fun t1 =>
      (t1.updateBonus dad node (fun b => b + 1)).bind fun t2 =>
      ((t2.neighbors node).filter (fun nei => nei.node != dad)).foldlM
        (fun acc nei => IQPTree.raiseBonusAux fuel acc nei.node node) t2

/-- Source: `IQPTree::raiseBonus`, with the recursion bounded by the number of nodes. -/
def IQPTree.raiseBonus (t : Tree) (node dad : Nat) : Option Tree :=
  IQPTree.raiseBonusAux t.nodes.length t node dad

/-- The expression `n->id` for a node of the store. -/
def Tree.nodeId (t : Tree) (n : Nat) : Nat :=
  match t.nodes.get? n with
  | some nd => nd.id
  | none => 0

/-- Source: `IQPTree::assessQuartets`. The representative leaves of the subtree behind
a half-edge, which `findRepresentLeaves` computes, are the parameter `represent`
(`represent node dad`, in iteration order of the leaf set). -/
def IQPTree.assessQuartets (dist_matrix : List ℚ) (nseq : Nat)
    (represent : Nat → Nat → List Nat) (t : Tree) (cur_root del_leaf : Nat) : Option Tree :=
  if (t.neighbors cur_root).length = 3 then
    let leaves := (t.neighbors cur_root).map fun it => represent it.node cur_root
    let triples := (leaves.getD 0 []).flatMap fun i0 =>
      (leaves.getD 1 []).flatMap fun i1 => (leaves.getD 2 []).map fun i2 => (i0, i1, i2)
    triples.foldlM (fun acc tr =>
      let best_id := IQPTree.assessQuartet dist_matrix nseq (acc.nodeId tr.1)
        (acc.nodeId tr.2.1) (acc.nodeId tr.2.2) (acc.nodeId del_leaf)
      match (acc.neighbors cur_root).get? best_id with
      | some nei => IQPTree.raiseBonus acc nei.node cur_root
      | none => none) t
  else none

/-- Source: the loop of `IQPTree::reinsertLeaves` over the deleted leaves and their
adjacent nodes. The work of one turn on the tree (the bonus votes, the choice of the
best branch with one call of `rand()`, and `reinsertLeaf`) is the parameter `turn`,
which gets the tree, the leaf, its adjacent node and the value of `rand()`. -/
def IQPTree.reinsertLeavesLoop (turn : Tree → Nat → Nat → Nat → Option Tree)
    (rand : Nat → Nat) : List Nat → List Nat → Nat → Tree → Option Tree
  | it_leaf :: del_leaves, it_node :: adjacent_nodes, k, t =>
      (turn t it_leaf it_node (rand k)).bind fun t1 =>
        IQPTree.reinsertLeavesLoop turn rand del_leaves adjacent_nodes (k + 1) t1
  | _, _, _, t => some t

/-! ## SPR candidate moves -/

/-- Source: `SPRMove` (declared in `phylotree.h`, which is not part of `src/`): the
four nodes of the move and its score. -/
structure SPRMove where
  prune_node : Nat
  prune_dad : Nat
  regraft_node : Nat
  regraft_dad : Nat
  score : ℚ
deriving DecidableEq, Repr

/-- Modelled from the spec: `SPRMoves` is "a bounded sorted set of best recent moves",
kept "best-first", the best being the largest score ("top-K by largest likelihood");
its comparison is declared in `phylotree.h`, which is not part of `src/`. The set is
the list of its elements in iteration order, so `rbegin()` is the last element, the one
with the smallest score. This is `std::set::insert`: a move whose score the set already
holds is equivalent to that element and is not inserted. -/
def SPRMoves.insert (spr : SPRMove) : List SPRMove → List SPRMove
  | [] => [spr]
  | m :: ms =>
      if spr.score > m.score then spr :: m :: ms
      else if m.score > spr.score then m :: SPRMoves.insert spr ms
      else m :: ms

/-- Source: `SPRMoves::add`. `MAX_SPR_MOVES` is declared in `phylotree.h`, which is not
part of `src/`, and is a parameter. The result is `none` when `rbegin()` is taken of an
empty set. -/
def SPRMoves.add (MAX_SPR_MOVES : Nat) (moves : List SPRMove)
    (prune_node prune_dad regraft_node regraft_dad : Nat) (score : ℚ) :
    Option (List SPRMove) :=
  if moves.length ≥ MAX_SPR_MOVES then
    match moves.getLast? with
    | none => none
    | some last =>
        if score ≤ last.score then some moves
        else
          some (SPRMoves.insert ⟨prune_node, prune_dad, regraft_node, regraft_dad, score⟩
            moves.dropLast)
  else some (SPRMoves.insert ⟨prune_node, prune_dad, regraft_node, regraft_dad, score⟩ moves)

/-! ## The non-conflict set of fast ML-NNI -/

/-- Source: `NNIMove` of `IQPTree` (declared in `iqptree.h`, which is not part of
`src/`): the two ends of the central branch, the nodes that the two exchanged neighbors
`node1Nei` and `node2Nei` point to, and the score. -/
structure IQPTree.NNIMove where
  node1 : Nat
  node1Nei : Nat
  node2 : Nat
  node2Nei : Nat
  score : ℚ
deriving DecidableEq, Repr

/-- The test of the inner loop of the conflict removal of `IQPTree::optimizeNNI`. -/
def IQPTree.conflict (iterMove iterNextMove : IQPTree.NNIMove) : Bool :=
  iterMove.node1 == iterNextMove.node1 || iterMove.node2 == iterNextMove.node1 ||
    iterMove.node1 == iterNextMove.node2 || iterMove.node2 == iterNextMove.node2

/-- Source: the loop "Remove conflicting NNIs" of `IQPTree::optimizeNNI`, from the
sorted `possibleNNIMoves` to `nonConflictMoves`, which starts empty. -/
def IQPTree.nonConflictMoves (possibleNNIMoves : List IQPTree.NNIMove) :
    List IQPTree.NNIMove :=
  possibleNNIMoves.foldl (fun nonConflictMoves iterMove =>
    if nonConflictMoves.any (fun iterNextMove => IQPTree.conflict iterMove iterNextMove)
    then nonConflictMoves
    else nonConflictMoves ++ [iterMove]) []

/-! ## Definitions of the specifications -/

/-- What the topology and the branch lengths see of a neighbor vector. -/
def shape (ns : List Neighbor) : List (Nat × ℚ) := ns.map fun x => (x.node, x.length)

/-- The first slot of a shape that points to `x`. -/
def findS (L : List (Nat × ℚ)) (x : Nat) : Option Nat := L.findIdx? (fun p => p.1 == x)

/-- The shape with slot `k` made to point to `y`. -/
def retarget (L : List (Nat × ℚ)) (k y : Nat) : List (Nat × ℚ) :=
  L.modify (fun p => (y, p.2)) k

/-- The shape of every node after an NNI. -/
def nniS (S : Nat → List (Nat × ℚ)) (n1 i n2 j : Nat) (a b : Nat × ℚ) (ka kb : Nat) :
    Nat → List (Nat × ℚ) :=
  fun n =>
    if n = a.1 then retarget (S a.1) ka n2
    else if n = n2 then (S n2).set j a
    else if n = b.1 then retarget (S b.1) kb n1
    else if n = n1 then (S n1).set i b
    else S n

/-- The rows of branch lengths of the tree, node by node. -/
def lengthRows (t : Tree) : List (List ℚ) :=
  t.nodes.map fun nd => nd.neighbors.map (·.length)

/-- A tree on the leaves 0..3 with the internal nodes 4 and 5, and the move that
exchanges leaf 1 with leaf 3 across the branch 4-5. -/
def exampleTree : Tree :=
  ⟨[⟨0, [⟨4, 1, 0, 3, 0⟩]⟩, ⟨1, [⟨4, 2, 1, 3, 0⟩]⟩, ⟨2, [⟨5, 3, 2, 3, 0⟩]⟩, ⟨3, [⟨5, 4, 3, 3, 0⟩]⟩,
    ⟨4, [⟨0, 1, 0, 3, 0⟩, ⟨1, 2, 1, 3, 0⟩, ⟨5, 5, 4, 3, 0⟩]⟩,
    ⟨5, [⟨4, 5, 4, 3, 0⟩, ⟨2, 3, 2, 3, 0⟩, ⟨3, 4, 3, 3, 0⟩]⟩]⟩

/-- The move of `exampleTree`. -/
def exampleMove : NNIMove := ⟨4, 1, 5, 2⟩

/-- Bit `i` of a word vector, the bits of word 0 first. -/
def bitAt (v : List Nat) (i : Nat) : Bool := (v.getD (i / 32) 0).testBit (i % 32)

/-- The word that one turn of the loop of `getBitsBlock` stores. -/
def getWordG (vec : List Nat) (off b : Nat) : Nat :=
  (vec.getD b 0 >>> off) ||| (if off > 0 then shl (vec.getD (b + 1) 0) (32 - off) else 0)

/-- The words of a vector that hold the pattern bits are machine words. -/
def PatWords (aln : Alignment) (vec : List Nat) : Prop :=
  ∀ i, i < getBitsBlockSize aln - 1 → vec.getD i 0 < 2 ^ 32

/-- The word that one turn of the loop of `setBitsBlock` stores. -/
def setWordS (entry : List Nat) (off len1 k : Nat) : Nat :=
  shl (entry.getD (k + 1) 0) off ||| (if len1 < 32 then entry.getD k 0 >>> len1 else 0)

/-- An entry buffer that holds a state set: machine words, with no bit at or above
the number of states. -/
def EntryOK (aln : Alignment) (entry : List Nat) : Prop :=
  (∀ k, entry.getD k 0 < 2 ^ 32) ∧ ∀ j, aln.num_states ≤ j → bitAt entry j = false

section ParsimonySpec

variable (aln : Alignment) (STATE_UNKNOWN : Nat)

/-- Whether state `s` is in the set that the vector holds at pattern `p`, read with the
accessors of the source (`getBitsBlock`, then `getBitsEntry`). -/
def member (pars : List Nat) (p s : Nat) : Bool :=
  getBitsEntry (getBitsBlock aln pars p (List.replicate (getBitsEntrySize aln) 0)) s

/-- Whether the sets that two vectors hold at pattern `p` have no state in common. -/
def disjointAt (pars1 pars2 : List Nat) (p : Nat) : Bool :=
  (List.range aln.num_states).all fun s => !(member aln pars1 p s && member aln pars2 p s)

/-- The cumulative score of a vector: its last word. -/
def scoreSlot (pars : List Nat) : Nat := pars.getD (getBitsBlockSize aln - 1) 0

/-- The total frequency of the patterns at which the sets of two vectors are disjoint. -/
def disjointFreq (pars1 pars2 : List Nat) : Nat :=
  ((List.range aln.size).map fun p =>
    if disjointAt aln pars1 pars2 p then aln.freq p else 0).sum

/-- Pattern `p` of the alignment. -/
def Alignment.pattern (p : Nat) : Pattern := aln.patterns.getD p ⟨[], 0, false⟩

/-- The state set of a leaf state as a bit mask: every state for the unknown state, the
state itself below `num_states`, and for an ambiguity code `num_states + k` the mask
`k + 1`, which is what the source computes as `state - (nstates - 1)`. -/
def leafMask (state : Nat) : Nat :=
  if state = STATE_UNKNOWN then 2 ^ aln.num_states - 1
  else if state < aln.num_states then 2 ^ state
  else state + 1 - aln.num_states

/-- A leaf state of the alignment contract: the unknown state, a state below
`num_states`, or an ambiguity code whose mask fits the `num_states` bits of a set. -/
def validState (state : Nat) : Bool :=
  state == STATE_UNKNOWN || decide (state < aln.num_states) ||
    (decide (state + 1 - aln.num_states < 2 ^ aln.num_states) &&
      decide (state + 1 - aln.num_states < 2 ^ UINT_BITS))

/-- The Fitch recursion on bit masks at one pattern: the state set and the number of
unions taken in the subtree behind a half-edge. -/
def fitch (pat : Pattern) : Branch → Nat × Nat
  | .leaf _ id rn =>
      (leafMask aln STATE_UNKNOWN (if rn then STATE_UNKNOWN else pat.states.getD id 0), 0)
  | .internal _ c1 c2 =>
      let a := fitch pat c1
      let b := fitch pat c2
      if a.1 &&& b.1 = 0 then (a.1 ||| b.1, a.2 + b.2 + 1) else (a.1 &&& b.1, a.2 + b.2)

/-- The Fitch length of one pattern on the unrooted tree, counted at the edge whose two
half-edges are given. -/
def edgeCost (pat : Pattern) (a b : Branch) : Nat :=
  (fitch aln STATE_UNKNOWN pat a).2 + (fitch aln STATE_UNKNOWN pat b).2 +
    if (fitch aln STATE_UNKNOWN pat a).1 &&& (fitch aln STATE_UNKNOWN pat b).1 = 0 then 1 else 0

/-- The Fitch length of the alignment on the unrooted tree, counted at an edge. -/
def fitchScore (a b : Branch) : Nat :=
  (aln.patterns.map fun pat => pat.frequency * edgeCost aln STATE_UNKNOWN pat a b).sum

/-- The leaves behind a half-edge are sequences of the alignment with states of the
alignment contract, and no internal node has a neighbor named `ROOT_NAME`. -/
def Branch.leavesOK : Branch → Bool
  | .leaf _ id rn =>
      rn || (decide (id < aln.nseq) &&
        aln.patterns.all fun pat => validState aln STATE_UNKNOWN (pat.states.getD id 0))
  | .internal _ c1 c2 =>
      !c1.isRootName && !c2.isRootName && c1.leavesOK && c2.leavesOK

/-- Every parsimony cache behind the half-edge is allocated and marked as not computed. -/
def Branch.fresh : Branch → Bool
  | .leaf nei _ _ =>
      (nei.partial_lh_computed &&& 2 == 0) &&
        decide (getBitsBlockSize aln ≤ nei.partial_pars.length)
  | .internal nei c1 c2 =>
      (nei.partial_lh_computed &&& 2 == 0) &&
        decide (getBitsBlockSize aln ≤ nei.partial_pars.length) && c1.fresh && c2.fresh

end ParsimonySpec

/-- Whether two vectors have no common bit among the bits of pattern `p`. -/
def bitsDisjoint (aln : Alignment) (c1 c2 : List Nat) (p : Nat) : Bool :=
  (List.range aln.num_states).all fun s =>
    !(bitAt c1 (p * aln.num_states + s) && bitAt c2 (p * aln.num_states + s))

/-- The state of the pattern loop of the internal case after `k` patterns. -/
def InternalInv (aln : Alignment) (dad c1 c2 : List Nat) (k : Nat) (st : List Nat × Nat) :
    Prop :=
  st.1.length = dad.length ∧ PatWords aln st.1 ∧
    st.2 = scoreSlot aln c1 + scoreSlot aln c2 +
      ((List.range k).map fun p => if bitsDisjoint aln c1 c2 p then aln.freq p else 0).sum ∧
    ∀ p, p < aln.size → ∀ s, s < aln.num_states →
      bitAt st.1 (p * aln.num_states + s) =
        if p < k ∧ bitsDisjoint aln c1 c2 p = true then
          (bitAt c1 (p * aln.num_states + s) || bitAt c2 (p * aln.num_states + s))
        else (bitAt c1 (p * aln.num_states + s) && bitAt c2 (p * aln.num_states + s))

/-- What `computePartialParsimony` leaves in the cache of a half-edge: the Fitch sets
and the weighted number of unions of the subtree behind it. -/
def CacheOf (aln : Alignment) (UNK : Nat) (t : Branch) (pars : List Nat) : Prop :=
  PatWords aln pars ∧ getBitsBlockSize aln ≤ pars.length ∧
    scoreSlot aln pars =
      ((List.range aln.size).map fun p =>
        aln.freq p * (fitch aln UNK (aln.pattern p) t).2).sum ∧
    ∀ p, p < aln.size → ∀ s, s < aln.num_states →
      bitAt pars (p * aln.num_states + s) = (fitch aln UNK (aln.pattern p) t).1.testBit s

/-- Two half-edges with the same subtree behind them, up to the order of the neighbors
of every node and to the content of the caches. -/
inductive Branch.Perm : Branch → Branch → Prop
  | leaf (n n' : PhyloNeighbor) (id : Nat) (rn : Bool) : Branch.Perm (.leaf n id rn) (.leaf n' id rn)
  | same (n n' : PhyloNeighbor) {a a' b b' : Branch} :
      Branch.Perm a a' → Branch.Perm b b' →
      Branch.Perm (.internal n a b) (.internal n' a' b')
  | swap (n n' : PhyloNeighbor) {a a' b b' : Branch} :
      Branch.Perm a a' → Branch.Perm b b' →
      Branch.Perm (.internal n a b) (.internal n' b' a')

/-- `SameTree a b a' b'`: the edge with the half-edges `a`, `b` and the edge with the
half-edges `a'`, `b'` are entry edges of one unrooted tree. The entry edge can be seen
from its other end (`flip`), it can be moved to a neighboring edge, the first child
edge of the node `a` points to, whose reverse half-edge then has the other child and
the old reverse half-edge behind it (`move`), and the neighbors of any node can be
reordered (`perm`); the caches of the half-edges that come into view are arbitrary. -/
inductive SameTree : Branch → Branch → Branch → Branch → Prop
  | perm {a b a' b' : Branch} : Branch.Perm a a' → Branch.Perm b b' → SameTree a b a' b'
  | flip (a b : Branch) : SameTree a b b a
  | move (n n' : PhyloNeighbor) (a1 a2 b : Branch) :
      SameTree (.internal n a1 a2) b a1 (.internal n' a2 b)
  | trans {a b c d e f : Branch} : SameTree a b c d → SameTree c d e f → SameTree a b e f

/-- The alignment with one more pattern, put in front of pattern `k`. -/
def Alignment.insertPattern (aln : Alignment) (k : Nat) (pat : Pattern) : Alignment :=
  { aln with patterns := aln.patterns.take k ++ pat :: aln.patterns.drop k }

/-- The states that the parsimony routines read at the leaves behind a half-edge, at one
pattern: the unknown state for a leaf named `ROOT_NAME`, else the entry of the pattern. -/
def Branch.leafStatesOf (STATE_UNKNOWN : Nat) (pat : Pattern) : Branch → List Nat
  | .leaf _ id rn => [if rn then STATE_UNKNOWN else pat.states.getD id 0]
  | .internal _ c1 c2 => c1.leafStatesOf STATE_UNKNOWN pat ++ c2.leafStatesOf STATE_UNKNOWN pat

/-- The leaves behind a half-edge carry no ambiguity code: every state is the unknown
state or a state below `num_states`. -/
def Branch.noAmbiguity (aln : Alignment) (STATE_UNKNOWN : Nat) (t : Branch) : Prop :=
  ∀ pat ∈ aln.patterns, ∀ x ∈ t.leafStatesOf STATE_UNKNOWN pat,
    x = STATE_UNKNOWN ∨ x < aln.num_states

/-- A DNA alignment of four sequences with four patterns: a variable pattern, a constant
one, one with an unknown state (126) and the ambiguity code 8 (`A` or `G`), and one
that splits the sequences two against two. -/
def exampleAln : Alignment :=
  ⟨4, 4, [⟨[0, 1, 2, 3], 1, false⟩, ⟨[2, 2, 2, 2], 3, true⟩, ⟨[126, 0, 8, 0], 2, false⟩,
    ⟨[0, 0, 1, 1], 5, false⟩]⟩

/-- A half-edge to the leaf of sequence `id` with an allocated cache that is not yet
computed. -/
def exampleLeaf (id : Nat) : Branch := .leaf ⟨[0, 0], 0⟩ id false

/-- The half-edge to the internal node above sequences 0 and 1. -/
def exampleCherry01 : Branch := .internal ⟨[0, 0], 0⟩ (exampleLeaf 0) (exampleLeaf 1)

/-- The half-edge to the internal node above sequences 2 and 3. -/
def exampleCherry23 : Branch := .internal ⟨[0, 0], 0⟩ (exampleLeaf 2) (exampleLeaf 3)

/-- The half-edge from leaf 0 into the rest of the tree `((0,1),(2,3))`. -/
def exampleBody : Branch := .internal ⟨[0, 0], 0⟩ (exampleLeaf 1) exampleCherry23

/-- The half-edge of `exampleCherry01` after `computePartialParsimony`. -/
def exampleCherry01Done : Branch :=
  (computePartialParsimony exampleAln 126 exampleCherry01).getD exampleCherry01

/-- The half-edge of `exampleCherry23` after `computePartialParsimony`. -/
def exampleCherry23Done : Branch :=
  (computePartialParsimony exampleAln 126 exampleCherry23).getD exampleCherry23

/-- The half-edge of `exampleLeaf id` after `computePartialParsimony`. -/
def exampleLeafDone (id : Nat) : Branch :=
  (computePartialParsimony exampleAln 126 (exampleLeaf id)).getD (exampleLeaf id)

/-- The pattern of unknown states that is added to `exampleAln`. -/
def exampleUnknownPattern : Pattern := ⟨[126, 126, 126, 126], 7, false⟩

/-- An alignment of 9 patterns over 20 states: pattern 1 straddles the first word
boundary of a block and pattern 7 ends on a word boundary. -/
def exampleProteinAln : Alignment :=
  ⟨20, 1, List.replicate 8 ⟨[0], 1, false⟩⟩

/-- The local picture of a leaf `x` on a tree: `x` has the single neighbor `near`, which
has three neighbors, `x` and, in slot order, `a` and `b`; the four nodes are distinct;
`a` and `b` have a half-edge back to `near`, and, the tree having no cycle, none to each
other. -/
def Tree.leafAt (t : Tree) (x near a b : Nat) : Bool :=
  (t.neighbors x).map (·.node) == [near] &&
  (t.neighbors near).length == 3 &&
  ((t.neighbors near).filter (fun nei => nei.node != x)).map (·.node) == [a, b] &&
  a != b && a != near && b != near && near != x &&
  (findNeighborIt (t.neighbors a) near).isSome &&
  (findNeighborIt (t.neighbors a) b).isNone &&
  (findNeighborIt (t.neighbors b) near).isSome &&
  (findNeighborIt (t.neighbors b) a).isNone

/-- The length that node `u` keeps for its branch to `v`: the length of the half-edge
`u->findNeighbor(v)`, if there is one. -/
def Tree.edgeLength (t : Tree) (u v : Nat) : Option ℚ :=
  ((t.neighbors u).find? (fun nei => nei.node == v)).map (·.length)

/-- A sequence of calls of `SPRMoves::add`, one for each move of the list, on the buffer
`buf`. -/
def SPRMoves.addAll (MAX_SPR_MOVES : Nat) : List SPRMove → List SPRMove → Option (List SPRMove)
  | [], buf => some buf
  | m :: ms, buf =>
      (SPRMoves.add MAX_SPR_MOVES buf m.prune_node m.prune_dad m.regraft_node m.regraft_dad
        m.score).bind fun buf1 => SPRMoves.addAll MAX_SPR_MOVES ms buf1

/-- The buffer is in iteration order of the set: strictly descending scores. -/
def SPRMoves.Sorted (buf : List SPRMove) : Prop :=
  buf.Pairwise (fun a b => a.score > b.score)

/-- Four moves for a buffer of two. -/
def SPRMoves.exampleMoves : List SPRMove :=
  [⟨1, 2, 3, 4, -10⟩, ⟨1, 2, 5, 6, -7⟩, ⟨1, 2, 7, 8, -12⟩, ⟨1, 2, 9, 10, -8⟩]

/-- What the buffer is after the moves `seen` were added: sorted best-first, of the
size `min MAX_SPR_MOVES |seen|`, made of moves of `seen`, every move left out scoring
below every move kept, and nothing left out while the buffer is not full. -/
def SPRMoves.TopOf (MAX_SPR_MOVES : Nat) (buf seen : List SPRMove) : Prop :=
  SPRMoves.Sorted buf ∧ buf.length = min MAX_SPR_MOVES seen.length ∧
    (∀ b ∈ buf, b ∈ seen) ∧
    (∀ m ∈ seen, m ∉ buf → ∀ b ∈ buf, m.score < b.score) ∧
    (buf.length < MAX_SPR_MOVES → ∀ m ∈ seen, m ∈ buf)

/-- The two ends of the central branches of two moves are four distinct pairs: no end of
one move is an end of the other. -/
def IQPTree.centreDisjoint (a b : IQPTree.NNIMove) : Prop :=
  b.node1 ≠ a.node1 ∧ b.node2 ≠ a.node1 ∧ b.node1 ≠ a.node2 ∧ b.node2 ≠ a.node2

/-- One turn of the loop of `IQPTree.nonConflictMoves`. -/
def IQPTree.selectStep (nonConflictMoves : List IQPTree.NNIMove) (iterMove : IQPTree.NNIMove) :
    List IQPTree.NNIMove :=
  if nonConflictMoves.any (fun iterNextMove => IQPTree.conflict iterMove iterNextMove)
  then nonConflictMoves
  else nonConflictMoves ++ [iterMove]

/-- Two candidate moves on the branches 1-2 and 3-5 of a tree in which 3 is the neighbor
of 1 that the first move exchanges. -/
def IQPTree.exampleMoves : List IQPTree.NNIMove :=
  [⟨1, 3, 2, 4, 5⟩, ⟨3, 6, 5, 7, 4⟩, ⟨2, 1, 4, 8, 3⟩]

/-- The nodes that the neighbors of `n` point to, in slot order. -/
def Tree.links (t : Tree) (n : Nat) : List Nat := (t.neighbors n).map (·.node)

/-- The half-edges `(x, y)`, from `x` to `y`, that a recursion of the form
`f(node, dad) { ... FOR_NEIGHBOR_IT(node, dad, it) f((*it)->node, node); }` visits, in
the order of the calls, down to the depth `fuel`; a call with a null `dad` visits no
half-edge itself. On each side of a branch these are the half-edges that point toward
the branch. -/
def Tree.walk : Nat → Tree → Nat → Option Nat → List (Nat × Nat)
  | 0, _, _, _ => []
  | fuel + 1, t, node, dad =>
      (match dad with
        | some d => [(node, d)]
        | none => []) ++
      ((t.links node).filter (fun c => some c != dad)).flatMap
        (fun c => Tree.walk fuel t c (some node))

/-- The validity flags of the half-edge `u->findNeighbor(v)`, if there is one. -/
def Tree.flag (t : Tree) (u v : Nat) : Option Nat :=
  ((t.neighbors u).find? (fun nei => nei.node == v)).map (·.partial_lh_computed)

/-- The half-edge from `u` to `v`, if there is one, has its flags cleared. -/
def Tree.Cleared (t : Tree) (u v : Nat) : Prop := ∀ f, t.flag u v = some f → f = 0

/-- The bonus of the half-edge `u->findNeighbor(v)` (its `lh_scale_factor`), if there is
one. -/
def Tree.bonus (t : Tree) (u v : Nat) : Option ℚ :=
  ((t.neighbors u).find? (fun nei => nei.node == v)).map (·.lh_scale_factor)

/-- The number of times that a list of visited half-edges holds the branch between `u`
and `v`, in either direction. -/
def hits (W : List (Nat × Nat)) (u v : Nat) : Nat := W.count (u, v) + W.count (v, u)

/-- The recursion that `initializeBonus` and `raiseBonus` share: at every call with a
`dad`, the bonus of the half-edge from `node` to `dad` and of the half-edge back is
updated by `f`; then the neighbors of `node` other than `dad` are visited. -/
def visitAux (f : ℚ → ℚ) : Nat → Tree → Nat → Option Nat → Option Tree
  | 0, _, _, _ => none
  | fuel + 1, t, node, dad =>
      (match dad with
        | some d => (t.updateBonus node d f).bind fun t1 => t1.updateBonus d node f
        | none => some t).bind fun t1 =>
      ((t1.neighbors node).filter (fun (nei : Neighbor) => some nei.node != dad)).foldlM
        (fun acc (nei : Neighbor) => visitAux f fuel acc nei.node (some node)) t1

/-- The recursion from `(node, dad)` finds every half-edge it updates and ends within
the depth `fuel`: behind the half-edge from `dad` to `node` the store is a tree whose
branches are kept at both ends. -/
def Tree.walkOK : Nat → Tree → Nat → Option Nat → Bool
  | 0, _, _, _ => false
  | fuel + 1, t, node, dad =>
      (match dad with
        | some d => decide (d ∈ t.links node) && decide (node ∈ t.links d)
        | none => true) &&
      ((t.links node).filter (fun c => some c != dad)).all
        (fun c => Tree.walkOK fuel t c (some node))

/-- The votes that `assessQuartets` casts, one for each triple of representative leaves:
the node in the slot of `cur_root` that `assessQuartet` chooses, and `cur_root`. -/
def IQPTree.quartetVotes (dist_matrix : List ℚ) (nseq : Nat)
    (represent : Nat → Nat → List Nat) (t : Tree) (cur_root del_leaf : Nat) :
    List (Nat × Nat) :=
  let leaves := (t.neighbors cur_root).map fun it => represent it.node cur_root
  let triples := (leaves.getD 0 []).flatMap fun i0 =>
    (leaves.getD 1 []).flatMap fun i1 => (leaves.getD 2 []).map fun i2 => (i0, i1, i2)
  triples.map fun tr =>
    ((t.links cur_root).getD (IQPTree.assessQuartet dist_matrix nseq (t.nodeId tr.1)
      (t.nodeId tr.2.1) (t.nodeId tr.2.2) (t.nodeId del_leaf)) 0, cur_root)

/-- The list `L1` is the list `L` with slot `k` made to hold `y`. -/
def Repl (L L1 : List Nat) (k y : Nat) : Prop :=
  ∀ j, L1[j]? = if j = k then (L[k]?).map (fun _ => y) else L[j]?

/-- The graph of the store: two nodes are adjacent when one of them has a half-edge to
the other. -/
def Tree.graph (t : Tree) : SimpleGraph ℕ := SimpleGraph.fromRel (fun u v => v ∈ t.links u)

/-- An unrooted binary tree in the store: every branch is kept at both of its ends, no
node has two half-edges to the same node or one to itself, every node has one neighbor
(a leaf) or three (an internal node), and the graph has no cycle and connects all
nodes. -/
def Tree.IsBinaryTree (t : Tree) : Prop :=
  (∀ u v, v ∈ t.links u → u ∈ t.links v) ∧
  (∀ u, (t.links u).Nodup) ∧
  (∀ u, u ∉ t.links u) ∧
  (∀ u, u < t.nodes.length → (t.neighbors u).length = 1 ∨ (t.neighbors u).length = 3) ∧
  t.graph.IsAcyclic ∧
  (∀ u v, u < t.nodes.length → v < t.nodes.length → t.graph.Reachable u v)

/-- The graph with the edges of a list. -/
def graphOf (E : List (ℕ × ℕ)) : SimpleGraph ℕ := SimpleGraph.fromRel (fun a b => (a, b) ∈ E)

/-- The graph of the part of the store that is in use: two nodes in use are adjacent
when one of them has a half-edge to the other. -/
def Tree.graphOn (t : Tree) (live : ℕ → Prop) : SimpleGraph ℕ :=
  SimpleGraph.fromRel (fun u v => live u ∧ live v ∧ v ∈ t.links u)

/-- The nodes in use form an unrooted binary tree: their half-edges lead to nodes in use
and are kept at both ends, none of them has two half-edges to the same node or one to
itself, each has one neighbor (a leaf) or three, and their graph has no cycle and
connects them all. -/
def Tree.IsBinaryTreeOn (t : Tree) (live : ℕ → Prop) : Prop :=
  (∀ u, live u → ∀ v ∈ t.links u, live v ∧ u ∈ t.links v) ∧
  (∀ u, live u → (t.links u).Nodup) ∧
  (∀ u, live u → u ∉ t.links u) ∧
  (∀ u, live u → (t.links u).length = 1 ∨ (t.links u).length = 3) ∧
  (t.graphOn live).IsAcyclic ∧
  (∀ u v, live u → live v → (t.graphOn live).Reachable u v)

/-- The nodes in use after the deletions recorded in the state: the nodes of the store
other than the deleted leaves and their neighbors. -/
def IQPTree.liveOf (n0 : Nat) (st : DeleteLeavesState) : ℕ → Prop :=
  fun u => u < n0 ∧ u ∉ st.del_leaves ∧ u ∉ st.adjacent_nodes

/-- The invariant of the loop of `deleteLeaves`: the nodes in use form an unrooted
binary tree; the taxa kept so far and the taxa still to come are distinct leaves in use,
`remain_leaves` many and at least 3; `root` is the first taxon kept; and each recorded
leaf still points to the node recorded with it. -/
def IQPTree.DeleteInv (n0 : Nat) (st : DeleteLeavesState) (kept rest : List Nat) : Prop :=
  st.tree.IsBinaryTreeOn (IQPTree.liveOf n0 st) ∧
  (kept ++ rest).Nodup ∧
  (∀ z ∈ kept ++ rest, IQPTree.liveOf n0 st z ∧ (st.tree.links z).length = 1) ∧
  (kept ++ rest).length = st.remain_leaves ∧ 3 ≤ st.remain_leaves ∧
  st.root = kept.head? ∧
  st.adjacent_nodes.length = st.del_leaves.length ∧
  (∀ p ∈ st.del_leaves.zip st.adjacent_nodes, st.tree.links p.1 = [p.2]) ∧
  st.del_leaves.Nodup

/-- Source: the body of the loop of `PhyloTree::computeDist(double*)` that fills
`row_id[pos]` and `col_id[pos]` from the entries at `pos - 1`. -/
def computeDist_nextId (nseqs : Nat) (prev : Nat × Nat) : Nat × Nat :=
  let row := prev.1
  let col := prev.2 + 1
  if col ≥ nseqs then (row + 1, row + 1 + 1) else (row, col)

/-- Source: the arrays `row_id` and `col_id` of `PhyloTree::computeDist(double*)`, as
the list of the pairs `(row_id[pos], col_id[pos])` for `pos < num_pairs`, where
`num_pairs = nseqs * (nseqs - 1) / 2`; the first pair is `(0, 1)`. Integers are not
bounded. -/
def computeDist_ids (nseqs : Nat) : List (Nat × Nat) :=
  List.iterate (computeDist_nextId nseqs) (0, 1) (nseqs * (nseqs - 1) / 2)

/-- The triangular numbers. -/
def tri : Nat → Nat
  | 0 => 0
  | k + 1 => tri k + (k + 1)

/-- The number of pairs that follow the pair `(r, c)` in the row-wise order of the
pairs `r < c < nseqs`. -/
def pairsAfter (nseqs : Nat) (p : Nat × Nat) : Nat :=
  (nseqs - 1 - p.2) + tri (nseqs - 2 - p.1)

/-- Source: the body of the innermost loop of `PhyloTree::correctDist`, at row `i` and
column `j` for the intermediate taxon `k`; the state is the matrix and the running
index `pos`. The entries are the rationals that the doubles are, and `add` is the sum
of two doubles as the machine computes it (`doubleAdd`, or the exact sum where rounding
is left aside); a read outside the vector gives 0. -/
def correctDistCell (add : ℚ → ℚ → ℚ) (n k i : Nat) (st : List ℚ × Nat) (j : Nat) :
    List ℚ × Nat :=
  let dist_mat := st.1
  let pos := st.2
  let tmp := add (dist_mat.getD (i * n + k) 0) (dist_mat.getD (k * n + j) 0)
  (if dist_mat.getD pos 0 > tmp then dist_mat.set pos tmp else dist_mat, pos + 1)

/-- Source: the two inner loops of `PhyloTree::correctDist`, over `i` and `j`, for one
value of `k`. -/
def correctDistSweep (add : ℚ → ℚ → ℚ) (n k : Nat) (dist_mat : List ℚ) : List ℚ :=
  ((List.range n).foldl (fun st i => (List.range n).foldl (correctDistCell add n k i) st)
    (dist_mat, 0)).1

/-- Source: `PhyloTree::correctDist`, `n` being `aln->getNSeq()`: the matrix it leaves
and the value `longest_dist` it returns. -/
def correctDist (add : ℚ → ℚ → ℚ) (n : Nat) (dist_mat : List ℚ) : List ℚ × ℚ :=
  let d := (List.range n).foldl (fun d k => correctDistSweep add n k d) dist_mat
  (d, (List.range (n * n)).foldl
    (fun longest_dist i => if d.getD i 0 > longest_dist then d.getD i 0 else longest_dist) 0)

/-- The entry in row `i` and column `j` of a matrix kept row by row. -/
def cell (n : Nat) (d : List ℚ) (i j : Nat) : ℚ := d.getD (i * n + j) 0

/-- The state of a sweep when the rows before `i0` and, in row `i0`, the columns before
`j0` are done. -/
def SweepInv (add : ℚ → ℚ → ℚ) (n k : Nat) (d : List ℚ) (i0 j0 : Nat)
    (st : List ℚ × Nat) : Prop :=
  st.2 = i0 * n + j0 ∧ st.1.length = n * n ∧
  ∀ i j, i < n → j < n → cell n st.1 i j =
    if i < i0 ∨ (i = i0 ∧ j < j0) then min (cell n d i j) (add (cell n d i k) (cell n d k j))
    else cell n d i j

/-- A distance matrix of three taxa in which the entry between the taxa 0 and 2 is
longer than the detour over the taxon 1. -/
def exampleDist : List ℚ := [0, 1, 5, 1, 0, 1, 5, 1, 0]

/-- The number of binary digits of `n`, counted in at most `fuel` halvings (`fuel = n`
is enough). -/
def bitLength : Nat → Nat → Nat
  | 0, _ => 0
  | fuel + 1, n => if n = 0 then 0 else bitLength fuel (n / 2) + 1

/-- The exponent `e` of the double nearest to `p / q`, for `p, q > 0`: the one for which
the significand `p / (q * 2 ^ e)` has 53 binary digits before the point,
`2^52 ≤ p / (q * 2^e) < 2^53`. -/
def doubleExponent (p q : Nat) : Int :=
  let e0 : Int := (bitLength p p : Int) - (bitLength q q : Int) - 52
  if (if 0 ≤ e0 then p / (q * 2 ^ e0.toNat) else p * 2 ^ (-e0).toNat / q) < 2 ^ 52
  then e0 - 1 else e0

/-- The natural number nearest to `N / D`, the even one of the two when `N / D` is
half way between them. -/
def nearestEven (N D : Nat) : Nat :=
  if 2 * (N % D) < D then N / D
  else if D < 2 * (N % D) then N / D + 1
  else if (N / D) % 2 = 0 then N / D else N / D + 1

/-- The double nearest to `p / q`, for `q > 0`: the significand for the exponent
`doubleExponent p q`, rounded by `nearestEven`, times `2 ^ e`. -/
def roundDoublePos (p q : Nat) : ℚ :=
  if p = 0 then 0
  else if 0 ≤ doubleExponent p q then
    ((nearestEven p (q * 2 ^ (doubleExponent p q).toNat) *
      2 ^ (doubleExponent p q).toNat : Nat) : ℚ)
  else
    mkRat (nearestEven (p * 2 ^ (-doubleExponent p q).toNat) q)
      (2 ^ (-doubleExponent p q).toNat)

/-- The double nearest to the rational `x`, as the arithmetic of the type `double`
(IEEE 754 binary64, which the language leaves to the machine) rounds a result: the
significand is brought to 53 binary digits and what is beyond them is rounded to the
nearest significand, a tie to the even one; the sign is kept. Overflow to infinity and
the subnormal numbers, below `2^-1022`, are left aside. -/
def roundDouble (x : ℚ) : ℚ :=
  if x.num < 0 then -roundDoublePos x.num.natAbs x.den else roundDoublePos x.num.natAbs x.den

/-- The sum of two doubles as the machine computes it, `a + b` of the source: the exact
sum rounded to a double. A sum with 0 is the other term, which is what the rounding
gives for every double; the rule is written out so that it also holds for the rationals
that are no doubles, for which the machine has no sum. -/
def doubleAdd (x y : ℚ) : ℚ :=
  if x = 0 then y else if y = 0 then x else roundDouble (x + y)

/-- Source: `PhyloTree::computeDist(int seq1, int seq2, double initial_dist)`. The two
pointers `model_factory` and `site_rate` are given by whether they are set;
`Alignment::computeDist` and `AlignmentPairwise::optimizeDist`, which are not part of
`src/`, are the parameters `alnDist` and `optimizeDist`. -/
def computeDistPair (model_factory site_rate : Bool) (alnDist : Nat → Nat → ℚ)
    (optimizeDist : Nat → Nat → ℚ → ℚ) (seq1 seq2 : Nat) (initial_dist : ℚ) : ℚ :=
  let initial_dist := if initial_dist = 0 then alnDist seq1 seq2 else initial_dist
  if !model_factory || !site_rate then initial_dist
  else optimizeDist seq1 seq2 initial_dist

/-- Source: the loop of `PhyloTree::computeDist(double*)` over the pairs, which fills
the upper triangle of the matrix. -/
def computeDistUpper (pairDist : Nat → Nat → ℚ → ℚ) (nseqs : Nat) (dist_mat : List ℚ) :
    List ℚ :=
  (computeDist_ids nseqs).foldl (fun d p =>
    let seq1 := p.1
    let seq2 := p.2
    let sym_pos := seq1 * nseqs + seq2
    d.set sym_pos (pairDist seq1 seq2 (d.getD sym_pos 0))) dist_mat

/-- Source: the body of the loops of `PhyloTree::computeDist(double*)` that copy the
upper triangle into the lower triangle and set the diagonal. -/
def computeDistLowerCell (nseqs seq1 : Nat) (d : List ℚ) (seq2 : Nat) : List ℚ :=
  let pos := seq1 * nseqs + seq2
  if seq1 = seq2 then d.set pos 0 else d.set pos (d.getD (seq2 * nseqs + seq1) 0)

/-- Source: the loops of `PhyloTree::computeDist(double*)` over `seq1 < nseqs` and
`seq2 <= seq1`. The variable `longest_dist` of these loops is not used afterwards. -/
def computeDistLower (nseqs : Nat) (dist_mat : List ℚ) : List ℚ :=
  (List.range nseqs).foldl (fun d seq1 =>
    (List.range (seq1 + 1)).foldl (computeDistLowerCell nseqs seq1) d) dist_mat

/-- Source: `PhyloTree::computeDist(double *dist_mat)`: the matrix it leaves and the
value it returns, `pairDist` being `computeDist(seq1, seq2, initial_dist)` and `add` the
sum of two doubles in `correctDist`. -/
def computeDist (add : ℚ → ℚ → ℚ) (pairDist : Nat → Nat → ℚ → ℚ) (nseqs : Nat)
    (dist_mat : List ℚ) : List ℚ × ℚ :=
  correctDist add nseqs (computeDistLower nseqs (computeDistUpper pairDist nseqs dist_mat))

/-- The state of the copy loops when the rows before `i0` and, in row `i0`, the columns
before `j0` are done. -/
def LowerInv (n : Nat) (d : List ℚ) (i0 j0 : Nat) (D : List ℚ) : Prop :=
  D.length = n * n ∧
  ∀ i j, i < n → j < n → cell n D i j =
    if j ≤ i ∧ (i < i0 ∨ (i = i0 ∧ j < j0)) then (if i = j then 0 else cell n d j i)
    else cell n d i j

/-- What the results on the symmetry of the distance matrix use of the sum of two
doubles: it does not depend on the order of the terms, a sum with 0 is the other term,
and a sum of two numbers that are not negative is not negative. The exact sum has
these properties, and the rounded sum `doubleAdd` has them. -/
def DoubleSum (add : ℚ → ℚ → ℚ) : Prop :=
  (∀ x y, add x y = add y x) ∧ (∀ x, add x 0 = x) ∧ ∀ x y, 0 ≤ x → 0 ≤ y → 0 ≤ add x y

/-- A pairwise distance without model: the number of the first sequence plus the number
of the second. -/
def examplePairDist : Nat → Nat → ℚ → ℚ :=
  computeDistPair false false (fun seq1 seq2 => (seq1 : ℚ) + (seq2 : ℚ)) (fun _ _ x => x)

/-- The conversion of a `double` to `int`: the value is truncated toward zero. -/
def truncToInt (x : ℚ) : Int := if 0 ≤ x then Int.floor x else Int.ceil x

/-- The variables of the loop of `IQPTree::optimizeNNI`: `lamda`, `resetLamda` and
`numbNNI`. -/
structure IQPTree.NNILoopState where
  lamda : ℚ
  resetLamda : Bool
  numbNNI : Int
deriving DecidableEq

/-- What one turn of the loop of `IQPTree::optimizeNNI` gets from the routines that are
not followed here: the sorted vector `possibleNNIMoves` that
`generateAllPositiveNNIMoves` and `sort` leave, and whether the score after the moves is
below the score before them (`newScore < old_score`). -/
structure IQPTree.NNIIterInput where
  possibleNNIMoves : List IQPTree.NNIMove
  worse : Bool

/-- The ways in which one turn of the loop of `IQPTree::optimizeNNI` ends: with `break`,
with an exception of `nonConflictMoves.at(i)`, or at the end of the body. -/
inductive IQPTree.NNIStep (σ : Type) where
  | stop : IQPTree.NNIStep σ
  | fault : IQPTree.NNIStep σ
  | next : IQPTree.NNILoopState → σ → IQPTree.NNIStep σ

/-- Source: the loop "Applying all non-conflicting NNIs" of `IQPTree::optimizeNNI`. The
work on the tree for one move, `applyBranchLengthChange` and `swapNNIBranch`, is the
parameter `applyMove`; `none` when `nonConflictMoves.at(i)` is out of range. -/
def IQPTree.applyNNIs {σ : Type} (applyMove : σ → IQPTree.NNIMove → σ)
    (nonConflictMoves : List IQPTree.NNIMove) (nbNNIToApply : Int) (t : σ) : Option σ :=
  (List.range nbNNIToApply.toNat).foldlM
    (fun acc i => (nonConflictMoves.get? i).map (applyMove acc)) t

/-- Source: the lines of `IQPTree::optimizeNNI` that set `nbNNIToApply` from
`nonConflictMoves.size()` and `lamda`, `(int) nonConflictMoves.size() * lamda` assigned
to an `int`, and the correction `if (nbNNIToApply < 1)`: the value of `nbNNIToApply`
before the correction, its value after it, and `lamda` after it. -/
def IQPTree.nbNNIToApply (size : Nat) (lamda : ℚ) : Int × Int × ℚ :=
  let nbNNIToApply := truncToInt ((size : ℚ) * lamda)
  if nbNNIToApply < 1 then (nbNNIToApply, 1, 0) else (nbNNIToApply, nbNNIToApply, lamda)

/-- Source: the body of the loop of `IQPTree::optimizeNNI`, from the backup of the tree
to the test of the new score. The tree is of any type `σ`; the backup is the tree at
the start of the turn. -/
def IQPTree.optimizeNNIIter {σ : Type} (applyMove : σ → IQPTree.NNIMove → σ)
    (st : IQPTree.NNILoopState) (t : σ) (inp : IQPTree.NNIIterInput) : IQPTree.NNIStep σ :=
  let backupTree := t
  let lamda := if st.resetLamda then 3 / 4 else st.lamda
  if inp.possibleNNIMoves.length = 0 then IQPTree.NNIStep.stop
  else
    let nonConflictMoves := IQPTree.nonConflictMoves inp.possibleNNIMoves
    let nniTotal := nonConflictMoves.length
    if nniTotal = 0 then IQPTree.NNIStep.stop
    else
      let nb := IQPTree.nbNNIToApply nonConflictMoves.length lamda
      let numbNNI := st.numbNNI + nb.1
      let nbNNIToApply := nb.2.1
      let lamda := nb.2.2
      match IQPTree.applyNNIs applyMove nonConflictMoves nbNNIToApply t with
      | none => IQPTree.NNIStep.fault
      | some t1 =>
          if inp.worse then
            IQPTree.NNIStep.next ⟨lamda / 2, false, numbNNI - nbNNIToApply⟩ backupTree
          else IQPTree.NNIStep.next ⟨lamda, true, numbNNI⟩ t1

/-- Source: the loop of `IQPTree::optimizeNNI` for the turns whose inputs are given: the
variables and the tree when the loop ends with `break` or the inputs are used up;
`none` after an exception. -/
def IQPTree.optimizeNNILoop {σ : Type} (applyMove : σ → IQPTree.NNIMove → σ) :
    List IQPTree.NNIIterInput → IQPTree.NNILoopState → σ → Option (IQPTree.NNILoopState × σ)
  | [], st, t => some (st, t)
  | inp :: rest, st, t =>
      match IQPTree.optimizeNNIIter applyMove st t inp with
      | IQPTree.NNIStep.stop => some (st, t)
      | IQPTree.NNIStep.fault => none
      | IQPTree.NNIStep.next st1 t1 => IQPTree.optimizeNNILoop applyMove rest st1 t1

/-- Source: the start of `IQPTree::optimizeNNI`: `lamda = 0.75`, `resetLamda = false`,
`numbNNI = 0`. -/
def IQPTree.optimizeNNIInit : IQPTree.NNILoopState := ⟨3 / 4, false, 0⟩

/-- Three candidate moves on branches without a common end. -/
def IQPTree.exampleDisjointMoves : List IQPTree.NNIMove :=
  [⟨1, 7, 2, 8, 5⟩, ⟨3, 9, 4, 10, 4⟩, ⟨5, 11, 6, 12, 3⟩]

/-- Source: the lines "do the NNI swap" of the loop of `PhyloTree::swapNNI`. -/
def swapNNIDo (t : Tree) (node1 node1_nei node2 node2_nei : Nat) : Option Tree :=
  (t.updateNeighbor node1 node1_nei node2_nei).bind fun t =>
  (t.updateNeighbor node1_nei node1 node2).bind fun t =>
  (t.updateNeighbor node2 node2_nei node1_nei).bind fun t =>
  t.updateNeighbor node2_nei node2 node1

/-- Source: the lines "else, swap back" of the loop of `PhyloTree::swapNNI`. -/
def swapNNIUndo (t : Tree) (node1 node1_nei node2 node2_nei : Nat) : Option Tree :=
  (t.updateNeighbor node1 node2_nei node1_nei).bind fun t =>
  (t.updateNeighbor node1_nei node2 node1).bind fun t =>
  (t.updateNeighbor node2 node1_nei node2_nei).bind fun t =>
  t.updateNeighbor node2_nei node1 node2

/-- Source: the loop `FOR_NEIGHBOR_IT(node2, node1, it2)` of `PhyloTree::swapNNI`, from
the slot `it2` on; the slot is read in the store as it is in that turn. The value of
`computeParsimonyScore()`, which reads the store and changes nothing in it, is the
parameter `score` (`none` when it does not return). The result is the value returned and
the store at the return; `none` when a half-edge is not found, or when more than `fuel`
slots are looked at. -/
def swapNNILoop (score : Tree → Option Int) (cur_score : ℚ) (node1 node2 node1_nei : Nat) :
    Nat → Nat → Tree → Option (ℚ × Tree)
  | 0, _, _ => none
  | fuel + 1, it2, t =>
      match (t.neighbors node2).get? it2 with
      | none => some (cur_score, t)
      | some nei =>
          if nei.node = node1 then
            swapNNILoop score cur_score node1 node2 node1_nei fuel (it2 + 1) t
          else
            (swapNNIDo t node1 node1_nei node2 nei.node).bind fun t1 =>
            (score t1).bind fun s =>
            if (s : ℚ) < cur_score then some ((s : ℚ), t1)
            else
              (swapNNIUndo t1 node1 node1_nei node2 nei.node).bind fun t2 =>
              swapNNILoop score cur_score node1 node2 node1_nei fuel (it2 + 1) t2

/-- Source: `PhyloTree::swapNNI` (the parsimony version). The assertion on the degrees
comes first; `FOR_NEIGHBOR_DECLARE(node1, node2, it1) break;` leaves `it1` at the first
slot of `node1` that does not point to `node2`; then the loop over the slots of `node2`
runs, which has one more slot test than `node2` has slots. -/
def swapNNI (score : Tree → Option Int) (cur_score : ℚ) (t : Tree) (node1 node2 : Nat) :
    Option (ℚ × Tree) :=
  if (t.neighbors node1).length = 3 ∧ (t.neighbors node2).length = 3 then
    match (t.neighbors node1).find? (fun it1 => it1.node != node2) with
    | none => none
    | some it1 =>
        swapNNILoop score cur_score node1 node2 it1.node ((t.neighbors node2).length + 1) 0 t
  else none

/-- The store `t1` is the store `t` after the exchange of the neighbor `a` of `n1` with
the neighbor `c` of `n2`: `n1` points to `c` where it pointed to `a`, `a` to `n2` where
it pointed to `n1`, `n2` to `a` where it pointed to `c`, and `c` to `n1` where it
pointed to `n2`; nothing else differs, and every half-edge keeps its length. -/
def Tree.SwappedNNI (t t1 : Tree) (n1 a n2 c : Nat) : Prop :=
  t1.nodes.length = t.nodes.length ∧
  (∀ m, t1.nodeId m = t.nodeId m) ∧
  (∀ m, (t1.neighbors m).map (·.length) = (t.neighbors m).map (·.length)) ∧
  t1.links n1 = (t.links n1).map (fun z => if z = a then c else z) ∧
  t1.links a = (t.links a).map (fun z => if z = n1 then n2 else z) ∧
  t1.links n2 = (t.links n2).map (fun z => if z = c then a else z) ∧
  t1.links c = (t.links c).map (fun z => if z = n2 then n1 else z) ∧
  ∀ m, m ≠ n1 → m ≠ a → m ≠ n2 → m ≠ c → t1.links m = t.links m

/-- The result of the loop of `swapNNI` for the neighbors of `node2` still to try, in
a store `t` that every turn without improvement leaves as it was. -/
def swapNNISpec (score : Tree → Option Int) (cur_score : ℚ) (t : Tree) (n1 a n2 : Nat) :
    List Nat → Option (ℚ × Tree)
  | [] => some (cur_score, t)
  | c :: rest =>
      (swapNNIDo t n1 a n2 c).bind fun t1 =>
      (score t1).bind fun s =>
      if (s : ℚ) < cur_score then some ((s : ℚ), t1)
      else swapNNISpec score cur_score t n1 a n2 rest

/-- The ways in which stepwise addition ends without a tree: with the fatal error
`ERR_FEW_TAXA`, or with a fault (a null pointer or a missing half-edge is used, or a
routine that is called does not return). -/
inductive GrowError where
  | ERR_FEW_TAXA : GrowError
  | fault : GrowError
deriving DecidableEq, Repr

/-- Modelled from the spec: "Configuration errors: fewer than 3 sequences ... All fatal,
reported with a message" (`outError`, declared in `tools.h`, which is not part of
`src/`): the routine ends with the error. -/
def outError {α : Type} (error : GrowError) : Except GrowError α := Except.error error

/-- Source: `PhyloTree::newNode`: a node with the given id and no neighbor is allocated.
Its name in the store is the next index. -/
def Tree.newNode (t : Tree) (node_id : Nat) : Tree × Nat :=
  (⟨t.nodes ++ [⟨node_id, []⟩]⟩, t.nodes.length)

/-- Modelled from the spec: "each undirected edge is represented as a pair of half-edge
indices that store only opposite-endpoint index, length, and cache offsets"
(`Node::addNeighbor(node, length)`, declared in `node.h`, which is not part of `src/`):
a half-edge to `node` with the given length is put behind the neighbors of `n`. The
other fields of a new half-edge are those of `blank`. -/
def Tree.addNeighbor (blank : Neighbor) (t : Tree) (n node : Nat) (length : ℚ) : Tree :=
  t.setNeighbors n (t.neighbors n ++ [{ blank with node := node, length := length }])

/-- Modelled from the spec: "One leaf is designated as the traversal entry"
(`findNodeID(id)`, declared in `mtree.h`, which is not part of `src/`): the first node
with the given id that the traversal from `node` meets; `none` for a null pointer. -/
def findNodeID (id : Nat) : Nat → Tree → Nat → Option Nat → Option Nat
  | 0, _, _, _ => none
  | fuel + 1, t, node, dad =>
      if t.nodeId node = id then some node
      else ((t.links node).filter (fun c => some c != dad)).findSome?
        (fun c => findNodeID id fuel t c (some node))

/-- Source: the lines "now insert the new node in the middle of the branch node-dad" of
`addTaxonMP`, which `addTaxonML`, `growTreeMP` and `growTreeML` repeat; `len` is
`dad->findNeighbor(node)->length`, and `ph1`, `ph2` are the pointers `(Node*) 1` and
`(Node*) 2`. -/
def insertAddedNode (t : Tree) (added_node ph1 ph2 node dad : Nat) (len : ℚ) : Option Tree :=
  (t.updateNeighborLength node dad added_node (len / 2)).bind fun t =>
  (t.updateNeighborLength dad node added_node (len / 2)).bind fun t =>
  (t.updateNeighborLength added_node ph1 node (len / 2)).bind fun t =>
  t.updateNeighborLength added_node ph2 dad (len / 2)

/-- Source: the lines "remove the added node" of `addTaxonMP` and `addTaxonML`. -/
def removeAddedNode (t : Tree) (added_node ph1 ph2 node dad : Nat) (len : ℚ) : Option Tree :=
  (t.updateNeighborLength node added_node dad len).bind fun t =>
  (t.updateNeighborLength dad added_node node len).bind fun t =>
  (t.updateNeighborLength added_node node ph1 len).bind fun t =>
  t.updateNeighborLength added_node dad ph2 len

/-- The values that `addTaxonMP` gives back: the value returned, the two reference
arguments `target_node` and `target_dad`, and the store. -/
structure AddTaxonResult where
  best_score : Int
  target_node : Nat
  target_dad : Nat
  tree : Tree
deriving DecidableEq

/-- Source: one turn of the loop `FOR_NEIGHBOR_IT(node, dad, it)` of `addTaxonMP`, at the
slot `it` of `node`, which is read in the store as it is in that turn; `recurse` is the
call of `addTaxonMP` itself. -/
def addTaxonMPTurn (recurse : Tree → Nat → Nat → Option AddTaxonResult) (node dad : Nat)
    (st : AddTaxonResult) (it : Nat) : Option AddTaxonResult :=
  match (st.tree.neighbors node).get? it with
  | none => none
  | some nei =>
      if nei.node = dad then some st
      else
        (recurse st.tree nei.node node).bind fun res =>
          if res.best_score < st.best_score then some res
          else some { st with tree := res.tree }

/-- Source: `PhyloTree::addTaxonMP`. The value of `computeParsimonyScore()`, which reads
the store and changes nothing in it, is the parameter `score` (`none` when it does not
return). The loop goes through the slots of `node`. `none` when `dad->findNeighbor(node)`
is null or a half-edge to update is missing, and beyond the depth `fuel`. -/
def addTaxonMP (score : Tree → Option Int) (added_node ph1 ph2 : Nat) :
    Nat → Tree → Nat → Nat → Option AddTaxonResult
  | 0, _, _, _ => none
  | fuel + 1, t, node, dad =>
      (t.edgeLength dad node).bind fun len =>
      (insertAddedNode t added_node ph1 ph2 node dad len).bind fun t =>
      (score t).bind fun best_score =>
      (removeAddedNode t added_node ph1 ph2 node dad len).bind fun t =>
      (List.range (t.neighbors node).length).foldlM
        (addTaxonMPTurn (addTaxonMP score added_node ph1 ph2 fuel) node dad)
        ⟨best_score, node, dad, t⟩

/-- The fields of the tree object that stepwise addition sets: the store, `root`,
`leafNum` and `nodeNum`. -/
structure GrowState where
  tree : Tree
  root : Nat
  leafNum : Nat
  nodeNum : Nat
deriving DecidableEq

/-- Source: the body of the loop "create initial tree with 3 taxa" of `growTreeMP` and
`growTreeML`. -/
def growTreeInitStep (blank : Neighbor) (root : Nat) (t : Tree) (leafNum : Nat) : Tree :=
  let new_taxon := t.newNode leafNum
  let t := Tree.addNeighbor blank new_taxon.1 root new_taxon.2 1
  Tree.addNeighbor blank t new_taxon.2 root 1

/-- Source: the lines of the loop "stepwise adding the next taxon" of `growTreeMP` and
`growTreeML` that allocate the new taxon and its adjacent internal node, with the two
neighbors kept for later: the store and `added_node`. The id that `newNode()` gives
without an argument is `default_id`. -/
def growTreeNewTaxon (default_id ph1 ph2 : Nat) (blank : Neighbor) (t : Tree)
    (leafNum : Nat) : Tree × Nat :=
  let new_taxon := t.newNode leafNum
  let added_node := new_taxon.1.newNode default_id
  let t := Tree.addNeighbor blank added_node.1 added_node.2 new_taxon.2 1
  let t := Tree.addNeighbor blank t new_taxon.2 added_node.2 1
  let t := Tree.addNeighbor blank t added_node.2 ph1 1
  let t := Tree.addNeighbor blank t added_node.2 ph2 1
  (t, added_node.2)

/-- Source: the body of the loop "stepwise adding the next taxon" of `growTreeMP`. The
recursion of `addTaxonMP` is given the depth of the number of nodes in the store. -/
def growTreeMPStep (score : Tree → Option Int) (default_id ph1 ph2 : Nat) (blank : Neighbor)
    (root : Nat) (t : Tree) (leafNum : Nat) : Option Tree :=
  let new := growTreeNewTaxon default_id ph1 ph2 blank t leafNum
  let added_node := new.2
  ((new.1.neighbors root).get? 0).bind fun root_nei =>
  (addTaxonMP score added_node ph1 ph2 new.1.nodes.length new.1 root_nei.node root).bind
    fun res =>
  (res.tree.edgeLength res.target_dad res.target_node).bind fun len =>
  insertAddedNode res.tree added_node ph1 ph2 res.target_node res.target_dad len

/-- Source: `PhyloTree::growTreeMP`, on a tree object without nodes, for an alignment
with `size` sequences. The names of the sequences and the output are left out. -/
def growTreeMP (score : Tree → Option Int) (default_id ph1 ph2 : Nat) (blank : Neighbor)
    (size : Nat) : Except GrowError GrowState :=
  if size < 3 then outError GrowError.ERR_FEW_TAXA
  else
    let root := Tree.newNode ⟨[]⟩ default_id
    let t := (List.range 3).foldl (growTreeInitStep blank root.2) root.1
    match findNodeID 0 t.nodes.length t root.2 none with
    | none => Except.error GrowError.fault
    | some root =>
        match (List.range' 3 (size - 3)).foldlM
            (growTreeMPStep score default_id ph1 ph2 blank root) t with
        | none => Except.error GrowError.fault
        | some t => Except.ok ⟨t, root, size, 2 * size - 2⟩

/-- The values that `addTaxonML` gives back. -/
structure AddTaxonMLResult where
  best_score : ℚ
  target_node : Nat
  target_dad : Nat
  tree : Tree

/-- Source: one turn of the loop `FOR_NEIGHBOR_IT(node, dad, it)` of `addTaxonML`. -/
def addTaxonMLTurn (recurse : Tree → Nat → Nat → Option AddTaxonMLResult) (node dad : Nat)
    (st : AddTaxonMLResult) (it : Nat) : Option AddTaxonMLResult :=
  match (st.tree.neighbors node).get? it with
  | none => none
  | some nei =>
      if nei.node = dad then some st
      else
        (recurse st.tree nei.node node).bind fun res =>
          if res.best_score > st.best_score then some res
          else some { st with tree := res.tree }

/-- Source: `PhyloTree::addTaxonML`. The routines `clearAllPartialLH` and
`optimizeChildBranches`, which work on the store, are parameters (`none` when they do
not return). -/
def addTaxonML (clearAllPartialLH : Tree → Option Tree)
    (optimizeChildBranches : Tree → Nat → Option (ℚ × Tree)) (added_node ph1 ph2 : Nat) :
    Nat → Tree → Nat → Nat → Option AddTaxonMLResult
  | 0, _, _, _ => none
  | fuel + 1, t, node, dad =>
      (t.edgeLength dad node).bind fun len =>
      (insertAddedNode t added_node ph1 ph2 node dad len).bind fun t =>
      (clearAllPartialLH t).bind fun t =>
      (optimizeChildBranches t added_node).bind fun opt =>
      (removeAddedNode opt.2 added_node ph1 ph2 node dad len).bind fun t =>
      (List.range (t.neighbors node).length).foldlM
        (addTaxonMLTurn
          (addTaxonML clearAllPartialLH optimizeChildBranches added_node ph1 ph2 fuel)
          node dad)
        ⟨opt.1, node, dad, t⟩

/-- Source: the body of the loop "stepwise adding the next taxon" of `growTreeML`. The
routines `optimizeAllBranches` and `optimizeNNI` are parameters too. -/
def growTreeMLStep (clearAllPartialLH optimizeAllBranches optimizeNNI : Tree → Option Tree)
    (optimizeChildBranches : Tree → Nat → Option (ℚ × Tree))
    (default_id ph1 ph2 : Nat) (blank : Neighbor)
    (root : Nat) (t : Tree) (leafNum : Nat) : Option Tree :=
  let new := growTreeNewTaxon default_id ph1 ph2 blank t leafNum
  let added_node := new.2
  ((new.1.neighbors root).get? 0).bind fun root_nei =>
  (addTaxonML clearAllPartialLH optimizeChildBranches added_node ph1 ph2 new.1.nodes.length
      new.1 root_nei.node root).bind fun res =>
  (res.tree.edgeLength res.target_dad res.target_node).bind fun len =>
  (insertAddedNode res.tree added_node ph1 ph2 res.target_node res.target_dad len).bind
    fun t =>
  (clearAllPartialLH t).bind fun t =>
  (optimizeAllBranches t).bind fun t =>
  optimizeNNI t

/-- Source: `PhyloTree::growTreeML`, on a tree object without nodes, for an alignment
with `size` sequences. -/
def growTreeML (clearAllPartialLH optimizeAllBranches optimizeNNI : Tree → Option Tree)
    (optimizeChildBranches : Tree → Nat → Option (ℚ × Tree))
    (default_id ph1 ph2 : Nat) (blank : Neighbor) (size : Nat) :
    Except GrowError GrowState :=
  if size < 3 then outError GrowError.ERR_FEW_TAXA
  else
    let root := Tree.newNode ⟨[]⟩ default_id
    let t := (List.range 3).foldl (growTreeInitStep blank root.2) root.1
    match findNodeID 0 t.nodes.length t root.2 none with
    | none => Except.error GrowError.fault
    | some root =>
        match optimizeAllBranches t with
        | none => Except.error GrowError.fault
        | some t =>
            match (List.range' 3 (size - 3)).foldlM
                (growTreeMLStep clearAllPartialLH optimizeAllBranches optimizeNNI
                  optimizeChildBranches default_id ph1 ph2 blank root) t with
            | none => Except.error GrowError.fault
            | some t => Except.ok ⟨t, root, size, 2 * size - 2⟩

/-- The vector with the length `L` in the slots that point to one of the two
placeholders. -/
def phNorm (ph1 ph2 : Nat) (L : ℚ) (ns : List Neighbor) : List Neighbor :=
  ns.map fun e => if e.node = ph1 ∨ e.node = ph2 then { e with length := L } else e

/-- The node `added_node` holds the two placeholders: it has a half-edge to each of
`ph1` and `ph2`, which differ, and no two half-edges to the same node. -/
def Tree.HoldsPlaceholders (t : Tree) (added_node ph1 ph2 : Nat) : Prop :=
  ph1 ∈ t.links added_node ∧ ph2 ∈ t.links added_node ∧ ph1 ≠ ph2 ∧
  (t.links added_node).Nodup

/-- The branch between `x` and `y` is kept at both of its ends, and it is away from
`added_node`: `x` and `y` are other nodes, which have no half-edge to `added_node`, and
to which `added_node` has none. -/
def Tree.BranchAway (t : Tree) (added_node x y : Nat) : Prop :=
  y ∈ t.links x ∧ x ∈ t.links y ∧ x ≠ y ∧ x ≠ added_node ∧ y ≠ added_node ∧
  added_node ∉ t.links x ∧ added_node ∉ t.links y ∧
  x ∉ t.links added_node ∧ y ∉ t.links added_node

/-- The store `cur` is the store `t0` up to the lengths that `added_node` keeps in its
two placeholder slots. -/
def Tree.AgreesOff (cur t0 : Tree) (added_node ph1 ph2 : Nat) : Prop :=
  cur.nodes.length = t0.nodes.length ∧ (∀ m, cur.nodeId m = t0.nodeId m) ∧
  (∀ m, m ≠ added_node → cur.neighbors m = t0.neighbors m) ∧
  phNorm ph1 ph2 0 (cur.neighbors added_node) = phNorm ph1 ph2 0 (t0.neighbors added_node)

/-- The store `cur` is the store `t0` with the length `L` in the two placeholder slots
of `added_node`. -/
def Tree.RestoredTo (cur t0 : Tree) (added_node ph1 ph2 : Nat) (L : ℚ) : Prop :=
  cur.nodes.length = t0.nodes.length ∧ (∀ m, cur.nodeId m = t0.nodeId m) ∧
  cur.neighbors =
    Function.update t0.neighbors added_node (phNorm ph1 ph2 L (t0.neighbors added_node))

/-- The store `ti` is the store `t0` with `added_node` in the middle of the branch
between `node` and `dad`: the half-edge of `node` to `dad` and the half-edge of `dad` to
`node` point to `added_node`, the placeholder slots of `added_node` point to `node` and
to `dad`, and these four half-edges have the length `len / 2`. -/
def Tree.InsertedAt (ti t0 : Tree) (added_node ph1 ph2 node dad : Nat) (len : ℚ) : Prop :=
  ∃ kn kd k1 k2,
    findNeighborIt (t0.neighbors node) dad = some kn ∧
    findNeighborIt (t0.neighbors dad) node = some kd ∧
    findNeighborIt (t0.neighbors added_node) ph1 = some k1 ∧
    findNeighborIt (t0.neighbors added_node) ph2 = some k2 ∧
    ti.nodes.length = t0.nodes.length ∧ (∀ m, ti.nodeId m = t0.nodeId m) ∧
    ti.neighbors = Function.update (Function.update (Function.update t0.neighbors
      node ((t0.neighbors node).modify
        (fun nei => { nei with node := added_node, length := len / 2 }) kn))
      dad ((t0.neighbors dad).modify
        (fun nei => { nei with node := added_node, length := len / 2 }) kd))
      added_node (((t0.neighbors added_node).modify
        (fun nei => { nei with node := node, length := len / 2 }) k1).modify
        (fun nei => { nei with node := dad, length := len / 2 }) k2)

/-- The result that `addTaxonMP` keeps of two: the later one only when its score is
strictly smaller. -/
def keepBest (b r : Int × Nat × Nat) : Int × Nat × Nat := if r.1 < b.1 then r else b

/-- The first of the results with the smallest score in a list of results. -/
def firstBest : List (Int × Nat × Nat) → Option (Int × Nat × Nat)
  | [] => none
  | x :: xs => some (xs.foldl keepBest x)

/-- The scores with their branches, for the half-edges that the recursion visits. -/
def scoredWalk (val : Nat → Nat → Int) (W : List (Nat × Nat)) : List (Int × Nat × Nat) :=
  W.map fun p => (val p.1 p.2, p.1, p.2)

/-- The value of `computeParsimonyScore()` that `addTaxonMP` gets for the branch between
`node` and `dad`: the score of the store with `added_node` in the middle of the branch
(`none` when the insertion or the score routine fails). -/
def insertionScore (score : Tree → Option Int) (t : Tree) (added_node ph1 ph2 node dad : Nat) :
    Option Int :=
  (t.edgeLength dad node).bind fun len =>
  (insertAddedNode t added_node ph1 ph2 node dad len).bind score

/-- The store of `exampleTree` after `growTreeMP` has allocated taxon 4 (node 6) and its
adjacent internal node (node 7), with the placeholders 100 and 101. -/
def exampleGrowStore : Tree := (growTreeNewTaxon 9 100 101 ⟨0, 0, 0, 0, 0⟩ exampleTree 4).1

instance (t : Tree) (added_node x y : Nat) : Decidable (t.BranchAway added_node x y) := by
  unfold Tree.BranchAway
  infer_instance

instance (t : Tree) (added_node ph1 ph2 : Nat) :
    Decidable (t.HoldsPlaceholders added_node ph1 ph2) := by
  unfold Tree.HoldsPlaceholders
  infer_instance

/-- The store that `growTreeMP` has after `k` taxa are in the tree: an unrooted binary
tree on `2k - 2` nodes whose node 1, the first taxon, is a leaf; both half-edges of
each branch hold the same length; the leaves, in the order of the store, have the ids
`0, ..., k - 1`, and `k - 2` nodes are not leaves. -/
def GrowInv (k : Nat) (t : Tree) : Prop :=
  t.IsBinaryTree ∧ t.nodes.length = 2 * k - 2 ∧ (t.links 1).length = 1 ∧
  (∀ u v l, (v, l) ∈ shape (t.neighbors u) → (u, l) ∈ shape (t.neighbors v)) ∧
  ((List.range t.nodes.length).filter (fun n => t.isLeaf n)).map t.nodeId = List.range k ∧
  ((List.range t.nodes.length).filter (fun n => !t.isLeaf n)).length = k - 2

/-- The store after the loop "create initial tree with 3 taxa": the node 0 that
`newNode()` gave, with the half-edges to the taxa in the nodes 1, 2 and 3. -/
def starTree (default_id : Nat) (blank : Neighbor) : Tree :=
  ⟨[⟨default_id, [{ blank with node := 1, length := 1 }, { blank with node := 2, length := 1 },
      { blank with node := 3, length := 1 }]⟩,
    ⟨0, [{ blank with node := 0, length := 1 }]⟩,
    ⟨1, [{ blank with node := 0, length := 1 }]⟩,
    ⟨2, [{ blank with node := 0, length := 1 }]⟩]⟩

/-- Source: `PhyloTree::computeLogLVariance`. The arrays are read by index: `pattern_freq`
is the vector that `aln->getPatternFreq` fills, `computePatternLikelihood` the vector
that the call of that name fills when `ptn_lh` is null (`none`). `nptn` and `nsite` are
the values of `getAlnNPattern()` and `getAlnNSite()`. The factor of the `return` is the
quotient of two `int`, `nsite / (nsite-1)`, taken before the product with the `double`;
the result is `none` when that division is by zero. -/
def computeLogLVariance (nptn : Nat) (nsite : Int) (pattern_freq : Nat → Int)
    (computePatternLikelihood : Nat → ℚ) (ptn_lh : Option (Nat → ℚ)) (tree_lh : ℚ) :
    Option ℚ :=
  let pattern_lh := ptn_lh.getD computePatternLikelihood
  let tree_lh :=
    if tree_lh = 0 then
      (List.range nptn).foldl (fun tree_lh i => tree_lh + pattern_lh i * pattern_freq i) tree_lh
    else tree_lh
  let avg_site_lh := tree_lh / nsite
  let variance := (List.range nptn).foldl (fun variance i =>
    let diff := pattern_lh i - avg_site_lh
    variance + diff * diff * pattern_freq i) 0
  if nsite - 1 = 0 then none
  else some (variance * ((Int.tdiv nsite (nsite - 1) : Int) : ℚ))

/-- Source: `PhyloTree::computeLogLDiffVariance(double *pattern_lh_other, double *ptn_lh)`,
with the same reading of the arrays and of the `int` quotient as `computeLogLVariance`. -/
def computeLogLDiffVariance (nptn : Nat) (nsite : Int) (pattern_freq : Nat → Int)
    (computePatternLikelihood : Nat → ℚ) (pattern_lh_other : Nat → ℚ)
    (ptn_lh : Option (Nat → ℚ)) : Option ℚ :=
  let pattern_lh := ptn_lh.getD computePatternLikelihood
  let avg_site_lh_diff := (List.range nptn).foldl (fun avg_site_lh_diff i =>
    avg_site_lh_diff + (pattern_lh i - pattern_lh_other i) * pattern_freq i) 0
  let avg_site_lh_diff := avg_site_lh_diff / nsite
  let variance := (List.range nptn).foldl (fun variance i =>
    let diff := pattern_lh i - pattern_lh_other i - avg_site_lh_diff
    variance + diff * diff * pattern_freq i) 0
  if nsite - 1 = 0 then none
  else some (variance * ((Int.tdiv nsite (nsite - 1) : Int) : ℚ))

/-- The sum `Σ_p freq(p) · (x(p) − mean)²` over the patterns `p < nptn`. -/
def weightedSquares (nptn : Nat) (pattern_freq : Nat → Int) (x : Nat → ℚ) (mean : ℚ) : ℚ :=
  ∑ p in Finset.range nptn, (pattern_freq p : ℚ) * (x p - mean) ^ 2

/-- The sum `Σ_p x(p) · freq(p)` over the patterns `p < nptn`. -/
def weightedSum (nptn : Nat) (pattern_freq : Nat → Int) (x : Nat → ℚ) : ℚ :=
  ∑ p in Finset.range nptn, x p * (pattern_freq p : ℚ)

/-- Source: the loop of `PhyloTree::optimizeAllBranches(int iterations, double tolerance)`
with `n` turns left, in turn `i`. `sweep i` is the value that the pass
`optimizeAllBranches((PhyloNode*) root)` of turn `i` returns. -/
def optimizeAllBranchesLoop (sweep : Nat → ℚ) (tolerance : ℚ) : Nat → Nat → ℚ → ℚ
  | 0, _, tree_lh => tree_lh
  | n + 1, i, tree_lh =>
      let new_tree_lh := sweep i
      if new_tree_lh ≤ tree_lh + tolerance then
        (if new_tree_lh > tree_lh then new_tree_lh else tree_lh)
      else optimizeAllBranchesLoop sweep tolerance n (i + 1) new_tree_lh

/-- Source: `PhyloTree::optimizeAllBranches(int iterations, double tolerance)`;
`computeLikelihood` is the value of the call of that name at entry. -/
def optimizeAllBranches (computeLikelihood : ℚ) (sweep : Nat → ℚ) (iterations : Int)
    (tolerance : ℚ) : ℚ :=
  optimizeAllBranchesLoop sweep tolerance iterations.toNat 0 computeLikelihood

/-- The values that the loop of `optimizeAllBranches` accepts, in order: those it assigns
to `tree_lh` in the turns that do not return. -/
def optimizeAllBranchesAccepted (sweep : Nat → ℚ) (tolerance : ℚ) : Nat → Nat → ℚ → List ℚ
  | 0, _, _ => []
  | n + 1, i, tree_lh =>
      let new_tree_lh := sweep i
      if new_tree_lh ≤ tree_lh + tolerance then []
      else new_tree_lh :: optimizeAllBranchesAccepted sweep tolerance n (i + 1) new_tree_lh

/-- Source: `int node_id = floor((((double)rand())/RAND_MAX) * best_nodes.size());` in
`IQPTree::reinsertLeaves`, for the value `r` that `rand()` returns and `size` the value
of `best_nodes.size()`; the quotient and the product are those of rationals. -/
def IQPTree.node_id (RAND_MAX r size : Nat) : Int :=
  Int.floor (((r : ℚ) / (RAND_MAX : ℚ)) * (size : ℚ))

/-- Source: the operands `best_nodes[node_id]` and `best_dads[node_id]` of the call of
`reinsertLeaf` in `IQPTree::reinsertLeaves`; `none` when the index is no index of the
vectors. -/
def IQPTree.bestBranch (best_nodes best_dads : List Nat) (node_id : Int) :
    Option (Nat × Nat) :=
  if 0 ≤ node_id then
    (best_nodes.get? node_id.toNat).bind fun node =>
      (best_dads.get? node_id.toNat).map fun dad => (node, dad)
  else none

/-- The likelihood cache of a half-edge (`PhyloNeighbor`) as the naive likelihood code
uses it: the branch length, the array `partial_lh` and the array `scale_num` (both read
by index), `lh_scale_factor`, and the flags, of which bit 0 says that the likelihood
cache is valid. Modelled from the spec: the entries of `scale_num` are integers that can
hold the sentinel -1 ("mark `scale_num[p] = −1`"); the element type is declared in a
header that is not part of `src/`. -/
structure LhNeighbor where
  length : ℚ
  partial_lh : Nat → ℚ
  scale_num : Nat → Int
  lh_scale_factor : ℚ
  partial_lh_computed : Nat

/-- A half-edge `dad -> node` with everything the recursion of
`computePartialLikelihoodNaive` sees behind it: the cache of the half-edge, the sequence
id of `node`, whether its name is `ROOT_NAME`, and the other half-edges of `node`
(those that `FOR_NEIGHBOR_IT(node, dad, it)` visits) in neighbor order. -/
inductive LhBranch where
  | mk (nei : LhNeighbor) (id : Nat) (isRootName : Bool) (children : List LhBranch)

/-- The cache of the half-edge. -/
def LhBranch.nei : LhBranch → LhNeighbor
  | .mk nei _ _ _ => nei

/-- The sequence id of the node the half-edge points to. -/
def LhBranch.id : LhBranch → Nat
  | .mk _ id _ _ => id

/-- The test `node->name == ROOT_NAME` on the node the half-edge points to. -/
def LhBranch.isRootName : LhBranch → Bool
  | .mk _ _ rn _ => rn

/-- The other half-edges of the node the half-edge points to. -/
def LhBranch.children : LhBranch → List LhBranch
  | .mk _ _ _ children => children

/-- The test `node->isLeaf()` on the node the half-edge points to: `dad` is its only
neighbor. -/
def LhBranch.isLeaf (b : LhBranch) : Bool := b.children.isEmpty

/-- What the naive likelihood code reads of the rate model and of the substitution
model, neither of which is part of `src/`: `ncat` is `site_rate->getNRate()`;
`trans len ptn cat state state2` is the entry `trans_state[state2]` that the loops read
at pattern `ptn`, category `cat` and row `state`, from the matrices that
`model_factory->computeTransMatrix` fills for a half-edge of length `len`; the two
thresholds are the constants of those names. -/
structure LhModel where
  ncat : Nat
  trans : ℚ → Nat → Nat → Nat → Nat → ℚ
  SCALING_THRESHOLD : ℚ
  LOG_SCALING_THRESHOLD : ℚ

/-- A loop `for (k = 0; k < n; k++) a[start + k] = v`. -/
def fillRange {α : Type} (a : Nat → α) (start n : Nat) (v : α) : Nat → α :=
  (List.range n).foldl (fun a k => Function.update a (start + k) v) a

/-- The loop `for (cat = 0; cat < ncat; cat++) partial_lh_site[cat * nstates + state] = 1.0`
of the leaf case, `base` being the offset of `partial_lh_site` in `partial_lh`. -/
def markState (ncat nstates base state : Nat) (partial_lh : Nat → ℚ) : Nat → ℚ :=
  (List.range ncat).foldl
    (fun a cat => Function.update a (base + (cat * nstates + state)) 1) partial_lh

/-- Source: one turn of the pattern loop of the leaf case of
`PhyloTree::computePartialLikelihoodNaive`; the state is `partial_lh` and `scale_num` of
the half-edge. `none` is the failed `assert(node->id < aln->getNSeq())`. -/
def leafLhStep (aln : Alignment) (STATE_UNKNOWN : Nat) (m : LhModel) (id : Nat)
    (isRootName : Bool) (st : (Nat → ℚ) × (Nat → Int)) (ptn : Nat) :
    Option ((Nat → ℚ) × (Nat → Int)) :=
  let nstates := aln.num_states
  let block := nstates * m.ncat
  (leafState aln STATE_UNKNOWN id isRootName ptn).map fun state =>
    if state = STATE_UNKNOWN then
      (fillRange st.1 (ptn * block) block 1, Function.update st.2 ptn (-1))
    else if state < nstates then
      (markState m.ncat nstates (ptn * block) state st.1, st.2)
    else
      let state := state - (nstates - 1)
      ((List.range (min nstates 7)).foldl (fun a state2 =>
          if state.testBit state2 then markState m.ncat nstates (ptn * block) state2 a
          else a) st.1, st.2)

/-- The variables that the loop over the children in the internal case of
`computePartialLikelihoodNaive` updates: `partial_lh`, `scale_num` and
`lh_scale_factor` of the half-edge, and the array `pattern_scale` of the caller, if one
is passed. -/
structure LhAcc where
  partial_lh : Nat → ℚ
  scale_num : Nat → Int
  lh_scale_factor : ℚ
  pattern_scale : Option (Nat → ℚ)

/-- Source: one turn of the pattern loop for one child in the internal case of
`PhyloTree::computePartialLikelihoodNaive`; `child` is the cache of the half-edge to
the child, and `lh_scale_factor` of the state holds `sum_scale`. -/
def internalLhStep (aln : Alignment) (m : LhModel) (child : LhNeighbor) (st : LhAcc)
    (ptn : Nat) : LhAcc :=
  let nstates := aln.num_states
  let block := nstates * m.ncat
  if child.scale_num ptn ≥ 0 then
    let scale_num :=
      if st.scale_num ptn < 0 then Function.update st.scale_num ptn 0 else st.scale_num
    let scale_num := Function.update scale_num ptn (scale_num ptn + child.scale_num ptn)
    let partial_lh := (List.range m.ncat).foldl (fun a cat =>
      let lh_offset := cat * nstates + ptn * block
      (List.range nstates).foldl (fun a state =>
        let lh_child := (List.range nstates).foldl (fun lh_child state2 =>
          lh_child + m.trans child.length ptn cat state state2 *
            child.partial_lh (lh_offset + state2)) 0
        Function.update a (lh_offset + state) (a (lh_offset + state) * lh_child)) a)
      st.partial_lh
    let do_scale := (List.range block).all fun cat =>
      !decide (partial_lh (ptn * block + cat) > m.SCALING_THRESHOLD)
    if !do_scale then
      { st with partial_lh := partial_lh, scale_num := scale_num }
    else
      let partial_lh := (List.range block).foldl (fun a cat =>
        Function.update a (ptn * block + cat) (a (ptn * block + cat) / m.SCALING_THRESHOLD))
        partial_lh
      { partial_lh := partial_lh
        scale_num := Function.update scale_num ptn (scale_num ptn + 1)
        lh_scale_factor := st.lh_scale_factor + m.LOG_SCALING_THRESHOLD * aln.freq ptn
        pattern_scale := st.pattern_scale.map fun pattern_scale =>
          Function.update pattern_scale ptn (pattern_scale ptn + m.LOG_SCALING_THRESHOLD) }
  else st

mutual
/-- Source: `PhyloTree::computePartialLikelihoodNaive(dad_branch, dad, pattern_scale)`,
`dad` being the node the half-edge starts at. The result is the half-edge with its
cache, and the caches behind it, filled in, and the array `pattern_scale`; `none` is a
failed `assert`. -/
def computePartialLikelihoodNaive (aln : Alignment) (STATE_UNKNOWN : Nat) (m : LhModel) :
    LhBranch → Option (Nat → ℚ) → Option (LhBranch × Option (Nat → ℚ))
  | .mk nei id rn children, pattern_scale =>
      if nei.partial_lh_computed &&& 1 ≠ 0 then some (.mk nei id rn children, pattern_scale)
      else
        let nstates := aln.num_states
        let block := nstates * m.ncat
        let lh_size := aln.size * block
        let nptn := aln.size
        let scale_num := fillRange nei.scale_num 0 aln.size 0
        if children.isEmpty then
          let partial_lh := fillRange nei.partial_lh 0 lh_size 0
          ((List.range nptn).foldlM (leafLhStep aln STATE_UNKNOWN m id rn)
              (partial_lh, scale_num)).map fun r =>
            (.mk { nei with lh_scale_factor := 0, partial_lh := r.1, scale_num := r.2,
                            partial_lh_computed := nei.partial_lh_computed ||| 1 }
                id rn children, pattern_scale)
        else
          let partial_lh := fillRange nei.partial_lh 0 lh_size 1
          let scale_num := fillRange scale_num 0 nptn (-1)
          (computePartialLikelihoodChildren aln STATE_UNKNOWN m children
              ⟨partial_lh, scale_num, 0, pattern_scale⟩).map fun r =>
            (.mk { nei with lh_scale_factor := r.2.lh_scale_factor,
                            partial_lh := r.2.partial_lh, scale_num := r.2.scale_num,
                            partial_lh_computed := nei.partial_lh_computed ||| 1 }
                id rn r.1, r.2.pattern_scale)
/-- Source: the loop `FOR_NEIGHBOR_IT(node, dad, it)` of the internal case of
`PhyloTree::computePartialLikelihoodNaive`, over the half-edges still to visit. -/
def computePartialLikelihoodChildren (aln : Alignment) (STATE_UNKNOWN : Nat) (m : LhModel) :
    List LhBranch → LhAcc → Option (List LhBranch × LhAcc)
  | [], acc => some ([], acc)
  | it :: rest, acc =>
      if it.isRootName then
        (computePartialLikelihoodChildren aln STATE_UNKNOWN m rest acc).map fun r =>
          (it :: r.1, r.2)
      else
        (computePartialLikelihoodNaive aln STATE_UNKNOWN m it acc.pattern_scale).bind fun c =>
          let lh_scale_factor := acc.lh_scale_factor + c.1.nei.lh_scale_factor
          let st := (List.range aln.size).foldl (internalLhStep aln m c.1.nei)
            ⟨acc.partial_lh, acc.scale_num, 0, c.2⟩
          (computePartialLikelihoodChildren aln STATE_UNKNOWN m rest
              ⟨st.partial_lh, st.scale_num, lh_scale_factor + st.lh_scale_factor,
                st.pattern_scale⟩).map fun r =>
            (c.1 :: r.1, r.2)
end

/-- Source: the computation of `lh_cat` in the category loop of
`PhyloTree::computeLikelihoodBranchNaive`. `trans_mat` is the array of the transition
matrices and `trans_base` the offset `(not_ptn_cat ? cat : ptn_cat) * trans_size` plus,
for a site-specific model, `nstates * nstates * model->getPtnModelID(ptn)`;
`partial_lh_site` and `partial_lh_child` are the arrays of the two half-edges from
`lh_offset` on. -/
def lhCatNaive (nstates : Nat) (trans_mat : Nat → ℚ) (trans_base dad_state : Nat)
    (partial_lh_site partial_lh_child : Nat → ℚ) : ℚ :=
  let dad_offset := dad_state * nstates
  if dad_state < nstates then
    (List.range nstates).foldl (fun lh_cat state2 =>
      lh_cat + partial_lh_child state2 * trans_mat (trans_base + dad_offset + state2)) 0
  else
    (List.range nstates).foldl (fun lh_cat state1 =>
      let lh_state := (List.range nstates).foldl (fun lh_state state2 =>
        lh_state + partial_lh_child state2 *
          trans_mat (trans_base + state1 * nstates + state2)) 0
      lh_cat + lh_state * partial_lh_site state1) 0

/-- Source: the value `dad_state` of the pattern loop of
`PhyloTree::computeLikelihoodBranchNaive`: "something big enough" unless `dad` is a
leaf, then the entry of the alignment. -/
def dadState (aln : Alignment) (dadIsLeaf : Bool) (dad_id ptn : Nat) : Nat :=
  if dadIsLeaf then aln.state ptn dad_id else 1000

/-- The general double sum of the spec, `Σ_i L_site[i] · Σ_j P[i,j] · L_child[j]`, over
the states `i, j < nstates`. -/
def generalDoubleSum (nstates : Nat) (P : Nat → Nat → ℚ) (L_site L_child : Nat → ℚ) : ℚ :=
  ∑ i in Finset.range nstates, L_site i * ∑ j in Finset.range nstates, P i j * L_child j

/-- The states that a leaf state is compatible with: every state for `STATE_UNKNOWN`,
the state itself when it is one of the `nstates` states, and for an ambiguity code the
states `s ≤ 6` whose bit is set in the mask `state - (nstates - 1)`. -/
def compatible (nstates STATE_UNKNOWN state s : Nat) : Bool :=
  if state = STATE_UNKNOWN then true
  else if state < nstates then s == state
  else decide (s ≤ 6) && (state - (nstates - 1)).testBit s

/-- The arrays after one turn of the leaf loop, for a leaf that shows `state`. -/
def leafLhPure (aln : Alignment) (STATE_UNKNOWN : Nat) (m : LhModel) (state : Nat)
    (st : (Nat → ℚ) × (Nat → Int)) (ptn : Nat) : (Nat → ℚ) × (Nat → Int) :=
  if state = STATE_UNKNOWN then
    (fillRange st.1 (ptn * (aln.num_states * m.ncat)) (aln.num_states * m.ncat) 1,
      Function.update st.2 ptn (-1))
  else if state < aln.num_states then
    (markState m.ncat aln.num_states (ptn * (aln.num_states * m.ncat)) state st.1, st.2)
  else
    ((List.range (min aln.num_states 7)).foldl (fun a state2 =>
        if (state - (aln.num_states - 1)).testBit state2 then
          markState m.ncat aln.num_states (ptn * (aln.num_states * m.ncat)) state2 a
        else a) st.1, st.2)

/-- The state that a leaf shows at a pattern: the unknown state for a node named
`ROOT_NAME`, else the entry of the alignment. -/
def leafShown (aln : Alignment) (STATE_UNKNOWN : Nat) (id : Nat) (isRootName : Bool)
    (ptn : Nat) : Nat :=
  if isRootName then STATE_UNKNOWN else aln.state ptn id

/-- A rate model of two categories with a transition matrix that keeps a state with
probability 7/10 and moves to each other state with probability 1/10, whatever the
branch length. -/
def exampleLhModel : LhModel :=
  ⟨2, fun _ _ _ state state2 => if state = state2 then 7 / 10 else 1 / 10, 1 / 1000, -7⟩

/-- An allocated likelihood cache that is not computed, on a branch of length 1/10. -/
def exampleLhNeighbor : LhNeighbor := ⟨1 / 10, fun _ => 0, fun _ => 0, 0, 0⟩

/-- The cache of a half-edge holds, at pattern `p`, the partial likelihood 1 for every
category and state, and the sentinel -1 in `scale_num`. -/
def LhNeighbor.Ones (aln : Alignment) (m : LhModel) (p : Nat) (e : LhNeighbor) : Prop :=
  (∀ c s, c < m.ncat → s < aln.num_states →
    e.partial_lh (p * (aln.num_states * m.ncat) + (c * aln.num_states + s)) = 1) ∧
  e.scale_num p = -1

mutual
/-- The half-edges that `computePartialLikelihoodNaive` can reach from a half-edge: the
half-edge itself and those behind it, without the half-edges to a node named
`ROOT_NAME`, which the loop over the children skips. -/
def LhBranch.halfEdges : LhBranch → List LhNeighbor
  | .mk nei _ _ children => nei :: LhBranch.halfEdgesOf children
/-- The half-edges reached through a list of children. -/
def LhBranch.halfEdgesOf : List LhBranch → List LhNeighbor
  | [] => []
  | it :: rest =>
      (if it.isRootName then [] else it.halfEdges) ++ LhBranch.halfEdgesOf rest
end

mutual
/-- The leaves behind a half-edge that `computePartialLikelihoodNaive` can reach, each
with its sequence id and whether it is named `ROOT_NAME`. -/
def LhBranch.leaves : LhBranch → List (Nat × Bool)
  | .mk _ id rn children =>
      (if children.isEmpty then [(id, rn)] else []) ++ LhBranch.leavesOf children
/-- The leaves reached through a list of children. -/
def LhBranch.leavesOf : List LhBranch → List (Nat × Bool)
  | [] => []
  | it :: rest => (if it.isRootName then [] else it.leaves) ++ LhBranch.leavesOf rest
end

/-- A binary tree behind a half-edge of the example alignment: the node above the
leaves of sequences 2 and 3, and next to it the leaf of sequence 1; no cache is
computed. The pattern 4 is the pattern of unknown states that `exampleUnknownAln`
adds. -/
def exampleLhBody : LhBranch :=
  .mk exampleLhNeighbor 0 false
    [.mk exampleLhNeighbor 1 false [],
     .mk exampleLhNeighbor 0 false
       [.mk exampleLhNeighbor 2 false [], .mk exampleLhNeighbor 3 false []]]

/-- The example alignment with a fifth pattern of unknown states. -/
def exampleUnknownAln : Alignment :=
  ⟨4, 4, exampleAln.patterns ++ [exampleUnknownPattern]⟩

/-- Two states of the loop over the children agree at pattern `p`: in the block of `p`
of `partial_lh`, in `scale_num[p]` and in `pattern_scale[p]`. -/
def LhAcc.SameAt (aln : Alignment) (m : LhModel) (p : Nat) (a b : LhAcc) : Prop :=
  (∀ c s, c < m.ncat → s < aln.num_states →
    b.partial_lh (p * (aln.num_states * m.ncat) + (c * aln.num_states + s)) =
      a.partial_lh (p * (aln.num_states * m.ncat) + (c * aln.num_states + s))) ∧
  b.scale_num p = a.scale_num p ∧
  b.pattern_scale.map (fun f => f p) = a.pattern_scale.map (fun f => f p)

/-- The bit 0 of the flags of a cache is set: the likelihood cache is valid. -/
def LhNeighbor.valid (e : LhNeighbor) : Prop := e.partial_lh_computed &&& 1 ≠ 0

/-- What the recursion gives for a half-edge `b` at a pattern `p` of unknown states. -/
def UnknownResult (aln : Alignment) (U : Nat) (m : LhModel) (p : Nat) (b : LhBranch)
    (ps : Option (Nat → ℚ)) : Prop :=
  ∃ b1 ps1, computePartialLikelihoodNaive aln U m b ps = some (b1, ps1) ∧
    b1.nei.valid ∧ b1.isRootName = b.isRootName ∧
    (∀ e ∈ b1.halfEdges, e.valid → e.Ones aln m p) ∧
    ps1.map (fun f => f p) = ps.map (fun f => f p) ∧
    ((∀ e ∈ b.halfEdges, ¬ e.valid) → ∀ e ∈ b1.halfEdges, e.valid)

/-- What the loop over the children gives at a pattern `p` of unknown states. -/
def UnknownResults (aln : Alignment) (U : Nat) (m : LhModel) (p : Nat) (cs : List LhBranch)
    (acc : LhAcc) : Prop :=
  ∃ cs1 acc1, computePartialLikelihoodChildren aln U m cs acc = some (cs1, acc1) ∧
    LhAcc.SameAt aln m p acc acc1 ∧
    (∀ e ∈ LhBranch.halfEdgesOf cs1, e.valid → e.Ones aln m p) ∧
    ((∀ e ∈ LhBranch.halfEdgesOf cs, ¬ e.valid) → ∀ e ∈ LhBranch.halfEdgesOf cs1, e.valid)

/-- Source: an assignment `it->length = value` to the half-edge in slot `it` of node `n`
(`current_it->length = value`, `(*it)->length = fixed_length`). -/
def Tree.setLengthAt (t : Tree) (n it : Nat) (value : ℚ) : Tree :=
  t.setNeighbors n ((t.neighbors n).modify (fun nei => { nei with length := value }) it)

/-- A run of a one-dimensional minimizer (`minimizeNewton`, `minimizeOneDimen`; the
optimization code is not part of `src/`) as the caller sees it: it returns `optx` and the
function value there, or it calls `computeFunction` or `computeFuncDerv` at a point and
goes on with what the call gives. -/
inductive Minimizer where
  | ret (optx negative_lh : ℚ)
  | evalFunction (value : ℚ) (next : ℚ → Minimizer)
  | evalFuncDerv (value : ℚ) (next : ℚ × ℚ × ℚ → Minimizer)

/-- Source: `PhyloTree::computeFunction`, for `current_it` the slot `it` of `node1` and
`current_it_back` the slot `it_back` of `node2`. The value and the store that
`computeLikelihoodBranch(current_it, current_it_back->node)` gives are the parameter
`computeLikelihoodBranch`. -/
def computeFunction (computeLikelihoodBranch : Tree → ℚ × Tree) (node1 it node2 it_back : Nat)
    (t : Tree) (value : ℚ) : ℚ × Tree :=
  let t1 := t.setLengthAt node1 it value
  let t2 := t1.setLengthAt node2 it_back value
  let r := computeLikelihoodBranch t2
  (-r.1, r.2)

/-- Source: `PhyloTree::computeFuncDerv`; the result holds the value returned, `df` and
`ddf`, and the store. -/
def computeFuncDerv (computeLikelihoodDerv : Tree → (ℚ × ℚ × ℚ) × Tree)
    (node1 it node2 it_back : Nat) (t : Tree) (value : ℚ) : (ℚ × ℚ × ℚ) × Tree :=
  let t1 := t.setLengthAt node1 it value
  let t2 := t1.setLengthAt node2 it_back value
  let r := computeLikelihoodDerv t2
  ((-r.1.1, -r.1.2.1, -r.1.2.2), r.2)

/-- The run of a minimizer on the store: the value `optx` it returns, the function
value it reports, and the store after its calls. -/
def Minimizer.run (computeLikelihoodBranch : Tree → ℚ × Tree)
    (computeLikelihoodDerv : Tree → (ℚ × ℚ × ℚ) × Tree) (node1 it node2 it_back : Nat) :
    Minimizer → Tree → ℚ × ℚ × Tree
  | .ret optx negative_lh, t => (optx, negative_lh, t)
  | .evalFunction value next, t =>
      let r := computeFunction computeLikelihoodBranch node1 it node2 it_back t value
      Minimizer.run computeLikelihoodBranch computeLikelihoodDerv node1 it node2 it_back
        (next r.1) r.2
  | .evalFuncDerv value next, t =>
      let r := computeFuncDerv computeLikelihoodDerv node1 it node2 it_back t value
      Minimizer.run computeLikelihoodBranch computeLikelihoodDerv node1 it node2 it_back
        (next r.1) r.2

/-- The last point at which a run of a minimizer evaluates the objective; `last` when
it evaluates it nowhere. -/
def Minimizer.lastValue (computeLikelihoodBranch : Tree → ℚ × Tree)
    (computeLikelihoodDerv : Tree → (ℚ × ℚ × ℚ) × Tree) (node1 it node2 it_back : Nat) :
    Minimizer → Tree → Option ℚ → Option ℚ
  | .ret _ _, _, last => last
  | .evalFunction value next, t, _ =>
      let r := computeFunction computeLikelihoodBranch node1 it node2 it_back t value
      Minimizer.lastValue computeLikelihoodBranch computeLikelihoodDerv node1 it node2 it_back
        (next r.1) r.2 (some value)
  | .evalFuncDerv value next, t, _ =>
      let r := computeFuncDerv computeLikelihoodDerv node1 it node2 it_back t value
      Minimizer.lastValue computeLikelihoodBranch computeLikelihoodDerv node1 it node2 it_back
        (next r.1) r.2 (some value)

/-- The minimizer returns a point of `[lo, hi]` and evaluates the objective at points
of `[lo, hi]` only, whatever the evaluations give. -/
def Minimizer.Within (lo hi : ℚ) : Minimizer → Prop
  | .ret optx _ => lo ≤ optx ∧ optx ≤ hi
  | .evalFunction value next =>
      lo ≤ value ∧ value ≤ hi ∧ ∀ f, Minimizer.Within lo hi (next f)
  | .evalFuncDerv value next =>
      lo ≤ value ∧ value ≤ hi ∧ ∀ f, Minimizer.Within lo hi (next f)

/-- Source: `PhyloTree::optimizeOneBranch`. The constants `MIN_BRANCH_LEN`,
`MAX_BRANCH_LEN` and `TOL_BRANCH_LEN` and the two minimizers are declared outside
`src/` and are parameters. The result is the value returned and the store; `none` is a
failed `assert`. -/
def optimizeOneBranch (MIN_BRANCH_LEN MAX_BRANCH_LEN TOL_BRANCH_LEN : ℚ)
    (optimize_by_newton : Bool) (minimizeNewton minimizeOneDimen : ℚ → ℚ → ℚ → ℚ → Minimizer)
    (computeLikelihoodBranch : Tree → ℚ × Tree)
    (computeLikelihoodDerv : Tree → (ℚ × ℚ × ℚ) × Tree)
    (t : Tree) (node1 node2 : Nat) (clearLH : Bool) : Option (ℚ × Tree) :=
  match findNeighborIt (t.neighbors node1) node2 with
  | none => none
  | some current_it =>
      match findNeighborIt (t.neighbors node2) node1 with
      | none => none
      | some current_it_back =>
          match (t.neighbors node1).get? current_it with
          | none => none
          | some nei =>
              let current_len := nei.length
              let r :=
                if optimize_by_newton then
                  Minimizer.run computeLikelihoodBranch computeLikelihoodDerv node1 current_it
                    node2 current_it_back
                    (minimizeNewton MIN_BRANCH_LEN current_len MAX_BRANCH_LEN TOL_BRANCH_LEN) t
                else
                  Minimizer.run computeLikelihoodBranch computeLikelihoodDerv node1 current_it
                    node2 current_it_back
                    (minimizeOneDimen MIN_BRANCH_LEN current_len MAX_BRANCH_LEN TOL_BRANCH_LEN) t
              let optx := r.1
              let negative_lh := r.2.1
              if current_len = optx then some (-negative_lh, r.2.2)
              else
                let t1 := r.2.2.setLengthAt node1 current_it optx
                let t2 := t1.setLengthAt node2 current_it_back optx
                if clearLH then
                  some (-negative_lh,
                    (t2.clearReversePartialLh node1 node2).clearReversePartialLh node2 node1)
                else some (-negative_lh, t2)

/-- The stores `t` and `t1` have the same half-edges, up to the caches: every node has
the same neighbors with the same lengths in the same slots. -/
def Tree.SameShape (t t1 : Tree) : Prop :=
  ∀ u, shape (t1.neighbors u) = shape (t.neighbors u)

/-- Both half-edges of the branch between `node1` and `node2` hold the length `l`. -/
def Tree.EdgeAt (t : Tree) (node1 node2 : Nat) (l : ℚ) : Prop :=
  t.edgeLength node1 node2 = some l ∧ t.edgeLength node2 node1 = some l

/-- The minimizer that `optimizeOneBranch` calls, with its arguments. -/
def optimizeOneBranchMinimizer (MIN_BRANCH_LEN MAX_BRANCH_LEN TOL_BRANCH_LEN : ℚ)
    (optimize_by_newton : Bool) (minimizeNewton minimizeOneDimen : ℚ → ℚ → ℚ → ℚ → Minimizer)
    (current_len : ℚ) : Minimizer :=
  if optimize_by_newton then
    minimizeNewton MIN_BRANCH_LEN current_len MAX_BRANCH_LEN TOL_BRANCH_LEN
  else minimizeOneDimen MIN_BRANCH_LEN current_len MAX_BRANCH_LEN TOL_BRANCH_LEN

/-- The length that `optimizeOneBranch` leaves on the branch: the optimum `optx` of the
minimizer when it differs from the incoming length `current_len`; else, the early
return writing nothing, the last point at which the minimizer evaluated the objective
(`current_len` when it evaluated it nowhere). -/
def lengthLeft (computeLikelihoodBranch : Tree → ℚ × Tree)
    (computeLikelihoodDerv : Tree → (ℚ × ℚ × ℚ) × Tree) (node1 it node2 it_back : Nat)
    (M : Minimizer) (t : Tree) (current_len : ℚ) : ℚ :=
  if current_len =
      (M.run computeLikelihoodBranch computeLikelihoodDerv node1 it node2 it_back t).1 then
    (M.lastValue computeLikelihoodBranch computeLikelihoodDerv node1 it node2 it_back t
      none).getD current_len
  else (M.run computeLikelihoodBranch computeLikelihoodDerv node1 it node2 it_back t).1

/-- A minimizer that evaluates the objective at 3 and then returns its starting point
`xguess`, with the function value 0. -/
def exampleMinimizer (_x1 xguess _x2 _xacc : ℚ) : Minimizer :=
  .evalFunction 3 (fun _ => .ret xguess 0)

/-- Invariant I1 on the branch lengths: whenever `u` has a half-edge to `v` and `v` one
to `u` (the half-edges that `findNeighbor` returns), the two hold the same length. -/
def Tree.I1 (t : Tree) : Prop :=
  ∀ u v l l1, t.edgeLength u v = some l → t.edgeLength v u = some l1 → l = l1

/-- A test of invariant I1 on the nodes of the store. -/
def Tree.checkI1 (t : Tree) : Bool :=
  (List.range t.nodes.length).all fun u =>
    (t.links u).all fun v =>
      match t.edgeLength u v, t.edgeLength v u with
      | some l, some l1 => l == l1
      | _, _ => true

/-- Source: `IQPTree::applyBranchLengthChange`. The map `mapOptBranLens` is read at the
key made of the two node ids, the smaller first; `lamda` is the member of that name.
The result is the value returned and the store; `none` is a failed `assert`. -/
def IQPTree.applyBranchLengthChange (lamda : ℚ) (mapOptBranLens : Nat × Nat → ℚ) (t : Tree)
    (node1 node2 : Nat) (nonNNIBranch : Bool) : Option (ℚ × Tree) :=
  match findNeighborIt (t.neighbors node1) node2 with
  | none => none
  | some current_it =>
      match findNeighborIt (t.neighbors node2) node1 with
      | none => none
      | some current_it_back =>
          match (t.neighbors node1).get? current_it with
          | none => none
          | some nei =>
              let current_len := nei.length
              let key :=
                if t.nodeId node1 < t.nodeId node2 then (t.nodeId node1, t.nodeId node2)
                else (t.nodeId node2, t.nodeId node1)
              let optLen := mapOptBranLens key
              let new_len :=
                if nonNNIBranch then current_len + lamda * (optLen - current_len) else optLen
              let t1 := t.setLengthAt node1 current_it new_len
              let t2 := t1.setLengthAt node2 current_it_back new_len
              some (new_len,
                (t2.clearReversePartialLh node1 node2).clearReversePartialLh node2 node1)

/-- Source: `PhyloTree::computeLikelihoodZeroBranch(dad_branch, dad)`, `dad_branch` being
the slot of that name of `dad`. The value and the store that
`computeLikelihoodBranch(dad_branch, dad)` gives are the parameter
`computeLikelihoodBranch`. `none` when the slot or the half-edge back does not exist. -/
def computeLikelihoodZeroBranch (computeLikelihoodBranch : Tree → ℚ × Tree) (t : Tree)
    (dad dad_branch : Nat) : Option (ℚ × Tree) :=
  match (t.neighbors dad).get? dad_branch with
  | none => none
  | some nei =>
      let saved_len := nei.length
      match findNeighborIt (t.neighbors nei.node) dad with
      | none => none
      | some node_branch =>
          let t1 := t.setLengthAt dad dad_branch 0
          let t2 := t1.setLengthAt nei.node node_branch 0
          let r := computeLikelihoodBranch t2
          let t3 := r.2.setLengthAt dad dad_branch saved_len
          let t4 := t3.setLengthAt nei.node node_branch saved_len
          some (r.1, t4)

/-- The length that a shape keeps for the branch to `v`: that of its first slot that
points to `v`. -/
def lengthIn (L : List (Nat × ℚ)) (v : Nat) : Option ℚ :=
  (L.find? (fun p => p.1 == v)).map (fun p => p.2)

/-- One turn of the loop `FOR_NEIGHBOR_IT(node, dad, it)` of `fixNegativeBranch`, at slot
`it` of `node` with the count `fixed` and the store so far: the slot that leads to `dad`
is skipped; a length `<= 0.0` is replaced by `fixed_length` on the half-edge and on
`(*it)->node->findNeighbor(node)` and counted; then the count of the call for
`((*it)->node, node)` is added. `none` where `findNeighbor` has no half-edge to give. -/
def fixNegativeBranchTurn (fixed_length : ℚ) (recurse : Tree → Nat → Nat → Option (Int × Tree))
    (node : Nat) (dad : Option Nat) (st : Int × Tree) (it : Nat) : Option (Int × Tree) :=
  match (st.2.neighbors node)[it]? with
  | none => none
  | some nei =>
      if some nei.node = dad then some st
      else
        (if nei.length ≤ 0 then
          (findNeighborIt (st.2.neighbors nei.node) node).map fun back =>
            (st.1 + 1,
              (st.2.setLengthAt node it fixed_length).setLengthAt nei.node back fixed_length)
        else some st).bind fun st1 =>
        (recurse st1.2 nei.node node).map fun r => (st1.1 + r.1, r.2)

/-- The recursion of `PhyloTree::fixNegativeBranch(fixed_length, node, dad)` on the store,
down to the depth `fuel`: the number of branches fixed and the store afterwards. The
loop runs over the slots of `node`, whose number no assignment of the function
changes. -/
def fixNegativeBranchAux (fixed_length : ℚ) : Nat → Tree → Nat → Option Nat →
    Option (Int × Tree)
  | 0, _, _, _ => none
  | fuel + 1, t, node, dad =>
      (List.range (t.neighbors node).length).foldlM
        (fixNegativeBranchTurn fixed_length
          (fun t1 n d => fixNegativeBranchAux fixed_length fuel t1 n (some d)) node dad)
        (0, t)

/-- The call `fixNegativeBranch(fixed_length)`, whose `node` defaults to `root` and whose
`dad` is null. -/
def fixNegativeBranch (fixed_length : ℚ) (t : Tree) (root : Nat) : Option (Int × Tree) :=
  fixNegativeBranchAux fixed_length (t.nodes.length + 1) t root none

/-- A store with a deleted leaf: `exampleTree` with leaf 0 and its node 4 cut out, nodes 1
and 5 joined by a branch of length 7, and the half-edges of 0 and 4 left as they were. -/
def exampleDeletedTree : Tree :=
  ⟨[⟨0, [⟨4, 1, 0, 3, 0⟩]⟩, ⟨1, [⟨5, 7, 1, 3, 0⟩]⟩, ⟨2, [⟨5, 3, 2, 3, 0⟩]⟩, ⟨3, [⟨5, 4, 3, 3, 0⟩]⟩,
    ⟨4, [⟨0, 1, 0, 3, 0⟩, ⟨1, 2, 1, 3, 0⟩, ⟨5, 5, 4, 3, 0⟩]⟩,
    ⟨5, [⟨1, 7, 4, 3, 0⟩, ⟨2, 3, 2, 3, 0⟩, ⟨3, 4, 3, 3, 0⟩]⟩]⟩

/-- Source: the loop `FOR_NEIGHBOR_IT(node, dad, it)` of
`PhyloTree::searchNNI(cur_score, node, dad)`, from the slot `it` on, in the store as it
is in that turn; `recurse t child` is the call `searchNNI(cur_score, child, node)`. The
result is the value returned and the store at the return; `none` when a call does not
return or when more than `fuel` slots are looked at. -/
def searchNNILoop (recurse : Tree → Nat → Option (ℚ × Tree)) (cur_score : ℚ) (node : Nat)
    (dad : Option Nat) : Nat → Nat → Tree → Option (ℚ × Tree)
  | 0, _, _ => none
  | fuel + 1, it, t =>
      match (t.neighbors node).get? it with
      | none => some (cur_score, t)
      | some nei =>
          if some nei.node = dad then searchNNILoop recurse cur_score node dad fuel (it + 1) t
          else
            (recurse t nei.node).bind fun r =>
              if r.1 < cur_score then some r
              else searchNNILoop recurse cur_score node dad fuel (it + 1) r.2

/-- Source: `PhyloTree::searchNNI(cur_score, node, dad)`, the recursion over the
branches, down to the depth `depth`: on a branch between two internal nodes `swapNNI`
is tried, and a score below `cur_score` is returned at once; then the neighbors of
`node` other than `dad` are searched in slot order, in a loop that has one more slot
test than `node` has slots. The value of `computeParsimonyScore()` is the parameter
`score`. -/
def searchNNIAux (score : Tree → Option Int) (cur_score : ℚ) :
    Nat → Tree → Nat → Option Nat → Option (ℚ × Tree)
  | 0, _, _, _ => none
  | depth + 1, t, node, dad =>
      (match dad with
        | some d =>
            if !t.isLeaf node && !t.isLeaf d then swapNNI score cur_score t node d
            else some (cur_score, t)
        | none => some (cur_score, t)).bind fun r =>
        if r.1 < cur_score then some r
        else
          searchNNILoop (fun t1 n => searchNNIAux score cur_score depth t1 n (some node))
            cur_score node dad ((r.2.neighbors node).length + 1) 0 r.2

/-- Source: the loop `do ... while (true)` of `PhyloTree::searchNNI()`, for at most
`rounds` rounds: a round calls `searchNNI(cur_score)` from `root` and stops the loop when
the score returned is not below `cur_score`. The result is `cur_score` and the store
when the loop is left; `none` when `rounds` rounds do not end it. -/
def searchNNIRounds (score : Tree → Option Int) (root depth : Nat) :
    Nat → ℚ → Tree → Option (ℚ × Tree)
  | 0, _, _ => none
  | rounds + 1, cur_score, t =>
      (searchNNIAux score cur_score depth t root none).bind fun r =>
        if r.1 ≥ cur_score then some (cur_score, r.2)
        else searchNNIRounds score root depth rounds r.1 r.2

/-- Source: `PhyloTree::searchNNI()`: `cur_score` starts as `computeParsimonyScore()`,
then the rounds run. -/
def searchNNI (score : Tree → Option Int) (t : Tree) (root depth rounds : Nat) :
    Option (ℚ × Tree) :=
  (score t).bind fun s => searchNNIRounds score root depth rounds (s : ℚ) t

/-- What one call of the search gives for the store `t` and `cur_score`: `cur_score` with
the store as it was, or a parsimony score below `cur_score`, a natural number, with the
binary tree that has it. -/
def SearchResult (score : Tree → Option Int) (cur_score : ℚ) (t : Tree) (r : ℚ × Tree) :
    Prop :=
  r = (cur_score, t) ∨
    ∃ v : Nat, r.1 = (v : ℚ) ∧ (v : ℚ) < cur_score ∧ r.2.IsBinaryTree ∧
      score r.2 = some (v : Int) ∧ r.2.nodes.length = t.nodes.length

/-- A score for `exampleTree`: the sum of the numbers of the neighbors of node 5. -/
def exampleScore (s : Tree) : Option Int := some (((s.links 5).sum : Nat) : Int)

/-! ## Theorems -/

theorem neighbors_setNeighbors (t : Tree) (n m : Nat) (ns : List Neighbor) :
    (t.setNeighbors n ns).neighbors m =
      if m = n ∧ n < t.nodes.length then ns else t.neighbors m := by
  unfold Tree.setNeighbors Tree.neighbors
  by_cases hn : n < t.nodes.length
  · have : t.nodes.get? n = some (t.nodes.get ⟨n, hn⟩) := by simp [List.get?_eq_get hn]
    rw [this]
    by_cases hm : m = n
    · subst hm
      simp [hn, List.getElem?_set]
    · simp [hm, List.getElem?_set, Ne.symm hm]
  · have : t.nodes.get? n = none := by simp; omega
    rw [this]
    simp [hn]

theorem length_setNeighbors (t : Tree) (n : Nat) (ns : List Neighbor) :
    (t.setNeighbors n ns).nodes.length = t.nodes.length := by
  unfold Tree.setNeighbors
  cases h : t.nodes.get? n <;> simp

theorem lt_of_neighbors_ne_nil (t : Tree) (n : Nat) (h : t.neighbors n ≠ []) :
    n < t.nodes.length := by
  unfold Tree.neighbors at h
  by_contra hn
  have : t.nodes.get? n = none := by simp; omega
  rw [this] at h
  exact h rfl

theorem shape_modify_flag (ns : List Neighbor) (i : Nat) :
    shape (ns.modify (fun nei => { nei with partial_lh_computed := 0 }) i) = shape ns := by
  induction ns generalizing i with
  | nil => cases i <;> rfl
  | cons x xs ih =>
    cases i with
    | zero => simp [shape]
    | succ i =>
      have := ih i
      simp only [shape, List.modify_succ_cons, List.map_cons] at this ⊢
      rw [this]

theorem shape_clearPartialLh (t : Tree) (n d m : Nat) :
    shape ((t.clearPartialLh n d).neighbors m) = shape (t.neighbors m) := by
  unfold Tree.clearPartialLh
  cases h : findNeighborIt (t.neighbors n) d with
  | none => rfl
  | some i =>
    simp only [neighbors_setNeighbors]
    split
    · next hc => rw [shape_modify_flag, hc.1]
    · rfl

theorem shape_foldl_clear (f : Tree → Neighbor → Tree)
    (hf : ∀ t x m, shape ((f t x).neighbors m) = shape (t.neighbors m))
    (l : List Neighbor) (t : Tree) (m : Nat) :
    shape ((l.foldl f t).neighbors m) = shape (t.neighbors m) := by
  induction l generalizing t with
  | nil => rfl
  | cons x xs ih => simp only [List.foldl_cons]; rw [ih, hf]

theorem shape_clearReverseAux (fuel : Nat) (t : Tree) (n d m : Nat) :
    shape ((clearReverseAux fuel t n d).neighbors m) = shape (t.neighbors m) := by
  induction fuel generalizing t n d m with
  | zero => rfl
  | succ fuel ih =>
    simp only [clearReverseAux]
    rw [shape_foldl_clear _ (fun t x m => ih t x.node n m)]
    exact shape_clearPartialLh t n d m

theorem shape_clearReversePartialLh (t : Tree) (n d m : Nat) :
    shape ((t.clearReversePartialLh n d).neighbors m) = shape (t.neighbors m) :=
  shape_clearReverseAux _ t n d m

theorem findNeighborIt_shape (ns : List Neighbor) (x : Nat) :
    findNeighborIt ns x = findS (shape ns) x := by
  simp only [findNeighborIt, findS, shape, List.findIdx?_map]
  rfl

theorem shape_modify_node (ns : List Neighbor) (k y : Nat) :
    shape (ns.modify (fun nei => { nei with node := y }) k) = retarget (shape ns) k y := by
  induction ns generalizing k with
  | nil => cases k <;> rfl
  | cons x xs ih =>
    cases k with
    | zero => simp [shape, retarget]
    | succ k =>
      have := ih k
      simp only [shape, retarget, List.modify_succ_cons, List.map_cons] at this ⊢
      rw [this]

theorem shape_set (ns : List Neighbor) (i : Nat) (x : Neighbor) :
    shape (ns.set i x) = (shape ns).set i (x.node, x.length) := by
  simp [shape, List.map_set]

theorem shape_getElem? (ns : List Neighbor) (i : Nat) :
    (shape ns)[i]? = (ns[i]?).map fun x => (x.node, x.length) := by
  simp [shape]

theorem length_shape (ns : List Neighbor) : (shape ns).length = ns.length := by
  simp [shape]

theorem updateNeighborIt_eq (t : Tree) (n k : Nat) (x : Neighbor)
    (hk : k < (t.neighbors n).length) :
    t.updateNeighborIt n k x = some (t.setNeighbors n ((t.neighbors n).set k x)) := by
  simp [Tree.updateNeighborIt, hk]

theorem updateNeighbor_eq (t : Tree) (n x y k : Nat)
    (hk : findNeighborIt (t.neighbors n) x = some k) :
    t.updateNeighbor n x y = some (t.setNeighbors n
        ((t.neighbors n).modify (fun nei => { nei with node := y }) k)) := by
  simp [Tree.updateNeighbor, hk]

theorem lt_of_getElem?_neighbors (t : Tree) (n k : Nat) (x : Neighbor)
    (h : (t.neighbors n)[k]? = some x) : n < t.nodes.length := by
  apply lt_of_neighbors_ne_nil
  intro h0
  rw [h0] at h
  simp at h

theorem lt_of_find_neighbors (t : Tree) (n x k : Nat)
    (h : findNeighborIt (t.neighbors n) x = some k) : n < t.nodes.length := by
  apply lt_of_neighbors_ne_nil
  intro h0
  rw [h0] at h
  simp [findNeighborIt] at h

theorem length_clearPartialLh (t : Tree) (n d : Nat) :
    (t.clearPartialLh n d).nodes.length = t.nodes.length := by
  unfold Tree.clearPartialLh
  cases h : findNeighborIt (t.neighbors n) d with
  | none => rfl
  | some i => exact length_setNeighbors _ _ _

theorem length_foldl_clear (f : Tree → Neighbor → Tree)
    (hf : ∀ t x, (f t x).nodes.length = t.nodes.length)
    (l : List Neighbor) (t : Tree) :
    (l.foldl f t).nodes.length = t.nodes.length := by
  induction l generalizing t with
  | nil => rfl
  | cons x xs ih => simp only [List.foldl_cons]; rw [ih, hf]

theorem length_clearReverseAux (fuel : Nat) (t : Tree) (n d : Nat) :
    (clearReverseAux fuel t n d).nodes.length = t.nodes.length := by
  induction fuel generalizing t n d with
  | zero => rfl
  | succ fuel ih =>
    simp only [clearReverseAux]
    rw [length_foldl_clear _ (fun t x => ih t x.node n)]
    exact length_clearPartialLh t n d

theorem length_clearReversePartialLh (t : Tree) (n d : Nat) :
    (t.clearReversePartialLh n d).nodes.length = t.nodes.length :=
  length_clearReverseAux _ t n d

theorem doNNI_shape (t : Tree) (m : NNIMove) (a0 b0 : Neighbor) (ka kb : Nat)
    (ha : (t.neighbors m.node1)[m.node1Nei_it]? = some a0)
    (hb : (t.neighbors m.node2)[m.node2Nei_it]? = some b0)
    (h1 : (t.neighbors m.node1).length = 3) (h2 : (t.neighbors m.node2).length = 3)
    (h12 : m.node1 ≠ m.node2)
    (ha1 : a0.node ≠ m.node1) (ha2 : a0.node ≠ m.node2)
    (hb1 : b0.node ≠ m.node1) (hb2 : b0.node ≠ m.node2) (hab : a0.node ≠ b0.node)
    (hka : findNeighborIt (t.neighbors a0.node) m.node1 = some ka)
    (hkb : findNeighborIt (t.neighbors b0.node) m.node2 = some kb) :
    ∃ t', doNNI t m = some t' ∧ t'.nodes.length = t.nodes.length ∧
      ∀ n, shape (t'.neighbors n) =
        nniS (fun n => shape (t.neighbors n)) m.node1 m.node1Nei_it m.node2 m.node2Nei_it
          (a0.node, a0.length) (b0.node, b0.length) ka kb n := by
  have hn1 := lt_of_getElem?_neighbors t _ _ _ ha
  have hn2 := lt_of_getElem?_neighbors t _ _ _ hb
  have hnA := lt_of_find_neighbors t _ _ _ hka
  have hnB := lt_of_find_neighbors t _ _ _ hkb
  have hi : m.node1Nei_it < (t.neighbors m.node1).length := by
    rcases List.getElem?_eq_some.1 ha with ⟨h, _⟩; exact h
  have hj : m.node2Nei_it < (t.neighbors m.node2).length := by
    rcases List.getElem?_eq_some.1 hb with ⟨h, _⟩; exact h
  -- the four updates
  let t1 := t.setNeighbors m.node1 ((t.neighbors m.node1).set m.node1Nei_it b0)
  have e1 : t.updateNeighborIt m.node1 m.node1Nei_it b0 = some t1 :=
    updateNeighborIt_eq t _ _ _ hi
  have n1 : ∀ n, t1.neighbors n =
      if n = m.node1 then (t.neighbors m.node1).set m.node1Nei_it b0 else t.neighbors n := by
    intro n; simp only [t1, neighbors_setNeighbors, hn1, and_true]
  have l1 : t1.nodes.length = t.nodes.length := length_setNeighbors _ _ _
  let t2 := t1.setNeighbors b0.node
    ((t1.neighbors b0.node).modify (fun nei => { nei with node := m.node1 }) kb)
  have hB1 : t1.neighbors b0.node = t.neighbors b0.node := by rw [n1]; simp [hb1]
  have e2 : t1.updateNeighbor b0.node m.node2 m.node1 = some t2 :=
    updateNeighbor_eq t1 _ _ _ _ (by rw [hB1]; exact hkb)
  have n2 : ∀ n, t2.neighbors n =
      if n = b0.node then
        (t.neighbors b0.node).modify (fun nei => { nei with node := m.node1 }) kb
      else t1.neighbors n := by
    intro n; simp only [t2, neighbors_setNeighbors, l1, hnB, and_true, hB1]
  have l2 : t2.nodes.length = t.nodes.length := by
    rw [length_setNeighbors]; exact l1
  have hN2 : t2.neighbors m.node2 = t.neighbors m.node2 := by
    rw [n2, n1]; simp [Ne.symm hb2, Ne.symm h12]
  let t3 := t2.setNeighbors m.node2 ((t2.neighbors m.node2).set m.node2Nei_it a0)
  have e3 : t2.updateNeighborIt m.node2 m.node2Nei_it a0 = some t3 :=
    updateNeighborIt_eq t2 _ _ _ (by rw [hN2]; exact hj)
  have n3 : ∀ n, t3.neighbors n =
      if n = m.node2 then (t.neighbors m.node2).set m.node2Nei_it a0 else t2.neighbors n := by
    intro n; simp only [t3, neighbors_setNeighbors, l2, hn2, and_true, hN2]
  have l3 : t3.nodes.length = t.nodes.length := by
    rw [length_setNeighbors]; exact l2
  have hA3 : t3.neighbors a0.node = t.neighbors a0.node := by
    rw [n3, n2, n1]; simp [ha1, ha2, hab]
  let t4 := t3.setNeighbors a0.node
    ((t3.neighbors a0.node).modify (fun nei => { nei with node := m.node2 }) ka)
  have e4 : t3.updateNeighbor a0.node m.node1 m.node2 = some t4 :=
    updateNeighbor_eq t3 _ _ _ _ (by rw [hA3]; exact hka)
  have n4 : ∀ n, t4.neighbors n =
      if n = a0.node then
        (t.neighbors a0.node).modify (fun nei => { nei with node := m.node2 }) ka
      else t3.neighbors n := by
    intro n; simp only [t4, neighbors_setNeighbors, l3, hnA, and_true, hA3]
  have l4 : t4.nodes.length = t.nodes.length := by
    rw [length_setNeighbors]; exact l3
  refine ⟨((((t4.clearPartialLh m.node1 m.node2).clearPartialLh m.node2
      m.node1).clearReversePartialLh m.node2 m.node1).clearReversePartialLh m.node1
      m.node2), ?_, ?_, ?_⟩
  · unfold doNNI
    have ha' : (t.neighbors m.node1).get? m.node1Nei_it = some a0 := by simpa using ha
    have hb' : (t.neighbors m.node2).get? m.node2Nei_it = some b0 := by simpa using hb
    simp only [ha', hb', h1, h2, and_self, if_true, e1, e2, e3, e4, Option.some_bind]
  · rw [length_clearReversePartialLh, length_clearReversePartialLh, length_clearPartialLh,
      length_clearPartialLh]
    exact l4
  · intro n
    rw [shape_clearReversePartialLh, shape_clearReversePartialLh, shape_clearPartialLh,
      shape_clearPartialLh, n4]
    unfold nniS
    simp only
    split
    · rw [shape_modify_node]
    · rw [n3]; split
      · rw [shape_set]
      · rw [n2]; split
        · rw [shape_modify_node]
        · rw [n1]; split
          · rw [shape_set]
          · rfl

theorem findS_retarget (L : List (Nat × ℚ)) (x y k : Nat)
    (hk : findS L x = some k)
    (hy : ∀ j p, j < k → L[j]? = some p → p.1 ≠ y) :
    findS (retarget L k y) y = some k ∧
      (∀ j p, j < k → (retarget L k y)[j]? = some p → p.1 ≠ x) ∧
      retarget (retarget L k y) k x = L := by
  unfold findS at hk ⊢
  rw [List.findIdx?_eq_some_iff_getElem] at hk ⊢
  obtain ⟨hlt, hx, hbefore⟩ := hk
  have hlen : (retarget L k y).length = L.length := by simp [retarget]
  refine ⟨⟨by rw [hlen]; exact hlt, ?_, ?_⟩, ?_, ?_⟩
  · have : (retarget L k y)[k]? = some (y, L[k].2) := by
      simp [retarget, List.getElem?_modify, hlt]
    have h' := List.getElem?_eq_some.1 this
    obtain ⟨_, h'⟩ := h'
    simp [h']
  · intro j hj
    have hjl : j < L.length := Nat.lt_trans hj hlt
    have : (retarget L k y)[j]? = some L[j] := by
      simp [retarget, List.getElem?_modify, hjl, Nat.ne_of_gt hj]
    have h' := List.getElem?_eq_some.1 this
    obtain ⟨_, h'⟩ := h'
    rw [h']
    have := hy j L[j] hj (by simp [hjl])
    simpa using this
  · intro j p hj hp
    have hjl : j < L.length := Nat.lt_trans hj hlt
    have : (retarget L k y)[j]? = some L[j] := by
      simp [retarget, List.getElem?_modify, hjl, Nat.ne_of_gt hj]
    rw [this] at hp
    cases hp
    have := hbefore j hj
    simpa using this
  · apply List.ext_getElem?
    intro j
    simp only [retarget, List.getElem?_modify]
    by_cases hjk : k = j
    · subst hjk
      have hxk : L[k].1 = x := by simpa using hx
      simp [hlt, ← hxk]
    · simp [hjk]

theorem set_set_self (L : List (Nat × ℚ)) (i : Nat) (a b : Nat × ℚ)
    (h : L[i]? = some a) : (L.set i b).set i a = L := by
  apply List.ext_getElem?
  intro j
  simp only [List.getElem?_set, List.length_set]
  by_cases hij : i = j
  · subst hij
    have hlt : i < L.length := (List.getElem?_eq_some.1 h).1
    simp [hlt, h]
  · simp [hij]

theorem findS_none (L : List (Nat × ℚ)) (y : Nat) (h : findS L y = none) :
    ∀ (j : Nat) (p : Nat × ℚ), L[j]? = some p → p.1 ≠ y := by
  intro j p hp
  unfold findS at h
  rw [List.findIdx?_eq_none_iff] at h
  have := h p (List.getElem?_mem hp)
  simpa using this

theorem snd_retarget (L : List (Nat × ℚ)) (k y : Nat) :
    (retarget L k y).map Prod.snd = L.map Prod.snd := by
  induction L generalizing k with
  | nil => cases k <;> rfl
  | cons x xs ih =>
    cases k with
    | zero => simp [retarget]
    | succ k =>
      have := ih k
      simp only [retarget, List.modify_succ_cons, List.map_cons] at this ⊢
      rw [this]

theorem doNNI_shape' (t : Tree) (m : NNIMove) (a b : Nat × ℚ) (ka kb : Nat)
    (ha : (shape (t.neighbors m.node1))[m.node1Nei_it]? = some a)
    (hb : (shape (t.neighbors m.node2))[m.node2Nei_it]? = some b)
    (h1 : (shape (t.neighbors m.node1)).length = 3)
    (h2 : (shape (t.neighbors m.node2)).length = 3)
    (h12 : m.node1 ≠ m.node2)
    (ha1 : a.1 ≠ m.node1) (ha2 : a.1 ≠ m.node2)
    (hb1 : b.1 ≠ m.node1) (hb2 : b.1 ≠ m.node2) (hab : a.1 ≠ b.1)
    (hka : findS (shape (t.neighbors a.1)) m.node1 = some ka)
    (hkb : findS (shape (t.neighbors b.1)) m.node2 = some kb) :
    ∃ t', doNNI t m = some t' ∧ t'.nodes.length = t.nodes.length ∧
      ∀ n, shape (t'.neighbors n) =
        nniS (fun n => shape (t.neighbors n)) m.node1 m.node1Nei_it m.node2 m.node2Nei_it
          a b ka kb n := by
  rw [shape_getElem?, Option.map_eq_some'] at ha hb
  obtain ⟨a0, ha0, rfl⟩ := ha
  obtain ⟨b0, hb0, rfl⟩ := hb
  rw [length_shape] at h1 h2
  rw [← findNeighborIt_shape] at hka hkb
  exact doNNI_shape t m a0 b0 ka kb ha0 hb0 h1 h2 h12 ha1 ha2 hb1 hb2 hab hka hkb

/-- What `NNIMove.valid` says, on shapes. -/
theorem valid_shape (t : Tree) (m : NNIMove) (h : m.valid t = true) :
    ∃ a b ka kb,
      (shape (t.neighbors m.node1))[m.node1Nei_it]? = some a ∧
      (shape (t.neighbors m.node2))[m.node2Nei_it]? = some b ∧
      (shape (t.neighbors m.node1)).length = 3 ∧
      (shape (t.neighbors m.node2)).length = 3 ∧
      m.node1 ≠ m.node2 ∧ a.1 ≠ m.node1 ∧ a.1 ≠ m.node2 ∧ b.1 ≠ m.node1 ∧
      b.1 ≠ m.node2 ∧ a.1 ≠ b.1 ∧
      findS (shape (t.neighbors a.1)) m.node1 = some ka ∧
      findS (shape (t.neighbors b.1)) m.node2 = some kb ∧
      findS (shape (t.neighbors a.1)) m.node2 = none ∧
      findS (shape (t.neighbors b.1)) m.node1 = none := by
  unfold NNIMove.valid at h
  split at h
  · next a0 b0 ha0 hb0 =>
    simp only [Bool.and_eq_true, beq_iff_eq, bne_iff_ne, ne_eq, Option.isSome_iff_exists,
      Option.isNone_iff_eq_none] at h
    obtain ⟨⟨⟨⟨⟨⟨⟨⟨⟨⟨⟨h1, h2⟩, h12⟩, ha1⟩, ha2⟩, hb1⟩, hb2⟩, hab⟩, ⟨ka, hka⟩⟩, hna⟩,
      ⟨kb, hkb⟩⟩, hnb⟩ := h
    refine ⟨(a0.node, a0.length), (b0.node, b0.length), ka, kb, ?_, ?_, ?_, ?_, h12, ha1, ha2,
      hb1, hb2, hab, ?_, ?_, ?_, ?_⟩
    · rw [shape_getElem?]; simp at ha0; simp [ha0]
    · rw [shape_getElem?]; simp at hb0; simp [hb0]
    · rw [length_shape]; exact h1
    · rw [length_shape]; exact h2
    · rw [← findNeighborIt_shape]; exact hka
    · rw [← findNeighborIt_shape]; exact hkb
    · rw [← findNeighborIt_shape]; exact hna
    · rw [← findNeighborIt_shape]; exact hnb
  · simp at h

/-- Two applications of `doNNI` with the same move: the first gives the exchanged
shape, the second gives back the shape of the start. -/
theorem doNNI_twice (t : Tree) (m : NNIMove) (h : m.valid t = true) :
    ∃ t1 t2 a b, doNNI t m = some t1 ∧ doNNI t1 m = some t2 ∧
      t1.nodes.length = t.nodes.length ∧ t2.nodes.length = t.nodes.length ∧
      (shape (t.neighbors m.node1))[m.node1Nei_it]? = some a ∧
      (shape (t.neighbors m.node2))[m.node2Nei_it]? = some b ∧
      m.node1 ≠ m.node2 ∧
      (∀ n, (shape (t1.neighbors n)).map Prod.snd =
        if n = m.node2 then ((shape (t.neighbors m.node2)).map Prod.snd).set m.node2Nei_it a.2
        else if n = m.node1 then
          ((shape (t.neighbors m.node1)).map Prod.snd).set m.node1Nei_it b.2
        else (shape (t.neighbors n)).map Prod.snd) ∧
      ∀ n, shape (t2.neighbors n) = shape (t.neighbors n) := by
  obtain ⟨a, b, ka, kb, ha, hb, h1, h2, h12, ha1, ha2, hb1, hb2, hab, hka, hkb, hna, hnb⟩ :=
    valid_shape t m h
  obtain ⟨t1, e1, l1, s1⟩ := doNNI_shape' t m a b ka kb ha hb h1 h2 h12 ha1 ha2 hb1 hb2 hab
    hka hkb
  have sA : shape (t1.neighbors a.1) = retarget (shape (t.neighbors a.1)) ka m.node2 := by
    rw [s1]; simp [nniS]
  have sB : shape (t1.neighbors b.1) = retarget (shape (t.neighbors b.1)) kb m.node1 := by
    rw [s1]; simp [nniS, Ne.symm hab, hb2]
  have s2 : shape (t1.neighbors m.node2) =
      (shape (t.neighbors m.node2)).set m.node2Nei_it a := by
    rw [s1]; simp [nniS, Ne.symm ha2]
  have s1' : shape (t1.neighbors m.node1) =
      (shape (t.neighbors m.node1)).set m.node1Nei_it b := by
    rw [s1]; simp [nniS, Ne.symm ha1, Ne.symm hb1, h12]
  have hi : m.node1Nei_it < (shape (t.neighbors m.node1)).length :=
    (List.getElem?_eq_some.1 ha).1
  have hj : m.node2Nei_it < (shape (t.neighbors m.node2)).length :=
    (List.getElem?_eq_some.1 hb).1
  obtain ⟨fA1, fA2, fA3⟩ := findS_retarget _ m.node1 m.node2 ka hka
    (fun j p _ hp => findS_none _ _ hna j p hp)
  obtain ⟨fB1, fB2, fB3⟩ := findS_retarget _ m.node2 m.node1 kb hkb
    (fun j p _ hp => findS_none _ _ hnb j p hp)
  obtain ⟨t2, e2, l2, s2'⟩ := doNNI_shape' t1 m b a kb ka
    (by rw [s1']; simp [List.getElem?_set, hi])
    (by rw [s2]; simp [List.getElem?_set, hj])
    (by rw [s1']; simpa using h1) (by rw [s2]; simpa using h2) h12 hb1 hb2 ha1 ha2
    (Ne.symm hab) (by rw [sB]; exact fB1) (by rw [sA]; exact fA1)
  refine ⟨t1, t2, a, b, e1, e2, l1, by rw [l2, l1], ha, hb, h12, ?_, ?_⟩
  · intro n
    rw [s1]
    unfold nniS
    simp only
    by_cases hnA : n = a.1
    · subst hnA
      rw [if_pos rfl, if_neg ha2, if_neg ha1, snd_retarget]
    · rw [if_neg hnA]
      by_cases hn2 : n = m.node2
      · subst hn2; rw [if_pos rfl, if_pos rfl, List.map_set]
      · rw [if_neg hn2, if_neg hn2]
        by_cases hnB : n = b.1
        · subst hnB; rw [if_pos rfl, if_neg hb1, snd_retarget]
        · rw [if_neg hnB]
          by_cases hn1 : n = m.node1
          · subst hn1; rw [if_pos rfl, if_pos rfl, List.map_set]
          · rw [if_neg hn1, if_neg hn1]
  · intro n
    rw [s2']
    unfold nniS
    simp only
    by_cases hnB : n = b.1
    · subst hnB; rw [if_pos rfl, sB, fB3]
    · rw [if_neg hnB]
      by_cases hn2 : n = m.node2
      · subst hn2; rw [if_pos rfl, s2]
        exact set_set_self _ _ _ _ hb
      · rw [if_neg hn2]
        by_cases hnA : n = a.1
        · subst hnA; rw [if_pos rfl, sA, fA3]
        · rw [if_neg hnA]
          by_cases hn1 : n = m.node1
          · subst hn1; rw [if_pos rfl, s1']
            exact set_set_self _ _ _ _ ha
          · rw [if_neg hn1, s1]
            simp [nniS, hnA, hn2, hnB, hn1]

theorem sum_set_add (l : List Nat) (n : Nat) (a : Nat)
    (h : n < l.length) : (l.set n a).sum + l[n] = l.sum + a := by
  induction l generalizing n with
  | nil => simp at h
  | cons x xs ih =>
    cases n with
    | zero => simp; omega
    | succ n =>
      simp only [List.set_cons_succ, List.sum_cons, List.getElem_cons_succ]
      have := ih n (by simpa using h)
      omega

theorem count_set_add (l : List ℚ) (i : Nat) (x a q : ℚ) (h : l[i]? = some a) :
    (l.set i x).count q + [a].count q = l.count q + [x].count q := by
  induction l generalizing i with
  | nil => simp at h
  | cons y ys ih =>
    cases i with
    | zero =>
      simp at h
      subst h
      simp only [List.set_cons_zero, List.count_cons, List.count_nil]
      omega
    | succ i =>
      simp only [List.set_cons_succ, List.count_cons, List.count_nil] at ih ⊢
      have := ih i (by simpa using h)
      omega

/-- Exchanging an element of one row with an element of another row of a list of lists
keeps the elements of the concatenation. -/
theorem perm_flatten_exchange (LL : List (List ℚ)) (n1 n2 i j : Nat) (a b : ℚ)
    (h12 : n1 ≠ n2) (r1 r2 : List ℚ)
    (hr1 : LL[n1]? = some r1) (hr2 : LL[n2]? = some r2)
    (ha : r1[i]? = some a) (hb : r2[j]? = some b) :
    (((LL.set n1 (r1.set i b)).set n2 (r2.set j a)).flatten).Perm LL.flatten := by
  rw [List.perm_iff_count]
  intro q
  simp only [List.count_flatten]
  have hl1 : n1 < LL.length := (List.getElem?_eq_some.1 hr1).1
  have hl2 : n2 < LL.length := (List.getElem?_eq_some.1 hr2).1
  have e1 : LL[n1] = r1 := (List.getElem?_eq_some.1 hr1).2
  have e2 : LL[n2] = r2 := (List.getElem?_eq_some.1 hr2).2
  rw [List.map_set, List.map_set]
  have s1 := sum_set_add (LL.map (List.count q)) n1 ((r1.set i b).count q) (by simpa using hl1)
  have s2 := sum_set_add ((LL.map (List.count q)).set n1 ((r1.set i b).count q)) n2
    ((r2.set j a).count q) (by simpa using hl2)
  have c1 := count_set_add r1 i b a q ha
  have c2 := count_set_add r2 j a b q hb
  simp only [List.getElem_map, List.getElem_set, e1, e2, h12, if_false] at s1 s2
  omega

theorem lengthRows_getElem? (t : Tree) (n : Nat) :
    ((lengthRows t)[n]?).getD [] = (shape (t.neighbors n)).map Prod.snd := by
  unfold lengthRows Tree.neighbors shape
  simp only [List.getElem?_map, List.get?_eq_getElem?]
  cases t.nodes[n]? <;> simp

theorem lengthRows_eq_some (t : Tree) (n : Nat) (h : n < t.nodes.length) :
    (lengthRows t)[n]? = some ((shape (t.neighbors n)).map Prod.snd) := by
  have := lengthRows_getElem? t n
  have hl : n < (lengthRows t).length := by simpa [lengthRows] using h
  rw [List.getElem?_eq_getElem hl] at this ⊢
  simpa using this

theorem neighborNode_shape (t : Tree) (n k : Nat) :
    t.neighborNode n k = ((shape (t.neighbors n))[k]?).map Prod.fst := by
  simp only [Tree.neighborNode, shape, List.getElem?_map, List.get?_eq_getElem?,
    Option.map_map]
  rfl

theorem neighborLength_shape (t : Tree) (n k : Nat) :
    t.neighborLength n k = ((shape (t.neighbors n))[k]?).map Prod.snd := by
  simp only [Tree.neighborLength, shape, List.getElem?_map, List.get?_eq_getElem?,
    Option.map_map]
  rfl

/-- C9: `doNNI(m); doNNI(m)` is accepted on every unrooted binary tree and every NNI
move, and after it every neighbor slot of every node holds the same neighbor node as
before the first call. -/
theorem doNNI_twice_restores_topology (t : Tree) (m : NNIMove) (h : m.valid t = true) :
    ∃ t1 t2, doNNI t m = some t1 ∧ doNNI t1 m = some t2 ∧
      ∀ n k, t2.neighborNode n k = t.neighborNode n k := by
  obtain ⟨t1, t2, a, b, e1, e2, _, _, _, _, _, _, hs⟩ := doNNI_twice t m h
  refine ⟨t1, t2, e1, e2, ?_⟩
  intro n k
  rw [neighborNode_shape, neighborNode_shape, hs]

/-- C10: on every unrooted binary tree and every NNI move, `doNNI(m)` leaves the
multiset of the branch lengths of the tree (every branch is stored once at each of its
ends) unchanged, and after `doNNI(m); doNNI(m)` every neighbor slot of every node holds
the branch length it held before the first call, and the same neighbor node. -/
theorem doNNI_preserves_branch_lengths (t : Tree) (m : NNIMove) (h : m.valid t = true) :
    ∃ t1 t2, doNNI t m = some t1 ∧ doNNI t1 m = some t2 ∧
      Multiset.ofList t1.branchLengths = Multiset.ofList t.branchLengths ∧
      ∀ n k, t2.neighborLength n k = t.neighborLength n k ∧
        t2.neighborNode n k = t.neighborNode n k := by
  obtain ⟨t1, t2, a, b, e1, e2, l1, _, ha, hb, h12, hl, hs⟩ := doNNI_twice t m h
  refine ⟨t1, t2, e1, e2, ?_, ?_⟩
  · apply Multiset.coe_eq_coe.2
    have hn1 : m.node1 < t.nodes.length := by
      apply lt_of_neighbors_ne_nil
      intro h0; rw [h0] at ha; simp [shape] at ha
    have hn2 : m.node2 < t.nodes.length := by
      apply lt_of_neighbors_ne_nil
      intro h0; rw [h0] at hb; simp [shape] at hb
    have key : lengthRows t1 =
        ((lengthRows t).set m.node1
          (((shape (t.neighbors m.node1)).map Prod.snd).set m.node1Nei_it b.2)).set m.node2
          (((shape (t.neighbors m.node2)).map Prod.snd).set m.node2Nei_it a.2) := by
      apply List.ext_getElem?
      intro n
      by_cases hn : n < t.nodes.length
      · rw [lengthRows_eq_some t1 n (by rw [l1]; exact hn), hl]
        have hlen : (lengthRows t).length = t.nodes.length := by simp [lengthRows]
        simp only [List.getElem?_set, List.length_set, hlen]
        by_cases c2 : n = m.node2
        · subst c2; simp [hn]
        · rw [if_neg c2, if_neg (Ne.symm c2)]
          by_cases c1 : n = m.node1
          · subst c1; simp [hn]
          · rw [if_neg c1, if_neg (Ne.symm c1), lengthRows_eq_some t n hn]
      · have h1 : (lengthRows t1).length ≤ n := by simp [lengthRows, l1]; omega
        have h2 : (((lengthRows t).set m.node1
          (((shape (t.neighbors m.node1)).map Prod.snd).set m.node1Nei_it b.2)).set m.node2
          (((shape (t.neighbors m.node2)).map Prod.snd).set m.node2Nei_it a.2)).length ≤ n := by
          simp [lengthRows]; omega
        rw [List.getElem?_eq_none h1, List.getElem?_eq_none h2]
    show (lengthRows t1).flatten.Perm (lengthRows t).flatten
    rw [key]
    exact perm_flatten_exchange (lengthRows t) m.node1 m.node2 m.node1Nei_it m.node2Nei_it
      a.2 b.2 h12 _ _ (lengthRows_eq_some t _ hn1) (lengthRows_eq_some t _ hn2)
      (by simp [ha]) (by simp [hb])
  · intro n k
    rw [neighborLength_shape, neighborLength_shape, neighborNode_shape, neighborNode_shape, hs]
    exact ⟨rfl, rfl⟩

theorem doNNI_twice_restores_topology_witness :
    exampleMove.valid exampleTree = true ∧
    ∃ t1 t2, doNNI exampleTree exampleMove = some t1 ∧ doNNI t1 exampleMove = some t2 ∧
      ∀ n k, t2.neighborNode n k = exampleTree.neighborNode n k :=
  ⟨by decide, doNNI_twice_restores_topology exampleTree exampleMove (by decide)⟩

theorem doNNI_preserves_branch_lengths_witness :
    exampleMove.valid exampleTree = true ∧
    ∃ t1 t2, doNNI exampleTree exampleMove = some t1 ∧ doNNI t1 exampleMove = some t2 ∧
      Multiset.ofList t1.branchLengths = Multiset.ofList exampleTree.branchLengths ∧
      ∀ n k, t2.neighborLength n k = exampleTree.neighborLength n k ∧
        t2.neighborNode n k = exampleTree.neighborNode n k :=
  ⟨by decide, doNNI_preserves_branch_lengths exampleTree exampleMove (by decide)⟩

theorem shl_one (k : Nat) : shl 1 k = if k < 32 then 2 ^ k else 0 := by
  unfold shl UINT_BITS
  rw [Nat.shiftLeft_eq, Nat.one_mul]
  split
  · next h => exact Nat.mod_eq_of_lt (Nat.pow_lt_pow_right (by omega) h)
  · next h =>
    have : 2 ^ k = 2 ^ 32 * 2 ^ (k - 32) := by rw [← Nat.pow_add]; congr 1; omega
    rw [this, Nat.mul_mod_right]

theorem intMask_eq (k : Nat) : intMask k = 2 ^ (min k 32) - 1 := by
  unfold intMask
  rw [shl_one]
  unfold UINT_BITS
  split
  · next h =>
    have h1 : min k 32 = k := by omega
    have h2 : 2 ^ k < 2 ^ 32 := Nat.pow_lt_pow_right (by omega) h
    have h3 : 0 < 2 ^ k := Nat.pow_pos (by omega)
    rw [h1]
    omega
  · next h =>
    have h1 : min k 32 = 32 := by omega
    rw [h1]
    norm_num

theorem testBit_intMask (k i : Nat) : (intMask k).testBit i = decide (i < k ∧ i < 32) := by
  rw [intMask_eq, Nat.testBit_two_pow_sub_one]
  congr 1
  simp [Nat.lt_min]

theorem testBit_shl (a k i : Nat) :
    (shl a k).testBit i = (decide (i < 32) && (decide (k ≤ i) && a.testBit (i - k))) := by
  unfold shl UINT_BITS
  rw [Nat.testBit_mod_two_pow, Nat.testBit_shiftLeft]

theorem shl_lt (a k : Nat) : shl a k < 2 ^ 32 := Nat.mod_lt _ (by norm_num)

theorem testBit_notW (a i : Nat) :
    (notW a).testBit i = (decide (i < 32) != a.testBit i) := by
  unfold notW UINT_BITS
  rw [Nat.testBit_xor, Nat.testBit_two_pow_sub_one]

theorem testBit_of_lt (a i : Nat) (ha : a < 2 ^ 32) (hi : 32 ≤ i) : a.testBit i = false :=
  Nat.testBit_lt_two_pow (Nat.lt_of_lt_of_le ha (Nat.pow_le_pow_right (by omega) hi))

theorem lt_of_testBit (a : Nat) (h : ∀ i, 32 ≤ i → a.testBit i = false) : a < 2 ^ 32 :=
  Nat.lt_pow_two_of_testBit a h

theorem getD_set (v : List Nat) (i j x : Nat) :
    (v.set i x).getD j 0 = if i = j ∧ i < v.length then x else v.getD j 0 := by
  simp only [List.getD_eq_getElem?_getD, List.getElem?_set]
  by_cases h : i = j
  · subst h
    by_cases h2 : i < v.length
    · simp [h2]
    · have : v[i]? = none := List.getElem?_eq_none (by omega)
      simp [h2, this]
  · simp [h]

theorem bitAt_set (v : List Nat) (i j x : Nat) :
    bitAt (v.set i x) j = if i = j / 32 ∧ i < v.length then x.testBit (j % 32) else bitAt v j := by
  unfold bitAt
  rw [getD_set]
  split <;> rfl

theorem shiftRight_BITS_DIV (x : Nat) : x >>> BITS_DIV = x / 32 := by
  unfold BITS_DIV
  rw [Nat.shiftRight_eq_div_pow]

theorem and_BITS_MODULO (x : Nat) : x &&& BITS_MODULO = x % 32 := by
  unfold BITS_MODULO
  exact Nat.and_pow_two_sub_one_eq_mod x 5

theorem getBitsLoop_step_getD (vec e : List Nat) (off id pos k : Nat) :
    (if off > 0 then
        (e.set id (vec.getD pos 0 >>> off)).set id
          ((e.set id (vec.getD pos 0 >>> off)).getD id 0 |||
            shl (vec.getD (pos + 1) 0) (UINT_BITS - off))
      else e.set id (vec.getD pos 0 >>> off)).getD k 0 =
      if id = k ∧ id < e.length then getWordG vec off pos else e.getD k 0 := by
  unfold getWordG UINT_BITS
  by_cases ho : off > 0
  · simp only [ho, if_true, getD_set, List.length_set]
    by_cases h : id = k ∧ id < e.length
    · obtain ⟨rfl, hl⟩ := h
      simp only [hl, and_self, if_true]
    · simp only [h, if_false]
  · simp only [ho, if_false, getD_set, Nat.or_zero]

theorem getBitsLoop_step_length (vec e : List Nat) (off id pos : Nat) :
    (if off > 0 then
        (e.set id (vec.getD pos 0 >>> off)).set id
          ((e.set id (vec.getD pos 0 >>> off)).getD id 0 |||
            shl (vec.getD (pos + 1) 0) (UINT_BITS - off))
      else e.set id (vec.getD pos 0 >>> off)).length = e.length := by
  split <;> simp

theorem getBitsLoop_spec (vec : List Nat) (off : Nat) :
    ∀ (q fuel id rest r pos : Nat) (e : List Nat), q ≤ fuel → r < 32 → rest = 32 * q + r →
    ∃ E, getBitsLoop vec off fuel id rest pos (vec.getD pos 0 >>> off) e =
        (id + q, r, pos + q, vec.getD (pos + q) 0 >>> off, E) ∧
      E.length = e.length ∧
      ∀ k, E.getD k 0 =
        if id ≤ k ∧ k < id + q ∧ k < e.length then getWordG vec off (pos + (k - id))
        else e.getD k 0 := by
  intro q
  induction q with
  | zero =>
    intro fuel id rest r pos e _ hr hrest
    subst hrest
    refine ⟨e, ?_, rfl, ?_⟩
    · cases fuel with
      | zero => simp [getBitsLoop]
      | succ fuel =>
        have : ¬ (r ≥ 32) := by omega
        simp [getBitsLoop, UINT_BITS, this]
    · intro k
      rw [if_neg]
      omega
  | succ q ih =>
    intro fuel id rest r pos e hf hr hrest
    subst hrest
    cases fuel with
    | zero => omega
    | succ fuel =>
      have hge : 32 * (q + 1) + r ≥ UINT_BITS := by unfold UINT_BITS; omega
      have hsub : 32 * (q + 1) + r - UINT_BITS = 32 * q + r := by unfold UINT_BITS; omega
      obtain ⟨E, hE, hlen, hget⟩ := ih fuel (id + 1) (32 * q + r) r (pos + 1)
        (if off > 0 then
          (e.set id (vec.getD pos 0 >>> off)).set id
            ((e.set id (vec.getD pos 0 >>> off)).getD id 0 |||
              shl (vec.getD (pos + 1) 0) (UINT_BITS - off))
          else e.set id (vec.getD pos 0 >>> off)) (by omega) hr rfl
      refine ⟨E, ?_, ?_, ?_⟩
      · simp only [getBitsLoop, hge, if_true, hsub]
        rw [hE]
        have e1 : id + 1 + q = id + (q + 1) := by omega
        have e3 : pos + 1 + q = pos + (q + 1) := by omega
        rw [e1, e3]
      · rw [hlen, getBitsLoop_step_length]
      · intro k
        rw [hget k, getBitsLoop_step_length, getBitsLoop_step_getD]
        by_cases hk : id + 1 ≤ k ∧ k < id + 1 + q ∧ k < e.length
        · rw [if_pos hk, if_pos (by omega)]
          congr 1
          omega
        · rw [if_neg hk]
          by_cases hki : id = k ∧ id < e.length
          · rw [if_pos hki, if_pos (by omega)]
            congr 1
            omega
          · rw [if_neg hki, if_neg (by omega)]

theorem testBit_getWordG (vec : List Nat) (off b i : Nat) (hoff : off < 32) :
    (getWordG vec off b).testBit i =
      ((vec.getD b 0).testBit (off + i) ||
        (decide (i < 32) && (decide (32 ≤ off + i) && (vec.getD (b + 1) 0).testBit (off + i - 32)))) := by
  unfold getWordG
  rw [Nat.testBit_or, Nat.testBit_shiftRight]
  by_cases ho : off > 0
  · rw [if_pos ho, testBit_shl]
    by_cases h1 : 32 - off ≤ i
    · have h2 : 32 ≤ off + i := by omega
      have h3 : i - (32 - off) = off + i - 32 := by omega
      simp [h1, h2, h3]
    · have h2 : ¬ 32 ≤ off + i := by omega
      simp [h1, h2]
  · have h0 : off = 0 := by omega
    subst h0
    by_cases h1 : i < 32
    · have h2 : ¬ 32 ≤ i := by omega
      simp [h2]
    · simp [h1]

theorem getWordG_lt (vec : List Nat) (off b : Nat) (hb : vec.getD b 0 < 2 ^ 32) :
    getWordG vec off b < 2 ^ 32 := by
  unfold getWordG
  apply Nat.or_lt_two_pow
  · rw [Nat.shiftRight_eq_div_pow]
    exact Nat.lt_of_le_of_lt (Nat.div_le_self _ _) hb
  · split
    · exact shl_lt _ _
    · norm_num

theorem bitAt_eq (vec : List Nat) (j b o : Nat) (h : j = 32 * b + o) (ho : o < 32) :
    bitAt vec j = (vec.getD b 0).testBit o := by
  unfold bitAt
  have h1 : j / 32 = b := by omega
  have h2 : j % 32 = o := by omega
  rw [h1, h2]

theorem index_bound (aln : Alignment) (p : Nat) (hp : p < aln.size) :
    p * aln.num_states + aln.num_states ≤ aln.num_states * aln.size := by
  have : (p + 1) * aln.num_states ≤ aln.size * aln.num_states :=
    Nat.mul_le_mul_right _ hp
  rw [Nat.mul_comm aln.num_states]
  rw [Nat.add_mul] at this
  omega

theorem getBitsBlock_spec (aln : Alignment) (vec : List Nat) (p : Nat) (out : List Nat)
    (hv : PatWords aln vec) (hp : p < aln.size)
    (hout : getBitsEntrySize aln ≤ out.length) :
    (getBitsBlock aln vec p out).length = out.length ∧
    ∀ k, k < getBitsEntrySize aln →
      (getBitsBlock aln vec p out).getD k 0 < 2 ^ 32 ∧
      ∀ i, i < 32 → ((getBitsBlock aln vec p out).getD k 0).testBit i =
        (decide (32 * k + i < aln.num_states) &&
          bitAt vec (p * aln.num_states + (32 * k + i))) := by
  have hT := index_bound aln p hp
  unfold PatWords getBitsBlockSize UINT_BITS at hv
  unfold getBitsEntrySize UINT_BITS at hout ⊢
  unfold getBitsBlock
  simp only [shiftRight_BITS_DIV, and_BITS_MODULO]
  generalize hn : aln.num_states = n at *
  generalize hTT : n * aln.size = T at *
  generalize hM : p * n = M at *
  obtain ⟨b0, off, hMeq, hoff⟩ : ∃ b0 off, M = 32 * b0 + off ∧ off < 32 :=
    ⟨M / 32, M % 32, by omega, by omega⟩
  have hb0 : M / 32 = b0 := by omega
  have hoff' : M % 32 = off := by omega
  rw [hb0, hoff']
  by_cases hsame : b0 = (M + n) / 32
  · -- the pattern lies in one word
    rw [if_pos hsame]
    have hn32 : off + n < 32 := by omega
    refine ⟨by simp, ?_⟩
    intro k hk
    have hk0 : k = 0 := by omega
    subst hk0
    have hl : 0 < out.length := by omega
    rw [getD_set, if_pos ⟨rfl, hl⟩]
    constructor
    · apply Nat.lt_of_le_of_lt Nat.and_le_right
      rw [intMask_eq]
      have : 2 ^ min n 32 ≤ 2 ^ 32 := Nat.pow_le_pow_right (by omega) (by omega)
      omega
    · intro i hi
      rw [Nat.testBit_and, Nat.testBit_shiftRight, testBit_intMask]
      by_cases hin : i < n
      · rw [bitAt_eq vec (M + (32 * 0 + i)) b0 (off + i) (by omega) (by omega)]
        simp [hin, hi]
      · simp [hin]
  · -- the pattern straddles a word boundary
    rw [if_neg hsame]
    obtain ⟨q, r, hnq, hr⟩ : ∃ q r, n = 32 * q + r ∧ r < 32 :=
      ⟨n / 32, n % 32, by omega, by omega⟩
    obtain ⟨E, hE, hlen, hget⟩ := getBitsLoop_spec vec off q n 0 n r b0 out (by omega) hr hnq
    rw [hE]
    simp only [Nat.zero_add]
    have hoffend : (M + n) % 32 < UINT_BITS := by unfold UINT_BITS; omega
    simp only [hoffend, if_true]
    have hword : ∀ k, k < q → k < out.length →
        getWordG vec off (b0 + k) < 2 ^ 32 ∧
        ∀ i, i < 32 → (getWordG vec off (b0 + k)).testBit i =
          (decide (32 * k + i < n) && bitAt vec (M + (32 * k + i))) := by
      intro k hk _
      have hbk : b0 + k < (T + 32 - 1) / 32 + 1 - 1 := by omega
      refine ⟨getWordG_lt vec off _ (hv _ hbk), ?_⟩
      intro i hi
      rw [testBit_getWordG vec off _ i hoff]
      have hin : 32 * k + i < n := by omega
      by_cases hc : off + i < 32
      · rw [bitAt_eq vec (M + (32 * k + i)) (b0 + k) (off + i) (by omega) hc]
        have : ¬ 32 ≤ off + i := by omega
        simp [hin, this]
      · rw [bitAt_eq vec (M + (32 * k + i)) (b0 + k + 1) (off + i - 32) (by omega) (by omega)]
        have h1 : 32 ≤ off + i := by omega
        rw [testBit_of_lt _ _ (hv _ hbk) h1]
        simp [hin, hi, h1]
    by_cases hend : b0 + q = (M + n) / 32
    · -- the last word of the entry comes from one word of the vector
      rw [if_pos hend]
      refine ⟨by simp [hlen], ?_⟩
      intro k hk
      rw [getD_set, hlen]
      by_cases hkq : q = k
      · subst hkq
        have hl : q < out.length := by omega
        rw [if_pos ⟨rfl, hl⟩]
        constructor
        · apply Nat.lt_of_le_of_lt Nat.and_le_right
          rw [intMask_eq]
          have : 2 ^ min r 32 ≤ 2 ^ 32 := Nat.pow_le_pow_right (by omega) (by omega)
          omega
        · intro i hi
          rw [Nat.testBit_and, Nat.testBit_shiftRight, testBit_intMask]
          by_cases hin : i < r
          · rw [bitAt_eq vec (M + (32 * q + i)) (b0 + q) (off + i) (by omega) (by omega)]
            have : 32 * q + i < n := by omega
            simp [hin, hi, this]
          · have : ¬ 32 * q + i < n := by omega
            simp [hin, this]
      · rw [if_neg (by intro h; exact hkq h.1), hget k]
        have hkq' : k < q := by omega
        have hl : k < out.length := by omega
        rw [if_pos ⟨by omega, by omega, hl⟩]
        have := hword k hkq' hl
        simpa using this
    · -- the last word of the entry comes from two words of the vector
      rw [if_neg hend]
      have hoff0 : off > 0 := by omega
      simp only [hoff0, if_true]
      have hrr : 32 ≤ off + r := by omega
      refine ⟨by simp [hlen], ?_⟩
      intro k hk
      simp only [getD_set, List.length_set, hlen]
      by_cases hkq : q = k
      · subst hkq
        have hl : q < out.length := by omega
        have hbq : b0 + q < (T + 32 - 1) / 32 + 1 - 1 := by omega
        simp only [hl, and_self, if_true]
        constructor
        · apply Nat.or_lt_two_pow
          · rw [Nat.shiftRight_eq_div_pow]
            exact Nat.lt_of_le_of_lt (Nat.div_le_self _ _) (hv _ hbq)
          · exact shl_lt _ _
        · intro i hi
          rw [Nat.testBit_or, Nat.testBit_shiftRight, testBit_shl, Nat.testBit_and,
            testBit_intMask]
          unfold UINT_BITS
          by_cases hc : off + i < 32
          · rw [bitAt_eq vec (M + (32 * q + i)) (b0 + q) (off + i) (by omega) hc]
            have h1 : ¬ 32 - off ≤ i := by omega
            have h2 : 32 * q + i < n := by omega
            simp [h1, h2]
          · have h1 : 32 ≤ off + i := by omega
            rw [testBit_of_lt _ _ (hv _ hbq) h1]
            have h2 : 32 - off ≤ i := by omega
            have h3 : i - (32 - off) = off + i - 32 := by omega
            have h4 : (M + n) / 32 = b0 + q + 1 := by omega
            have h5 : (M + n) % 32 = off + r - 32 := by omega
            rw [h3, h4, h5]
            by_cases hin : i < r
            · rw [bitAt_eq vec (M + (32 * q + i)) (b0 + q + 1) (off + i - 32) (by omega)
                (by omega)]
              have h6 : 32 * q + i < n := by omega
              have h7 : off + i - 32 < off + r - 32 ∧ off + i - 32 < 32 := by omega
              simp [hi, h2, h6, h7]
            · have h6 : ¬ 32 * q + i < n := by omega
              have h7 : ¬ (off + i - 32 < off + r - 32 ∧ off + i - 32 < 32) := by omega
              simp [h6, h7]
      · have hkq' : k < q := by omega
        have hl : k < out.length := by omega
        have hne : ¬ (q = k ∧ q < out.length) := by intro h; exact hkq h.1
        simp only [hne, if_false]
        rw [hget k, if_pos ⟨by omega, by omega, hl⟩]
        have := hword k hkq' hl
        simpa using this

theorem setBitsLoop_step_getD (entry v : List Nat) (off len1 id pos w : Nat) :
    (if len1 < UINT_BITS then
        (v.set (pos + 1) (shl (entry.getD (id + 1) 0) off)).set (pos + 1)
          ((v.set (pos + 1) (shl (entry.getD (id + 1) 0) off)).getD (pos + 1) 0 |||
            (entry.getD id 0 >>> len1))
      else v.set (pos + 1) (shl (entry.getD (id + 1) 0) off)).getD w 0 =
      if pos + 1 = w ∧ pos + 1 < v.length then setWordS entry off len1 id else v.getD w 0 := by
  unfold setWordS UINT_BITS
  by_cases ho : len1 < 32
  · simp only [ho, if_true, getD_set, List.length_set]
    by_cases h : pos + 1 = w ∧ pos + 1 < v.length
    · obtain ⟨rfl, hl⟩ := h
      simp only [hl, and_self, if_true]
    · simp only [h, if_false]
  · simp only [ho, if_false, getD_set, Nat.or_zero]

theorem setBitsLoop_step_length (entry v : List Nat) (off len1 id pos : Nat) :
    (if len1 < UINT_BITS then
        (v.set (pos + 1) (shl (entry.getD (id + 1) 0) off)).set (pos + 1)
          ((v.set (pos + 1) (shl (entry.getD (id + 1) 0) off)).getD (pos + 1) 0 |||
            (entry.getD id 0 >>> len1))
      else v.set (pos + 1) (shl (entry.getD (id + 1) 0) off)).length = v.length := by
  split <;> simp

theorem setBitsLoop_spec (entry : List Nat) (off len1 : Nat) :
    ∀ (q fuel id rest r pos : Nat) (v : List Nat), q ≤ fuel → r < 32 → rest = 32 * q + r →
    ∃ V, setBitsLoop entry off len1 fuel id rest pos v = (id + q, r, pos + q, V) ∧
      V.length = v.length ∧
      ∀ w, V.getD w 0 =
        if pos + 1 ≤ w ∧ w < pos + 1 + q ∧ w < v.length then
          setWordS entry off len1 (id + (w - (pos + 1)))
        else v.getD w 0 := by
  intro q
  induction q with
  | zero =>
    intro fuel id rest r pos v _ hr hrest
    subst hrest
    refine ⟨v, ?_, rfl, ?_⟩
    · cases fuel with
      | zero => simp [setBitsLoop]
      | succ fuel =>
        have : ¬ (r ≥ 32) := by omega
        simp [setBitsLoop, UINT_BITS, this]
    · intro w
      rw [if_neg]
      omega
  | succ q ih =>
    intro fuel id rest r pos v hf hr hrest
    subst hrest
    cases fuel with
    | zero => omega
    | succ fuel =>
      have hge : 32 * (q + 1) + r ≥ UINT_BITS := by unfold UINT_BITS; omega
      have hsub : 32 * (q + 1) + r - UINT_BITS = 32 * q + r := by unfold UINT_BITS; omega
      obtain ⟨V, hV, hlen, hget⟩ := ih fuel (id + 1) (32 * q + r) r (pos + 1)
        (if len1 < UINT_BITS then
          (v.set (pos + 1) (shl (entry.getD (id + 1) 0) off)).set (pos + 1)
            ((v.set (pos + 1) (shl (entry.getD (id + 1) 0) off)).getD (pos + 1) 0 |||
              (entry.getD id 0 >>> len1))
          else v.set (pos + 1) (shl (entry.getD (id + 1) 0) off)) (by omega) hr rfl
      refine ⟨V, ?_, ?_, ?_⟩
      · simp only [setBitsLoop, hge, if_true, hsub]
        rw [hV]
        have e1 : id + 1 + q = id + (q + 1) := by omega
        have e3 : pos + 1 + q = pos + (q + 1) := by omega
        rw [e1, e3]
      · rw [hlen, setBitsLoop_step_length]
      · intro w
        rw [hget w, setBitsLoop_step_length, setBitsLoop_step_getD]
        by_cases hk : pos + 1 + 1 ≤ w ∧ w < pos + 1 + 1 + q ∧ w < v.length
        · rw [if_pos hk, if_pos (by omega)]
          congr 1
          omega
        · rw [if_neg hk]
          by_cases hki : pos + 1 = w ∧ pos + 1 < v.length
          · rw [if_pos hki, if_pos (by omega)]
            congr 1
            omega
          · rw [if_neg hki, if_neg (by omega)]

theorem testBit_setWordS (entry : List Nat) (off k i : Nat) (hoff : off < 32) (hi : i < 32)
    (he : ∀ k, entry.getD k 0 < 2 ^ 32) :
    (setWordS entry off (32 - off) k).testBit i =
      if off ≤ i then (entry.getD (k + 1) 0).testBit (i - off)
      else (entry.getD k 0).testBit (32 - off + i) := by
  unfold setWordS
  rw [Nat.testBit_or, testBit_shl]
  by_cases hc : off ≤ i
  · rw [if_pos hc]
    by_cases ho : 32 - off < 32
    · rw [if_pos ho, Nat.testBit_shiftRight, testBit_of_lt _ _ (he k) (by omega)]
      simp [hi, hc]
    · rw [if_neg ho]
      simp [hi, hc]
  · rw [if_neg hc, if_pos (by omega), Nat.testBit_shiftRight]
    simp [hc]

theorem setWordS_lt (entry : List Nat) (off len1 k : Nat) (he : ∀ k, entry.getD k 0 < 2 ^ 32) :
    setWordS entry off len1 k < 2 ^ 32 := by
  unfold setWordS
  apply Nat.or_lt_two_pow
  · exact shl_lt _ _
  · split
    · rw [Nat.shiftRight_eq_div_pow]
      exact Nat.lt_of_le_of_lt (Nat.div_le_self _ _) (he k)
    · norm_num

theorem notW_lt (a : Nat) (ha : a < 2 ^ 32) : notW a < 2 ^ 32 := by
  unfold notW UINT_BITS
  exact Nat.xor_lt_two_pow (by norm_num) ha

theorem and_lt_right (a b : Nat) (hb : b < 2 ^ 32) : a &&& b < 2 ^ 32 :=
  Nat.lt_of_le_of_lt Nat.and_le_right hb

theorem and_lt_left (a b : Nat) (ha : a < 2 ^ 32) : a &&& b < 2 ^ 32 :=
  Nat.lt_of_le_of_lt Nat.and_le_left ha

theorem intMask_lt (k : Nat) : intMask k < 2 ^ 32 := by
  rw [intMask_eq]
  have : 2 ^ min k 32 ≤ 2 ^ 32 := Nat.pow_le_pow_right (by omega) (by omega)
  omega

theorem shiftRight_lt (a k : Nat) (ha : a < 2 ^ 32) : a >>> k < 2 ^ 32 := by
  rw [Nat.shiftRight_eq_div_pow]
  exact Nat.lt_of_le_of_lt (Nat.div_le_self _ _) ha

theorem setBitsBlock_spec (aln : Alignment) (vec : List Nat) (p : Nat) (entry : List Nat)
    (hp : p < aln.size) (hlen : getBitsBlockSize aln ≤ vec.length)
    (he : EntryOK aln entry) :
    ∃ v', setBitsBlock aln vec p entry = some v' ∧ v'.length = vec.length ∧
      ∀ w, (vec.getD w 0 < 2 ^ 32 → v'.getD w 0 < 2 ^ 32) ∧
        ∀ i, i < 32 → (v'.getD w 0).testBit i =
          if p * aln.num_states ≤ 32 * w + i ∧
              32 * w + i < p * aln.num_states + aln.num_states then
            bitAt entry (32 * w + i - p * aln.num_states)
          else (vec.getD w 0).testBit i := by
  have hT := index_bound aln p hp
  obtain ⟨he1, he2⟩ := he
  unfold getBitsBlockSize UINT_BITS at hlen
  unfold setBitsBlock
  simp only [shiftRight_BITS_DIV, and_BITS_MODULO]
  generalize hn : aln.num_states = n at *
  generalize hTT : n * aln.size = T at *
  generalize hM : p * n = M at *
  obtain ⟨b0, off, hMeq, hoff⟩ : ∃ b0 off, M = 32 * b0 + off ∧ off < 32 :=
    ⟨M / 32, M % 32, by omega, by omega⟩
  have hb0 : M / 32 = b0 := by omega
  have hoff' : M % 32 = off := by omega
  rw [hb0, hoff']
  have hb0len : b0 < vec.length := by omega
  by_cases hsame : b0 = (M + n) / 32
  · rw [if_pos hsame]
    have hn32 : off + n < 32 := by omega
    refine ⟨_, rfl, by simp, ?_⟩
    intro w
    simp only [getD_set, List.length_set, hb0len, and_true, if_true]
    by_cases hw : b0 = w
    · subst hw
      simp only [if_true]
      constructor
      · intro _
        apply Nat.or_lt_two_pow
        · exact and_lt_right _ _ (notW_lt _ (shl_lt _ _))
        · exact shl_lt _ _
      · intro i hi
        rw [Nat.testBit_or, Nat.testBit_and, testBit_notW, testBit_shl, testBit_shl,
          testBit_intMask]
        by_cases h1 : off ≤ i
        · by_cases h2 : i < off + n
          · have hcond : M ≤ 32 * b0 + i ∧ 32 * b0 + i < M + n := by omega
            rw [if_pos hcond,
              bitAt_eq entry (32 * b0 + i - M) 0 (i - off) (by omega) (by omega)]
            have : i - off < n ∧ i - off < 32 := by omega
            simp [hi, h1, this]
          · have hcond : ¬ (M ≤ 32 * b0 + i ∧ 32 * b0 + i < M + n) := by omega
            rw [if_neg hcond]
            have h3 := he2 (i - off) (by omega)
            rw [bitAt_eq entry (i - off) 0 (i - off) (by omega) (by omega)] at h3
            have : ¬ (i - off < n ∧ i - off < 32) := by omega
            rw [h3]
            simp [hi, h1, this]
        · have hcond : ¬ (M ≤ 32 * b0 + i ∧ 32 * b0 + i < M + n) := by omega
          rw [if_neg hcond]
          simp [hi, h1]
    · simp only [hw, if_false]
      refine ⟨fun h => h, ?_⟩
      intro i hi
      have hcond : ¬ (M ≤ 32 * w + i ∧ 32 * w + i < M + n) := by omega
      rw [if_neg hcond]
  · rw [if_neg hsame]
    obtain ⟨q, r, hnq, hr⟩ : ∃ q r, n - (32 - off) = 32 * q + r ∧ r < 32 :=
      ⟨(n - (32 - off)) / 32, (n - (32 - off)) % 32, by omega, by omega⟩
    have hnsum : n + off = 32 * (q + 1) + r := by omega
    obtain ⟨V, hV, hVlen, hVget⟩ := setBitsLoop_spec entry off (32 - off) q n 0
      (n - (32 - off)) r b0
      ((vec.set b0 (vec.getD b0 0 &&& intMask off)).set b0
        ((vec.set b0 (vec.getD b0 0 &&& intMask off)).getD b0 0 |||
          shl (entry.getD 0 0) off)) (by omega) hr hnq
    simp only [UINT_BITS]
    rw [hV]
    simp only [Nat.zero_add]
    have hpe : (M + n) / 32 = b0 + q + 1 := by omega
    have hre : (M + n) % 32 = r := by omega
    rw [hpe, hre]
    simp only [if_true]
    have hpelen : b0 + q + 1 < vec.length := by omega
    simp only [List.length_set] at hVlen hVget
    have hV0 : ∀ w, V.getD w 0 =
        if b0 + 1 ≤ w ∧ w < b0 + 1 + q then setWordS entry off (32 - off) (w - (b0 + 1))
        else if b0 = w then (vec.getD b0 0 &&& intMask off) ||| shl (entry.getD 0 0) off
        else vec.getD w 0 := by
      intro w
      rw [hVget w]
      by_cases h1 : b0 + 1 ≤ w ∧ w < b0 + 1 + q
      · rw [if_pos ⟨h1.1, h1.2, by omega⟩, if_pos h1, Nat.zero_add]
      · rw [if_neg (fun h => h1 ⟨h.1, h.2.1⟩), if_neg h1]
        simp only [getD_set, List.length_set, hb0len, and_true, if_true]
        by_cases hbw : b0 = w
        · simp only [hbw, if_true]
        · simp only [hbw, if_false]
    have hsome : ∀ (c : Prop) [Decidable c] (a b : List Nat),
        (if c then some a else some b) = some (if c then a else b) := by
      intros; split <;> rfl
    rw [hsome]
    refine ⟨_, rfl, ?_, ?_⟩
    · split <;> split <;> simp [hVlen]
    · intro w
      -- the word that ends at `w`
      have hfin : ∀ X : List Nat, X.length = vec.length →
          ((if r > off then
            (if 32 - off < 32 then
              (X.set (b0 + q + 1) (X.getD (b0 + q + 1) 0 &&& notW (intMask r))).set (b0 + q + 1)
                ((X.set (b0 + q + 1) (X.getD (b0 + q + 1) 0 &&& notW (intMask r))).getD
                  (b0 + q + 1) 0 ||| entry.getD q 0 >>> (32 - off))
             else X.set (b0 + q + 1) (X.getD (b0 + q + 1) 0 &&& notW (intMask r))).set
              (b0 + q + 1)
              ((if 32 - off < 32 then
                (X.set (b0 + q + 1) (X.getD (b0 + q + 1) 0 &&& notW (intMask r))).set
                  (b0 + q + 1)
                  ((X.set (b0 + q + 1) (X.getD (b0 + q + 1) 0 &&& notW (intMask r))).getD
                    (b0 + q + 1) 0 ||| entry.getD q 0 >>> (32 - off))
               else X.set (b0 + q + 1) (X.getD (b0 + q + 1) 0 &&& notW (intMask r))).getD
                (b0 + q + 1) 0 ||| shl (entry.getD (q + 1) 0) off)
           else
            (if 32 - off < 32 then
              (X.set (b0 + q + 1) (X.getD (b0 + q + 1) 0 &&& notW (intMask r))).set (b0 + q + 1)
                ((X.set (b0 + q + 1) (X.getD (b0 + q + 1) 0 &&& notW (intMask r))).getD
                  (b0 + q + 1) 0 ||| entry.getD q 0 >>> (32 - off))
             else X.set (b0 + q + 1) (X.getD (b0 + q + 1) 0 &&& notW (intMask r)))).getD w 0) =
          if b0 + q + 1 = w then
            ((X.getD (b0 + q + 1) 0 &&& notW (intMask r)) |||
              (if 32 - off < 32 then entry.getD q 0 >>> (32 - off) else 0)) |||
              (if r > off then shl (entry.getD (q + 1) 0) off else 0)
          else X.getD w 0 := by
        intro X hX
        have hXl : b0 + q + 1 < X.length := by omega
        by_cases hw : b0 + q + 1 = w
        · subst hw
          by_cases c1 : r > off <;> by_cases c2 : 32 - off < 32 <;>
            simp only [c1, c2, if_true, if_false, getD_set, List.length_set, hXl, and_self,
              Nat.or_zero]
        · by_cases c1 : r > off <;> by_cases c2 : 32 - off < 32 <;>
            simp only [c1, c2, if_true, if_false, getD_set, List.length_set, hw, false_and]
      rw [hfin V hVlen]
      by_cases hwe : b0 + q + 1 = w
      · -- the last word
        subst hwe
        rw [if_pos rfl, hV0, if_neg (by omega), if_neg (by omega)]
        constructor
        · intro _
          apply Nat.or_lt_two_pow
          · apply Nat.or_lt_two_pow
            · exact and_lt_right _ _ (notW_lt _ (intMask_lt _))
            · split
              · exact shiftRight_lt _ _ (he1 q)
              · norm_num
          · split
            · exact shl_lt _ _
            · norm_num
        · intro i hi
          rw [Nat.testBit_or, Nat.testBit_or, Nat.testBit_and, testBit_notW, testBit_intMask]
          by_cases hir : i < r
          · have hcond : M ≤ 32 * (b0 + q + 1) + i ∧ 32 * (b0 + q + 1) + i < M + n := by omega
            rw [if_pos hcond]
            by_cases hio : off ≤ i
            · rw [bitAt_eq entry (32 * (b0 + q + 1) + i - M) (q + 1) (i - off) (by omega)
                (by omega)]
              have c1 : r > off := by omega
              rw [if_pos c1, testBit_shl]
              have : (if 32 - off < 32 then entry.getD q 0 >>> (32 - off) else 0).testBit i
                  = false := by
                split
                · rw [Nat.testBit_shiftRight]
                  exact testBit_of_lt _ _ (he1 q) (by omega)
                · simp
              rw [this]
              simp [hi, hir, hio]
            · rw [bitAt_eq entry (32 * (b0 + q + 1) + i - M) q (32 - off + i) (by omega)
                (by omega)]
              have hlt : 32 - off < 32 := by omega
              rw [if_pos hlt, Nat.testBit_shiftRight]
              have : (if r > off then shl (entry.getD (q + 1) 0) off else 0).testBit i
                  = false := by
                split
                · rw [testBit_shl]; simp [hio]
                · simp
              rw [this]
              simp [hi, hir]
          · have hcond : ¬ (M ≤ 32 * (b0 + q + 1) + i ∧ 32 * (b0 + q + 1) + i < M + n) := by
              omega
            rw [if_neg hcond]
            have t2 : (if 32 - off < 32 then entry.getD q 0 >>> (32 - off) else 0).testBit i
                = false := by
              split
              · rw [Nat.testBit_shiftRight]
                by_cases hc : 32 - off + i < 32
                · have := he2 (32 * q + (32 - off + i)) (by omega)
                  rw [bitAt_eq entry _ q (32 - off + i) rfl hc] at this
                  exact this
                · exact testBit_of_lt _ _ (he1 q) (by omega)
              · simp
            have t3 : (if r > off then shl (entry.getD (q + 1) 0) off else 0).testBit i
                = false := by
              split
              · rw [testBit_shl]
                by_cases hio : off ≤ i
                · have := he2 (32 * (q + 1) + (i - off)) (by omega)
                  rw [bitAt_eq entry _ (q + 1) (i - off) rfl (by omega)] at this
                  rw [this]
                  simp
                · simp [hio]
              · simp
            rw [t2, t3]
            simp [hi, hir]
      · rw [if_neg hwe, hV0]
        by_cases hmid : b0 + 1 ≤ w ∧ w < b0 + 1 + q
        · -- a word filled by the loop
          rw [if_pos hmid]
          refine ⟨fun _ => setWordS_lt _ _ _ _ he1, ?_⟩
          intro i hi
          have hcond : M ≤ 32 * w + i ∧ 32 * w + i < M + n := by omega
          rw [testBit_setWordS entry off _ i hoff hi he1, if_pos hcond]
          by_cases hio : off ≤ i
          · rw [if_pos hio, bitAt_eq entry (32 * w + i - M) (w - (b0 + 1) + 1) (i - off)
              (by omega) (by omega)]
          · rw [if_neg hio, bitAt_eq entry (32 * w + i - M) (w - (b0 + 1)) (32 - off + i)
              (by omega) (by omega)]
        · rw [if_neg hmid]
          by_cases hw0 : b0 = w
          · -- the first word
            subst hw0
            rw [if_pos rfl]
            refine ⟨fun _ => Nat.or_lt_two_pow (and_lt_right _ _ (intMask_lt _))
              (shl_lt _ _), ?_⟩
            intro i hi
            rw [Nat.testBit_or, Nat.testBit_and, testBit_intMask, testBit_shl]
            by_cases hio : off ≤ i
            · have hcond : M ≤ 32 * b0 + i ∧ 32 * b0 + i < M + n := by omega
              rw [if_pos hcond,
                bitAt_eq entry (32 * b0 + i - M) 0 (i - off) (by omega) (by omega)]
              have : ¬ (i < off ∧ i < 32) := by omega
              simp [hi, hio, this]
            · have hcond : ¬ (M ≤ 32 * b0 + i ∧ 32 * b0 + i < M + n) := by omega
              rw [if_neg hcond]
              have : i < off ∧ i < 32 := by omega
              simp [hio, this]
          · rw [if_neg hw0]
            refine ⟨fun h => h, ?_⟩
            intro i hi
            have hcond : ¬ (M ≤ 32 * w + i ∧ 32 * w + i < M + n) := by omega
            rw [if_neg hcond]

theorem and_two_pow_ne_zero (x k : Nat) : (x &&& 2 ^ k != 0) = x.testBit k := by
  by_cases h : x.testBit k
  · rw [h]
    have : (x &&& 2 ^ k).testBit k = true := by
      rw [Nat.testBit_and, h, Nat.testBit_two_pow_self]; rfl
    have hne : x &&& 2 ^ k ≠ 0 := by
      intro h0; rw [h0] at this; simp at this
    simpa using hne
  · have h' : x.testBit k = false := by simpa using h
    rw [h']
    have : x &&& 2 ^ k = 0 := by
      apply Nat.eq_of_testBit_eq
      intro i
      rw [Nat.testBit_and, Nat.testBit_two_pow, Nat.zero_testBit]
      by_cases hk : k = i
      · subst hk; simp [h']
      · simp [hk]
    simp [this]

theorem getBitsEntry_eq_bitAt (entry : List Nat) (id : Nat) :
    getBitsEntry entry id = bitAt entry id := by
  unfold getBitsEntry bitAt
  simp only [shiftRight_BITS_DIV, and_BITS_MODULO]
  rw [shl_one, if_pos (by omega), and_two_pow_ne_zero]

theorem getD_lt_of_forall_mem (v : List Nat) (h : ∀ w ∈ v, w < 2 ^ UINT_BITS) (k : Nat) :
    v.getD k 0 < 2 ^ 32 := by
  rw [List.getD_eq_getElem?_getD]
  cases hk : v[k]? with
  | none => simp
  | some w => exact h w (List.getElem?_mem hk)

theorem eq_of_getD_eq (a b : List Nat) (hl : a.length = b.length)
    (h : ∀ k, k < a.length → a.getD k 0 = b.getD k 0) : a = b := by
  apply List.ext_getElem hl
  intro k h1 h2
  have := h k h1
  rw [List.getD_eq_getElem?_getD, List.getD_eq_getElem?_getD, List.getElem?_eq_getElem h1,
    List.getElem?_eq_getElem h2] at this
  simpa using this

theorem word_eq_of_testBit (a b : Nat) (ha : a < 2 ^ 32) (hb : b < 2 ^ 32)
    (h : ∀ i, i < 32 → a.testBit i = b.testBit i) : a = b := by
  apply Nat.eq_of_testBit_eq
  intro i
  by_cases hi : i < 32
  · exact h i hi
  · rw [testBit_of_lt a i ha (by omega), testBit_of_lt b i hb (by omega)]

/-- A scratch entry that holds a state set of the alignment. -/
theorem entryOK_of (aln : Alignment) (entry : List Nat)
    (hentry : entry.length = getBitsEntrySize aln)
    (hwords : ∀ w ∈ entry, w < 2 ^ UINT_BITS)
    (hclean : ∀ id, id < UINT_BITS * getBitsEntrySize aln → aln.num_states ≤ id →
      getBitsEntry entry id = false) : EntryOK aln entry := by
  refine ⟨getD_lt_of_forall_mem entry hwords, ?_⟩
  intro j hj
  by_cases hb : j < UINT_BITS * getBitsEntrySize aln
  · rw [← getBitsEntry_eq_bitAt]; exact hclean j hb hj
  · unfold bitAt
    unfold UINT_BITS at hb
    have : entry.length ≤ j / 32 := by rw [hentry]; omega
    rw [List.getD_eq_getElem?_getD, List.getElem?_eq_none this]
    simp

theorem patWords_of (aln : Alignment) (vec : List Nat) (h : ∀ w ∈ vec, w < 2 ^ UINT_BITS) :
    PatWords aln vec := fun i _ => getD_lt_of_forall_mem vec h i

theorem patWords_set (aln : Alignment) (vec v' : List Nat) (h : PatWords aln vec)
    (h' : ∀ w, vec.getD w 0 < 2 ^ 32 → v'.getD w 0 < 2 ^ 32) : PatWords aln v' :=
  fun i hi => h' i (h i hi)

theorem bitAt_of_word (v : List Nat) (j : Nat) :
    bitAt v j = (v.getD (j / 32) 0).testBit (j % 32) := rfl

/-- The bits of the vector after `setBitsBlock`. -/
theorem setBitsBlock_bitAt (aln : Alignment) (vec : List Nat) (p : Nat) (entry : List Nat)
    (hp : p < aln.size) (hlen : getBitsBlockSize aln ≤ vec.length)
    (he : EntryOK aln entry) :
    ∃ v', setBitsBlock aln vec p entry = some v' ∧ v'.length = vec.length ∧
      (∀ w, vec.getD w 0 < 2 ^ 32 → v'.getD w 0 < 2 ^ 32) ∧
      ∀ j, bitAt v' j =
        if p * aln.num_states ≤ j ∧ j < p * aln.num_states + aln.num_states then
          bitAt entry (j - p * aln.num_states)
        else bitAt vec j := by
  obtain ⟨v', h1, h2, h3⟩ := setBitsBlock_spec aln vec p entry hp hlen he
  refine ⟨v', h1, h2, fun w => (h3 w).1, ?_⟩
  intro j
  have := (h3 (j / 32)).2 (j % 32) (by omega)
  have e : 32 * (j / 32) + j % 32 = j := by omega
  rw [e] at this
  rw [bitAt_of_word v' j, this]
  rfl

theorem getBitsBlock_eq_of_bits (aln : Alignment) (v1 v2 : List Nat) (q : Nat) (out : List Nat)
    (h1 : PatWords aln v1) (h2 : PatWords aln v2) (hq : q < aln.size)
    (hout : out.length = getBitsEntrySize aln)
    (h : ∀ j, j < aln.num_states →
      bitAt v1 (q * aln.num_states + j) = bitAt v2 (q * aln.num_states + j)) :
    getBitsBlock aln v1 q out = getBitsBlock aln v2 q out := by
  obtain ⟨l1, g1⟩ := getBitsBlock_spec aln v1 q out h1 hq (by omega)
  obtain ⟨l2, g2⟩ := getBitsBlock_spec aln v2 q out h2 hq (by omega)
  apply eq_of_getD_eq _ _ (by rw [l1, l2])
  intro k hk
  rw [l1, hout] at hk
  apply word_eq_of_testBit _ _ (g1 k hk).1 (g2 k hk).1
  intro i hi
  rw [(g1 k hk).2 i hi, (g2 k hk).2 i hi]
  by_cases hin : 32 * k + i < aln.num_states
  · rw [h _ hin]
  · simp [hin]

theorem disjoint_patterns (n p q j : Nat) (hpq : q ≠ p) (hj : j < n) :
    ¬ (p * n ≤ q * n + j ∧ q * n + j < p * n + n) := by
  intro ⟨h1, h2⟩
  rcases Nat.lt_or_gt_of_ne hpq with h | h
  · have : (q + 1) * n ≤ p * n := Nat.mul_le_mul_right n h
    rw [Nat.add_mul] at this
    omega
  · have : (p + 1) * n ≤ q * n := Nat.mul_le_mul_right n h
    rw [Nat.add_mul] at this
    omega

/-- C7: the round trip of a packed state set. For every number of states, every pattern
index `p` of the block and every entry whose bits at the positions from `num_states` on
are zero, `setBitsBlock(vec, p, entry)` followed by `getBitsBlock(vec, p, out)` leaves
`out` equal to `entry`, wherever the bits of pattern `p` lie in the words of the
vector. -/
theorem setBitsBlock_getBitsBlock_roundtrip (aln : Alignment) (vec entry out : List Nat)
    (p : Nat) (hp : p < aln.size)
    (hlen : getBitsBlockSize aln ≤ vec.length) (hvec : ∀ w ∈ vec, w < 2 ^ UINT_BITS)
    (hentry : entry.length = getBitsEntrySize aln)
    (hwords : ∀ w ∈ entry, w < 2 ^ UINT_BITS)
    (hclean : ∀ id, id < UINT_BITS * getBitsEntrySize aln → aln.num_states ≤ id →
      getBitsEntry entry id = false)
    (hout : out.length = getBitsEntrySize aln) :
    (setBitsBlock aln vec p entry).map (fun v => getBitsBlock aln v p out) = some entry := by
  have he := entryOK_of aln entry hentry hwords hclean
  obtain ⟨v', hs, hl, hw, hb⟩ := setBitsBlock_bitAt aln vec p entry hp hlen he
  rw [hs, Option.map_some']
  congr 1
  have hpw : PatWords aln v' := patWords_set aln vec v' (patWords_of aln vec hvec) hw
  obtain ⟨l1, g1⟩ := getBitsBlock_spec aln v' p out hpw hp (by omega)
  apply eq_of_getD_eq _ _ (by rw [l1, hout, hentry])
  intro k hk
  rw [l1, hout] at hk
  apply word_eq_of_testBit _ _ (g1 k hk).1 (he.1 k)
  intro i hi
  rw [(g1 k hk).2 i hi, hb]
  by_cases hin : 32 * k + i < aln.num_states
  · have hcond : p * aln.num_states ≤ p * aln.num_states + (32 * k + i) ∧
        p * aln.num_states + (32 * k + i) < p * aln.num_states + aln.num_states := by omega
    rw [if_pos hcond]
    have e : p * aln.num_states + (32 * k + i) - p * aln.num_states = 32 * k + i := by omega
    rw [e, bitAt_eq entry (32 * k + i) k i rfl hi]
    simp [hin]
  · have := he.2 (32 * k + i) (by omega)
    rw [bitAt_eq entry (32 * k + i) k i rfl hi] at this
    rw [this]
    simp [hin]

/-- C8, as amended: for an entry whose bits at the positions from `num_states` on are
zero, `setBitsBlock(vec, p, entry)` changes only the bits of pattern `p`: the state set
that `getBitsBlock` reads at every other pattern index `q`, and the last word of the
vector, which holds the parsimony score, are the same before and after. -/
theorem setBitsBlock_frame (aln : Alignment) (vec entry out : List Nat)
    (p q : Nat) (hp : p < aln.size) (hq : q < aln.size) (hqp : q ≠ p)
    (hlen : getBitsBlockSize aln ≤ vec.length) (hvec : ∀ w ∈ vec, w < 2 ^ UINT_BITS)
    (hentry : entry.length = getBitsEntrySize aln)
    (hwords : ∀ w ∈ entry, w < 2 ^ UINT_BITS)
    (hclean : ∀ id, id < UINT_BITS * getBitsEntrySize aln → aln.num_states ≤ id →
      getBitsEntry entry id = false)
    (hout : out.length = getBitsEntrySize aln) :
    ∃ v', setBitsBlock aln vec p entry = some v' ∧
      getBitsBlock aln v' q out = getBitsBlock aln vec q out ∧
      v'.getD (getBitsBlockSize aln - 1) 0 = vec.getD (getBitsBlockSize aln - 1) 0 := by
  have he := entryOK_of aln entry hentry hwords hclean
  obtain ⟨v', hs, hl, hw, hb⟩ := setBitsBlock_bitAt aln vec p entry hp hlen he
  have hpw0 : PatWords aln vec := patWords_of aln vec hvec
  have hpw : PatWords aln v' := patWords_set aln vec v' hpw0 hw
  refine ⟨v', hs, ?_, ?_⟩
  · apply getBitsBlock_eq_of_bits aln v' vec q out hpw hpw0 hq hout
    intro j hj
    rw [hb, if_neg (disjoint_patterns _ p q j hqp hj)]
  · have h0 := getD_lt_of_forall_mem vec hvec (getBitsBlockSize aln - 1)
    apply word_eq_of_testBit _ _ (hw _ h0) h0
    intro i hi
    have hT := index_bound aln p hp
    have := hb (32 * (getBitsBlockSize aln - 1) + i)
    rw [bitAt_eq v' _ (getBitsBlockSize aln - 1) i rfl hi,
      bitAt_eq vec _ (getBitsBlockSize aln - 1) i rfl hi] at this
    rw [this, if_neg]
    unfold getBitsBlockSize UINT_BITS
    omega

theorem length_fillWords (v : List Nat) (n val : Nat) : (fillWords v n val).length = v.length := by
  induction v generalizing n with
  | nil => cases n <;> rfl
  | cons w ws ih =>
    cases n with
    | zero => rfl
    | succ n => simp [fillWords, ih]

theorem getD_fillWords (v : List Nat) (n val i : Nat) :
    (fillWords v n val).getD i 0 = if i < n ∧ i < v.length then val else v.getD i 0 := by
  induction v generalizing n i with
  | nil => cases n <;> simp [fillWords]
  | cons w ws ih =>
    cases n with
    | zero => simp [fillWords]
    | succ n =>
      cases i with
      | zero => simp [fillWords]
      | succ i =>
        simp only [fillWords, List.getD_cons_succ, ih, List.length_cons]
        by_cases h : i < n ∧ i < ws.length
        · rw [if_pos h, if_pos (by omega)]
        · rw [if_neg h, if_neg (by omega)]

theorem length_setBitsAll (v : List Nat) (num : Nat) : (setBitsAll v num).length = v.length := by
  unfold setBitsAll
  simp only
  split <;> simp [length_fillWords]

theorem getD_setBitsAll (v : List Nat) (num w : Nat) (hlen : (num + 31) / 32 ≤ v.length) :
    (setBitsAll v num).getD w 0 =
      if w < num / 32 then 2 ^ 32 - 1
      else if w = num / 32 ∧ num % 32 ≠ 0 then 2 ^ (num % 32) - 1
      else v.getD w 0 := by
  unfold setBitsAll
  simp only [and_BITS_MODULO, UINT_BITS]
  by_cases h0 : num % 32 ≠ 0
  · rw [if_pos h0, getD_set, length_fillWords, getD_fillWords]
    by_cases h1 : w < num / 32
    · rw [if_neg (by omega), if_pos ⟨h1, by omega⟩, if_pos h1]
    · rw [if_neg h1]
      by_cases h2 : w = num / 32
      · subst h2
        rw [if_pos ⟨rfl, by omega⟩, if_pos ⟨rfl, h0⟩, intMask_eq]
        congr 2
        omega
      · rw [if_neg (by omega), if_neg (by omega), if_neg (by omega)]
  · rw [if_neg h0, getD_fillWords]
    by_cases h1 : w < num / 32
    · rw [if_pos ⟨h1, by omega⟩, if_pos h1]
    · rw [if_neg (by omega), if_neg h1, if_neg (by omega)]

theorem bitAt_setBitsAll (v : List Nat) (num j : Nat) (hlen : (num + 31) / 32 ≤ v.length)
    (hj : j < num) : bitAt (setBitsAll v num) j = true := by
  unfold bitAt
  rw [getD_setBitsAll v num _ hlen]
  by_cases h1 : j / 32 < num / 32
  · rw [if_pos h1, Nat.testBit_two_pow_sub_one]
    simp; omega
  · rw [if_neg h1, if_pos ⟨by omega, by omega⟩, Nat.testBit_two_pow_sub_one]
    simp; omega

theorem setBitsAll_lt (v : List Nat) (num w : Nat) (hlen : (num + 31) / 32 ≤ v.length)
    (hw : w < (num + 31) / 32) : (setBitsAll v num).getD w 0 < 2 ^ 32 := by
  rw [getD_setBitsAll v num _ hlen]
  by_cases h1 : w < num / 32
  · rw [if_pos h1]; norm_num
  · rw [if_neg h1, if_pos ⟨by omega, by omega⟩]
    have : 2 ^ (num % 32) ≤ 2 ^ 32 := Nat.pow_le_pow_right (by omega) (by omega)
    omega

theorem length_andWords (dad c1 c2 : List Nat) (n : Nat) :
    (andWords dad c1 c2 n).length = dad.length := by
  unfold andWords
  induction n with
  | zero => simp
  | succ n ih =>
    rw [List.range_succ, List.foldl_append]
    simp only [List.foldl_cons, List.foldl_nil, List.length_set]
    exact ih

theorem getD_andWords (dad c1 c2 : List Nat) (n i : Nat) :
    (andWords dad c1 c2 n).getD i 0 =
      if i < n ∧ i < dad.length then c1.getD i 0 &&& c2.getD i 0 else dad.getD i 0 := by
  induction n with
  | zero => simp [andWords]
  | succ n ih =>
    have hl := length_andWords dad c1 c2 n
    unfold andWords at ih hl ⊢
    rw [List.range_succ, List.foldl_append]
    simp only [List.foldl_cons, List.foldl_nil]
    rw [getD_set, hl, ih]
    by_cases h1 : n = i
    · subst h1
      by_cases h2 : n < dad.length
      · rw [if_pos ⟨rfl, h2⟩, if_pos ⟨by omega, h2⟩]
      · rw [if_neg (by omega), if_neg (by omega), if_neg (by omega)]
    · rw [if_neg (by omega)]
      by_cases h2 : i < n ∧ i < dad.length
      · rw [if_pos h2, if_pos (by omega)]
      · rw [if_neg h2, if_neg (by omega)]

theorem isEmptyBitsLoop_spec (entry : List Nat) (he : ∀ k, entry.getD k 0 < 2 ^ 32) :
    ∀ (q fuel i rest r : Nat), q ≤ fuel → r < 32 → rest = 32 * q + r →
      (isEmptyBitsLoop entry fuel i rest = true ↔
        ∀ j, j < rest → bitAt entry (32 * i + j) = false) := by
  intro q
  induction q with
  | zero =>
    intro fuel i rest r _ hr hrest
    subst hrest
    have hfin : (entry.getD i 0 &&& intMask (32 * 0 + r) == 0) = true ↔
        ∀ j, j < 32 * 0 + r → bitAt entry (32 * i + j) = false := by
      simp only [Nat.mul_zero, Nat.zero_add, beq_iff_eq]
      constructor
      · intro h j hj
        have := congrArg (fun x => x.testBit j) h
        simp only [Nat.testBit_and, testBit_intMask, Nat.zero_testBit] at this
        rw [bitAt_eq entry (32 * i + j) i j rfl (by omega)]
        have hc : j < r ∧ j < 32 := by omega
        simpa [hc] using this
      · intro h
        apply Nat.eq_of_testBit_eq
        intro j
        rw [Nat.testBit_and, testBit_intMask, Nat.zero_testBit]
        by_cases hc : j < r ∧ j < 32
        · have := h j hc.1
          rw [bitAt_eq entry (32 * i + j) i j rfl (by omega)] at this
          rw [this]
          simp
        · simp [hc]
    cases fuel with
    | zero => simpa [isEmptyBitsLoop] using hfin
    | succ fuel =>
      have : ¬ (32 * 0 + r ≥ UINT_BITS) := by unfold UINT_BITS; omega
      simp only [isEmptyBitsLoop, this, if_false]
      exact hfin
  | succ q ih =>
    intro fuel i rest r hf hr hrest
    subst hrest
    cases fuel with
    | zero => omega
    | succ fuel =>
      have hge : 32 * (q + 1) + r ≥ UINT_BITS := by unfold UINT_BITS; omega
      have hsub : 32 * (q + 1) + r - UINT_BITS = 32 * q + r := by unfold UINT_BITS; omega
      simp only [isEmptyBitsLoop, hge, if_true, hsub]
      by_cases hz : entry.getD i 0 ≠ 0
      · rw [if_pos hz]
        constructor
        · intro h; cases h
        · intro h
          exfalso
          apply hz
          apply word_eq_of_testBit _ _ (he i) (by norm_num)
          intro j hj
          have := h j (by omega)
          rw [bitAt_eq entry (32 * i + j) i j rfl hj] at this
          rw [this, Nat.zero_testBit]
      · have hz' : entry.getD i 0 = 0 := by simpa using hz
        rw [if_neg hz]
        rw [ih fuel (i + 1) (32 * q + r) r (by omega) hr rfl]
        constructor
        · intro h j hj
          by_cases hj32 : j < 32
          · rw [bitAt_eq entry (32 * i + j) i j rfl hj32, hz', Nat.zero_testBit]
          · have := h (j - 32) (by omega)
            have e : 32 * (i + 1) + (j - 32) = 32 * i + j := by omega
            rw [e] at this
            exact this
        · intro h j hj
          have := h (j + 32) (by omega)
          have e : 32 * i + (j + 32) = 32 * (i + 1) + j := by omega
          rw [e] at this
          exact this

theorem isEmptyBitsEntry_iff (aln : Alignment) (entry : List Nat)
    (he : ∀ k, entry.getD k 0 < 2 ^ 32) :
    isEmptyBitsEntry aln entry = true ↔ ∀ j, j < aln.num_states → bitAt entry j = false := by
  unfold isEmptyBitsEntry
  rw [isEmptyBitsLoop_spec entry he (aln.num_states / 32) aln.num_states 0 aln.num_states
    (aln.num_states % 32) (by omega) (by omega) (by omega)]
  simp

theorem unionBitsLoop_spec (e1 e2 : List Nat) :
    ∀ (m fuel i rest : Nat) (out : List Nat), m ≤ fuel → rest ≤ 32 * m → 32 * m < rest + 32 →
      (unionBitsLoop e1 e2 fuel i rest out).length = out.length ∧
      ∀ k, (unionBitsLoop e1 e2 fuel i rest out).getD k 0 =
        if i ≤ k ∧ k < i + m ∧ k < out.length then e1.getD k 0 ||| e2.getD k 0
        else out.getD k 0 := by
  intro m
  induction m with
  | zero =>
    intro fuel i rest out _ h1 _
    have h0 : rest = 0 := by omega
    subst h0
    cases fuel with
    | zero =>
      refine ⟨rfl, fun k => ?_⟩
      rw [if_neg (by omega)]; rfl
    | succ fuel =>
      refine ⟨rfl, fun k => ?_⟩
      rw [if_neg (by omega)]; rfl
  | succ m ih =>
    intro fuel i rest out hf h1 h2
    cases fuel with
    | zero => omega
    | succ fuel =>
      have hpos : rest > 0 := by omega
      simp only [unionBitsLoop, hpos, if_true, UINT_BITS]
      obtain ⟨hl, hg⟩ := ih fuel (i + 1) (rest - 32)
        (out.set i (e1.getD i 0 ||| e2.getD i 0)) (by omega) (by omega) (by omega)
      refine ⟨by rw [hl]; simp, fun k => ?_⟩
      rw [hg k, List.length_set, getD_set]
      by_cases hk : i + 1 ≤ k ∧ k < i + 1 + m ∧ k < out.length
      · rw [if_pos hk, if_pos (by omega)]
      · rw [if_neg hk]
        by_cases hki : i = k ∧ i < out.length
        · rw [if_pos hki, if_pos (by omega), hki.1]
        · rw [if_neg hki, if_neg (by omega)]

theorem unionBitsEntry_spec (aln : Alignment) (e1 e2 out : List Nat)
    (hout : out.length = getBitsEntrySize aln) :
    (unionBitsEntry aln e1 e2 out).length = out.length ∧
    ∀ k, k < getBitsEntrySize aln →
      (unionBitsEntry aln e1 e2 out).getD k 0 = e1.getD k 0 ||| e2.getD k 0 := by
  unfold unionBitsEntry
  unfold getBitsEntrySize UINT_BITS at hout ⊢
  obtain ⟨hl, hg⟩ := unionBitsLoop_spec e1 e2 ((aln.num_states + 31) / 32) aln.num_states 0
    aln.num_states out (by omega) (by omega) (by omega)
  refine ⟨hl, fun k hk => ?_⟩
  rw [hg k, if_pos (by omega)]

theorem getD_replicate_zero (m k : Nat) : (List.replicate m 0).getD k 0 = 0 := by
  rw [List.getD_eq_getElem?_getD]
  by_cases h : k < m
  · rw [List.getElem?_eq_getElem (by simpa using h)]; simp
  · rw [List.getElem?_eq_none (by simpa using h)]; rfl

theorem bitAt_replicate_zero (m j : Nat) : bitAt (List.replicate m 0) j = false := by
  unfold bitAt
  rw [getD_replicate_zero, Nat.zero_testBit]

/-- The entry that the leaf case builds for a state below the number of states. -/
theorem setBitsEntry_spec (aln : Alignment) (state : Nat) (hs : state < aln.num_states) :
    EntryOK aln (setBitsEntry (List.replicate (getBitsEntrySize aln) 0) state) ∧
    ∀ j, bitAt (setBitsEntry (List.replicate (getBitsEntrySize aln) 0) state) j =
      decide (j = state) := by
  unfold setBitsEntry
  simp only [shiftRight_BITS_DIV, and_BITS_MODULO]
  have hsz : state / 32 < (List.replicate (getBitsEntrySize aln) 0).length := by
    simp only [List.length_replicate]; unfold getBitsEntrySize UINT_BITS; omega
  have hb : ∀ j, bitAt ((List.replicate (getBitsEntrySize aln) 0).set (state / 32)
      ((List.replicate (getBitsEntrySize aln) 0).getD (state / 32) 0 ||| shl 1 (state % 32))) j =
      decide (j = state) := by
    intro j
    have hshl : shl 1 (state % 32) = 2 ^ (state % 32) := by
      rw [shl_one, if_pos (by omega)]
    rw [bitAt_set, getD_replicate_zero, Nat.zero_or, hshl]
    by_cases h : state / 32 = j / 32
    · have hc : state / 32 = j / 32 ∧
          state / 32 < (List.replicate (getBitsEntrySize aln) 0).length := ⟨h, hsz⟩
      rw [if_pos hc, Nat.testBit_two_pow]
      congr 1
      apply propext
      constructor <;> intro h' <;> omega
    · have hc : ¬ (state / 32 = j / 32 ∧
          state / 32 < (List.replicate (getBitsEntrySize aln) 0).length) := fun hh => h hh.1
      rw [if_neg hc, bitAt_replicate_zero]
      have : j ≠ state := by intro hh; subst hh; exact h rfl
      simp [this]
  refine ⟨⟨fun k => ?_, fun j hj => ?_⟩, hb⟩
  · rw [getD_set, getD_replicate_zero, Nat.zero_or]
    split
    · exact shl_lt _ _
    · norm_num
  · rw [hb j]
    have : j ≠ state := by omega
    simp [this]

/-- The entry that the leaf case builds for an ambiguity code. -/
theorem ambiguityEntry_spec (aln : Alignment) (mask : Nat) (hn : 0 < aln.num_states)
    (h1 : mask < 2 ^ aln.num_states) (h2 : mask < 2 ^ 32) :
    EntryOK aln ((List.replicate (getBitsEntrySize aln) 0).set 0 mask) ∧
    ∀ j, bitAt ((List.replicate (getBitsEntrySize aln) 0).set 0 mask) j = mask.testBit j := by
  have hsz : 0 < (List.replicate (getBitsEntrySize aln) 0).length := by
    simp only [List.length_replicate]; unfold getBitsEntrySize UINT_BITS; omega
  have hb : ∀ j, bitAt ((List.replicate (getBitsEntrySize aln) 0).set 0 mask) j =
      mask.testBit j := by
    intro j
    rw [bitAt_set]
    by_cases h : 0 = j / 32
    · rw [if_pos ⟨h, hsz⟩]
      congr 1
      omega
    · rw [if_neg (fun hh => h hh.1), bitAt_replicate_zero, testBit_of_lt mask j h2 (by omega)]
  refine ⟨⟨fun k => ?_, fun j hj => ?_⟩, hb⟩
  · rw [getD_set]
    split
    · exact h2
    · rw [getD_replicate_zero]; norm_num
  · rw [hb j]
    exact Nat.testBit_lt_two_pow (Nat.lt_of_lt_of_le h1 (Nat.pow_le_pow_right (by omega) hj))

theorem foldlM_range_inv {σ : Type} (step : σ → Nat → Option σ) (Inv : Nat → σ → Prop)
    (init : σ) (N : Nat) (h0 : Inv 0 init)
    (hstep : ∀ k s, k < N → Inv k s → ∃ s', step s k = some s' ∧ Inv (k + 1) s') :
    ∃ s, (List.range N).foldlM step init = some s ∧ Inv N s := by
  induction N with
  | zero => exact ⟨init, rfl, h0⟩
  | succ N ih =>
    obtain ⟨s, hs, hi⟩ := ih (fun k s hk => hstep k s (by omega))
    obtain ⟨s', hs', hi'⟩ := hstep N s (by omega) hi
    refine ⟨s', ?_, hi'⟩
    rw [List.range_succ, List.foldlM_append, hs]
    simp [hs']

theorem foldl_range_inv {σ : Type} (step : σ → Nat → σ) (Inv : Nat → σ → Prop)
    (init : σ) (N : Nat) (h0 : Inv 0 init)
    (hstep : ∀ k s, k < N → Inv k s → Inv (k + 1) (step s k)) :
    Inv N ((List.range N).foldl step init) := by
  induction N with
  | zero => exact h0
  | succ N ih =>
    rw [List.range_succ, List.foldl_append]
    exact hstep N _ (by omega) (ih (fun k s hk => hstep k s (by omega)))

theorem setBitsBlock_step (aln : Alignment) (vec : List Nat) (k : Nat) (entry : List Nat)
    (hk : k < aln.size) (hlen : getBitsBlockSize aln ≤ vec.length)
    (he : EntryOK aln entry) (hpw : PatWords aln vec) :
    ∃ v', setBitsBlock aln vec k entry = some v' ∧ v'.length = vec.length ∧
      PatWords aln v' ∧
      (vec.getD (getBitsBlockSize aln - 1) 0 < 2 ^ 32 →
        v'.getD (getBitsBlockSize aln - 1) 0 = vec.getD (getBitsBlockSize aln - 1) 0) ∧
      ∀ p, p < aln.size → ∀ s, s < aln.num_states →
        bitAt v' (p * aln.num_states + s) =
          if p = k then bitAt entry s else bitAt vec (p * aln.num_states + s) := by
  obtain ⟨v', hs, hl, hw, hb⟩ := setBitsBlock_bitAt aln vec k entry hk hlen he
  refine ⟨v', hs, hl, patWords_set aln vec v' hpw hw, ?_, ?_⟩
  · intro h0
    apply word_eq_of_testBit _ _ (hw _ h0) h0
    intro i hi
    have hT := index_bound aln k hk
    have := hb (32 * (getBitsBlockSize aln - 1) + i)
    rw [bitAt_eq v' _ (getBitsBlockSize aln - 1) i rfl hi,
      bitAt_eq vec _ (getBitsBlockSize aln - 1) i rfl hi] at this
    rw [this, if_neg]
    unfold getBitsBlockSize UINT_BITS
    omega
  · intro p hp s hs
    rw [hb]
    by_cases hpk : p = k
    · subst hpk
      have hc : p * aln.num_states ≤ p * aln.num_states + s ∧
          p * aln.num_states + s < p * aln.num_states + aln.num_states := by omega
      rw [if_pos hc, if_pos rfl]
      congr 1
      omega
    · rw [if_neg (disjoint_patterns _ k p s hpk hs), if_neg hpk]

theorem leafState_some (aln : Alignment) (UNK id : Nat) (rn : Bool) (p : Nat)
    (hid : rn = true ∨ id < aln.nseq) :
    leafState aln UNK id rn p = some (if rn then UNK else aln.state p id) := by
  unfold leafState
  cases rn with
  | true => simp
  | false =>
    have : id < aln.nseq := by simpa using hid
    simp [this]

theorem leafPartialPars_spec (aln : Alignment) (UNK id : Nat) (rn : Bool) (pars0 : List Nat)
    (hlen : getBitsBlockSize aln ≤ pars0.length)
    (hid : rn = true ∨ id < aln.nseq)
    (hvalid : ∀ p, p < aln.size →
      validState aln UNK (if rn then UNK else aln.state p id) = true) :
    ∃ P, leafPartialPars aln UNK id rn pars0 = some P ∧ P.length = pars0.length ∧
      PatWords aln P ∧ scoreSlot aln P = 0 ∧
      ∀ p, p < aln.size → ∀ s, s < aln.num_states →
        bitAt P (p * aln.num_states + s) =
          (leafMask aln UNK (if rn then UNK else aln.state p id)).testBit s := by
  unfold leafPartialPars scoreSlot
  simp only
  have hW : getBitsBlockSize aln - 1 = (aln.num_states * aln.size + 31) / 32 := by
    unfold getBitsBlockSize UINT_BITS; omega
  have hlen' : (aln.num_states * aln.size + 31) / 32 < pars0.length := by
    unfold getBitsBlockSize UINT_BITS at hlen; omega
  have key := foldlM_range_inv (leafStep aln UNK id rn)
    (fun k P => P.length = pars0.length ∧ PatWords aln P ∧
      P.getD (getBitsBlockSize aln - 1) 0 = 0 ∧
      ∀ p, p < aln.size → ∀ s, s < aln.num_states →
        bitAt P (p * aln.num_states + s) =
          if p < k then (leafMask aln UNK (if rn then UNK else aln.state p id)).testBit s
          else true)
    ((setBitsAll pars0 (aln.num_states * aln.size)).set (getBitsBlockSize aln - 1) 0)
    aln.size ?_ ?_
  · obtain ⟨P, hP, hPl, hPw, hP0, hPb⟩ := key
    exact ⟨P, hP, hPl, hPw, hP0, fun p hp s hs => by rw [hPb p hp s hs, if_pos hp]⟩
  · -- before the loop
    refine ⟨by simp [length_setBitsAll], ?_, ?_, ?_⟩
    · intro i hi
      have e : ¬ (getBitsBlockSize aln - 1 = i ∧ getBitsBlockSize aln - 1 <
          (setBitsAll pars0 (aln.num_states * aln.size)).length) := by omega
      rw [getD_set, if_neg e]
      exact setBitsAll_lt _ _ _ (by omega) (by omega)
    · rw [getD_set, if_pos ⟨rfl, by rw [length_setBitsAll]; omega⟩]
    · intro p hp s hs
      have hT := index_bound aln p hp
      have e : ¬ p < 0 := by omega
      have e2 : ¬ (getBitsBlockSize aln - 1 = (p * aln.num_states + s) / 32 ∧
          getBitsBlockSize aln - 1 <
            (setBitsAll pars0 (aln.num_states * aln.size)).length) := by
        rw [hW]; omega
      rw [if_neg e, bitAt_set, if_neg e2]
      exact bitAt_setBitsAll _ _ _ (by omega) (by omega)
  · -- one turn
    intro k P hk ⟨hPl, hPw, hP0, hPb⟩
    unfold leafStep
    rw [leafState_some aln UNK id rn k hid]
    simp only [Option.some_bind]
    have hv := hvalid k hk
    generalize hst : (if rn = true then UNK else aln.state k id) = st at hv
    by_cases h1 : st = UNK
    · rw [if_pos h1]
      refine ⟨P, rfl, hPl, hPw, hP0, ?_⟩
      intro p hp s hs
      rw [hPb p hp s hs]
      by_cases hpk : p < k
      · have e : p < k + 1 := by omega
        rw [if_pos hpk, if_pos e]
      · rw [if_neg hpk]
        by_cases hpk' : p = k
        · subst hpk'
          have e : p < p + 1 := by omega
          rw [if_pos e, hst, h1]
          unfold leafMask
          rw [if_pos rfl, Nat.testBit_two_pow_sub_one]
          simp [hs]
        · have e : ¬ p < k + 1 := by omega
          rw [if_neg e]
    · rw [if_neg h1]
      by_cases h2 : st < aln.num_states
      · rw [if_pos h2]
        obtain ⟨heOK, heb⟩ := setBitsEntry_spec aln st h2
        obtain ⟨v', hs', hl', hw', h0', hb'⟩ := setBitsBlock_step aln P k _ hk (by omega) heOK hPw
        refine ⟨v', hs', by omega, hw', ?_, ?_⟩
        · rw [h0' (by rw [hP0]; norm_num), hP0]
        · intro p hp s hs
          rw [hb' p hp s hs]
          by_cases hpk' : p = k
          · subst hpk'
            have e : p < p + 1 := by omega
            rw [if_pos rfl, if_pos e, heb, hst]
            unfold leafMask
            rw [if_neg h1, if_pos h2, Nat.testBit_two_pow]
            congr 1
            apply propext
            constructor <;> intro h <;> omega
          · rw [if_neg hpk', hPb p hp s hs]
            by_cases hpk : p < k
            · have e : p < k + 1 := by omega
              rw [if_pos hpk, if_pos e]
            · have e : ¬ p < k + 1 := by omega
              rw [if_neg hpk, if_neg e]
      · rw [if_neg h2]
        have hv' : st + 1 - aln.num_states < 2 ^ aln.num_states ∧
            st + 1 - aln.num_states < 2 ^ 32 := by
          unfold validState UINT_BITS at hv
          simp only [Bool.or_eq_true, beq_iff_eq, decide_eq_true_eq, Bool.and_eq_true] at hv
          rcases hv with (h | h) | h
          · exact absurd h h1
          · exact absurd h h2
          · exact h
        have hn0 : 0 < aln.num_states := by
          rcases Nat.eq_zero_or_pos aln.num_states with h | h
          · rw [h] at hv'; simp at hv'
          · exact h
        obtain ⟨heOK, heb⟩ := ambiguityEntry_spec aln (st + 1 - aln.num_states) hn0 hv'.1 hv'.2
        obtain ⟨v', hs', hl', hw', h0', hb'⟩ := setBitsBlock_step aln P k _ hk (by omega) heOK hPw
        refine ⟨v', hs', by omega, hw', ?_, ?_⟩
        · rw [h0' (by rw [hP0]; norm_num), hP0]
        · intro p hp s hs
          rw [hb' p hp s hs]
          by_cases hpk' : p = k
          · subst hpk'
            have e : p < p + 1 := by omega
            rw [if_pos rfl, if_pos e, heb, hst]
            unfold leafMask
            rw [if_neg h1, if_neg h2]
          · rw [if_neg hpk', hPb p hp s hs]
            by_cases hpk : p < k
            · have e : p < k + 1 := by omega
              rw [if_pos hpk, if_pos e]
            · have e : ¬ p < k + 1 := by omega
              rw [if_neg hpk, if_neg e]

theorem bitsDisjoint_iff (aln : Alignment) (c1 c2 : List Nat) (p : Nat) :
    bitsDisjoint aln c1 c2 p = true ↔
      ∀ s, s < aln.num_states →
        (bitAt c1 (p * aln.num_states + s) && bitAt c2 (p * aln.num_states + s)) = false := by
  unfold bitsDisjoint
  simp only [List.all_eq_true, List.mem_range, Bool.not_eq_true']

theorem getBitsBlock_bitAt (aln : Alignment) (vec : List Nat) (p : Nat)
    (hv : PatWords aln vec) (hp : p < aln.size) :
    (getBitsBlock aln vec p (List.replicate (getBitsEntrySize aln) 0)).length =
        getBitsEntrySize aln ∧
      (∀ k, (getBitsBlock aln vec p (List.replicate (getBitsEntrySize aln) 0)).getD k 0
        < 2 ^ 32) ∧
      ∀ j, bitAt (getBitsBlock aln vec p (List.replicate (getBitsEntrySize aln) 0)) j =
        (decide (j < aln.num_states) && bitAt vec (p * aln.num_states + j)) := by
  obtain ⟨hl, hg⟩ := getBitsBlock_spec aln vec p (List.replicate (getBitsEntrySize aln) 0) hv hp
    (by simp)
  rw [List.length_replicate] at hl
  refine ⟨hl, ?_, ?_⟩
  · intro k
    by_cases hk : k < getBitsEntrySize aln
    · exact (hg k hk).1
    · rw [List.getD_eq_getElem?_getD, List.getElem?_eq_none (by omega)]
      norm_num
  · intro j
    by_cases hk : j / 32 < getBitsEntrySize aln
    · have := (hg (j / 32) hk).2 (j % 32) (by omega)
      have e : 32 * (j / 32) + j % 32 = j := by omega
      rw [e] at this
      rw [bitAt_of_word, this]
    · have hjn : ¬ j < aln.num_states := by
        unfold getBitsEntrySize UINT_BITS at hk; omega
      rw [bitAt_of_word, List.getD_eq_getElem?_getD, List.getElem?_eq_none (by omega)]
      simp [hjn]

theorem member_eq_bitAt (aln : Alignment) (vec : List Nat) (p s : Nat)
    (hv : PatWords aln vec) (hp : p < aln.size) (hs : s < aln.num_states) :
    member aln vec p s = bitAt vec (p * aln.num_states + s) := by
  unfold member
  rw [getBitsEntry_eq_bitAt, (getBitsBlock_bitAt aln vec p hv hp).2.2]
  simp [hs]

theorem disjointAt_eq (aln : Alignment) (c1 c2 : List Nat) (p : Nat)
    (h1 : PatWords aln c1) (h2 : PatWords aln c2) (hp : p < aln.size) :
    disjointAt aln c1 c2 p = bitsDisjoint aln c1 c2 p := by
  have key : ∀ l : List Nat, (∀ s ∈ l, s < aln.num_states) →
      (l.all fun s => !(member aln c1 p s && member aln c2 p s)) =
      (l.all fun s =>
        !(bitAt c1 (p * aln.num_states + s) && bitAt c2 (p * aln.num_states + s))) := by
    intro l
    induction l with
    | nil => intro _; rfl
    | cons x xs ih =>
      intro h
      have hx : x < aln.num_states := h x (List.mem_cons_self _ _)
      simp only [List.all_cons]
      rw [ih (fun s hs => h s (List.mem_cons_of_mem _ hs)),
        member_eq_bitAt aln c1 p x h1 hp hx, member_eq_bitAt aln c2 p x h2 hp hx]
  unfold disjointAt bitsDisjoint
  exact key _ (fun s hs => by simpa using hs)

theorem sum_range_succ (f : Nat → Nat) (k : Nat) :
    ((List.range (k + 1)).map f).sum = ((List.range k).map f).sum + f k := by
  rw [List.range_succ, List.map_append, List.sum_append]
  simp

theorem sum_range_congr (f g : Nat → Nat) (k : Nat) (h : ∀ p, p < k → f p = g p) :
    ((List.range k).map f).sum = ((List.range k).map g).sum := by
  congr 1
  apply List.map_congr_left
  intro p hp
  exact h p (by simpa using hp)

theorem bitAt_andWords (aln : Alignment) (dad c1 c2 : List Nat)
    (hlen : getBitsBlockSize aln ≤ dad.length) (j : Nat)
    (hj : j < aln.num_states * aln.size) :
    bitAt (andWords dad c1 c2 (getBitsBlockSize aln - 1)) j = (bitAt c1 j && bitAt c2 j) := by
  unfold bitAt
  have hc : j / 32 < getBitsBlockSize aln - 1 ∧ j / 32 < dad.length := by
    unfold getBitsBlockSize UINT_BITS at hlen ⊢; omega
  rw [getD_andWords, if_pos hc, Nat.testBit_and]

theorem patWords_andWords (aln : Alignment) (dad c1 c2 : List Nat)
    (hlen : getBitsBlockSize aln ≤ dad.length) (h1 : PatWords aln c1) :
    PatWords aln (andWords dad c1 c2 (getBitsBlockSize aln - 1)) := by
  intro i hi
  have hc : i < getBitsBlockSize aln - 1 ∧ i < dad.length := by omega
  rw [getD_andWords, if_pos hc]
  exact and_lt_left _ _ (h1 i hi)

theorem internalStep_spec (aln : Alignment) (dad c1 c2 : List Nat)
    (hlen : getBitsBlockSize aln ≤ dad.length)
    (h1 : PatWords aln c1) (h2 : PatWords aln c2) (k : Nat) (st : List Nat × Nat)
    (hk : k < aln.size) (hinv : InternalInv aln dad c1 c2 k st) :
    ∃ st', internalStep aln c1 c2 st k = some st' ∧ InternalInv aln dad c1 c2 (k + 1) st' := by
  obtain ⟨hPl, hPw, hsc, hPb⟩ := hinv
  unfold internalStep
  simp only
  obtain ⟨gl, gw, gb⟩ := getBitsBlock_bitAt aln st.1 k hPw hk
  have hempty : isEmptyBitsEntry aln
      (getBitsBlock aln st.1 k (List.replicate (getBitsEntrySize aln) 0)) = true ↔
      bitsDisjoint aln c1 c2 k = true := by
    rw [isEmptyBitsEntry_iff aln _ gw, bitsDisjoint_iff]
    constructor
    · intro h s hs
      have := h s hs
      rw [gb, hPb k hk s hs] at this
      have e : ¬ (k < k ∧ bitsDisjoint aln c1 c2 k = true) := by omega
      rw [if_neg e] at this
      simpa [hs] using this
    · intro h s hs
      rw [gb, hPb k hk s hs]
      have e : ¬ (k < k ∧ bitsDisjoint aln c1 c2 k = true) := by omega
      rw [if_neg e, h s hs]
      simp
  by_cases hE : bitsDisjoint aln c1 c2 k = true
  · rw [if_pos (hempty.2 hE)]
    obtain ⟨g1l, g1w, g1b⟩ := getBitsBlock_bitAt aln c1 k h1 hk
    obtain ⟨g2l, g2w, g2b⟩ := getBitsBlock_bitAt aln c2 k h2 hk
    obtain ⟨ul, ug⟩ := unionBitsEntry_spec aln
      (getBitsBlock aln c1 k (List.replicate (getBitsEntrySize aln) 0))
      (getBitsBlock aln c2 k (List.replicate (getBitsEntrySize aln) 0))
      (getBitsBlock aln st.1 k (List.replicate (getBitsEntrySize aln) 0)) gl
    rw [gl] at ul
    have ugD : ∀ w, (unionBitsEntry aln
        (getBitsBlock aln c1 k (List.replicate (getBitsEntrySize aln) 0))
        (getBitsBlock aln c2 k (List.replicate (getBitsEntrySize aln) 0))
        (getBitsBlock aln st.1 k (List.replicate (getBitsEntrySize aln) 0))).getD w 0 =
        (getBitsBlock aln c1 k (List.replicate (getBitsEntrySize aln) 0)).getD w 0 |||
        (getBitsBlock aln c2 k (List.replicate (getBitsEntrySize aln) 0)).getD w 0 := by
      intro w
      by_cases hw : w < getBitsEntrySize aln
      · exact ug w hw
      · rw [List.getD_eq_getElem?_getD, List.getD_eq_getElem?_getD, List.getD_eq_getElem?_getD,
          List.getElem?_eq_none (by omega), List.getElem?_eq_none (by omega),
          List.getElem?_eq_none (by omega)]
        rfl
    have ub : ∀ j, bitAt (unionBitsEntry aln
        (getBitsBlock aln c1 k (List.replicate (getBitsEntrySize aln) 0))
        (getBitsBlock aln c2 k (List.replicate (getBitsEntrySize aln) 0))
        (getBitsBlock aln st.1 k (List.replicate (getBitsEntrySize aln) 0))) j =
        (decide (j < aln.num_states) &&
          (bitAt c1 (k * aln.num_states + j) || bitAt c2 (k * aln.num_states + j))) := by
      intro j
      rw [bitAt_of_word, ugD, Nat.testBit_or, ← bitAt_of_word, ← bitAt_of_word, g1b, g2b]
      cases decide (j < aln.num_states) <;> simp
    have uOK : EntryOK aln (unionBitsEntry aln
        (getBitsBlock aln c1 k (List.replicate (getBitsEntrySize aln) 0))
        (getBitsBlock aln c2 k (List.replicate (getBitsEntrySize aln) 0))
        (getBitsBlock aln st.1 k (List.replicate (getBitsEntrySize aln) 0))) := by
      refine ⟨fun w => ?_, fun j hj => ?_⟩
      · rw [ugD]; exact Nat.or_lt_two_pow (g1w w) (g2w w)
      · rw [ub]
        have : ¬ j < aln.num_states := by omega
        simp [this]
    obtain ⟨v', hs', hl', hw', _, hb'⟩ := setBitsBlock_step aln st.1 k _ hk (by omega) uOK hPw
    rw [hs']
    refine ⟨(v', st.2 + aln.freq k), rfl, by simp only; omega, hw', ?_, ?_⟩
    · simp only
      rw [sum_range_succ, if_pos hE, hsc]
      omega
    · intro p hp s hs
      simp only
      rw [hb' p hp s hs]
      by_cases hpk : p = k
      · subst hpk
        have e : p < p + 1 ∧ bitsDisjoint aln c1 c2 p = true := ⟨by omega, hE⟩
        rw [if_pos rfl, if_pos e, ub]
        simp [hs]
      · rw [if_neg hpk, hPb p hp s hs]
        by_cases hc : p < k ∧ bitsDisjoint aln c1 c2 p = true
        · have e : p < k + 1 ∧ bitsDisjoint aln c1 c2 p = true := ⟨by omega, hc.2⟩
          rw [if_pos hc, if_pos e]
        · have e : ¬ (p < k + 1 ∧ bitsDisjoint aln c1 c2 p = true) := by
            intro h; exact hc ⟨by omega, h.2⟩
          rw [if_neg hc, if_neg e]
  · have hne : ¬ isEmptyBitsEntry aln
        (getBitsBlock aln st.1 k (List.replicate (getBitsEntrySize aln) 0)) = true :=
      fun h => hE (hempty.1 h)
    rw [if_neg hne]
    refine ⟨st, rfl, hPl, hPw, ?_, ?_⟩
    · rw [sum_range_succ, if_neg hE, hsc]
      omega
    · intro p hp s hs
      rw [hPb p hp s hs]
      by_cases hc : p < k ∧ bitsDisjoint aln c1 c2 p = true
      · have e : p < k + 1 ∧ bitsDisjoint aln c1 c2 p = true := ⟨by omega, hc.2⟩
        rw [if_pos hc, if_pos e]
      · have e : ¬ (p < k + 1 ∧ bitsDisjoint aln c1 c2 p = true) := by
          intro h
          by_cases hpk : p = k
          · subst hpk; exact hE h.2
          · exact hc ⟨by omega, h.2⟩
        rw [if_neg hc, if_neg e]

theorem internalPartialPars_spec (aln : Alignment) (dad c1 c2 : List Nat)
    (hlen : getBitsBlockSize aln ≤ dad.length)
    (h1 : PatWords aln c1) (h2 : PatWords aln c2) :
    ∃ P, internalPartialPars aln dad c1 c2 = some P ∧ P.length = dad.length ∧
      PatWords aln P ∧
      scoreSlot aln P = scoreSlot aln c1 + scoreSlot aln c2 +
        ((List.range aln.size).map fun p =>
          if bitsDisjoint aln c1 c2 p then aln.freq p else 0).sum ∧
      ∀ p, p < aln.size → ∀ s, s < aln.num_states →
        bitAt P (p * aln.num_states + s) =
          if bitsDisjoint aln c1 c2 p = true then
            (bitAt c1 (p * aln.num_states + s) || bitAt c2 (p * aln.num_states + s))
          else (bitAt c1 (p * aln.num_states + s) && bitAt c2 (p * aln.num_states + s)) := by
  unfold internalPartialPars
  simp only
  have hW : getBitsBlockSize aln - 1 = (aln.num_states * aln.size + 31) / 32 := by
    unfold getBitsBlockSize UINT_BITS; omega
  have hlen' : (aln.num_states * aln.size + 31) / 32 < dad.length := by
    unfold getBitsBlockSize UINT_BITS at hlen; omega
  have key := foldlM_range_inv (internalStep aln c1 c2) (InternalInv aln dad c1 c2)
    (andWords dad c1 c2 (getBitsBlockSize aln - 1),
      c1.getD (getBitsBlockSize aln - 1) 0 + c2.getD (getBitsBlockSize aln - 1) 0)
    aln.size ?_ ?_
  · obtain ⟨st, hst, hPl, hPw, hsc, hPb⟩ := key
    rw [hst]
    refine ⟨_, rfl, by simp [hPl], ?_, ?_, ?_⟩
    · intro i hi
      have e : ¬ (getBitsBlockSize aln - 1 = i ∧ getBitsBlockSize aln - 1 < st.1.length) := by
        omega
      rw [getD_set, if_neg e]
      exact hPw i hi
    · unfold scoreSlot at hsc ⊢
      have e : getBitsBlockSize aln - 1 = getBitsBlockSize aln - 1 ∧
          getBitsBlockSize aln - 1 < st.1.length := ⟨rfl, by omega⟩
      rw [getD_set, if_pos e, hsc]
    · intro p hp s hs
      have hT := index_bound aln p hp
      have e : ¬ (getBitsBlockSize aln - 1 = (p * aln.num_states + s) / 32 ∧
          getBitsBlockSize aln - 1 < st.1.length) := by
        rw [hW]; omega
      rw [bitAt_set, if_neg e, hPb p hp s hs]
      by_cases hc : bitsDisjoint aln c1 c2 p = true
      · rw [if_pos ⟨hp, hc⟩, if_pos hc]
      · rw [if_neg (fun h => hc h.2), if_neg hc]
  · refine ⟨length_andWords _ _ _ _, patWords_andWords aln dad c1 c2 hlen h1, ?_, ?_⟩
    · simp [scoreSlot]
    · intro p hp s hs
      have hT := index_bound aln p hp
      have e : ¬ (p < 0 ∧ bitsDisjoint aln c1 c2 p = true) := by omega
      rw [if_neg e]
      exact bitAt_andWords aln dad c1 c2 hlen _ (by omega)
  · intro k st hk hinv
    exact internalStep_spec aln dad c1 c2 hlen h1 h2 k st hk hinv

theorem combineParsimony_spec (aln : Alignment) (node_pars dad_pars : List Nat)
    (h1 : PatWords aln node_pars) :
    combineParsimony aln node_pars dad_pars =
      scoreSlot aln node_pars + scoreSlot aln dad_pars +
        ((List.range aln.size).map fun p =>
          if bitsDisjoint aln node_pars dad_pars p then aln.freq p else 0).sum := by
  unfold combineParsimony
  simp only
  have hl0 : getBitsBlockSize aln ≤ (List.replicate (getBitsBlockSize aln) 0).length := by simp
  have hpw := patWords_andWords aln (List.replicate (getBitsBlockSize aln) 0) node_pars dad_pars
    hl0 h1
  apply foldl_range_inv _ (fun k acc => acc = scoreSlot aln node_pars + scoreSlot aln dad_pars +
    ((List.range k).map fun p =>
      if bitsDisjoint aln node_pars dad_pars p then aln.freq p else 0).sum)
  · simp [scoreSlot]
  · intro k acc hk hacc
    obtain ⟨gl, gw, gb⟩ := getBitsBlock_bitAt aln _ k hpw hk
    have hempty : isEmptyBitsEntry aln
        (getBitsBlock aln (andWords (List.replicate (getBitsBlockSize aln) 0) node_pars dad_pars
          (getBitsBlockSize aln - 1)) k (List.replicate (getBitsEntrySize aln) 0)) = true ↔
        bitsDisjoint aln node_pars dad_pars k = true := by
      rw [isEmptyBitsEntry_iff aln _ gw, bitsDisjoint_iff]
      have hT := index_bound aln k hk
      constructor
      · intro h s hs
        have := h s hs
        rw [gb, bitAt_andWords aln _ _ _ hl0 _ (by omega)] at this
        simpa [hs] using this
      · intro h s hs
        rw [gb, bitAt_andWords aln _ _ _ hl0 _ (by omega), h s hs]
        simp
    rw [sum_range_succ]
    by_cases hE : bitsDisjoint aln node_pars dad_pars k = true
    · rw [if_pos (hempty.2 hE), if_pos hE, hacc]
      omega
    · have hne := fun h => hE (hempty.1 h)
      rw [if_neg hne, if_neg hE, hacc]
      omega

theorem state_eq_pattern (aln : Alignment) (p id : Nat) :
    aln.state p id = (aln.pattern p).states.getD id 0 := by
  unfold Alignment.state Alignment.pattern
  rw [List.get?_eq_getElem?]
  cases h : aln.patterns[p]? with
  | none => simp [List.getD_eq_getElem?_getD, h]
  | some pat => simp [List.getD_eq_getElem?_getD, h]

theorem freq_eq_pattern (aln : Alignment) (p : Nat) :
    aln.freq p = (aln.pattern p).frequency := by
  unfold Alignment.freq Alignment.pattern
  rw [List.get?_eq_getElem?]
  cases h : aln.patterns[p]? with
  | none => simp [List.getD_eq_getElem?_getD, h]
  | some pat => simp [List.getD_eq_getElem?_getD, h]

theorem pattern_mem (aln : Alignment) (p : Nat) (hp : p < aln.size) :
    aln.pattern p ∈ aln.patterns := by
  unfold Alignment.pattern
  unfold Alignment.size at hp
  rw [List.getD_eq_getElem?_getD, List.getElem?_eq_getElem hp]
  simp

theorem leafMask_lt (aln : Alignment) (UNK st : Nat) (h : validState aln UNK st = true) :
    leafMask aln UNK st < 2 ^ aln.num_states := by
  unfold leafMask
  unfold validState at h
  simp only [Bool.or_eq_true, beq_iff_eq, decide_eq_true_eq, Bool.and_eq_true] at h
  have hpos : 0 < 2 ^ aln.num_states := Nat.pow_pos (by omega)
  split
  · omega
  · next h1 =>
    split
    · next h2 => exact Nat.pow_lt_pow_right (by omega) h2
    · next h2 =>
      rcases h with (h | h) | h
      · exact absurd h h1
      · exact absurd h h2
      · exact h.1

theorem and_eq_zero_iff_bits (a b n : Nat) (ha : a < 2 ^ n) :
    a &&& b = 0 ↔ ∀ s, s < n → (a.testBit s && b.testBit s) = false := by
  constructor
  · intro h s _
    rw [← Nat.testBit_and, h, Nat.zero_testBit]
  · intro h
    apply Nat.eq_of_testBit_eq
    intro s
    rw [Nat.testBit_and, Nat.zero_testBit]
    by_cases hs : s < n
    · exact h s hs
    · rw [Nat.testBit_lt_two_pow (Nat.lt_of_lt_of_le ha (Nat.pow_le_pow_right (by omega)
        (by omega)))]
      rfl

theorem fitch_lt (aln : Alignment) (UNK : Nat) (pat : Pattern) (hpat : pat ∈ aln.patterns)
    (t : Branch) (hok : t.leavesOK aln UNK = true) :
    (fitch aln UNK pat t).1 < 2 ^ aln.num_states := by
  induction t with
  | leaf nei id rn =>
    unfold fitch
    simp only
    apply leafMask_lt
    cases rn with
    | true => simp [validState]
    | false =>
      unfold Branch.leavesOK at hok
      simp only [Bool.false_or, Bool.and_eq_true, decide_eq_true_eq, List.all_eq_true] at hok
      simpa using hok.2 pat hpat
  | internal nei c1 c2 ih1 ih2 =>
    unfold Branch.leavesOK at hok
    simp only [Bool.and_eq_true] at hok
    have h1 := ih1 hok.1.2
    have h2 := ih2 hok.2
    unfold fitch
    simp only
    split
    · exact Nat.or_lt_two_pow h1 h2
    · exact Nat.and_lt_two_pow _ h2

theorem sum_range_add (f g : Nat → Nat) (k : Nat) :
    ((List.range k).map fun p => f p + g p).sum =
      ((List.range k).map f).sum + ((List.range k).map g).sum := by
  induction k with
  | zero => rfl
  | succ k ih => rw [sum_range_succ, sum_range_succ, sum_range_succ, ih]; omega

theorem sum_range_zero (k : Nat) : ((List.range k).map fun _ => 0).sum = 0 := by
  induction k with
  | zero => rfl
  | succ k ih => rw [sum_range_succ, ih]

theorem sum_range_patterns (aln : Alignment) (g : Pattern → Nat) :
    ((List.range aln.size).map fun p => g (aln.pattern p)).sum = (aln.patterns.map g).sum := by
  congr 1
  apply List.ext_getElem
  · simp [Alignment.size]
  · intro i h1 h2
    simp only [List.getElem_map, List.getElem_range]
    congr 1
    unfold Alignment.pattern
    have hi : i < aln.patterns.length := by simpa using h2
    rw [List.getD_eq_getElem?_getD, List.getElem?_eq_getElem hi]
    rfl

theorem fitch_leaf (aln : Alignment) (UNK : Nat) (pat : Pattern) (nei : PhyloNeighbor)
    (id : Nat) (rn : Bool) :
    fitch aln UNK pat (.leaf nei id rn) =
      (leafMask aln UNK (if rn then UNK else pat.states.getD id 0), 0) := by
  rw [fitch]

theorem fitch_internal (aln : Alignment) (UNK : Nat) (pat : Pattern) (nei : PhyloNeighbor)
    (c1 c2 : Branch) :
    fitch aln UNK pat (.internal nei c1 c2) =
      if (fitch aln UNK pat c1).1 &&& (fitch aln UNK pat c2).1 = 0 then
        ((fitch aln UNK pat c1).1 ||| (fitch aln UNK pat c2).1,
          (fitch aln UNK pat c1).2 + (fitch aln UNK pat c2).2 + 1)
      else ((fitch aln UNK pat c1).1 &&& (fitch aln UNK pat c2).1,
          (fitch aln UNK pat c1).2 + (fitch aln UNK pat c2).2) := by
  rw [fitch]

theorem bitsDisjoint_cache (aln : Alignment) (UNK : Nat) (c1 c2 : Branch) (P1 P2 : List Nat)
    (h1 : CacheOf aln UNK c1 P1) (h2 : CacheOf aln UNK c2 P2)
    (hok1 : c1.leavesOK aln UNK = true) (p : Nat) (hp : p < aln.size) :
    bitsDisjoint aln P1 P2 p = true ↔
      (fitch aln UNK (aln.pattern p) c1).1 &&& (fitch aln UNK (aln.pattern p) c2).1 = 0 := by
  rw [bitsDisjoint_iff,
    and_eq_zero_iff_bits _ _ aln.num_states (fitch_lt aln UNK _ (pattern_mem aln p hp) c1 hok1)]
  constructor
  · intro h s hs
    rw [← h1.2.2.2 p hp s hs, ← h2.2.2.2 p hp s hs]
    exact h s hs
  · intro h s hs
    rw [h1.2.2.2 p hp s hs, h2.2.2.2 p hp s hs]
    exact h s hs

theorem computePartialParsimony_fresh (aln : Alignment) (UNK : Nat) (t : Branch)
    (hok : t.leavesOK aln UNK = true) (hfresh : t.fresh aln = true) :
    ∃ t', computePartialParsimony aln UNK t = some t' ∧
      CacheOf aln UNK t t'.nei.partial_pars := by
  induction t with
  | leaf nei id rn =>
    unfold Branch.fresh at hfresh
    simp only [Bool.and_eq_true, beq_iff_eq, decide_eq_true_eq] at hfresh
    unfold Branch.leavesOK at hok
    have hid : rn = true ∨ id < aln.nseq := by
      cases rn with
      | true => exact Or.inl rfl
      | false =>
        simp only [Bool.false_or, Bool.and_eq_true, decide_eq_true_eq] at hok
        exact Or.inr hok.1
    have hvalid : ∀ p, p < aln.size →
        validState aln UNK (if rn then UNK else aln.state p id) = true := by
      intro p hp
      cases rn with
      | true => simp [validState]
      | false =>
        simp only [Bool.false_or, Bool.and_eq_true, decide_eq_true_eq, List.all_eq_true] at hok
        have := hok.2 _ (pattern_mem aln p hp)
        rw [state_eq_pattern]
        simpa using this
    obtain ⟨P, hP, hPl, hPw, hP0, hPb⟩ := leafPartialPars_spec aln UNK id rn nei.partial_pars
      hfresh.2 hid hvalid
    refine ⟨.leaf ⟨P, nei.partial_lh_computed ||| 2⟩ id rn, ?_, hPw, by
      simp only [Branch.nei]; omega, ?_, ?_⟩
    · unfold computePartialParsimony
      have : ¬ (nei.partial_lh_computed &&& 2 ≠ 0) := by simp [hfresh.1]
      rw [if_neg this, hP]
      rfl
    · simp only [Branch.nei]
      rw [hP0]
      simp only [fitch_leaf, Nat.mul_zero]
      exact (sum_range_zero _).symm
    · intro p hp s hs
      simp only [Branch.nei]
      rw [hPb p hp s hs, fitch_leaf, state_eq_pattern]
  | internal nei c1 c2 ih1 ih2 =>
    unfold Branch.fresh at hfresh
    simp only [Bool.and_eq_true, beq_iff_eq, decide_eq_true_eq] at hfresh
    unfold Branch.leavesOK at hok
    simp only [Bool.and_eq_true, Bool.not_eq_true'] at hok
    obtain ⟨c1', hc1, hC1⟩ := ih1 hok.1.2 hfresh.1.2
    obtain ⟨c2', hc2, hC2⟩ := ih2 hok.2 hfresh.2
    obtain ⟨P, hP, hPl, hPw, hPs, hPb⟩ := internalPartialPars_spec aln nei.partial_pars
      c1'.nei.partial_pars c2'.nei.partial_pars hfresh.1.1.2 hC1.1 hC2.1
    refine ⟨.internal ⟨P, nei.partial_lh_computed ||| 2⟩ c1' c2', ?_, hPw, by
      simp only [Branch.nei]; omega, ?_, ?_⟩
    · unfold computePartialParsimony
      have : ¬ (nei.partial_lh_computed &&& 2 ≠ 0) := by simp [hfresh.1.1.1]
      rw [if_neg this]
      have hr : ¬ ((c1.isRootName || c2.isRootName) = true) := by
        simp [hok.1.1.1, hok.1.1.2]
      rw [if_neg hr, hc1, hc2]
      simp only [Option.some_bind, hP]
      rfl
    · simp only [Branch.nei]
      rw [hPs, hC1.2.2.1, hC2.2.2.1, ← sum_range_add, ← sum_range_add]
      apply sum_range_congr
      intro p hp
      have hd := bitsDisjoint_cache aln UNK c1 c2 _ _ hC1 hC2 hok.1.2 p hp
      rw [fitch_internal]
      by_cases hz : (fitch aln UNK (aln.pattern p) c1).1 &&&
          (fitch aln UNK (aln.pattern p) c2).1 = 0
      · rw [if_pos (hd.2 hz), if_pos hz]
        simp only [Nat.mul_add, Nat.mul_one]
      · rw [if_neg (fun h => hz (hd.1 h)), if_neg hz]
        simp only [Nat.mul_add, Nat.add_zero]
    · intro p hp s hs
      simp only [Branch.nei]
      rw [hPb p hp s hs]
      have hd := bitsDisjoint_cache aln UNK c1 c2 _ _ hC1 hC2 hok.1.2 p hp
      rw [fitch_internal]
      by_cases hz : (fitch aln UNK (aln.pattern p) c1).1 &&&
          (fitch aln UNK (aln.pattern p) c2).1 = 0
      · rw [if_pos (hd.2 hz), if_pos hz, hC1.2.2.2 p hp s hs, hC2.2.2.2 p hp s hs,
          Nat.testBit_or]
      · rw [if_neg (fun h => hz (hd.1 h)), if_neg hz, hC1.2.2.2 p hp s hs,
          hC2.2.2.2 p hp s hs, Nat.testBit_and]

theorem disjointFreq_eq (aln : Alignment) (c1 c2 : List Nat)
    (h1 : PatWords aln c1) (h2 : PatWords aln c2) :
    disjointFreq aln c1 c2 =
      ((List.range aln.size).map fun p =>
        if bitsDisjoint aln c1 c2 p then aln.freq p else 0).sum := by
  unfold disjointFreq
  apply sum_range_congr
  intro p hp
  rw [disjointAt_eq aln c1 c2 p h1 h2 hp]

theorem bitsDisjoint_comm (aln : Alignment) (c1 c2 : List Nat) (p : Nat) :
    bitsDisjoint aln c1 c2 p = bitsDisjoint aln c2 c1 p := by
  unfold bitsDisjoint
  congr 1
  funext s
  rw [Bool.and_comm]

/-- C3: `computeParsimonyBranch` on an edge returns the sum of the two cumulative scores
in the last word of the `partial_pars` of its two half-edges (as they are once
`computePartialParsimony` has run on both) plus the sum of the frequencies of exactly
the patterns at which the state sets of the two half-edges have no state in common. -/
theorem computeParsimonyBranch_eq_scores_plus_disjoint (aln : Alignment) (STATE_UNKNOWN : Nat)
    (dad_branch node_branch d n : Branch)
    (hd : computePartialParsimony aln STATE_UNKNOWN dad_branch = some d)
    (hn : computePartialParsimony aln STATE_UNKNOWN node_branch = some n)
    (hdw : ∀ w ∈ d.nei.partial_pars, w < 2 ^ UINT_BITS)
    (hnw : ∀ w ∈ n.nei.partial_pars, w < 2 ^ UINT_BITS) :
    (computeParsimonyBranch aln STATE_UNKNOWN dad_branch node_branch).map (·.1) =
      some (scoreSlot aln n.nei.partial_pars + scoreSlot aln d.nei.partial_pars +
        disjointFreq aln n.nei.partial_pars d.nei.partial_pars) := by
  have hdp := patWords_of aln _ hdw
  have hnp := patWords_of aln _ hnw
  unfold computeParsimonyBranch
  split
  · rw [hn, hd]
    simp only [Option.some_bind, Option.map_some']
    rw [combineParsimony_spec aln _ _ hdp, disjointFreq_eq aln _ _ hnp hdp]
    simp only [bitsDisjoint_comm aln d.nei.partial_pars n.nei.partial_pars]
    congr 1
    omega
  · rw [hn, hd]
    simp only [Option.some_bind, Option.map_some']
    rw [combineParsimony_spec aln _ _ hnp, disjointFreq_eq aln _ _ hnp hdp]

theorem or_two_and_two (x : Nat) : (x ||| 2) &&& 2 = 2 := by
  apply Nat.eq_of_testBit_eq
  intro i
  rw [Nat.testBit_and, Nat.testBit_or]
  cases (Nat.testBit 2 i) <;> simp

/-- C4: for an internal half-edge whose cache is not yet computed,
`computePartialParsimony` computes the two child half-edges and stores at every pattern
the intersection of the two child state sets when they have a state in common and their
union otherwise; it stores as cumulative score the sum of the two child scores plus the
frequencies of exactly the patterns at which the child sets had no state in common; and
it sets bit 1 of the flags. -/
theorem computePartialParsimony_internal (aln : Alignment) (STATE_UNKNOWN : Nat)
    (nei : PhyloNeighbor) (child1 child2 c1 c2 : Branch)
    (hflag : nei.partial_lh_computed &&& 2 = 0)
    (hlen : getBitsBlockSize aln ≤ nei.partial_pars.length)
    (hr1 : child1.isRootName = false) (hr2 : child2.isRootName = false)
    (h1 : computePartialParsimony aln STATE_UNKNOWN child1 = some c1)
    (h2 : computePartialParsimony aln STATE_UNKNOWN child2 = some c2)
    (hw1 : ∀ w ∈ c1.nei.partial_pars, w < 2 ^ UINT_BITS)
    (hw2 : ∀ w ∈ c2.nei.partial_pars, w < 2 ^ UINT_BITS) :
    ∃ pars, computePartialParsimony aln STATE_UNKNOWN (.internal nei child1 child2) =
        some (.internal ⟨pars, nei.partial_lh_computed ||| 2⟩ c1 c2) ∧
      (∀ p, p < aln.size → ∀ s, s < aln.num_states →
        member aln pars p s =
          if disjointAt aln c1.nei.partial_pars c2.nei.partial_pars p then
            (member aln c1.nei.partial_pars p s || member aln c2.nei.partial_pars p s)
          else (member aln c1.nei.partial_pars p s && member aln c2.nei.partial_pars p s)) ∧
      scoreSlot aln pars = scoreSlot aln c1.nei.partial_pars + scoreSlot aln c2.nei.partial_pars +
        disjointFreq aln c1.nei.partial_pars c2.nei.partial_pars ∧
      (nei.partial_lh_computed ||| 2) &&& 2 = 2 := by
  have hp1 := patWords_of aln _ hw1
  have hp2 := patWords_of aln _ hw2
  obtain ⟨P, hP, _, hPw, hPs, hPb⟩ := internalPartialPars_spec aln nei.partial_pars
    c1.nei.partial_pars c2.nei.partial_pars hlen hp1 hp2
  refine ⟨P, ?_, ?_, ?_, or_two_and_two _⟩
  · unfold computePartialParsimony
    have : ¬ (nei.partial_lh_computed &&& 2 ≠ 0) := by simp [hflag]
    rw [if_neg this]
    have hr : ¬ ((child1.isRootName || child2.isRootName) = true) := by simp [hr1, hr2]
    rw [if_neg hr, h1, h2]
    simp only [Option.some_bind, hP]
    rfl
  · intro p hp s hs
    rw [member_eq_bitAt aln P p s hPw hp hs, member_eq_bitAt aln _ p s hp1 hp hs,
      member_eq_bitAt aln _ p s hp2 hp hs, disjointAt_eq aln _ _ p hp1 hp2 hp]
    exact hPb p hp s hs
  · rw [hPs, disjointFreq_eq aln _ _ hp1 hp2]

/-- C5: for a leaf half-edge whose cache is not yet computed, `computePartialParsimony`
stores the score 0 and, at every pattern, the set of all states when the state of the
leaf is `STATE_UNKNOWN`, the set of exactly that state when it is below `num_states`,
and for an ambiguity code `num_states + k` the set whose bit mask is `k + 1` (the source
takes `state - (nstates - 1)` as the mask: index 0 is the set of state 0 alone). -/
theorem computePartialParsimony_leaf (aln : Alignment) (STATE_UNKNOWN : Nat)
    (nei : PhyloNeighbor) (id : Nat)
    (hflag : nei.partial_lh_computed &&& 2 = 0)
    (hlen : getBitsBlockSize aln ≤ nei.partial_pars.length)
    (hid : id < aln.nseq)
    (hvalid : ∀ p, p < aln.size → validState aln STATE_UNKNOWN (aln.state p id) = true) :
    ∃ pars, computePartialParsimony aln STATE_UNKNOWN (.leaf nei id false) =
        some (.leaf ⟨pars, nei.partial_lh_computed ||| 2⟩ id false) ∧
      scoreSlot aln pars = 0 ∧
      ∀ p, p < aln.size → ∀ s, s < aln.num_states →
        (aln.state p id = STATE_UNKNOWN → member aln pars p s = true) ∧
        (aln.state p id ≠ STATE_UNKNOWN → aln.state p id < aln.num_states →
          member aln pars p s = decide (s = aln.state p id)) ∧
        (∀ k, aln.state p id ≠ STATE_UNKNOWN → aln.state p id = aln.num_states + k →
          member aln pars p s = (k + 1).testBit s) := by
  obtain ⟨P, hP, _, hPw, hP0, hPb⟩ := leafPartialPars_spec aln STATE_UNKNOWN id false
    nei.partial_pars hlen (Or.inr hid) (by simpa using hvalid)
  refine ⟨P, ?_, hP0, ?_⟩
  · unfold computePartialParsimony
    have : ¬ (nei.partial_lh_computed &&& 2 ≠ 0) := by simp [hflag]
    rw [if_neg this, hP]
    rfl
  · intro p hp s hs
    have hb := hPb p hp s hs
    simp only [Bool.false_eq_true, if_false] at hb
    rw [member_eq_bitAt aln P p s hPw hp hs, hb]
    unfold leafMask
    refine ⟨fun h => ?_, fun h1 h2 => ?_, fun k h1 h2 => ?_⟩
    · rw [if_pos h, Nat.testBit_two_pow_sub_one]
      simp [hs]
    · rw [if_neg h1, if_pos h2, Nat.testBit_two_pow]
      congr 1
      apply propext
      constructor <;> intro h <;> omega
    · have h3 : ¬ aln.state p id < aln.num_states := by omega
      rw [if_neg h1, if_neg h3]
      congr 1
      omega

theorem fitch_perm (aln : Alignment) (UNK : Nat) (pat : Pattern) (a a' : Branch)
    (h : Branch.Perm a a') : fitch aln UNK pat a = fitch aln UNK pat a' := by
  induction h with
  | leaf n n' id rn => rw [fitch_leaf, fitch_leaf]
  | same n n' _ _ iha ihb => rw [fitch_internal, fitch_internal, iha, ihb]
  | swap n n' _ _ iha ihb =>
    rw [fitch_internal, fitch_internal, iha, ihb]
    rw [Nat.land_comm (fitch aln UNK pat _).1, Nat.lor_comm (fitch aln UNK pat _).1]
    split <;> simp only [Prod.mk.injEq, true_and] <;> omega

theorem or_eq_zero (x y : Nat) : x ||| y = 0 ↔ x = 0 ∧ y = 0 := by
  constructor
  · intro h
    have hb : ∀ i, (x.testBit i || y.testBit i) = false := by
      intro i
      rw [← Nat.testBit_or, h, Nat.zero_testBit]
    constructor
    · apply Nat.eq_of_testBit_eq
      intro i
      have := hb i
      rw [Nat.zero_testBit]
      cases hx : x.testBit i
      · rfl
      · rw [hx] at this; simp at this
    · apply Nat.eq_of_testBit_eq
      intro i
      have := hb i
      rw [Nat.zero_testBit]
      cases hy : y.testBit i
      · rfl
      · rw [hy] at this; simp at this
  · rintro ⟨rfl, rfl⟩
    rfl

theorem and_or_eq_zero (x y z : Nat) : x &&& (y ||| z) = 0 ↔ x &&& y = 0 ∧ x &&& z = 0 := by
  rw [Nat.and_or_distrib_left, or_eq_zero]

theorem or_and_eq_zero (x y z : Nat) : (x ||| y) &&& z = 0 ↔ x &&& z = 0 ∧ y &&& z = 0 := by
  rw [Nat.land_comm, and_or_eq_zero, Nat.land_comm z x, Nat.land_comm z y]

/-- The Fitch cost of three sets that meet at a node does not depend on the one that
is taken last. -/
theorem fitch_three (x y z : Nat) :
    (if x &&& y = 0 then 1 else 0) +
      (if (if x &&& y = 0 then x ||| y else x &&& y) &&& z = 0 then 1 else 0) =
    (if y &&& z = 0 then 1 else 0) +
      (if x &&& (if y &&& z = 0 then y ||| z else y &&& z) = 0 then 1 else 0) := by
  by_cases hxy : x &&& y = 0 <;> by_cases hyz : y &&& z = 0
  · simp only [hxy, hyz, if_true, or_and_eq_zero, and_or_eq_zero, and_true, true_and]
  · have h1 : x &&& (y &&& z) = 0 := by rw [← Nat.land_assoc, hxy, Nat.zero_and]
    simp only [hxy, hyz, if_true, if_false, or_and_eq_zero, and_false, h1]
  · have h1 : x &&& y &&& z = 0 := by rw [Nat.land_assoc, hyz, Nat.and_zero]
    simp only [hxy, hyz, if_true, if_false, and_or_eq_zero, false_and, h1]
  · simp only [hxy, hyz, if_false, Nat.land_assoc]

theorem edgeCost_flip (aln : Alignment) (UNK : Nat) (pat : Pattern) (a b : Branch) :
    edgeCost aln UNK pat a b = edgeCost aln UNK pat b a := by
  unfold edgeCost
  rw [Nat.land_comm (fitch aln UNK pat a).1]
  omega

theorem edgeCost_move (aln : Alignment) (UNK : Nat) (pat : Pattern) (n n' : PhyloNeighbor)
    (a1 a2 b : Branch) :
    edgeCost aln UNK pat (.internal n a1 a2) b = edgeCost aln UNK pat a1 (.internal n' a2 b) := by
  unfold edgeCost
  rw [fitch_internal, fitch_internal]
  have key := fitch_three (fitch aln UNK pat a1).1 (fitch aln UNK pat a2).1
    (fitch aln UNK pat b).1
  by_cases hxy : (fitch aln UNK pat a1).1 &&& (fitch aln UNK pat a2).1 = 0 <;>
    by_cases hyz : (fitch aln UNK pat a2).1 &&& (fitch aln UNK pat b).1 = 0 <;>
    simp only [hxy, hyz, if_true, if_false] at key ⊢ <;> omega

theorem edgeCost_sameTree (aln : Alignment) (UNK : Nat) (pat : Pattern) (a b a' b' : Branch)
    (h : SameTree a b a' b') : edgeCost aln UNK pat a b = edgeCost aln UNK pat a' b' := by
  induction h with
  | perm ha hb =>
    unfold edgeCost
    rw [fitch_perm aln UNK pat _ _ ha, fitch_perm aln UNK pat _ _ hb]
  | flip a b => exact edgeCost_flip aln UNK pat a b
  | move n n' a1 a2 b => exact edgeCost_move aln UNK pat n n' a1 a2 b
  | trans _ _ ih1 ih2 => rw [ih1, ih2]

theorem fitchScore_sameTree (aln : Alignment) (UNK : Nat) (a b a' b' : Branch)
    (h : SameTree a b a' b') : fitchScore aln UNK a b = fitchScore aln UNK a' b' := by
  unfold fitchScore
  congr 1
  apply List.map_congr_left
  intro pat _
  rw [edgeCost_sameTree aln UNK pat a b a' b' h]

/-- The score that `computeParsimonyBranch` returns on caches computed from scratch is
the Fitch length of the alignment on the tree. -/
theorem computeParsimonyBranch_fresh (aln : Alignment) (UNK : Nat) (a b : Branch)
    (hoka : a.leavesOK aln UNK = true) (hokb : b.leavesOK aln UNK = true)
    (hfa : a.fresh aln = true) (hfb : b.fresh aln = true) :
    (computeParsimonyBranch aln UNK a b).map (·.1) = some (fitchScore aln UNK a b) := by
  obtain ⟨a', ha, hA⟩ := computePartialParsimony_fresh aln UNK a hoka hfa
  obtain ⟨b', hb, hB⟩ := computePartialParsimony_fresh aln UNK b hokb hfb
  have key : combineParsimony aln b'.nei.partial_pars a'.nei.partial_pars =
      fitchScore aln UNK a b := by
    rw [combineParsimony_spec aln _ _ hB.1, hB.2.2.1, hA.2.2.1, ← sum_range_add,
      ← sum_range_add]
    unfold fitchScore
    rw [← sum_range_patterns]
    apply sum_range_congr
    intro p hp
    have hd := bitsDisjoint_cache aln UNK b a _ _ hB hA hokb p hp
    unfold edgeCost
    rw [freq_eq_pattern, Nat.land_comm (fitch aln UNK (aln.pattern p) a).1]
    by_cases hz : (fitch aln UNK (aln.pattern p) b).1 &&&
        (fitch aln UNK (aln.pattern p) a).1 = 0
    · rw [if_pos (hd.2 hz), if_pos hz]
      simp only [Nat.mul_add, Nat.mul_one]
      omega
    · rw [if_neg (fun h => hz (hd.1 h)), if_neg hz]
      simp only [Nat.mul_add, Nat.add_zero, Nat.mul_zero]
      omega
  have key2 : combineParsimony aln a'.nei.partial_pars b'.nei.partial_pars =
      fitchScore aln UNK a b := by
    rw [← key, combineParsimony_spec aln _ _ hA.1, combineParsimony_spec aln _ _ hB.1]
    simp only [bitsDisjoint_comm aln a'.nei.partial_pars b'.nei.partial_pars]
    omega
  unfold computeParsimonyBranch
  split
  · rw [hb, ha]
    simp only [Option.some_bind, Option.map_some']
    rw [key2]
  · rw [ha, hb]
    simp only [Option.some_bind, Option.map_some']
    rw [key]

/-- C2: on every binary unrooted tree and alignment, with the caches computed from
scratch, `computeParsimonyBranch` returns the same value whichever edge of the tree is
the entry edge and whatever the order of the neighbors of the nodes is. -/
theorem computeParsimonyBranch_entry_edge_invariant (aln : Alignment) (STATE_UNKNOWN : Nat)
    (a b a' b' : Branch) (hsame : SameTree a b a' b')
    (hoka : a.leavesOK aln STATE_UNKNOWN = true) (hokb : b.leavesOK aln STATE_UNKNOWN = true)
    (hoka' : a'.leavesOK aln STATE_UNKNOWN = true)
    (hokb' : b'.leavesOK aln STATE_UNKNOWN = true)
    (hfa : a.fresh aln = true) (hfb : b.fresh aln = true)
    (hfa' : a'.fresh aln = true) (hfb' : b'.fresh aln = true) :
    ∃ score, (computeParsimonyBranch aln STATE_UNKNOWN a b).map (·.1) = some score ∧
      (computeParsimonyBranch aln STATE_UNKNOWN a' b').map (·.1) = some score := by
  refine ⟨fitchScore aln STATE_UNKNOWN a b,
    computeParsimonyBranch_fresh aln STATE_UNKNOWN a b hoka hokb hfa hfb, ?_⟩
  rw [fitchScore_sameTree aln STATE_UNKNOWN a b a' b' hsame]
  exact computeParsimonyBranch_fresh aln STATE_UNKNOWN a' b' hoka' hokb' hfa' hfb'

theorem leafMask_congr (aln aln' : Alignment) (UNK st : Nat)
    (h : aln'.num_states = aln.num_states) : leafMask aln' UNK st = leafMask aln UNK st := by
  unfold leafMask
  rw [h]

theorem fitch_congr (aln aln' : Alignment) (UNK : Nat) (pat : Pattern)
    (h : aln'.num_states = aln.num_states) (t : Branch) :
    fitch aln' UNK pat t = fitch aln UNK pat t := by
  induction t with
  | leaf nei id rn => rw [fitch_leaf, fitch_leaf, leafMask_congr aln aln' UNK _ h]
  | internal nei c1 c2 ih1 ih2 => rw [fitch_internal, fitch_internal, ih1, ih2]

theorem edgeCost_congr (aln aln' : Alignment) (UNK : Nat) (pat : Pattern)
    (h : aln'.num_states = aln.num_states) (a b : Branch) :
    edgeCost aln' UNK pat a b = edgeCost aln UNK pat a b := by
  unfold edgeCost
  rw [fitch_congr aln aln' UNK pat h a, fitch_congr aln aln' UNK pat h b]

theorem and_self_ne_zero (m : Nat) (h : m ≠ 0) : ¬ (m &&& m = 0) := by
  rw [Nat.and_self]; exact h

/-- All the leaves behind a half-edge show one state: the Fitch set is the set of that
state and no union is taken. -/
theorem fitch_const (aln : Alignment) (UNK : Nat) (pat : Pattern) (st : Nat) (t : Branch)
    (hm : leafMask aln UNK st ≠ 0)
    (h : ∀ x ∈ t.leafStatesOf UNK pat, x = st) :
    fitch aln UNK pat t = (leafMask aln UNK st, 0) := by
  induction t with
  | leaf nei id rn =>
    rw [fitch_leaf]
    have := h (if rn then UNK else pat.states.getD id 0)
      (by rw [Branch.leafStatesOf]; exact List.mem_singleton.2 rfl)
    rw [this]
  | internal nei c1 c2 ih1 ih2 =>
    have h1 := ih1 (fun x hx => h x (by simp [Branch.leafStatesOf, hx]))
    have h2 := ih2 (fun x hx => h x (by simp [Branch.leafStatesOf, hx]))
    rw [fitch_internal, h1, h2]
    simp only
    rw [if_neg (and_self_ne_zero _ hm), Nat.and_self]

theorem edgeCost_const (aln : Alignment) (UNK : Nat) (pat : Pattern) (st : Nat) (a b : Branch)
    (hm : leafMask aln UNK st ≠ 0)
    (ha : ∀ x ∈ a.leafStatesOf UNK pat, x = st) (hb : ∀ x ∈ b.leafStatesOf UNK pat, x = st) :
    edgeCost aln UNK pat a b = 0 := by
  unfold edgeCost
  rw [fitch_const aln UNK pat st a hm ha, fitch_const aln UNK pat st b hm hb]
  simp only
  rw [if_neg (and_self_ne_zero _ hm)]

theorem leafMask_unknown_ne_zero (aln : Alignment) (UNK : Nat) (hn : 0 < aln.num_states) :
    leafMask aln UNK UNK ≠ 0 := by
  unfold leafMask
  rw [if_pos rfl]
  have : 2 ^ 1 ≤ 2 ^ aln.num_states := Nat.pow_le_pow_right (by omega) hn
  omega

theorem leavesOK_insert (aln : Alignment) (UNK : Nat) (k : Nat) (pat : Pattern) (t : Branch)
    (hok : t.leavesOK aln UNK = true) (hunk : ∀ x ∈ t.leafStatesOf UNK pat, x = UNK) :
    t.leavesOK (aln.insertPattern k pat) UNK = true := by
  induction t with
  | leaf nei id rn =>
    unfold Branch.leavesOK at hok ⊢
    cases rn with
    | true => rfl
    | false =>
      simp only [Bool.false_or, Bool.and_eq_true, decide_eq_true_eq, List.all_eq_true] at hok ⊢
      refine ⟨hok.1, ?_⟩
      intro x hx
      simp only [Alignment.insertPattern, List.mem_append, List.mem_cons] at hx
      have hv : ∀ st, validState (aln.insertPattern k pat) UNK st = validState aln UNK st :=
        fun st => rfl
      rw [hv]
      rcases hx with hx | hx | hx
      · exact hok.2 x (List.mem_of_mem_take hx)
      · subst hx
        have := hunk (x.states.getD id 0)
          (by rw [Branch.leafStatesOf]; exact List.mem_singleton.2 rfl)
        rw [this]
        simp [validState]
      · exact hok.2 x (List.mem_of_mem_drop hx)
  | internal nei c1 c2 ih1 ih2 =>
    unfold Branch.leavesOK at hok ⊢
    simp only [Bool.and_eq_true] at hok ⊢
    exact ⟨⟨hok.1.1, ih1 hok.1.2 (fun x hx => hunk x (by simp [Branch.leafStatesOf, hx]))⟩,
      ih2 hok.2 (fun x hx => hunk x (by simp [Branch.leafStatesOf, hx]))⟩

theorem getBitsBlockSize_insert (aln : Alignment) (k : Nat) (pat : Pattern) :
    getBitsBlockSize aln ≤ getBitsBlockSize (aln.insertPattern k pat) := by
  unfold getBitsBlockSize Alignment.size Alignment.insertPattern UINT_BITS
  simp only [List.length_append, List.length_cons, List.length_take, List.length_drop]
  have : aln.num_states * aln.patterns.length ≤
      aln.num_states * (min k aln.patterns.length + (aln.patterns.length - k + 1)) :=
    Nat.mul_le_mul_left _ (by omega)
  omega

theorem fresh_of_insert (aln : Alignment) (k : Nat) (pat : Pattern) (t : Branch)
    (h : t.fresh (aln.insertPattern k pat) = true) : t.fresh aln = true := by
  have hs := getBitsBlockSize_insert aln k pat
  induction t with
  | leaf nei id rn =>
    unfold Branch.fresh at h ⊢
    simp only [Bool.and_eq_true, beq_iff_eq, decide_eq_true_eq] at h ⊢
    exact ⟨h.1, by omega⟩
  | internal nei c1 c2 ih1 ih2 =>
    unfold Branch.fresh at h ⊢
    simp only [Bool.and_eq_true, beq_iff_eq, decide_eq_true_eq] at h ⊢
    exact ⟨⟨⟨h.1.1.1, by omega⟩, ih1 h.1.2⟩, ih2 h.2⟩

/-- C6: a pattern whose state is `STATE_UNKNOWN` at every leaf adds nothing to the
parsimony score: on every binary tree, `computeParsimonyBranch` returns for an alignment
the value it returns for the same alignment with such a pattern, of any frequency, put
at any place among its patterns. -/
theorem unknown_pattern_contributes_zero (aln : Alignment) (STATE_UNKNOWN : Nat)
    (a b : Branch) (pat : Pattern) (k : Nat) (hn : 0 < aln.num_states)
    (hua : ∀ x ∈ a.leafStatesOf STATE_UNKNOWN pat, x = STATE_UNKNOWN)
    (hub : ∀ x ∈ b.leafStatesOf STATE_UNKNOWN pat, x = STATE_UNKNOWN)
    (hoka : a.leavesOK aln STATE_UNKNOWN = true) (hokb : b.leavesOK aln STATE_UNKNOWN = true)
    (hfa : a.fresh (aln.insertPattern k pat) = true)
    (hfb : b.fresh (aln.insertPattern k pat) = true) :
    ∃ score, (computeParsimonyBranch aln STATE_UNKNOWN a b).map (·.1) = some score ∧
      (computeParsimonyBranch (aln.insertPattern k pat) STATE_UNKNOWN a b).map (·.1) =
        some score := by
  refine ⟨fitchScore aln STATE_UNKNOWN a b,
    computeParsimonyBranch_fresh aln STATE_UNKNOWN a b hoka hokb
      (fresh_of_insert aln k pat a hfa) (fresh_of_insert aln k pat b hfb), ?_⟩
  rw [computeParsimonyBranch_fresh (aln.insertPattern k pat) STATE_UNKNOWN a b
    (leavesOK_insert aln STATE_UNKNOWN k pat a hoka hua)
    (leavesOK_insert aln STATE_UNKNOWN k pat b hokb hub) hfa hfb]
  congr 1
  have hns : (aln.insertPattern k pat).num_states = aln.num_states := rfl
  unfold fitchScore
  simp only [edgeCost_congr aln (aln.insertPattern k pat) STATE_UNKNOWN _ hns]
  have h0 := edgeCost_const aln STATE_UNKNOWN pat STATE_UNKNOWN a b
    (leafMask_unknown_ne_zero aln STATE_UNKNOWN hn) hua hub
  simp only [Alignment.insertPattern, List.map_append, List.map_cons, List.sum_append,
    List.sum_cons, h0, Nat.mul_zero, Nat.zero_add]
  rw [← List.sum_append, ← List.map_append, List.take_append_drop]

theorem leafStates_eq_leafMask (aln : Alignment) (UNK st : Nat)
    (hn : aln.num_states < 32) (hv : validState aln UNK st = true)
    (hamb : aln.num_states = 4 ∨ st = UNK ∨ st < aln.num_states) :
    leafStates aln UNK st = leafMask aln UNK st := by
  unfold leafStates leafMask
  by_cases h1 : st = UNK
  · rw [if_pos h1, if_pos h1, intMask_eq]
    congr 2
    omega
  · rw [if_neg h1, if_neg h1]
    by_cases h2 : st < aln.num_states
    · rw [if_pos h2, if_pos h2, shl_one, if_pos (by omega)]
    · rw [if_neg h2, if_neg h2]
      have h4 : aln.num_states = 4 := by
        rcases hamb with h | h | h
        · exact h
        · exact absurd h h1
        · exact absurd h h2
      unfold validState UINT_BITS at hv
      simp only [Bool.or_eq_true, beq_iff_eq, decide_eq_true_eq, Bool.and_eq_true] at hv
      have hv' : st + 1 - aln.num_states < 2 ^ 32 := by
        rcases hv with (h | h) | h
        · exact absurd h h1
        · exact absurd h h2
        · exact h.2
      unfold UINT_BITS
      rw [h4] at hv' h2 ⊢
      omega

theorem leafMask_ne_zero (aln : Alignment) (UNK st : Nat) (hn : 0 < aln.num_states) :
    leafMask aln UNK st ≠ 0 := by
  unfold leafMask
  split
  · have : 2 ^ 1 ≤ 2 ^ aln.num_states := Nat.pow_le_pow_right (by omega) hn
    omega
  · split
    · exact Nat.pos_iff_ne_zero.1 (Nat.pow_pos (by omega))
    · omega

theorem intMask_and (n s : Nat) (hn : n < 32) (hs : s < 2 ^ n) : intMask n &&& s = s := by
  rw [intMask_eq, Nat.land_comm]
  have : min n 32 = n := by omega
  rw [this]
  exact Nat.and_pow_two_sub_one_of_lt_two_pow hs

/-- The recursion of the reference routine computes the Fitch set and the number of
unions of the subtree. -/
theorem computeParsimonyScoreNode_eq (aln : Alignment) (UNK : Nat) (p : Nat)
    (hp : p < aln.size) (hn : aln.num_states < 32) (t : Branch)
    (hok : t.leavesOK aln UNK = true)
    (hamb : aln.num_states = 4 ∨ t.noAmbiguity aln UNK) :
    computeParsimonyScoreNode aln UNK p t =
      some ((fitch aln UNK (aln.pattern p) t).2, (fitch aln UNK (aln.pattern p) t).1) := by
  induction t with
  | leaf nei id rn =>
    unfold computeParsimonyScoreNode
    unfold Branch.leavesOK at hok
    have hid : rn = true ∨ id < aln.nseq := by
      cases rn with
      | true => exact Or.inl rfl
      | false =>
        simp only [Bool.false_or, Bool.and_eq_true, decide_eq_true_eq] at hok
        exact Or.inr hok.1
    have hv : validState aln UNK (if rn = true then UNK else (aln.pattern p).states.getD id 0)
        = true := by
      cases rn with
      | true =>
        unfold validState
        rw [if_pos rfl, beq_self_eq_true]
        rfl
      | false =>
        simp only [Bool.false_or, Bool.and_eq_true, decide_eq_true_eq, List.all_eq_true] at hok
        rw [if_neg (by decide)]
        exact hok.2 _ (pattern_mem aln p hp)
    have ha : aln.num_states = 4 ∨
        (if rn = true then UNK else (aln.pattern p).states.getD id 0) = UNK ∨
        (if rn = true then UNK else (aln.pattern p).states.getD id 0) < aln.num_states := by
      rcases hamb with h | h
      · exact Or.inl h
      · exact Or.inr (h _ (pattern_mem aln p hp) _
          (by rw [Branch.leafStatesOf]; exact List.mem_singleton.2 rfl))
    rw [leafState_some aln UNK id rn p hid, fitch_leaf, state_eq_pattern, Option.map_some',
      leafStates_eq_leafMask aln UNK _ hn hv ha]
  | internal nei c1 c2 ih1 ih2 =>
    unfold Branch.leavesOK at hok
    simp only [Bool.and_eq_true] at hok
    have ha1 : aln.num_states = 4 ∨ c1.noAmbiguity aln UNK := by
      rcases hamb with h | h
      · exact Or.inl h
      · exact Or.inr (fun pat hpat x hx => h pat hpat x (by simp [Branch.leafStatesOf, hx]))
    have ha2 : aln.num_states = 4 ∨ c2.noAmbiguity aln UNK := by
      rcases hamb with h | h
      · exact Or.inl h
      · exact Or.inr (fun pat hpat x hx => h pat hpat x (by simp [Branch.leafStatesOf, hx]))
    unfold computeParsimonyScoreNode
    rw [ih1 hok.1.2 ha1, ih2 hok.2 ha2, fitch_internal]
    rw [Option.some_bind, Option.some_bind]
    dsimp only
    rw [Nat.zero_or, Nat.zero_add]
    rw [intMask_and _ _ hn (fitch_lt aln UNK _ (pattern_mem aln p hp) c1 hok.1.2)]
    by_cases hz : (fitch aln UNK (aln.pattern p) c1).1 &&&
        (fitch aln UNK (aln.pattern p) c2).1 = 0
    · rw [if_neg (by simpa using hz), if_pos hz]
    · rw [if_pos hz, if_neg hz]

/-- The reference routine at the root leaf computes the Fitch length of the pattern. -/
theorem computeParsimonyScorePtn_eq (aln : Alignment) (UNK : Nat) (p : Nat)
    (hp : p < aln.size) (hn0 : 0 < aln.num_states) (hn : aln.num_states < 32)
    (root body : Branch) (hroot : root.isLeaf = true)
    (hokr : root.leavesOK aln UNK = true) (hokb : body.leavesOK aln UNK = true)
    (hambr : aln.num_states = 4 ∨ root.noAmbiguity aln UNK)
    (hambb : aln.num_states = 4 ∨ body.noAmbiguity aln UNK) :
    (computeParsimonyScorePtn aln UNK p root body).map (·.1) =
      some (edgeCost aln UNK (aln.pattern p) body root) := by
  cases root with
  | internal nei c1 c2 => simp [Branch.isLeaf] at hroot
  | leaf nei id rn =>
    have hr := computeParsimonyScoreNode_eq aln UNK p hp hn _ hokr hambr
    unfold computeParsimonyScoreNode at hr
    unfold computeParsimonyScorePtn
    cases hls : leafState aln UNK id rn p with
    | none => rw [hls] at hr; simp at hr
    | some st =>
      rw [hls] at hr
      simp only [Option.map_some', Option.some.injEq, Prod.mk.injEq] at hr
      dsimp only
      rw [hls, Option.some_bind]
      rw [computeParsimonyScoreNode_eq aln UNK p hp hn body hokb hambb, Option.some_bind]
      dsimp only
      rw [Nat.zero_add]
      have hne : leafStates aln UNK st ≠ 0 := by
        rw [hr.2, fitch_leaf]
        exact leafMask_ne_zero aln UNK _ hn0
      rw [if_pos hne, if_pos hne]
      unfold edgeCost
      rw [← hr.1, ← hr.2, Nat.add_zero,
        Nat.land_comm (fitch aln UNK (aln.pattern p) body).1 (leafStates aln UNK st)]
      by_cases hz : leafStates aln UNK st &&& (fitch aln UNK (aln.pattern p) body).1 = 0
      · have hnn : ¬ (leafStates aln UNK st &&& (fitch aln UNK (aln.pattern p) body).1 ≠ 0) :=
          fun h => h hz
        rw [if_neg hnn, if_pos hz]
        rfl
      · rw [if_pos hz, if_neg hz]
        rfl

/-- C1: on every strictly binary unrooted tree with a leaf as root, and every alignment
of the alignment contract (constant patterns show one state at all leaves, ambiguity
codes occur for 4 states only, fewer than 32 states so that a set fits the `int` of the
reference routine), the score that `computeParsimonyBranch` computes from scratch at any
edge of the tree equals the score of the reference routine `computeParsimonyScore`. -/
theorem computeParsimonyBranch_eq_computeParsimonyScore (aln : Alignment)
    (STATE_UNKNOWN : Nat) (root body a b : Branch)
    (hroot : root.isLeaf = true) (hsame : SameTree body root a b)
    (hn0 : 0 < aln.num_states) (hn : aln.num_states < 32)
    (hamb : aln.num_states = 4 ∨
      (root.noAmbiguity aln STATE_UNKNOWN ∧ body.noAmbiguity aln STATE_UNKNOWN))
    (hconst : ∀ pat ∈ aln.patterns, pat.is_const = true →
      ∀ x ∈ body.leafStatesOf STATE_UNKNOWN pat ++ root.leafStatesOf STATE_UNKNOWN pat,
      ∀ y ∈ body.leafStatesOf STATE_UNKNOWN pat ++ root.leafStatesOf STATE_UNKNOWN pat, x = y)
    (hokr : root.leavesOK aln STATE_UNKNOWN = true)
    (hokb : body.leavesOK aln STATE_UNKNOWN = true)
    (hoka : a.leavesOK aln STATE_UNKNOWN = true) (hokb' : b.leavesOK aln STATE_UNKNOWN = true)
    (hfa : a.fresh aln = true) (hfb : b.fresh aln = true) :
    ∃ score, computeParsimonyScore aln STATE_UNKNOWN root body = some score ∧
      (computeParsimonyBranch aln STATE_UNKNOWN a b).map (·.1) = some score := by
  refine ⟨fitchScore aln STATE_UNKNOWN body root, ?_, ?_⟩
  · unfold computeParsimonyScore
    rw [if_pos hroot]
    have hambr : aln.num_states = 4 ∨ root.noAmbiguity aln STATE_UNKNOWN := by
      rcases hamb with h | h
      · exact Or.inl h
      · exact Or.inr h.1
    have hambb : aln.num_states = 4 ∨ body.noAmbiguity aln STATE_UNKNOWN := by
      rcases hamb with h | h
      · exact Or.inl h
      · exact Or.inr h.2
    have key := foldlM_range_inv
      (fun score ptn =>
        if (!aln.isConst ptn) = true then
          (computeParsimonyScorePtn aln STATE_UNKNOWN ptn root body).map fun r =>
            score + r.1 * aln.freq ptn
        else some score)
      (fun k score => score = ((List.range k).map fun p =>
        aln.freq p * edgeCost aln STATE_UNKNOWN (aln.pattern p) body root).sum)
      0 aln.size rfl ?_
    · obtain ⟨s, hs, hinv⟩ := key
      rw [hs, hinv]
      unfold fitchScore
      rw [← sum_range_patterns]
      simp only [freq_eq_pattern]
    · intro k s hk hinv
      dsimp only
      have hptn := computeParsimonyScorePtn_eq aln STATE_UNKNOWN k hk hn0 hn root body hroot
        hokr hokb hambr hambb
      by_cases hc : aln.isConst k = true
      · have hcc : ¬ ((!aln.isConst k) = true) := by simp [hc]
        rw [if_neg hcc]
        refine ⟨s, rfl, ?_⟩
        rw [sum_range_succ, hinv]
        -- a constant pattern has Fitch length 0
        have hpc : (aln.pattern k).is_const = true := by
          unfold Alignment.isConst at hc
          unfold Alignment.pattern
          rw [List.get?_eq_getElem?] at hc
          cases h : aln.patterns[k]? with
          | none => rw [h] at hc; simp at hc
          | some pat => rw [h] at hc; simpa [List.getD_eq_getElem?_getD, h] using hc
        have hall := hconst _ (pattern_mem aln k hk) hpc
        cases root with
        | internal nei c1 c2 => simp [Branch.isLeaf] at hroot
        | leaf nei id rn =>
          have hst : ∀ x ∈ body.leafStatesOf STATE_UNKNOWN (aln.pattern k) ++
              (Branch.leaf nei id rn).leafStatesOf STATE_UNKNOWN (aln.pattern k),
              x = (if rn then STATE_UNKNOWN else (aln.pattern k).states.getD id 0) := by
            intro x hx
            exact hall x hx _ (by
              rw [List.mem_append]
              exact Or.inr (by rw [Branch.leafStatesOf]; exact List.mem_singleton.2 rfl))
          rw [edgeCost_const aln STATE_UNKNOWN (aln.pattern k) _ body _
            (leafMask_ne_zero aln STATE_UNKNOWN _ hn0)
            (fun x hx => hst x (List.mem_append.2 (Or.inl hx)))
            (fun x hx => hst x (List.mem_append.2 (Or.inr hx)))]
          simp
      · have hcc : (!aln.isConst k) = true := by simpa using hc
        rw [if_pos hcc]
        cases hres : computeParsimonyScorePtn aln STATE_UNKNOWN k root body with
        | none => rw [hres] at hptn; simp at hptn
        | some r =>
          rw [hres] at hptn
          simp only [Option.map_some', Option.some.injEq] at hptn
          refine ⟨_, rfl, ?_⟩
          dsimp only
          rw [sum_range_succ, hinv, hptn, Nat.mul_comm]
  · rw [fitchScore_sameTree aln STATE_UNKNOWN body root a b hsame]
    exact computeParsimonyBranch_fresh aln STATE_UNKNOWN a b hoka hokb' hfa hfb

theorem computeParsimonyBranch_eq_computeParsimonyScore_witness :
    ∃ score, computeParsimonyScore exampleAln 126 (exampleLeaf 0) exampleBody = some score ∧
      (computeParsimonyBranch exampleAln 126 (exampleLeaf 1)
        (.internal ⟨[0, 0], 0⟩ exampleCherry23 (exampleLeaf 0))).map (·.1) = some score :=
  computeParsimonyBranch_eq_computeParsimonyScore exampleAln 126 (exampleLeaf 0) exampleBody
    (exampleLeaf 1) (.internal ⟨[0, 0], 0⟩ exampleCherry23 (exampleLeaf 0))
    rfl (SameTree.move _ _ _ _ _) (by decide) (by decide) (Or.inl rfl) (by decide)
    (by decide) (by decide) (by decide) (by decide) (by decide) (by decide)

theorem computeParsimonyBranch_entry_edge_invariant_witness :
    ∃ score,
      (computeParsimonyBranch exampleAln 126 exampleCherry01 exampleCherry23).map (·.1) =
        some score ∧
      (computeParsimonyBranch exampleAln 126 (exampleLeaf 0)
        (.internal ⟨[0, 0], 0⟩ (exampleLeaf 1) exampleCherry23)).map (·.1) = some score :=
  computeParsimonyBranch_entry_edge_invariant exampleAln 126 exampleCherry01 exampleCherry23
    (exampleLeaf 0) (.internal ⟨[0, 0], 0⟩ (exampleLeaf 1) exampleCherry23)
    (SameTree.move _ _ _ _ _) (by decide) (by decide) (by decide) (by decide)
    (by decide) (by decide) (by decide) (by decide)

theorem computeParsimonyBranch_eq_scores_plus_disjoint_witness :
    (computeParsimonyBranch exampleAln 126 exampleCherry01 exampleCherry23).map (·.1) =
      some (scoreSlot exampleAln exampleCherry23Done.nei.partial_pars +
        scoreSlot exampleAln exampleCherry01Done.nei.partial_pars +
        disjointFreq exampleAln exampleCherry23Done.nei.partial_pars
          exampleCherry01Done.nei.partial_pars) :=
  computeParsimonyBranch_eq_scores_plus_disjoint exampleAln 126 exampleCherry01
    exampleCherry23 exampleCherry01Done exampleCherry23Done (by decide) (by decide)
    (by decide) (by decide)

theorem computePartialParsimony_internal_witness :
    ∃ pars, computePartialParsimony exampleAln 126
        (.internal ⟨[0, 0], 0⟩ (exampleLeaf 2) (exampleLeaf 3)) =
        some (.internal ⟨pars, 0 ||| 2⟩ (exampleLeafDone 2) (exampleLeafDone 3)) ∧
      (∀ p, p < exampleAln.size → ∀ s, s < exampleAln.num_states →
        member exampleAln pars p s =
          if disjointAt exampleAln (exampleLeafDone 2).nei.partial_pars
              (exampleLeafDone 3).nei.partial_pars p then
            (member exampleAln (exampleLeafDone 2).nei.partial_pars p s ||
              member exampleAln (exampleLeafDone 3).nei.partial_pars p s)
          else (member exampleAln (exampleLeafDone 2).nei.partial_pars p s &&
              member exampleAln (exampleLeafDone 3).nei.partial_pars p s)) ∧
      scoreSlot exampleAln pars = scoreSlot exampleAln (exampleLeafDone 2).nei.partial_pars +
        scoreSlot exampleAln (exampleLeafDone 3).nei.partial_pars +
        disjointFreq exampleAln (exampleLeafDone 2).nei.partial_pars
          (exampleLeafDone 3).nei.partial_pars ∧
      (0 ||| 2) &&& 2 = 2 :=
  computePartialParsimony_internal exampleAln 126 ⟨[0, 0], 0⟩ (exampleLeaf 2) (exampleLeaf 3)
    (exampleLeafDone 2) (exampleLeafDone 3) (by decide) (by decide) rfl rfl
    (by decide) (by decide) (by decide) (by decide)

theorem computePartialParsimony_leaf_witness :
    ∃ pars, computePartialParsimony exampleAln 126 (.leaf ⟨[0, 0], 0⟩ 2 false) =
        some (.leaf ⟨pars, 0 ||| 2⟩ 2 false) ∧
      scoreSlot exampleAln pars = 0 ∧
      ∀ p, p < exampleAln.size → ∀ s, s < exampleAln.num_states →
        (exampleAln.state p 2 = 126 → member exampleAln pars p s = true) ∧
        (exampleAln.state p 2 ≠ 126 → exampleAln.state p 2 < exampleAln.num_states →
          member exampleAln pars p s = decide (s = exampleAln.state p 2)) ∧
        (∀ k, exampleAln.state p 2 ≠ 126 → exampleAln.state p 2 = exampleAln.num_states + k →
          member exampleAln pars p s = (k + 1).testBit s) :=
  computePartialParsimony_leaf exampleAln 126 ⟨[0, 0], 0⟩ 2 (by decide) (by decide)
    (by decide) (by decide)

theorem unknown_pattern_contributes_zero_witness :
    ∃ score,
      (computeParsimonyBranch exampleAln 126 exampleCherry01 exampleCherry23).map (·.1) =
        some score ∧
      (computeParsimonyBranch (exampleAln.insertPattern 2 exampleUnknownPattern) 126
        exampleCherry01 exampleCherry23).map (·.1) = some score :=
  unknown_pattern_contributes_zero exampleAln 126 exampleCherry01 exampleCherry23
    exampleUnknownPattern 2 (by decide) (by decide) (by decide) (by decide) (by decide)
    (by decide) (by decide)

theorem setBitsBlock_getBitsBlock_roundtrip_witness :
    (setBitsBlock exampleProteinAln [1, 2, 3, 4, 5, 6, 7] 1 [0x81234]).map
      (fun v => getBitsBlock exampleProteinAln v 1 [0]) = some [0x81234] :=
  setBitsBlock_getBitsBlock_roundtrip exampleProteinAln [1, 2, 3, 4, 5, 6, 7] [0x81234] [0] 1
    (by decide) (by decide) (by decide) (by decide) (by decide) (by decide) (by decide)

/-- C8, the claim as written, fails for an entry with a bit at a position from
`num_states` on: with 4 states, writing the entry `255` at pattern 0 of an empty vector
makes `getBitsBlock` read the set `15` at pattern 1, where it read the empty set
before. -/
theorem setBitsBlock_changes_next_pattern :
    (setBitsBlock exampleAln [0, 0] 0 [255]).map
        (fun v => getBitsBlock exampleAln v 1 [0]) = some [15] ∧
      getBitsBlock exampleAln [0, 0] 1 [0] = [0] := by
  decide

theorem setBitsBlock_frame_witness :
    ∃ v, setBitsBlock exampleProteinAln [1, 2, 3, 4, 5, 6, 7] 1 [0x81234] = some v ∧
      getBitsBlock exampleProteinAln v 2 [0] =
        getBitsBlock exampleProteinAln [1, 2, 3, 4, 5, 6, 7] 2 [0] ∧
      v.getD (getBitsBlockSize exampleProteinAln - 1) 0 =
        ([1, 2, 3, 4, 5, 6, 7] : List Nat).getD (getBitsBlockSize exampleProteinAln - 1) 0 :=
  setBitsBlock_frame exampleProteinAln [1, 2, 3, 4, 5, 6, 7] [0x81234] [0] 1 2
    (by decide) (by decide) (by decide) (by decide) (by decide) (by decide) (by decide)
    (by decide) (by decide)

theorem neighbors_setNeighbors_of_lt (t : Tree) (n m : Nat) (ns : List Neighbor)
    (hn : n < t.nodes.length) :
    (t.setNeighbors n ns).neighbors m = if m = n then ns else t.neighbors m := by
  rw [neighbors_setNeighbors]
  by_cases h : m = n
  · rw [if_pos ⟨h, hn⟩, if_pos h]
  · rw [if_neg (fun hh => h hh.1), if_neg h]

theorem updateNeighborLength_eq (t : Tree) (n x y k : Nat) (l : ℚ)
    (hk : findNeighborIt (t.neighbors n) x = some k) :
    t.updateNeighborLength n x y l = some (t.setNeighbors n
        ((t.neighbors n).modify (fun nei => { nei with node := y, length := l }) k)) := by
  simp [Tree.updateNeighborLength, hk]

theorem foldl_if_filter {σ : Type} (p : Neighbor → Bool) (g : σ → Neighbor → σ)
    (L : List Neighbor) (init : σ) :
    L.foldl (fun st it => if p it then g st it else st) init = (L.filter p).foldl g init := by
  induction L generalizing init with
  | nil => rfl
  | cons e es ih =>
    rw [List.foldl_cons, List.filter_cons]
    by_cases h : p e = true
    · rw [if_pos h, if_pos h, List.foldl_cons]
      exact ih _
    · rw [if_neg h, if_neg h]
      exact ih _

theorem deleteLeafScan_eq (x : Nat) (L : List Neighbor) (f1 f2 : Neighbor)
    (h : L.filter (fun nei => nei.node != x) = [f1, f2]) :
    deleteLeafScan x L = (some f1.node, some f2.node, 0 + f1.length + f2.length) := by
  have key := @foldl_if_filter (Option Nat × Option Nat × ℚ) (fun nei => nei.node != x)
    (fun st it => if st.1.isNone then (some it.node, st.2.1, st.2.2 + it.length)
      else (st.1, some it.node, st.2.2 + it.length)) L (none, none, 0)
  rw [h] at key
  exact key

/-- The first slot that points to `y` after slot `k`, the first that pointed to `x`, was
made to point to `y`, when no slot pointed to `y` before. -/
theorem findNeighborIt_modify (ns : List Neighbor) (x y k : Nat) (l : ℚ)
    (hk : findNeighborIt ns x = some k) (hy : findNeighborIt ns y = none) :
    findNeighborIt (ns.modify (fun nei => { nei with node := y, length := l }) k) y =
      some k := by
  unfold findNeighborIt at hk hy ⊢
  rw [List.findIdx?_eq_some_iff_getElem] at hk ⊢
  rw [List.findIdx?_eq_none_iff] at hy
  obtain ⟨hlt, hx, hbefore⟩ := hk
  refine ⟨by rw [List.length_modify]; exact hlt, ?_, ?_⟩
  · rw [List.getElem_modify_eq]
    simp
  · intro j hj
    rw [List.getElem_modify_ne _ _ (Nat.ne_of_gt hj)]
    have := hy ns[j] (List.getElem_mem _)
    simp [this]

theorem getElem?_of_findNeighborIt (ns : List Neighbor) (x k : Nat)
    (hk : findNeighborIt ns x = some k) : ∃ e, ns[k]? = some e ∧ e.node = x := by
  unfold findNeighborIt at hk
  rw [List.findIdx?_eq_some_iff_getElem] at hk
  obtain ⟨hlt, hx, _⟩ := hk
  exact ⟨ns[k], by simp [hlt], by simpa using hx⟩

theorem modify_modify (ns : List Neighbor) (f g : Neighbor → Neighbor) (k : Nat) :
    (ns.modify f k).modify g k = ns.modify (g ∘ f) k := by
  induction ns generalizing k with
  | nil => cases k <;> rfl
  | cons e es ih =>
    cases k with
    | zero => simp
    | succ k => simp [ih]

theorem getElem?_modify_self (ns : List Neighbor) (f : Neighbor → Neighbor) (k : Nat) :
    (ns.modify f k)[k]? = ns[k]?.map f := by
  induction ns generalizing k with
  | nil => cases k <;> rfl
  | cons e es ih =>
    cases k with
    | zero => simp
    | succ k => simp [ih]

/-- The neighbor vectors of the store after the vector of one of its nodes is replaced. -/
theorem setNeighbors_view (t : Tree) (n : Nat) (ns : List Neighbor) (hn : n < t.nodes.length) :
    (t.setNeighbors n ns).neighbors = Function.update t.neighbors n ns ∧
      (t.setNeighbors n ns).nodes.length = t.nodes.length := by
  refine ⟨?_, length_setNeighbors t n ns⟩
  funext m
  rw [neighbors_setNeighbors_of_lt t n m ns hn]
  by_cases h : m = n
  · rw [if_pos h, h, Function.update_same]
  · rw [if_neg h, Function.update_noteq h]

theorem updateNeighborLength_view (t : Tree) (n x y k : Nat) (l : ℚ)
    (hk : findNeighborIt (t.neighbors n) x = some k) :
    ∃ t1, t.updateNeighborLength n x y l = some t1 ∧
      t1.neighbors = Function.update t.neighbors n
        ((t.neighbors n).modify (fun nei => { nei with node := y, length := l }) k) ∧
      t1.nodes.length = t.nodes.length := by
  have hn := lt_of_find_neighbors t n x k hk
  exact ⟨_, updateNeighborLength_eq t n x y k l hk, setNeighbors_view t n _ hn⟩

theorem lt_of_getElem?_view (t : Tree) (n k : Nat) (e : Neighbor)
    (h : (t.neighbors n)[k]? = some e) : n < t.nodes.length :=
  lt_of_getElem?_neighbors t n k e h

/-- A turn of the loop of `reinsertLeaf` at a slot that points to the leaf. -/
theorem reinsertLeafStep_skip (leaf adj node dad : Nat) (len : ℚ) (st : Tree × Bool) (k : Nat)
    (it : Neighbor) (hit : (st.1.neighbors adj)[k]? = some it) (hleaf : it.node = leaf) :
    reinsertLeafStep leaf adj node dad len st k = some st := by
  unfold reinsertLeafStep
  rw [List.get?_eq_getElem?, hit]
  have : ¬ ((it.node != leaf) = true) := by simp [hleaf]
  dsimp only
  rw [if_neg this]

/-- The first turn of the loop of `reinsertLeaf` at a slot that does not point to the
leaf. -/
theorem reinsertLeafStep_first (leaf adj node dad : Nat) (len : ℚ) (t : Tree) (k i : Nat)
    (it : Neighbor) (hit : (t.neighbors adj)[k]? = some it) (hleaf : it.node ≠ leaf)
    (hna : node ≠ adj) (hi : findNeighborIt (t.neighbors node) dad = some i) :
    ∃ t1, reinsertLeafStep leaf adj node dad len (t, true) k = some (t1, false) ∧
      t1.neighbors = Function.update
        (Function.update t.neighbors adj
          ((t.neighbors adj).set k { it with node := node, length := len / 2 }))
        node ((t.neighbors node).modify
          (fun nei => { nei with node := adj, length := len / 2 }) i) ∧
      t1.nodes.length = t.nodes.length := by
  have hadj := lt_of_getElem?_view t adj k it hit
  obtain ⟨hv, hl⟩ := setNeighbors_view t adj
    ((t.neighbors adj).set k { it with node := node, length := len / 2 }) hadj
  have hi1 : findNeighborIt ((t.setNeighbors adj
      ((t.neighbors adj).set k { it with node := node, length := len / 2 })).neighbors node)
      dad = some i := by
    rw [hv, Function.update_noteq hna]
    exact hi
  obtain ⟨t1, h1, hv1, hl1⟩ := updateNeighborLength_view _ node dad adj i (len / 2) hi1
  refine ⟨t1, ?_, ?_, hl1.trans hl⟩
  · unfold reinsertLeafStep
    rw [List.get?_eq_getElem?, hit]
    have : (it.node != leaf) = true := by simpa using hleaf
    dsimp only
    rw [if_pos this, if_pos rfl, h1]
    rfl
  · rw [hv1, hv, Function.update_noteq hna]

/-- A later turn of the loop of `reinsertLeaf` at a slot that does not point to the
leaf. -/
theorem reinsertLeafStep_later (leaf adj node dad : Nat) (len : ℚ) (t : Tree) (k j : Nat)
    (it : Neighbor) (hit : (t.neighbors adj)[k]? = some it) (hleaf : it.node ≠ leaf)
    (hda : dad ≠ adj) (hj : findNeighborIt (t.neighbors dad) node = some j) :
    ∃ t1, reinsertLeafStep leaf adj node dad len (t, false) k = some (t1, false) ∧
      t1.neighbors = Function.update
        (Function.update t.neighbors adj
          ((t.neighbors adj).set k { it with node := dad, length := len / 2 }))
        dad ((t.neighbors dad).modify
          (fun nei => { nei with node := adj, length := len / 2 }) j) ∧
      t1.nodes.length = t.nodes.length := by
  have hadj := lt_of_getElem?_view t adj k it hit
  obtain ⟨hv, hl⟩ := setNeighbors_view t adj
    ((t.neighbors adj).set k { it with node := dad, length := len / 2 }) hadj
  have hj1 : findNeighborIt ((t.setNeighbors adj
      ((t.neighbors adj).set k { it with node := dad, length := len / 2 })).neighbors dad)
      node = some j := by
    rw [hv, Function.update_noteq hda]
    exact hj
  obtain ⟨t1, h1, hv1, hl1⟩ := updateNeighborLength_view _ dad node adj j (len / 2) hj1
  refine ⟨t1, ?_, ?_, hl1.trans hl⟩
  · unfold reinsertLeafStep
    rw [List.get?_eq_getElem?, hit]
    have : (it.node != leaf) = true := by simpa using hleaf
    have hf : ¬ ((false : Bool) = true) := by decide
    dsimp only
    rw [if_pos this, if_neg hf, h1]
    rfl
  · rw [hv1, hv, Function.update_noteq hda]

/-- The facts that `leafAt` packs. -/
theorem leafAt_facts (t : Tree) (x near a b : Nat) (h : t.leafAt x near a b = true) :
    (∃ ex, t.neighbors x = [ex] ∧ ex.node = near) ∧
    (t.neighbors near).length = 3 ∧
    (∃ f1 f2, (t.neighbors near).filter (fun nei => nei.node != x) = [f1, f2] ∧
      f1.node = a ∧ f2.node = b) ∧
    a ≠ b ∧ a ≠ near ∧ b ≠ near ∧ near ≠ x ∧
    (∃ i, findNeighborIt (t.neighbors a) near = some i) ∧
    findNeighborIt (t.neighbors a) b = none ∧
    (∃ j, findNeighborIt (t.neighbors b) near = some j) ∧
    findNeighborIt (t.neighbors b) a = none := by
  unfold Tree.leafAt at h
  simp only [Bool.and_eq_true, beq_iff_eq, bne_iff_ne, ne_eq, Option.isSome_iff_exists,
    Option.isNone_iff_eq_none] at h
  obtain ⟨⟨⟨⟨⟨⟨⟨⟨⟨⟨h1, h2⟩, h3⟩, h4⟩, h5⟩, h6⟩, h7⟩, h8⟩, h9⟩, h10⟩, h11⟩ := h
  refine ⟨?_, h2, ?_, h4, h5, h6, h7, h8, h9, h10, h11⟩
  · cases hl : t.neighbors x with
    | nil => rw [hl] at h1; simp at h1
    | cons ex rest =>
      rw [hl] at h1
      cases rest with
      | nil => exact ⟨ex, rfl, by simpa using h1⟩
      | cons _ _ => simp at h1
  · cases hl : (t.neighbors near).filter (fun nei => nei.node != x) with
    | nil => rw [hl] at h3; simp at h3
    | cons f1 rest =>
      rw [hl] at h3
      cases rest with
      | nil => simp at h3
      | cons f2 rest2 =>
        cases rest2 with
        | nil =>
          simp only [List.map_cons, List.map_nil, List.cons.injEq, and_true] at h3
          exact ⟨f1, f2, rfl, h3.1, h3.2⟩
        | cons _ _ => simp at h3

/-- The three slots of `near`, with the place of the leaf among them. -/
theorem three_slots (L : List Neighbor) (x : Nat) (f1 f2 : Neighbor) (hlen : L.length = 3)
    (hf : L.filter (fun nei => nei.node != x) = [f1, f2]) :
    ∃ ex, ex.node = x ∧ (L = [ex, f1, f2] ∨ L = [f1, ex, f2] ∨ L = [f1, f2, ex]) ∧
      f1.node ≠ x ∧ f2.node ≠ x := by
  cases L with
  | nil => simp at hlen
  | cons e0 L1 =>
  cases L1 with
  | nil => simp at hlen
  | cons e1 L2 =>
  cases L2 with
  | nil => simp at hlen
  | cons e2 L3 =>
  cases L3 with
  | cons _ _ => simp at hlen
  | nil =>
    have hm1 : f1 ∈ List.filter (fun nei => nei.node != x) [e0, e1, e2] := by
      rw [hf]; exact List.mem_cons_self _ _
    have hm2 : f2 ∈ List.filter (fun nei => nei.node != x) [e0, e1, e2] := by
      rw [hf]; exact List.mem_cons_of_mem _ (List.mem_cons_self _ _)
    have hn1 : f1.node ≠ x := by simpa using (List.mem_filter.1 hm1).2
    have hn2 : f2.node ≠ x := by simpa using (List.mem_filter.1 hm2).2
    cases hb0 : (e0.node != x) <;> cases hb1 : (e1.node != x) <;>
      cases hb2 : (e2.node != x) <;>
      simp only [List.filter, hb0, hb1, hb2, List.cons.injEq, and_true, and_false,
        List.nil_eq, List.cons_ne_nil, List.ne_cons_self, reduceCtorEq] at hf
    · obtain ⟨rfl, rfl⟩ := hf
      exact ⟨e0, by simpa using hb0, Or.inl rfl, hn1, hn2⟩
    · obtain ⟨rfl, rfl⟩ := hf
      exact ⟨e1, by simpa using hb1, Or.inr (Or.inl rfl), hn1, hn2⟩
    · obtain ⟨rfl, rfl⟩ := hf
      exact ⟨e2, by simpa using hb2, Or.inr (Or.inr rfl), hn1, hn2⟩

/-- What `deleteLeaf` does to the store. -/
theorem deleteLeaf_view (t : Tree) (x near a b i j : Nat) (f1 f2 : Neighbor)
    (h : t.leafAt x near a b = true)
    (hf : (t.neighbors near).filter (fun nei => nei.node != x) = [f1, f2])
    (hi : findNeighborIt (t.neighbors a) near = some i)
    (hj : findNeighborIt (t.neighbors b) near = some j) :
    ∃ t1, deleteLeaf t x = some t1 ∧ t1.nodes.length = t.nodes.length ∧
      t1.neighbors = Function.update (Function.update t.neighbors a
        ((t.neighbors a).modify
          (fun nei => { nei with node := b, length := 0 + f1.length + f2.length }) i))
        b ((t.neighbors b).modify
          (fun nei => { nei with node := a, length := 0 + f1.length + f2.length }) j) := by
  obtain ⟨⟨ex, hx, hexn⟩, hlen, ⟨g1, g2, hg, hg1, hg2⟩, hab, han, hbn, hnx, _, _, _, _⟩ :=
    leafAt_facts t x near a b h
  rw [hf] at hg
  simp only [List.cons.injEq, and_true] at hg
  obtain ⟨rfl, rfl⟩ := hg
  obtain ⟨tA, hA, hvA, hlA⟩ := updateNeighborLength_view t a near b i
    (0 + f1.length + f2.length) hi
  have hj1 : findNeighborIt (tA.neighbors b) near = some j := by
    rw [hvA, Function.update_noteq (Ne.symm hab)]
    exact hj
  obtain ⟨tB, hB, hvB, hlB⟩ := updateNeighborLength_view tA b near a j
    (0 + f1.length + f2.length) hj1
  refine ⟨tB, ?_, hlB.trans hlA, ?_⟩
  · unfold deleteLeaf
    rw [List.get?_eq_getElem?, hx]
    simp only [List.getElem?_cons_zero]
    rw [hexn]
    have hc : t.isLeaf x = true ∧ (t.neighbors near).length = 3 := by
      refine ⟨?_, hlen⟩
      unfold Tree.isLeaf
      rw [hx]
      rfl
    rw [if_pos hc, deleteLeafScan_eq x _ f1 f2 hf]
    dsimp only
    rw [hg1, hg2, hA]
    exact hB
  · rw [hvB, hvA, Function.update_noteq (Ne.symm hab)]

theorem foldlM_range_three {σ : Type} (f : σ → Nat → Option σ) (s0 s1 s2 s3 : σ)
    (h0 : f s0 0 = some s1) (h1 : f s1 1 = some s2) (h2 : f s2 2 = some s3) :
    (List.range 3).foldlM f s0 = some s3 := by
  have : List.range 3 = [0, 1, 2] := rfl
  rw [this]
  simp [List.foldlM, h0, h1, h2]

/-- The two turns of the loop of `reinsertLeaf` that do not skip the leaf, at the slots
`k1` and `k2` of `near`. -/
theorem reinsert_two_steps (t1 : Tree) (x near node dad : Nat) (len : ℚ) (k1 k2 p q : Nat)
    (f1 f2 : Neighbor) (hk : k1 ≠ k2)
    (h1 : (t1.neighbors near)[k1]? = some f1) (h2 : (t1.neighbors near)[k2]? = some f2)
    (hf1 : f1.node ≠ x) (hf2 : f2.node ≠ x)
    (hnd : node ≠ dad) (hnn : node ≠ near) (hdn : dad ≠ near)
    (hp : findNeighborIt (t1.neighbors node) dad = some p)
    (hq : findNeighborIt (t1.neighbors dad) node = some q) :
    ∃ ta tb, reinsertLeafStep x near node dad len (t1, true) k1 = some (ta, false) ∧
      reinsertLeafStep x near node dad len (ta, false) k2 = some (tb, false) ∧
      ta.neighbors near = (t1.neighbors near).set k1 { f1 with node := node, length := len / 2 } ∧
      (∀ n, tb.neighbors n =
        if n = near then
          ((t1.neighbors near).set k1 { f1 with node := node, length := len / 2 }).set k2
            { f2 with node := dad, length := len / 2 }
        else if n = node then
          (t1.neighbors node).modify (fun nei => { nei with node := near, length := len / 2 }) p
        else if n = dad then
          (t1.neighbors dad).modify (fun nei => { nei with node := near, length := len / 2 }) q
        else t1.neighbors n) := by
  obtain ⟨ta, hsa, hva, _⟩ := reinsertLeafStep_first x near node dad len t1 k1 p f1 h1 hf1 hnn hp
  have hnear_a : ta.neighbors near =
      (t1.neighbors near).set k1 { f1 with node := node, length := len / 2 } := by
    rw [hva, Function.update_noteq (Ne.symm hnn), Function.update_same]
  have h2a : (ta.neighbors near)[k2]? = some f2 := by
    rw [hnear_a, List.getElem?_set_ne hk]
    exact h2
  have hqa : findNeighborIt (ta.neighbors dad) node = some q := by
    rw [hva, Function.update_noteq (Ne.symm hnd), Function.update_noteq hdn]
    exact hq
  obtain ⟨tb, hsb, hvb, _⟩ := reinsertLeafStep_later x near node dad len ta k2 q f2 h2a hf2 hdn hqa
  refine ⟨ta, tb, hsa, hsb, hnear_a, ?_⟩
  intro n
  rw [hvb]
  by_cases hn1 : n = near
  · subst hn1
    rw [if_pos rfl, Function.update_noteq (Ne.symm hdn), Function.update_same, hnear_a]
  · rw [if_neg hn1]
    by_cases hn2 : n = node
    · subst hn2
      rw [if_pos rfl, Function.update_noteq hnd, Function.update_noteq hn1, hva,
        Function.update_same]
    · rw [if_neg hn2]
      by_cases hn3 : n = dad
      · subst hn3
        rw [if_pos rfl, Function.update_same, hva, Function.update_noteq hn2,
          Function.update_noteq hn1]
      · rw [if_neg hn3, Function.update_noteq hn3, Function.update_noteq hn1, hva,
          Function.update_noteq hn2, Function.update_noteq hn1]

/-- The loop of `reinsertLeaf` on the three slots of `near`. -/
theorem reinsert_loop (t1 : Tree) (x near a b node dad : Nat) (len : ℚ) (p q : Nat)
    (f1 f2 : Neighbor) (hlen : (t1.neighbors near).length = 3)
    (hf : (t1.neighbors near).filter (fun nei => nei.node != x) = [f1, f2])
    (hfa : f1.node = a) (hfb : f2.node = b) (hab : a ≠ b)
    (hnd : node ≠ dad) (hnn : node ≠ near) (hdn : dad ≠ near)
    (hp : findNeighborIt (t1.neighbors node) dad = some p)
    (hq : findNeighborIt (t1.neighbors dad) node = some q) :
    ∃ t2, ((List.range (t1.neighbors near).length).foldlM
        (reinsertLeafStep x near node dad len) (t1, true)).map (·.1) = some t2 ∧
      (∀ n, t2.neighbors n =
        if n = near then
          (t1.neighbors near).map fun e =>
            if e.node = x then e
            else { e with node := if e.node = a then node else dad, length := len / 2 }
        else if n = node then
          (t1.neighbors node).modify (fun nei => { nei with node := near, length := len / 2 }) p
        else if n = dad then
          (t1.neighbors dad).modify (fun nei => { nei with node := near, length := len / 2 }) q
        else t1.neighbors n) := by
  obtain ⟨ex, hex, hL, hf1, hf2⟩ := three_slots _ x f1 f2 hlen hf
  have hba : ¬ (f2.node = a) := by rw [hfb]; exact Ne.symm hab
  have hax : ¬ (a = x) := by rw [← hfa]; exact hf1
  have hbx : ¬ (b = x) := by rw [← hfb]; exact hf2
  rw [hlen]
  rcases hL with hL | hL | hL
  · obtain ⟨ta, tb, hsa, hsb, hna, hv⟩ := reinsert_two_steps t1 x near node dad len 1 2 p q f1 f2
      (by decide) (by rw [hL]; rfl) (by rw [hL]; rfl) hf1 hf2 hnd hnn hdn hp hq
    have hs0 := reinsertLeafStep_skip x near node dad len (t1, true) 0 ex (by rw [hL]; rfl) hex
    refine ⟨tb, ?_, ?_⟩
    · rw [foldlM_range_three _ _ _ _ _ hs0 hsa hsb]
      rfl
    · have hmap : ((t1.neighbors near).set 1 { f1 with node := node, length := len / 2 }).set 2
          { f2 with node := dad, length := len / 2 } =
          (t1.neighbors near).map fun e =>
            if e.node = x then e
            else { e with node := if e.node = a then node else dad, length := len / 2 } := by
        rw [hL]
        simp [hex, hf1, hf2, hfa, hfb, hax, hbx, Ne.symm hab]
      intro n
      rw [hv n, hmap]
  · obtain ⟨ta, tb, hsa, hsb, hna, hv⟩ := reinsert_two_steps t1 x near node dad len 0 2 p q f1 f2
      (by decide) (by rw [hL]; rfl) (by rw [hL]; rfl) hf1 hf2 hnd hnn hdn hp hq
    have hs1 := reinsertLeafStep_skip x near node dad len (ta, false) 1 ex
      (by rw [hna, hL]; rfl) hex
    refine ⟨tb, ?_, ?_⟩
    · rw [foldlM_range_three _ _ _ _ _ hsa hs1 hsb]
      rfl
    · have hmap : ((t1.neighbors near).set 0 { f1 with node := node, length := len / 2 }).set 2
          { f2 with node := dad, length := len / 2 } =
          (t1.neighbors near).map fun e =>
            if e.node = x then e
            else { e with node := if e.node = a then node else dad, length := len / 2 } := by
        rw [hL]
        simp [hex, hf1, hf2, hfa, hfb, hax, hbx, Ne.symm hab]
      intro n
      rw [hv n, hmap]
  · obtain ⟨ta, tb, hsa, hsb, hna, hv⟩ := reinsert_two_steps t1 x near node dad len 0 1 p q f1 f2
      (by decide) (by rw [hL]; rfl) (by rw [hL]; rfl) hf1 hf2 hnd hnn hdn hp hq
    have hs2 := reinsertLeafStep_skip x near node dad len (tb, false) 2 ex
      (by rw [hv near, if_pos rfl, hL]; rfl) hex
    refine ⟨tb, ?_, ?_⟩
    · rw [foldlM_range_three _ _ _ _ _ hsa hsb hs2]
      rfl
    · have hmap : ((t1.neighbors near).set 0 { f1 with node := node, length := len / 2 }).set 1
          { f2 with node := dad, length := len / 2 } =
          (t1.neighbors near).map fun e =>
            if e.node = x then e
            else { e with node := if e.node = a then node else dad, length := len / 2 } := by
        rw [hL]
        simp [hex, hf1, hf2, hfa, hfb, hax, hbx, Ne.symm hab]
      intro n
      rw [hv n, hmap]

theorem modify_twice (ns : List Neighbor) (k y z : Nat) (l m : ℚ) :
    (ns.modify (fun nei => { nei with node := y, length := l }) k).modify
      (fun nei => { nei with node := z, length := m }) k =
    ns.modify (fun nei => { nei with node := z, length := m }) k := by
  rw [List.modify_modify_eq]
  rfl

theorem getElem?_modify_length (ns : List Neighbor) (x y k : Nat) (l : ℚ)
    (hk : findNeighborIt ns x = some k) :
    ∃ nei, (ns.modify (fun nei => { nei with node := y, length := l }) k)[k]? = some nei ∧
      nei.length = l := by
  obtain ⟨e, he, _⟩ := getElem?_of_findNeighborIt ns x k hk
  refine ⟨{ e with node := y, length := l }, ?_, rfl⟩
  rw [List.getElem?_modify_eq, he]
  rfl

/-- The body of `reinsertLeaf` on the store that `deleteLeaf` left, for the two nodes
`node`, `dad` of the new branch, whose half-edges to each other are in the slots `p` and
`q` and have the length `len`. -/
theorem reinsertLeafAt_view (t1 : Tree) (x near a b node dad : Nat) (len : ℚ) (p q : Nat)
    (f1 f2 : Neighbor) (hlen : (t1.neighbors near).length = 3)
    (hf : (t1.neighbors near).filter (fun nei => nei.node != x) = [f1, f2])
    (hfa : f1.node = a) (hfb : f2.node = b) (hab : a ≠ b)
    (hnd : node ≠ dad) (hnn : node ≠ near) (hdn : dad ≠ near)
    (hp : findNeighborIt (t1.neighbors node) dad = some p)
    (hpl : ∃ nei, (t1.neighbors node)[p]? = some nei ∧ nei.length = len)
    (hq : findNeighborIt (t1.neighbors dad) node = some q) :
    ∃ t2, reinsertLeafAt t1 x near node dad = some t2 ∧
      (∀ n, t2.neighbors n =
        if n = near then
          (t1.neighbors near).map fun e =>
            if e.node = x then e
            else { e with node := if e.node = a then node else dad, length := len / 2 }
        else if n = node then
          (t1.neighbors node).modify (fun nei => { nei with node := near, length := len / 2 }) p
        else if n = dad then
          (t1.neighbors dad).modify (fun nei => { nei with node := near, length := len / 2 }) q
        else t1.neighbors n) := by
  obtain ⟨nei, hnei, hl⟩ := hpl
  obtain ⟨t2, h2, hv⟩ := reinsert_loop t1 x near a b node dad len p q f1 f2 hlen hf hfa hfb hab
    hnd hnn hdn hp hq
  refine ⟨t2, ?_, hv⟩
  unfold reinsertLeafAt
  rw [hp]
  dsimp only
  rw [List.get?_eq_getElem?, hnei]
  dsimp only
  rw [hl]
  exact h2

/-- The store after `deleteLeaf(x)` and `reinsertLeaf(x, node, dad)`, where `node`,
`dad` are the two other neighbors `a`, `b` of `near` in either order. -/
theorem delete_reinsert_view (t : Tree) (x near a b node dad : Nat)
    (h : t.leafAt x near a b = true)
    (hnd : (node = a ∧ dad = b) ∨ (node = b ∧ dad = a)) :
    ∃ t1 t2 i j f1 f2, deleteLeaf t x = some t1 ∧ reinsertLeaf t1 x node dad = some t2 ∧
      reinsertLeafAt t1 x near node dad = some t2 ∧
      (t.neighbors near).filter (fun nei => nei.node != x) = [f1, f2] ∧
      f1.node = a ∧ f2.node = b ∧
      findNeighborIt (t.neighbors a) near = some i ∧
      findNeighborIt (t.neighbors b) near = some j ∧
      (∀ n, t2.neighbors n =
        if n = near then
          (t.neighbors near).map fun e =>
            if e.node = x then e
            else { e with node := if e.node = a then node else dad,
                          length := (0 + f1.length + f2.length) / 2 }
        else if n = a then
          (t.neighbors a).modify
            (fun nei => { nei with node := near, length := (0 + f1.length + f2.length) / 2 }) i
        else if n = b then
          (t.neighbors b).modify
            (fun nei => { nei with node := near, length := (0 + f1.length + f2.length) / 2 }) j
        else t.neighbors n) := by
  obtain ⟨⟨ex, hx, hexn⟩, hlen, ⟨f1, f2, hf, hfa, hfb⟩, hab, han, hbn, hnx, ⟨i, hi⟩, hanb,
    ⟨j, hj⟩, hbna⟩ := leafAt_facts t x near a b h
  obtain ⟨t1, hdel, _, hv1⟩ := deleteLeaf_view t x near a b i j f1 f2 h hf hi hj
  obtain ⟨_, _, _, hf1x, hf2x⟩ := three_slots _ x f1 f2 hlen hf
  have hax : a ≠ x := by rw [← hfa]; exact hf1x
  have hbx : b ≠ x := by rw [← hfb]; exact hf2x
  have h1x : t1.neighbors x = [ex] := by
    rw [hv1, Function.update_noteq (Ne.symm hbx), Function.update_noteq (Ne.symm hax)]
    exact hx
  have h1near : t1.neighbors near = t.neighbors near := by
    rw [hv1, Function.update_noteq (Ne.symm hbn), Function.update_noteq (Ne.symm han)]
  have h1a : t1.neighbors a = (t.neighbors a).modify
      (fun nei => { nei with node := b, length := 0 + f1.length + f2.length }) i := by
    rw [hv1, Function.update_noteq hab, Function.update_same]
  have h1b : t1.neighbors b = (t.neighbors b).modify
      (fun nei => { nei with node := a, length := 0 + f1.length + f2.length }) j := by
    rw [hv1, Function.update_same]
  have h1o : ∀ n, n ≠ a → n ≠ b → t1.neighbors n = t.neighbors n := by
    intro n hna hnb
    rw [hv1, Function.update_noteq hnb, Function.update_noteq hna]
  have hpa : findNeighborIt (t1.neighbors a) b = some i := by
    rw [h1a]; exact findNeighborIt_modify _ near b i _ hi hanb
  have hpb : findNeighborIt (t1.neighbors b) a = some j := by
    rw [h1b]; exact findNeighborIt_modify _ near a j _ hj hbna
  have hla : ∃ nei, (t1.neighbors a)[i]? = some nei ∧ nei.length = 0 + f1.length + f2.length := by
    rw [h1a]; exact getElem?_modify_length _ near b i _ hi
  have hlb : ∃ nei, (t1.neighbors b)[j]? = some nei ∧ nei.length = 0 + f1.length + f2.length := by
    rw [h1b]; exact getElem?_modify_length _ near a j _ hj
  have hre : ∀ t2, reinsertLeafAt t1 x near node dad = some t2 →
      reinsertLeaf t1 x node dad = some t2 := by
    intro t2 h2
    unfold reinsertLeaf
    rw [List.get?_eq_getElem?, h1x]
    simp only [List.getElem?_cons_zero]
    rw [hexn]
    exact h2
  rcases hnd with ⟨rfl, rfl⟩ | ⟨rfl, rfl⟩
  · obtain ⟨t2, h2, hv2⟩ := reinsertLeafAt_view t1 x near node dad node dad
      (0 + f1.length + f2.length) i j f1 f2 (by rw [h1near]; exact hlen)
      (by rw [h1near]; exact hf) hfa hfb hab hab han hbn hpa hla hpb
    refine ⟨t1, t2, i, j, f1, f2, hdel, hre t2 h2, h2, hf, hfa, hfb, hi, hj, ?_⟩
    intro n
    rw [hv2 n, h1near]
    by_cases hn1 : n = near
    · simp only [if_pos hn1]
    · by_cases hn2 : n = node
      · simp only [if_neg hn1, if_pos hn2]
        rw [h1a, modify_twice]
      · by_cases hn3 : n = dad
        · simp only [if_neg hn1, if_neg hn2, if_pos hn3]
          rw [h1b, modify_twice]
        · simp only [if_neg hn1, if_neg hn2, if_neg hn3]
          exact h1o n hn2 hn3
  · obtain ⟨t2, h2, hv2⟩ := reinsertLeafAt_view t1 x near dad node node dad
      (0 + f1.length + f2.length) j i f1 f2 (by rw [h1near]; exact hlen)
      (by rw [h1near]; exact hf) hfa hfb hab (Ne.symm hab) hbn han hpb hlb hpa
    refine ⟨t1, t2, i, j, f1, f2, hdel, hre t2 h2, h2, hf, hfa, hfb, hi, hj, ?_⟩
    intro n
    rw [hv2 n, h1near]
    by_cases hn1 : n = near
    · simp only [if_pos hn1]
    · by_cases hn2 : n = dad
      · have hn3 : ¬ (n = node) := by rw [hn2]; exact hab
        simp only [if_neg hn1, if_neg hn3, if_pos hn2]
        rw [h1a, modify_twice]
      · by_cases hn3 : n = node
        · simp only [if_neg hn1, if_neg hn2, if_pos hn3]
          rw [h1b, modify_twice]
        · simp only [if_neg hn1, if_neg hn2, if_neg hn3]
          exact h1o n hn2 hn3

theorem findNeighborIt_cons (e : Neighbor) (es : List Neighbor) (x : Nat) :
    findNeighborIt (e :: es) x =
      if e.node == x then some 0 else (findNeighborIt es x).map (· + 1) := by
  simp only [findNeighborIt, List.findIdx?_cons, Nat.zero_add, List.findIdx?_succ]

/-- The half-edge that `findNeighbor` returns after the first slot that points to `x`
was rewritten and still points to `x`. -/
theorem find?_modify_at (ns : List Neighbor) (f : Neighbor → Neighbor) (x k : Nat)
    (hk : findNeighborIt ns x = some k) (hf : ∀ e, (f e).node = x) :
    (ns.modify f k).find? (fun nei => nei.node == x) = ns[k]?.map f := by
  induction ns generalizing k with
  | nil => simp [findNeighborIt] at hk
  | cons e es ih =>
    rw [findNeighborIt_cons] at hk
    by_cases he : (e.node == x) = true
    · rw [if_pos he] at hk
      simp only [Option.some.injEq] at hk
      subst hk
      simp [hf]
    · rw [if_neg he] at hk
      cases hr : findNeighborIt es x with
      | none => rw [hr] at hk; simp at hk
      | some k1 =>
        rw [hr] at hk
        simp only [Option.map_some', Option.some.injEq] at hk
        subst hk
        have he1 : (e.node == x) = false := by simpa using he
        simp only [List.modify_succ_cons, List.getElem?_cons_succ, List.find?_cons, he1]
        exact ih k1 hr

/-- The half-edge that `findNeighbor` returns for `v` does not change when a slot that
does not point to `v` is rewritten to another one that does not. -/
theorem find?_modify_other (ns : List Neighbor) (f : Neighbor → Neighbor) (v k : Nat)
    (e0 : Neighbor) (hk : ns[k]? = some e0) (h0 : e0.node ≠ v) (hf : (f e0).node ≠ v) :
    (ns.modify f k).find? (fun nei => nei.node == v) = ns.find? (fun nei => nei.node == v) := by
  induction ns generalizing k with
  | nil => simp at hk
  | cons e es ih =>
    cases k with
    | zero =>
      simp only [List.getElem?_cons_zero, Option.some.injEq] at hk
      subst hk
      have h1 : (e.node == v) = false := by simpa using h0
      have h2 : ((f e).node == v) = false := by simpa using hf
      simp only [List.modify_zero_cons, List.find?_cons, h1, h2]
    | succ k =>
      simp only [List.getElem?_cons_succ] at hk
      rw [List.modify_succ_cons]
      cases he : (e.node == v) with
      | true => simp only [List.find?_cons, he]
      | false =>
        simp only [List.find?_cons, he]
        exact ih k hk

theorem map_node_modify (ns : List Neighbor) (x k : Nat) (l : ℚ)
    (hk : findNeighborIt ns x = some k) :
    (ns.modify (fun nei => { nei with node := x, length := l }) k).map (·.node) =
      ns.map (·.node) := by
  obtain ⟨e, he, hex⟩ := getElem?_of_findNeighborIt ns x k hk
  apply List.ext_getElem?
  intro m
  simp only [List.getElem?_map, List.getElem?_modify]
  by_cases hm : k = m
  · subst hm
    rw [he]
    simp [hex]
  · cases h : ns[m]? <;> simp [hm]

/-- C13: for every leaf `x` on an internal node `near` of degree 3 whose two other
neighbors are `a` and `b`, `deleteLeaf(x)` followed by `reinsertLeaf(x, node, dad)` on
the branch that the deletion made, `(node, dad)` being `(a, b)` or `(b, a)`, gives back
the topology: every node has the neighbors it had before the deletion. -/
theorem deleteLeaf_reinsertLeaf_restores_topology (t : Tree) (x near a b node dad : Nat)
    (h : t.leafAt x near a b = true)
    (hnd : (node = a ∧ dad = b) ∨ (node = b ∧ dad = a)) :
    ∃ t1 t2, deleteLeaf t x = some t1 ∧ reinsertLeaf t1 x node dad = some t2 ∧
      ∀ n, ((t2.neighbors n).map (·.node)).Perm ((t.neighbors n).map (·.node)) := by
  obtain ⟨t1, t2, i, j, f1, f2, hdel, hre, _, hf, hfa, hfb, hi, hj, hv⟩ :=
    delete_reinsert_view t x near a b node dad h hnd
  obtain ⟨_, hlen, _, hab, _, _, _, _, _, _, _⟩ := leafAt_facts t x near a b h
  obtain ⟨ex, hex, hL, hf1, hf2⟩ := three_slots _ x f1 f2 hlen hf
  have hax : ¬ (a = x) := by rw [← hfa]; exact hf1
  have hbx : ¬ (b = x) := by rw [← hfb]; exact hf2
  refine ⟨t1, t2, hdel, hre, ?_⟩
  intro n
  rw [hv n]
  by_cases hn1 : n = near
  · rw [if_pos hn1, hn1]
    have hperm : ∀ (p q r : Nat), [p, q, r].Perm [r, q, p] := fun p q r =>
      (List.Perm.swap _ _ _).trans
        ((List.Perm.cons _ (List.Perm.swap _ _ _)).trans (List.Perm.swap _ _ _))
    rcases hnd with ⟨rfl, rfl⟩ | ⟨rfl, rfl⟩
    · rcases hL with hL | hL | hL <;> rw [hL] <;>
        simp only [List.map_cons, List.map_nil, hex, hfa, hfb, hax, hbx, Ne.symm hab,
          if_true, if_false] <;>
        exact List.Perm.refl _
    · rcases hL with hL | hL | hL <;> rw [hL] <;>
        simp only [List.map_cons, List.map_nil, hex, hfa, hfb, hax, hbx, Ne.symm hab,
          if_true, if_false] <;>
        first
          | exact List.Perm.swap _ _ _
          | exact List.Perm.cons _ (List.Perm.swap _ _ _)
          | exact hperm _ _ _
  · rw [if_neg hn1]
    by_cases hn2 : n = a
    · rw [if_pos hn2, hn2, map_node_modify _ near i _ hi]
    · rw [if_neg hn2]
      by_cases hn3 : n = b
      · rw [if_pos hn3, hn3, map_node_modify _ near j _ hj]
      · rw [if_neg hn3]

theorem deleteLeaf_reinsertLeaf_restores_topology_witness :
    ∃ t1 t2, deleteLeaf exampleTree 0 = some t1 ∧ reinsertLeaf t1 0 5 1 = some t2 ∧
      ∀ n, ((t2.neighbors n).map (·.node)).Perm ((exampleTree.neighbors n).map (·.node)) :=
  deleteLeaf_reinsertLeaf_restores_topology exampleTree 0 4 1 5 5 1 (by decide)
    (Or.inr ⟨rfl, rfl⟩)

theorem IQPTree_deleteLeaf_eq (t : Tree) (leaf : Nat) :
    IQPTree.deleteLeaf t leaf = deleteLeaf t leaf := rfl

theorem edgeLength_near (t : Tree) (x near a b : Nat) (f1 f2 : Neighbor)
    (hlen : (t.neighbors near).length = 3)
    (hf : (t.neighbors near).filter (fun nei => nei.node != x) = [f1, f2])
    (hfa : f1.node = a) (hfb : f2.node = b) (hab : a ≠ b) :
    t.edgeLength near a = some f1.length ∧ t.edgeLength near b = some f2.length := by
  obtain ⟨ex, hex, hL, hf1, hf2⟩ := three_slots _ x f1 f2 hlen hf
  have hax : ¬ (a = x) := by rw [← hfa]; exact hf1
  have hbx : ¬ (b = x) := by rw [← hfb]; exact hf2
  have hxa : ¬ (x = a) := fun h => hax h.symm
  have hxb : ¬ (x = b) := fun h => hbx h.symm
  unfold Tree.edgeLength
  rcases hL with hL | hL | hL <;> rw [hL] <;>
    simp [List.find?_cons, hex, hfa, hfb, hxa, hxb, hab, Ne.symm hab]

/-- The lengths that `near` keeps after the round trip. -/
theorem edgeLength_near_after (L : List Neighbor) (x a b node dad v : Nat) (l : ℚ)
    (f1 f2 : Neighbor) (hlen : L.length = 3)
    (hf : L.filter (fun nei => nei.node != x) = [f1, f2])
    (hfa : f1.node = a) (hfb : f2.node = b) (hab : a ≠ b)
    (hnd : (node = a ∧ dad = b) ∨ (node = b ∧ dad = a)) :
    ((L.map fun e => if e.node = x then e
        else { e with node := if e.node = a then node else dad, length := l }).find?
      (fun nei => nei.node == v)).map (·.length) =
      if v = a ∨ v = b then some l
      else (L.find? (fun nei => nei.node == v)).map (·.length) := by
  obtain ⟨ex, hex, hL, hf1, hf2⟩ := three_slots _ x f1 f2 hlen hf
  have hax : ¬ (a = x) := by rw [← hfa]; exact hf1
  have hbx : ¬ (b = x) := by rw [← hfb]; exact hf2
  have hxa : ¬ (x = a) := fun h => hax h.symm
  have hxb : ¬ (x = b) := fun h => hbx h.symm
  have hba : ¬ (b = a) := fun h => hab h.symm
  by_cases hva : v = a
  · subst hva
    rcases hnd with ⟨rfl, rfl⟩ | ⟨rfl, rfl⟩ <;> rcases hL with hL | hL | hL <;> rw [hL] <;>
      simp [List.find?_cons, hex, hfa, hfb, hxa, hxb, hax, hbx, hab, hba]
  · by_cases hvb : v = b
    · subst hvb
      rcases hnd with ⟨rfl, rfl⟩ | ⟨rfl, rfl⟩ <;> rcases hL with hL | hL | hL <;> rw [hL] <;>
        simp [List.find?_cons, hex, hfa, hfb, hxa, hxb, hax, hbx, hab, hba]
    · have hav : ¬ (a = v) := fun h => hva h.symm
      have hbv : ¬ (b = v) := fun h => hvb h.symm
      rcases hnd with ⟨rfl, rfl⟩ | ⟨rfl, rfl⟩ <;> rcases hL with hL | hL | hL <;> rw [hL] <;>
        simp [List.find?_cons, hex, hfa, hfb, hxa, hxb, hax, hbx, hab, hba, hva, hvb, hav, hbv]

/-- C14, the claim as written, fails: on `exampleTree`, whose node 4 has the branches of
length 2 to leaf 1 and of length 5 to node 5, `deleteLeaf(0)` followed by
`reinsertLeaf(0, 1, 5)` leaves the length 7/2 on both, which is more than `1e-9` away
from 2. -/
theorem deleteLeaf_reinsertLeaf_changes_length :
    ((deleteLeaf exampleTree 0).bind fun t1 => reinsertLeaf t1 0 1 5).map
        (fun t2 => (t2.edgeLength 4 1, t2.edgeLength 4 5)) =
      some (some (7 / 2), some (7 / 2)) ∧
    exampleTree.edgeLength 4 1 = some 2 ∧ exampleTree.edgeLength 4 5 = some 5 ∧
    ((7 : ℚ) / 2 - 2 > 1 / 1000000000) := by
  decide!

/-- C14, as amended: for every leaf `x` on an internal node `near` of degree 3 whose
other branches, to `a` and `b`, have the lengths `l1` and `l2`, `deleteLeaf(x)` followed
by `reinsertLeaf(x, same branch)` leaves the length `(l1 + l2) / 2` on both branches, at
both of their ends, and every other branch with the length it had; the same holds for
`IQPTree::deleteLeaf` and `IQPTree::reinsertLeaf`. The two lengths are recovered only
as their sum. -/
theorem deleteLeaf_reinsertLeaf_halves_lengths (t : Tree) (x near a b node dad : Nat)
    (h : t.leafAt x near a b = true)
    (hnd : (node = a ∧ dad = b) ∨ (node = b ∧ dad = a)) :
    ∃ t1 t2 l1 l2, deleteLeaf t x = some t1 ∧ reinsertLeaf t1 x node dad = some t2 ∧
      IQPTree.deleteLeaf t x = some t1 ∧ IQPTree.reinsertLeaf t1 x near node dad = some t2 ∧
      t.edgeLength near a = some l1 ∧ t.edgeLength near b = some l2 ∧
      t2.edgeLength near a = some ((l1 + l2) / 2) ∧
      t2.edgeLength a near = some ((l1 + l2) / 2) ∧
      t2.edgeLength near b = some ((l1 + l2) / 2) ∧
      t2.edgeLength b near = some ((l1 + l2) / 2) ∧
      ∀ u v, ¬ ((u = near ∧ (v = a ∨ v = b)) ∨ ((u = a ∨ u = b) ∧ v = near)) →
        t2.edgeLength u v = t.edgeLength u v := by
  obtain ⟨t1, t2, i, j, f1, f2, hdel, hre, hreAt, hf, hfa, hfb, hi, hj, hv⟩ :=
    delete_reinsert_view t x near a b node dad h hnd
  obtain ⟨_, hlen, _, hab, han, hbn, _, _, _, _, _⟩ := leafAt_facts t x near a b h
  obtain ⟨hea, heb⟩ := edgeLength_near t x near a b f1 f2 hlen hf hfa hfb hab
  have hs : (0 + f1.length + f2.length) / 2 = (f1.length + f2.length) / 2 := by
    rw [zero_add]
  have hnear : ∀ v, t2.edgeLength near v =
      if v = a ∨ v = b then some ((f1.length + f2.length) / 2) else t.edgeLength near v := by
    intro v
    unfold Tree.edgeLength
    rw [hv near, if_pos rfl, ← hs]
    exact edgeLength_near_after _ x a b node dad v _ f1 f2 hlen hf hfa hfb hab hnd
  obtain ⟨ea, hea_i, hea_n⟩ := getElem?_of_findNeighborIt _ near i hi
  obtain ⟨eb, heb_j, heb_n⟩ := getElem?_of_findNeighborIt _ near j hj
  have h2a : t2.neighbors a = (t.neighbors a).modify
      (fun nei => { nei with node := near, length := (0 + f1.length + f2.length) / 2 }) i := by
    rw [hv a, if_neg han, if_pos rfl]
  have h2b : t2.neighbors b = (t.neighbors b).modify
      (fun nei => { nei with node := near, length := (0 + f1.length + f2.length) / 2 }) j := by
    rw [hv b, if_neg hbn, if_neg (Ne.symm hab), if_pos rfl]
  refine ⟨t1, t2, f1.length, f2.length, hdel, hre, hdel, hreAt, hea, heb, ?_, ?_, ?_, ?_, ?_⟩
  · rw [hnear a, if_pos (Or.inl rfl)]
  · unfold Tree.edgeLength
    rw [h2a, find?_modify_at _ _ near i hi (fun _ => rfl), hea_i, hs]
    rfl
  · rw [hnear b, if_pos (Or.inr rfl)]
  · unfold Tree.edgeLength
    rw [h2b, find?_modify_at _ _ near j hj (fun _ => rfl), heb_j, hs]
    rfl
  · intro u v hnot
    by_cases hu1 : u = near
    · subst hu1
      have hv' : ¬ (v = a ∨ v = b) := fun h => hnot (Or.inl ⟨rfl, h⟩)
      rw [hnear v, if_neg hv']
    · by_cases hu2 : u = a
      · subst hu2
        have hvn : v ≠ near := fun h => hnot (Or.inr ⟨Or.inl rfl, h⟩)
        unfold Tree.edgeLength
        rw [h2a, find?_modify_other _ _ v i ea hea_i (by rw [hea_n]; exact Ne.symm hvn)
          (Ne.symm hvn)]
      · by_cases hu3 : u = b
        · subst hu3
          have hvn : v ≠ near := fun h => hnot (Or.inr ⟨Or.inr rfl, h⟩)
          unfold Tree.edgeLength
          rw [h2b, find?_modify_other _ _ v j eb heb_j (by rw [heb_n]; exact Ne.symm hvn)
            (Ne.symm hvn)]
        · unfold Tree.edgeLength
          rw [hv u, if_neg hu1, if_neg hu2, if_neg hu3]

theorem deleteLeaf_reinsertLeaf_halves_lengths_witness :
    ∃ t1 t2 l1 l2, deleteLeaf exampleTree 0 = some t1 ∧ reinsertLeaf t1 0 1 5 = some t2 ∧
      IQPTree.deleteLeaf exampleTree 0 = some t1 ∧
      IQPTree.reinsertLeaf t1 0 4 1 5 = some t2 ∧
      exampleTree.edgeLength 4 1 = some l1 ∧ exampleTree.edgeLength 4 5 = some l2 ∧
      t2.edgeLength 4 1 = some ((l1 + l2) / 2) ∧
      t2.edgeLength 1 4 = some ((l1 + l2) / 2) ∧
      t2.edgeLength 4 5 = some ((l1 + l2) / 2) ∧
      t2.edgeLength 5 4 = some ((l1 + l2) / 2) ∧
      ∀ u v, ¬ ((u = 4 ∧ (v = 1 ∨ v = 5)) ∨ ((u = 1 ∨ u = 5) ∧ v = 4)) →
        t2.edgeLength u v = exampleTree.edgeLength u v :=
  deleteLeaf_reinsertLeaf_halves_lengths exampleTree 0 4 1 5 1 5 (by decide)
    (Or.inl ⟨rfl, rfl⟩)

/-- With `p_delete = 0` a turn of the loop of `deleteLeaves` deletes nothing: the test
`rand() / RAND_MAX < p_delete` fails for every value of `rand()`. -/
theorem deleteLeavesStep_zero (RAND_MAX : Nat) (st : DeleteLeavesState) (taxon r : Nat) :
    ∃ st1, IQPTree.deleteLeavesStep 0 RAND_MAX st taxon r = some st1 ∧
      st1.tree = st.tree ∧ st1.del_leaves = st.del_leaves ∧
      st1.adjacent_nodes = st.adjacent_nodes := by
  have hnot : ¬ ((r : ℚ) / (RAND_MAX : ℚ) < 0 ∧ st.remain_leaves > 3) := by
    intro h
    have h0 : (0 : ℚ) ≤ (r : ℚ) / (RAND_MAX : ℚ) :=
      div_nonneg (Nat.cast_nonneg r) (Nat.cast_nonneg RAND_MAX)
    exact absurd h.1 (not_lt.2 h0)
  unfold IQPTree.deleteLeavesStep
  rw [if_neg hnot]
  split
  · exact ⟨_, rfl, rfl, rfl, rfl⟩
  · exact ⟨_, rfl, rfl, rfl, rfl⟩

theorem deleteLeavesLoop_zero (RAND_MAX : Nat) (rand : Nat → Nat) (taxa : List Nat) (k : Nat)
    (st : DeleteLeavesState) :
    ∃ st1, IQPTree.deleteLeavesLoop 0 RAND_MAX rand taxa k st = some st1 ∧
      st1.tree = st.tree ∧ st1.del_leaves = st.del_leaves ∧
      st1.adjacent_nodes = st.adjacent_nodes := by
  induction taxa generalizing k st with
  | nil => exact ⟨st, rfl, rfl, rfl, rfl⟩
  | cons taxon rest ih =>
    obtain ⟨st1, h1, ht, hd, ha⟩ := deleteLeavesStep_zero RAND_MAX st taxon (rand k)
    obtain ⟨st2, h2, ht2, hd2, ha2⟩ := ih (k + 1) st1
    refine ⟨st2, ?_, ht2.trans ht, hd2.trans hd, ha2.trans ha⟩
    rw [IQPTree.deleteLeavesLoop, h1]
    exact h2

/-- C16: with `p_delete = 0` the perturbation of an IQP iteration is the identity: for
every sequence of values of `rand()`, `deleteLeaves` deletes no leaf (the tree is as it
was and the two vectors stay empty) and `reinsertLeaves`, whatever a turn of its loop
does, then leaves the tree, its topology and its branch lengths, as it was. -/
theorem p_delete_zero_is_identity (RAND_MAX : Nat) (rand : Nat → Nat) (t : Tree)
    (taxa : List Nat) (turn : Tree → Nat → Nat → Nat → Option Tree) :
    ∃ st, IQPTree.deleteLeaves 0 RAND_MAX rand t taxa [] [] = some st ∧
      st.tree = t ∧ st.del_leaves = [] ∧ st.adjacent_nodes = [] ∧
      IQPTree.reinsertLeavesLoop turn rand st.del_leaves st.adjacent_nodes taxa.length
        st.tree = some t := by
  obtain ⟨st, h, ht, hd, ha⟩ := deleteLeavesLoop_zero RAND_MAX rand taxa 0
    { tree := t, del_leaves := [], adjacent_nodes := [], root := none,
      remain_leaves := taxa.length }
  refine ⟨st, h, ht, hd, ha, ?_⟩
  rw [hd, ha, ht]
  rfl

theorem SPRMove_eta (m : SPRMove) :
    (⟨m.prune_node, m.prune_dad, m.regraft_node, m.regraft_dad, m.score⟩ : SPRMove) = m := rfl

theorem insert_mem (spr : SPRMove) (buf : List SPRMove) (x : SPRMove) :
    x ∈ SPRMoves.insert spr buf → x = spr ∨ x ∈ buf := by
  induction buf with
  | nil => intro h; simp [SPRMoves.insert] at h; exact Or.inl h
  | cons m ms ih =>
    intro h
    unfold SPRMoves.insert at h
    split at h
    · rcases List.mem_cons.1 h with h | h
      · exact Or.inl h
      · exact Or.inr h
    · split at h
      · rcases List.mem_cons.1 h with h | h
        · exact Or.inr (List.mem_cons.2 (Or.inl h))
        · rcases ih h with h | h
          · exact Or.inl h
          · exact Or.inr (List.mem_cons_of_mem _ h)
      · exact Or.inr h

theorem mem_insert_of_mem (spr : SPRMove) (buf : List SPRMove) (x : SPRMove) (h : x ∈ buf) :
    x ∈ SPRMoves.insert spr buf := by
  induction buf with
  | nil => simp at h
  | cons m ms ih =>
    unfold SPRMoves.insert
    split
    · exact List.mem_cons_of_mem _ h
    · split
      · rcases List.mem_cons.1 h with h | h
        · exact List.mem_cons.2 (Or.inl h)
        · exact List.mem_cons_of_mem _ (ih h)
      · exact h

theorem insert_sorted (spr : SPRMove) (buf : List SPRMove) (h : SPRMoves.Sorted buf) :
    SPRMoves.Sorted (SPRMoves.insert spr buf) := by
  induction buf with
  | nil => simp [SPRMoves.insert, SPRMoves.Sorted]
  | cons m ms ih =>
    unfold SPRMoves.Sorted at h ih ⊢
    rw [List.pairwise_cons] at h
    unfold SPRMoves.insert
    split
    · rename_i h1
      rw [List.pairwise_cons]
      refine ⟨?_, List.pairwise_cons.2 h⟩
      intro x hx
      rcases List.mem_cons.1 hx with hx | hx
      · rw [hx]; exact h1
      · exact lt_trans (h.1 x hx) h1
    · split
      · rename_i h1 h2
        rw [List.pairwise_cons]
        refine ⟨?_, ih h.2⟩
        intro x hx
        rcases insert_mem spr ms x hx with hx | hx
        · rw [hx]; exact h2
        · exact h.1 x hx
      · exact List.pairwise_cons.2 h

/-- A move with a new score is inserted: the buffer grows by one and holds the move. -/
theorem insert_new (spr : SPRMove) (buf : List SPRMove)
    (hnew : ∀ b ∈ buf, b.score ≠ spr.score) :
    (SPRMoves.insert spr buf).length = buf.length + 1 ∧ spr ∈ SPRMoves.insert spr buf := by
  induction buf with
  | nil => simp [SPRMoves.insert]
  | cons m ms ih =>
    unfold SPRMoves.insert
    split
    · simp
    · split
      · obtain ⟨h1, h2⟩ := ih (fun b hb => hnew b (List.mem_cons_of_mem _ hb))
        exact ⟨by simp [h1], List.mem_cons_of_mem _ h2⟩
      · rename_i h1 h2
        exfalso
        exact hnew m (List.mem_cons_self _ _) (le_antisymm (le_of_not_lt h2) (le_of_not_lt h1))

theorem sorted_dropLast (buf : List SPRMove) (h : SPRMoves.Sorted buf) :
    SPRMoves.Sorted buf.dropLast :=
  List.Pairwise.sublist (List.dropLast_sublist buf) h

/-- In a sorted buffer the last element has the smallest score. -/
theorem last_le (buf : List SPRMove) (h : SPRMoves.Sorted buf) (last : SPRMove)
    (hl : buf.getLast? = some last) : ∀ b ∈ buf, last.score ≤ b.score := by
  intro b hb
  have hne : buf ≠ [] := List.ne_nil_of_mem hb
  have hsplit : buf = buf.dropLast ++ [last] := by
    have := List.dropLast_append_getLast hne
    rw [List.getLast?_eq_getLast _ hne] at hl
    simp only [Option.some.injEq] at hl
    rw [hl] at this
    exact this.symm
  rw [hsplit] at hb
  unfold SPRMoves.Sorted at h
  rw [hsplit, List.pairwise_append] at h
  rcases List.mem_append.1 hb with hb | hb
  · exact le_of_lt (h.2.2 b hb last (List.mem_singleton.2 rfl))
  · rw [List.mem_singleton.1 hb]

theorem mem_dropLast_or (buf : List SPRMove) (last : SPRMove)
    (hl : buf.getLast? = some last) (b : SPRMove) (hb : b ∈ buf) :
    b ∈ buf.dropLast ∨ b = last := by
  have hne : buf ≠ [] := List.ne_nil_of_mem hb
  have hsplit : buf = buf.dropLast ++ [last] := by
    have := List.dropLast_append_getLast hne
    rw [List.getLast?_eq_getLast _ hne] at hl
    simp only [Option.some.injEq] at hl
    rw [hl] at this
    exact this.symm
  rw [hsplit] at hb
  rcases List.mem_append.1 hb with hb | hb
  · exact Or.inl hb
  · exact Or.inr (List.mem_singleton.1 hb)

theorem last_lt_dropLast (buf : List SPRMove) (h : SPRMoves.Sorted buf) (last : SPRMove)
    (hl : buf.getLast? = some last) : ∀ b ∈ buf.dropLast, last.score < b.score := by
  intro b hb
  have hne : buf ≠ [] := by
    intro h0
    rw [h0] at hl
    simp at hl
  have hsplit : buf = buf.dropLast ++ [last] := by
    have := List.dropLast_append_getLast hne
    rw [List.getLast?_eq_getLast _ hne] at hl
    simp only [Option.some.injEq] at hl
    rw [hl] at this
    exact this.symm
  unfold SPRMoves.Sorted at h
  rw [hsplit, List.pairwise_append] at h
  exact h.2.2 b hb last (List.mem_singleton.2 rfl)

/-- One call of `add` on a full buffer: a score not above the worst leaves the buffer as
it is, a better one replaces the last element. -/
theorem add_full (MAX_SPR_MOVES : Nat) (buf : List SPRMove) (last : SPRMove)
    (hl : buf.getLast? = some last) (hfull : buf.length ≥ MAX_SPR_MOVES)
    (pn pd rn rd : Nat) (score : ℚ) :
    (score ≤ last.score → SPRMoves.add MAX_SPR_MOVES buf pn pd rn rd score = some buf) ∧
    (last.score < score → SPRMoves.add MAX_SPR_MOVES buf pn pd rn rd score =
      some (SPRMoves.insert ⟨pn, pd, rn, rd, score⟩ buf.dropLast)) := by
  unfold SPRMoves.add
  rw [if_pos hfull, hl]
  constructor
  · intro h
    dsimp only
    rw [if_pos h]
  · intro h
    dsimp only
    rw [if_neg (not_le.2 h)]

theorem add_topOf (MAX_SPR_MOVES : Nat) (hMAX : 0 < MAX_SPR_MOVES) (buf seen : List SPRMove)
    (m : SPRMove) (hinv : SPRMoves.TopOf MAX_SPR_MOVES buf seen)
    (hnew : ∀ x ∈ seen, x.score ≠ m.score) :
    ∃ buf1, SPRMoves.add MAX_SPR_MOVES buf m.prune_node m.prune_dad m.regraft_node
        m.regraft_dad m.score = some buf1 ∧ SPRMoves.TopOf MAX_SPR_MOVES buf1 (seen ++ [m]) := by
  obtain ⟨hs, hlen, hsub, hout, hall⟩ := hinv
  have hnewb : ∀ b ∈ buf, b.score ≠ m.score := fun b hb => hnew b (hsub b hb)
  by_cases hfull : buf.length ≥ MAX_SPR_MOVES
  · have hne : buf ≠ [] := by
      intro h0
      rw [h0] at hfull
      simp at hfull
      omega
    have hl : buf.getLast? = some (buf.getLast hne) := List.getLast?_eq_getLast _ hne
    have hlast_mem : buf.getLast hne ∈ buf := List.getLast_mem hne
    have hlenM : buf.length = MAX_SPR_MOVES := by
      have : buf.length ≤ MAX_SPR_MOVES := by rw [hlen]; exact Nat.min_le_left _ _
      omega
    have hseen : MAX_SPR_MOVES ≤ seen.length := by
      rw [hlen] at hlenM
      have := Nat.min_le_right MAX_SPR_MOVES seen.length
      omega
    obtain ⟨h1, h2⟩ := add_full MAX_SPR_MOVES buf _ hl hfull m.prune_node m.prune_dad
      m.regraft_node m.regraft_dad m.score
    by_cases hsc : m.score ≤ (buf.getLast hne).score
    · refine ⟨buf, h1 hsc, hs, ?_, ?_, ?_, ?_⟩
      · rw [hlenM, List.length_append, List.length_singleton]
        rw [Nat.min_eq_left (by omega)]
      · intro b hb
        exact List.mem_append_left _ (hsub b hb)
      · intro x hx hxb b hb
        rcases List.mem_append.1 hx with hx | hx
        · exact hout x hx hxb b hb
        · rw [List.mem_singleton.1 hx]
          have hle := le_trans hsc (last_le buf hs _ hl b hb)
          exact lt_of_le_of_ne hle (fun h => hnewb b hb h.symm)
      · intro h
        omega
    · have hlt : (buf.getLast hne).score < m.score := lt_of_not_le hsc
      rw [SPRMove_eta] at h2
      have hnewd : ∀ b ∈ buf.dropLast, b.score ≠ m.score :=
        fun b hb => hnewb b (List.mem_of_mem_dropLast hb)
      obtain ⟨hil, him⟩ := insert_new m buf.dropLast hnewd
      refine ⟨_, h2 hlt, insert_sorted m _ (sorted_dropLast buf hs), ?_, ?_, ?_, ?_⟩
      · rw [hil, List.length_dropLast, List.length_append, List.length_singleton,
          Nat.min_eq_left (by omega)]
        omega
      · intro b hb
        rcases insert_mem m _ b hb with hb | hb
        · rw [hb]; exact List.mem_append_right _ (List.mem_singleton.2 rfl)
        · exact List.mem_append_left _ (hsub b (List.mem_of_mem_dropLast hb))
      · intro x hx hxb b hb
        have hxm : x ≠ m := fun h => hxb (h ▸ him)
        have hxs : x ∈ seen := by
          rcases List.mem_append.1 hx with hx | hx
          · exact hx
          · exact absurd (List.mem_singleton.1 hx) hxm
        have hxlast : x.score ≤ (buf.getLast hne).score := by
          by_cases hxbuf : x ∈ buf
          · rcases mem_dropLast_or buf _ hl x hxbuf with h | h
            · exact absurd (mem_insert_of_mem m _ x h) hxb
            · rw [h]
          · exact le_of_lt (hout x hxs hxbuf _ hlast_mem)
        rcases insert_mem m _ b hb with hb | hb
        · rw [hb]; exact lt_of_le_of_lt hxlast hlt
        · by_cases hxbuf : x ∈ buf
          · rcases mem_dropLast_or buf _ hl x hxbuf with h | h
            · exact absurd (mem_insert_of_mem m _ x h) hxb
            · rw [h]; exact last_lt_dropLast buf hs _ hl b hb
          · exact hout x hxs hxbuf b (List.mem_of_mem_dropLast hb)
      · intro h
        rw [hil, List.length_dropLast] at h
        omega
  · have hadd : SPRMoves.add MAX_SPR_MOVES buf m.prune_node m.prune_dad m.regraft_node
        m.regraft_dad m.score = some (SPRMoves.insert m buf) := by
      unfold SPRMoves.add
      rw [if_neg hfull, SPRMove_eta]
    have hlt : buf.length < MAX_SPR_MOVES := Nat.lt_of_not_ge hfull
    have hlen2 : buf.length = seen.length := by
      rw [hlen] at hlt ⊢
      have := Nat.min_le_left MAX_SPR_MOVES seen.length
      have := Nat.min_le_right MAX_SPR_MOVES seen.length
      rcases Nat.le_total MAX_SPR_MOVES seen.length with h | h
      · rw [Nat.min_eq_left h] at hlt; omega
      · rw [Nat.min_eq_right h]
    obtain ⟨hil, him⟩ := insert_new m buf hnewb
    have hallin : ∀ x ∈ seen ++ [m], x ∈ SPRMoves.insert m buf := by
      intro x hx
      rcases List.mem_append.1 hx with hx | hx
      · exact mem_insert_of_mem m _ x (hall hlt x hx)
      · rw [List.mem_singleton.1 hx]; exact him
    refine ⟨_, hadd, insert_sorted m _ hs, ?_, ?_, ?_, ?_⟩
    · rw [hil, List.length_append, List.length_singleton, hlen2, Nat.min_eq_right (by omega)]
    · intro b hb
      rcases insert_mem m _ b hb with hb | hb
      · rw [hb]; exact List.mem_append_right _ (List.mem_singleton.2 rfl)
      · exact List.mem_append_left _ (hsub b hb)
    · intro x hx hxb
      exact absurd (hallin x hx) hxb
    · intro _ x hx
      exact hallin x hx

theorem addAll_topOf (MAX_SPR_MOVES : Nat) (hMAX : 0 < MAX_SPR_MOVES) (ms buf seen : List SPRMove)
    (hinv : SPRMoves.TopOf MAX_SPR_MOVES buf seen)
    (hnd : ((seen ++ ms).map (·.score)).Nodup) :
    ∃ buf1, SPRMoves.addAll MAX_SPR_MOVES ms buf = some buf1 ∧
      SPRMoves.TopOf MAX_SPR_MOVES buf1 (seen ++ ms) := by
  induction ms generalizing buf seen with
  | nil => exact ⟨buf, rfl, by simpa using hinv⟩
  | cons m ms ih =>
    have hnew : ∀ x ∈ seen, x.score ≠ m.score := by
      intro x hx heq
      rw [List.map_append, List.nodup_append] at hnd
      exact hnd.2.2 (List.mem_map_of_mem _ hx)
        (by rw [heq]; exact List.mem_map_of_mem _ (List.mem_cons_self _ _))
    obtain ⟨buf1, hadd, hinv1⟩ := add_topOf MAX_SPR_MOVES hMAX buf seen m hinv hnew
    have hnd1 : (((seen ++ [m]) ++ ms).map (·.score)).Nodup := by
      simpa using hnd
    obtain ⟨buf2, hall, hinv2⟩ := ih buf1 (seen ++ [m]) hinv1 hnd1
    refine ⟨buf2, ?_, by simpa using hinv2⟩
    rw [SPRMoves.addAll, hadd]
    exact hall

/-- C19: after any sequence of calls of `SPRMoves::add` with pairwise distinct scores,
on a buffer that starts empty, the buffer holds `min MAX_SPR_MOVES n` of the `n` moves
added, best-first, and every move it does not hold scores below every move it holds:
they are the `MAX_SPR_MOVES` largest-scoring moves added so far. On a full buffer, a
new move whose score is not above the worst (smallest) score of the buffer is not
inserted, and a better one takes the place of the move with the worst score. -/
theorem SPRMoves_add_keeps_best (MAX_SPR_MOVES : Nat) (hMAX : 0 < MAX_SPR_MOVES)
    (ms : List SPRMove) (hnd : (ms.map (·.score)).Nodup) :
    ∃ buf, SPRMoves.addAll MAX_SPR_MOVES ms [] = some buf ∧
      buf.length = min MAX_SPR_MOVES ms.length ∧ buf.length ≤ MAX_SPR_MOVES ∧
      buf.Pairwise (fun a b => a.score > b.score) ∧
      (∀ b ∈ buf, b ∈ ms) ∧
      (∀ m ∈ ms, m ∉ buf → ∀ b ∈ buf, m.score < b.score) ∧
      (∀ worst, buf.getLast? = some worst → buf.length = MAX_SPR_MOVES →
        (∀ b ∈ buf, worst.score ≤ b.score) ∧
        ∀ pn pd rn rd score,
          (score ≤ worst.score →
            SPRMoves.add MAX_SPR_MOVES buf pn pd rn rd score = some buf) ∧
          (worst.score < score →
            SPRMoves.add MAX_SPR_MOVES buf pn pd rn rd score =
              some (SPRMoves.insert ⟨pn, pd, rn, rd, score⟩ buf.dropLast))) := by
  have h0 : SPRMoves.TopOf MAX_SPR_MOVES [] [] := by
    refine ⟨List.Pairwise.nil, by simp, by simp, by simp, by simp⟩
  obtain ⟨buf, hadd, hs, hlen, hsub, hout, _⟩ :=
    addAll_topOf MAX_SPR_MOVES hMAX ms [] [] h0 (by simpa using hnd)
  rw [List.nil_append] at hlen hsub hout
  refine ⟨buf, hadd, hlen, by rw [hlen]; exact Nat.min_le_left _ _, hs, hsub, hout, ?_⟩
  intro worst hw hfull
  exact ⟨last_le buf hs worst hw, fun pn pd rn rd score =>
    add_full MAX_SPR_MOVES buf worst hw (by omega) pn pd rn rd score⟩

theorem SPRMoves_add_keeps_best_witness :
    ∃ buf, SPRMoves.addAll 2 SPRMoves.exampleMoves [] = some buf ∧
      buf.length = min 2 SPRMoves.exampleMoves.length ∧ buf.length ≤ 2 ∧
      buf.Pairwise (fun a b => a.score > b.score) ∧
      (∀ b ∈ buf, b ∈ SPRMoves.exampleMoves) ∧
      (∀ m ∈ SPRMoves.exampleMoves, m ∉ buf → ∀ b ∈ buf, m.score < b.score) ∧
      (∀ worst, buf.getLast? = some worst → buf.length = 2 →
        (∀ b ∈ buf, worst.score ≤ b.score) ∧
        ∀ pn pd rn rd score,
          (score ≤ worst.score → SPRMoves.add 2 buf pn pd rn rd score = some buf) ∧
          (worst.score < score →
            SPRMoves.add 2 buf pn pd rn rd score =
              some (SPRMoves.insert ⟨pn, pd, rn, rd, score⟩ buf.dropLast))) :=
  SPRMoves_add_keeps_best 2 (by decide) SPRMoves.exampleMoves (by decide)

theorem nonConflictMoves_eq_foldl (l : List IQPTree.NNIMove) :
    IQPTree.nonConflictMoves l = l.foldl IQPTree.selectStep [] := rfl

theorem conflict_false_iff (a b : IQPTree.NNIMove) :
    IQPTree.conflict b a = false ↔ IQPTree.centreDisjoint a b := by
  unfold IQPTree.conflict IQPTree.centreDisjoint
  simp only [Bool.or_eq_false_iff, beq_eq_false_iff_ne, ne_eq, and_assoc]

theorem selectStep_pos (acc : List IQPTree.NNIMove) (m : IQPTree.NNIMove)
    (hc : acc.any (fun n => IQPTree.conflict m n) = true) :
    IQPTree.selectStep acc m = acc := by
  unfold IQPTree.selectStep
  rw [if_pos hc]

theorem selectStep_neg (acc : List IQPTree.NNIMove) (m : IQPTree.NNIMove)
    (hc : ¬ acc.any (fun n => IQPTree.conflict m n) = true) :
    IQPTree.selectStep acc m = acc ++ [m] := by
  unfold IQPTree.selectStep
  rw [if_neg hc]

theorem selectStep_extends (acc : List IQPTree.NNIMove) (m : IQPTree.NNIMove) :
    acc <+: IQPTree.selectStep acc m := by
  by_cases hc : acc.any (fun n => IQPTree.conflict m n) = true
  · rw [selectStep_pos acc m hc]
  · rw [selectStep_neg acc m hc]
    exact List.prefix_append _ _

theorem selectStep_foldl_spec (l acc : List IQPTree.NNIMove)
    (hacc : acc.Pairwise IQPTree.centreDisjoint) :
    ∃ r, l.foldl IQPTree.selectStep acc = acc ++ r ∧ r.Sublist l ∧
      (acc ++ r).Pairwise IQPTree.centreDisjoint ∧
      (acc = [] → ∀ first rest, l = first :: rest → r.head? = some first) := by
  induction l generalizing acc with
  | nil => exact ⟨[], by simp, List.Sublist.refl _, by simpa using hacc, by simp⟩
  | cons m ms ih =>
    rw [List.foldl_cons]
    by_cases hc : acc.any (fun n => IQPTree.conflict m n) = true
    · rw [selectStep_pos acc m hc]
      obtain ⟨r, hr, hsub, hp, _⟩ := ih acc hacc
      refine ⟨r, hr, hsub.cons m, hp, ?_⟩
      intro he
      rw [he] at hc
      simp at hc
    · rw [selectStep_neg acc m hc]
      have hp' : (acc ++ [m]).Pairwise IQPTree.centreDisjoint := by
        rw [List.pairwise_append]
        refine ⟨hacc, List.pairwise_singleton _ _, ?_⟩
        intro a ha b hb
        rw [List.mem_singleton] at hb
        rw [hb, ← conflict_false_iff]
        simp only [List.any_eq_true, not_exists, not_and, Bool.not_eq_true] at hc
        exact hc a ha
      obtain ⟨r, hr, hsub, hp, _⟩ := ih (acc ++ [m]) hp'
      refine ⟨m :: r, ?_, hsub.cons₂ m, ?_, ?_⟩
      · rw [hr]; simp
      · simpa using hp
      · intro _ first rest h
        simp only [List.cons.injEq] at h
        simp [h.1]

theorem selectStep_foldl_extends (l acc : List IQPTree.NNIMove) :
    acc <+: l.foldl IQPTree.selectStep acc := by
  induction l generalizing acc with
  | nil => exact List.prefix_refl _
  | cons m ms ih =>
    rw [List.foldl_cons]
    exact List.IsPrefix.trans (selectStep_extends acc m) (ih _)

/-- C20, the claim as written, fails: the loop compares only the ends of the central
branches. Of the three candidates of `exampleMoves` the first two are selected, although
node 3, an end of the central branch of the second, is the neighbor that the first move
exchanges. -/
theorem nonConflictMoves_share_swapped_neighbor :
    IQPTree.nonConflictMoves IQPTree.exampleMoves = [⟨1, 3, 2, 4, 5⟩, ⟨3, 6, 5, 7, 4⟩] ∧
      (⟨1, 3, 2, 4, 5⟩ : IQPTree.NNIMove).node1Nei = (⟨3, 6, 5, 7, 4⟩ : IQPTree.NNIMove).node1 := by
  decide

/-- C20, as amended: the non-conflict set that fast ML-NNI selects from the sorted
candidate list is a subsequence of it that starts with the first candidate; no end of
the central branch of a selected move is an end of the central branch of another
selected move; and a candidate is rejected only when it shares an end of its central
branch with a move selected before it (the moves selected before it are a prefix of the
final set). -/
theorem nonConflictMoves_spec (possibleNNIMoves : List IQPTree.NNIMove) :
    (IQPTree.nonConflictMoves possibleNNIMoves).Sublist possibleNNIMoves ∧
    (∀ first rest, possibleNNIMoves = first :: rest →
      (IQPTree.nonConflictMoves possibleNNIMoves).head? = some first) ∧
    (IQPTree.nonConflictMoves possibleNNIMoves).Pairwise IQPTree.centreDisjoint ∧
    ∀ pre m post, possibleNNIMoves = pre ++ m :: post →
      IQPTree.nonConflictMoves pre <+: IQPTree.nonConflictMoves possibleNNIMoves ∧
      ((∃ s ∈ IQPTree.nonConflictMoves pre, IQPTree.conflict m s = true) ∨
        IQPTree.nonConflictMoves pre ++ [m] <+: IQPTree.nonConflictMoves possibleNNIMoves) := by
  obtain ⟨r, hr, hsub, hp, hfirst⟩ :=
    selectStep_foldl_spec possibleNNIMoves [] List.Pairwise.nil
  rw [List.nil_append] at hr hp
  rw [nonConflictMoves_eq_foldl, hr]
  refine ⟨hsub, hfirst rfl, hp, ?_⟩
  intro pre m post hsplit
  rw [← hr, hsplit, nonConflictMoves_eq_foldl, List.foldl_append, List.foldl_cons]
  refine ⟨List.IsPrefix.trans (selectStep_extends _ m) (selectStep_foldl_extends _ _), ?_⟩
  · by_cases hc : (List.foldl IQPTree.selectStep [] pre).any
        (fun n => IQPTree.conflict m n) = true
    · left
      rw [List.any_eq_true] at hc
      exact hc
    · right
      rw [← selectStep_neg _ m hc]
      exact selectStep_foldl_extends _ _

theorem links_eq_of_shape (t t1 : Tree) (n : Nat)
    (h : shape (t1.neighbors n) = shape (t.neighbors n)) : t1.links n = t.links n := by
  have : ∀ ns : List Neighbor, ns.map (·.node) = (shape ns).map (·.1) := by
    intro ns
    simp [shape]
  unfold Tree.links
  rw [this, this, h]

theorem walk_congr (fuel : Nat) (t t1 : Tree) (h : ∀ n, t1.links n = t.links n)
    (node : Nat) (dad : Option Nat) : Tree.walk fuel t1 node dad = Tree.walk fuel t node dad := by
  induction fuel generalizing node dad with
  | zero => rfl
  | succ fuel ih =>
    simp only [Tree.walk]
    rw [h node]
    congr 1
    apply List.flatMap_congr
    intro c _
    exact ih c (some node)

/-- The half-edge that `findNeighbor` returns after the first slot that points to `x`
was rewritten by a function that keeps the node. -/
theorem find?_modify_keep (ns : List Neighbor) (f : Neighbor → Neighbor) (x k : Nat)
    (hk : findNeighborIt ns x = some k) (hf : ∀ e, (f e).node = e.node) :
    (ns.modify f k).find? (fun nei => nei.node == x) = ns[k]?.map f := by
  induction ns generalizing k with
  | nil => simp [findNeighborIt] at hk
  | cons e es ih =>
    rw [findNeighborIt_cons] at hk
    by_cases he : (e.node == x) = true
    · rw [if_pos he] at hk
      simp only [Option.some.injEq] at hk
      subst hk
      have : ((f e).node == x) = true := by rw [hf]; exact he
      simp [List.find?_cons, this]
    · rw [if_neg he] at hk
      cases hr : findNeighborIt es x with
      | none => rw [hr] at hk; simp at hk
      | some k1 =>
        rw [hr] at hk
        simp only [Option.map_some', Option.some.injEq] at hk
        subst hk
        have he1 : (e.node == x) = false := by simpa using he
        simp only [List.modify_succ_cons, List.getElem?_cons_succ, List.find?_cons, he1]
        exact ih k1 hr

theorem find?_eq_none_of_findNeighborIt (ns : List Neighbor) (x : Nat)
    (h : findNeighborIt ns x = none) : ns.find? (fun nei => nei.node == x) = none := by
  unfold findNeighborIt at h
  rw [List.findIdx?_eq_none_iff] at h
  rw [List.find?_eq_none]
  intro e he
  simpa using h e he

/-- After `clearPartialLh` on the half-edge from `n` to `d`, that half-edge is cleared
and every half-edge that was cleared is cleared. -/
theorem cleared_clearPartialLh (t : Tree) (n d : Nat) :
    (t.clearPartialLh n d).Cleared n d ∧
      ∀ u v, t.Cleared u v → (t.clearPartialLh n d).Cleared u v := by
  unfold Tree.clearPartialLh
  cases hk : findNeighborIt (t.neighbors n) d with
  | none =>
    refine ⟨?_, fun u v h => h⟩
    intro f hf
    unfold Tree.flag at hf
    rw [find?_eq_none_of_findNeighborIt _ _ hk] at hf
    simp at hf
  | some k =>
    have hn := lt_of_find_neighbors t n d k hk
    obtain ⟨e, he, hen⟩ := getElem?_of_findNeighborIt _ d k hk
    have key := find?_modify_keep (t.neighbors n)
      (fun nei => { nei with partial_lh_computed := 0 }) d k hk (fun _ => rfl)
    dsimp only
    constructor
    · intro f hf
      unfold Tree.flag at hf
      rw [neighbors_setNeighbors_of_lt t n n _ hn, if_pos rfl, key, he] at hf
      simp only [Option.map_some', Option.some.injEq] at hf
      exact hf.symm
    · intro u v h f hf
      unfold Tree.flag at hf
      rw [neighbors_setNeighbors_of_lt t n u _ hn] at hf
      by_cases hu : u = n
      · subst hu
        rw [if_pos rfl] at hf
        by_cases hv : v = d
        · subst hv
          rw [key, he] at hf
          simp only [Option.map_some', Option.some.injEq] at hf
          exact hf.symm
        · rw [find?_modify_other (t.neighbors u)
            (fun nei => { nei with partial_lh_computed := 0 }) v k e he
            (by rw [hen]; exact Ne.symm hv)
            (by show e.node ≠ v; rw [hen]; exact Ne.symm hv)] at hf
          exact h f hf
      · rw [if_neg hu] at hf
        exact h f hf

theorem links_clearPartialLh (t : Tree) (n d m : Nat) :
    (t.clearPartialLh n d).links m = t.links m :=
  links_eq_of_shape _ _ _ (shape_clearPartialLh t n d m)

theorem links_clearReverseAux (fuel : Nat) (t : Tree) (n d m : Nat) :
    (clearReverseAux fuel t n d).links m = t.links m :=
  links_eq_of_shape _ _ _ (shape_clearReverseAux fuel t n d m)

theorem links_clearReversePartialLh (t : Tree) (n d m : Nat) :
    (t.clearReversePartialLh n d).links m = t.links m :=
  links_eq_of_shape _ _ _ (shape_clearReversePartialLh t n d m)

theorem filter_links (ns : List Neighbor) (dad : Nat) :
    (ns.filter (fun nei => nei.node != dad)).map (·.node) =
      (ns.map (·.node)).filter (fun c => some c != some dad) := by
  induction ns with
  | nil => rfl
  | cons e es ih =>
    simp only [List.filter_cons, List.map_cons]
    by_cases h : e.node = dad
    · simp [h, ih]
    · simp [h, ih]

/-- The loop of `clearReversePartialLh` over the neighbors `cs` of `node`. -/
theorem cleared_foldl (fuel : Nat) (t : Tree) (node : Nat)
    (ih : ∀ (t0 : Tree) (c : Nat),
      (∀ p ∈ Tree.walk fuel t0 c (some node), (clearReverseAux fuel t0 c node).Cleared p.1 p.2) ∧
      ∀ u v, t0.Cleared u v → (clearReverseAux fuel t0 c node).Cleared u v)
    (cs : List Neighbor) (acc : Tree) (hl : ∀ n, acc.links n = t.links n) :
    (∀ nei ∈ cs, ∀ p ∈ Tree.walk fuel t nei.node (some node),
      (cs.foldl (fun acc nei => clearReverseAux fuel acc nei.node node) acc).Cleared p.1 p.2) ∧
    (∀ u v, acc.Cleared u v →
      (cs.foldl (fun acc nei => clearReverseAux fuel acc nei.node node) acc).Cleared u v) := by
  induction cs generalizing acc with
  | nil => exact ⟨fun _ h => absurd h (List.not_mem_nil _), fun _ _ h => h⟩
  | cons c cs ihc =>
    rw [List.foldl_cons]
    have hl1 : ∀ n, (clearReverseAux fuel acc c.node node).links n = t.links n :=
      fun n => (links_clearReverseAux fuel acc c.node node n).trans (hl n)
    obtain ⟨h1, h2⟩ := ihc (clearReverseAux fuel acc c.node node) hl1
    obtain ⟨i1, i2⟩ := ih acc c.node
    refine ⟨?_, fun u v h => h2 u v (i2 u v h)⟩
    intro nei hnei p hp
    rcases List.mem_cons.1 hnei with rfl | hnei
    · apply h2
      apply i1
      rw [walk_congr fuel t acc hl]
      exact hp
    · exact h1 nei hnei p hp

/-- After `clearReversePartialLh(node, dad)`, with the recursion bounded by `fuel`, every
half-edge that the recursion visits is cleared, and every half-edge that was cleared is
cleared. -/
theorem cleared_clearReverseAux (fuel : Nat) (t : Tree) (node dad : Nat) :
    (∀ p ∈ Tree.walk fuel t node (some dad), (clearReverseAux fuel t node dad).Cleared p.1 p.2) ∧
    ∀ u v, t.Cleared u v → (clearReverseAux fuel t node dad).Cleared u v := by
  induction fuel generalizing t node dad with
  | zero => exact ⟨fun _ h => absurd h (List.not_mem_nil _), fun _ _ h => h⟩
  | succ fuel ih =>
    obtain ⟨c1, c2⟩ := cleared_clearPartialLh t node dad
    have hl : ∀ n, (t.clearPartialLh node dad).links n = t.links n :=
      fun n => links_clearPartialLh t node dad n
    obtain ⟨f1, f2⟩ := cleared_foldl fuel t node (fun t0 c => ih t0 c node)
      (((t.clearPartialLh node dad).neighbors node).filter (fun nei => nei.node != dad))
      (t.clearPartialLh node dad) hl
    simp only [clearReverseAux]
    refine ⟨?_, fun u v h => f2 u v (c2 u v h)⟩
    intro p hp
    simp only [Tree.walk, List.singleton_append, List.mem_cons, List.mem_flatMap,
      List.mem_filter] at hp
    rcases hp with rfl | ⟨c, ⟨hc, hcd⟩, hpc⟩
    · exact f2 _ _ c1
    · have hc1 : c ∈ (((t.clearPartialLh node dad).neighbors node).filter
          (fun nei => nei.node != dad)).map (·.node) := by
        rw [filter_links]
        have : (t.clearPartialLh node dad).links node = t.links node := hl node
        unfold Tree.links at this
        rw [this, List.mem_filter]
        exact ⟨hc, hcd⟩
      obtain ⟨nei, hnei, rfl⟩ := List.mem_map.1 hc1
      exact f1 nei hnei p hpc

/-- The last four steps of `doNNI` act on the store that the four updates left. -/
theorem doNNI_clear_chain (t : Tree) (m : NNIMove) (t1 : Tree) (h : doNNI t m = some t1) :
    ∃ t4 : Tree, t1 = (((t4.clearPartialLh m.node1 m.node2).clearPartialLh m.node2
      m.node1).clearReversePartialLh m.node2 m.node1).clearReversePartialLh m.node1 m.node2 := by
  unfold doNNI at h
  simp only [List.get?_eq_getElem?] at h
  cases ha : (t.neighbors m.node1)[m.node1Nei_it]? with
  | none => simp [ha] at h
  | some a0 =>
    cases hb : (t.neighbors m.node2)[m.node2Nei_it]? with
    | none => simp [ha, hb] at h
    | some b0 =>
      simp only [ha, hb] at h
      split at h
      · simp only [Option.bind_eq_some] at h
        obtain ⟨_, _, _, _, _, _, t4, _, h⟩ := h
        simp only [Option.some.injEq] at h
        exact ⟨t4, h.symm⟩
      · simp at h

theorem flag_isSome_of_mem (t : Tree) (u v : Nat) (h : v ∈ t.links u) :
    ∃ f, t.flag u v = some f := by
  unfold Tree.links at h
  obtain ⟨e, he, hev⟩ := List.mem_map.1 h
  unfold Tree.flag
  cases hf : (t.neighbors u).find? (fun nei => nei.node == v) with
  | none =>
    rw [List.find?_eq_none] at hf
    have := hf e he
    simp [hev] at this
  | some e1 => exact ⟨_, rfl⟩

theorem mem_links_of_findNeighborIt (t : Tree) (u v k : Nat)
    (h : findNeighborIt (t.neighbors u) v = some k) : v ∈ t.links u := by
  obtain ⟨e, he, hev⟩ := getElem?_of_findNeighborIt _ v k h
  unfold Tree.links
  exact List.mem_map.2 ⟨e, List.getElem?_mem he, hev⟩

theorem links_of_shape (t : Tree) (n : Nat) :
    t.links n = (shape (t.neighbors n)).map (·.1) := by
  simp [Tree.links, shape]

/-- A slot other than the one that is replaced keeps its place. -/
theorem mem_map_set (L : List (Nat × ℚ)) (i : Nat) (a b : Nat × ℚ) (v : Nat)
    (hi : L[i]? = some a) (hav : a.1 ≠ v) (hv : v ∈ L.map (·.1)) :
    v ∈ (L.set i b).map (·.1) := by
  obtain ⟨p, hp, hpv⟩ := List.mem_map.1 hv
  obtain ⟨k, hk, hkp⟩ := List.getElem_of_mem hp
  have hki : i ≠ k := by
    intro h
    subst h
    have : L[i]? = some p := by rw [← hkp]; exact List.getElem?_eq_getElem hk
    rw [this] at hi
    simp only [Option.some.injEq] at hi
    rw [← hi] at hav
    exact hav hpv
  apply List.mem_map.2
  refine ⟨p, ?_, hpv⟩
  have : (L.set i b)[k]? = some p := by
    rw [List.getElem?_set_ne hki, ← hkp]
    exact List.getElem?_eq_getElem hk
  exact List.getElem?_mem this

/-- C12: after `doNNI` on the branch `(node1, node2)`, the flags of both half-edges of
the central branch are cleared, and so are the flags of every half-edge that the two
calls of `clearReversePartialLh` visit in the new topology: on each side of the central
branch, the half-edges that point toward it, those outside the two exchanged subtrees
among them. -/
theorem doNNI_clears_flags (t : Tree) (m : NNIMove) (h : m.valid t = true)
    (hc1 : (findNeighborIt (t.neighbors m.node1) m.node2).isSome = true)
    (hc2 : (findNeighborIt (t.neighbors m.node2) m.node1).isSome = true) :
    ∃ t1, doNNI t m = some t1 ∧
      t1.flag m.node1 m.node2 = some 0 ∧ t1.flag m.node2 m.node1 = some 0 ∧
      ∀ p ∈ t1.walk t1.nodes.length m.node2 (some m.node1) ++
          t1.walk t1.nodes.length m.node1 (some m.node2),
        t1.Cleared p.1 p.2 := by
  obtain ⟨a, b, ka, kb, ha, hb, h1, h2, h12, ha1, ha2, hb1, hb2, hab, hka, hkb, _, _⟩ :=
    valid_shape t m h
  obtain ⟨t1, hdo, _, hsh⟩ := doNNI_shape' t m a b ka kb ha hb h1 h2 h12 ha1 ha2 hb1 hb2 hab
    hka hkb
  obtain ⟨t4, ht4⟩ := doNNI_clear_chain t m t1 hdo
  -- the flags along the chain of the four clearing steps
  obtain ⟨c5, _⟩ := cleared_clearPartialLh t4 m.node1 m.node2
  obtain ⟨c6, p6⟩ := cleared_clearPartialLh (t4.clearPartialLh m.node1 m.node2) m.node2 m.node1
  obtain ⟨w7, p7⟩ := cleared_clearReverseAux
    ((t4.clearPartialLh m.node1 m.node2).clearPartialLh m.node2 m.node1).nodes.length
    ((t4.clearPartialLh m.node1 m.node2).clearPartialLh m.node2 m.node1) m.node2 m.node1
  obtain ⟨w8, p8⟩ := cleared_clearReverseAux
    (((t4.clearPartialLh m.node1 m.node2).clearPartialLh m.node2
      m.node1).clearReversePartialLh m.node2 m.node1).nodes.length
    (((t4.clearPartialLh m.node1 m.node2).clearPartialLh m.node2
      m.node1).clearReversePartialLh m.node2 m.node1) m.node1 m.node2
  have hC12 : t1.Cleared m.node1 m.node2 := by
    rw [ht4]; exact p8 _ _ (p7 _ _ (p6 _ _ c5))
  have hC21 : t1.Cleared m.node2 m.node1 := by
    rw [ht4]; exact p8 _ _ (p7 _ _ c6)
  -- the central branch is still there
  have hn1 : m.node2 ∈ t1.links m.node1 := by
    obtain ⟨k, hk⟩ := Option.isSome_iff_exists.1 hc1
    have hmem := mem_links_of_findNeighborIt t _ _ k hk
    rw [links_of_shape] at hmem ⊢
    rw [hsh m.node1]
    unfold nniS
    rw [if_neg (Ne.symm ha1), if_neg h12, if_neg (Ne.symm hb1), if_pos rfl]
    exact mem_map_set _ _ a b _ ha ha2 hmem
  have hn2 : m.node1 ∈ t1.links m.node2 := by
    obtain ⟨k, hk⟩ := Option.isSome_iff_exists.1 hc2
    have hmem := mem_links_of_findNeighborIt t _ _ k hk
    rw [links_of_shape] at hmem ⊢
    rw [hsh m.node2]
    unfold nniS
    rw [if_neg (Ne.symm ha2), if_pos rfl]
    exact mem_map_set _ _ b a _ hb hb1 hmem
  obtain ⟨f1, hf1⟩ := flag_isSome_of_mem t1 _ _ hn1
  obtain ⟨f2, hf2⟩ := flag_isSome_of_mem t1 _ _ hn2
  refine ⟨t1, hdo, by rw [hf1, hC12 f1 hf1], by rw [hf2, hC21 f2 hf2], ?_⟩
  -- the walks of the two calls, read in the final store
  have hlen7 : (((t4.clearPartialLh m.node1 m.node2).clearPartialLh m.node2
      m.node1).clearReversePartialLh m.node2 m.node1).nodes.length =
      ((t4.clearPartialLh m.node1 m.node2).clearPartialLh m.node2 m.node1).nodes.length :=
    length_clearReversePartialLh _ _ _
  have hlen8 : t1.nodes.length = (((t4.clearPartialLh m.node1 m.node2).clearPartialLh m.node2
      m.node1).clearReversePartialLh m.node2 m.node1).nodes.length := by
    rw [ht4]; exact length_clearReversePartialLh _ _ _
  have hl8 : ∀ n, t1.links n = (((t4.clearPartialLh m.node1 m.node2).clearPartialLh m.node2
      m.node1).clearReversePartialLh m.node2 m.node1).links n := by
    intro n; rw [ht4]; exact links_clearReversePartialLh _ _ _ n
  have hl7 : ∀ n, (((t4.clearPartialLh m.node1 m.node2).clearPartialLh m.node2
      m.node1).clearReversePartialLh m.node2 m.node1).links n =
      ((t4.clearPartialLh m.node1 m.node2).clearPartialLh m.node2 m.node1).links n :=
    fun n => links_clearReversePartialLh _ _ _ n
  intro p hp
  rcases List.mem_append.1 hp with hp | hp
  · rw [hlen8, hlen7, walk_congr _ _ t1 (fun n => (hl8 n).trans (hl7 n))] at hp
    rw [ht4]
    exact p8 _ _ (w7 p hp)
  · rw [hlen8, walk_congr _ _ t1 hl8] at hp
    rw [ht4]
    exact w8 p hp

theorem doNNI_clears_flags_witness :
    ∃ t1, doNNI exampleTree exampleMove = some t1 ∧
      t1.flag exampleMove.node1 exampleMove.node2 = some 0 ∧
      t1.flag exampleMove.node2 exampleMove.node1 = some 0 ∧
      ∀ p ∈ t1.walk t1.nodes.length exampleMove.node2 (some exampleMove.node1) ++
          t1.walk t1.nodes.length exampleMove.node1 (some exampleMove.node2),
        t1.Cleared p.1 p.2 :=
  doNNI_clears_flags exampleTree exampleMove (by decide) (by decide) (by decide)

theorem initializeBonusAux_eq (fuel : Nat) (t : Tree) (node : Nat) (dad : Option Nat) :
    IQPTree.initializeBonusAux fuel t node dad = visitAux (fun _ => 0) fuel t node dad := by
  induction fuel generalizing t node dad with
  | zero => rfl
  | succ fuel ih =>
    simp only [IQPTree.initializeBonusAux, visitAux]
    congr 1
    funext t1
    congr 1
    funext acc nei
    exact ih acc nei.node (some node)

theorem raiseBonusAux_eq (fuel : Nat) (t : Tree) (node dad : Nat) :
    IQPTree.raiseBonusAux fuel t node dad = visitAux (fun b => b + 1) fuel t node (some dad) := by
  induction fuel generalizing t node dad with
  | zero => rfl
  | succ fuel ih =>
    simp only [IQPTree.raiseBonusAux, visitAux]
    cases h1 : t.updateBonus node dad (fun b => b + 1) with
    | none => rfl
    | some t1 =>
      simp only [Option.some_bind]
      cases h2 : t1.updateBonus dad node (fun b => b + 1) with
      | none => rfl
      | some t2 =>
        simp only [Option.some_bind]
        have hfil : (t2.neighbors node).filter (fun nei => nei.node != dad) =
            (t2.neighbors node).filter (fun (nei : Neighbor) => some nei.node != some dad) := by
          apply List.filter_congr
          intro x _
          by_cases hx : x.node = dad
          · simp [hx]
          · have h1 : (x.node != dad) = true := by simpa using hx
            have h2 : (some x.node != some dad) = true := by simpa using hx
            rw [h1, h2]
        rw [hfil]
        congr 1
        funext acc nei
        exact ih acc nei.node node

theorem find?_eq_getElem?_of_findNeighborIt (ns : List Neighbor) (x k : Nat)
    (hk : findNeighborIt ns x = some k) :
    ns.find? (fun nei => nei.node == x) = ns[k]? := by
  have h := find?_modify_keep ns id x k hk (fun _ => rfl)
  have hm : ns.modify id k = ns := by
    clear h hk
    induction ns generalizing k with
    | nil => cases k <;> rfl
    | cons e es ih =>
      cases k with
      | zero => rfl
      | succ k => rw [List.modify_succ_cons, ih]
  rw [hm] at h
  rw [h]
  cases ns[k]? <;> rfl

theorem map_node_modify_keep (ns : List Neighbor) (f : Neighbor → Neighbor) (k : Nat)
    (hf : ∀ e, (f e).node = e.node) :
    (ns.modify f k).map (·.node) = ns.map (·.node) := by
  induction ns generalizing k with
  | nil => cases k <;> rfl
  | cons e es ih =>
    cases k with
    | zero => simp only [List.modify_zero_cons, List.map_cons, hf]
    | succ k => simp only [List.modify_succ_cons, List.map_cons, ih]

/-- The effect of one bonus update: the half-edge from `n` to `node` gets `f` of its
bonus, every other bonus and every link is as before. -/
theorem updateBonus_spec (t t1 : Tree) (n node : Nat) (f : ℚ → ℚ)
    (h : t.updateBonus n node f = some t1) :
    (∀ m, t1.links m = t.links m) ∧
    (∀ u v, t1.bonus u v = if u = n ∧ v = node then (t.bonus u v).map f else t.bonus u v) ∧
    t1.nodes.length = t.nodes.length := by
  unfold Tree.updateBonus at h
  cases hk : findNeighborIt (t.neighbors n) node with
  | none => rw [hk] at h; cases h
  | some k =>
    rw [hk] at h
    simp only [Option.some.injEq] at h
    subst h
    have hn := lt_of_find_neighbors t n node k hk
    obtain ⟨hv, hlen⟩ := setNeighbors_view t n
      ((t.neighbors n).modify
        (fun nei => { nei with lh_scale_factor := f nei.lh_scale_factor }) k) hn
    have hkeep : ∀ e : Neighbor,
        ({ e with lh_scale_factor := f e.lh_scale_factor } : Neighbor).node = e.node :=
      fun _ => rfl
    refine ⟨?_, ?_, hlen⟩
    · intro m
      unfold Tree.links
      rw [hv]
      by_cases hm : m = n
      · subst hm
        rw [Function.update_same]
        exact map_node_modify_keep _ _ k hkeep
      · rw [Function.update_noteq hm]
    · intro u v
      unfold Tree.bonus
      rw [hv]
      by_cases hu : u = n
      · subst hu
        rw [Function.update_same]
        by_cases hvn : v = node
        · subst hvn
          rw [if_pos ⟨rfl, rfl⟩]
          have key := find?_modify_keep (t.neighbors u)
            (fun nei => { nei with lh_scale_factor := f nei.lh_scale_factor }) v k hk hkeep
          rw [key, find?_eq_getElem?_of_findNeighborIt _ v k hk]
          cases (t.neighbors u)[k]? <;> rfl
        · rw [if_neg (fun hh => hvn hh.2)]
          obtain ⟨e, he, hev⟩ := getElem?_of_findNeighborIt _ node k hk
          have key := find?_modify_other (t.neighbors u)
            (fun nei => { nei with lh_scale_factor := f nei.lh_scale_factor }) v k e he
            (by rw [hev]; exact fun hh => hvn hh.symm)
            (by rw [hkeep, hev]; exact fun hh => hvn hh.symm)
          rw [key]
      · rw [Function.update_noteq hu, if_neg (fun hh => hu hh.1)]

theorem updateBonus_isSome (t : Tree) (n node : Nat) (f : ℚ → ℚ) (h : node ∈ t.links n) :
    ∃ t1, t.updateBonus n node f = some t1 := by
  unfold Tree.updateBonus
  cases hk : findNeighborIt (t.neighbors n) node with
  | none =>
    have := find?_eq_none_of_findNeighborIt _ _ hk
    rw [List.find?_eq_none] at this
    unfold Tree.links at h
    obtain ⟨e, he, hev⟩ := List.mem_map.1 h
    have := this e he
    simp [hev] at this
  | some k => exact ⟨_, rfl⟩

theorem hits_append (W1 W2 : List (Nat × Nat)) (u v : Nat) :
    hits (W1 ++ W2) u v = hits W1 u v + hits W2 u v := by
  unfold hits
  rw [List.count_append, List.count_append]
  omega

theorem hits_nil (u v : Nat) : hits [] u v = 0 := rfl

theorem hits_single (a b u v : Nat) :
    hits [(a, b)] u v = (if u = a ∧ v = b then 1 else 0) + (if u = b ∧ v = a then 1 else 0) := by
  unfold hits
  simp only [List.count_cons, List.count_nil, Nat.zero_add, beq_iff_eq, Prod.mk.injEq]
  have e1 : (a = u ∧ b = v) ↔ (u = a ∧ v = b) := ⟨fun h => ⟨h.1.symm, h.2.symm⟩, fun h => ⟨h.1.symm, h.2.symm⟩⟩
  have e2 : (a = v ∧ b = u) ↔ (u = b ∧ v = a) := ⟨fun h => ⟨h.2.symm, h.1.symm⟩, fun h => ⟨h.2.symm, h.1.symm⟩⟩
  simp only [e1, e2]

theorem map_iterate_add (f : ℚ → ℚ) (x : Option ℚ) (a b : Nat) :
    (x.map (f^[a])).map (f^[b]) = x.map (f^[a + b]) := by
  rw [Option.map_map, Nat.add_comm, Function.iterate_add]

theorem map_iterate_zero (f : ℚ → ℚ) (x : Option ℚ) : x.map (f^[0]) = x := by
  cases x <;> rfl

theorem map_iterate_one (f : ℚ → ℚ) (x : Option ℚ) : x.map (f^[1]) = x.map f := by
  cases x <;> rfl

/-- The two updates at a call with a `dad`. -/
theorem visit_head (f : ℚ → ℚ) (t t2 : Tree) (node d : Nat)
    (h : ((t.updateBonus node d f).bind fun t1 => t1.updateBonus d node f) = some t2) :
    (∀ m, t2.links m = t.links m) ∧
    (∀ u v, t2.bonus u v = (t.bonus u v).map (f^[hits [(node, d)] u v])) ∧
    t2.nodes.length = t.nodes.length := by
  cases h1 : t.updateBonus node d f with
  | none => rw [h1] at h; cases h
  | some t1 =>
    rw [h1, Option.some_bind] at h
    obtain ⟨a1, b1, c1⟩ := updateBonus_spec t t1 node d f h1
    obtain ⟨a2, b2, c2⟩ := updateBonus_spec t1 t2 d node f h
    refine ⟨fun m => (a2 m).trans (a1 m), ?_, c2.trans c1⟩
    intro u v
    rw [b2, b1]
    rw [hits_single]
    by_cases p1 : u = node ∧ v = d
    · by_cases p2 : u = d ∧ v = node
      · rw [if_pos p1, if_pos p2, if_pos p1, if_pos p2, ← map_iterate_one f (t.bonus u v),
          ← map_iterate_one f ((t.bonus u v).map (f^[1])), map_iterate_add]
      · rw [if_pos p1, if_neg p2, if_pos p1, if_neg p2, map_iterate_one]
    · by_cases p2 : u = d ∧ v = node
      · rw [if_neg p1, if_pos p2, if_neg p1, if_pos p2, map_iterate_one]
      · rw [if_neg p1, if_neg p2, if_neg p1, if_neg p2, map_iterate_zero]

theorem filter_links_opt (ns : List Neighbor) (dad : Option Nat) :
    (ns.filter (fun (nei : Neighbor) => some nei.node != dad)).map (·.node) =
      (ns.map (·.node)).filter (fun c => some c != dad) := by
  induction ns with
  | nil => rfl
  | cons e es ihe =>
    simp only [List.filter_cons, List.map_cons]
    cases hb : (some e.node != dad)
    · simp only [Bool.false_eq_true, if_false]
      exact ihe
    · simp only [if_true, List.map_cons, ihe]

theorem flatMap_const_nil (L : List Nat) :
    L.flatMap (fun _ => ([] : List (Nat × Nat))) = [] := by
  induction L with
  | nil => rfl
  | cons a as ih => simp only [List.flatMap_cons, ih, List.append_nil]

theorem walk_one_none (t : Tree) (node : Nat) : Tree.walk 1 t node none = [] := by
  simp only [Tree.walk, flatMap_const_nil, List.append_nil]

theorem walk_one_some (t : Tree) (node d : Nat) :
    Tree.walk 1 t node (some d) = [(node, d)] := by
  simp only [Tree.walk, flatMap_const_nil, List.append_nil]

theorem walk_succ (fuel : Nat) (t : Tree) (node : Nat) (dad : Option Nat) :
    Tree.walk (fuel + 1) t node dad = Tree.walk 1 t node dad ++
      ((t.links node).filter (fun c => some c != dad)).flatMap
        (fun c => Tree.walk fuel t c (some node)) := by
  simp only [Tree.walk, flatMap_const_nil, List.append_nil]

/-- The loop over the neighbors `cs` of `node`. -/
theorem visit_foldl (f : ℚ → ℚ) (fuel : Nat) (t : Tree) (node : Nat)
    (ih : ∀ (t0 t1 : Tree) (c : Nat), visitAux f fuel t0 c (some node) = some t1 →
      (∀ m, t1.links m = t0.links m) ∧
      (∀ u v, t1.bonus u v =
        (t0.bonus u v).map (f^[hits (Tree.walk fuel t0 c (some node)) u v])) ∧
      t1.nodes.length = t0.nodes.length)
    (cs : List Neighbor) (acc t1 : Tree) (hl : ∀ n, acc.links n = t.links n)
    (h : cs.foldlM (fun acc (nei : Neighbor) => visitAux f fuel acc nei.node (some node)) acc
      = some t1) :
    (∀ m, t1.links m = t.links m) ∧
    (∀ u v, t1.bonus u v = (acc.bonus u v).map
      (f^[hits ((cs.map (·.node)).flatMap (fun c => Tree.walk fuel t c (some node))) u v])) ∧
    t1.nodes.length = acc.nodes.length := by
  induction cs generalizing acc with
  | nil =>
    simp only [List.foldlM_nil] at h
    have h1 : acc = t1 := Option.some.inj h
    subst h1
    exact ⟨hl, fun u v => by
      simp only [List.map_nil, List.flatMap_nil, hits_nil, map_iterate_zero], rfl⟩
  | cons c cs ihc =>
    rw [List.foldlM_cons] at h
    cases hc : visitAux f fuel acc c.node (some node) with
    | none => rw [hc] at h; cases h
    | some acc1 =>
      rw [hc] at h
      obtain ⟨i1, i2, i3⟩ := ih acc acc1 c.node hc
      have hl1 : ∀ n, acc1.links n = t.links n := fun n => (i1 n).trans (hl n)
      obtain ⟨j1, j2, j3⟩ := ihc acc1 hl1 h
      refine ⟨j1, ?_, j3.trans i3⟩
      intro u v
      rw [j2, i2, map_iterate_add, List.map_cons, List.flatMap_cons, hits_append,
        walk_congr fuel t acc hl]

/-- The effect of the shared recursion: every link is kept, and the bonus of a half-edge
gets `f` as many times as the recursion visits its branch. -/
theorem visitAux_spec (f : ℚ → ℚ) (fuel : Nat) (t t1 : Tree) (node : Nat) (dad : Option Nat)
    (h : visitAux f fuel t node dad = some t1) :
    (∀ m, t1.links m = t.links m) ∧
    (∀ u v, t1.bonus u v = (t.bonus u v).map (f^[hits (Tree.walk fuel t node dad) u v])) ∧
    t1.nodes.length = t.nodes.length := by
  induction fuel generalizing t t1 node dad with
  | zero => cases h
  | succ fuel ih =>
    simp only [visitAux] at h
    obtain ⟨t2, h2, h⟩ := Option.bind_eq_some.1 h
    have key : (∀ m, t2.links m = t.links m) ∧
        (∀ u v, t2.bonus u v = (t.bonus u v).map
          (f^[hits (Tree.walk 1 t node dad) u v])) ∧
        t2.nodes.length = t.nodes.length := by
      cases dad with
      | none =>
        simp only [Option.some.injEq] at h2
        subst h2
        exact ⟨fun _ => rfl, fun u v => by
          rw [walk_one_none, hits_nil, map_iterate_zero], rfl⟩
      | some d =>
        obtain ⟨a1, b1, c1⟩ := visit_head f t t2 node d h2
        refine ⟨a1, fun u v => ?_, c1⟩
        rw [b1, walk_one_some]
    obtain ⟨a1, b1, c1⟩ := key
    obtain ⟨a2, b2, c2⟩ := visit_foldl f fuel t node (fun t0 t1 c hc => ih t0 t1 c (some node) hc)
      ((t2.neighbors node).filter (fun (nei : Neighbor) => some nei.node != dad)) t2 t1 a1 h
    refine ⟨a2, ?_, c2.trans c1⟩
    intro u v
    have : (t2.neighbors node).map (·.node) = t.links node := a1 node
    rw [b2, b1, map_iterate_add, filter_links_opt, walk_succ fuel t node dad, hits_append, this]

theorem walkOK_congr (fuel : Nat) (t t1 : Tree) (h : ∀ n, t1.links n = t.links n)
    (node : Nat) (dad : Option Nat) :
    Tree.walkOK fuel t1 node dad = Tree.walkOK fuel t node dad := by
  induction fuel generalizing node dad with
  | zero => rfl
  | succ fuel ih =>
    simp only [Tree.walkOK]
    rw [h node]
    congr 1
    · cases dad with
      | none => rfl
      | some d => simp only [h d, h node]
    · generalize (t.links node).filter (fun c => some c != dad) = L
      induction L with
      | nil => rfl
      | cons c cs ihL => simp only [List.all_cons, ih, ihL]

theorem hits_comm (W : List (Nat × Nat)) (u v : Nat) : hits W u v = hits W v u := by
  unfold hits
  omega

theorem bonus_isSome_of_mem (t : Tree) (u v : Nat) (h : v ∈ t.links u) :
    ∃ b, t.bonus u v = some b := by
  unfold Tree.links at h
  obtain ⟨e, he, hev⟩ := List.mem_map.1 h
  unfold Tree.bonus
  cases hf : (t.neighbors u).find? (fun nei => nei.node == v) with
  | none =>
    rw [List.find?_eq_none] at hf
    have := hf e he
    simp [hev] at this
  | some e1 => exact ⟨_, rfl⟩

/-- Every half-edge that the recursion visits is kept at both ends, when the recursion
finds all of them. -/
theorem walk_mem_links (fuel : Nat) (t : Tree) (node : Nat) (dad : Option Nat)
    (h : t.walkOK fuel node dad = true) :
    ∀ p ∈ Tree.walk fuel t node dad, p.2 ∈ t.links p.1 ∧ p.1 ∈ t.links p.2 := by
  induction fuel generalizing node dad with
  | zero => cases h
  | succ fuel ih =>
    simp only [Tree.walkOK, Bool.and_eq_true, List.all_eq_true] at h
    obtain ⟨h1, h2⟩ := h
    intro p hp
    rw [walk_succ] at hp
    rcases List.mem_append.1 hp with hp | hp
    · cases dad with
      | none => rw [walk_one_none] at hp; cases hp
      | some d =>
        rw [walk_one_some] at hp
        simp only [List.mem_singleton] at hp
        subst hp
        simp only [Bool.and_eq_true, decide_eq_true_eq] at h1
        exact h1
    · obtain ⟨c, hc, hpc⟩ := List.mem_flatMap.1 hp
      exact ih c (some node) (h2 c hc) p hpc

/-- The loop over the neighbors `cs` of `node` returns a tree. -/
theorem visit_foldl_isSome (f : ℚ → ℚ) (fuel : Nat) (t : Tree) (node : Nat)
    (ih : ∀ (t : Tree) (node : ℕ) (dad : Option ℕ),
      Tree.walkOK fuel t node dad = true → ∃ t1, visitAux f fuel t node dad = some t1)
    (cs : List Neighbor) (hmem : ∀ nei ∈ cs, Tree.walkOK fuel t nei.node (some node) = true)
    (t2 : Tree) (hl2 : ∀ m, t2.links m = t.links m) :
    ∃ t1, cs.foldlM (fun acc (nei : Neighbor) => visitAux f fuel acc nei.node (some node)) t2
      = some t1 := by
  induction cs generalizing t2 with
  | nil => exact ⟨t2, rfl⟩
  | cons c cs ihc =>
    rw [List.foldlM_cons]
    have hc : Tree.walkOK fuel t2 c.node (some node) = true := by
      rw [walkOK_congr fuel t t2 hl2]
      exact hmem c (List.mem_cons_self _ _)
    obtain ⟨t3, ht3⟩ := ih t2 c.node (some node) hc
    obtain ⟨l3, _, _⟩ := visitAux_spec f fuel t2 t3 c.node (some node) ht3
    rw [ht3]
    exact ihc (fun nei hnei => hmem nei (List.mem_cons_of_mem _ hnei)) t3
      (fun m => (l3 m).trans (hl2 m))

/-- The shared recursion returns a tree when every half-edge it updates is found within
the depth `fuel`. -/
theorem visitAux_isSome (f : ℚ → ℚ) (fuel : Nat) (t : Tree) (node : Nat) (dad : Option Nat)
    (h : t.walkOK fuel node dad = true) : ∃ t1, visitAux f fuel t node dad = some t1 := by
  induction fuel generalizing t node dad with
  | zero => cases h
  | succ fuel ih =>
    simp only [Tree.walkOK, Bool.and_eq_true, List.all_eq_true] at h
    obtain ⟨h1, h2⟩ := h
    have hmem : ∀ t2 : Tree, (∀ m, t2.links m = t.links m) →
        ∀ nei ∈ (t2.neighbors node).filter (fun (nei : Neighbor) => some nei.node != dad),
        Tree.walkOK fuel t nei.node (some node) = true := by
      intro t2 hl2 nei hnei
      apply h2
      rw [← hl2 node]
      have := List.mem_map_of_mem (·.node) hnei
      rw [filter_links_opt] at this
      exact this
    cases dad with
    | none =>
      simp only [visitAux, Option.some_bind]
      exact visit_foldl_isSome f fuel t node ih _ (hmem t (fun _ => rfl)) t (fun _ => rfl)
    | some d =>
      simp only [Bool.and_eq_true, decide_eq_true_eq] at h1
      obtain ⟨ta, hta⟩ := updateBonus_isSome t node d f h1.1
      obtain ⟨la, _, _⟩ := updateBonus_spec t ta node d f hta
      obtain ⟨tb, htb⟩ := updateBonus_isSome ta d node f (by rw [la]; exact h1.2)
      obtain ⟨lb, _, _⟩ := updateBonus_spec ta tb d node f htb
      have hl2 : ∀ m, tb.links m = t.links m := fun m => (lb m).trans (la m)
      simp only [visitAux, hta, Option.some_bind, htb]
      exact visit_foldl_isSome f fuel t node ih _ (hmem tb hl2) tb hl2

theorem iterate_succ_rat (k : Nat) (b : ℚ) : (fun b : ℚ => b + 1)^[k] b = b + k := by
  induction k generalizing b with
  | zero => simp
  | succ k ih =>
    rw [Function.iterate_succ_apply, ih]
    push_cast
    ring

theorem iterate_const_zero (k : Nat) (hk : 0 < k) (b : ℚ) : (fun _ : ℚ => (0 : ℚ))^[k] b = 0 := by
  cases k with
  | zero => cases hk
  | succ k => rw [Function.iterate_succ_apply']

/-- One vote: `raiseBonus(node, dad)` returns a tree with the same links and size, and
the bonus of every half-edge is raised by the number of visits of its branch. -/
theorem raiseBonus_count (t0 t : Tree) (hl : ∀ m, t.links m = t0.links m)
    (hlen : t.nodes.length = t0.nodes.length) (node dad : Nat)
    (hok : t0.walkOK t0.nodes.length node (some dad) = true) :
    ∃ t1, IQPTree.raiseBonus t node dad = some t1 ∧ (∀ m, t1.links m = t0.links m) ∧
      t1.nodes.length = t0.nodes.length ∧
      ∀ u v, t1.bonus u v = (t.bonus u v).map
        (fun b => b + ((hits (Tree.walk t0.nodes.length t0 node (some dad)) u v : ℕ) : ℚ)) := by
  have hok1 : t.walkOK t.nodes.length node (some dad) = true := by
    rw [hlen, walkOK_congr _ t0 t hl]
    exact hok
  obtain ⟨t1, h1⟩ := visitAux_isSome (fun b => b + 1) _ t node (some dad) hok1
  obtain ⟨a, b, c⟩ := visitAux_spec _ _ t t1 node (some dad) h1
  refine ⟨t1, ?_, fun m => (a m).trans (hl m), c.trans hlen, ?_⟩
  · unfold IQPTree.raiseBonus
    rw [raiseBonusAux_eq]
    exact h1
  · intro u v
    rw [b, hlen, walk_congr _ t0 t hl]
    congr 1
    funext x
    exact iterate_succ_rat _ x

/-- Any number of votes keep the bonuses of the two half-edges of a branch equal. -/
theorem votes_symmetric (t0 : Tree) (votes : List (Nat × Nat))
    (hvotes : ∀ p ∈ votes, t0.walkOK t0.nodes.length p.1 (some p.2) = true)
    (t : Tree) (hl : ∀ m, t.links m = t0.links m) (hlen : t.nodes.length = t0.nodes.length) :
    ∃ t1, votes.foldlM (fun acc p => IQPTree.raiseBonus acc p.1 p.2) t = some t1 ∧
      (∀ m, t1.links m = t0.links m) ∧ t1.nodes.length = t0.nodes.length ∧
      ∀ u v, t.bonus u v = t.bonus v u → (t.bonus u v).isSome = true →
        t1.bonus u v = t1.bonus v u ∧ (t1.bonus u v).isSome = true := by
  induction votes generalizing t with
  | nil => exact ⟨t, rfl, hl, hlen, fun u v h1 h2 => ⟨h1, h2⟩⟩
  | cons p ps ih =>
    obtain ⟨ta, h1, la, lena, ba⟩ := raiseBonus_count t0 t hl hlen p.1 p.2
      (hvotes p (List.mem_cons_self _ _))
    obtain ⟨t1, h2, l1, len1, b1⟩ := ih (fun q hq => hvotes q (List.mem_cons_of_mem _ hq))
      ta la lena
    refine ⟨t1, ?_, l1, len1, ?_⟩
    · rw [List.foldlM_cons, h1]
      exact h2
    · intro u v hs hsome
      apply b1 u v
      · rw [ba, ba, hs, hits_comm]
      · rw [ba]
        cases hb : t.bonus u v with
        | none => rw [hb] at hsome; cases hsome
        | some x => rfl

theorem length_links_bonus (t : Tree) (n : Nat) :
    (t.links n).length = (t.neighbors n).length := by
  unfold Tree.links
  rw [List.length_map]

theorem nodeId_setNeighbors (t : Tree) (n m : Nat) (ns : List Neighbor) :
    (t.setNeighbors n ns).nodeId m = t.nodeId m := by
  unfold Tree.setNeighbors Tree.nodeId
  cases hn : t.nodes.get? n with
  | none => rfl
  | some nd =>
    simp only [List.get?_eq_getElem?, List.getElem?_set]
    by_cases hm : n = m
    · subst hm
      rw [List.get?_eq_getElem?] at hn
      have hlt : n < t.nodes.length := (List.getElem?_eq_some.1 hn).1
      simp only [if_true, if_pos hlt, hn]
    · simp only [if_neg hm]

theorem updateBonus_nodeId (t t1 : Tree) (n node : Nat) (f : ℚ → ℚ)
    (h : t.updateBonus n node f = some t1) (m : Nat) : t1.nodeId m = t.nodeId m := by
  unfold Tree.updateBonus at h
  cases hk : findNeighborIt (t.neighbors n) node with
  | none => rw [hk] at h; cases h
  | some k =>
    rw [hk] at h
    simp only [Option.some.injEq] at h
    subst h
    exact nodeId_setNeighbors _ _ _ _

/-- The shared recursion of the bonus routines keeps the ids of the nodes. -/
theorem visitAux_nodeId (f : ℚ → ℚ) (fuel : Nat) (t t1 : Tree) (node : Nat) (dad : Option Nat)
    (h : visitAux f fuel t node dad = some t1) (m : Nat) : t1.nodeId m = t.nodeId m := by
  induction fuel generalizing t t1 node dad with
  | zero => cases h
  | succ fuel ih =>
    simp only [visitAux] at h
    obtain ⟨t2, h2, h⟩ := Option.bind_eq_some.1 h
    have key : t2.nodeId m = t.nodeId m := by
      cases dad with
      | none =>
        simp only [Option.some.injEq] at h2
        rw [h2]
      | some d =>
        obtain ⟨ta, hta, htb⟩ := Option.bind_eq_some.1 h2
        rw [updateBonus_nodeId ta t2 d node f htb, updateBonus_nodeId t ta node d f hta]
    rw [← key]
    generalize (t2.neighbors node).filter (fun (nei : Neighbor) => some nei.node != dad) = cs at h
    clear key h2
    induction cs generalizing t2 with
    | nil =>
      simp only [List.foldlM_nil] at h
      rw [Option.some.inj h]
    | cons c cs ihc =>
      rw [List.foldlM_cons] at h
      cases hc : visitAux f fuel t2 c.node (some node) with
      | none => rw [hc] at h; cases h
      | some t3 =>
        rw [hc] at h
        rw [ihc t3 h, ih t2 t3 c.node (some node) hc]

/-- A vote that returns keeps the links and the ids of the nodes. -/
theorem raiseBonus_keeps (t t1 : Tree) (node dad : Nat)
    (h : IQPTree.raiseBonus t node dad = some t1) :
    (∀ m, t1.links m = t.links m) ∧ ∀ m, t1.nodeId m = t.nodeId m := by
  unfold IQPTree.raiseBonus at h
  rw [raiseBonusAux_eq] at h
  exact ⟨(visitAux_spec _ _ t t1 node (some dad) h).1, visitAux_nodeId _ _ t t1 node (some dad) h⟩

theorem assessQuartet_le (dist_matrix : List ℚ) (nseq leaf0 leaf1 leaf2 del_leaf : Nat) :
    IQPTree.assessQuartet dist_matrix nseq leaf0 leaf1 leaf2 del_leaf ≤ 2 := by
  unfold IQPTree.assessQuartet
  simp only
  split_ifs <;> omega

/-- The loop of `assessQuartets` is a list of votes, one for each triple. -/
theorem assessQuartets_fold (dist_matrix : List ℚ) (nseq : Nat) (t : Tree)
    (cur_root del_leaf : Nat) (hdeg : (t.links cur_root).length = 3)
    (L : List (Nat × Nat × Nat)) (acc : Tree)
    (hl : ∀ m, acc.links m = t.links m) (hid : ∀ m, acc.nodeId m = t.nodeId m) :
    L.foldlM (fun acc tr =>
        match (acc.neighbors cur_root).get? (IQPTree.assessQuartet dist_matrix nseq
          (acc.nodeId tr.1) (acc.nodeId tr.2.1) (acc.nodeId tr.2.2) (acc.nodeId del_leaf)) with
        | some nei => IQPTree.raiseBonus acc nei.node cur_root
        | none => none) acc =
      (L.map fun tr =>
        ((t.links cur_root).getD (IQPTree.assessQuartet dist_matrix nseq (t.nodeId tr.1)
          (t.nodeId tr.2.1) (t.nodeId tr.2.2) (t.nodeId del_leaf)) 0, cur_root)).foldlM
        (fun acc p => IQPTree.raiseBonus acc p.1 p.2) acc := by
  induction L generalizing acc with
  | nil => rfl
  | cons tr L ih =>
    rw [List.map_cons, List.foldlM_cons, List.foldlM_cons]
    simp only [hid]
    have hb := assessQuartet_le dist_matrix nseq (t.nodeId tr.1) (t.nodeId tr.2.1)
      (t.nodeId tr.2.2) (t.nodeId del_leaf)
    generalize IQPTree.assessQuartet dist_matrix nseq (t.nodeId tr.1) (t.nodeId tr.2.1)
      (t.nodeId tr.2.2) (t.nodeId del_leaf) = b at hb
    have hlt : b < (acc.neighbors cur_root).length := by
      rw [← length_links_bonus acc, hl, hdeg]
      omega
    have hget : (acc.neighbors cur_root).get? b = some ((acc.neighbors cur_root)[b]) := by
      rw [List.get?_eq_getElem?, List.getElem?_eq_getElem hlt]
    have hnode : ((acc.neighbors cur_root)[b]).node = (t.links cur_root).getD b 0 := by
      rw [← hl cur_root]
      unfold Tree.links
      rw [List.getD_eq_getElem?_getD, List.getElem?_map, List.getElem?_eq_getElem hlt]
      rfl
    rw [hget]
    simp only [hnode]
    cases hr : IQPTree.raiseBonus acc ((t.links cur_root).getD b 0) cur_root with
    | none => rfl
    | some acc1 =>
      obtain ⟨k1, k2⟩ := raiseBonus_keeps acc acc1 _ _ hr
      exact ih acc1 (fun m => (k1 m).trans (hl m)) (fun m => (k2 m).trans (hid m))

/-- The routine `assessQuartets` casts the votes of `quartetVotes`, in their order. -/
theorem assessQuartets_eq_votes (dist_matrix : List ℚ) (nseq : Nat)
    (represent : Nat → Nat → List Nat) (t : Tree) (cur_root del_leaf : Nat)
    (hdeg : (t.neighbors cur_root).length = 3) :
    IQPTree.assessQuartets dist_matrix nseq represent t cur_root del_leaf =
      (IQPTree.quartetVotes dist_matrix nseq represent t cur_root del_leaf).foldlM
        (fun acc p => IQPTree.raiseBonus acc p.1 p.2) t := by
  unfold IQPTree.assessQuartets IQPTree.quartetVotes
  rw [if_pos hdeg]
  exact assessQuartets_fold dist_matrix nseq t cur_root del_leaf
    (by rw [length_links_bonus]; exact hdeg) _ t (fun _ => rfl) (fun _ => rfl)

theorem quartetVotes_mem (dist_matrix : List ℚ) (nseq : Nat)
    (represent : Nat → Nat → List Nat) (t : Tree) (cur_root del_leaf : Nat)
    (hdeg : (t.neighbors cur_root).length = 3) :
    ∀ p ∈ IQPTree.quartetVotes dist_matrix nseq represent t cur_root del_leaf,
      p.2 = cur_root ∧ p.1 ∈ t.links cur_root := by
  intro p hp
  unfold IQPTree.quartetVotes at hp
  simp only [List.mem_map] at hp
  obtain ⟨tr, _, rfl⟩ := hp
  refine ⟨rfl, ?_⟩
  have hb := assessQuartet_le dist_matrix nseq (t.nodeId tr.1) (t.nodeId tr.2.1)
    (t.nodeId tr.2.2) (t.nodeId del_leaf)
  generalize IQPTree.assessQuartet dist_matrix nseq (t.nodeId tr.1) (t.nodeId tr.2.1)
    (t.nodeId tr.2.2) (t.nodeId del_leaf) = b at hb
  have hlt : b < (t.links cur_root).length := by
    rw [length_links_bonus, hdeg]
    omega
  show (t.links cur_root).getD b 0 ∈ t.links cur_root
  rw [List.getD_eq_getElem?_getD, List.getElem?_eq_getElem hlt]
  exact List.getElem_mem _

theorem count_pair_eq_one (W : List (Nat × Nat)) (p : Nat × Nat) (hnd : W.Nodup)
    (h : p ∈ W) : W.count p = 1 := by
  induction W with
  | nil => cases h
  | cons a as ih =>
    rw [List.count_cons]
    obtain ⟨ha, hnd1⟩ := List.nodup_cons.1 hnd
    by_cases hap : a = p
    · subst hap
      have c := List.count_eq_zero_of_not_mem ha
      simp only [beq_self_eq_true, if_true]
      omega
    · rcases List.mem_cons.1 h with h1 | h1
      · exact absurd h1.symm hap
      · have c := ih hnd1 h1
        have hb : (a == p) = false := by simpa using hap
        simp only [hb, Bool.false_eq_true, if_false]
        omega

/-- C18, the claim as written, fails: on `exampleTree`, with `cur_root` the internal
node 4 and the chosen neighbor the internal node 5, the single vote `raiseBonus(5, 4)`
raises the bonus of the branch between 5 and the leaf 2 from 0 to 1, at both ends,
although that is not the branch between `cur_root` and the chosen neighbor. -/
theorem raiseBonus_raises_subtree_branches :
    (IQPTree.raiseBonus exampleTree 5 4).map
        (fun t1 => (t1.bonus 5 4, t1.bonus 4 5, t1.bonus 5 2, t1.bonus 2 5, t1.bonus 4 1)) =
      some (some 1, some 1, some 1, some 1, some 0) ∧
    exampleTree.bonus 5 2 = some 0 ∧ exampleTree.bonus 2 5 = some 0 := by
  decide!

/-- C18, as amended: when the branches are kept at both ends and the recursions end
within the depth given by the number of nodes, `initializeBonus`, any list of votes
`raiseBonus(node, dad)` and one more vote all return a tree; after `initializeBonus`
every branch reached from the root has the bonus 0, after the votes its two half-edges
carry the same bonus; the one more vote raises by exactly one the bonus, at both ends,
of the branch between `dad` and `node` and of every branch of the subtree behind `node`,
the half-edges that the recursion from `node` visits, and of no other; and
`assessQuartets` at a node `cur_root` of degree 3 is the list of the votes
`raiseBonus(chosen neighbor, cur_root)`, one for each triple of representative leaves. -/
theorem bonus_votes_spec (t : Tree) (root : Nat) (votes : List (Nat × Nat)) (node dad : Nat)
    (hroot : t.walkOK (t.nodes.length + 1) root none = true)
    (hvotes : ∀ p ∈ votes, t.walkOK t.nodes.length p.1 (some p.2) = true)
    (hvote : t.walkOK t.nodes.length node (some dad) = true)
    (hnd : (t.walk t.nodes.length node (some dad) ++
      (t.walk t.nodes.length node (some dad)).map Prod.swap).Nodup) :
    ∃ t0 t1 t2, IQPTree.initializeBonus t root = some t0 ∧
      votes.foldlM (fun acc p => IQPTree.raiseBonus acc p.1 p.2) t0 = some t1 ∧
      IQPTree.raiseBonus t1 node dad = some t2 ∧
      (∀ u v, (u, v) ∈ t.walk (t.nodes.length + 1) root none ∨
          (v, u) ∈ t.walk (t.nodes.length + 1) root none →
        t0.bonus u v = some 0 ∧ t1.bonus u v = t1.bonus v u ∧ (t1.bonus u v).isSome = true) ∧
      (∀ u v, t2.bonus u v =
        if (u, v) ∈ t.walk t.nodes.length node (some dad) ∨
            (v, u) ∈ t.walk t.nodes.length node (some dad)
        then (t1.bonus u v).map (· + 1) else t1.bonus u v) ∧
      ∀ (dist_matrix : List ℚ) (nseq : Nat) (represent : Nat → Nat → List Nat)
        (cur_root del_leaf : Nat), (t1.neighbors cur_root).length = 3 →
        IQPTree.assessQuartets dist_matrix nseq represent t1 cur_root del_leaf =
          (IQPTree.quartetVotes dist_matrix nseq represent t1 cur_root del_leaf).foldlM
            (fun acc p => IQPTree.raiseBonus acc p.1 p.2) t1 ∧
        ∀ p ∈ IQPTree.quartetVotes dist_matrix nseq represent t1 cur_root del_leaf,
          p.2 = cur_root ∧ p.1 ∈ t1.links cur_root := by
  obtain ⟨t0, h0⟩ := visitAux_isSome (fun _ => 0) _ t root none hroot
  obtain ⟨l0, b0, len0⟩ := visitAux_spec _ _ t t0 root none h0
  obtain ⟨t1, h1, l1, len1, s1⟩ := votes_symmetric t votes hvotes t0 l0 len0
  obtain ⟨t2, h2, l2, len2, b2⟩ := raiseBonus_count t t1 l1 len1 node dad hvote
  have hzero : ∀ u v, (u, v) ∈ t.walk (t.nodes.length + 1) root none ∨
      (v, u) ∈ t.walk (t.nodes.length + 1) root none → t0.bonus u v = some 0 := by
    intro u v huv
    have hpos : 0 < hits (t.walk (t.nodes.length + 1) root none) u v := by
      unfold hits
      rcases huv with h | h
      · have := List.count_pos_iff.2 h
        omega
      · have := List.count_pos_iff.2 h
        omega
    have hmem : v ∈ t.links u := by
      rcases huv with h | h
      · exact (walk_mem_links _ t root none hroot _ h).1
      · exact (walk_mem_links _ t root none hroot _ h).2
    obtain ⟨b, hb⟩ := bonus_isSome_of_mem t u v hmem
    rw [b0, hb, Option.map_some', iterate_const_zero _ hpos]
  refine ⟨t0, t1, t2, ?_, h1, h2, ?_, ?_, fun dist_matrix nseq represent cur_root del_leaf hdeg =>
    ⟨assessQuartets_eq_votes dist_matrix nseq represent t1 cur_root del_leaf hdeg,
      quartetVotes_mem dist_matrix nseq represent t1 cur_root del_leaf hdeg⟩⟩
  · unfold IQPTree.initializeBonus
    rw [initializeBonusAux_eq]
    exact h0
  · intro u v huv
    have e1 := hzero u v huv
    have e2 := hzero v u huv.symm
    obtain ⟨x, y⟩ := s1 u v (by rw [e1, e2]) (by rw [e1]; rfl)
    exact ⟨e1, x, y⟩
  · intro u v
    rw [b2]
    have hnd1 := (List.nodup_append.1 hnd).1
    have hdis := (List.nodup_append.1 hnd).2.2
    by_cases huv : (u, v) ∈ t.walk t.nodes.length node (some dad)
    · have hvu : (v, u) ∉ t.walk t.nodes.length node (some dad) := by
        intro h
        exact hdis huv (List.mem_map.2 ⟨(v, u), h, rfl⟩)
      have : hits (t.walk t.nodes.length node (some dad)) u v = 1 := by
        unfold hits
        have c1 := count_pair_eq_one _ _ hnd1 huv
        have c2 := List.count_eq_zero_of_not_mem hvu
        omega
      rw [if_pos (Or.inl huv), this]
      rfl
    · by_cases hvu : (v, u) ∈ t.walk t.nodes.length node (some dad)
      · have : hits (t.walk t.nodes.length node (some dad)) u v = 1 := by
          unfold hits
          have c1 := count_pair_eq_one _ _ hnd1 hvu
          have c2 := List.count_eq_zero_of_not_mem huv
          omega
        rw [if_pos (Or.inr hvu), this]
        rfl
      · have : hits (t.walk t.nodes.length node (some dad)) u v = 0 := by
          unfold hits
          have c1 := List.count_eq_zero_of_not_mem hvu
          have c2 := List.count_eq_zero_of_not_mem huv
          omega
        rw [if_neg (fun h => h.elim huv hvu), this]
        cases t1.bonus u v with
        | none => rfl
        | some x => simp

theorem bonus_votes_spec_witness :
    exampleTree.walkOK (exampleTree.nodes.length + 1) 0 none = true ∧
    ∃ t0 t1 t2, IQPTree.initializeBonus exampleTree 0 = some t0 ∧
      [(5, 4), (1, 4)].foldlM (fun acc p => IQPTree.raiseBonus acc p.1 p.2) t0 = some t1 ∧
      IQPTree.raiseBonus t1 5 4 = some t2 ∧
      (∀ u v, (u, v) ∈ exampleTree.walk (exampleTree.nodes.length + 1) 0 none ∨
          (v, u) ∈ exampleTree.walk (exampleTree.nodes.length + 1) 0 none →
        t0.bonus u v = some 0 ∧ t1.bonus u v = t1.bonus v u ∧ (t1.bonus u v).isSome = true) ∧
      (∀ u v, t2.bonus u v =
        if (u, v) ∈ exampleTree.walk exampleTree.nodes.length 5 (some 4) ∨
            (v, u) ∈ exampleTree.walk exampleTree.nodes.length 5 (some 4)
        then (t1.bonus u v).map (· + 1) else t1.bonus u v) ∧
      ∀ (dist_matrix : List ℚ) (nseq : Nat) (represent : Nat → Nat → List Nat)
        (cur_root del_leaf : Nat), (t1.neighbors cur_root).length = 3 →
        IQPTree.assessQuartets dist_matrix nseq represent t1 cur_root del_leaf =
          (IQPTree.quartetVotes dist_matrix nseq represent t1 cur_root del_leaf).foldlM
            (fun acc p => IQPTree.raiseBonus acc p.1 p.2) t1 ∧
        ∀ p ∈ IQPTree.quartetVotes dist_matrix nseq represent t1 cur_root del_leaf,
          p.2 = cur_root ∧ p.1 ∈ t1.links cur_root :=
  ⟨by decide, bonus_votes_spec exampleTree 0 [(5, 4), (1, 4)] 5 4 (by decide) (by decide)
    (by decide) (by decide)⟩

open SimpleGraph

/-- A graph has no cycle when removing any of its edges separates the ends. -/
theorem acyclic_iff_bridges {V : Type} (G : SimpleGraph V) :
    G.IsAcyclic ↔ ∀ v w, G.Adj v w → ¬(G \ fromEdgeSet {s(v, w)}).Reachable v w := by
  rw [isAcyclic_iff_forall_adj_isBridge]
  constructor
  · intro h v w hvw
    exact (isBridge_iff.1 (h hvw)).2
  · intro h v w hvw
    exact isBridge_iff.2 ⟨hvw, h v w hvw⟩

theorem reach_of_adj {V : Type} (G H : SimpleGraph V)
    (h : ∀ a b, G.Adj a b → H.Reachable a b) {a b : V} (hr : G.Reachable a b) :
    H.Reachable a b := by
  obtain ⟨w⟩ := hr
  induction w with
  | nil => exact Reachable.refl _
  | cons hadj _ ih => exact (h _ _ hadj).trans ih

/-- Reachability after one edge, between `v` and `x`, is added to `K`. -/
theorem reach_add {V : Type} (K H : SimpleGraph V) (v x : V)
    (h : ∀ a b, H.Adj a b → K.Adj a b ∨ (a = v ∧ b = x) ∨ (a = x ∧ b = v)) {a b : V}
    (hr : H.Reachable a b) :
    K.Reachable a b ∨ (K.Reachable a v ∧ K.Reachable x b) ∨
      (K.Reachable a x ∧ K.Reachable v b) := by
  obtain ⟨w⟩ := hr
  induction w with
  | nil => exact Or.inl (Reachable.refl _)
  | cons hadj _ ih =>
    rcases h _ _ hadj with h1 | ⟨rfl, rfl⟩ | ⟨rfl, rfl⟩
    · rcases ih with i | ⟨i, j⟩ | ⟨i, j⟩
      · exact Or.inl (h1.reachable.trans i)
      · exact Or.inr (Or.inl ⟨h1.reachable.trans i, j⟩)
      · exact Or.inr (Or.inr ⟨h1.reachable.trans i, j⟩)
    · rcases ih with i | ⟨i, j⟩ | ⟨_, j⟩
      · exact Or.inr (Or.inl ⟨Reachable.refl _, i⟩)
      · exact Or.inr (Or.inl ⟨Reachable.refl _, j⟩)
      · exact Or.inl j
    · rcases ih with i | ⟨_, j⟩ | ⟨i, j⟩
      · exact Or.inr (Or.inr ⟨Reachable.refl _, i⟩)
      · exact Or.inl j
      · exact Or.inr (Or.inr ⟨Reachable.refl _, j⟩)

/-- A graph whose edges are edges of a graph without cycles has no cycle. -/
theorem delete_edge_acyclic {V : Type} (G G0 : SimpleGraph V) (h : G.IsAcyclic)
    (hle : ∀ a b, G0.Adj a b → G.Adj a b) : G0.IsAcyclic := by
  rw [acyclic_iff_bridges] at h ⊢
  intro p q hpq hr
  apply h p q (hle p q hpq)
  refine Reachable.mono ?_ hr
  intro a b hab
  rw [sdiff_adj] at hab ⊢
  exact ⟨hle a b hab.1, fun hh => hab.2 (by
    rw [fromEdgeSet_adj] at hh ⊢
    exact hh)⟩

/-- Adding an edge between two nodes that are not connected keeps a graph without
cycles. -/
theorem add_edge_acyclic {V : Type} (G0 H : SimpleGraph V) (v x : V) (h0 : G0.IsAcyclic)
    (hnr : ¬G0.Reachable v x)
    (hH : ∀ a b, H.Adj a b ↔ G0.Adj a b ∨ (a = v ∧ b = x) ∨ (a = x ∧ b = v)) :
    H.IsAcyclic := by
  rw [acyclic_iff_bridges] at h0 ⊢
  have hvx : v ≠ x := fun e => hnr (e ▸ Reachable.refl _)
  have hnadj : ¬G0.Adj v x := fun e => hnr e.reachable
  have hsub : ∀ a b, (G0 \ fromEdgeSet {s(a, b)}) ≤ G0 := fun a b c d hcd => by
    rw [sdiff_adj] at hcd
    exact hcd.1
  intro p q hpq hr
  rcases (hH p q).1 hpq with hold | ⟨rfl, rfl⟩ | ⟨rfl, rfl⟩
  · have hstep : ∀ a b, (H \ fromEdgeSet {s(p, q)}).Adj a b →
        (G0 \ fromEdgeSet {s(p, q)}).Adj a b ∨ (a = v ∧ b = x) ∨ (a = x ∧ b = v) := by
      intro a b hab
      rw [sdiff_adj] at hab
      rcases (hH a b).1 hab.1 with h1 | h1 | h1
      · left
        rw [sdiff_adj]
        exact ⟨h1, hab.2⟩
      · exact Or.inr (Or.inl h1)
      · exact Or.inr (Or.inr h1)
    rcases reach_add _ _ v x hstep hr with i | ⟨i, j⟩ | ⟨i, j⟩
    · exact h0 p q hold i
    · exact hnr ((i.mono (hsub p q)).symm.trans (hold.reachable.trans (j.mono (hsub p q)).symm))
    · exact hnr ((j.mono (hsub p q)).trans (hold.symm.reachable.trans (i.mono (hsub p q))))
  · apply hnr
    refine reach_of_adj _ _ ?_ hr
    intro a b hab
    rw [sdiff_adj, fromEdgeSet_adj] at hab
    rcases (hH a b).1 hab.1 with h1 | ⟨rfl, rfl⟩ | ⟨rfl, rfl⟩
    · exact h1.reachable
    · exact absurd ⟨rfl, hvx⟩ hab.2
    · exact absurd ⟨Sym2.eq_swap, hvx.symm⟩ hab.2
  · apply hnr
    refine (reach_of_adj _ _ ?_ hr).symm
    intro a b hab
    rw [sdiff_adj, fromEdgeSet_adj] at hab
    rcases (hH a b).1 hab.1 with h1 | ⟨rfl, rfl⟩ | ⟨rfl, rfl⟩
    · exact h1.reachable
    · exact absurd ⟨Sym2.eq_swap, hvx⟩ hab.2
    · exact absurd ⟨rfl, hvx.symm⟩ hab.2

/-- Moving the end `u` of the edge between `u` and `x` along the edge between `u` and
`v` keeps a graph without cycles. -/
theorem slide_acyclic {V : Type} (G H : SimpleGraph V) (u v x : V) (hG : G.IsAcyclic)
    (huv : G.Adj u v) (hux : G.Adj u x) (hvx : v ≠ x)
    (hH : ∀ a b, H.Adj a b ↔
      (G.Adj a b ∧ ¬((a = u ∧ b = x) ∨ (a = x ∧ b = u))) ∨ (a = v ∧ b = x) ∨ (a = x ∧ b = v)) :
    H.IsAcyclic := by
  have hG0 : (G \ fromEdgeSet {s(u, x)}).IsAcyclic :=
    delete_edge_acyclic G _ hG (fun a b hab => by
      rw [sdiff_adj] at hab
      exact hab.1)
  have hbr := (acyclic_iff_bridges G).1 hG u x hux
  have huv0 : (G \ fromEdgeSet {s(u, x)}).Adj u v := by
    rw [sdiff_adj, fromEdgeSet_adj]
    refine ⟨huv, fun hh => ?_⟩
    have := hh.1
    simp only [Set.mem_singleton_iff, Sym2.eq_iff] at this
    rcases this with ⟨_, e⟩ | ⟨e, _⟩
    · exact hvx e
    · exact hux.ne e
  apply add_edge_acyclic _ H v x hG0 (fun hr => hbr (huv0.reachable.trans hr))
  intro a b
  rw [hH, sdiff_adj, fromEdgeSet_adj]
  simp only [Set.mem_singleton_iff, Sym2.eq_iff]
  constructor
  · rintro (⟨h1, h2⟩ | h | h)
    · exact Or.inl ⟨h1, fun hh => h2 hh.1⟩
    · exact Or.inr (Or.inl h)
    · exact Or.inr (Or.inr h)
  · rintro (⟨h1, h2⟩ | h | h)
    · exact Or.inl ⟨h1, fun hh => h2 ⟨hh, h1.ne⟩⟩
    · exact Or.inr (Or.inl h)
    · exact Or.inr (Or.inr h)

/-- Moving the end of an edge along an adjacent edge keeps what is connected. -/
theorem slide_reach {V : Type} (G H : SimpleGraph V) (u v x : V)
    (huv : G.Adj u v) (hux : G.Adj u x) (hvx : v ≠ x)
    (hH : ∀ a b, H.Adj a b ↔
      (G.Adj a b ∧ ¬((a = u ∧ b = x) ∨ (a = x ∧ b = u))) ∨ (a = v ∧ b = x) ∨ (a = x ∧ b = v))
    (a b : V) : H.Reachable a b ↔ G.Reachable a b := by
  have huvH : H.Adj u v := by
    rw [hH]
    refine Or.inl ⟨huv, ?_⟩
    rintro (⟨_, e⟩ | ⟨e, _⟩)
    · exact hvx e
    · exact hux.ne e
  have hvxH : H.Adj v x := (hH v x).2 (Or.inr (Or.inl ⟨rfl, rfl⟩))
  constructor
  · apply reach_of_adj
    intro c d hcd
    rcases (hH c d).1 hcd with h | ⟨rfl, rfl⟩ | ⟨rfl, rfl⟩
    · exact h.1.reachable
    · exact huv.symm.reachable.trans hux.reachable
    · exact hux.symm.reachable.trans huv.reachable
  · apply reach_of_adj
    intro c d hcd
    by_cases hh : (c = u ∧ d = x) ∨ (c = x ∧ d = u)
    · rcases hh with ⟨rfl, rfl⟩ | ⟨rfl, rfl⟩
      · exact huvH.reachable.trans hvxH.reachable
      · exact hvxH.symm.reachable.trans huvH.symm.reachable
    · exact ((hH c d).2 (Or.inl ⟨hcd, hh⟩)).reachable

theorem nodup_getElem?_inj (L : List Nat) (hnd : L.Nodup) (i j p : Nat)
    (hi : L[i]? = some p) (hj : L[j]? = some p) : i = j := by
  rw [List.nodup_iff_getElem?_ne_getElem?] at hnd
  have hjl : j < L.length := (List.getElem?_eq_some.1 hj).1
  have hil : i < L.length := (List.getElem?_eq_some.1 hi).1
  rcases Nat.lt_trichotomy i j with h | h | h
  · exact absurd (hi.trans hj.symm) (hnd i j h hjl)
  · exact h
  · exact absurd (hj.trans hi.symm) (hnd j i h hil)

theorem repl_mem (L L1 : List Nat) (k y p : Nat) (h : Repl L L1 k y) (hk : L[k]? = some p)
    (hnd : L.Nodup) (z : Nat) : z ∈ L1 ↔ (z ∈ L ∧ z ≠ p) ∨ z = y := by
  rw [List.mem_iff_getElem?, List.mem_iff_getElem?]
  constructor
  · rintro ⟨j, hj⟩
    rw [h j] at hj
    by_cases hjk : j = k
    · rw [if_pos hjk, hk] at hj
      right
      exact (Option.some.inj hj).symm
    · rw [if_neg hjk] at hj
      left
      refine ⟨⟨j, hj⟩, fun e => hjk ?_⟩
      subst e
      exact nodup_getElem?_inj L hnd j k z hj hk
  · rintro (⟨⟨j, hj⟩, hz⟩ | rfl)
    · refine ⟨j, ?_⟩
      rw [h j, if_neg]
      · exact hj
      · intro e
        subst e
        rw [hk] at hj
        exact hz (Option.some.inj hj).symm
    · refine ⟨k, ?_⟩
      rw [h k, if_pos rfl, hk]
      rfl

theorem repl_length (L L1 : List Nat) (k y : Nat) (h : Repl L L1 k y) :
    L1.length = L.length := by
  have key : ∀ j : Nat, L1[j]? = none ↔ L[j]? = none := by
    intro j
    rw [h j]
    by_cases hjk : j = k
    · subst hjk
      rw [if_pos rfl]
      cases L[j]? <;> simp
    · rw [if_neg hjk]
  apply Nat.le_antisymm
  · exact List.getElem?_eq_none_iff.1
      ((key L.length).2 (List.getElem?_eq_none_iff.2 (Nat.le_refl _)))
  · exact List.getElem?_eq_none_iff.1
      ((key L1.length).1 (List.getElem?_eq_none_iff.2 (Nat.le_refl _)))

theorem repl_nodup (L L1 : List Nat) (k y : Nat) (h : Repl L L1 k y) (hnd : L.Nodup)
    (hy : y ∉ L) : L1.Nodup := by
  have hlen := repl_length L L1 k y h
  rw [List.nodup_iff_getElem?_ne_getElem?] at hnd ⊢
  intro i j hij hj
  rw [hlen] at hj
  have hil : i < L.length := Nat.lt_trans hij hj
  rw [h i, h j]
  by_cases hik : i = k
  · subst hik
    rw [if_pos rfl, if_neg (Nat.ne_of_gt hij)]
    intro e
    have hi1 : L[i]? = some L[i] := List.getElem?_eq_getElem hil
    rw [hi1] at e
    exact hy (List.mem_iff_getElem?.2 ⟨j, e.symm⟩)
  · rw [if_neg hik]
    by_cases hjk : j = k
    · subst hjk
      rw [if_pos rfl]
      intro e
      have hj1 : L[j]? = some L[j] := List.getElem?_eq_getElem hj
      rw [hj1] at e
      exact hy (List.mem_iff_getElem?.2 ⟨i, e⟩)
    · rw [if_neg hjk]
      exact hnd i j hij hj

theorem repl_retarget (S : List (Nat × ℚ)) (k y : Nat) :
    Repl (S.map (·.1)) ((retarget S k y).map (·.1)) k y := by
  intro j
  simp only [retarget, List.getElem?_map, List.getElem?_modify]
  by_cases hjk : j = k
  · subst hjk
    rw [if_pos rfl]
    cases S[j]? <;> simp
  · rw [if_neg hjk]
    have : ¬ k = j := fun e => hjk e.symm
    cases S[j]? <;> simp [this]

theorem repl_set (S : List (Nat × ℚ)) (k : Nat) (a : Nat × ℚ) :
    Repl (S.map (·.1)) ((S.set k a).map (·.1)) k a.1 := by
  intro j
  simp only [List.getElem?_map, List.getElem?_set]
  by_cases hjk : j = k
  · subst hjk
    rw [if_pos rfl, if_pos rfl]
    by_cases hl : j < S.length
    · rw [if_pos hl, List.getElem?_eq_getElem hl]
      rfl
    · rw [if_neg hl, List.getElem?_eq_none_iff.2 (Nat.le_of_not_lt hl)]
      rfl
  · rw [if_neg hjk, if_neg (fun e => hjk e.symm)]

theorem findS_getElem? (S : List (Nat × ℚ)) (x k : Nat) (h : findS S x = some k) :
    (S.map (·.1))[k]? = some x := by
  unfold findS at h
  rw [List.findIdx?_eq_some_iff_getElem] at h
  obtain ⟨hlt, hx, _⟩ := h
  rw [List.getElem?_map, List.getElem?_eq_getElem hlt]
  simp only [beq_iff_eq] at hx
  simp [hx]

/-- The links of every node after an NNI with a valid move: the four half-edges of the
two exchanged branches are redirected, every other half-edge is kept. -/
theorem doNNI_links (t : Tree) (m : NNIMove) (h : m.valid t = true) :
    ∃ t1 A B ka kb, doNNI t m = some t1 ∧ t1.nodes.length = t.nodes.length ∧
      (t.links m.node1)[m.node1Nei_it]? = some A ∧
      (t.links m.node2)[m.node2Nei_it]? = some B ∧
      (t.links A)[ka]? = some m.node1 ∧ (t.links B)[kb]? = some m.node2 ∧
      m.node1 ≠ m.node2 ∧ A ≠ m.node1 ∧ A ≠ m.node2 ∧ B ≠ m.node1 ∧ B ≠ m.node2 ∧ A ≠ B ∧
      m.node2 ∉ t.links A ∧ m.node1 ∉ t.links B ∧
      Repl (t.links A) (t1.links A) ka m.node2 ∧
      Repl (t.links m.node2) (t1.links m.node2) m.node2Nei_it A ∧
      Repl (t.links B) (t1.links B) kb m.node1 ∧
      Repl (t.links m.node1) (t1.links m.node1) m.node1Nei_it B ∧
      ∀ n, n ≠ A → n ≠ m.node2 → n ≠ B → n ≠ m.node1 → t1.links n = t.links n := by
  obtain ⟨a, b, ka, kb, ha, hb, h1, h2, h12, ha1, ha2, hb1, hb2, hab, hka, hkb, hna, hnb⟩ :=
    valid_shape t m h
  obtain ⟨t1, hdo, hlen, hsh⟩ := doNNI_shape' t m a b ka kb ha hb h1 h2 h12 ha1 ha2 hb1 hb2 hab
    hka hkb
  have hl : ∀ n, t1.links n = (nniS (fun n => shape (t.neighbors n)) m.node1 m.node1Nei_it
      m.node2 m.node2Nei_it a b ka kb n).map (·.1) := by
    intro n
    rw [links_of_shape, hsh]
  have hA : (t.links m.node1)[m.node1Nei_it]? = some a.1 := by
    rw [links_of_shape, List.getElem?_map, ha]
    rfl
  have hB : (t.links m.node2)[m.node2Nei_it]? = some b.1 := by
    rw [links_of_shape, List.getElem?_map, hb]
    rfl
  have hnone : ∀ (u x : Nat), findS (shape (t.neighbors u)) x = none → x ∉ t.links u := by
    intro u x hf hx
    rw [links_of_shape] at hx
    obtain ⟨p, hp, hpx⟩ := List.mem_map.1 hx
    obtain ⟨j, hj⟩ := List.mem_iff_getElem?.1 hp
    exact findS_none _ _ hf j p hj hpx
  refine ⟨t1, a.1, b.1, ka, kb, hdo, hlen, hA, hB, ?_, ?_, h12, ha1, ha2, hb1, hb2, hab,
    hnone _ _ hna, hnone _ _ hnb, ?_, ?_, ?_, ?_, ?_⟩
  · rw [links_of_shape]
    exact findS_getElem? _ _ _ hka
  · rw [links_of_shape]
    exact findS_getElem? _ _ _ hkb
  · rw [hl, links_of_shape]
    simp only [nniS, if_true]
    exact repl_retarget _ _ _
  · rw [hl, links_of_shape]
    simp only [nniS, if_neg (Ne.symm ha2), if_true]
    exact repl_set _ _ _
  · rw [hl, links_of_shape]
    simp only [nniS, if_neg (Ne.symm hab), if_neg hb2, if_true]
    exact repl_retarget _ _ _
  · rw [hl, links_of_shape]
    simp only [nniS, if_neg (Ne.symm ha1), if_neg h12, if_neg (Ne.symm hb1), if_true]
    exact repl_set _ _ _
  · intro n n1 n2 n3 n4
    rw [hl, links_of_shape]
    simp only [nniS, if_neg n1, if_neg n2, if_neg n3, if_neg n4]

/-- The exchange of an NNI on graphs: `H` is `G` with the edges between `n1` and `A` and
between `n2` and `B` replaced by edges between `n2` and `A` and between `n1` and `B`.
When `G` has no cycle, `H` has none, and the same nodes are connected. -/
theorem nni_graph (G H : SimpleGraph ℕ) (n1 n2 A B : ℕ) (hG : G.IsAcyclic)
    (h12 : G.Adj n1 n2) (h1A : G.Adj n1 A) (h2B : G.Adj n2 B)
    (hA2 : A ≠ n2) (hB1 : B ≠ n1) (hAB : A ≠ B)
    (hH : ∀ a b, H.Adj a b ↔
      (G.Adj a b ∧ ¬((a = n1 ∧ b = A) ∨ (a = A ∧ b = n1)) ∧
        ¬((a = n2 ∧ b = B) ∨ (a = B ∧ b = n2))) ∨
      ((a = n2 ∧ b = A) ∨ (a = A ∧ b = n2)) ∨ ((a = n1 ∧ b = B) ∨ (a = B ∧ b = n1))) :
    H.IsAcyclic ∧ ∀ a b, H.Reachable a b ↔ G.Reachable a b := by
  have hn12 : n1 ≠ n2 := h12.ne
  have hA1 : A ≠ n1 := h1A.ne.symm
  have hB2 : B ≠ n2 := h2B.ne.symm
  have hG1 : ∀ a b, (fromRel (fun a b => (G.Adj a b ∧ ¬((a = n1 ∧ b = A) ∨ (a = A ∧ b = n1))) ∨
      (a = n2 ∧ b = A) ∨ (a = A ∧ b = n2))).Adj a b ↔
      (G.Adj a b ∧ ¬((a = n1 ∧ b = A) ∨ (a = A ∧ b = n1))) ∨
        (a = n2 ∧ b = A) ∨ (a = A ∧ b = n2) := by
    intro a b
    rw [fromRel_adj]
    constructor
    · rintro ⟨_, h | h⟩
      · exact h
      · rcases h with ⟨h1, h2⟩ | ⟨rfl, rfl⟩ | ⟨rfl, rfl⟩
        · exact Or.inl ⟨h1.symm, fun hh => h2 (hh.elim (fun x => Or.inr ⟨x.2, x.1⟩)
            (fun x => Or.inl ⟨x.2, x.1⟩))⟩
        · exact Or.inr (Or.inr ⟨rfl, rfl⟩)
        · exact Or.inr (Or.inl ⟨rfl, rfl⟩)
    · intro h
      refine ⟨?_, Or.inl h⟩
      rcases h with ⟨h1, _⟩ | ⟨rfl, rfl⟩ | ⟨rfl, rfl⟩
      · exact h1.ne
      · exact hA2.symm
      · exact hA2
  generalize fromRel (fun a b => (G.Adj a b ∧ ¬((a = n1 ∧ b = A) ∨ (a = A ∧ b = n1))) ∨
      (a = n2 ∧ b = A) ∨ (a = A ∧ b = n2)) = G1 at hG1
  have hacy1 : G1.IsAcyclic := slide_acyclic G G1 n1 n2 A hG h12 h1A hA2.symm hG1
  have hr1 := slide_reach G G1 n1 n2 A h12 h1A hA2.symm hG1
  have g21 : G1.Adj n2 n1 := by
    rw [hG1]
    refine Or.inl ⟨h12.symm, ?_⟩
    rintro (⟨e, _⟩ | ⟨e, _⟩)
    · exact hn12 e.symm
    · exact hA2 e.symm
  have g2B : G1.Adj n2 B := by
    rw [hG1]
    refine Or.inl ⟨h2B, ?_⟩
    rintro (⟨e, _⟩ | ⟨e, _⟩)
    · exact hn12 e.symm
    · exact hA2 e.symm
  have hH1 : ∀ a b, H.Adj a b ↔
      (G1.Adj a b ∧ ¬((a = n2 ∧ b = B) ∨ (a = B ∧ b = n2))) ∨ (a = n1 ∧ b = B) ∨
        (a = B ∧ b = n1) := by
    intro a b
    rw [hH, hG1]
    constructor
    · rintro (⟨h1, h2, h3⟩ | (⟨rfl, rfl⟩ | ⟨rfl, rfl⟩) | h)
      · exact Or.inl ⟨Or.inl ⟨h1, h2⟩, h3⟩
      · refine Or.inl ⟨Or.inr (Or.inl ⟨rfl, rfl⟩), ?_⟩
        rintro (⟨_, e⟩ | ⟨e, _⟩)
        · exact hAB e
        · exact hB2 e.symm
      · refine Or.inl ⟨Or.inr (Or.inr ⟨rfl, rfl⟩), ?_⟩
        rintro (⟨e, _⟩ | ⟨e, _⟩)
        · exact hA2 e
        · exact hAB e
      · exact Or.inr h
    · rintro (⟨⟨h1, h2⟩ | h, h3⟩ | h)
      · exact Or.inl ⟨h1, h2, h3⟩
      · exact Or.inr (Or.inl h)
      · exact Or.inr (Or.inr h)
  refine ⟨slide_acyclic G1 H n2 n1 B hacy1 g21 g2B hB1.symm hH1, fun a b => ?_⟩
  rw [slide_reach G1 H n2 n1 B g21 g2B hB1.symm hH1, hr1]

/-- A graph without cycles has no triangle. -/
theorem no_triangle (G : SimpleGraph ℕ) (hG : G.IsAcyclic) (a b c : ℕ)
    (hab : G.Adj a b) (hbc : G.Adj b c) (hac : G.Adj a c) : False := by
  have hbr := (acyclic_iff_bridges G).1 hG a c hac
  apply hbr
  have e1 : (G \ fromEdgeSet {s(a, c)}).Adj a b := by
    rw [sdiff_adj, fromEdgeSet_adj]
    refine ⟨hab, fun hh => ?_⟩
    have := hh.1
    simp only [Set.mem_singleton_iff, Sym2.eq_iff] at this
    rcases this with ⟨_, e⟩ | ⟨e, _⟩
    · exact hbc.ne e
    · exact hac.ne e
  have e2 : (G \ fromEdgeSet {s(a, c)}).Adj b c := by
    rw [sdiff_adj, fromEdgeSet_adj]
    refine ⟨hbc, fun hh => ?_⟩
    have := hh.1
    simp only [Set.mem_singleton_iff, Sym2.eq_iff] at this
    rcases this with ⟨e, _⟩ | ⟨e, _⟩
    · exact hab.ne e.symm
    · exact hbc.ne e
  exact e1.reachable.trans e2.reachable

theorem graph_adj (t : Tree) (hsym : ∀ u v, v ∈ t.links u → u ∈ t.links v)
    (hloop : ∀ u, u ∉ t.links u) (u v : ℕ) : t.graph.Adj u v ↔ v ∈ t.links u := by
  unfold Tree.graph
  rw [fromRel_adj]
  constructor
  · rintro ⟨_, h | h⟩
    · exact h
    · exact hsym _ _ h
  · intro h
    exact ⟨fun e => hloop u (e ▸ h), Or.inl h⟩

theorem findNeighborIt_isSome_of_mem (t : Tree) (u x : Nat) (h : x ∈ t.links u) :
    (findNeighborIt (t.neighbors u) x).isSome = true := by
  cases hk : findNeighborIt (t.neighbors u) x with
  | some k => rfl
  | none =>
    have := find?_eq_none_of_findNeighborIt _ _ hk
    rw [List.find?_eq_none] at this
    unfold Tree.links at h
    obtain ⟨e, he, hev⟩ := List.mem_map.1 h
    have := this e he
    simp [hev] at this

theorem findNeighborIt_isNone_of_not_mem (t : Tree) (u x : Nat) (h : x ∉ t.links u) :
    (findNeighborIt (t.neighbors u) x).isNone = true := by
  cases hk : findNeighborIt (t.neighbors u) x with
  | none => rfl
  | some k => exact absurd (mem_links_of_findNeighborIt t u x k hk) h

/-- On an unrooted binary tree, a move on an internal branch whose slots hold neighbors
other than the ends of the branch is a valid move. -/
theorem valid_of_tree (t : Tree) (m : NNIMove) (hT : t.IsBinaryTree)
    (hc : m.node2 ∈ t.links m.node1)
    (h1 : (t.neighbors m.node1).length = 3) (h2 : (t.neighbors m.node2).length = 3)
    (hA : ∃ A, t.neighborNode m.node1 m.node1Nei_it = some A ∧ A ≠ m.node2)
    (hB : ∃ B, t.neighborNode m.node2 m.node2Nei_it = some B ∧ B ≠ m.node1) :
    m.valid t = true := by
  obtain ⟨hsym, hnd, hloop, hdeg, hacy, hconn⟩ := hT
  obtain ⟨A, hA, hA2⟩ := hA
  obtain ⟨B, hB, hB1⟩ := hB
  unfold Tree.neighborNode at hA hB
  cases ha : (t.neighbors m.node1).get? m.node1Nei_it with
  | none => rw [ha] at hA; cases hA
  | some a0 =>
    cases hb : (t.neighbors m.node2).get? m.node2Nei_it with
    | none => rw [hb] at hB; cases hB
    | some b0 =>
      rw [ha] at hA
      rw [hb] at hB
      simp only [Option.map_some', Option.some.injEq] at hA hB
      have hAm : A ∈ t.links m.node1 := by
        unfold Tree.links
        exact List.mem_map.2 ⟨a0, List.getElem?_mem (by rw [← List.get?_eq_getElem?]; exact ha), hA⟩
      have hBm : B ∈ t.links m.node2 := by
        unfold Tree.links
        exact List.mem_map.2 ⟨b0, List.getElem?_mem (by rw [← List.get?_eq_getElem?]; exact hb), hB⟩
      have adj := graph_adj t hsym hloop
      have g12 : t.graph.Adj m.node1 m.node2 := (adj _ _).2 hc
      have g1A : t.graph.Adj m.node1 A := (adj _ _).2 hAm
      have g2B : t.graph.Adj m.node2 B := (adj _ _).2 hBm
      have hAB : A ≠ B := by
        intro e
        subst e
        exact no_triangle _ hacy _ _ _ g12 g2B g1A
      have hA2n : m.node2 ∉ t.links A := fun hh =>
        no_triangle _ hacy _ _ _ g12.symm g1A ((adj _ _).2 (hsym _ _ hh))
      have hB1n : m.node1 ∉ t.links B := fun hh =>
        no_triangle _ hacy _ _ _ g12 g2B ((adj _ _).2 (hsym _ _ hh))
      unfold NNIMove.valid
      rw [ha, hb]
      simp only [hA, hB, h1, h2, beq_self_eq_true, Bool.true_and, Bool.and_eq_true, bne_iff_ne,
        ne_eq]
      refine ⟨⟨⟨⟨⟨⟨⟨⟨⟨g12.ne, g1A.ne.symm⟩, hA2⟩, hB1⟩, g2B.ne.symm⟩, hAB⟩, ?_⟩, ?_⟩, ?_⟩, ?_⟩
      · exact findNeighborIt_isSome_of_mem t A m.node1 (hsym _ _ hAm)
      · exact findNeighborIt_isNone_of_not_mem t A m.node2 hA2n
      · exact findNeighborIt_isSome_of_mem t B m.node2 (hsym _ _ hBm)
      · exact findNeighborIt_isNone_of_not_mem t B m.node1 hB1n

/-- The half-edges after an NNI, from the four redirected slots. -/
theorem nni_mem (L L1 : Nat → List Nat) (n1 n2 A B ka kb i j : Nat)
    (h12 : n1 ≠ n2) (hA1 : A ≠ n1) (hA2 : A ≠ n2) (hB1 : B ≠ n1) (hB2 : B ≠ n2) (hAB : A ≠ B)
    (hnd : ∀ u, (L u).Nodup)
    (hi : (L n1)[i]? = some A) (hj : (L n2)[j]? = some B)
    (hka : (L A)[ka]? = some n1) (hkb : (L B)[kb]? = some n2)
    (rA : Repl (L A) (L1 A) ka n2) (r2 : Repl (L n2) (L1 n2) j A)
    (rB : Repl (L B) (L1 B) kb n1) (r1 : Repl (L n1) (L1 n1) i B)
    (hrest : ∀ n, n ≠ A → n ≠ n2 → n ≠ B → n ≠ n1 → L1 n = L n) (a b : Nat) :
    b ∈ L1 a ↔
      (b ∈ L a ∧ ¬((a = n1 ∧ b = A) ∨ (a = A ∧ b = n1)) ∧
        ¬((a = n2 ∧ b = B) ∨ (a = B ∧ b = n2))) ∨
      ((a = n2 ∧ b = A) ∨ (a = A ∧ b = n2)) ∨ ((a = n1 ∧ b = B) ∨ (a = B ∧ b = n1)) := by
  by_cases eA : a = A
  · rw [eA, repl_mem _ _ ka n2 n1 rA hka (hnd A)]
    constructor
    · rintro (⟨h1, h2⟩ | h)
      · refine Or.inl ⟨h1, ?_, ?_⟩
        · rintro (⟨e, _⟩ | ⟨_, e⟩)
          · exact hA1 e
          · exact h2 e
        · rintro (⟨e, _⟩ | ⟨e, _⟩)
          · exact hA2 e
          · exact hAB e
      · exact Or.inr (Or.inl (Or.inr ⟨rfl, h⟩))
    · rintro (⟨h1, h2, _⟩ | (⟨e, _⟩ | ⟨_, e⟩) | (⟨e, _⟩ | ⟨e, _⟩))
      · exact Or.inl ⟨h1, fun e => h2 (Or.inr ⟨rfl, e⟩)⟩
      · exact absurd e hA2
      · exact Or.inr e
      · exact absurd e hA1
      · exact absurd e hAB
  by_cases e2 : a = n2
  · rw [e2, repl_mem _ _ j A B r2 hj (hnd n2)]
    constructor
    · rintro (⟨h1, h2⟩ | h)
      · refine Or.inl ⟨h1, ?_, ?_⟩
        · rintro (⟨e, _⟩ | ⟨e, _⟩)
          · exact h12 e.symm
          · exact hA2 e.symm
        · rintro (⟨_, e⟩ | ⟨e, _⟩)
          · exact h2 e
          · exact hB2 e.symm
      · exact Or.inr (Or.inl (Or.inl ⟨rfl, h⟩))
    · rintro (⟨h1, _, h3⟩ | (⟨_, e⟩ | ⟨e, _⟩) | (⟨e, _⟩ | ⟨e, _⟩))
      · exact Or.inl ⟨h1, fun e => h3 (Or.inl ⟨rfl, e⟩)⟩
      · exact Or.inr e
      · exact absurd e.symm hA2
      · exact absurd e.symm h12
      · exact absurd e.symm hB2
  by_cases eB : a = B
  · rw [eB, repl_mem _ _ kb n1 n2 rB hkb (hnd B)]
    constructor
    · rintro (⟨h1, h2⟩ | h)
      · refine Or.inl ⟨h1, ?_, ?_⟩
        · rintro (⟨e, _⟩ | ⟨e, _⟩)
          · exact hB1 e
          · exact hAB e.symm
        · rintro (⟨e, _⟩ | ⟨_, e⟩)
          · exact hB2 e
          · exact h2 e
      · exact Or.inr (Or.inr (Or.inr ⟨rfl, h⟩))
    · rintro (⟨h1, _, h3⟩ | (⟨e, _⟩ | ⟨e, _⟩) | (⟨e, _⟩ | ⟨_, e⟩))
      · exact Or.inl ⟨h1, fun e => h3 (Or.inr ⟨rfl, e⟩)⟩
      · exact absurd e hB2
      · exact absurd e.symm hAB
      · exact absurd e hB1
      · exact Or.inr e
  by_cases e1 : a = n1
  · rw [e1, repl_mem _ _ i B A r1 hi (hnd n1)]
    constructor
    · rintro (⟨h1, h2⟩ | h)
      · refine Or.inl ⟨h1, ?_, ?_⟩
        · rintro (⟨_, e⟩ | ⟨e, _⟩)
          · exact h2 e
          · exact hA1 e.symm
        · rintro (⟨e, _⟩ | ⟨e, _⟩)
          · exact h12 e
          · exact hB1 e.symm
      · exact Or.inr (Or.inr (Or.inl ⟨rfl, h⟩))
    · rintro (⟨h1, h2, _⟩ | (⟨e, _⟩ | ⟨e, _⟩) | (⟨_, e⟩ | ⟨e, _⟩))
      · exact Or.inl ⟨h1, fun e => h2 (Or.inl ⟨rfl, e⟩)⟩
      · exact absurd e h12
      · exact absurd e.symm hA1
      · exact Or.inr e
      · exact absurd e.symm hB1
  · rw [hrest a eA e2 eB e1]
    constructor
    · intro h
      refine Or.inl ⟨h, ?_, ?_⟩
      · rintro (⟨e, _⟩ | ⟨e, _⟩)
        · exact e1 e
        · exact eA e
      · rintro (⟨e, _⟩ | ⟨e, _⟩)
        · exact e2 e
        · exact eB e
    · rintro (⟨h1, _, _⟩ | (⟨e, _⟩ | ⟨e, _⟩) | (⟨e, _⟩ | ⟨e, _⟩))
      · exact h1
      · exact absurd e e2
      · exact absurd e eA
      · exact absurd e e1
      · exact absurd e eB

theorem length_links (t : Tree) (n : Nat) : (t.links n).length = (t.neighbors n).length := by
  unfold Tree.links
  rw [List.length_map]

/-- A store `t1` whose links are those of the binary tree `t` with the neighbor `A` of
`n1` and the neighbor `B` of `n2` exchanged across the branch between `n1` and `n2` is a
binary tree, with the degrees of `t`. -/
theorem isBinaryTree_of_exchange (t t1 : Tree) (n1 n2 A B ka kb i j : Nat)
    (hT : t.IsBinaryTree) (hlen : t1.nodes.length = t.nodes.length)
    (hc : n2 ∈ t.links n1)
    (hi : (t.links n1)[i]? = some A) (hj : (t.links n2)[j]? = some B)
    (hka : (t.links A)[ka]? = some n1) (hkb : (t.links B)[kb]? = some n2)
    (h12 : n1 ≠ n2) (hA1 : A ≠ n1) (hA2 : A ≠ n2) (hB1 : B ≠ n1) (hB2 : B ≠ n2) (hAB : A ≠ B)
    (hA2n : n2 ∉ t.links A) (hB1n : n1 ∉ t.links B)
    (rA : Repl (t.links A) (t1.links A) ka n2) (r2 : Repl (t.links n2) (t1.links n2) j A)
    (rB : Repl (t.links B) (t1.links B) kb n1) (r1 : Repl (t.links n1) (t1.links n1) i B)
    (hrest : ∀ n, n ≠ A → n ≠ n2 → n ≠ B → n ≠ n1 → t1.links n = t.links n) :
    t1.IsBinaryTree ∧ ∀ n, (t1.neighbors n).length = (t.neighbors n).length := by
  obtain ⟨hsym, hnd, hloop, hdeg, hacy, hconn⟩ := hT
  have mem := nni_mem t.links t1.links n1 n2 A B ka kb i j
    h12 hA1 hA2 hB1 hB2 hAB hnd hi hj hka hkb rA r2 rB r1 hrest
  have hAm : A ∈ t.links n1 := List.getElem?_mem hi
  have hBm : B ∈ t.links n2 := List.getElem?_mem hj
  have hsym1 : ∀ u v, v ∈ t1.links u → u ∈ t1.links v := by
    intro u v h
    rw [mem] at h ⊢
    rcases h with ⟨h1, h2, h3⟩ | (⟨e, f⟩ | ⟨e, f⟩) | (⟨e, f⟩ | ⟨e, f⟩)
    · exact Or.inl ⟨hsym _ _ h1,
        fun hh => h2 (hh.elim (fun x => Or.inr ⟨x.2, x.1⟩) (fun x => Or.inl ⟨x.2, x.1⟩)),
        fun hh => h3 (hh.elim (fun x => Or.inr ⟨x.2, x.1⟩) (fun x => Or.inl ⟨x.2, x.1⟩))⟩
    · exact Or.inr (Or.inl (Or.inr ⟨f, e⟩))
    · exact Or.inr (Or.inl (Or.inl ⟨f, e⟩))
    · exact Or.inr (Or.inr (Or.inr ⟨f, e⟩))
    · exact Or.inr (Or.inr (Or.inl ⟨f, e⟩))
  have hloop1 : ∀ u, u ∉ t1.links u := by
    intro u h
    rw [mem] at h
    rcases h with ⟨h1, _, _⟩ | (⟨e, f⟩ | ⟨e, f⟩) | (⟨e, f⟩ | ⟨e, f⟩)
    · exact hloop u h1
    · exact hA2 (f.symm.trans e)
    · exact hA2 (e.symm.trans f)
    · exact hB1 (f.symm.trans e)
    · exact hB1 (e.symm.trans f)
  have hnd1 : ∀ u, (t1.links u).Nodup := by
    intro u
    by_cases eA : u = A
    · rw [eA]
      exact repl_nodup _ _ ka n2 rA (hnd A) hA2n
    by_cases e2 : u = n2
    · rw [e2]
      exact repl_nodup _ _ j A r2 (hnd _) (fun h => hA2n (hsym _ _ h))
    by_cases eB : u = B
    · rw [eB]
      exact repl_nodup _ _ kb n1 rB (hnd B) hB1n
    by_cases e1 : u = n1
    · rw [e1]
      exact repl_nodup _ _ i B r1 (hnd _) (fun h => hB1n (hsym _ _ h))
    · rw [hrest u eA e2 eB e1]
      exact hnd u
  have hlen1 : ∀ n, (t1.neighbors n).length = (t.neighbors n).length := by
    intro u
    rw [← length_links, ← length_links]
    by_cases eA : u = A
    · rw [eA]
      exact repl_length _ _ ka n2 rA
    by_cases e2 : u = n2
    · rw [e2]
      exact repl_length _ _ j A r2
    by_cases eB : u = B
    · rw [eB]
      exact repl_length _ _ kb n1 rB
    by_cases e1 : u = n1
    · rw [e1]
      exact repl_length _ _ i B r1
    · rw [hrest u eA e2 eB e1]
  have adj := graph_adj t hsym hloop
  have adj1 := graph_adj t1 hsym1 hloop1
  obtain ⟨hacy1, hreach1⟩ := nni_graph t.graph t1.graph n1 n2 A B hacy
    ((adj _ _).2 hc) ((adj _ _).2 hAm) ((adj _ _).2 hBm) hA2 hB1 hAB
    (fun a b => by rw [adj1, mem, adj])
  refine ⟨⟨hsym1, hnd1, hloop1, ?_, hacy1, ?_⟩, hlen1⟩
  · intro u hu
    rw [hlen1 u]
    exact hdeg u (hlen ▸ hu)
  · intro u v hu hv
    rw [hreach1]
    exact hconn u v (hlen ▸ hu) (hlen ▸ hv)

/-- C11: on an unrooted binary tree, `doNNI` with a move on an internal branch (both
ends of degree 3, the two slots of the move holding neighbors other than the ends of
the branch) returns a store that is again an unrooted binary tree: its graph has no
cycle and connects all nodes, every branch is kept at both ends, and every node has
the degree it had, so that the leaves are the same nodes, of degree 1, and the internal
nodes have degree 3. -/
theorem doNNI_preserves_binary_tree (t : Tree) (m : NNIMove) (hT : t.IsBinaryTree)
    (hc : m.node2 ∈ t.links m.node1)
    (h1 : (t.neighbors m.node1).length = 3) (h2 : (t.neighbors m.node2).length = 3)
    (hA : ∃ A, t.neighborNode m.node1 m.node1Nei_it = some A ∧ A ≠ m.node2)
    (hB : ∃ B, t.neighborNode m.node2 m.node2Nei_it = some B ∧ B ≠ m.node1) :
    ∃ t1, doNNI t m = some t1 ∧ t1.IsBinaryTree ∧ t1.nodes.length = t.nodes.length ∧
      ∀ n, (t1.neighbors n).length = (t.neighbors n).length ∧ t1.isLeaf n = t.isLeaf n := by
  have hvalid := valid_of_tree t m hT hc h1 h2 hA hB
  obtain ⟨t1, A, B, ka, kb, hdo, hlen, hi, hj, hka, hkb, h12, hA1, hA2, hB1, hB2, hAB, hA2n,
    hB1n, rA, r2, rB, r1, hrest⟩ := doNNI_links t m hvalid
  obtain ⟨hT1, hlen1⟩ := isBinaryTree_of_exchange t t1 m.node1 m.node2 A B ka kb
    m.node1Nei_it m.node2Nei_it hT hlen hc hi hj hka hkb h12 hA1 hA2 hB1 hB2 hAB hA2n hB1n
    rA r2 rB r1 hrest
  refine ⟨t1, hdo, hT1, hlen, fun n => ⟨hlen1 n, ?_⟩⟩
  unfold Tree.isLeaf
  rw [hlen1 n]

theorem graphOf_nil_acyclic : (graphOf []).IsAcyclic := by
  rw [acyclic_iff_bridges]
  intro v w h
  unfold graphOf at h
  rw [fromRel_adj] at h
  rcases h.2 with h | h <;> cases h

/-- Hanging a new node `x` on a node `v` keeps a graph without cycles. -/
theorem pendant_acyclic (E : List (ℕ × ℕ)) (v x : ℕ) (h : (graphOf E).IsAcyclic)
    (hx : ∀ e ∈ E, e.1 ≠ x ∧ e.2 ≠ x) (hvx : v ≠ x) : (graphOf ((v, x) :: E)).IsAcyclic := by
  have hiso : ∀ y, ¬(graphOf E).Adj y x := by
    intro y hy
    unfold graphOf at hy
    rw [fromRel_adj] at hy
    rcases hy.2 with h1 | h1
    · exact (hx _ h1).2 rfl
    · exact (hx _ h1).1 rfl
  apply add_edge_acyclic (graphOf E) _ v x h
  · rintro ⟨w⟩
    have key : ∀ (a b : ℕ) (p : (graphOf E).Walk a b), b = x → a = x := by
      intro a b p
      induction p with
      | nil => exact id
      | cons hadj _ ih =>
        intro hb
        have := ih hb
        subst this
        exact absurd hadj (hiso _)
    exact hvx (key v x w rfl)
  · intro a b
    unfold graphOf
    rw [fromRel_adj, fromRel_adj]
    simp only [List.mem_cons, Prod.mk.injEq]
    constructor
    · rintro ⟨hne, (h1 | h1) | (h1 | h1)⟩
      · exact Or.inr (Or.inl h1)
      · exact Or.inl ⟨hne, Or.inl h1⟩
      · exact Or.inr (Or.inr ⟨h1.2, h1.1⟩)
      · exact Or.inl ⟨hne, Or.inr h1⟩
    · rintro (⟨hne, h1 | h1⟩ | ⟨rfl, rfl⟩ | ⟨rfl, rfl⟩)
      · exact ⟨hne, Or.inl (Or.inr h1)⟩
      · exact ⟨hne, Or.inr (Or.inr h1)⟩
      · exact ⟨hvx, Or.inl (Or.inl ⟨rfl, rfl⟩)⟩
      · exact ⟨hvx.symm, Or.inr (Or.inl ⟨rfl, rfl⟩)⟩

theorem links_eq_nil_of_le (t : Tree) (u : ℕ) (h : t.nodes.length ≤ u) : t.links u = [] := by
  cases hl : t.links u with
  | nil => rfl
  | cons a as =>
    have hne : t.neighbors u ≠ [] := by
      intro e
      unfold Tree.links at hl
      rw [e] at hl
      cases hl
    exact absurd (lt_of_neighbors_ne_nil t u hne) (Nat.not_lt.2 h)

theorem lt_of_mem_links (t : Tree) (u v : ℕ) (h : v ∈ t.links u) : u < t.nodes.length := by
  by_contra hu
  rw [links_eq_nil_of_le t u (Nat.le_of_not_lt hu)] at h
  cases h

/-- The graph of a store is the graph of a list of edges that holds every branch of the
store in one of its directions, and nothing else. -/
theorem graph_eq_graphOf (t : Tree) (E : List (ℕ × ℕ))
    (h1 : ∀ u, u < t.nodes.length → ∀ v ∈ t.links u, (u, v) ∈ E ∨ (v, u) ∈ E)
    (h2 : ∀ e ∈ E, e.2 ∈ t.links e.1 ∨ e.1 ∈ t.links e.2) : t.graph = graphOf E := by
  ext a b
  unfold Tree.graph graphOf
  rw [fromRel_adj, fromRel_adj]
  constructor
  · rintro ⟨hne, h | h⟩
    · exact ⟨hne, h1 a (lt_of_mem_links t a b h) b h⟩
    · exact ⟨hne, (h1 b (lt_of_mem_links t b a h) a h).symm⟩
  · rintro ⟨hne, h | h⟩
    · exact ⟨hne, h2 _ h⟩
    · exact ⟨hne, (h2 _ h).symm⟩

/-- The conditions of an unrooted binary tree that are checked node by node. -/
theorem isBinaryTree_of_checks (t : Tree)
    (hs : ∀ u, u < t.nodes.length → ∀ v ∈ t.links u, u ∈ t.links v)
    (hn : ∀ u, u < t.nodes.length → (t.links u).Nodup)
    (hl : ∀ u, u < t.nodes.length → u ∉ t.links u)
    (hd : ∀ u, u < t.nodes.length → (t.neighbors u).length = 1 ∨ (t.neighbors u).length = 3)
    (ha : t.graph.IsAcyclic)
    (hc : ∀ u v, u < t.nodes.length → v < t.nodes.length → t.graph.Reachable u v) :
    t.IsBinaryTree := by
  refine ⟨?_, ?_, ?_, hd, ha, hc⟩
  · intro u v h
    exact hs u (lt_of_mem_links t u v h) v h
  · intro u
    by_cases hu : u < t.nodes.length
    · exact hn u hu
    · rw [links_eq_nil_of_le t u (Nat.le_of_not_lt hu)]
      exact List.nodup_nil
  · intro u h
    exact hl u (lt_of_mem_links t u u h) h

theorem exampleTree_acyclic : exampleTree.graph.IsAcyclic := by
  rw [graph_eq_graphOf exampleTree [(5, 3), (5, 2), (4, 1), (4, 0), (4, 5)] (by decide)
    (by decide)]
  apply pendant_acyclic _ _ _ _ (by decide) (by decide)
  apply pendant_acyclic _ _ _ _ (by decide) (by decide)
  apply pendant_acyclic _ _ _ _ (by decide) (by decide)
  apply pendant_acyclic _ _ _ _ (by decide) (by decide)
  apply pendant_acyclic _ _ _ _ (by decide) (by decide)
  exact graphOf_nil_acyclic

theorem exampleTree_isBinaryTree : exampleTree.IsBinaryTree := by
  have hs : ∀ u, u < exampleTree.nodes.length → ∀ v ∈ exampleTree.links u,
      u ∈ exampleTree.links v := by decide
  have hl : ∀ u, u < exampleTree.nodes.length → u ∉ exampleTree.links u := by decide
  apply isBinaryTree_of_checks exampleTree hs (by decide) hl (by decide) exampleTree_acyclic
  have adj : ∀ u v, v ∈ exampleTree.links u → exampleTree.graph.Reachable u v := by
    intro u v h
    unfold Tree.graph
    by_cases e : u = v
    · rw [e]
    · exact ((fromRel_adj _ _ _).2 ⟨e, Or.inl h⟩).reachable
  have h4 : ∀ u, u < exampleTree.nodes.length → exampleTree.graph.Reachable u 4 := by
    intro u hu
    have hu6 : u < 6 := hu
    interval_cases u
    · exact adj 0 4 (by decide)
    · exact adj 1 4 (by decide)
    · exact (adj 2 5 (by decide)).trans (adj 5 4 (by decide))
    · exact (adj 3 5 (by decide)).trans (adj 5 4 (by decide))
    · exact Reachable.refl _
    · exact adj 5 4 (by decide)
  intro u v hu hv
  exact (h4 u hu).trans (h4 v hv).symm

theorem doNNI_preserves_binary_tree_witness :
    exampleTree.IsBinaryTree ∧
    ∃ t1, doNNI exampleTree exampleMove = some t1 ∧ t1.IsBinaryTree ∧
      t1.nodes.length = exampleTree.nodes.length ∧
      ∀ n, (t1.neighbors n).length = (exampleTree.neighbors n).length ∧
        t1.isLeaf n = exampleTree.isLeaf n :=
  ⟨exampleTree_isBinaryTree,
    doNNI_preserves_binary_tree exampleTree exampleMove exampleTree_isBinaryTree (by decide)
      (by decide) (by decide) ⟨1, by decide, by decide⟩ ⟨3, by decide, by decide⟩⟩

theorem reach_map {V : Type} (G H : SimpleGraph V) (f : V → V)
    (h : ∀ u v, G.Adj u v → H.Reachable (f u) (f v)) {u v : V} (hr : G.Reachable u v) :
    H.Reachable (f u) (f v) := by
  obtain ⟨w⟩ := hr
  induction w with
  | nil => exact Reachable.refl _
  | cons hadj _ ih => exact (h _ _ hadj).trans ih

theorem reach_closed {V : Type} (G : SimpleGraph V) (P : V → Prop)
    (h : ∀ u v, G.Adj u v → P u → P v) {u v : V} (hr : G.Reachable u v) (hu : P u) : P v := by
  obtain ⟨w⟩ := hr
  induction w with
  | nil => exact hu
  | cons hadj _ ih => exact ih (h _ _ hadj hu)

/-- Removing a leaf `x` and its neighbor `p` of degree 3 and joining the two other
neighbors `a` and `b` of `p` keeps a graph without cycles, and keeps the other nodes
connected. -/
theorem contract_graph (G H : SimpleGraph ℕ) (x p a b : ℕ) (hG : G.IsAcyclic)
    (hpa : G.Adj p a) (hpb : G.Adj p b) (hab : a ≠ b) (hax : a ≠ x) (hbx : b ≠ x)
    (hxadj : ∀ v, G.Adj x v → v = p)
    (hpadj : ∀ v, G.Adj p v → v = x ∨ v = a ∨ v = b)
    (hH : ∀ u v, H.Adj u v ↔
      (G.Adj u v ∧ u ≠ x ∧ u ≠ p ∧ v ≠ x ∧ v ≠ p) ∨ (u = a ∧ v = b) ∨ (u = b ∧ v = a)) :
    H.IsAcyclic ∧
      ∀ u v, u ≠ x → u ≠ p → v ≠ x → v ≠ p → G.Reachable u v → H.Reachable u v := by
  have hap : a ≠ p := hpa.ne.symm
  have hbp : b ≠ p := hpb.ne.symm
  have hK : ∀ u v, (fromRel (fun u v => G.Adj u v ∧ u ≠ x ∧ u ≠ p ∧ v ≠ x ∧ v ≠ p)).Adj u v ↔
      (G.Adj u v ∧ u ≠ x ∧ u ≠ p ∧ v ≠ x ∧ v ≠ p) := by
    intro u v
    rw [fromRel_adj]
    constructor
    · rintro ⟨_, h | ⟨h1, h2, h3, h4, h5⟩⟩
      · exact h
      · exact ⟨h1.symm, h4, h5, h2, h3⟩
    · intro h
      exact ⟨h.1.ne, Or.inl h⟩
  generalize fromRel (fun u v => G.Adj u v ∧ u ≠ x ∧ u ≠ p ∧ v ≠ x ∧ v ≠ p) = K at hK
  have hKacy : K.IsAcyclic := delete_edge_acyclic G K hG (fun u v h => ((hK u v).1 h).1)
  have hbr := (acyclic_iff_bridges G).1 hG p a hpa
  have hKnr : ¬K.Reachable a b := by
    intro hr
    apply hbr
    have h1 : (G \ fromEdgeSet {s(p, a)}).Reachable a b := by
      refine reach_of_adj K _ ?_ hr
      intro u v huv
      obtain ⟨h1, h2, h3, h4, h5⟩ := (hK u v).1 huv
      refine Adj.reachable ?_
      rw [sdiff_adj, fromEdgeSet_adj]
      refine ⟨h1, fun hh => ?_⟩
      have := hh.1
      simp only [Set.mem_singleton_iff, Sym2.eq_iff] at this
      rcases this with ⟨e, _⟩ | ⟨_, e⟩
      · exact h3 e
      · exact h5 e
    have h2 : (G \ fromEdgeSet {s(p, a)}).Adj p b := by
      rw [sdiff_adj, fromEdgeSet_adj]
      refine ⟨hpb, fun hh => ?_⟩
      have := hh.1
      simp only [Set.mem_singleton_iff, Sym2.eq_iff] at this
      rcases this with ⟨_, e⟩ | ⟨e, _⟩
      · exact hab e.symm
      · exact hap e.symm
    exact h2.reachable.trans h1.symm
  have hHK : ∀ u v, H.Adj u v ↔ K.Adj u v ∨ (u = a ∧ v = b) ∨ (u = b ∧ v = a) := by
    intro u v
    rw [hH, hK]
  refine ⟨add_edge_acyclic K H a b hKacy hKnr hHK, ?_⟩
  intro u v hux hup hvx hvp hr
  have key := reach_map G H (fun u => if u = x ∨ u = p then a else u) (fun c d hcd => by
    have hab' : H.Adj a b := (hH a b).2 (Or.inr (Or.inl ⟨rfl, rfl⟩))
    by_cases hc : c = x ∨ c = p
    · by_cases hd : d = x ∨ d = p
      · simp only [if_pos hc, if_pos hd]
        exact Reachable.refl _
      · simp only [if_pos hc, if_neg hd]
        rcases hc with rfl | rfl
        · exact absurd (Or.inr (hxadj d hcd)) hd
        · rcases hpadj d hcd with rfl | rfl | rfl
          · exact absurd (Or.inl rfl) hd
          · exact Reachable.refl _
          · exact hab'.reachable
    · by_cases hd : d = x ∨ d = p
      · simp only [if_neg hc, if_pos hd]
        rcases hd with rfl | rfl
        · exact absurd (Or.inr (hxadj c hcd.symm)) hc
        · rcases hpadj c hcd.symm with rfl | rfl | rfl
          · exact absurd (Or.inl rfl) hc
          · exact Reachable.refl _
          · exact hab'.symm.reachable
      · simp only [if_neg hc, if_neg hd]
        refine Adj.reachable ((hH c d).2 (Or.inl ⟨hcd, ?_, ?_, ?_, ?_⟩))
        · exact fun e => hc (Or.inl e)
        · exact fun e => hc (Or.inr e)
        · exact fun e => hd (Or.inl e)
        · exact fun e => hd (Or.inr e)) hr
  have e1 : ¬(u = x ∨ u = p) := fun h => h.elim hux hup
  have e2 : ¬(v = x ∨ v = p) := fun h => h.elim hvx hvp
  simp only [if_neg e1, if_neg e2] at key
  exact key

theorem graphOn_adj (t : Tree) (live : ℕ → Prop)
    (hcl : ∀ u, live u → ∀ v ∈ t.links u, live v ∧ u ∈ t.links v)
    (hloop : ∀ u, live u → u ∉ t.links u) (u v : ℕ) :
    (t.graphOn live).Adj u v ↔ live u ∧ v ∈ t.links u := by
  unfold Tree.graphOn
  rw [fromRel_adj]
  constructor
  · rintro ⟨_, ⟨h1, _, h3⟩ | ⟨h1, _, h3⟩⟩
    · exact ⟨h1, h3⟩
    · exact ⟨(hcl v h1 u h3).1, (hcl v h1 u h3).2⟩
  · rintro ⟨h1, h2⟩
    exact ⟨fun e => hloop u h1 (e ▸ h2), Or.inl ⟨h1, (hcl u h1 v h2).1, h2⟩⟩

theorem isBinaryTreeOn_congr (t : Tree) (live live1 : ℕ → Prop) (h : ∀ u, live u ↔ live1 u)
    (hT : t.IsBinaryTreeOn live) : t.IsBinaryTreeOn live1 := by
  have : live = live1 := funext fun u => propext (h u)
  rw [← this]
  exact hT

/-- A whole store that is an unrooted binary tree is one on all of its nodes. -/
theorem isBinaryTreeOn_of_isBinaryTree (t : Tree) (hT : t.IsBinaryTree) :
    t.IsBinaryTreeOn (fun u => u < t.nodes.length) := by
  obtain ⟨hsym, hnd, hloop, hdeg, hacy, hconn⟩ := hT
  have hg : t.graphOn (fun u => u < t.nodes.length) = t.graph := by
    ext a b
    unfold Tree.graphOn Tree.graph
    rw [fromRel_adj, fromRel_adj]
    constructor
    · rintro ⟨hne, ⟨_, _, h⟩ | ⟨_, _, h⟩⟩
      · exact ⟨hne, Or.inl h⟩
      · exact ⟨hne, Or.inr h⟩
    · rintro ⟨hne, h | h⟩
      · exact ⟨hne, Or.inl ⟨lt_of_mem_links t a b h, lt_of_mem_links t b a (hsym _ _ h), h⟩⟩
      · exact ⟨hne, Or.inr ⟨lt_of_mem_links t b a h, lt_of_mem_links t a b (hsym _ _ h), h⟩⟩
  refine ⟨?_, fun u _ => hnd u, fun u _ => hloop u, ?_, ?_, ?_⟩
  · intro u _ v hv
    exact ⟨lt_of_mem_links t v u (hsym _ _ hv), hsym _ _ hv⟩
  · intro u hu
    rw [length_links]
    exact hdeg u hu
  · rw [hg]
    exact hacy
  · rw [hg]
    exact hconn

theorem three_filter (L : List Nat) (x : Nat) (hlen : L.length = 3) (hnd : L.Nodup)
    (hx : x ∈ L) :
    ∃ a b, L.filter (fun c => c != x) = [a, b] ∧ a ≠ b ∧ a ≠ x ∧ b ≠ x ∧
      ∀ v, v ∈ L ↔ v = x ∨ v = a ∨ v = b := by
  cases L with
  | nil => simp at hlen
  | cons l0 L1 =>
  cases L1 with
  | nil => simp at hlen
  | cons l1 L2 =>
  cases L2 with
  | nil => simp at hlen
  | cons l2 L3 =>
  cases L3 with
  | cons _ _ => simp at hlen
  | nil =>
    simp only [List.nodup_cons, List.mem_cons, List.mem_singleton, List.not_mem_nil,
      not_false_eq_true, List.nodup_nil, and_true, not_or, or_false] at hnd hx
    obtain ⟨⟨h01, h02⟩, h12⟩ := hnd
    rcases hx with rfl | rfl | rfl
    · refine ⟨l1, l2, ?_, h12, Ne.symm h01, Ne.symm h02, ?_⟩
      · have e1 : (l1 != x) = true := by simpa using Ne.symm h01
        have e2 : (l2 != x) = true := by simpa using Ne.symm h02
        simp [List.filter, e1, e2]
      · intro v
        simp
    · refine ⟨l0, l2, ?_, h02, h01, Ne.symm h12, ?_⟩
      · have e1 : (l0 != x) = true := by simpa using h01
        have e2 : (l2 != x) = true := by simpa using Ne.symm h12
        simp [List.filter, e1, e2]
      · intro v
        simp only [List.mem_cons, List.mem_singleton, List.not_mem_nil, or_false]
        constructor
        · rintro (h | h | h)
          · exact Or.inr (Or.inl h)
          · exact Or.inl h
          · exact Or.inr (Or.inr h)
        · rintro (h | h | h)
          · exact Or.inr (Or.inl h)
          · exact Or.inl h
          · exact Or.inr (Or.inr h)
    · refine ⟨l0, l1, ?_, h01, h02, h12, ?_⟩
      · have e1 : (l0 != x) = true := by simpa using h02
        have e2 : (l1 != x) = true := by simpa using h12
        simp [List.filter, e1, e2]
      · intro v
        simp only [List.mem_cons, List.mem_singleton, List.not_mem_nil, or_false]
        constructor
        · rintro (h | h | h)
          · exact Or.inr (Or.inl h)
          · exact Or.inr (Or.inr h)
          · exact Or.inl h
        · rintro (h | h | h)
          · exact Or.inr (Or.inr h)
          · exact Or.inl h
          · exact Or.inr (Or.inl h)

theorem map_filter_node (ns : List Neighbor) (x : Nat) :
    (ns.filter (fun nei => nei.node != x)).map (·.node) =
      (ns.map (·.node)).filter (fun c => c != x) := by
  induction ns with
  | nil => rfl
  | cons e es ih =>
    simp only [List.filter_cons, List.map_cons]
    cases hb : (e.node != x)
    · simp only [Bool.false_eq_true, if_false]
      exact ih
    · simp only [if_true, List.map_cons, ih]

/-- The local picture at a leaf `x` in use whose neighbor `near` has degree 3. -/
theorem leafAt_of_live (t : Tree) (live : ℕ → Prop) (hT : t.IsBinaryTreeOn live)
    (x near : ℕ) (hx : live x) (hlx : t.links x = [near]) (hdeg : (t.links near).length = 3) :
    ∃ a b, t.leafAt x near a b = true ∧ live near ∧ live a ∧ live b ∧
      a ≠ b ∧ a ≠ x ∧ b ≠ x ∧ a ≠ near ∧ b ≠ near ∧ near ≠ x ∧
      near ∈ t.links a ∧ near ∈ t.links b ∧ b ∉ t.links a ∧ a ∉ t.links b ∧
      ∀ v, v ∈ t.links near ↔ v = x ∨ v = a ∨ v = b := by
  obtain ⟨hcl, hnd, hloop, hdeg1, hacy, hconn⟩ := hT
  have hnx : near ∈ t.links x := by rw [hlx]; exact List.mem_singleton.2 rfl
  obtain ⟨hln, hxn⟩ := hcl x hx near hnx
  obtain ⟨a, b, hf, hab, hax, hbx, hmem⟩ := three_filter (t.links near) x hdeg (hnd near hln) hxn
  have han : a ∈ t.links near := (hmem a).2 (Or.inr (Or.inl rfl))
  have hbn : b ∈ t.links near := (hmem b).2 (Or.inr (Or.inr rfl))
  obtain ⟨hla, hna⟩ := hcl near hln a han
  obtain ⟨hlb, hnb⟩ := hcl near hln b hbn
  have hanear : a ≠ near := fun e => hloop near hln (e ▸ han)
  have hbnear : b ≠ near := fun e => hloop near hln (e ▸ hbn)
  have hnearx : near ≠ x := fun e => hloop x hx (e ▸ hnx)
  have adj := graphOn_adj t live hcl hloop
  have hba : b ∉ t.links a := fun h =>
    no_triangle _ hacy near a b ((adj _ _).2 ⟨hln, han⟩) ((adj _ _).2 ⟨hla, h⟩)
      ((adj _ _).2 ⟨hln, hbn⟩)
  have hab1 : a ∉ t.links b := fun h => hba (hcl b hlb a h).2
  refine ⟨a, b, ?_, hln, hla, hlb, hab, hax, hbx, hanear, hbnear, hnearx, hna, hnb, hba, hab1,
    hmem⟩
  unfold Tree.leafAt
  simp only [Bool.and_eq_true, beq_iff_eq, bne_iff_ne, ne_eq]
  refine ⟨⟨⟨⟨⟨⟨⟨⟨⟨⟨?_, ?_⟩, ?_⟩, hab⟩, hanear⟩, hbnear⟩, hnearx⟩, ?_⟩, ?_⟩, ?_⟩, ?_⟩
  · exact hlx
  · rw [← length_links]
    exact hdeg
  · rw [map_filter_node]
    exact hf
  · exact findNeighborIt_isSome_of_mem t a near hna
  · exact findNeighborIt_isNone_of_not_mem t a b hba
  · exact findNeighborIt_isSome_of_mem t b near hnb
  · exact findNeighborIt_isNone_of_not_mem t b a hab1

theorem repl_modify_node (ns : List Neighbor) (k y : Nat) (l : ℚ) :
    Repl (ns.map (·.node))
      ((ns.modify (fun nei => { nei with node := y, length := l }) k).map (·.node)) k y := by
  intro j
  simp only [List.getElem?_map, List.getElem?_modify]
  by_cases hjk : j = k
  · subst hjk
    rw [if_pos rfl]
    cases ns[j]? <;> simp
  · rw [if_neg hjk]
    have : ¬ k = j := fun e => hjk e.symm
    cases ns[j]? <;> simp [this]

theorem findNeighborIt_getElem? (t : Tree) (u x k : Nat)
    (h : findNeighborIt (t.neighbors u) x = some k) : (t.links u)[k]? = some x := by
  obtain ⟨e, he, hev⟩ := getElem?_of_findNeighborIt _ x k h
  unfold Tree.links
  rw [List.getElem?_map, he, Option.map_some', hev]

/-- The links after `deleteLeaf`: the slots of `a` and `b` that pointed to `near` point
to `b` and to `a`, every other half-edge is kept. -/
theorem deleteLeaf_links (t : Tree) (x near a b : Nat) (h : t.leafAt x near a b = true) :
    ∃ t1 i j, IQPTree.deleteLeaf t x = some t1 ∧ t1.nodes.length = t.nodes.length ∧
      (t.links a)[i]? = some near ∧ (t.links b)[j]? = some near ∧
      Repl (t.links a) (t1.links a) i b ∧ Repl (t.links b) (t1.links b) j a ∧
      ∀ u, u ≠ a → u ≠ b → t1.links u = t.links u := by
  obtain ⟨_, _, ⟨f1, f2, hf, _, _⟩, hab, _, _, _, ⟨i, hi⟩, _, ⟨j, hj⟩, _⟩ :=
    leafAt_facts t x near a b h
  obtain ⟨t1, hdel, hlen, hv⟩ := deleteLeaf_view t x near a b i j f1 f2 h hf hi hj
  refine ⟨t1, i, j, ?_, hlen, findNeighborIt_getElem? t a near i hi,
    findNeighborIt_getElem? t b near j hj, ?_, ?_, ?_⟩
  · rw [IQPTree_deleteLeaf_eq]
    exact hdel
  · unfold Tree.links
    rw [hv, Function.update_noteq hab, Function.update_same]
    exact repl_modify_node _ _ _ _
  · unfold Tree.links
    rw [hv, Function.update_same]
    exact repl_modify_node _ _ _ _
  · intro u hua hub
    unfold Tree.links
    rw [hv, Function.update_noteq hub, Function.update_noteq hua]

/-- Deleting a leaf in use whose neighbor has degree 3 returns a store in which the
nodes in use other than the leaf and its neighbor form an unrooted binary tree again;
only the vectors of the two other neighbors `a` and `b` change, and no vector changes
its length. -/
theorem deleteLeaf_live (t : Tree) (live : ℕ → Prop) (hT : t.IsBinaryTreeOn live)
    (x near : ℕ) (hx : live x) (hlx : t.links x = [near]) (hdeg : (t.links near).length = 3) :
    ∃ t1 a b, IQPTree.deleteLeaf t x = some t1 ∧ t1.nodes.length = t.nodes.length ∧
      t1.IsBinaryTreeOn (fun u => live u ∧ u ≠ x ∧ u ≠ near) ∧
      live near ∧ live a ∧ live b ∧
      (∀ u, (t1.links u).length = (t.links u).length) ∧
      (∀ u, u ≠ a → u ≠ b → t1.links u = t.links u) ∧ a ≠ x ∧ b ≠ x := by
  obtain ⟨a, b, hleaf, hln, hla, hlb, hab, hax, hbx, hanear, hbnear, hnearx, hna, hnb, hba,
    hab1, hmem⟩ := leafAt_of_live t live hT x near hx hlx hdeg
  obtain ⟨hcl, hnd, hloop, hdeg1, hacy, hconn⟩ := hT
  obtain ⟨t1, i, j, hdel, hlen, hi, hj, rA, rB, hrest⟩ := deleteLeaf_links t x near a b hleaf
  have mema := repl_mem _ _ i b near rA hi (hnd a hla)
  have memb := repl_mem _ _ j a near rB hj (hnd b hlb)
  have hxmem : ∀ v, v ∈ t.links x → v = near := by
    intro v hv
    rw [hlx] at hv
    exact List.mem_singleton.1 hv
  have hcl1 : ∀ u, (live u ∧ u ≠ x ∧ u ≠ near) → ∀ v ∈ t1.links u,
      (live v ∧ v ≠ x ∧ v ≠ near) ∧ u ∈ t1.links v := by
    rintro u ⟨hu, hux, hun⟩ v hv
    by_cases eA : u = a
    · rw [eA] at hv ⊢
      rcases (mema v).1 hv with ⟨h1, h2⟩ | h1
      · obtain ⟨hlv, hav⟩ := hcl a hla v h1
        have hvx : v ≠ x := fun e => hanear (hxmem a (e ▸ hav))
        refine ⟨⟨hlv, hvx, h2⟩, ?_⟩
        have hva : v ≠ a := fun e => hloop a hla (e ▸ h1)
        have hvb : v ≠ b := fun e => hba (e ▸ h1)
        rw [hrest v hva hvb]
        exact hav
      · rw [h1]
        exact ⟨⟨hlb, hbx, hbnear⟩, (memb a).2 (Or.inr rfl)⟩
    by_cases eB : u = b
    · rw [eB] at hv ⊢
      rcases (memb v).1 hv with ⟨h1, h2⟩ | h1
      · obtain ⟨hlv, hbv⟩ := hcl b hlb v h1
        have hvx : v ≠ x := fun e => hbnear (hxmem b (e ▸ hbv))
        refine ⟨⟨hlv, hvx, h2⟩, ?_⟩
        have hvb : v ≠ b := fun e => hloop b hlb (e ▸ h1)
        have hva : v ≠ a := fun e => hab1 (e ▸ h1)
        rw [hrest v hva hvb]
        exact hbv
      · rw [h1]
        exact ⟨⟨hla, hax, hanear⟩, (mema b).2 (Or.inr rfl)⟩
    · rw [hrest u eA eB] at hv
      obtain ⟨hlv, huv⟩ := hcl u hu v hv
      have hvx : v ≠ x := fun e => hun (hxmem u (e ▸ huv))
      have hvn : v ≠ near := by
        intro e
        rcases (hmem u).1 (e ▸ huv) with h | h | h
        · exact hux h
        · exact eA h
        · exact eB h
      refine ⟨⟨hlv, hvx, hvn⟩, ?_⟩
      by_cases eA1 : v = a
      · rw [eA1]
        exact (mema u).2 (Or.inl ⟨eA1 ▸ huv, hun⟩)
      by_cases eB1 : v = b
      · rw [eB1]
        exact (memb u).2 (Or.inl ⟨eB1 ▸ huv, hun⟩)
      · rw [hrest v eA1 eB1]
        exact huv
  have hlen1 : ∀ u, (t1.links u).length = (t.links u).length := by
    intro u
    by_cases eA : u = a
    · rw [eA]
      exact repl_length _ _ i b rA
    by_cases eB : u = b
    · rw [eB]
      exact repl_length _ _ j a rB
    · rw [hrest u eA eB]
  have hnd1 : ∀ u, (live u ∧ u ≠ x ∧ u ≠ near) → (t1.links u).Nodup := by
    rintro u ⟨hu, _, _⟩
    by_cases eA : u = a
    · rw [eA]
      exact repl_nodup _ _ i b rA (hnd a hla) hba
    by_cases eB : u = b
    · rw [eB]
      exact repl_nodup _ _ j a rB (hnd b hlb) hab1
    · rw [hrest u eA eB]
      exact hnd u hu
  have hloop1 : ∀ u, (live u ∧ u ≠ x ∧ u ≠ near) → u ∉ t1.links u := by
    rintro u ⟨hu, _, _⟩ h
    by_cases eA : u = a
    · rw [eA] at h
      rcases (mema a).1 h with ⟨h1, _⟩ | h1
      · exact hloop a hla h1
      · exact hab h1
    by_cases eB : u = b
    · rw [eB] at h
      rcases (memb b).1 h with ⟨h1, _⟩ | h1
      · exact hloop b hlb h1
      · exact hab h1.symm
    · rw [hrest u eA eB] at h
      exact hloop u hu h
  have adj := graphOn_adj t live hcl hloop
  have adj1 := graphOn_adj t1 (fun u => live u ∧ u ≠ x ∧ u ≠ near) hcl1 hloop1
  have hH : ∀ u v, (t1.graphOn (fun u => live u ∧ u ≠ x ∧ u ≠ near)).Adj u v ↔
      ((t.graphOn live).Adj u v ∧ u ≠ x ∧ u ≠ near ∧ v ≠ x ∧ v ≠ near) ∨
        (u = a ∧ v = b) ∨ (u = b ∧ v = a) := by
    intro u v
    rw [adj1, adj]
    constructor
    · rintro ⟨hu, hv⟩
      obtain ⟨⟨_, hvx, hvn⟩, _⟩ := hcl1 u hu v hv
      by_cases eA : u = a
      · rw [eA] at hv
        rcases (mema v).1 hv with ⟨h1, _⟩ | h1
        · exact Or.inl ⟨⟨hu.1, eA ▸ h1⟩, hu.2.1, hu.2.2, hvx, hvn⟩
        · exact Or.inr (Or.inl ⟨eA, h1⟩)
      by_cases eB : u = b
      · rw [eB] at hv
        rcases (memb v).1 hv with ⟨h1, _⟩ | h1
        · exact Or.inl ⟨⟨hu.1, eB ▸ h1⟩, hu.2.1, hu.2.2, hvx, hvn⟩
        · exact Or.inr (Or.inr ⟨eB, h1⟩)
      · rw [hrest u eA eB] at hv
        exact Or.inl ⟨⟨hu.1, hv⟩, hu.2.1, hu.2.2, hvx, hvn⟩
    · rintro (⟨⟨hu, hv⟩, hux, hun, hvx, hvn⟩ | ⟨rfl, rfl⟩ | ⟨rfl, rfl⟩)
      · refine ⟨⟨hu, hux, hun⟩, ?_⟩
        by_cases eA : u = a
        · rw [eA]
          exact (mema v).2 (Or.inl ⟨eA ▸ hv, hvn⟩)
        by_cases eB : u = b
        · rw [eB]
          exact (memb v).2 (Or.inl ⟨eB ▸ hv, hvn⟩)
        · rw [hrest u eA eB]
          exact hv
      · exact ⟨⟨hla, hax, hanear⟩, (mema _).2 (Or.inr rfl)⟩
      · exact ⟨⟨hlb, hbx, hbnear⟩, (memb _).2 (Or.inr rfl)⟩
  obtain ⟨hacy1, hreach1⟩ := contract_graph (t.graphOn live)
    (t1.graphOn (fun u => live u ∧ u ≠ x ∧ u ≠ near)) x near a b hacy
    ((adj _ _).2 ⟨hln, (hmem a).2 (Or.inr (Or.inl rfl))⟩)
    ((adj _ _).2 ⟨hln, (hmem b).2 (Or.inr (Or.inr rfl))⟩) hab hax hbx
    (fun v hv => hxmem v ((adj _ _).1 hv).2)
    (fun v hv => (hmem v).1 ((adj _ _).1 hv).2) hH
  refine ⟨t1, a, b, hdel, hlen, ⟨hcl1, hnd1, hloop1, ?_, hacy1, ?_⟩, hln, hla, hlb, hlen1, hrest,
    hax, hbx⟩
  · rintro u ⟨hu, _, _⟩
    rw [hlen1 u]
    exact hdeg1 u hu
  · rintro u v ⟨hu, hux, hun⟩ ⟨hv, hvx, hvn⟩
    exact hreach1 u v hux hun hvx hvn (hconn u v hu hv)

/-- In a tree with at least three leaves, the neighbor of a leaf has degree 3. -/
theorem near_degree (t : Tree) (live : ℕ → Prop) (hT : t.IsBinaryTreeOn live) (R : List ℕ)
    (hR : R.Nodup) (hlen : 3 ≤ R.length) (hleaf : ∀ z ∈ R, live z ∧ (t.links z).length = 1)
    (x near : ℕ) (hx : x ∈ R) (hlx : t.links x = [near]) : (t.links near).length = 3 := by
  obtain ⟨hcl, hnd, hloop, hdeg, hacy, hconn⟩ := hT
  have hlivex := (hleaf x hx).1
  have hnx : near ∈ t.links x := by rw [hlx]; exact List.mem_singleton.2 rfl
  obtain ⟨hln, hxn⟩ := hcl x hlivex near hnx
  rcases hdeg near hln with h1 | h3
  · exfalso
    have hnear : t.links near = [x] := by
      cases hl : t.links near with
      | nil => rw [hl] at h1; cases h1
      | cons y ys =>
        rw [hl] at h1 hxn
        cases ys with
        | cons _ _ => simp at h1
        | nil =>
          rw [List.mem_singleton] at hxn
          rw [hxn]
    have hz : ∃ z ∈ R, z ≠ x ∧ z ≠ near := by
      by_contra hcon
      have hsub : R ⊆ [x, near] := by
        intro z hz
        by_contra hz1
        apply hcon
        refine ⟨z, hz, ?_, ?_⟩
        · intro e
          exact hz1 (by rw [e]; exact List.mem_cons_self _ _)
        · intro e
          exact hz1 (by rw [e]; exact List.mem_cons_of_mem _ (List.mem_singleton.2 rfl))
      have := (List.subperm_of_subset hR hsub).length_le
      simp only [List.length_cons, List.length_nil] at this
      omega
    obtain ⟨z, hzR, hzx, hzn⟩ := hz
    have adj := graphOn_adj t live hcl hloop
    have key := reach_closed (t.graphOn live) (fun u => u = x ∨ u = near) (fun u v huv hu => by
      have hv := ((adj u v).1 huv).2
      rcases hu with rfl | rfl
      · rw [hlx] at hv
        exact Or.inr (List.mem_singleton.1 hv)
      · rw [hnear] at hv
        exact Or.inl (List.mem_singleton.1 hv)) (hconn x z hlivex (hleaf z hzR).1) (Or.inl rfl)
    rcases key with h | h
    · exact hzx h
    · exact hzn h
  · exact h3

theorem links_singleton (t : Tree) (x : ℕ) (h : (t.links x).length = 1) :
    ∃ nei0 near, (t.neighbors x).get? 0 = some nei0 ∧ nei0.node = near ∧
      t.links x = [near] := by
  unfold Tree.links at h ⊢
  cases hl : t.neighbors x with
  | nil => rw [hl] at h; cases h
  | cons e es =>
    rw [hl] at h
    cases es with
    | cons _ _ => simp at h
    | nil => exact ⟨e, e.node, rfl, rfl, rfl⟩

/-- The turn of the loop that deletes the taxon `x` keeps the invariant. -/
theorem deleteInv_delete (n0 : Nat) (st : DeleteLeavesState) (kept : List Nat) (x : Nat)
    (rest : List Nat) (hinv : IQPTree.DeleteInv n0 st kept (x :: rest))
    (hrem : st.remain_leaves > 3) :
    ∃ nei0 t1, (st.tree.neighbors x).get? 0 = some nei0 ∧
      IQPTree.deleteLeaf st.tree x = some t1 ∧
      IQPTree.DeleteInv n0 (DeleteLeavesState.mk t1 (st.del_leaves ++ [x])
        (st.adjacent_nodes ++ [nei0.node]) st.root (st.remain_leaves - 1)) kept rest := by
  obtain ⟨hT, hnd, hleaf, hlen, h3, hroot, hadj, hzip, hdnd⟩ := hinv
  have hxR : x ∈ kept ++ x :: rest := List.mem_append_right _ (List.mem_cons_self _ _)
  obtain ⟨hlx, hx1⟩ := hleaf x hxR
  obtain ⟨nei0, near, hget, hnode, hlinks⟩ := links_singleton st.tree x hx1
  have hdeg := near_degree st.tree _ hT (kept ++ x :: rest) hnd (by rw [hlen]; exact h3) hleaf
    x near hxR hlinks
  obtain ⟨t1, a, b, hdel, hlen1, hT1, hln, hla, hlb, hll, hrest, hax, hbx⟩ :=
    deleteLeaf_live st.tree _ hT x near hlx hlinks hdeg
  refine ⟨nei0, t1, hget, hdel, ?_⟩
  rw [hnode]
  have hlive : ∀ u, (IQPTree.liveOf n0 st u ∧ u ≠ x ∧ u ≠ near) ↔
      IQPTree.liveOf n0 (DeleteLeavesState.mk t1 (st.del_leaves ++ [x])
        (st.adjacent_nodes ++ [near]) st.root (st.remain_leaves - 1)) u := by
    intro u
    unfold IQPTree.liveOf
    simp only [List.mem_append, List.mem_singleton, not_or]
    constructor
    · rintro ⟨⟨h1, h2, h3⟩, h4, h5⟩
      exact ⟨h1, ⟨h2, h4⟩, h3, h5⟩
    · rintro ⟨h1, ⟨h2, h4⟩, h3, h5⟩
      exact ⟨⟨h1, h2, h3⟩, h4, h5⟩
  have hsub : ∀ z, z ∈ kept ++ rest → z ∈ kept ++ x :: rest := by
    intro z hz
    rcases List.mem_append.1 hz with h | h
    · exact List.mem_append_left _ h
    · exact List.mem_append_right _ (List.mem_cons_of_mem _ h)
  have hnd1 : (kept ++ rest).Nodup := by
    refine List.Nodup.sublist ?_ hnd
    exact List.Sublist.append (List.Sublist.refl _) (List.sublist_cons_self _ _)
  have hxnot : x ∉ kept ++ rest := by
    intro h
    have hp : (kept ++ x :: rest).Perm (x :: (kept ++ rest)) := List.perm_middle
    have := (hp.nodup_iff.1 hnd)
    exact (List.nodup_cons.1 this).1 h
  refine ⟨isBinaryTreeOn_congr _ _ _ hlive hT1, hnd1, ?_, ?_, ?_, hroot, ?_, ?_, ?_⟩
  · intro z hz
    obtain ⟨hlz, hz1⟩ := hleaf z (hsub z hz)
    refine ⟨(hlive z).1 ⟨hlz, ?_, ?_⟩, ?_⟩
    · intro e
      exact hxnot (e ▸ hz)
    · intro e
      rw [e, hdeg] at hz1
      cases hz1
    · show (t1.links z).length = 1
      rw [hll z]
      exact hz1
  · show (kept ++ rest).length = st.remain_leaves - 1
    rw [← hlen]
    simp only [List.length_append, List.length_cons]
    omega
  · show 3 ≤ st.remain_leaves - 1
    omega
  · show (st.adjacent_nodes ++ [near]).length = (st.del_leaves ++ [x]).length
    simp only [List.length_append, List.length_cons, List.length_nil, hadj]
  · show ∀ p ∈ (st.del_leaves ++ [x]).zip (st.adjacent_nodes ++ [near]), t1.links p.1 = [p.2]
    intro p hp
    rw [List.zip_append hadj.symm] at hp
    rcases List.mem_append.1 hp with h | h
    · have hp1 : p.1 ∈ st.del_leaves := (List.of_mem_zip h).1
      have hne : ∀ c, IQPTree.liveOf n0 st c → p.1 ≠ c := by
        intro c hc e
        exact hc.2.1 (e ▸ hp1)
      rw [hrest p.1 (hne a hla) (hne b hlb)]
      exact hzip p h
    · simp only [List.zip_cons_cons, List.zip_nil_right, List.mem_singleton] at h
      rw [h]
      show t1.links x = [near]
      rw [hrest x (Ne.symm hax) (Ne.symm hbx)]
      exact hlinks
  · show (st.del_leaves ++ [x]).Nodup
    rw [List.nodup_append]
    refine ⟨hdnd, List.nodup_singleton _, ?_⟩
    intro c hc hc1
    rw [List.mem_singleton] at hc1
    exact hlx.2.1 (hc1 ▸ hc)

/-- The turn of the loop that keeps the taxon `x` keeps the invariant. -/
theorem deleteInv_keep (n0 : Nat) (st : DeleteLeavesState) (kept : List Nat) (x : Nat)
    (rest : List Nat) (hinv : IQPTree.DeleteInv n0 st kept (x :: rest)) :
    IQPTree.DeleteInv n0 (if st.root.isNone then { st with root := some x } else st)
      (kept ++ [x]) rest := by
  obtain ⟨hT, hnd, hleaf, hlen, h3, hroot, hadj, hzip, hdnd⟩ := hinv
  have hl : (kept ++ [x]) ++ rest = kept ++ x :: rest := by
    rw [List.append_assoc, List.singleton_append]
  by_cases hr : st.root.isNone = true
  · rw [if_pos hr]
    refine ⟨hT, hl ▸ hnd, hl ▸ hleaf, ?_, h3, ?_, hadj, hzip, hdnd⟩
    · rw [hl]
      exact hlen
    · show some x = (kept ++ [x]).head?
      have hk : kept = [] := by
        cases kept with
        | nil => rfl
        | cons c cs =>
          rw [hroot] at hr
          cases hr
      rw [hk]
      rfl
  · rw [if_neg hr]
    refine ⟨hT, hl ▸ hnd, hl ▸ hleaf, ?_, h3, ?_, hadj, hzip, hdnd⟩
    · rw [hl]
      exact hlen
    · rw [hroot]
      cases kept with
      | nil =>
        rw [hroot] at hr
        exact absurd rfl hr
      | cons c cs => rfl

/-- The loop of `deleteLeaves` returns a state, and keeps the invariant to the end. -/
theorem deleteLeavesLoop_inv (p_delete : ℚ) (RAND_MAX : Nat) (rand : Nat → Nat) (n0 : Nat)
    (rest : List Nat) :
    ∀ (k : Nat) (st : DeleteLeavesState) (kept : List Nat),
      IQPTree.DeleteInv n0 st kept rest →
      ∃ st1 kept1 D, IQPTree.deleteLeavesLoop p_delete RAND_MAX rand rest k st = some st1 ∧
        IQPTree.DeleteInv n0 st1 kept1 [] ∧
        st1.del_leaves = st.del_leaves ++ D ∧
        D.foldlM IQPTree.deleteLeaf st.tree = some st1.tree ∧
        (∀ x ∈ D, x ∈ rest) ∧ (∀ z ∈ kept1, z ∈ kept ++ rest) ∧
        (∀ z ∈ kept ++ rest, z ∈ kept1 ∨ z ∈ D) ∧
        st1.remain_leaves + D.length = st.remain_leaves := by
  induction rest with
  | nil =>
    intro k st kept hinv
    refine ⟨st, kept, [], rfl, hinv, (List.append_nil _).symm, rfl, ?_,
      fun z hz => List.mem_append_left _ hz, fun z hz => Or.inl ?_, rfl⟩
    · intro x hx
      cases hx
    · rw [List.append_nil] at hz
      exact hz
  | cons x rest ih =>
    intro k st kept hinv
    simp only [IQPTree.deleteLeavesLoop, IQPTree.deleteLeavesStep]
    by_cases hc : ((rand k : ℚ) / (RAND_MAX : ℚ) < p_delete ∧ st.remain_leaves > 3)
    · rw [if_pos hc]
      obtain ⟨nei0, t1, hget, hdel, hinv1⟩ := deleteInv_delete n0 st kept x rest hinv hc.2
      obtain ⟨hT, hnd, hleaf, hlen, h3, hroot, hadj, hzip, hdnd⟩ := hinv
      rw [hget]
      simp only [hdel, Option.map_some', Option.some_bind]
      obtain ⟨st1, kept1, D, hloop, hinv2, hdl, hfold, hD, hk, hcov, hrem⟩ :=
        ih (k + 1) _ kept hinv1
      refine ⟨st1, kept1, x :: D, hloop, hinv2, ?_, ?_, ?_, ?_, ?_, ?_⟩
      · rw [hdl]
        simp only [List.append_assoc, List.singleton_append]
      · rw [List.foldlM_cons, hdel]
        exact hfold
      · intro y hy
        rcases List.mem_cons.1 hy with h | h
        · rw [h]
          exact List.mem_cons_self _ _
        · exact List.mem_cons_of_mem _ (hD y h)
      · intro z hz
        rcases List.mem_append.1 (hk z hz) with h | h
        · exact List.mem_append_left _ h
        · exact List.mem_append_right _ (List.mem_cons_of_mem _ h)
      · intro z hz
        rcases List.mem_append.1 hz with h | h
        · rcases hcov z (List.mem_append_left _ h) with h1 | h1
          · exact Or.inl h1
          · exact Or.inr (List.mem_cons_of_mem _ h1)
        · rcases List.mem_cons.1 h with h1 | h1
          · rw [h1]
            exact Or.inr (List.mem_cons_self _ _)
          · rcases hcov z (List.mem_append_right _ h1) with h2 | h2
            · exact Or.inl h2
            · exact Or.inr (List.mem_cons_of_mem _ h2)
      · have h4 := hc.2
        simp only [List.length_cons]
        have : st1.remain_leaves + D.length = st.remain_leaves - 1 := hrem
        omega
    · rw [if_neg hc]
      have hinv1 := deleteInv_keep n0 st kept x rest hinv
      have hstep : (if st.root.isNone = true then some { st with root := some x } else some st) =
          some (if st.root.isNone then { st with root := some x } else st) := by
        by_cases hr : st.root.isNone = true
        · rw [if_pos hr, if_pos hr]
        · rw [if_neg hr, if_neg hr]
      rw [hstep, Option.some_bind]
      obtain ⟨st1, kept1, D, hloop, hinv2, hdl, hfold, hD, hk, hcov, hrem⟩ :=
        ih (k + 1) _ (kept ++ [x]) hinv1
      have hl : (kept ++ [x]) ++ rest = kept ++ x :: rest := by
        rw [List.append_assoc, List.singleton_append]
      have e1 : (if st.root.isNone then { st with root := some x } else st).del_leaves =
          st.del_leaves := by
        by_cases hr : st.root.isNone = true
        · rw [if_pos hr]
        · rw [if_neg hr]
      have e2 : (if st.root.isNone then { st with root := some x } else st).tree = st.tree := by
        by_cases hr : st.root.isNone = true
        · rw [if_pos hr]
        · rw [if_neg hr]
      have e3 : (if st.root.isNone then { st with root := some x } else st).remain_leaves =
          st.remain_leaves := by
        by_cases hr : st.root.isNone = true
        · rw [if_pos hr]
        · rw [if_neg hr]
      rw [e1] at hdl
      rw [e2] at hfold
      rw [e3] at hrem
      rw [hl] at hk hcov
      exact ⟨st1, kept1, D, hloop, hinv2, hdl, hfold,
        fun y hy => List.mem_cons_of_mem _ (hD y hy), hk, hcov, hrem⟩

/-- C15: on an unrooted binary tree whose distinct leaves `taxa` are at least 3, for
every `p_delete` and every sequence of values of `rand()`, `deleteLeaves` returns; the
tree it leaves is the tree with exactly the recorded leaves deleted, in the recorded
order; the recorded leaves are distinct taxa, and each still points to the adjacent node
recorded with it; `remain_leaves` counts the taxa that were not deleted, which are at
least 3 and are leaves of the unrooted binary tree formed by the nodes still in use; and
`root` is a taxon that was not deleted. -/
theorem deleteLeaves_spec (p_delete : ℚ) (RAND_MAX : Nat) (rand : Nat → Nat) (t : Tree)
    (taxa : List Nat) (hT : t.IsBinaryTree) (hnd : taxa.Nodup)
    (hleaf : ∀ z ∈ taxa, z < t.nodes.length ∧ (t.neighbors z).length = 1)
    (h3 : 3 ≤ taxa.length) :
    ∃ st, IQPTree.deleteLeaves p_delete RAND_MAX rand t taxa [] [] = some st ∧
      st.del_leaves.foldlM IQPTree.deleteLeaf t = some st.tree ∧
      st.del_leaves.Nodup ∧ (∀ x ∈ st.del_leaves, x ∈ taxa) ∧
      st.adjacent_nodes.length = st.del_leaves.length ∧
      (∀ p ∈ st.del_leaves.zip st.adjacent_nodes, st.tree.links p.1 = [p.2]) ∧
      st.remain_leaves + st.del_leaves.length = taxa.length ∧ 3 ≤ st.remain_leaves ∧
      st.tree.IsBinaryTreeOn (IQPTree.liveOf t.nodes.length st) ∧
      (∀ z ∈ taxa, z ∉ st.del_leaves →
        IQPTree.liveOf t.nodes.length st z ∧ (st.tree.links z).length = 1) ∧
      ∃ r, st.root = some r ∧ r ∈ taxa ∧ r ∉ st.del_leaves := by
  have hinv0 : IQPTree.DeleteInv t.nodes.length
      (DeleteLeavesState.mk t [] [] none taxa.length) [] taxa := by
    refine ⟨?_, hnd, ?_, rfl, h3, rfl, rfl, ?_, List.nodup_nil⟩
    · refine isBinaryTreeOn_congr t _ _ ?_ (isBinaryTreeOn_of_isBinaryTree t hT)
      intro u
      unfold IQPTree.liveOf
      simp only [List.not_mem_nil, not_false_eq_true, and_true]
    · intro z hz
      rw [List.nil_append] at hz
      refine ⟨⟨(hleaf z hz).1, List.not_mem_nil _, List.not_mem_nil _⟩, ?_⟩
      show (t.links z).length = 1
      rw [length_links]
      exact (hleaf z hz).2
    · intro p hp
      cases hp
  obtain ⟨st, kept, D, hloop, hinv, hdl, hfold, hD, hk, hcov, hrem⟩ :=
    deleteLeavesLoop_inv p_delete RAND_MAX rand t.nodes.length taxa 0 _ [] hinv0
  obtain ⟨hT1, hnd1, hleaf1, hlen1, h31, hroot, hadj, hzip, hdnd⟩ := hinv
  have hdl1 : st.del_leaves = D := by
    rw [hdl]
    rfl
  rw [List.append_nil] at hnd1 hleaf1 hlen1
  refine ⟨st, hloop, ?_, hdnd, ?_, hadj, hzip, ?_, h31, hT1, ?_, ?_⟩
  · rw [hdl1]
    exact hfold
  · intro x hx
    rw [hdl1] at hx
    exact hD x hx
  · rw [hdl1]
    exact hrem
  · intro z hz hzd
    rcases hcov z hz with h | h
    · exact hleaf1 z h
    · exact absurd (hdl1 ▸ h) hzd
  · cases kept with
    | nil =>
      simp only [List.length_nil] at hlen1
      omega
    | cons r rs =>
      refine ⟨r, hroot, ?_, ?_⟩
      · have := hk r (List.mem_cons_self _ _)
        rw [List.nil_append] at this
        exact this
      · exact (hleaf1 r (List.mem_cons_self _ _)).1.2.1

theorem deleteLeaves_spec_witness :
    exampleTree.IsBinaryTree ∧
    ∃ st, IQPTree.deleteLeaves 1 1 (fun _ => 0) exampleTree [0, 1, 2, 3] [] [] = some st ∧
      st.del_leaves.foldlM IQPTree.deleteLeaf exampleTree = some st.tree ∧
      st.del_leaves.Nodup ∧ (∀ x ∈ st.del_leaves, x ∈ [0, 1, 2, 3]) ∧
      st.adjacent_nodes.length = st.del_leaves.length ∧
      (∀ p ∈ st.del_leaves.zip st.adjacent_nodes, st.tree.links p.1 = [p.2]) ∧
      st.remain_leaves + st.del_leaves.length = [0, 1, 2, 3].length ∧ 3 ≤ st.remain_leaves ∧
      st.tree.IsBinaryTreeOn (IQPTree.liveOf exampleTree.nodes.length st) ∧
      (∀ z ∈ [0, 1, 2, 3], z ∉ st.del_leaves →
        IQPTree.liveOf exampleTree.nodes.length st z ∧ (st.tree.links z).length = 1) ∧
      ∃ r, st.root = some r ∧ r ∈ [0, 1, 2, 3] ∧ r ∉ st.del_leaves :=
  ⟨exampleTree_isBinaryTree,
    deleteLeaves_spec 1 1 (fun _ => 0) exampleTree [0, 1, 2, 3] exampleTree_isBinaryTree
      (by decide) (by decide) (by decide)⟩

theorem two_tri (k : Nat) : 2 * tri k = k * (k + 1) := by
  induction k with
  | zero => rfl
  | succ k ih =>
    simp only [tri]
    rw [Nat.mul_add, ih]
    ring

theorem tri_mono {a b : Nat} (h : a ≤ b) : tri a ≤ tri b := by
  induction h with
  | refl => exact Nat.le_refl _
  | step _ ih =>
    simp only [tri]
    omega

theorem num_pairs_eq (n : Nat) (hn : 1 ≤ n) : n * (n - 1) / 2 = tri (n - 1) := by
  have h := two_tri (n - 1)
  have e : n - 1 + 1 = n := by omega
  rw [e] at h
  have : n * (n - 1) = 2 * tri (n - 1) := by rw [h, Nat.mul_comm]
  rw [this, Nat.mul_div_cancel_left _ (by decide : 0 < 2)]

/-- One step of the loop: from a pair `r < c < nseqs` that is not the last one, the
next pair is again such a pair, and one pair less follows it. -/
theorem nextId_spec (n : Nat) (p : Nat × Nat) (h1 : p.1 < p.2) (h2 : p.2 < n)
    (h3 : 0 < pairsAfter n p) :
    (computeDist_nextId n p).1 < (computeDist_nextId n p).2 ∧
      (computeDist_nextId n p).2 < n ∧
      pairsAfter n (computeDist_nextId n p) + 1 = pairsAfter n p := by
  obtain ⟨r, c⟩ := p
  simp only at h1 h2
  unfold computeDist_nextId
  simp only
  by_cases hc : c + 1 ≥ n
  · rw [if_pos hc]
    have hcn : c = n - 1 := by omega
    unfold pairsAfter at h3 ⊢
    simp only at h3 ⊢
    have h4 : 0 < tri (n - 2 - r) := by omega
    have h5 : 0 < n - 2 - r := by
      by_contra hh
      have : n - 2 - r = 0 := by omega
      rw [this] at h4
      exact absurd h4 (by decide)
    obtain ⟨k, hk⟩ : ∃ k, n - 2 - r = k + 1 := ⟨n - 2 - r - 1, by omega⟩
    have hk1 : n - 2 - (r + 1) = k := by omega
    rw [hk1]
    rw [hk] at h4 ⊢
    simp only [tri]
    refine ⟨by omega, by omega, ?_⟩
    omega
  · rw [if_neg hc]
    unfold pairsAfter
    simp only
    refine ⟨by omega, by omega, ?_⟩
    omega

/-- The pair at position `k` of the loop. -/
theorem iterate_nextId (n : Nat) (hn : 2 ≤ n) (k : Nat) (hk : k < tri (n - 1)) :
    ((computeDist_nextId n)^[k] (0, 1)).1 < ((computeDist_nextId n)^[k] (0, 1)).2 ∧
      ((computeDist_nextId n)^[k] (0, 1)).2 < n ∧
      pairsAfter n ((computeDist_nextId n)^[k] (0, 1)) + k + 1 = tri (n - 1) := by
  induction k with
  | zero =>
    simp only [Function.iterate_zero, id]
    refine ⟨by decide, by omega, ?_⟩
    unfold pairsAfter
    simp only
    obtain ⟨m, hm⟩ : ∃ m, n = m + 2 := ⟨n - 2, by omega⟩
    subst hm
    simp only [Nat.add_sub_cancel, Nat.sub_zero]
    have : m + 2 - 1 = m + 1 := by omega
    rw [this]
    simp only [tri]
    omega
  | succ k ih =>
    obtain ⟨i1, i2, i3⟩ := ih (by omega)
    rw [Function.iterate_succ_apply']
    obtain ⟨j1, j2, j3⟩ := nextId_spec n _ i1 i2 (by omega)
    exact ⟨j1, j2, by omega⟩

/-- The count `pairsAfter` tells the pairs `r < c < nseqs` apart. -/
theorem pairsAfter_inj (n : Nat) (p q : Nat × Nat) (hp1 : p.1 < p.2) (hp2 : p.2 < n)
    (hq1 : q.1 < q.2) (hq2 : q.2 < n) (h : pairsAfter n p = pairsAfter n q) : p = q := by
  obtain ⟨r, c⟩ := p
  obtain ⟨r1, c1⟩ := q
  simp only at hp1 hp2 hq1 hq2
  unfold pairsAfter at h
  simp only at h
  have key : ∀ (a b x y : Nat), a < b → x ≤ a → y ≤ b → x + tri a < y + tri b + 1 ∧
      x + tri a ≠ y + tri b := by
    intro a b x y hab hx hy
    have h1 : tri (a + 1) ≤ tri b := tri_mono hab
    simp only [tri] at h1
    constructor <;> omega
  have hr : r = r1 := by
    rcases Nat.lt_trichotomy r r1 with hlt | heq | hgt
    · exfalso
      exact (key (n - 2 - r1) (n - 2 - r) (n - 1 - c1) (n - 1 - c) (by omega) (by omega)
        (by omega)).2 h.symm
    · exact heq
    · exfalso
      exact (key (n - 2 - r) (n - 2 - r1) (n - 1 - c) (n - 1 - c1) (by omega) (by omega)
        (by omega)).2 h
  subst hr
  have hc : c = c1 := by omega
  rw [hc]

theorem pairsAfter_lt (n : Nat) (p : Nat × Nat) (hp1 : p.1 < p.2) (hp2 : p.2 < n) :
    pairsAfter n p < tri (n - 1) := by
  obtain ⟨r, c⟩ := p
  simp only at hp1 hp2
  unfold pairsAfter
  simp only
  obtain ⟨k, hk⟩ : ∃ k, n - 1 - r = k + 1 := ⟨n - 1 - r - 1, by omega⟩
  have h1 : tri (n - 1 - r) ≤ tri (n - 1) := tri_mono (by omega)
  rw [hk] at h1
  simp only [tri] at h1
  have h2 : n - 2 - r = k := by omega
  rw [h2]
  omega

/-- C30: for `nseqs ≥ 2`, the pairs `(row_id[pos], col_id[pos])` that `computeDist`
builds are `nseqs * (nseqs - 1) / 2` pairs without repetition, they are exactly the
pairs `row < col < nseqs`, and the cells `row * nseqs + col` that the pairwise
computations write are pairwise distinct. -/
theorem computeDist_ids_spec (nseqs : Nat) (hn : 2 ≤ nseqs) :
    (computeDist_ids nseqs).length = nseqs * (nseqs - 1) / 2 ∧
    (computeDist_ids nseqs).Nodup ∧
    (∀ row col, (row, col) ∈ computeDist_ids nseqs ↔ row < col ∧ col < nseqs) ∧
    ((computeDist_ids nseqs).map (fun p => p.1 * nseqs + p.2)).Nodup := by
  have hnum := num_pairs_eq nseqs (by omega)
  have hmem : ∀ p, p ∈ computeDist_ids nseqs ↔ p.1 < p.2 ∧ p.2 < nseqs := by
    intro p
    unfold computeDist_ids
    rw [List.mem_iterate, hnum]
    constructor
    · rintro ⟨m, hm, rfl⟩
      obtain ⟨i1, i2, _⟩ := iterate_nextId nseqs hn m hm
      exact ⟨i1, i2⟩
    · rintro ⟨h1, h2⟩
      have hlt := pairsAfter_lt nseqs p h1 h2
      refine ⟨tri (nseqs - 1) - 1 - pairsAfter nseqs p, by omega, ?_⟩
      obtain ⟨i1, i2, i3⟩ := iterate_nextId nseqs hn (tri (nseqs - 1) - 1 - pairsAfter nseqs p)
        (by omega)
      exact pairsAfter_inj nseqs _ _ h1 h2 i1 i2 (by omega)
  have hnd : (computeDist_ids nseqs).Nodup := by
    unfold computeDist_ids
    rw [hnum, List.nodup_iff_getElem?_ne_getElem?]
    intro i j hij hj
    rw [List.length_iterate] at hj
    rw [List.getElem?_iterate _ _ _ _ (by omega), List.getElem?_iterate _ _ _ _ hj]
    intro e
    have e1 := Option.some.inj e
    obtain ⟨_, _, i3⟩ := iterate_nextId nseqs hn i (by omega)
    obtain ⟨_, _, j3⟩ := iterate_nextId nseqs hn j hj
    rw [e1] at i3
    omega
  refine ⟨?_, hnd, fun row col => hmem (row, col), ?_⟩
  · unfold computeDist_ids
    rw [List.length_iterate]
  · refine List.Nodup.map_on ?_ hnd
    intro p hp q hq e
    obtain ⟨p1, p2⟩ := (hmem p).1 hp
    obtain ⟨q1, q2⟩ := (hmem q).1 hq
    have hn0 : 0 < nseqs := by omega
    have e1 : (p.1 * nseqs + p.2) / nseqs = (q.1 * nseqs + q.2) / nseqs := by rw [e]
    have e2 : (p.1 * nseqs + p.2) % nseqs = (q.1 * nseqs + q.2) % nseqs := by rw [e]
    rw [Nat.mul_comm p.1, Nat.mul_comm q.1, Nat.mul_add_div hn0, Nat.mul_add_div hn0,
      Nat.div_eq_of_lt p2, Nat.div_eq_of_lt q2] at e1
    rw [Nat.mul_comm p.1, Nat.mul_comm q.1, Nat.mul_add_mod, Nat.mul_add_mod,
      Nat.mod_eq_of_lt p2, Nat.mod_eq_of_lt q2] at e2
    exact Prod.ext (by omega) e2

theorem computeDist_ids_spec_witness :
    2 ≤ 4 ∧
    (computeDist_ids 4).length = 4 * (4 - 1) / 2 ∧
    (computeDist_ids 4).Nodup ∧
    (∀ row col, (row, col) ∈ computeDist_ids 4 ↔ row < col ∧ col < 4) ∧
    ((computeDist_ids 4).map (fun p => p.1 * 4 + p.2)).Nodup :=
  ⟨by decide, computeDist_ids_spec 4 (by decide)⟩

theorem index_inj (n i j i1 j1 : Nat) (hj : j < n) (hj1 : j1 < n)
    (h : i * n + j = i1 * n + j1) : i = i1 ∧ j = j1 := by
  have hn0 : 0 < n := by omega
  have e1 : (i * n + j) / n = (i1 * n + j1) / n := by rw [h]
  have e2 : (i * n + j) % n = (i1 * n + j1) % n := by rw [h]
  rw [Nat.mul_comm i, Nat.mul_comm i1, Nat.mul_add_div hn0, Nat.mul_add_div hn0,
    Nat.div_eq_of_lt hj, Nat.div_eq_of_lt hj1] at e1
  rw [Nat.mul_comm i, Nat.mul_comm i1, Nat.mul_add_mod, Nat.mul_add_mod,
    Nat.mod_eq_of_lt hj, Nat.mod_eq_of_lt hj1] at e2
  exact ⟨by omega, e2⟩

theorem index_lt (n i j : Nat) (hi : i < n) (hj : j < n) : i * n + j < n * n := by
  have : (i + 1) * n ≤ n * n := Nat.mul_le_mul_right n hi
  rw [Nat.add_mul, Nat.one_mul] at this
  omega

theorem getD_set_eq (d : List ℚ) (p : Nat) (v : ℚ) (hp : p < d.length) :
    (d.set p v).getD p 0 = v := by
  rw [List.getD_eq_getElem?_getD, List.getElem?_set_self hp]
  rfl

theorem getD_set_ne (d : List ℚ) (p q : Nat) (v : ℚ) (hpq : p ≠ q) :
    (d.set p v).getD q 0 = d.getD q 0 := by
  rw [List.getD_eq_getElem?_getD, List.getD_eq_getElem?_getD, List.getElem?_set_ne hpq]

theorem sweepInv_cell (add : ℚ → ℚ → ℚ) (n k : Nat) (d : List ℚ) (hk : k < n)
    (hrow : ∀ i, i < n → cell n d i k ≤ add (cell n d i k) (cell n d k k))
    (hcol : ∀ j, j < n → cell n d k j ≤ add (cell n d k k) (cell n d k j))
    (i0 j0 : Nat) (hi0 : i0 < n) (hj0 : j0 < n) (st : List ℚ × Nat)
    (h : SweepInv add n k d i0 j0 st) :
    SweepInv add n k d i0 (j0 + 1) (correctDistCell add n k i0 st j0) := by
  obtain ⟨hpos, hlen, hc⟩ := h
  have hik : cell n st.1 i0 k = cell n d i0 k := by
    rw [hc i0 k hi0 hk]
    split_ifs
    · exact min_eq_left (hrow i0 hi0)
    · rfl
  have hkj : cell n st.1 k j0 = cell n d k j0 := by
    rw [hc k j0 hk hj0]
    split_ifs
    · exact min_eq_left (hcol j0 hj0)
    · rfl
  have hij : cell n st.1 i0 j0 = cell n d i0 j0 := by
    rw [hc i0 j0 hi0 hj0, if_neg]
    rintro (h | ⟨_, h⟩) <;> omega
  have hplt : st.2 < st.1.length := by
    rw [hpos, hlen]
    exact index_lt n i0 j0 hi0 hj0
  unfold correctDistCell
  simp only
  have e1 : st.1.getD (i0 * n + k) 0 = cell n d i0 k := hik
  have e2 : st.1.getD (k * n + j0) 0 = cell n d k j0 := hkj
  have e3 : st.1.getD st.2 0 = cell n d i0 j0 := by
    rw [hpos]
    exact hij
  rw [e1, e2, e3]
  refine ⟨?_, ?_, ?_⟩
  · simp only
    rw [hpos]
    ring
  · simp only
    split_ifs
    · rw [List.length_set]
      exact hlen
    · exact hlen
  · intro i j hi hj
    simp only
    by_cases hsame : i = i0 ∧ j = j0
    · obtain ⟨rfl, rfl⟩ := hsame
      rw [if_pos (Or.inr ⟨rfl, Nat.lt_succ_self _⟩)]
      show (if cell n d i j > add (cell n d i k) (cell n d k j)
          then st.1.set st.2 (add (cell n d i k) (cell n d k j)) else st.1).getD (i * n + j) 0 = _
      rw [← hpos]
      split_ifs with hgt
      · rw [getD_set_eq _ _ _ hplt]
        exact (min_eq_right (le_of_lt hgt)).symm
      · rw [e3]
        exact (min_eq_left (not_lt.1 hgt)).symm
    · have hne : st.2 ≠ i * n + j := by
        rw [hpos]
        intro e
        exact hsame ⟨(index_inj n i0 j0 i j hj0 hj e).1.symm, (index_inj n i0 j0 i j hj0 hj e).2.symm⟩
      have hcur : cell n (if cell n d i0 j0 > add (cell n d i0 k) (cell n d k j0)
          then st.1.set st.2 (add (cell n d i0 k) (cell n d k j0)) else st.1) i j =
            cell n st.1 i j := by
        unfold cell
        split_ifs
        · exact getD_set_ne _ _ _ _ hne
        · rfl
      rw [hcur, hc i j hi hj]
      have hiff : (i < i0 ∨ i = i0 ∧ j < j0 + 1) ↔ (i < i0 ∨ i = i0 ∧ j < j0) := by
        constructor
        · rintro (h | ⟨h1, h2⟩)
          · exact Or.inl h
          · refine Or.inr ⟨h1, ?_⟩
            have : j ≠ j0 := fun e => hsame ⟨h1, e⟩
            omega
        · rintro (h | ⟨h1, h2⟩)
          · exact Or.inl h
          · exact Or.inr ⟨h1, by omega⟩
      simp only [hiff]

/-- One sweep of `correctDist` replaces every entry by the smaller one of the entry and
the detour over `k`, when no entry of row `k` and of column `k` is above its own detour
over `k`, so that the sweep leaves this row and this column as they are. -/
theorem sweep_spec (add : ℚ → ℚ → ℚ) (n k : Nat) (d : List ℚ) (hlen : d.length = n * n)
    (hk : k < n)
    (hrow : ∀ i, i < n → cell n d i k ≤ add (cell n d i k) (cell n d k k))
    (hcol : ∀ j, j < n → cell n d k j ≤ add (cell n d k k) (cell n d k j)) :
    (correctDistSweep add n k d).length = n * n ∧
    ∀ i j, i < n → j < n → cell n (correctDistSweep add n k d) i j =
      min (cell n d i j) (add (cell n d i k) (cell n d k j)) := by
  have key := foldl_range_inv
    (fun st i => (List.range n).foldl (correctDistCell add n k i) st)
    (fun i0 st => SweepInv add n k d i0 0 st) (d, 0) n
    ⟨by simp, hlen, fun i j _ _ => by
      rw [if_neg]
      rintro (h | ⟨_, h⟩) <;> omega⟩
    (fun i0 st hi0 hinv => by
      have row := foldl_range_inv (correctDistCell add n k i0)
        (fun j0 st => SweepInv add n k d i0 j0 st) st n hinv
        (fun j0 s hj0 hs => sweepInv_cell add n k d hk hrow hcol i0 j0 hi0 hj0 s hs)
      obtain ⟨r1, r2, r3⟩ := row
      refine ⟨?_, r2, ?_⟩
      · rw [r1]
        ring
      · intro i j hi hj
        rw [r3 i j hi hj]
        have hiff : (i < i0 ∨ i = i0 ∧ j < n) ↔ (i < i0 + 1 ∨ i = i0 + 1 ∧ j < 0) := by
          constructor
          · rintro (h | ⟨h1, _⟩)
            · exact Or.inl (by omega)
            · exact Or.inl (by omega)
          · rintro (h | ⟨_, h2⟩)
            · by_cases e : i = i0
              · exact Or.inr ⟨e, hj⟩
              · exact Or.inl (by omega)
            · omega
        simp only [hiff])
  obtain ⟨_, k2, k3⟩ := key
  refine ⟨k2, fun i j hi hj => ?_⟩
  unfold correctDistSweep
  rw [k3 i j hi hj, if_pos (Or.inl hi)]

theorem exampleDist_nonneg : ∀ i j, i < 3 → j < 3 → 0 ≤ cell 3 exampleDist i j := by
  intro i j hi hj
  interval_cases i <;> interval_cases j <;> simp [cell, exampleDist]

theorem roundDouble_nonneg (x : ℚ) (hx : 0 ≤ x) : 0 ≤ roundDouble x := by
  have hnum : ¬ x.num < 0 := not_lt.2 (Rat.num_nonneg.2 hx)
  unfold roundDouble
  rw [if_neg hnum]
  unfold roundDoublePos
  split_ifs
  · exact le_refl _
  · exact Nat.cast_nonneg _
  · rw [Rat.mkRat_eq_div]
    apply div_nonneg
    · exact_mod_cast Int.natCast_nonneg _
    · exact_mod_cast Nat.zero_le _

theorem doubleAdd_comm (x y : ℚ) : doubleAdd x y = doubleAdd y x := by
  unfold doubleAdd
  by_cases hx : x = 0 <;> by_cases hy : y = 0 <;> simp [hx, hy, add_comm]

theorem doubleAdd_zero (x : ℚ) : doubleAdd x 0 = x := by
  unfold doubleAdd
  by_cases hx : x = 0 <;> simp [hx]

theorem doubleAdd_nonneg (x y : ℚ) (hx : 0 ≤ x) (hy : 0 ≤ y) : 0 ≤ doubleAdd x y := by
  unfold doubleAdd
  split_ifs
  · exact hy
  · exact hx
  · exact roundDouble_nonneg _ (add_nonneg hx hy)

/-- A loop that writes pairwise distinct cells, each from its own old value. -/
theorem fold_set_distinct (f : Nat → ℚ → ℚ) (L : List Nat) (hnd : L.Nodup) (d : List ℚ) :
    ((L.foldl (fun d p => d.set p (f p (d.getD p 0))) d).length = d.length) ∧
    ∀ q, q < d.length → (L.foldl (fun d p => d.set p (f p (d.getD p 0))) d).getD q 0 =
      if q ∈ L then f q (d.getD q 0) else d.getD q 0 := by
  induction L generalizing d with
  | nil => exact ⟨rfl, fun q _ => by simp⟩
  | cons p L ih =>
    obtain ⟨hp, hnd1⟩ := List.nodup_cons.1 hnd
    obtain ⟨i1, i2⟩ := ih hnd1 (d.set p (f p (d.getD p 0)))
    rw [List.foldl_cons]
    refine ⟨by rw [i1, List.length_set], fun q hq => ?_⟩
    rw [i2 q (by rw [List.length_set]; exact hq)]
    by_cases hqp : q = p
    · subst hqp
      rw [if_neg hp, if_pos (List.mem_cons_self _ _), getD_set_eq _ _ _ hq]
    · rw [getD_set_ne _ _ _ _ (Ne.symm hqp)]
      by_cases hqL : q ∈ L
      · rw [if_pos hqL, if_pos (List.mem_cons_of_mem _ hqL)]
      · rw [if_neg hqL, if_neg (by
          intro h
          rcases List.mem_cons.1 h with h | h
          · exact hqp h
          · exact hqL h)]

/-- The upper triangle after the loop over the pairs. -/
theorem computeDistUpper_spec (pairDist : Nat → Nat → ℚ → ℚ) (n : Nat) (hn : 2 ≤ n)
    (d : List ℚ) (hlen : d.length = n * n) :
    (computeDistUpper pairDist n d).length = n * n ∧
    ∀ i j, i < j → j < n →
      cell n (computeDistUpper pairDist n d) i j = pairDist i j (cell n d i j) := by
  obtain ⟨_, _, hmem, hnd⟩ := computeDist_ids_spec n hn
  have hfold : ∀ d0 : List ℚ, computeDistUpper pairDist n d0 =
      ((computeDist_ids n).map (fun p => p.1 * n + p.2)).foldl
        (fun d p => d.set p (pairDist (p / n) (p % n) (d.getD p 0))) d0 := by
    intro d0
    unfold computeDistUpper
    rw [List.foldl_map]
    have hall : ∀ p ∈ computeDist_ids n, p.2 < n := fun p hp => ((hmem p.1 p.2).1 hp).2
    generalize computeDist_ids n = L at hall
    induction L generalizing d0 with
    | nil => rfl
    | cons p L ih =>
      rw [List.foldl_cons, List.foldl_cons]
      have hp := hall p (List.mem_cons_self _ _)
      have hn0 : 0 < n := by omega
      have e1 : (p.1 * n + p.2) / n = p.1 := by
        rw [Nat.mul_comm, Nat.mul_add_div hn0, Nat.div_eq_of_lt hp, Nat.add_zero]
      have e2 : (p.1 * n + p.2) % n = p.2 := by
        rw [Nat.mul_comm, Nat.mul_add_mod, Nat.mod_eq_of_lt hp]
      simp only [e1, e2]
      exact ih _ (fun q hq => hall q (List.mem_cons_of_mem _ hq))
  obtain ⟨f1, f2⟩ := fold_set_distinct (fun p x => pairDist (p / n) (p % n) x) _ hnd d
  rw [hfold d]
  refine ⟨f1.trans hlen, fun i j hij hj => ?_⟩
  have hi : i < n := by omega
  unfold cell
  rw [f2 _ (hlen ▸ index_lt n i j hi hj), if_pos]
  · have hn0 : 0 < n := by omega
    have e1 : (i * n + j) / n = i := by
      rw [Nat.mul_comm, Nat.mul_add_div hn0, Nat.div_eq_of_lt hj, Nat.add_zero]
    have e2 : (i * n + j) % n = j := by
      rw [Nat.mul_comm, Nat.mul_add_mod, Nat.mod_eq_of_lt hj]
    rw [e1, e2]
  · exact List.mem_map.2 ⟨(i, j), (hmem i j).2 ⟨hij, hj⟩, rfl⟩

theorem lowerInv_cell (n : Nat) (d : List ℚ) (i0 j0 : Nat) (hi0 : i0 < n) (hj0 : j0 ≤ i0)
    (D : List ℚ) (h : LowerInv n d i0 j0 D) :
    LowerInv n d i0 (j0 + 1) (computeDistLowerCell n i0 D j0) := by
  obtain ⟨hlen, hc⟩ := h
  have hj0n : j0 < n := by omega
  have hplt : i0 * n + j0 < D.length := hlen ▸ index_lt n i0 j0 hi0 hj0n
  have hlen1 : (computeDistLowerCell n i0 D j0).length = n * n := by
    unfold computeDistLowerCell
    simp only
    split_ifs <;> rw [List.length_set] <;> exact hlen
  refine ⟨hlen1, fun i j hi hj => ?_⟩
  by_cases hsame : i = i0 ∧ j = j0
  · obtain ⟨rfl, rfl⟩ := hsame
    rw [if_pos ⟨hj0, Or.inr ⟨rfl, Nat.lt_succ_self _⟩⟩]
    unfold computeDistLowerCell cell
    simp only
    split_ifs with e
    · exact getD_set_eq _ _ _ hplt
    · rw [getD_set_eq _ _ _ hplt]
      have := hc j i hj hi
      rw [if_neg] at this
      · exact this
      · rintro ⟨h1, _⟩
        exact e (by omega)
  · have hne : i0 * n + j0 ≠ i * n + j := by
      intro e
      exact hsame ⟨(index_inj n i0 j0 i j hj0n hj e).1.symm,
        (index_inj n i0 j0 i j hj0n hj e).2.symm⟩
    have hcur : cell n (computeDistLowerCell n i0 D j0) i j = cell n D i j := by
      unfold computeDistLowerCell cell
      simp only
      split_ifs <;> exact getD_set_ne _ _ _ _ hne
    rw [hcur, hc i j hi hj]
    have hiff : (j ≤ i ∧ (i < i0 ∨ i = i0 ∧ j < j0 + 1)) ↔
        (j ≤ i ∧ (i < i0 ∨ i = i0 ∧ j < j0)) := by
      constructor
      · rintro ⟨h0, h | ⟨h1, h2⟩⟩
        · exact ⟨h0, Or.inl h⟩
        · refine ⟨h0, Or.inr ⟨h1, ?_⟩⟩
          have : j ≠ j0 := fun e => hsame ⟨h1, e⟩
          omega
      · rintro ⟨h0, h | ⟨h1, h2⟩⟩
        · exact ⟨h0, Or.inl h⟩
        · exact ⟨h0, Or.inr ⟨h1, by omega⟩⟩
    simp only [hiff]

/-- The matrix after the copy loops: the upper triangle is kept, the lower triangle is
its mirror image, and the diagonal is 0. -/
theorem computeDistLower_spec (n : Nat) (d : List ℚ) (hlen : d.length = n * n) :
    (computeDistLower n d).length = n * n ∧
    ∀ i j, i < n → j < n → cell n (computeDistLower n d) i j =
      if j ≤ i then (if i = j then 0 else cell n d j i) else cell n d i j := by
  have key := foldl_range_inv
    (fun d seq1 => (List.range (seq1 + 1)).foldl (computeDistLowerCell n seq1) d)
    (fun i0 D => LowerInv n d i0 0 D) d n
    ⟨hlen, fun i j _ _ => by
      rw [if_neg]
      rintro ⟨_, h | ⟨_, h⟩⟩ <;> omega⟩
    (fun i0 D hi0 hinv => by
      have row := foldl_range_inv (computeDistLowerCell n i0)
        (fun j0 D => LowerInv n d i0 j0 D) D (i0 + 1) hinv
        (fun j0 s hj0 hs => lowerInv_cell n d i0 j0 hi0 (by omega) s hs)
      obtain ⟨r1, r2⟩ := row
      refine ⟨r1, fun i j hi hj => ?_⟩
      rw [r2 i j hi hj]
      have hiff : (j ≤ i ∧ (i < i0 ∨ i = i0 ∧ j < i0 + 1)) ↔
          (j ≤ i ∧ (i < i0 + 1 ∨ i = i0 + 1 ∧ j < 0)) := by
        constructor
        · rintro ⟨h0, h | ⟨h1, _⟩⟩
          · exact ⟨h0, Or.inl (by omega)⟩
          · exact ⟨h0, Or.inl (by omega)⟩
        · rintro ⟨h0, h | ⟨_, h2⟩⟩
          · by_cases e : i = i0
            · exact ⟨h0, Or.inr ⟨e, by omega⟩⟩
            · exact ⟨h0, Or.inl (by omega)⟩
          · omega
      simp only [hiff])
  obtain ⟨k1, k2⟩ := key
  refine ⟨k1, fun i j hi hj => ?_⟩
  unfold computeDistLower
  rw [k2 i j hi hj]
  by_cases hji : j ≤ i
  · rw [if_pos ⟨hji, Or.inl hi⟩, if_pos hji]
  · rw [if_neg (fun h => hji h.1), if_neg hji]

theorem doubleSum_doubleAdd : DoubleSum doubleAdd :=
  ⟨doubleAdd_comm, doubleAdd_zero, doubleAdd_nonneg⟩

theorem doubleSum_exact : DoubleSum (fun x y => x + y) :=
  ⟨fun x y => add_comm x y, fun x => add_zero x, fun _ _ hx hy => add_nonneg hx hy⟩

/-- The sweeps of `correctDist` keep a matrix without negative entries symmetric and
keep its diagonal 0, with rounded sums as with exact ones. -/
theorem fw_symmetric (add : ℚ → ℚ → ℚ) (hadd : DoubleSum add) (n : Nat) (d : List ℚ)
    (hlen : d.length = n * n)
    (hnn : ∀ i j, i < n → j < n → 0 ≤ cell n d i j)
    (hsym : ∀ i j, i < n → j < n → cell n d i j = cell n d j i)
    (hdiag : ∀ i, i < n → cell n d i i = 0) :
    (∀ i j, i < n → j < n →
      cell n ((List.range n).foldl (fun d k => correctDistSweep add n k d) d) i j =
        cell n ((List.range n).foldl (fun d k => correctDistSweep add n k d) d) j i) ∧
    ∀ i, i < n →
      cell n ((List.range n).foldl (fun d k => correctDistSweep add n k d) d) i i = 0 := by
  obtain ⟨hcomm, hzero, hpos⟩ := hadd
  have key := foldl_range_inv (fun d k => correctDistSweep add n k d)
    (fun _ D => D.length = n * n ∧ (∀ i j, i < n → j < n → 0 ≤ cell n D i j) ∧
      (∀ i j, i < n → j < n → cell n D i j = cell n D j i) ∧
      ∀ i, i < n → cell n D i i = 0) d n ⟨hlen, hnn, hsym, hdiag⟩
    (fun k D hk hD => by
      obtain ⟨h1, h2, h3, h4⟩ := hD
      obtain ⟨hlen1, hc⟩ := sweep_spec add n k D h1 hk
        (fun i _ => by rw [h4 k hk, hzero])
        (fun j _ => by rw [h4 k hk, hcomm, hzero])
      refine ⟨hlen1, ?_, ?_, ?_⟩
      · intro i j hi hj
        rw [hc i j hi hj]
        exact le_min (h2 i j hi hj) (hpos _ _ (h2 i k hi hk) (h2 k j hk hj))
      · intro i j hi hj
        rw [hc i j hi hj, hc j i hj hi, h3 j i hj hi, h3 j k hj hk, h3 k i hk hi,
          hcomm (cell n D k j)]
      · intro i hi
        rw [hc i i hi hi, h4 i hi]
        exact min_eq_left (hpos _ _ (h2 i k hi hk) (h2 k i hk hi)))
  exact ⟨key.2.2.1, key.2.2.2⟩

theorem examplePairDist_nonneg : ∀ i j, i < j → j < 3 →
    0 ≤ examplePairDist i j (cell 3 (List.replicate 9 0) i j) := by
  intro i j _ _
  unfold examplePairDist computeDistPair
  simp only [Bool.not_false, Bool.or_self, if_true]
  split_ifs with h
  · positivity
  · exact absurd (by
      unfold cell
      rw [List.getD_eq_getElem?_getD]
      cases hh : (List.replicate 9 (0 : ℚ))[i * 3 + j]? with
      | none => rfl
      | some v =>
        have := List.getElem?_mem hh
        rw [List.mem_replicate] at this
        simp [this.2]) h

/-- C28: for `nseqs ≥ 2` sequences and pairwise distances that are not negative, the
matrix that `computeDist(dist_mat)` fills holds the pairwise distances above the
diagonal, is symmetric and has the diagonal 0, and the matrix that it leaves after the
correction of `correctDist` is symmetric and has the diagonal 0 as well, whether the
sums of `correctDist` are exact or rounded as the sums of doubles are (for every sum
`add` with the properties `DoubleSum`). -/
theorem computeDist_symmetric (add : ℚ → ℚ → ℚ) (hadd : DoubleSum add)
    (pairDist : Nat → Nat → ℚ → ℚ) (n : Nat) (hn : 2 ≤ n)
    (d : List ℚ) (hlen : d.length = n * n)
    (hnn : ∀ i j, i < j → j < n → 0 ≤ pairDist i j (cell n d i j)) :
    (∀ i j, i < j → j < n →
      cell n (computeDistLower n (computeDistUpper pairDist n d)) i j =
        pairDist i j (cell n d i j)) ∧
    (∀ i j, i < n → j < n →
      cell n (computeDistLower n (computeDistUpper pairDist n d)) i j =
        cell n (computeDistLower n (computeDistUpper pairDist n d)) j i) ∧
    (∀ i, i < n → cell n (computeDistLower n (computeDistUpper pairDist n d)) i i = 0) ∧
    (∀ i j, i < n → j < n →
      cell n (computeDist add pairDist n d).1 i j =
        cell n (computeDist add pairDist n d).1 j i) ∧
    ∀ i, i < n → cell n (computeDist add pairDist n d).1 i i = 0 := by
  obtain ⟨u1, u2⟩ := computeDistUpper_spec pairDist n hn d hlen
  obtain ⟨l1, l2⟩ := computeDistLower_spec n _ u1
  have hupper : ∀ i j, i < j → j < n →
      cell n (computeDistLower n (computeDistUpper pairDist n d)) i j =
        pairDist i j (cell n d i j) := by
    intro i j hij hj
    rw [l2 i j (by omega) hj, if_neg (by omega), u2 i j hij hj]
  have hsym : ∀ i j, i < n → j < n →
      cell n (computeDistLower n (computeDistUpper pairDist n d)) i j =
        cell n (computeDistLower n (computeDistUpper pairDist n d)) j i := by
    intro i j hi hj
    rw [l2 i j hi hj, l2 j i hj hi]
    rcases Nat.lt_trichotomy i j with h | h | h
    · rw [if_neg (by omega), if_pos (by omega), if_neg (by omega)]
    · subst h
      rfl
    · rw [if_pos (by omega), if_neg (by omega), if_neg (by omega)]
  have hdiag : ∀ i, i < n →
      cell n (computeDistLower n (computeDistUpper pairDist n d)) i i = 0 := by
    intro i hi
    rw [l2 i i hi hi, if_pos (le_refl _), if_pos rfl]
  have hnn1 : ∀ i j, i < n → j < n →
      0 ≤ cell n (computeDistLower n (computeDistUpper pairDist n d)) i j := by
    intro i j hi hj
    rcases Nat.lt_trichotomy i j with h | h | h
    · rw [hupper i j h hj]
      exact hnn i j h hj
    · subst h
      rw [hdiag i hi]
    · rw [hsym i j hi hj, hupper j i h hi]
      exact hnn j i h hi
  obtain ⟨s1, s2⟩ := fw_symmetric add hadd n _ l1 hnn1 hsym hdiag
  exact ⟨hupper, hsym, hdiag, s1, s2⟩

theorem computeDist_symmetric_witness :
    (∀ i j, i < j → j < 3 →
      cell 3 (computeDistLower 3 (computeDistUpper examplePairDist 3 (List.replicate 9 0))) i j =
        examplePairDist i j (cell 3 (List.replicate 9 0) i j)) ∧
    (∀ i j, i < 3 → j < 3 →
      cell 3 (computeDistLower 3 (computeDistUpper examplePairDist 3 (List.replicate 9 0))) i j =
        cell 3 (computeDistLower 3 (computeDistUpper examplePairDist 3 (List.replicate 9 0))) j i) ∧
    (∀ i, i < 3 →
      cell 3 (computeDistLower 3 (computeDistUpper examplePairDist 3 (List.replicate 9 0))) i i
        = 0) ∧
    (∀ i j, i < 3 → j < 3 →
      cell 3 (computeDist doubleAdd examplePairDist 3 (List.replicate 9 0)).1 i j =
        cell 3 (computeDist doubleAdd examplePairDist 3 (List.replicate 9 0)).1 j i) ∧
    ∀ i, i < 3 → cell 3 (computeDist doubleAdd examplePairDist 3 (List.replicate 9 0)).1 i i = 0 :=
  computeDist_symmetric doubleAdd ⟨doubleAdd_comm, doubleAdd_zero, doubleAdd_nonneg⟩
    examplePairDist 3 (by decide) (List.replicate 9 0) rfl examplePairDist_nonneg

theorem truncToInt_nonneg (x : ℚ) (hx : 0 ≤ x) : truncToInt x = Int.floor x := by
  unfold truncToInt
  rw [if_pos hx]

theorem applyNNIs_take {σ : Type} (applyMove : σ → IQPTree.NNIMove → σ)
    (L : List IQPTree.NNIMove) (k : Nat) (hk : k ≤ L.length) (t : σ) :
    (List.range k).foldlM (fun acc i => (L.get? i).map (applyMove acc)) t =
      some ((L.take k).foldl applyMove t) := by
  induction k with
  | zero => rfl
  | succ k ih =>
    rw [List.range_succ, List.foldlM_append, ih (by omega)]
    have hlt : k < L.length := by omega
    have e : L.take (k + 1) = L.take k ++ [L[k]] := by
      rw [List.take_succ, List.getElem?_eq_getElem hlt]
      rfl
    rw [e, List.foldl_append]
    simp only [Option.some_bind, List.foldlM_cons, List.foldlM_nil, List.get?_eq_getElem?,
      List.getElem?_eq_getElem hlt, Option.map_some', List.foldl_cons, List.foldl_nil]
    rfl

/-- C21, the claim as written, fails: the three moves of `exampleDisjointMoves` have no
common end, so the non-conflict set has the size `K = 3`; with `lamda = 3/4` the loop
applies `(int)(3 * 0.75) = 2` moves, the first two, while `⌈0.75 · 3⌉ = 3`. -/
theorem nbNNIToApply_truncates :
    IQPTree.nonConflictMoves IQPTree.exampleDisjointMoves = IQPTree.exampleDisjointMoves ∧
    IQPTree.exampleDisjointMoves.length = 3 ∧
    (IQPTree.nbNNIToApply 3 (3 / 4)).2.1 = 2 ∧
    Int.ceil ((3 / 4 : ℚ) * 3) = 3 ∧
    IQPTree.applyNNIs (fun (acc : List IQPTree.NNIMove) m => acc ++ [m])
        IQPTree.exampleDisjointMoves (IQPTree.nbNNIToApply 3 (3 / 4)).2.1 [] =
      some [⟨1, 7, 2, 8, 5⟩, ⟨3, 9, 4, 10, 4⟩] := by
  decide!

theorem nbNNIToApply_eq (size : Nat) (lamda : ℚ) (h0 : 0 ≤ lamda) :
    (IQPTree.nbNNIToApply size lamda).2.1 = max 1 (Int.floor ((size : ℚ) * lamda)) ∧
    (IQPTree.nbNNIToApply size lamda).2.2 =
      if Int.floor ((size : ℚ) * lamda) < 1 then 0 else lamda := by
  have hx : 0 ≤ (size : ℚ) * lamda := mul_nonneg (Nat.cast_nonneg _) h0
  unfold IQPTree.nbNNIToApply
  simp only [truncToInt_nonneg _ hx]
  by_cases h : Int.floor ((size : ℚ) * lamda) < 1
  · rw [if_pos h, if_pos h]
    exact ⟨(max_eq_left (show Int.floor ((size : ℚ) * lamda) ≤ 1 by omega)).symm, rfl⟩
  · rw [if_neg h, if_neg h]
    exact ⟨(max_eq_right (show 1 ≤ Int.floor ((size : ℚ) * lamda) by omega)).symm, rfl⟩

theorem nbNNIToApply_le (size : Nat) (lamda : ℚ) (hK : 1 ≤ size) (h0 : 0 ≤ lamda)
    (h1 : lamda ≤ 1) :
    1 ≤ (IQPTree.nbNNIToApply size lamda).2.1 ∧
    ((IQPTree.nbNNIToApply size lamda).2.1).toNat ≤ size := by
  rw [(nbNNIToApply_eq size lamda h0).1]
  have hfl : Int.floor ((size : ℚ) * lamda) ≤ (size : Int) := by
    have : (size : ℚ) * lamda ≤ ((size : Int) : ℚ) := by
      have h2 : (size : ℚ) * lamda ≤ (size : ℚ) * 1 :=
        mul_le_mul_of_nonneg_left h1 (Nat.cast_nonneg _)
      rw [mul_one] at h2
      exact_mod_cast h2
    exact (Int.floor_le_floor this).trans (le_of_eq (Int.floor_intCast _))
  refine ⟨le_max_left _ _, ?_⟩
  have : max 1 (Int.floor ((size : ℚ) * lamda)) ≤ (size : Int) := max_le (by omega) hfl
  omega

/-- C21, as amended: in a turn of fast ML-NNI with a non-conflict set of size `K ≥ 1`
and `0 ≤ lamda ≤ 1`, the number of moves applied, `nbNNIToApply`, is `⌊lamda · K⌋`,
raised to 1 when that is 0; it is at most `K`, and the moves applied are the first
`nbNNIToApply` moves of the non-conflict set, in their order. -/
theorem nbNNIToApply_spec {σ : Type} (applyMove : σ → IQPTree.NNIMove → σ)
    (nonConflictMoves : List IQPTree.NNIMove) (lamda : ℚ) (t : σ)
    (hK : 1 ≤ nonConflictMoves.length) (h0 : 0 ≤ lamda) (h1 : lamda ≤ 1) :
    (IQPTree.nbNNIToApply nonConflictMoves.length lamda).2.1 =
      max 1 (Int.floor ((nonConflictMoves.length : ℚ) * lamda)) ∧
    ((IQPTree.nbNNIToApply nonConflictMoves.length lamda).2.1).toNat ≤
      nonConflictMoves.length ∧
    IQPTree.applyNNIs applyMove nonConflictMoves
        (IQPTree.nbNNIToApply nonConflictMoves.length lamda).2.1 t =
      some ((nonConflictMoves.take
        ((IQPTree.nbNNIToApply nonConflictMoves.length lamda).2.1).toNat).foldl applyMove t) := by
  obtain ⟨_, hle⟩ := nbNNIToApply_le nonConflictMoves.length lamda hK h0 h1
  exact ⟨(nbNNIToApply_eq _ lamda h0).1, hle, applyNNIs_take applyMove _ _ hle t⟩

theorem nbNNIToApply_spec_witness :
    (IQPTree.nbNNIToApply IQPTree.exampleDisjointMoves.length (3 / 4)).2.1 =
      max 1 (Int.floor ((IQPTree.exampleDisjointMoves.length : ℚ) * (3 / 4))) ∧
    ((IQPTree.nbNNIToApply IQPTree.exampleDisjointMoves.length (3 / 4)).2.1).toNat ≤
      IQPTree.exampleDisjointMoves.length ∧
    IQPTree.applyNNIs (fun (acc : List IQPTree.NNIMove) m => acc ++ [m])
        IQPTree.exampleDisjointMoves
        (IQPTree.nbNNIToApply IQPTree.exampleDisjointMoves.length (3 / 4)).2.1 [] =
      some ((IQPTree.exampleDisjointMoves.take
        ((IQPTree.nbNNIToApply IQPTree.exampleDisjointMoves.length (3 / 4)).2.1).toNat).foldl
          (fun (acc : List IQPTree.NNIMove) m => acc ++ [m]) []) :=
  nbNNIToApply_spec (fun (acc : List IQPTree.NNIMove) m => acc ++ [m])
    IQPTree.exampleDisjointMoves (3 / 4) [] (by decide) (by norm_num) (by norm_num)

/-- C22, the claim as written, fails: in the first turn with a single candidate move,
`(int)(1 * 0.75) = 0` is below 1, so the code sets `lamda = 0`; after the turn is
rejected, `lamda` is `0 / 2 = 0`, which is not in `(0, 1]`. -/
theorem optimizeNNI_lamda_zero :
    (IQPTree.optimizeNNILoop (fun (t : Unit) _ => t) [⟨[⟨1, 7, 2, 8, 5⟩], true⟩]
      IQPTree.optimizeNNIInit ()).map (fun r => r.1.lamda) = some 0 ∧
    (IQPTree.nbNNIToApply 1 (3 / 4)).2.2 = 0 := by
  decide!

/-- One turn of the loop from a state with `0 ≤ lamda ≤ 3/4`. -/
theorem optimizeNNIIter_spec {σ : Type} (applyMove : σ → IQPTree.NNIMove → σ)
    (st : IQPTree.NNILoopState) (t : σ) (inp : IQPTree.NNIIterInput)
    (h0 : 0 ≤ st.lamda) (h1 : st.lamda ≤ 3 / 4) :
    IQPTree.optimizeNNIIter applyMove st t inp = IQPTree.NNIStep.stop ∨
    ∃ st1 t1, IQPTree.optimizeNNIIter applyMove st t inp = IQPTree.NNIStep.next st1 t1 ∧
      st1.resetLamda = !inp.worse ∧
      st1.lamda =
        (if Int.floor (((IQPTree.nonConflictMoves inp.possibleNNIMoves).length : ℚ) *
            (if st.resetLamda then 3 / 4 else st.lamda)) < 1 then 0
          else (if st.resetLamda then 3 / 4 else st.lamda)) /
        (if inp.worse then 2 else 1) ∧
      0 ≤ st1.lamda ∧ st1.lamda ≤ 3 / 4 := by
  have hc0 : (0 : ℚ) ≤ (if st.resetLamda then 3 / 4 else st.lamda) := by
    split_ifs
    · norm_num
    · exact h0
  have hc1 : (if st.resetLamda then 3 / 4 else st.lamda) ≤ (3 / 4 : ℚ) := by
    split_ifs
    · exact le_refl _
    · exact h1
  generalize hcur : (if st.resetLamda then (3 / 4 : ℚ) else st.lamda) = cur at hc0 hc1
  unfold IQPTree.optimizeNNIIter
  simp only [hcur]
  by_cases hp : inp.possibleNNIMoves.length = 0
  · rw [if_pos hp]
    exact Or.inl rfl
  rw [if_neg hp]
  by_cases hK : (IQPTree.nonConflictMoves inp.possibleNNIMoves).length = 0
  · rw [if_pos hK]
    exact Or.inl rfl
  rw [if_neg hK]
  right
  obtain ⟨e1, e2⟩ := nbNNIToApply_eq (IQPTree.nonConflictMoves inp.possibleNNIMoves).length
    cur hc0
  obtain ⟨_, hle⟩ := nbNNIToApply_le (IQPTree.nonConflictMoves inp.possibleNNIMoves).length
    cur (by omega) hc0 (by linarith)
  have happ := applyNNIs_take applyMove (IQPTree.nonConflictMoves inp.possibleNNIMoves) _ hle t
  unfold IQPTree.applyNNIs
  rw [happ]
  simp only
  have hl0 : (0 : ℚ) ≤ (IQPTree.nbNNIToApply
      (IQPTree.nonConflictMoves inp.possibleNNIMoves).length cur).2.2 := by
    rw [e2]
    split_ifs
    · exact le_refl _
    · exact hc0
  have hl1 : (IQPTree.nbNNIToApply
      (IQPTree.nonConflictMoves inp.possibleNNIMoves).length cur).2.2 ≤ 3 / 4 := by
    rw [e2]
    split_ifs
    · norm_num
    · exact hc1
  cases hw : inp.worse
  · refine ⟨_, _, rfl, rfl, ?_, hl0, hl1⟩
    simp only [Bool.false_eq_true, if_false, div_one]
    exact e2
  · refine ⟨_, _, rfl, rfl, ?_, ?_, ?_⟩
    · simp only [if_true]
      rw [← e2]
    · exact div_nonneg hl0 (by norm_num)
    · show _ / 2 ≤ _
      linarith

/-- C22, as amended: from the start of `IQPTree::optimizeNNI`, with `lamda = 0.75`,
the loop ends every sequence of turns without an exception, and `lamda` stays in the
interval from 0 to 0.75, both included; in a turn that does not end with `break`,
`lamda` is first 0.75 when the turn before was accepted, then set to 0 when
`(int)(K * lamda)` is below 1 for the size `K` of the non-conflict set, and halved when
the turn is rejected. The value 0 is reached; no value below 0 or above 1 is. -/
theorem optimizeNNI_lamda_range {σ : Type} (applyMove : σ → IQPTree.NNIMove → σ)
    (inputs : List IQPTree.NNIIterInput) (t : σ) :
    IQPTree.optimizeNNIInit.lamda = 3 / 4 ∧
    (∃ st1 t1, IQPTree.optimizeNNILoop applyMove inputs IQPTree.optimizeNNIInit t =
        some (st1, t1) ∧ 0 ≤ st1.lamda ∧ st1.lamda ≤ 3 / 4) ∧
    ∀ (st : IQPTree.NNILoopState) (t0 : σ) (inp : IQPTree.NNIIterInput),
      0 ≤ st.lamda → st.lamda ≤ 3 / 4 →
      IQPTree.optimizeNNIIter applyMove st t0 inp = IQPTree.NNIStep.stop ∨
      ∃ st1 t1, IQPTree.optimizeNNIIter applyMove st t0 inp = IQPTree.NNIStep.next st1 t1 ∧
        st1.resetLamda = !inp.worse ∧
        st1.lamda =
          (if Int.floor (((IQPTree.nonConflictMoves inp.possibleNNIMoves).length : ℚ) *
              (if st.resetLamda then 3 / 4 else st.lamda)) < 1 then 0
            else (if st.resetLamda then 3 / 4 else st.lamda)) /
          (if inp.worse then 2 else 1) ∧
        0 ≤ st1.lamda ∧ st1.lamda ≤ 3 / 4 := by
  refine ⟨rfl, ?_, fun st t0 inp h0 h1 => optimizeNNIIter_spec applyMove st t0 inp h0 h1⟩
  have key : ∀ (inputs : List IQPTree.NNIIterInput) (st : IQPTree.NNILoopState) (t : σ),
      0 ≤ st.lamda → st.lamda ≤ 3 / 4 →
      ∃ st1 t1, IQPTree.optimizeNNILoop applyMove inputs st t = some (st1, t1) ∧
        0 ≤ st1.lamda ∧ st1.lamda ≤ 3 / 4 := by
    intro inputs
    induction inputs with
    | nil => exact fun st t h0 h1 => ⟨st, t, rfl, h0, h1⟩
    | cons inp rest ih =>
      intro st t h0 h1
      rcases optimizeNNIIter_spec applyMove st t inp h0 h1 with hs | ⟨st1, t1, hs, _, _, g0, g1⟩
      · exact ⟨st, t, by simp only [IQPTree.optimizeNNILoop, hs], h0, h1⟩
      · obtain ⟨st2, t2, hl, k0, k1⟩ := ih st1 t1 g0 g1
        exact ⟨st2, t2, by simp only [IQPTree.optimizeNNILoop, hs, hl], k0, k1⟩
  exact key inputs IQPTree.optimizeNNIInit t (by norm_num [IQPTree.optimizeNNIInit])
    (by norm_num [IQPTree.optimizeNNIInit])

theorem tree_ext (t t1 : Tree) (hlen : t1.nodes.length = t.nodes.length)
    (hid : ∀ n, t1.nodeId n = t.nodeId n) (hnb : ∀ n, t1.neighbors n = t.neighbors n) :
    t1 = t := by
  cases t with
  | mk ns =>
  cases t1 with
  | mk ns1 =>
  simp only at hlen
  congr 1
  apply List.ext_getElem hlen
  intro n h1 h2
  have e1 := hid n
  have e2 := hnb n
  unfold Tree.nodeId at e1
  unfold Tree.neighbors at e2
  simp only [List.get?_eq_getElem?, List.getElem?_eq_getElem h1,
    List.getElem?_eq_getElem h2] at e1 e2
  cases hx : ns1[n] with
  | mk i1 l1 =>
  cases hy : ns[n] with
  | mk i2 l2 =>
  rw [hx, hy] at e1 e2
  simp only at e1 e2
  rw [e1, e2]

theorem findNeighborIt_eq_some (ns : List Neighbor) (x k : Nat) :
    findNeighborIt ns x = some k ↔
      ∃ e, ns[k]? = some e ∧ e.node = x ∧ ∀ j e1, j < k → ns[j]? = some e1 → e1.node ≠ x := by
  unfold findNeighborIt
  rw [List.findIdx?_eq_some_iff_getElem]
  constructor
  · rintro ⟨hlt, hx, hj⟩
    refine ⟨ns[k], by simp [hlt], by simpa using hx, ?_⟩
    intro j e1 hjk he1
    have hjl : j < ns.length := by omega
    rw [List.getElem?_eq_getElem hjl] at he1
    cases he1
    simpa using hj j hjk
  · rintro ⟨e, he, hx, hj⟩
    obtain ⟨hlt, rfl⟩ := List.getElem?_eq_some.1 he
    refine ⟨hlt, by simpa using hx, ?_⟩
    intro j hjk
    have hjl : j < ns.length := by omega
    simpa using hj j ns[j] hjk (by simp [hjl])

/-- The first slot that points to `x`, when the nodes pointed to are distinct, is the
slot that points to `x`. -/
theorem findNeighborIt_of_mem (ns : List Neighbor) (x : Nat) (h : x ∈ ns.map (·.node)) :
    ∃ k, findNeighborIt ns x = some k := by
  unfold findNeighborIt
  obtain ⟨e, he, hx⟩ := List.mem_map.1 h
  cases hf : ns.findIdx? (fun nei => nei.node == x) with
  | some k => exact ⟨k, rfl⟩
  | none =>
    rw [List.findIdx?_eq_none_iff] at hf
    have := hf e he
    simp [hx] at this

/-- A half-edge is made to point to a node that the vector does not point to yet, and
then back: the slot found is the same, and the vector is as it was when the length is
put back too. -/
theorem modify_back (ns : List Neighbor) (x y k : Nat) (f g : Neighbor → Neighbor)
    (hk : findNeighborIt ns x = some k) (hy : y ∉ ns.map (·.node))
    (hf : ∀ nei, (f nei).node = y)
    (hg : ∀ nei, ns[k]? = some nei → nei.node = x → g (f nei) = nei) :
    findNeighborIt (ns.modify f k) y = some k ∧ (ns.modify f k).modify g k = ns := by
  obtain ⟨e, he, hx, hj⟩ := (findNeighborIt_eq_some ns x k).1 hk
  constructor
  · rw [findNeighborIt_eq_some]
    refine ⟨f e, by simp [List.getElem?_modify, he], hf e, ?_⟩
    intro j e1 hjk he1
    have hne : ¬k = j := by omega
    rw [List.getElem?_modify] at he1
    simp only [hne, if_false, Option.map_eq_map, Option.map_eq_some', exists_eq_right] at he1
    intro hh
    exact hy (List.mem_map.2 ⟨e1, List.getElem?_mem he1, hh⟩)
  · rw [modify_modify]
    apply List.ext_getElem?
    intro j
    rw [List.getElem?_modify]
    by_cases hjk : k = j
    · subst hjk
      rw [he]
      simp only [if_true, Option.map_eq_map, Option.map_some', Function.comp_apply,
        Option.some.injEq]
      exact hg e he hx
    · simp only [hjk, if_false, Option.map_eq_map, Option.map_id_fun', id_eq]

theorem links_modify (ns : List Neighbor) (x y k : Nat) (f : Neighbor → Neighbor)
    (hk : findNeighborIt ns x = some k) (hnd : (ns.map (·.node)).Nodup)
    (hf : ∀ nei, (f nei).node = y) :
    (ns.modify f k).map (·.node) = (ns.map (·.node)).map (fun z => if z = x then y else z) := by
  obtain ⟨e, he, hx, _⟩ := (findNeighborIt_eq_some ns x k).1 hk
  apply List.ext_getElem?
  intro j
  simp only [List.getElem?_map, List.getElem?_modify]
  by_cases hjk : k = j
  · subst hjk
    rw [he]
    simp [hf, hx]
  · simp only [hjk, if_false]
    cases hj : ns[j]? with
    | none => rfl
    | some e1 =>
      simp only [Option.map_eq_map, Option.map_some', id_eq, Option.some.injEq]
      have : e1.node ≠ x := by
        intro hh
        apply hjk
        have hkl := (List.getElem?_eq_some.1 he).1
        have hjl := (List.getElem?_eq_some.1 hj).1
        have h1 : (ns.map (·.node))[k]? = some x := by simp [he, hx]
        have h2 : (ns.map (·.node))[j]? = some x := by simp [hj, hh]
        have hkl1 : k < (ns.map (·.node)).length := by simpa using hkl
        have hjl1 : j < (ns.map (·.node)).length := by simpa using hjl
        rw [List.getElem?_eq_getElem hkl1] at h1
        rw [List.getElem?_eq_getElem hjl1] at h2
        have := (List.Nodup.getElem_inj_iff hnd).1 (by
          rw [Option.some.inj h1, Option.some.inj h2] : (ns.map (·.node))[k] = (ns.map (·.node))[j])
        exact this
      rw [if_neg this]

theorem updateNeighbor_view (t : Tree) (n x y k : Nat)
    (hk : findNeighborIt (t.neighbors n) x = some k) :
    ∃ t1, t.updateNeighbor n x y = some t1 ∧
      t1.neighbors = Function.update t.neighbors n
        ((t.neighbors n).modify (fun nei => { nei with node := y }) k) ∧
      t1.nodes.length = t.nodes.length ∧ ∀ m, t1.nodeId m = t.nodeId m := by
  have hn := lt_of_find_neighbors t n x k hk
  exact ⟨_, updateNeighbor_eq t n x y k hk, (setNeighbors_view t n _ hn).1,
    (setNeighbors_view t n _ hn).2, fun m => nodeId_setNeighbors _ _ _ _⟩

theorem updateNeighborLength_view2 (t : Tree) (n x y k : Nat) (l : ℚ)
    (hk : findNeighborIt (t.neighbors n) x = some k) :
    ∃ t1, t.updateNeighborLength n x y l = some t1 ∧
      t1.neighbors = Function.update t.neighbors n
        ((t.neighbors n).modify (fun nei => { nei with node := y, length := l }) k) ∧
      t1.nodes.length = t.nodes.length ∧ ∀ m, t1.nodeId m = t.nodeId m := by
  have hn := lt_of_find_neighbors t n x k hk
  exact ⟨_, updateNeighborLength_eq t n x y k l hk, (setNeighbors_view t n _ hn).1,
    (setNeighbors_view t n _ hn).2, fun m => nodeId_setNeighbors _ _ _ _⟩

theorem updateNeighbor_step (t : Tree) (n x y : Nat) (hx : x ∈ t.links n) :
    ∃ t1 k, findNeighborIt (t.neighbors n) x = some k ∧ t.updateNeighbor n x y = some t1 ∧
      t1.neighbors = Function.update t.neighbors n
        ((t.neighbors n).modify (fun nei => { nei with node := y }) k) ∧
      t1.nodes.length = t.nodes.length ∧ ∀ m, t1.nodeId m = t.nodeId m := by
  obtain ⟨k, hk⟩ := findNeighborIt_of_mem (t.neighbors n) x hx
  obtain ⟨t1, h1, h2, h3, h4⟩ := updateNeighbor_view t n x y k hk
  exact ⟨t1, k, hk, h1, h2, h3, h4⟩

theorem updateNeighbor_back (t : Tree) (n x y k : Nat) (ns0 : List Neighbor)
    (hk : findNeighborIt ns0 x = some k) (hy : y ∉ ns0.map (·.node))
    (hcur : t.neighbors n = ns0.modify (fun nei => { nei with node := y }) k) :
    ∃ t1, t.updateNeighbor n y x = some t1 ∧
      t1.neighbors = Function.update t.neighbors n ns0 ∧
      t1.nodes.length = t.nodes.length ∧ ∀ m, t1.nodeId m = t.nodeId m := by
  obtain ⟨hf, hb⟩ := modify_back ns0 x y k (fun nei => { nei with node := y })
    (fun nei => { nei with node := x }) hk hy (fun _ => rfl) (fun nei _ hx => by
      cases nei
      simp only at hx
      simp only [hx])
  rw [← hcur] at hf hb
  obtain ⟨t1, h1, h2, h3, h4⟩ := updateNeighbor_view t n y x k hf
  rw [hb] at h2
  exact ⟨t1, h1, h2, h3, h4⟩

theorem map_length_modify_node (ns : List Neighbor) (y k : Nat) :
    (ns.modify (fun nei => { nei with node := y }) k).map (·.length) = ns.map (·.length) := by
  apply List.ext_getElem?
  intro j
  simp only [List.getElem?_map, List.getElem?_modify]
  cases ns[j]? with
  | none => rfl
  | some e =>
    by_cases h : k = j
    · simp [h]
    · simp [h]

/-- The exchange of `swapNNI` and the exchange back, for two neighbors `a` of `n1` and
`c` of `n2` across a branch between `n1` and `n2` that is in no triangle. -/
theorem swapNNIDo_spec (t : Tree) (n1 a n2 c : Nat)
    (hnd : ∀ u, (t.links u).Nodup)
    (h1 : a ∈ t.links n1) (h2 : n1 ∈ t.links a) (h3 : c ∈ t.links n2) (h4 : n2 ∈ t.links c)
    (g1 : c ∉ t.links n1) (g2 : n2 ∉ t.links a) (g3 : a ∉ t.links n2) (g4 : n1 ∉ t.links c)
    (d1 : n1 ≠ a) (d2 : n1 ≠ n2) (d3 : n1 ≠ c) (d4 : a ≠ n2) (d5 : a ≠ c) (d6 : n2 ≠ c) :
    ∃ t1, swapNNIDo t n1 a n2 c = some t1 ∧ swapNNIUndo t1 n1 a n2 c = some t ∧
      t.SwappedNNI t1 n1 a n2 c := by
  obtain ⟨s1, k1, f1, e1, v1, l1, i1⟩ := updateNeighbor_step t n1 a c h1
  have q2 : n1 ∈ s1.links a := by
    unfold Tree.links
    rw [v1, Function.update_noteq (Ne.symm d1)]
    exact h2
  obtain ⟨s2, k2, f2, e2, v2, l2, i2⟩ := updateNeighbor_step s1 a n1 n2 q2
  have q3 : c ∈ s2.links n2 := by
    unfold Tree.links
    rw [v2, Function.update_noteq (Ne.symm d4), v1, Function.update_noteq (Ne.symm d2)]
    exact h3
  obtain ⟨s3, k3, f3, e3, v3, l3, i3⟩ := updateNeighbor_step s2 n2 c a q3
  have q4 : n2 ∈ s3.links c := by
    unfold Tree.links
    rw [v3, Function.update_noteq (Ne.symm d6), v2, Function.update_noteq (Ne.symm d5), v1,
      Function.update_noteq (Ne.symm d3)]
    exact h4
  obtain ⟨s4, k4, f4, e4, v4, l4, i4⟩ := updateNeighbor_step s3 c n2 n1 q4
  -- the vectors of the four nodes before their own update
  have a1 : s1.neighbors a = t.neighbors a := by
    rw [v1, Function.update_noteq (Ne.symm d1)]
  have a2 : s2.neighbors n2 = t.neighbors n2 := by
    rw [v2, Function.update_noteq (Ne.symm d4), v1, Function.update_noteq (Ne.symm d2)]
  have a3 : s3.neighbors c = t.neighbors c := by
    rw [v3, Function.update_noteq (Ne.symm d6), v2, Function.update_noteq (Ne.symm d5), v1,
      Function.update_noteq (Ne.symm d3)]
  rw [a1] at f2 v2
  rw [a2] at f3 v3
  rw [a3] at f4 v4
  -- the vectors of the four nodes after the exchange
  have b1 : s4.neighbors n1 = (t.neighbors n1).modify (fun nei => { nei with node := c }) k1 := by
    rw [v4, Function.update_noteq d3, v3, Function.update_noteq d2, v2,
      Function.update_noteq d1, v1, Function.update_same]
  have b2 : s4.neighbors a = (t.neighbors a).modify (fun nei => { nei with node := n2 }) k2 := by
    rw [v4, Function.update_noteq d5, v3, Function.update_noteq d4, v2, Function.update_same]
  have b3 : s4.neighbors n2 = (t.neighbors n2).modify (fun nei => { nei with node := a }) k3 := by
    rw [v4, Function.update_noteq d6, v3, Function.update_same]
  have b4 : s4.neighbors c = (t.neighbors c).modify (fun nei => { nei with node := n1 }) k4 := by
    rw [v4, Function.update_same]
  have b5 : ∀ m, m ≠ n1 → m ≠ a → m ≠ n2 → m ≠ c → s4.neighbors m = t.neighbors m := by
    intro m m1 m2 m3 m4
    rw [v4, Function.update_noteq m4, v3, Function.update_noteq m3, v2,
      Function.update_noteq m2, v1, Function.update_noteq m1]
  -- the exchange back
  obtain ⟨r1, x1, w1, p1, j1⟩ := updateNeighbor_back s4 n1 a c k1 (t.neighbors n1) f1 g1 b1
  have c2 : r1.neighbors a = (t.neighbors a).modify (fun nei => { nei with node := n2 }) k2 := by
    rw [w1, Function.update_noteq (Ne.symm d1), b2]
  obtain ⟨r2, x2, w2, p2, j2⟩ := updateNeighbor_back r1 a n1 n2 k2 (t.neighbors a) f2 g2 c2
  have c3 : r2.neighbors n2 = (t.neighbors n2).modify (fun nei => { nei with node := a }) k3 := by
    rw [w2, Function.update_noteq (Ne.symm d4), w1, Function.update_noteq (Ne.symm d2), b3]
  obtain ⟨r3, x3, w3, p3, j3⟩ := updateNeighbor_back r2 n2 c a k3 (t.neighbors n2) f3 g3 c3
  have c4 : r3.neighbors c = (t.neighbors c).modify (fun nei => { nei with node := n1 }) k4 := by
    rw [w3, Function.update_noteq (Ne.symm d6), w2, Function.update_noteq (Ne.symm d5), w1,
      Function.update_noteq (Ne.symm d3), b4]
  obtain ⟨r4, x4, w4, p4, j4⟩ := updateNeighbor_back r3 c n2 n1 k4 (t.neighbors c) f4 g4 c4
  have hback : r4 = t := by
    apply tree_ext
    · rw [p4, p3, p2, p1, l4, l3, l2, l1]
    · intro m
      rw [j4, j3, j2, j1, i4, i3, i2, i1]
    · intro m
      rw [w4, w3, w2, w1]
      by_cases m4 : m = c
      · rw [m4, Function.update_same]
      rw [Function.update_noteq m4]
      by_cases m3 : m = n2
      · rw [m3, Function.update_same]
      rw [Function.update_noteq m3]
      by_cases m2 : m = a
      · rw [m2, Function.update_same]
      rw [Function.update_noteq m2]
      by_cases m1 : m = n1
      · rw [m1, Function.update_same]
      rw [Function.update_noteq m1]
      exact b5 m m1 m2 m3 m4
  refine ⟨s4, ?_, ?_, ?_⟩
  · unfold swapNNIDo
    rw [e1, Option.some_bind, e2, Option.some_bind, e3, Option.some_bind, e4]
  · unfold swapNNIUndo
    rw [x1, Option.some_bind, x2, Option.some_bind, x3, Option.some_bind, x4, hback]
  · refine ⟨by rw [l4, l3, l2, l1], fun m => by rw [i4, i3, i2, i1], ?_, ?_, ?_, ?_, ?_, ?_⟩
    · intro m
      by_cases m4 : m = c
      · rw [m4, b4, map_length_modify_node]
      by_cases m3 : m = n2
      · rw [m3, b3, map_length_modify_node]
      by_cases m2 : m = a
      · rw [m2, b2, map_length_modify_node]
      by_cases m1 : m = n1
      · rw [m1, b1, map_length_modify_node]
      rw [b5 m m1 m2 m3 m4]
    · unfold Tree.links
      rw [b1]
      exact links_modify _ a c k1 _ f1 (hnd n1) (fun _ => rfl)
    · unfold Tree.links
      rw [b2]
      exact links_modify _ n1 n2 k2 _ f2 (hnd a) (fun _ => rfl)
    · unfold Tree.links
      rw [b3]
      exact links_modify _ c a k3 _ f3 (hnd n2) (fun _ => rfl)
    · unfold Tree.links
      rw [b4]
      exact links_modify _ n2 n1 k4 _ f4 (hnd c) (fun _ => rfl)
    · intro m m1 m2 m3 m4
      unfold Tree.links
      rw [b5 m m1 m2 m3 m4]

theorem swapNNILoop_spec (score : Tree → Option Int) (cur_score : ℚ) (t : Tree)
    (n1 a n2 : Nat)
    (hstep : ∀ c, c ∈ t.links n2 → c ≠ n1 →
      ∃ t1, swapNNIDo t n1 a n2 c = some t1 ∧ swapNNIUndo t1 n1 a n2 c = some t)
    (fuel i : Nat) (hf : (t.neighbors n2).length + 1 ≤ fuel + i)
    (hi : i ≤ (t.neighbors n2).length) :
    swapNNILoop score cur_score n1 n2 a fuel i t =
      swapNNISpec score cur_score t n1 a n2 (((t.links n2).drop i).filter (fun x => x != n1)) := by
  induction fuel generalizing i with
  | zero => omega
  | succ fuel ih =>
    unfold swapNNILoop
    by_cases hlt : i < (t.neighbors n2).length
    · have hget : (t.neighbors n2).get? i = some ((t.neighbors n2)[i]) := by
        rw [List.get?_eq_getElem?, List.getElem?_eq_getElem hlt]
      have hdrop : (t.links n2).drop i = (t.neighbors n2)[i].node :: (t.links n2).drop (i + 1) := by
        unfold Tree.links
        rw [← List.map_drop, List.drop_eq_getElem_cons hlt, List.map_cons, List.map_drop]
      rw [hget, hdrop]
      simp only
      by_cases hn : (t.neighbors n2)[i].node = n1
      · rw [if_pos hn, List.filter_cons_of_neg (by simp [hn])]
        exact ih (i + 1) (by omega) (by omega)
      · rw [if_neg hn, List.filter_cons_of_pos (by simpa using hn)]
        have hmem : (t.neighbors n2)[i].node ∈ t.links n2 := by
          unfold Tree.links
          exact List.mem_map.2 ⟨_, List.getElem_mem hlt, rfl⟩
        obtain ⟨t1, hdo, hundo⟩ := hstep _ hmem hn
        simp only [swapNNISpec]
        rw [hdo, Option.some_bind, Option.some_bind]
        cases hs : score t1 with
        | none => rfl
        | some s =>
          simp only [Option.some_bind]
          by_cases hlt2 : (s : ℚ) < cur_score
          · rw [if_pos hlt2, if_pos hlt2]
          · rw [if_neg hlt2, if_neg hlt2, hundo, Option.some_bind]
            exact ih (i + 1) (by omega) (by omega)
    · have hget : (t.neighbors n2).get? i = none := by
        rw [List.get?_eq_getElem?, List.getElem?_eq_none (by omega)]
      rw [hget, List.drop_eq_nil_of_le (by rw [length_links]; omega)]
      rfl

theorem find_filter_head (ns : List Neighbor) (x a b : Nat)
    (h : (ns.map (·.node)).filter (fun c => c != x) = [a, b]) :
    ∃ it1, ns.find? (fun it1 => it1.node != x) = some it1 ∧ it1.node = a := by
  induction ns with
  | nil => simp at h
  | cons e es ih =>
    simp only [List.map_cons, List.filter_cons] at h
    by_cases he : e.node = x
    · have hb : (e.node != x) = false := by simp [he]
      rw [hb] at h
      simp only [Bool.false_eq_true, if_false] at h
      obtain ⟨it1, h1, h2⟩ := ih h
      exact ⟨it1, by rw [List.find?_cons, hb]; exact h1, h2⟩
    · have hb : (e.node != x) = true := by simp [he]
      rw [hb] at h
      simp only [if_true, List.cons.injEq] at h
      exact ⟨e, by rw [List.find?_cons, hb], h.1⟩

/-- The result of parsimony `swapNNI` on a branch between two internal nodes of a binary
tree, from the two exchanges that it tries. -/
theorem swapNNI_view (score : Tree → Option Int) (cur_score : ℚ) (t : Tree)
    (node1 node2 : Nat) (hT : t.IsBinaryTree) (hadj : node2 ∈ t.links node1)
    (h1 : (t.neighbors node1).length = 3) (h2 : (t.neighbors node2).length = 3) :
    ∃ a b c d t1 t2,
      (t.links node1).filter (fun x => x != node2) = [a, b] ∧
      (t.links node2).filter (fun x => x != node1) = [c, d] ∧
      swapNNIDo t node1 a node2 c = some t1 ∧ t.SwappedNNI t1 node1 a node2 c ∧
      swapNNIDo t node1 a node2 d = some t2 ∧ t.SwappedNNI t2 node1 a node2 d ∧
      swapNNI score cur_score t node1 node2 =
        (score t1).bind fun s1 =>
          if (s1 : ℚ) < cur_score then some ((s1 : ℚ), t1)
          else (score t2).bind fun s2 =>
            if (s2 : ℚ) < cur_score then some ((s2 : ℚ), t2) else some (cur_score, t) := by
  obtain ⟨hsym, hnd, hloop, _, hacyc, _⟩ := hT
  have hadj2 : node1 ∈ t.links node2 := hsym _ _ hadj
  have hl1 : (t.links node1).length = 3 := by rw [length_links, h1]
  have hl2 : (t.links node2).length = 3 := by rw [length_links, h2]
  obtain ⟨a, b, fa, _, ha2, _, ma⟩ := three_filter (t.links node1) node2 hl1 (hnd node1) hadj
  obtain ⟨c, d, fc, _, hc1, hd1, mc⟩ := three_filter (t.links node2) node1 hl2 (hnd node2) hadj2
  have adj : ∀ u v, v ∈ t.links u → t.graph.Adj u v := fun u v h =>
    (graph_adj t hsym hloop u v).2 h
  have ha : a ∈ t.links node1 := (ma a).2 (Or.inr (Or.inl rfl))
  have h12 : node1 ≠ node2 := fun e => hloop node1 (e ▸ hadj)
  have h1a : node1 ≠ a := fun e => hloop node1 (by rw [← e] at ha; exact ha)
  have key : ∀ x, x ∈ t.links node2 → x ≠ node1 →
      ∃ t1, swapNNIDo t node1 a node2 x = some t1 ∧ swapNNIUndo t1 node1 a node2 x = some t ∧
        t.SwappedNNI t1 node1 a node2 x := by
    intro x hx hx1
    have h2x : node2 ≠ x := fun e => hloop node2 (by rw [← e] at hx; exact hx)
    apply swapNNIDo_spec t node1 a node2 x hnd ha (hsym _ _ ha) hx (hsym _ _ hx)
    · intro h
      exact no_triangle _ hacyc node1 node2 x (adj _ _ hadj) (adj _ _ hx) (adj _ _ h)
    · intro h
      exact no_triangle _ hacyc a node1 node2 (adj _ _ (hsym _ _ ha)) (adj _ _ hadj) (adj _ _ h)
    · intro h
      exact no_triangle _ hacyc node2 node1 a (adj _ _ hadj2) (adj _ _ ha) (adj _ _ h)
    · intro h
      exact no_triangle _ hacyc x node2 node1 (adj _ _ (hsym _ _ hx)) (adj _ _ hadj2) (adj _ _ h)
    · exact h1a
    · exact h12
    · exact fun e => hx1 e.symm
    · exact ha2
    · intro e
      rw [← e] at hx
      exact no_triangle _ hacyc node2 node1 a (adj _ _ hadj2) (adj _ _ ha) (adj _ _ hx)
    · exact h2x
  obtain ⟨t1, hdo1, hun1, hsw1⟩ := key c ((mc c).2 (Or.inr (Or.inl rfl))) hc1
  obtain ⟨t2, hdo2, hun2, hsw2⟩ := key d ((mc d).2 (Or.inr (Or.inr rfl))) hd1
  refine ⟨a, b, c, d, t1, t2, fa, fc, hdo1, hsw1, hdo2, hsw2, ?_⟩
  obtain ⟨it1, hfind, hit1⟩ := find_filter_head (t.neighbors node1) node2 a b fa
  unfold swapNNI
  rw [if_pos ⟨h1, h2⟩, hfind]
  simp only
  rw [hit1, swapNNILoop_spec score cur_score t node1 a node2
    (fun x hx hx1 => by
      obtain ⟨t3, e1, e2, _⟩ := key x hx hx1
      exact ⟨t3, e1, e2⟩) _ 0 (by omega) (by omega), List.drop_zero, fc]
  simp only [swapNNISpec]
  rw [hdo1, hdo2]
  rfl

/-- C27: on an unrooted binary tree, for a branch between two internal nodes `node1` and
`node2`, with `a` the first neighbor of `node1` other than `node2` and `c`, `d` the
neighbors of `node2` other than `node1` in slot order, parsimony `swapNNI` exchanges
`a` with `c` and returns the score of that tree, leaving the store in it, when the
score is strictly below `cur_score`; else it exchanges back, exchanges `a` with `d`
and does the same; when neither score is below `cur_score` it returns `cur_score`
and the store is exactly the store before the call. -/
theorem swapNNI_spec (score : Tree → Option Int) (cur_score : ℚ) (t : Tree)
    (node1 node2 : Nat) (hT : t.IsBinaryTree) (hadj : node2 ∈ t.links node1)
    (h1 : (t.neighbors node1).length = 3) (h2 : (t.neighbors node2).length = 3) :
    ∃ a b c d t1 t2,
      (t.links node1).filter (fun x => x != node2) = [a, b] ∧
      (t.links node2).filter (fun x => x != node1) = [c, d] ∧
      swapNNIDo t node1 a node2 c = some t1 ∧ t.SwappedNNI t1 node1 a node2 c ∧
      swapNNIDo t node1 a node2 d = some t2 ∧ t.SwappedNNI t2 node1 a node2 d ∧
      swapNNI score cur_score t node1 node2 =
        (score t1).bind fun s1 =>
          if (s1 : ℚ) < cur_score then some ((s1 : ℚ), t1)
          else (score t2).bind fun s2 =>
            if (s2 : ℚ) < cur_score then some ((s2 : ℚ), t2) else some (cur_score, t) :=
  swapNNI_view score cur_score t node1 node2 hT hadj h1 h2

theorem swapNNI_spec_witness :
    ∃ a b c d t1 t2,
      (exampleTree.links 4).filter (fun x => x != 5) = [a, b] ∧
      (exampleTree.links 5).filter (fun x => x != 4) = [c, d] ∧
      swapNNIDo exampleTree 4 a 5 c = some t1 ∧ exampleTree.SwappedNNI t1 4 a 5 c ∧
      swapNNIDo exampleTree 4 a 5 d = some t2 ∧ exampleTree.SwappedNNI t2 4 a 5 d ∧
      swapNNI (fun t => some ((t.links 4).sum : Int)) 4 exampleTree 4 5 =
        (some (((t1.links 4).sum : Nat) : Int)).bind fun s1 =>
          if (s1 : ℚ) < 4 then some ((s1 : ℚ), t1)
          else (some (((t2.links 4).sum : Nat) : Int)).bind fun s2 =>
            if (s2 : ℚ) < 4 then some ((s2 : ℚ), t2) else some (4, exampleTree) :=
  swapNNI_spec (fun t => some ((t.links 4).sum : Int)) 4 exampleTree 4 5
    exampleTree_isBinaryTree (by decide) (by decide) (by decide)

/-- C23: `growTreeMP` ends with the error `ERR_FEW_TAXA` if and only if the alignment
has fewer than 3 sequences, and so does `growTreeML`, whatever the routines they call
do. -/
theorem growTree_few_taxa (score : Tree → Option Int)
    (clearAllPartialLH optimizeAllBranches optimizeNNI : Tree → Option Tree)
    (optimizeChildBranches : Tree → Nat → Option (ℚ × Tree))
    (default_id ph1 ph2 : Nat) (blank : Neighbor) (size : Nat) :
    (growTreeMP score default_id ph1 ph2 blank size = Except.error GrowError.ERR_FEW_TAXA ↔
      size < 3) ∧
    (growTreeML clearAllPartialLH optimizeAllBranches optimizeNNI optimizeChildBranches
        default_id ph1 ph2 blank size = Except.error GrowError.ERR_FEW_TAXA ↔ size < 3) := by
  constructor
  · unfold growTreeMP
    by_cases h : size < 3
    · rw [if_pos h]
      exact ⟨fun _ => h, fun _ => rfl⟩
    · rw [if_neg h]
      refine ⟨fun hh => ?_, fun hh => absurd hh h⟩
      exfalso
      revert hh
      simp only
      split
      · intro hh; cases hh
      · split
        · intro hh; cases hh
        · intro hh; cases hh
  · unfold growTreeML
    by_cases h : size < 3
    · rw [if_pos h]
      exact ⟨fun _ => h, fun _ => rfl⟩
    · rw [if_neg h]
      refine ⟨fun hh => ?_, fun hh => absurd hh h⟩
      exfalso
      revert hh
      simp only
      split
      · intro hh; cases hh
      · split
        · intro hh; cases hh
        · split
          · intro hh; cases hh
          · intro hh; cases hh

theorem walk_some_succ (fuel : Nat) (t : Tree) (node d : Nat) :
    Tree.walk (fuel + 1) t node (some d) = (node, d) ::
      ((t.links node).filter (fun c => c != d)).flatMap
        (fun c => Tree.walk fuel t c (some node)) := by
  rw [walk_succ, walk_one_some]
  have : (t.links node).filter (fun c => some c != some d) =
      (t.links node).filter (fun c => c != d) := by
    apply List.filter_congr
    intro c _
    rw [Bool.eq_iff_iff]
    simp
  rw [this]
  rfl

theorem walkOK_some_succ (fuel : Nat) (t : Tree) (node d : Nat) :
    t.walkOK (fuel + 1) node (some d) = true ↔
      (d ∈ t.links node ∧ node ∈ t.links d) ∧
      ∀ c ∈ t.links node, c ≠ d → t.walkOK fuel c (some node) = true := by
  simp only [Tree.walkOK, Bool.and_eq_true, decide_eq_true_eq, List.all_eq_true,
    List.mem_filter, bne_iff_ne, ne_eq, Option.some.injEq, and_imp]

theorem nodup_length_le (P : List Nat) (n : Nat) (hnd : P.Nodup) (h : ∀ x ∈ P, x < n) :
    P.length ≤ n := by
  have := (List.subperm_of_subset hnd (fun x hx => List.mem_range.2 (h x hx))).length_le
  rwa [List.length_range] at this

/-- Along a chain of half-edges that stays away from `node`, all nodes are connected
without the branch between `node` and `c`. -/
theorem chain_reach_avoid (t : Tree) (live : ℕ → Prop)
    (hcl : ∀ u, live u → ∀ v ∈ t.links u, live v ∧ u ∈ t.links v)
    (hloop : ∀ u, live u → u ∉ t.links u) (node c : Nat) (L : List Nat) (a : Nat)
    (hch : List.Chain' (fun x y => y ∈ t.links x) (a :: L))
    (hlive : ∀ x ∈ a :: L, live x) (hav : ∀ x ∈ a :: L, x ≠ node) :
    ∀ x ∈ a :: L, (t.graphOn live \ fromEdgeSet {s(node, c)}).Reachable a x := by
  induction L generalizing a with
  | nil =>
    intro x hx
    rw [List.mem_singleton] at hx
    rw [hx]
  | cons b L ih =>
    intro x hx
    rcases List.mem_cons.1 hx with hx | hx
    · rw [hx]
    · rw [List.chain'_cons] at hch
      have hadj : (t.graphOn live \ fromEdgeSet {s(node, c)}).Adj a b := by
        rw [sdiff_adj, graphOn_adj t live hcl hloop, fromEdgeSet_adj]
        refine ⟨⟨hlive a (List.mem_cons_self _ _), hch.1⟩, fun hh => ?_⟩
        have h1 := hh.1
        simp only [Set.mem_singleton_iff, Sym2.eq_iff] at h1
        rcases h1 with ⟨e, _⟩ | ⟨_, e⟩
        · exact hav a (List.mem_cons_self _ _) e
        · exact hav b (List.mem_cons_of_mem _ (List.mem_cons_self _ _)) e
      exact hadj.reachable.trans (ih b hch.2
        (fun y hy => hlive y (List.mem_cons_of_mem _ hy))
        (fun y hy => hav y (List.mem_cons_of_mem _ hy)) x hx)

/-- In a tree the recursion over the neighbors other than `dad` never comes back to a
node on the way from the start, so that its depth is below the number of nodes. -/
theorem walkOK_of_path (t : Tree) (live : ℕ → Prop) (n : Nat) (hT : t.IsBinaryTreeOn live)
    (hb : ∀ u, live u → u < n) (fuel : Nat) (node d : Nat) (rest : List Nat)
    (hch : List.Chain' (fun x y => y ∈ t.links x) (node :: d :: rest))
    (hnd : (node :: d :: rest).Nodup) (hlive : ∀ x ∈ node :: d :: rest, live x)
    (hfuel : n + 1 ≤ fuel + (node :: d :: rest).length) :
    t.walkOK fuel node (some d) = true := by
  obtain ⟨hcl, _, hloop, _, hacy, _⟩ := hT
  induction fuel generalizing node d rest with
  | zero =>
    have := nodup_length_le _ n hnd (fun x hx => hb x (hlive x hx))
    omega
  | succ fuel ih =>
    rw [walkOK_some_succ]
    have hnl : live node := hlive node (List.mem_cons_self _ _)
    have hdl : live d := hlive d (List.mem_cons_of_mem _ (List.mem_cons_self _ _))
    rw [List.chain'_cons] at hch
    refine ⟨⟨hch.1, (hcl node hnl d hch.1).2⟩, ?_⟩
    intro c hc hcd
    have hcl1 := hcl node hnl c hc
    have hcn : c ≠ node := fun e => hloop node hnl (e ▸ hc)
    have hnotin : c ∉ node :: d :: rest := by
      intro hin
      rcases List.mem_cons.1 hin with e | hin
      · exact hcn e
      have hbr := (acyclic_iff_bridges _).1 hacy node c
        ((graphOn_adj t live hcl hloop node c).2 ⟨hnl, hc⟩)
      apply hbr
      have hnd2 := List.nodup_cons.1 hnd
      have hav : ∀ x ∈ d :: rest, x ≠ node := fun x hx e => hnd2.1 (e ▸ hx)
      have h1 : (t.graphOn live \ fromEdgeSet {s(node, c)}).Adj node d := by
        rw [sdiff_adj, graphOn_adj t live hcl hloop, fromEdgeSet_adj]
        refine ⟨⟨hnl, hch.1⟩, fun hh => ?_⟩
        have h1 := hh.1
        simp only [Set.mem_singleton_iff, Sym2.eq_iff] at h1
        rcases h1 with ⟨_, e⟩ | ⟨e, _⟩
        · exact hcd e.symm
        · exact hcn e.symm
      exact h1.reachable.trans (chain_reach_avoid t live hcl hloop node c rest d hch.2
        (fun x hx => hlive x (List.mem_cons_of_mem _ hx)) hav c hin)
    apply ih c node (d :: rest)
    · rw [List.chain'_cons]
      exact ⟨hcl1.2, List.chain'_cons.2 hch⟩
    · exact List.nodup_cons.2 ⟨hnotin, hnd⟩
    · intro x hx
      rcases List.mem_cons.1 hx with e | hx
      · rw [e]; exact hcl1.1
      · exact hlive x hx
    · simp only [List.length_cons] at hfuel ⊢
      omega

/-- On a binary tree the recursion from a branch ends within the depth of the number of
nodes, and finds every branch at both of its ends. -/
theorem walkOK_of_tree (t : Tree) (live : ℕ → Prop) (n : Nat) (hT : t.IsBinaryTreeOn live)
    (hb : ∀ u, live u → u < n) (node d : Nat) (hn : live node) (hd : d ∈ t.links node)
    (fuel : Nat) (hf : n ≤ fuel) :
    t.walkOK fuel node (some d) = true := by
  have hcl := hT.1
  have hloop := hT.2.2.1
  apply walkOK_of_path t live n hT hb fuel node d []
  · rw [List.chain'_cons]
    exact ⟨hd, List.chain'_singleton _⟩
  · rw [List.nodup_cons]
    refine ⟨?_, List.nodup_singleton _⟩
    rw [List.mem_singleton]
    exact fun e => hloop node hn (by rw [← e] at hd; exact hd)
  · intro x hx
    rcases List.mem_cons.1 hx with e | hx
    · rw [e]; exact hn
    · rw [List.mem_singleton] at hx
      rw [hx]
      exact (hcl node hn d hd).1
  · simp only [List.length_cons, List.length_nil]
    omega

theorem walk_head (fuel : Nat) (t : Tree) (node d : Nat)
    (h : t.walkOK fuel node (some d) = true) :
    ∃ W, Tree.walk fuel t node (some d) = (node, d) :: W := by
  cases fuel with
  | zero => cases h
  | succ fuel => exact ⟨_, walk_some_succ fuel t node d⟩

/-- The recursion visits, with a half-edge it visits, the half-edges from the other
neighbors of its start. -/
theorem walk_children (fuel : Nat) (t : Tree) (node d : Nat)
    (h : t.walkOK fuel node (some d) = true) :
    ∀ p ∈ Tree.walk fuel t node (some d), ∀ c ∈ t.links p.1, c ≠ p.2 →
      (c, p.1) ∈ Tree.walk fuel t node (some d) := by
  induction fuel generalizing node d with
  | zero => cases h
  | succ fuel ih =>
    rw [walkOK_some_succ] at h
    intro p hp c hc hcp
    rw [walk_some_succ] at hp ⊢
    rcases List.mem_cons.1 hp with hp | hp
    · subst hp
      simp only at hc hcp
      obtain ⟨W, hW⟩ := walk_head fuel t c node (h.2 c hc hcp)
      refine List.mem_cons_of_mem _ (List.mem_flatMap.2 ⟨c, ?_, ?_⟩)
      · exact List.mem_filter.2 ⟨hc, by simpa using hcp⟩
      · rw [hW]
        exact List.mem_cons_self _ _
    · obtain ⟨c1, hc1, hpc⟩ := List.mem_flatMap.1 hp
      have hc1' := List.mem_filter.1 hc1
      have := ih c1 node (h.2 c1 hc1'.1 (by simpa using hc1'.2)) p hpc c hc hcp
      exact List.mem_cons_of_mem _ (List.mem_flatMap.2 ⟨c1, hc1, this⟩)

/-- The recursion visits, with a half-edge other than the first, a half-edge from the
node that it points to. -/
theorem walk_parent (fuel : Nat) (t : Tree) (node d : Nat) :
    ∀ p ∈ Tree.walk fuel t node (some d), p = (node, d) ∨
      ∃ y, (p.2, y) ∈ Tree.walk fuel t node (some d) := by
  induction fuel generalizing node d with
  | zero =>
    intro p hp
    cases hp
  | succ fuel ih =>
    intro p hp
    rw [walk_some_succ] at hp ⊢
    rcases List.mem_cons.1 hp with hp | hp
    · exact Or.inl hp
    · right
      obtain ⟨c1, hc1, hpc⟩ := List.mem_flatMap.1 hp
      rcases ih c1 node p hpc with e | ⟨y, hy⟩
      · rw [e]
        exact ⟨d, List.mem_cons_self _ _⟩
      · exact ⟨y, List.mem_cons_of_mem _ (List.mem_flatMap.2 ⟨c1, hc1, hy⟩)⟩

/-- From the branch of a leaf `root` of a binary tree, the recursion visits every branch
of the tree, from one of its ends. -/
theorem walk_covers (t : Tree) (live : ℕ → Prop) (hT : t.IsBinaryTreeOn live)
    (root c : Nat) (hroot : live root) (hleaf : t.links root = [c]) (fuel : Nat)
    (hok : t.walkOK fuel c (some root) = true) (u v : Nat) (hu : live u)
    (hv : v ∈ t.links u) :
    (u, v) ∈ Tree.walk fuel t c (some root) ∨ (v, u) ∈ Tree.walk fuel t c (some root) := by
  obtain ⟨hcl, _, hloop, _, _, hconn⟩ := hT
  obtain ⟨W, hW⟩ := walk_head fuel t c root hok
  have hcr : (c, root) ∈ Tree.walk fuel t c (some root) := by
    rw [hW]
    exact List.mem_cons_self _ _
  have key : ∀ x, live x → x = root ∨ ∃ y, (x, y) ∈ Tree.walk fuel t c (some root) := by
    intro x hx
    refine reach_closed (t.graphOn live)
      (fun x => x = root ∨ ∃ y, (x, y) ∈ Tree.walk fuel t c (some root)) ?_
      (hconn root x hroot hx) (Or.inl rfl)
    intro a b hab ha
    rw [graphOn_adj t live hcl hloop] at hab
    rcases ha with e | ⟨y, hy⟩
    · right
      rw [e, hleaf, List.mem_singleton] at hab
      rw [hab.2]
      exact ⟨root, hcr⟩
    · by_cases hby : b = y
      · rcases walk_parent fuel t c root (a, y) hy with e | ⟨y1, hy1⟩
        · left
          rw [hby]
          exact (Prod.mk.inj e).2
        · right
          rw [hby]
          exact ⟨y1, hy1⟩
      · right
        exact ⟨a, walk_children fuel t c root hok (a, y) hy b hab.2 hby⟩
  rcases key u hu with e | ⟨y, hy⟩
  · right
    rw [e, hleaf, List.mem_singleton] at hv
    rw [e, hv]
    exact hcr
  · by_cases hvy : v = y
    · left
      rw [hvy]
      exact hy
    · right
      exact walk_children fuel t c root hok (u, y) hy v hv hvy

theorem phNorm_nodes (ph1 ph2 : Nat) (L : ℚ) (ns : List Neighbor) :
    (phNorm ph1 ph2 L ns).map (·.node) = ns.map (·.node) := by
  unfold phNorm
  rw [List.map_map]
  apply List.map_congr_left
  intro e _
  simp only [Function.comp_apply]
  split <;> rfl

theorem phNorm_phNorm (ph1 ph2 : Nat) (L L1 : ℚ) (ns : List Neighbor) :
    phNorm ph1 ph2 L (phNorm ph1 ph2 L1 ns) = phNorm ph1 ph2 L ns := by
  unfold phNorm
  rw [List.map_map]
  apply List.map_congr_left
  intro e _
  simp only [Function.comp_apply]
  by_cases h : e.node = ph1 ∨ e.node = ph2
  · simp only [h, if_true]
  · simp only [h, if_false]

theorem findNeighborIt_congr (ns ns0 : List Neighbor)
    (h : ns.map (·.node) = ns0.map (·.node)) (x : Nat) :
    findNeighborIt ns x = findNeighborIt ns0 x := by
  have hs : ∀ j : Nat, Option.map (fun e : Neighbor => e.node) ns[j]? =
      Option.map (fun e : Neighbor => e.node) ns0[j]? := by
    intro j
    rw [← List.getElem?_map, ← List.getElem?_map, h]
  have key : ∀ (a b : List Neighbor), (∀ j : Nat, Option.map (fun e : Neighbor => e.node) a[j]? =
        Option.map (fun e : Neighbor => e.node) b[j]?) →
      ∀ k, findNeighborIt a x = some k → findNeighborIt b x = some k := by
    intro a b hab k hk
    obtain ⟨e, he, hx, hj⟩ := (findNeighborIt_eq_some a x k).1 hk
    rw [findNeighborIt_eq_some]
    have h1 := hab k
    rw [he] at h1
    cases hb : b[k]? with
    | none => rw [hb] at h1; cases h1
    | some e0 =>
      rw [hb] at h1
      simp only [Option.map_some', Option.some.injEq] at h1
      refine ⟨e0, rfl, by rw [← h1]; exact hx, ?_⟩
      intro j e1 hjk he1
      have h2 := hab j
      rw [he1] at h2
      cases ha : a[j]? with
      | none => rw [ha] at h2; cases h2
      | some e2 =>
        rw [ha] at h2
        simp only [Option.map_some', Option.some.injEq] at h2
        rw [← h2]
        exact hj j e2 hjk ha
  apply Option.ext
  intro k
  exact ⟨key ns ns0 hs k, key ns0 ns (fun j => (hs j).symm) k⟩

/-- The slot `k` is the only one that points to `x`. -/
theorem findNeighborIt_unique (ns : List Neighbor) (x k : Nat) (e : Neighbor)
    (hk : ns[k]? = some e) (hx : e.node = x)
    (ho : ∀ j e1, j ≠ k → ns[j]? = some e1 → e1.node ≠ x) :
    findNeighborIt ns x = some k := by
  rw [findNeighborIt_eq_some]
  exact ⟨e, hk, hx, fun j e1 hj he1 => ho j e1 (by omega) he1⟩

theorem modify2_getElem? (ns : List Neighbor) (f1 f2 : Neighbor → Neighbor) (k1 k2 j : Nat)
    (hne : k1 ≠ k2) :
    ((ns.modify f1 k1).modify f2 k2)[j]? =
      (ns[j]?).map (fun e => if j = k1 then f1 e else if j = k2 then f2 e else e) := by
  rw [List.getElem?_modify, List.getElem?_modify]
  cases ns[j]? with
  | none => rfl
  | some e =>
    simp only [Option.map_eq_map, Option.map_some', Option.some.injEq]
    by_cases h1 : j = k1
    · subst h1
      simp only [if_true, if_neg (Ne.symm hne)]
    · by_cases h2 : j = k2
      · subst h2
        simp only [if_true, if_neg h1, if_neg (Ne.symm h1)]
      · simp only [if_neg h1, if_neg h2, if_neg (Ne.symm h1), if_neg (Ne.symm h2)]

/-- In a vector that points to distinct nodes, the slot found for `x` is the only slot
that points to `x`. -/
theorem slot_unique (ns : List Neighbor) (hnd : (ns.map (·.node)).Nodup) (x k : Nat)
    (hk : findNeighborIt ns x = some k) (j : Nat) (e1 : Neighbor) (hj : ns[j]? = some e1)
    (hx : e1.node = x) : j = k := by
  obtain ⟨e, he, hex, _⟩ := (findNeighborIt_eq_some ns x k).1 hk
  have hkl := (List.getElem?_eq_some.1 he).1
  have hjl := (List.getElem?_eq_some.1 hj).1
  have hkl1 : k < (ns.map (·.node)).length := by simpa using hkl
  have hjl1 : j < (ns.map (·.node)).length := by simpa using hjl
  have h1 : (ns.map (·.node))[k]? = some x := by simp [he, hex]
  have h2 : (ns.map (·.node))[j]? = some x := by simp [hj, hx]
  rw [List.getElem?_eq_getElem hkl1] at h1
  rw [List.getElem?_eq_getElem hjl1] at h2
  exact (List.Nodup.getElem_inj_iff hnd).1 (by
    rw [Option.some.inj h1, Option.some.inj h2] : (ns.map (·.node))[j] = (ns.map (·.node))[k])

/-- What two vectors share that agree up to the lengths in the placeholder slots. -/
theorem agree_slot (ph1 ph2 : Nat) (A A0 : List Neighbor)
    (h : phNorm ph1 ph2 0 A = phNorm ph1 ph2 0 A0) (j : Nat) :
    (A[j]? = none ∧ A0[j]? = none) ∨
    ∃ e e0, A[j]? = some e ∧ A0[j]? = some e0 ∧ e.node = e0.node ∧ e.id = e0.id ∧
      e.partial_lh_computed = e0.partial_lh_computed ∧
      e.lh_scale_factor = e0.lh_scale_factor ∧
      (e0.node ≠ ph1 → e0.node ≠ ph2 → e = e0) := by
  have hj : (phNorm ph1 ph2 0 A)[j]? = (phNorm ph1 ph2 0 A0)[j]? := by rw [h]
  unfold phNorm at hj
  rw [List.getElem?_map, List.getElem?_map] at hj
  cases hA : A[j]? with
  | none =>
    cases hA0 : A0[j]? with
    | none => exact Or.inl ⟨rfl, rfl⟩
    | some e0 => rw [hA, hA0] at hj; cases hj
  | some e =>
    cases hA0 : A0[j]? with
    | none => rw [hA, hA0] at hj; cases hj
    | some e0 =>
      right
      rw [hA, hA0] at hj
      simp only [Option.map_some', Option.some.injEq] at hj
      refine ⟨e, e0, rfl, rfl, ?_⟩
      cases e with
      | mk n1 l1 i1 p1 s1 =>
      cases e0 with
      | mk n2 l2 i2 p2 s2 =>
      simp only at hj ⊢
      by_cases c1 : n1 = ph1 ∨ n1 = ph2
      · by_cases c2 : n2 = ph1 ∨ n2 = ph2
        · rw [if_pos c1, if_pos c2] at hj
          simp only [Neighbor.mk.injEq] at hj
          obtain ⟨a1, _, a3, a4, a5⟩ := hj
          refine ⟨a1, a3, a4, a5, fun g1 g2 => ?_⟩
          rcases c2 with c2 | c2
          · exact absurd c2 g1
          · exact absurd c2 g2
        · rw [if_pos c1, if_neg c2] at hj
          simp only [Neighbor.mk.injEq] at hj
          obtain ⟨a1, _, _, _, _⟩ := hj
          rw [a1] at c1
          exact absurd c1 c2
      · by_cases c2 : n2 = ph1 ∨ n2 = ph2
        · rw [if_neg c1, if_pos c2] at hj
          simp only [Neighbor.mk.injEq] at hj
          obtain ⟨a1, _, _, _, _⟩ := hj
          rw [← a1] at c2
          exact absurd c2 c1
        · rw [if_neg c1, if_neg c2] at hj
          simp only [Neighbor.mk.injEq] at hj
          obtain ⟨a1, a2, a3, a4, a5⟩ := hj
          refine ⟨a1, a3, a4, a5, fun _ _ => ?_⟩
          rw [a1, a2, a3, a4, a5]

theorem agreesOff_refl (t : Tree) (added_node ph1 ph2 : Nat) :
    t.AgreesOff t added_node ph1 ph2 :=
  ⟨rfl, fun _ => rfl, fun _ _ => rfl, rfl⟩

theorem agreesOff_of_restoredTo (cur t0 : Tree) (added_node ph1 ph2 : Nat) (L : ℚ)
    (h : cur.RestoredTo t0 added_node ph1 ph2 L) : cur.AgreesOff t0 added_node ph1 ph2 := by
  obtain ⟨h1, h2, h3⟩ := h
  refine ⟨h1, h2, fun m hm => ?_, ?_⟩
  · rw [h3, Function.update_noteq hm]
  · rw [h3, Function.update_same, phNorm_phNorm]

theorem insertedAt_unique (ti ti1 t0 : Tree) (added_node ph1 ph2 node dad : Nat) (len : ℚ)
    (h : ti.InsertedAt t0 added_node ph1 ph2 node dad len)
    (h1 : ti1.InsertedAt t0 added_node ph1 ph2 node dad len) : ti = ti1 := by
  obtain ⟨kn, kd, k1, k2, a1, a2, a3, a4, a5, a6, a7⟩ := h
  obtain ⟨kn1, kd1, k11, k21, b1, b2, b3, b4, b5, b6, b7⟩ := h1
  rw [a1] at b1
  rw [a2] at b2
  rw [a3] at b3
  rw [a4] at b4
  cases b1
  cases b2
  cases b3
  cases b4
  apply tree_ext
  · rw [a5, b5]
  · intro m
    rw [a6, b6]
  · intro m
    rw [a7, b7]

theorem find_of_slots (ns : List Neighbor) (x k : Nat) (e : Neighbor)
    (he : ns[k]? = some e) (hx : e.node = x)
    (hj : ∀ j e1, j < k → ns[j]? = some e1 → e1.node ≠ x) :
    ns.find? (fun nei => nei.node == x) = some e := by
  induction ns generalizing k with
  | nil => simp at he
  | cons a as ih =>
    cases k with
    | zero =>
      simp only [List.getElem?_cons_zero, Option.some.injEq] at he
      subst he
      rw [List.find?_cons]
      simp [hx]
    | succ k =>
      have ha : a.node ≠ x := hj 0 a (by omega) (by simp)
      rw [List.find?_cons]
      have hb : (a.node == x) = false := by simp [ha]
      rw [hb]
      simp only [List.getElem?_cons_succ] at he
      exact ih k he (fun j e1 hjk he1 => hj (j + 1) e1 (by omega) (by simpa using he1))

theorem edgeLength_of_find (t : Tree) (u v k : Nat)
    (hk : findNeighborIt (t.neighbors u) v = some k) :
    t.edgeLength u v = ((t.neighbors u)[k]?).map (·.length) := by
  obtain ⟨e, he, hx, hj⟩ := (findNeighborIt_eq_some _ v k).1 hk
  unfold Tree.edgeLength
  rw [find_of_slots _ v k e he hx hj, he]

theorem links_eq_of_neighbors (t t1 : Tree) (n m : Nat)
    (h : t1.neighbors n = t.neighbors m) : t1.links n = t.links m := by
  unfold Tree.links
  rw [h]

/-- The four lines that insert `added_node`, in a store that agrees with `t0` up to the
lengths in the placeholder slots, give the store `t0` with `added_node` inserted. -/
theorem insertAddedNode_view (cur t0 : Tree) (added_node ph1 ph2 node dad : Nat) (len : ℚ)
    (hag : cur.AgreesOff t0 added_node ph1 ph2)
    (hph : t0.HoldsPlaceholders added_node ph1 ph2)
    (hbr : t0.BranchAway added_node node dad) :
    ∃ ti, insertAddedNode cur added_node ph1 ph2 node dad len = some ti ∧
      ti.InsertedAt t0 added_node ph1 ph2 node dad len := by
  obtain ⟨g1, g2, g3, g4⟩ := hag
  obtain ⟨p1, p2, p12, pnd⟩ := hph
  obtain ⟨b1, b2, bne, bn, bd, _, _, bna, bda⟩ := hbr
  obtain ⟨kn, hkn⟩ := findNeighborIt_of_mem (t0.neighbors node) dad b1
  obtain ⟨kd, hkd⟩ := findNeighborIt_of_mem (t0.neighbors dad) node b2
  obtain ⟨k1, hk1⟩ := findNeighborIt_of_mem (t0.neighbors added_node) ph1 p1
  obtain ⟨k2, hk2⟩ := findNeighborIt_of_mem (t0.neighbors added_node) ph2 p2
  have hnodes : (cur.neighbors added_node).map (·.node) =
      (t0.neighbors added_node).map (·.node) := by
    rw [← phNorm_nodes ph1 ph2 0 (cur.neighbors added_node), g4, phNorm_nodes]
  obtain ⟨e1, he1, hx1, _⟩ := (findNeighborIt_eq_some _ ph1 k1).1 hk1
  obtain ⟨e2, he2, hx2, _⟩ := (findNeighborIt_eq_some _ ph2 k2).1 hk2
  have hk12 : k1 ≠ k2 := by
    intro e
    rw [e, he2] at he1
    cases he1
    exact p12 (hx1.symm.trans hx2)
  have hnph2 : node ≠ ph2 := fun e => bna (e ▸ p2)
  -- first line
  have c1 : findNeighborIt (cur.neighbors node) dad = some kn := by rw [g3 node bn]; exact hkn
  obtain ⟨s1, u1, v1, l1, i1⟩ := updateNeighborLength_view2 cur node dad added_node kn
    (len / 2) c1
  rw [g3 node bn] at v1
  -- second line
  have c2 : findNeighborIt (s1.neighbors dad) node = some kd := by
    rw [v1, Function.update_noteq (Ne.symm bne), g3 dad bd]
    exact hkd
  obtain ⟨s2, u2, v2, l2, i2⟩ := updateNeighborLength_view2 s1 dad node added_node kd
    (len / 2) c2
  have d2 : s1.neighbors dad = t0.neighbors dad := by
    rw [v1, Function.update_noteq (Ne.symm bne), g3 dad bd]
  rw [d2] at v2
  -- third line
  have d3 : s2.neighbors added_node = cur.neighbors added_node := by
    rw [v2, Function.update_noteq (Ne.symm bd), v1, Function.update_noteq (Ne.symm bn)]
  have c3 : findNeighborIt (s2.neighbors added_node) ph1 = some k1 := by
    rw [d3, findNeighborIt_congr _ _ hnodes]
    exact hk1
  obtain ⟨s3, u3, v3, l3, i3⟩ := updateNeighborLength_view2 s2 added_node ph1 node k1
    (len / 2) c3
  rw [d3] at v3
  -- fourth line
  have d4 : s3.neighbors added_node = (cur.neighbors added_node).modify
      (fun nei => { nei with node := node, length := len / 2 }) k1 := by
    rw [v3, Function.update_same]
  have c4 : findNeighborIt (s3.neighbors added_node) ph2 = some k2 := by
    rw [d4]
    rcases agree_slot ph1 ph2 _ _ g4 k2 with ⟨_, hn⟩ | ⟨e, e0, ha, ha0, hn, _⟩
    · rw [he2] at hn; cases hn
    rw [he2] at ha0
    cases ha0
    apply findNeighborIt_unique _ ph2 k2 e
    · rw [List.getElem?_modify, ha]
      simp only [if_neg hk12, Option.map_eq_map, Option.map_some']
    · rw [hn, hx2]
    · intro j e3 hj he3
      rw [List.getElem?_modify] at he3
      rcases agree_slot ph1 ph2 _ _ g4 j with ⟨hn1, _⟩ | ⟨e4, e5, ha4, ha5, hn4, _⟩
      · rw [hn1] at he3; cases he3
      rw [ha4] at he3
      simp only [Option.map_eq_map, Option.map_some', Option.some.injEq] at he3
      by_cases hj1 : k1 = j
      · rw [if_pos hj1] at he3
        rw [← he3]
        exact hnph2
      · rw [if_neg hj1] at he3
        rw [← he3, hn4]
        intro hh
        exact hj (slot_unique _ pnd ph2 k2 hk2 j e5 ha5 hh)
  obtain ⟨s4, u4, v4, l4, i4⟩ := updateNeighborLength_view2 s3 added_node ph2 dad k2
    (len / 2) c4
  rw [d4] at v4
  have hlist : ((cur.neighbors added_node).modify
        (fun nei => { nei with node := node, length := len / 2 }) k1).modify
        (fun nei => { nei with node := dad, length := len / 2 }) k2 =
      ((t0.neighbors added_node).modify
        (fun nei => { nei with node := node, length := len / 2 }) k1).modify
        (fun nei => { nei with node := dad, length := len / 2 }) k2 := by
    apply List.ext_getElem?
    intro j
    rw [modify2_getElem? _ _ _ _ _ _ hk12, modify2_getElem? _ _ _ _ _ _ hk12]
    rcases agree_slot ph1 ph2 _ _ g4 j with ⟨hn1, hn2⟩ | ⟨e4, e5, ha4, ha5, hn4, hi4, hp4, hs4, hq4⟩
    · rw [hn1, hn2]
    rw [ha4, ha5]
    simp only [Option.map_some', Option.some.injEq]
    by_cases hj1 : j = k1
    · rw [if_pos hj1, if_pos hj1]
      cases e4
      cases e5
      simp only at hi4 hp4 hs4 ⊢
      rw [hi4, hp4, hs4]
    · rw [if_neg hj1, if_neg hj1]
      by_cases hj2 : j = k2
      · rw [if_pos hj2, if_pos hj2]
        cases e4
        cases e5
        simp only at hi4 hp4 hs4 ⊢
        rw [hi4, hp4, hs4]
      · rw [if_neg hj2, if_neg hj2]
        apply hq4
        · intro hh
          exact hj1 (slot_unique _ pnd ph1 k1 hk1 j e5 ha5 hh)
        · intro hh
          exact hj2 (slot_unique _ pnd ph2 k2 hk2 j e5 ha5 hh)
  rw [hlist] at v4
  refine ⟨s4, ?_, kn, kd, k1, k2, hkn, hkd, hk1, hk2, ?_, ?_, ?_⟩
  · unfold insertAddedNode
    rw [u1, Option.some_bind, u2, Option.some_bind, u3, Option.some_bind, u4]
  · rw [l4, l3, l2, l1, g1]
  · intro m
    rw [i4, i3, i2, i1, g2]
  · rw [v4, v3, v2, v1]
    funext m
    by_cases m1 : m = added_node
    · rw [m1, Function.update_same, Function.update_same]
    rw [Function.update_noteq m1, Function.update_noteq m1, Function.update_noteq m1]
    by_cases m2 : m = dad
    · rw [m2, Function.update_same, Function.update_same]
    rw [Function.update_noteq m2, Function.update_noteq m2]
    by_cases m3 : m = node
    · rw [m3, Function.update_same, Function.update_same]
    rw [Function.update_noteq m3, Function.update_noteq m3, g3 m m1]

theorem updateNeighborLength_back (t : Tree) (n x y k : Nat) (l l0 : ℚ) (ns0 : List Neighbor)
    (hk : findNeighborIt ns0 x = some k) (hy : y ∉ ns0.map (·.node))
    (hlen : Option.map (fun e : Neighbor => e.length) ns0[k]? = some l0)
    (hcur : t.neighbors n = ns0.modify (fun nei => { nei with node := y, length := l }) k) :
    ∃ t1, t.updateNeighborLength n y x l0 = some t1 ∧
      t1.neighbors = Function.update t.neighbors n ns0 ∧
      t1.nodes.length = t.nodes.length ∧ ∀ m, t1.nodeId m = t.nodeId m := by
  obtain ⟨hf, hb⟩ := modify_back ns0 x y k (fun nei => { nei with node := y, length := l })
    (fun nei => { nei with node := x, length := l0 }) hk hy (fun _ => rfl) (fun nei hs hx => by
      rw [hs] at hlen
      simp only [Option.map_some', Option.some.injEq] at hlen
      cases nei
      simp only at hx hlen
      simp only [hx, hlen])
  rw [← hcur] at hf hb
  obtain ⟨t1, h1, h2, h3, h4⟩ := updateNeighborLength_view2 t n y x k l0 hf
  rw [hb] at h2
  exact ⟨t1, h1, h2, h3, h4⟩

/-- The four lines that remove `added_node` from the store with `added_node` inserted in
the branch between `node` and `dad`, whose two half-edges had the length `len`, give
back the store, with `len` in the placeholder slots. -/
theorem removeAddedNode_view (ti t0 : Tree) (added_node ph1 ph2 node dad : Nat) (len : ℚ)
    (hins : ti.InsertedAt t0 added_node ph1 ph2 node dad len)
    (hph : t0.HoldsPlaceholders added_node ph1 ph2)
    (hbr : t0.BranchAway added_node node dad)
    (hl1 : t0.edgeLength dad node = some len) (hl2 : t0.edgeLength node dad = some len) :
    ∃ cur, removeAddedNode ti added_node ph1 ph2 node dad len = some cur ∧
      cur.RestoredTo t0 added_node ph1 ph2 len := by
  obtain ⟨kn, kd, k1, k2, hkn, hkd, hk1, hk2, hl, hi, hv⟩ := hins
  obtain ⟨p1, p2, p12, pnd⟩ := hph
  obtain ⟨_, _, bne, bn, bd, ban, bad, bna, bda⟩ := hbr
  obtain ⟨e1, he1, hx1, _⟩ := (findNeighborIt_eq_some _ ph1 k1).1 hk1
  obtain ⟨e2, he2, hx2, _⟩ := (findNeighborIt_eq_some _ ph2 k2).1 hk2
  have hk12 : k1 ≠ k2 := by
    intro e
    rw [e, he2] at he1
    cases he1
    exact p12 (hx1.symm.trans hx2)
  have hdph1 : ph1 ≠ dad := fun e => bda (e ▸ p1)
  rw [edgeLength_of_find t0 dad node kd hkd] at hl1
  rw [edgeLength_of_find t0 node dad kn hkn] at hl2
  -- first line
  have c1 : ti.neighbors node = (t0.neighbors node).modify
      (fun nei => { nei with node := added_node, length := len / 2 }) kn := by
    rw [hv, Function.update_noteq bn, Function.update_noteq bne, Function.update_same]
  obtain ⟨s1, u1, v1, l1, i1⟩ := updateNeighborLength_back ti node dad added_node kn (len / 2)
    len (t0.neighbors node) hkn ban hl2 c1
  -- second line
  have c2 : s1.neighbors dad = (t0.neighbors dad).modify
      (fun nei => { nei with node := added_node, length := len / 2 }) kd := by
    rw [v1, Function.update_noteq (Ne.symm bne), hv, Function.update_noteq bd,
      Function.update_same]
  obtain ⟨s2, u2, v2, l2, i2⟩ := updateNeighborLength_back s1 dad node added_node kd (len / 2)
    len (t0.neighbors dad) hkd bad hl1 c2
  -- third line
  have c3 : s2.neighbors added_node = ((t0.neighbors added_node).modify
        (fun nei => { nei with node := node, length := len / 2 }) k1).modify
        (fun nei => { nei with node := dad, length := len / 2 }) k2 := by
    rw [v2, Function.update_noteq (Ne.symm bd), v1, Function.update_noteq (Ne.symm bn), hv,
      Function.update_same]
  have f3 : findNeighborIt (s2.neighbors added_node) node = some k1 := by
    rw [c3]
    apply findNeighborIt_unique _ node k1
      ({ e1 with node := node, length := len / 2 } : Neighbor)
    · rw [modify2_getElem? _ _ _ _ _ _ hk12, he1]
      simp only [Option.map_some', if_true]
    · rfl
    · intro j e3 hj he3
      rw [modify2_getElem? _ _ _ _ _ _ hk12] at he3
      cases h0 : (t0.neighbors added_node)[j]? with
      | none => rw [h0] at he3; cases he3
      | some e0 =>
        rw [h0] at he3
        simp only [Option.map_some', Option.some.injEq, if_neg hj] at he3
        by_cases hj2 : j = k2
        · rw [if_pos hj2] at he3
          rw [← he3]
          exact fun e => bne e.symm
        · rw [if_neg hj2] at he3
          rw [← he3]
          intro hh
          exact bna (List.mem_map.2 ⟨e0, List.getElem?_mem h0, hh⟩)
  obtain ⟨s3, u3, v3, l3, i3⟩ := updateNeighborLength_view2 s2 added_node node ph1 k1 len f3
  rw [c3] at v3
  -- fourth line
  have c4 : s3.neighbors added_node = (((t0.neighbors added_node).modify
        (fun nei => { nei with node := node, length := len / 2 }) k1).modify
        (fun nei => { nei with node := dad, length := len / 2 }) k2).modify
        (fun nei => { nei with node := ph1, length := len }) k1 := by
    rw [v3, Function.update_same]
  have f4 : findNeighborIt (s3.neighbors added_node) dad = some k2 := by
    rw [c4]
    apply findNeighborIt_unique _ dad k2
      ({ e2 with node := dad, length := len / 2 } : Neighbor)
    · rw [List.getElem?_modify, modify2_getElem? _ _ _ _ _ _ hk12, he2]
      simp only [Option.map_eq_map, Option.map_some', if_neg hk12, if_neg (Ne.symm hk12),
        if_true]
    · rfl
    · intro j e3 hj he3
      rw [List.getElem?_modify, modify2_getElem? _ _ _ _ _ _ hk12] at he3
      cases h0 : (t0.neighbors added_node)[j]? with
      | none => rw [h0] at he3; cases he3
      | some e0 =>
        rw [h0] at he3
        simp only [Option.map_eq_map, Option.map_some', Option.some.injEq, if_neg hj] at he3
        by_cases hj1 : j = k1
        · rw [if_pos hj1, if_pos hj1.symm] at he3
          rw [← he3]
          exact hdph1
        · rw [if_neg hj1, if_neg (Ne.symm hj1)] at he3
          rw [← he3]
          intro hh
          exact bda (List.mem_map.2 ⟨e0, List.getElem?_mem h0, hh⟩)
  obtain ⟨s4, u4, v4, l4, i4⟩ := updateNeighborLength_view2 s3 added_node dad ph2 k2 len f4
  rw [c4] at v4
  have hlist : ((((t0.neighbors added_node).modify
        (fun nei => { nei with node := node, length := len / 2 }) k1).modify
        (fun nei => { nei with node := dad, length := len / 2 }) k2).modify
        (fun nei => { nei with node := ph1, length := len }) k1).modify
        (fun nei => { nei with node := ph2, length := len }) k2 =
      phNorm ph1 ph2 len (t0.neighbors added_node) := by
    apply List.ext_getElem?
    intro j
    rw [modify2_getElem? _ _ _ _ _ _ hk12, modify2_getElem? _ _ _ _ _ _ hk12]
    unfold phNorm
    rw [List.getElem?_map]
    cases h0 : (t0.neighbors added_node)[j]? with
    | none => rfl
    | some e0 =>
      simp only [Option.map_some', Option.some.injEq]
      by_cases hj1 : j = k1
      · rw [if_pos hj1, if_pos hj1]
        rw [hj1, he1] at h0
        cases h0
        rw [if_pos (Or.inl hx1)]
        cases e1
        simp only at hx1 ⊢
        rw [hx1]
      · rw [if_neg hj1, if_neg hj1]
        by_cases hj2 : j = k2
        · rw [if_pos hj2, if_pos hj2]
          rw [hj2, he2] at h0
          cases h0
          rw [if_pos (Or.inr hx2)]
          cases e2
          simp only at hx2 ⊢
          rw [hx2]
        · rw [if_neg hj2, if_neg hj2]
          have n1 : e0.node ≠ ph1 := fun hh =>
            hj1 (slot_unique _ pnd ph1 k1 hk1 j e0 h0 hh)
          have n2 : e0.node ≠ ph2 := fun hh =>
            hj2 (slot_unique _ pnd ph2 k2 hk2 j e0 h0 hh)
          rw [if_neg (by
            rintro (hh | hh)
            · exact n1 hh
            · exact n2 hh)]
  rw [hlist] at v4
  refine ⟨s4, ?_, ?_, ?_, ?_⟩
  · unfold removeAddedNode
    rw [u1, Option.some_bind, u2, Option.some_bind, u3, Option.some_bind, u4]
  · rw [l4, l3, l2, l1, hl]
  · intro m
    rw [i4, i3, i2, i1, hi]
  · rw [v4, v3, v2, v1, hv]
    funext m
    by_cases m1 : m = added_node
    · rw [m1, Function.update_same, Function.update_same]
    rw [Function.update_noteq m1, Function.update_noteq m1, Function.update_noteq m1]
    by_cases m2 : m = dad
    · rw [m2, Function.update_same]
    rw [Function.update_noteq m2]
    by_cases m3 : m = node
    · rw [m3, Function.update_same]
    rw [Function.update_noteq m3, Function.update_noteq m1, Function.update_noteq m2,
      Function.update_noteq m3]

theorem keepBest_assoc (a b c : Int × Nat × Nat) :
    keepBest (keepBest a b) c = keepBest a (keepBest b c) := by
  unfold keepBest
  by_cases h1 : b.1 < a.1
  · by_cases h2 : c.1 < b.1
    · have h3 : c.1 < a.1 := lt_trans h2 h1
      simp only [h1, h2, h3, if_true]
    · simp only [h1, h2, if_true, if_false]
  · by_cases h2 : c.1 < b.1
    · simp only [h1, h2, if_true, if_false]
    · by_cases h3 : c.1 < a.1
      · exfalso
        omega
      · simp only [h1, h2, h3, if_false]

theorem foldl_keepBest (L : List (Int × Nat × Nat)) (b c : Int × Nat × Nat) :
    L.foldl keepBest (keepBest b c) = keepBest b (L.foldl keepBest c) := by
  induction L generalizing b c with
  | nil => rfl
  | cons d L ih =>
    rw [List.foldl_cons, List.foldl_cons, keepBest_assoc, ih]

theorem firstBest_append (L1 L2 : List (Int × Nat × Nat)) (b r : Int × Nat × Nat)
    (h1 : firstBest L1 = some b) (h2 : firstBest L2 = some r) :
    firstBest (L1 ++ L2) = some (keepBest b r) := by
  cases L1 with
  | nil => cases h1
  | cons x xs =>
    cases L2 with
    | nil => cases h2
    | cons y ys =>
      simp only [firstBest, Option.some.injEq] at h1 h2
      simp only [List.cons_append, firstBest, Option.some.injEq, List.foldl_append,
        List.foldl_cons]
      rw [h1, foldl_keepBest, h2]

theorem edgeLength_congr (t t1 : Tree) (u v : Nat) (h : t1.neighbors u = t.neighbors u) :
    t1.edgeLength u v = t.edgeLength u v := by
  unfold Tree.edgeLength
  rw [h]

/-- The recursion of `addTaxonMP` from the branch `(node, dad)`, in a store that agrees
with `t0` up to the lengths in the placeholder slots: it returns the first of the best
scores of the branches visited, and leaves the store `t0` up to these lengths. -/
theorem addTaxonMP_core (score : Tree → Option Int) (added_node ph1 ph2 : Nat) (t0 : Tree)
    (val : Nat → Nat → Int) (hph : t0.HoldsPlaceholders added_node ph1 ph2)
    (fuel : Nat) (cur : Tree) (node dad : Nat)
    (hag : cur.AgreesOff t0 added_node ph1 ph2)
    (hok : t0.walkOK fuel node (some dad) = true)
    (haway : ∀ p ∈ t0.walk fuel node (some dad), t0.BranchAway added_node p.1 p.2)
    (hsym : ∀ p ∈ t0.walk fuel node (some dad), ∃ len,
      t0.edgeLength p.2 p.1 = some len ∧ t0.edgeLength p.1 p.2 = some len)
    (hval : ∀ p ∈ t0.walk fuel node (some dad), ∀ len ti,
      t0.edgeLength p.2 p.1 = some len →
      insertAddedNode t0 added_node ph1 ph2 p.1 p.2 len = some ti →
      score ti = some (val p.1 p.2)) :
    ∃ b cur1 L, addTaxonMP score added_node ph1 ph2 fuel cur node dad =
        some ⟨b.1, b.2.1, b.2.2, cur1⟩ ∧
      firstBest (scoredWalk val (t0.walk fuel node (some dad))) = some b ∧
      cur1.RestoredTo t0 added_node ph1 ph2 L := by
  induction fuel generalizing cur node dad with
  | zero => cases hok
  | succ fuel ih =>
    rw [walk_some_succ] at haway hsym hval
    rw [walkOK_some_succ] at hok
    have hb0 := haway (node, dad) (List.mem_cons_self _ _)
    obtain ⟨len, hl1, hl2⟩ := hsym (node, dad) (List.mem_cons_self _ _)
    simp only at hb0 hl1 hl2
    obtain ⟨g1, g2, g3, g4⟩ := hag
    have hbd : dad ≠ added_node := hb0.2.2.2.2.1
    have hbn : node ≠ added_node := hb0.2.2.2.1
    have hcl : cur.edgeLength dad node = some len := by
      rw [edgeLength_congr t0 cur dad node (g3 dad hbd)]
      exact hl1
    obtain ⟨ti, hins, hview⟩ := insertAddedNode_view cur t0 added_node ph1 ph2 node dad len
      ⟨g1, g2, g3, g4⟩ hph hb0
    obtain ⟨ti0, hins0, hview0⟩ := insertAddedNode_view t0 t0 added_node ph1 ph2 node dad len
      (agreesOff_refl t0 added_node ph1 ph2) hph hb0
    have hti : ti = ti0 := insertedAt_unique ti ti0 t0 _ _ _ _ _ _ hview hview0
    have hsc : score ti = some (val node dad) := by
      rw [hti]
      exact hval (node, dad) (List.mem_cons_self _ _) len ti0 hl1 hins0
    obtain ⟨cur8, hrem, hres⟩ := removeAddedNode_view ti t0 added_node ph1 ph2 node dad len
      hview hph hb0 hl1 hl2
    have hn8 : cur8.neighbors node = t0.neighbors node := by
      rw [hres.2.2, Function.update_noteq hbn]
    -- the loop over the slots of `node`
    have hloop : ∃ s, (List.range (t0.neighbors node).length).foldlM
          (addTaxonMPTurn (addTaxonMP score added_node ph1 ph2 fuel) node dad)
          ⟨val node dad, node, dad, cur8⟩ = some s ∧
        ((∃ L, s.tree.RestoredTo t0 added_node ph1 ph2 L) ∧
          firstBest (scoredWalk val ((node, dad) ::
            ((((t0.links node).take (t0.neighbors node).length).filter
              (fun c => c != dad)).flatMap
            (fun c => Tree.walk fuel t0 c (some node))))) =
            some (s.best_score, s.target_node, s.target_dad)) := by
      apply foldlM_range_inv (addTaxonMPTurn (addTaxonMP score added_node ph1 ph2 fuel) node dad)
        (fun i s => (∃ L, s.tree.RestoredTo t0 added_node ph1 ph2 L) ∧
          firstBest (scoredWalk val ((node, dad) ::
            ((((t0.links node).take i).filter (fun c => c != dad)).flatMap
            (fun c => Tree.walk fuel t0 c (some node))))) =
            some (s.best_score, s.target_node, s.target_dad))
      · exact ⟨⟨len, hres⟩, rfl⟩
      · intro i s hi ⟨⟨L, hL⟩, hbest⟩
        have hsn : s.tree.neighbors node = t0.neighbors node := by
          rw [hL.2.2, Function.update_noteq hbn]
        have hget : (s.tree.neighbors node).get? i = some ((t0.neighbors node)[i]) := by
          rw [hsn, List.get?_eq_getElem?, List.getElem?_eq_getElem hi]
        have htake : (t0.links node).take (i + 1) =
            (t0.links node).take i ++ [(t0.neighbors node)[i].node] := by
          have hil : i < (t0.links node).length := by rw [length_links]; exact hi
          rw [List.take_succ, List.getElem?_eq_getElem hil]
          simp only [Tree.links, List.getElem_map, Option.toList]
        unfold addTaxonMPTurn
        rw [hget]
        simp only
        by_cases hd : (t0.neighbors node)[i].node = dad
        · rw [if_pos hd]
          refine ⟨s, rfl, ⟨L, hL⟩, ?_⟩
          rw [htake, List.filter_append, List.filter_cons_of_neg (by simp [hd]),
            List.filter_nil, List.append_nil]
          exact hbest
        · rw [if_neg hd]
          have hmem : (t0.neighbors node)[i].node ∈ t0.links node := by
            unfold Tree.links
            exact List.mem_map.2 ⟨_, List.getElem_mem hi, rfl⟩
          have hsub : ∀ p ∈ Tree.walk fuel t0 (t0.neighbors node)[i].node (some node),
              p ∈ (node, dad) :: ((t0.links node).filter (fun c => c != dad)).flatMap
                (fun c => Tree.walk fuel t0 c (some node)) := by
            intro p hp
            refine List.mem_cons_of_mem _ (List.mem_flatMap.2 ⟨_, ?_, hp⟩)
            exact List.mem_filter.2 ⟨hmem, by simpa using hd⟩
          obtain ⟨b, cur1, L1, hcall, hb, hr1⟩ := ih s.tree (t0.neighbors node)[i].node node
            (agreesOff_of_restoredTo _ _ _ _ _ L hL) (hok.2 _ hmem hd)
            (fun p hp => haway p (hsub p hp)) (fun p hp => hsym p (hsub p hp))
            (fun p hp => hval p (hsub p hp))
          rw [hcall, Option.some_bind]
          have hnew : firstBest (scoredWalk val ((node, dad) ::
              ((((t0.links node).take (i + 1)).filter (fun c => c != dad)).flatMap
              (fun c => Tree.walk fuel t0 c (some node))))) =
              some (keepBest (s.best_score, s.target_node, s.target_dad) b) := by
            rw [htake, List.filter_append, List.filter_cons_of_pos (by simpa using hd),
              List.filter_nil, List.flatMap_append, ← List.cons_append]
            unfold scoredWalk
            rw [List.map_append]
            apply firstBest_append _ _ _ _ hbest
            simp only [List.flatMap_cons, List.flatMap_nil, List.append_nil]
            exact hb
          by_cases hlt : b.1 < s.best_score
          · rw [if_pos hlt]
            refine ⟨_, rfl, ⟨L1, hr1⟩, ?_⟩
            rw [hnew]
            unfold keepBest
            rw [if_pos hlt]
          · rw [if_neg hlt]
            refine ⟨_, rfl, ⟨L1, hr1⟩, ?_⟩
            rw [hnew]
            unfold keepBest
            rw [if_neg hlt]
    obtain ⟨s, hs, ⟨L, hL⟩, hbest⟩ := hloop
    refine ⟨(s.best_score, s.target_node, s.target_dad), s.tree, L, ?_, ?_, hL⟩
    · unfold addTaxonMP
      rw [hcl, Option.some_bind, hins, Option.some_bind, hsc, Option.some_bind, hrem,
        Option.some_bind, hn8, hs]
    · rw [walk_some_succ]
      rw [List.take_of_length_le (by rw [length_links])] at hbest
      exact hbest

theorem edgeLength_isSome_of_mem (t : Tree) (u v : Nat) (h : v ∈ t.links u) :
    ∃ len, t.edgeLength u v = some len := by
  obtain ⟨k, hk⟩ := findNeighborIt_of_mem (t.neighbors u) v h
  obtain ⟨e, he, _, _⟩ := (findNeighborIt_eq_some _ v k).1 hk
  rw [edgeLength_of_find t u v k hk, he]
  exact ⟨e.length, rfl⟩

theorem walk_live (t : Tree) (live : ℕ → Prop)
    (hcl : ∀ u, live u → ∀ v ∈ t.links u, live v ∧ u ∈ t.links v)
    (fuel : Nat) (node d : Nat) (hd : live d) (hok : t.walkOK fuel node (some d) = true) :
    ∀ p ∈ Tree.walk fuel t node (some d), live p.1 ∧ live p.2 := by
  induction fuel generalizing node d with
  | zero => cases hok
  | succ fuel ih =>
    rw [walkOK_some_succ] at hok
    have hn : live node := (hcl d hd node hok.1.2).1
    intro p hp
    rw [walk_some_succ] at hp
    rcases List.mem_cons.1 hp with hp | hp
    · rw [hp]
      exact ⟨hn, hd⟩
    · obtain ⟨c, hc, hpc⟩ := List.mem_flatMap.1 hp
      have hc' := List.mem_filter.1 hc
      exact ih c node hn (hok.2 c hc'.1 (by simpa using hc'.2)) p hpc

theorem firstBest_spec (L : List (Int × Nat × Nat)) (b : Int × Nat × Nat)
    (h : firstBest L = some b) :
    ∃ pre post, L = pre ++ b :: post ∧ (∀ y ∈ pre, b.1 < y.1) ∧ ∀ y ∈ post, b.1 ≤ y.1 := by
  cases L with
  | nil => cases h
  | cons x xs =>
    simp only [firstBest, Option.some.injEq] at h
    subst h
    induction xs using List.reverseRecOn with
    | nil => exact ⟨[], [], rfl, by simp, by simp⟩
    | append_singleton xs z ih =>
      obtain ⟨pre, post, e, h1, h2⟩ := ih
      rw [List.foldl_append, List.foldl_cons, List.foldl_nil]
      have hk : keepBest (xs.foldl keepBest x) z =
          if z.1 < (xs.foldl keepBest x).1 then z else xs.foldl keepBest x := rfl
      rw [hk]
      by_cases hz : z.1 < (xs.foldl keepBest x).1
      · rw [if_pos hz]
        refine ⟨x :: xs, [], by simp, ?_, by simp⟩
        intro y hy
        rw [e] at hy
        rcases List.mem_append.1 hy with hy | hy
        · exact lt_trans hz (h1 y hy)
        · rcases List.mem_cons.1 hy with hy | hy
          · rw [hy]
            exact hz
          · exact lt_of_lt_of_le hz (h2 y hy)
      · rw [if_neg hz]
        refine ⟨pre, post ++ [z], ?_, h1, ?_⟩
        · rw [← List.cons_append, e]
          simp
        · intro y hy
          rcases List.mem_append.1 hy with hy | hy
          · exact h2 y hy
          · rw [List.mem_singleton] at hy
            rw [hy]
            exact not_lt.1 hz

theorem scoredWalk_split (val : Nat → Nat → Int) (W : List (Nat × Nat))
    (b : Int × Nat × Nat) (pre post : List (Int × Nat × Nat))
    (h : scoredWalk val W = pre ++ b :: post) :
    ∃ pre1 post1, W = pre1 ++ (b.2.1, b.2.2) :: post1 ∧ b.1 = val b.2.1 b.2.2 ∧
      pre = scoredWalk val pre1 ∧ post = scoredWalk val post1 := by
  unfold scoredWalk at h ⊢
  induction W generalizing pre with
  | nil =>
    exfalso
    have := congrArg List.length h
    simp at this
    omega
  | cons w W ih =>
    cases pre with
    | nil =>
      simp only [List.map_cons, List.nil_append, List.cons.injEq] at h
      refine ⟨[], W, ?_, ?_, rfl, h.2.symm⟩
      · rw [← h.1]
        rfl
      · rw [← h.1]
    | cons q pre =>
      simp only [List.map_cons, List.cons_append, List.cons.injEq] at h
      obtain ⟨pre1, post1, e1, e2, e3, e4⟩ := ih pre h.2
      refine ⟨w :: pre1, post1, by rw [e1]; rfl, e2, ?_, e4⟩
      rw [List.map_cons, ← e3, h.1]

theorem edgeLength_phNorm (ph1 ph2 : Nat) (L : ℚ) (ns : List Neighbor) (v : Nat)
    (h1 : v ≠ ph1) (h2 : v ≠ ph2) :
    ((phNorm ph1 ph2 L ns).find? (fun nei => nei.node == v)).map (·.length) =
      (ns.find? (fun nei => nei.node == v)).map (·.length) := by
  induction ns with
  | nil => rfl
  | cons e es ih =>
    unfold phNorm at ih ⊢
    rw [List.map_cons, List.find?_cons, List.find?_cons]
    by_cases hv : e.node = v
    · have hn : ¬(e.node = ph1 ∨ e.node = ph2) := by
        rw [hv]
        rintro (hh | hh)
        · exact h1 hh
        · exact h2 hh
      rw [if_neg hn]
      simp [hv]
    · have hb : (e.node == v) = false := by simp [hv]
      have hb2 : ((if e.node = ph1 ∨ e.node = ph2 then { e with length := L } else e).node
          == v) = false := by
        split <;> simp [hv]
      rw [hb, hb2]
      exact ih

/-- C25: `addTaxonMP` restores the tree. From a branch `(node, dad)` behind which the
store is a tree away from `added_node`, with the same length on both half-edges of each
branch visited, and with a score routine that returns for each of them, `addTaxonMP`
returns, and after it every node other than `added_node` has exactly the half-edges it
had, so that the topology and the lengths at both ends of every branch are as before
the call; `added_node` has its half-edges to the same nodes in the same slots, the two
placeholders among them, and its other half-edges are unchanged (the placeholder slots
hold the length `L` of the branch visited last). -/
theorem addTaxonMP_restores (score : Tree → Option Int) (added_node ph1 ph2 : Nat) (t : Tree)
    (fuel node dad : Nat) (hph : t.HoldsPlaceholders added_node ph1 ph2)
    (hok : t.walkOK fuel node (some dad) = true)
    (haway : ∀ p ∈ t.walk fuel node (some dad), t.BranchAway added_node p.1 p.2)
    (hI1 : ∀ p ∈ t.walk fuel node (some dad), t.edgeLength p.2 p.1 = t.edgeLength p.1 p.2)
    (hscore : ∀ p ∈ t.walk fuel node (some dad),
      (insertionScore score t added_node ph1 ph2 p.1 p.2).isSome = true) :
    ∃ res L, addTaxonMP score added_node ph1 ph2 fuel t node dad = some res ∧
      res.tree.nodes.length = t.nodes.length ∧
      (∀ m, res.tree.nodeId m = t.nodeId m) ∧
      (∀ m, m ≠ added_node → res.tree.neighbors m = t.neighbors m) ∧
      (∀ m, res.tree.links m = t.links m) ∧
      (∀ u v, v ≠ ph1 → v ≠ ph2 → res.tree.edgeLength u v = t.edgeLength u v) ∧
      res.tree.neighbors added_node = phNorm ph1 ph2 L (t.neighbors added_node) ∧
      res.tree.HoldsPlaceholders added_node ph1 ph2 := by
  have hsym : ∀ p ∈ t.walk fuel node (some dad), ∃ len,
      t.edgeLength p.2 p.1 = some len ∧ t.edgeLength p.1 p.2 = some len := by
    intro p hp
    obtain ⟨len, hlen⟩ := edgeLength_isSome_of_mem t p.1 p.2 (haway p hp).1
    exact ⟨len, by rw [hI1 p hp]; exact hlen, hlen⟩
  have hval : ∀ p ∈ t.walk fuel node (some dad), ∀ len ti,
      t.edgeLength p.2 p.1 = some len →
      insertAddedNode t added_node ph1 ph2 p.1 p.2 len = some ti →
      score ti = some ((insertionScore score t added_node ph1 ph2 p.1 p.2).getD 0) := by
    intro p hp len ti h1 h2
    have h3 := hscore p hp
    unfold insertionScore at h3 ⊢
    rw [h1, Option.some_bind, h2, Option.some_bind] at h3 ⊢
    obtain ⟨s, hs⟩ := Option.isSome_iff_exists.1 h3
    rw [hs]
    rfl
  obtain ⟨b, cur1, L, hcall, _, hr1, hr2, hr3⟩ := addTaxonMP_core score added_node ph1 ph2 t
    (fun x y => (insertionScore score t added_node ph1 ph2 x y).getD 0) hph fuel t node dad
    (agreesOff_refl t added_node ph1 ph2) hok haway hsym hval
  have hlinks : ∀ m, cur1.links m = t.links m := by
    intro m
    unfold Tree.links
    rw [hr3]
    by_cases hm : m = added_node
    · rw [hm, Function.update_same]
      exact phNorm_nodes ph1 ph2 L _
    · rw [Function.update_noteq hm]
  refine ⟨_, L, hcall, hr1, hr2, ?_, hlinks, ?_, ?_, ?_⟩
  · intro m hm
    show cur1.neighbors m = t.neighbors m
    rw [hr3, Function.update_noteq hm]
  · intro u v hv1 hv2
    show cur1.edgeLength u v = t.edgeLength u v
    unfold Tree.edgeLength
    rw [hr3]
    by_cases hm : u = added_node
    · rw [hm, Function.update_same]
      exact edgeLength_phNorm ph1 ph2 L _ v hv1 hv2
    · rw [Function.update_noteq hm]
  · show cur1.neighbors added_node = _
    rw [hr3, Function.update_same]
  · show cur1.HoldsPlaceholders added_node ph1 ph2
    unfold Tree.HoldsPlaceholders
    rw [hlinks]
    exact hph

theorem addTaxonMP_restores_witness :
    ∃ res L, addTaxonMP (fun t => some (((t.links 7).sum : Nat) : Int)) 7 100 101 8
        exampleGrowStore 4 0 = some res ∧
      res.tree.nodes.length = exampleGrowStore.nodes.length ∧
      (∀ m, res.tree.nodeId m = exampleGrowStore.nodeId m) ∧
      (∀ m, m ≠ 7 → res.tree.neighbors m = exampleGrowStore.neighbors m) ∧
      (∀ m, res.tree.links m = exampleGrowStore.links m) ∧
      (∀ u v, v ≠ 100 → v ≠ 101 →
        res.tree.edgeLength u v = exampleGrowStore.edgeLength u v) ∧
      res.tree.neighbors 7 = phNorm 100 101 L (exampleGrowStore.neighbors 7) ∧
      res.tree.HoldsPlaceholders 7 100 101 :=
  addTaxonMP_restores (fun t => some (((t.links 7).sum : Nat) : Int)) 7 100 101
    exampleGrowStore 8 4 0 (by decide) (by decide) (by decide) (by decide) (by decide)

theorem graphOn_links_congr (t t1 : Tree) (live : ℕ → Prop)
    (h : ∀ u, live u → t1.links u = t.links u) : t1.graphOn live = t.graphOn live := by
  unfold Tree.graphOn
  congr 1
  funext u v
  apply propext
  constructor
  · rintro ⟨a, b, c⟩
    exact ⟨a, b, by rw [← h u a]; exact c⟩
  · rintro ⟨a, b, c⟩
    exact ⟨a, b, by rw [h u a]; exact c⟩

/-- To be a binary tree on the nodes in use is a matter of the neighbors of these
nodes only. -/
theorem isBinaryTreeOn_links_congr (t t1 : Tree) (live : ℕ → Prop)
    (h : ∀ u, live u → t1.links u = t.links u) (hT : t.IsBinaryTreeOn live) :
    t1.IsBinaryTreeOn live := by
  obtain ⟨h1, h2, h3, h4, h5, h6⟩ := hT
  refine ⟨?_, ?_, ?_, ?_, ?_, ?_⟩
  · intro u hu v hv
    rw [h u hu] at hv
    obtain ⟨a, b⟩ := h1 u hu v hv
    exact ⟨a, by rw [h v a]; exact b⟩
  · intro u hu
    rw [h u hu]
    exact h2 u hu
  · intro u hu
    rw [h u hu]
    exact h3 u hu
  · intro u hu
    rw [h u hu]
    exact h4 u hu
  · rw [graphOn_links_congr t t1 live h]
    exact h5
  · rw [graphOn_links_congr t t1 live h]
    exact h6

theorem live_lt_length (t : Tree) (n0 : Nat) (hT : t.IsBinaryTreeOn (fun u => u < n0)) :
    n0 ≤ t.nodes.length := by
  by_contra hlt
  have hlive : t.nodes.length < n0 := by omega
  have hdeg := hT.2.2.2.1 t.nodes.length hlive
  rw [links_eq_nil_of_le t _ (le_refl _)] at hdeg
  simp at hdeg

/-- The branches that the recursion of `addTaxonMP` visits from the branch of the leaf
`root` of a binary tree on the nodes below `n0`, in a store whose `added_node` and its
neighbors are not below `n0`. -/
theorem walk_region (t : Tree) (n0 root c added_node : Nat)
    (hT : t.IsBinaryTreeOn (fun u => u < n0)) (hroot : root < n0)
    (hleaf : t.links root = [c]) (hadded : n0 ≤ added_node)
    (hout : ∀ v ∈ t.links added_node, n0 ≤ v) (fuel : Nat) (hf : n0 ≤ fuel) :
    t.walkOK fuel c (some root) = true ∧
    (∀ p ∈ t.walk fuel c (some root), p.1 < n0 ∧ p.2 < n0 ∧ p.2 ∈ t.links p.1) ∧
    (∀ p ∈ t.walk fuel c (some root), t.BranchAway added_node p.1 p.2) ∧
    ∀ u v, u < n0 → v ∈ t.links u →
      (u, v) ∈ t.walk fuel c (some root) ∨ (v, u) ∈ t.walk fuel c (some root) := by
  have hcl := hT.1
  have hloop := hT.2.2.1
  have hc : c ∈ t.links root := by rw [hleaf]; exact List.mem_singleton_self _
  have hcl1 := hcl root hroot c hc
  have hok : t.walkOK fuel c (some root) = true :=
    walkOK_of_tree t _ n0 hT (fun u hu => hu) c root hcl1.1 hcl1.2 fuel hf
  have hlive := walk_live t _ hcl fuel c root hroot hok
  have hmem := walk_mem_links fuel t c (some root) hok
  refine ⟨hok, fun p hp => ⟨(hlive p hp).1, (hlive p hp).2, (hmem p hp).1⟩, ?_,
    fun u v hu hv => walk_covers t _ hT root c hroot hleaf fuel hok u v hu hv⟩
  intro p hp
  obtain ⟨l1, l2⟩ := hlive p hp
  obtain ⟨m1, m2⟩ := hmem p hp
  have l1' : p.1 < n0 := l1
  have l2' : p.2 < n0 := l2
  refine ⟨m1, m2, ?_, by omega, by omega, ?_, ?_, ?_, ?_⟩
  · intro e
    apply hloop p.1 l1
    rw [e] at m1 ⊢
    exact m1
  · intro hh
    have : added_node < n0 := (hcl p.1 l1 _ hh).1
    omega
  · intro hh
    have : added_node < n0 := (hcl p.2 l2 _ hh).1
    omega
  · intro hh
    have := hout _ hh
    omega
  · intro hh
    have := hout _ hh
    omega

/-- C26: in a store whose nodes below `n0` form a binary tree with the leaf `root`,
with the same length on both half-edges of each branch, `addTaxonMP` called from the
branch of `root` returns; the branches it visits are branches of the tree, and every
branch of the tree is among them, from one of its ends; the value returned is the
smallest of the scores of the stores with `added_node` inserted in a branch, and
`(target_node, target_dad)` is the first branch in the order of the traversal with
that score. -/
theorem addTaxonMP_best (score : Tree → Option Int) (added_node ph1 ph2 : Nat) (t : Tree)
    (n0 root : Nat) (hT : t.IsBinaryTreeOn (fun u => u < n0)) (hroot : root < n0)
    (hleaf : (t.links root).length = 1)
    (hph : t.HoldsPlaceholders added_node ph1 ph2) (hadded : n0 ≤ added_node)
    (hout : ∀ v ∈ t.links added_node, n0 ≤ v)
    (hI1 : ∀ u, u < n0 → ∀ v ∈ t.links u, t.edgeLength v u = t.edgeLength u v)
    (hscore : ∀ u, u < n0 → ∀ v ∈ t.links u,
      (insertionScore score t added_node ph1 ph2 u v).isSome = true) :
    ∃ c res pre post,
      t.links root = [c] ∧
      addTaxonMP score added_node ph1 ph2 t.nodes.length t c root = some res ∧
      (∀ p ∈ t.walk t.nodes.length c (some root), p.1 < n0 ∧ p.2 < n0 ∧ p.2 ∈ t.links p.1) ∧
      (∀ u v, u < n0 → v ∈ t.links u →
        (u, v) ∈ t.walk t.nodes.length c (some root) ∨
        (v, u) ∈ t.walk t.nodes.length c (some root)) ∧
      (∀ p ∈ t.walk t.nodes.length c (some root),
        ∃ s, insertionScore score t added_node ph1 ph2 p.1 p.2 = some s ∧
          res.best_score ≤ s) ∧
      t.walk t.nodes.length c (some root) =
        pre ++ (res.target_node, res.target_dad) :: post ∧
      insertionScore score t added_node ph1 ph2 res.target_node res.target_dad =
        some res.best_score ∧
      ∀ p ∈ pre, ∃ s, insertionScore score t added_node ph1 ph2 p.1 p.2 = some s ∧
        res.best_score < s := by
  obtain ⟨c, hc⟩ : ∃ c, t.links root = [c] := by
    cases hL : t.links root with
    | nil => rw [hL] at hleaf; simp at hleaf
    | cons c cs =>
      cases cs with
      | nil => exact ⟨c, rfl⟩
      | cons d ds => rw [hL] at hleaf; simp at hleaf
  obtain ⟨hok, hreg, haway, hcov⟩ := walk_region t n0 root c added_node hT hroot hc hadded
    hout t.nodes.length (live_lt_length t n0 hT)
  have hsome : ∀ p ∈ t.walk t.nodes.length c (some root),
      insertionScore score t added_node ph1 ph2 p.1 p.2 =
        some ((insertionScore score t added_node ph1 ph2 p.1 p.2).getD 0) := by
    intro p hp
    obtain ⟨s, hs⟩ := Option.isSome_iff_exists.1 (hscore p.1 (hreg p hp).1 p.2 (hreg p hp).2.2)
    rw [hs]
    rfl
  have hsym : ∀ p ∈ t.walk t.nodes.length c (some root), ∃ len,
      t.edgeLength p.2 p.1 = some len ∧ t.edgeLength p.1 p.2 = some len := by
    intro p hp
    obtain ⟨len, hlen⟩ := edgeLength_isSome_of_mem t p.1 p.2 (hreg p hp).2.2
    exact ⟨len, by rw [hI1 p.1 (hreg p hp).1 p.2 (hreg p hp).2.2]; exact hlen, hlen⟩
  have hval : ∀ p ∈ t.walk t.nodes.length c (some root), ∀ len ti,
      t.edgeLength p.2 p.1 = some len →
      insertAddedNode t added_node ph1 ph2 p.1 p.2 len = some ti →
      score ti = some ((insertionScore score t added_node ph1 ph2 p.1 p.2).getD 0) := by
    intro p hp len ti h1 h2
    have h3 := hsome p hp
    have h4 : insertionScore score t added_node ph1 ph2 p.1 p.2 = score ti := by
      unfold insertionScore
      rw [h1, Option.some_bind, h2, Option.some_bind]
    rw [← h4]
    exact h3
  obtain ⟨b, cur1, L, hcall, hbest, _⟩ := addTaxonMP_core score added_node ph1 ph2 t
    (fun x y => (insertionScore score t added_node ph1 ph2 x y).getD 0) hph t.nodes.length t
    c root (agreesOff_refl t added_node ph1 ph2) hok haway hsym hval
  obtain ⟨pre, post, hsplit, hpre, hpost⟩ := firstBest_spec _ b hbest
  obtain ⟨pre1, post1, hW, hb1, hpre1, hpost1⟩ := scoredWalk_split _ _ b pre post hsplit
  have htarget : (b.2.1, b.2.2) ∈ t.walk t.nodes.length c (some root) := by
    rw [hW]
    exact List.mem_append_right _ (List.mem_cons_self _ _)
  refine ⟨c, _, pre1, post1, hc, hcall, hreg, hcov, ?_, hW, ?_, ?_⟩
  · intro p hp
    refine ⟨_, hsome p hp, ?_⟩
    show b.1 ≤ _
    have hin : ((insertionScore score t added_node ph1 ph2 p.1 p.2).getD 0, p.1, p.2) ∈
        pre ++ b :: post := by
      rw [← hsplit]
      unfold scoredWalk
      exact List.mem_map.2 ⟨p, hp, rfl⟩
    rcases List.mem_append.1 hin with hin | hin
    · exact le_of_lt (hpre _ hin)
    · rcases List.mem_cons.1 hin with hin | hin
      · rw [← hin]
      · exact hpost _ hin
  · show insertionScore score t added_node ph1 ph2 b.2.1 b.2.2 = some b.1
    rw [hsome _ htarget, hb1]
  · intro p hp
    have hpW : p ∈ t.walk t.nodes.length c (some root) := by
      rw [hW]
      exact List.mem_append_left _ hp
    refine ⟨_, hsome p hpW, ?_⟩
    show b.1 < _
    refine hpre ((insertionScore score t added_node ph1 ph2 p.1 p.2).getD 0, p.1, p.2) ?_
    rw [hpre1]
    unfold scoredWalk
    exact List.mem_map.2 ⟨p, hp, rfl⟩

theorem exampleGrowStore_tree : exampleGrowStore.IsBinaryTreeOn (fun u => u < 6) :=
  isBinaryTreeOn_links_congr exampleTree exampleGrowStore (fun u => u < 6) (by decide)
    (isBinaryTreeOn_of_isBinaryTree exampleTree exampleTree_isBinaryTree)

theorem addTaxonMP_best_witness :
    ∃ c res pre post,
      exampleGrowStore.links 0 = [c] ∧
      addTaxonMP (fun t => some (((t.links 7).sum : Nat) : Int)) 7 100 101
        exampleGrowStore.nodes.length exampleGrowStore c 0 = some res ∧
      (∀ p ∈ exampleGrowStore.walk exampleGrowStore.nodes.length c (some 0),
        p.1 < 6 ∧ p.2 < 6 ∧ p.2 ∈ exampleGrowStore.links p.1) ∧
      (∀ u v, u < 6 → v ∈ exampleGrowStore.links u →
        (u, v) ∈ exampleGrowStore.walk exampleGrowStore.nodes.length c (some 0) ∨
        (v, u) ∈ exampleGrowStore.walk exampleGrowStore.nodes.length c (some 0)) ∧
      (∀ p ∈ exampleGrowStore.walk exampleGrowStore.nodes.length c (some 0),
        ∃ s, insertionScore (fun t => some (((t.links 7).sum : Nat) : Int)) exampleGrowStore
            7 100 101 p.1 p.2 = some s ∧
          res.best_score ≤ s) ∧
      exampleGrowStore.walk exampleGrowStore.nodes.length c (some 0) =
        pre ++ (res.target_node, res.target_dad) :: post ∧
      insertionScore (fun t => some (((t.links 7).sum : Nat) : Int)) exampleGrowStore
          7 100 101 res.target_node res.target_dad = some res.best_score ∧
      ∀ p ∈ pre, ∃ s, insertionScore (fun t => some (((t.links 7).sum : Nat) : Int))
          exampleGrowStore 7 100 101 p.1 p.2 = some s ∧
        res.best_score < s :=
  addTaxonMP_best (fun t => some (((t.links 7).sum : Nat) : Int)) 7 100 101 exampleGrowStore
    6 0 exampleGrowStore_tree (by decide) (by decide) (by decide) (by decide) (by decide)
    (by decide) (by decide)

theorem addEdge_adj {V : Type} (G : SimpleGraph V) (v x : V) (hvx : v ≠ x) (a b : V) :
    (SimpleGraph.fromRel (fun a b => G.Adj a b ∨ (a = v ∧ b = x))).Adj a b ↔
      G.Adj a b ∨ (a = v ∧ b = x) ∨ (a = x ∧ b = v) := by
  rw [fromRel_adj]
  constructor
  · rintro ⟨_, (h | h) | (h | h)⟩
    · exact Or.inl h
    · exact Or.inr (Or.inl h)
    · exact Or.inl h.symm
    · exact Or.inr (Or.inr ⟨h.2, h.1⟩)
  · rintro (h | ⟨rfl, rfl⟩ | ⟨rfl, rfl⟩)
    · exact ⟨h.ne, Or.inl (Or.inl h)⟩
    · exact ⟨hvx, Or.inl (Or.inr ⟨rfl, rfl⟩)⟩
    · exact ⟨Ne.symm hvx, Or.inr (Or.inr ⟨rfl, rfl⟩)⟩

theorem isolated_reach {V : Type} (G : SimpleGraph V) (p : V) (hp : ∀ v, ¬G.Adj p v)
    (v : V) (h : G.Reachable p v) : v = p :=
  reach_closed G (fun a => a = p) (fun _ b hab ha => absurd (ha ▸ hab) (hp b)) h rfl

/-- A node `p` is put in the middle of the branch between `x` and `y` of a graph without
cycles, and a node `q` is attached to `p`: the graph has no cycle, what was connected is
connected, and the new nodes are connected to the rest. -/
theorem subdivide_graph (G H : SimpleGraph ℕ) (x y p q : ℕ) (hG : G.IsAcyclic)
    (hxy : G.Adj x y) (hp : ∀ v, ¬G.Adj p v) (hq : ∀ v, ¬G.Adj q v) (hpq : p ≠ q)
    (hH : ∀ a b, H.Adj a b ↔
      (G.Adj a b ∧ ¬((a = x ∧ b = y) ∨ (a = y ∧ b = x))) ∨
      (a = x ∧ b = p) ∨ (a = p ∧ b = x) ∨ (a = y ∧ b = p) ∨ (a = p ∧ b = y) ∨
      (a = p ∧ b = q) ∨ (a = q ∧ b = p)) :
    H.IsAcyclic ∧ (∀ a b, G.Reachable a b → H.Reachable a b) ∧
      H.Reachable x p ∧ H.Reachable p q := by
  have hxp : x ≠ p := fun e => hp y (e ▸ hxy)
  have hyp : y ≠ p := fun e => hp x (e ▸ hxy.symm)
  have hxq : x ≠ q := fun e => hq y (e ▸ hxy)
  have hyq : y ≠ q := fun e => hq x (e ▸ hxy.symm)
  have hxyne : x ≠ y := hxy.ne
  have a0 : ∀ a b, (G \ fromEdgeSet {s(x, y)}).Adj a b ↔
      G.Adj a b ∧ ¬((a = x ∧ b = y) ∨ (a = y ∧ b = x)) := by
    intro a b
    rw [sdiff_adj, fromEdgeSet_adj]
    simp only [Set.mem_singleton_iff, Sym2.eq_iff]
    constructor
    · rintro ⟨h1, h2⟩
      exact ⟨h1, fun hh => h2 ⟨hh, h1.ne⟩⟩
    · rintro ⟨h1, h2⟩
      exact ⟨h1, fun hh => h2 hh.1⟩
  have c0 : (G \ fromEdgeSet {s(x, y)}).IsAcyclic :=
    delete_edge_acyclic G _ hG (fun a b hab => ((a0 a b).1 hab).1)
  have b0 : ¬(G \ fromEdgeSet {s(x, y)}).Reachable x y := (acyclic_iff_bridges G).1 hG x y hxy
  have p0 : ∀ v, ¬(G \ fromEdgeSet {s(x, y)}).Adj p v := fun v h => hp v ((a0 p v).1 h).1
  have q0 : ∀ v, ¬(G \ fromEdgeSet {s(x, y)}).Adj q v := fun v h => hq v ((a0 q v).1 h).1
  -- the branch between x and p
  have a1 := addEdge_adj (G \ fromEdgeSet {s(x, y)}) x p hxp
  have c1 : (SimpleGraph.fromRel (fun a b =>
      (G \ fromEdgeSet {s(x, y)}).Adj a b ∨ (a = x ∧ b = p))).IsAcyclic :=
    add_edge_acyclic _ _ x p c0
      (fun h => hxp (isolated_reach _ p p0 x h.symm)) a1
  -- the branch between y and p
  have r1 : ¬(SimpleGraph.fromRel (fun a b =>
      (G \ fromEdgeSet {s(x, y)}).Adj a b ∨ (a = x ∧ b = p))).Reachable y p := by
    intro h
    rcases reach_add (G \ fromEdgeSet {s(x, y)}) _ x p
      (fun a b hab => (a1 a b).1 hab) h with h | ⟨h, _⟩ | ⟨h, _⟩
    · exact hyp (isolated_reach _ p p0 y h.symm)
    · exact b0 h.symm
    · exact hyp (isolated_reach _ p p0 y h.symm)
  have a2 := addEdge_adj (SimpleGraph.fromRel (fun a b =>
      (G \ fromEdgeSet {s(x, y)}).Adj a b ∨ (a = x ∧ b = p))) y p hyp
  have c2 := add_edge_acyclic _ _ y p c1 r1 a2
  -- the branch between p and q
  have q2 : ∀ v, ¬(SimpleGraph.fromRel (fun a b =>
      (SimpleGraph.fromRel (fun a b =>
        (G \ fromEdgeSet {s(x, y)}).Adj a b ∨ (a = x ∧ b = p))).Adj a b ∨
        (a = y ∧ b = p))).Adj q v := by
    intro v h
    rw [a2, a1] at h
    rcases h with (h | ⟨e, _⟩ | ⟨e, _⟩) | ⟨e, _⟩ | ⟨e, _⟩
    · exact q0 v h
    · exact hxq e.symm
    · exact hpq e.symm
    · exact hyq e.symm
    · exact hpq e.symm
  have r2 : ¬(SimpleGraph.fromRel (fun a b =>
      (SimpleGraph.fromRel (fun a b =>
        (G \ fromEdgeSet {s(x, y)}).Adj a b ∨ (a = x ∧ b = p))).Adj a b ∨
        (a = y ∧ b = p))).Reachable p q :=
    fun h => hpq (isolated_reach _ q q2 p h.symm)
  have hacy : H.IsAcyclic := by
    apply add_edge_acyclic _ H p q c2 r2
    intro a b
    rw [hH, a2, a1, a0]
    simp only [or_assoc]
  have hxpH : H.Adj x p := (hH x p).2 (Or.inr (Or.inl ⟨rfl, rfl⟩))
  have hpyH : H.Adj p y := (hH p y).2 (Or.inr (Or.inr (Or.inr (Or.inr (Or.inl ⟨rfl, rfl⟩)))))
  have hpqH : H.Adj p q :=
    (hH p q).2 (Or.inr (Or.inr (Or.inr (Or.inr (Or.inr (Or.inl ⟨rfl, rfl⟩))))))
  refine ⟨hacy, ?_, hxpH.reachable, hpqH.reachable⟩
  intro a b hab
  refine reach_of_adj G H ?_ hab
  intro a b h
  by_cases hh : (a = x ∧ b = y) ∨ (a = y ∧ b = x)
  · rcases hh with ⟨rfl, rfl⟩ | ⟨rfl, rfl⟩
    · exact hxpH.reachable.trans hpyH.reachable
    · exact hpyH.symm.reachable.trans hxpH.symm.reachable
  · exact ((hH a b).2 (Or.inl ⟨h, hh⟩)).reachable

theorem newNode_view (t : Tree) (node_id : Nat) :
    (t.newNode node_id).2 = t.nodes.length ∧
    (t.newNode node_id).1.nodes.length = t.nodes.length + 1 ∧
    (t.newNode node_id).1.neighbors = t.neighbors ∧
    (∀ m, m ≠ t.nodes.length → (t.newNode node_id).1.nodeId m = t.nodeId m) ∧
    (t.newNode node_id).1.nodeId t.nodes.length = node_id := by
  refine ⟨rfl, by simp [Tree.newNode], ?_, ?_, ?_⟩
  · funext m
    unfold Tree.newNode Tree.neighbors
    simp only [List.get?_eq_getElem?]
    by_cases h : m < t.nodes.length
    · rw [List.getElem?_append_left h]
    · rw [List.getElem?_append_right (by omega), List.getElem?_eq_none (by omega : t.nodes.length ≤ m)]
      cases hm : m - t.nodes.length with
      | zero => rfl
      | succ j => rfl
  · intro m hm
    unfold Tree.newNode Tree.nodeId
    simp only [List.get?_eq_getElem?]
    by_cases h : m < t.nodes.length
    · rw [List.getElem?_append_left h]
    · rw [List.getElem?_append_right (by omega), List.getElem?_eq_none (by omega : t.nodes.length ≤ m)]
      cases hj : m - t.nodes.length with
      | zero => omega
      | succ j => rfl
  · unfold Tree.newNode Tree.nodeId
    simp

theorem addNeighbor_view (blank : Neighbor) (t : Tree) (n node : Nat) (length : ℚ)
    (hn : n < t.nodes.length) :
    (Tree.addNeighbor blank t n node length).neighbors = Function.update t.neighbors n
      (t.neighbors n ++ [{ blank with node := node, length := length }]) ∧
    (Tree.addNeighbor blank t n node length).nodes.length = t.nodes.length ∧
    ∀ m, (Tree.addNeighbor blank t n node length).nodeId m = t.nodeId m := by
  unfold Tree.addNeighbor
  exact ⟨(setNeighbors_view t n _ hn).1, (setNeighbors_view t n _ hn).2,
    fun m => nodeId_setNeighbors _ _ _ _⟩

theorem neighbors_length_nil (t : Tree) : t.neighbors t.nodes.length = [] := by
  unfold Tree.neighbors
  rw [List.get?_eq_getElem?, List.getElem?_eq_none (le_refl _)]

theorem neighbors_eq_nil_of_le (t : Tree) (m : Nat) (h : t.nodes.length ≤ m) :
    t.neighbors m = [] := by
  unfold Tree.neighbors
  rw [List.get?_eq_getElem?, List.getElem?_eq_none h]

/-- The store after the new taxon and its adjacent internal node are allocated: two
nodes more, the taxon with its half-edge to the internal node, and the internal node
with its half-edges to the taxon and to the two placeholders. -/
theorem growTreeNewTaxon_view (default_id ph1 ph2 : Nat) (blank : Neighbor) (t : Tree)
    (leafNum : Nat) :
    (growTreeNewTaxon default_id ph1 ph2 blank t leafNum).2 = t.nodes.length + 1 ∧
    (growTreeNewTaxon default_id ph1 ph2 blank t leafNum).1.nodes.length =
      t.nodes.length + 2 ∧
    (growTreeNewTaxon default_id ph1 ph2 blank t leafNum).1.neighbors =
      Function.update (Function.update t.neighbors t.nodes.length
        [{ blank with node := t.nodes.length + 1, length := 1 }])
        (t.nodes.length + 1)
        [{ blank with node := t.nodes.length, length := 1 },
         { blank with node := ph1, length := 1 }, { blank with node := ph2, length := 1 }] ∧
    (∀ m, m < t.nodes.length →
      (growTreeNewTaxon default_id ph1 ph2 blank t leafNum).1.nodeId m = t.nodeId m) ∧
    (growTreeNewTaxon default_id ph1 ph2 blank t leafNum).1.nodeId t.nodes.length = leafNum ∧
    (growTreeNewTaxon default_id ph1 ph2 blank t leafNum).1.nodeId (t.nodes.length + 1) =
      default_id := by
  obtain ⟨a1, a2, a3, a4, a5⟩ := newNode_view t leafNum
  obtain ⟨b1, b2, b3, b4, b5⟩ := newNode_view (t.newNode leafNum).1 default_id
  rw [a2] at b1 b2 b4 b5
  rw [a3] at b3
  have hne : t.nodes.length ≠ t.nodes.length + 1 := by omega
  obtain ⟨c1, c2, c3⟩ := addNeighbor_view blank ((t.newNode leafNum).1.newNode default_id).1
    (t.nodes.length + 1) t.nodes.length 1 (by rw [b2]; omega)
  rw [b3] at c1
  rw [neighbors_eq_nil_of_le t (t.nodes.length + 1) (by omega), List.nil_append] at c1
  obtain ⟨d1, d2, d3⟩ := addNeighbor_view blank
    (Tree.addNeighbor blank ((t.newNode leafNum).1.newNode default_id).1
      (t.nodes.length + 1) t.nodes.length 1)
    t.nodes.length (t.nodes.length + 1) 1 (by rw [c2, b2]; omega)
  rw [c1, Function.update_noteq hne, neighbors_length_nil, List.nil_append] at d1
  obtain ⟨e1, e2, e3⟩ := addNeighbor_view blank
    (Tree.addNeighbor blank (Tree.addNeighbor blank
      ((t.newNode leafNum).1.newNode default_id).1 (t.nodes.length + 1) t.nodes.length 1)
      t.nodes.length (t.nodes.length + 1) 1)
    (t.nodes.length + 1) ph1 1 (by rw [d2, c2, b2]; omega)
  rw [d1, Function.update_noteq (Ne.symm hne), Function.update_same] at e1
  obtain ⟨f1, f2, f3⟩ := addNeighbor_view blank
    (Tree.addNeighbor blank (Tree.addNeighbor blank (Tree.addNeighbor blank
      ((t.newNode leafNum).1.newNode default_id).1 (t.nodes.length + 1) t.nodes.length 1)
      t.nodes.length (t.nodes.length + 1) 1) (t.nodes.length + 1) ph1 1)
    (t.nodes.length + 1) ph2 1 (by rw [e2, d2, c2, b2]; omega)
  rw [e1, Function.update_same] at f1
  unfold growTreeNewTaxon
  simp only
  rw [a1, b1]
  refine ⟨rfl, ?_, ?_, ?_, ?_, ?_⟩
  · rw [f2, e2, d2, c2, b2]
  · rw [f1]
    funext m
    by_cases m1 : m = t.nodes.length + 1
    · rw [m1, Function.update_same, Function.update_same]
      rfl
    · rw [Function.update_noteq m1, Function.update_noteq m1, Function.update_noteq m1]
      by_cases m2 : m = t.nodes.length
      · rw [m2, Function.update_same, Function.update_same]
      · rw [Function.update_noteq m2, Function.update_noteq m2, Function.update_noteq m1]
  · intro m hm
    rw [f3, e3, d3, c3, b4 m (by omega), a4 m (by omega)]
  · rw [f3, e3, d3, c3, b4 _ (by omega), a5]
  · rw [f3, e3, d3, c3, b5]

theorem shape_modify (ns : List Neighbor) (x y k : Nat) (l : ℚ)
    (hk : findNeighborIt ns x = some k) (hnd : (ns.map (·.node)).Nodup) :
    shape (ns.modify (fun nei => { nei with node := y, length := l }) k) =
      (shape ns).map (fun p => if p.1 = x then (y, l) else p) := by
  obtain ⟨e, he, hx, _⟩ := (findNeighborIt_eq_some ns x k).1 hk
  unfold shape
  apply List.ext_getElem?
  intro j
  simp only [List.getElem?_map, List.getElem?_modify]
  cases hj : ns[j]? with
  | none => rfl
  | some e1 =>
    simp only [Option.map_eq_map, Option.map_some', Option.some.injEq]
    by_cases hjk : k = j
    · subst hjk
      rw [he] at hj
      cases hj
      simp only [if_true, hx]
    · have : e1.node ≠ x := fun hh => hjk (slot_unique ns hnd x k hk j e1 hj hh).symm
      simp only [hjk, if_false, this]

theorem map_fst_replace (S : List (Nat × ℚ)) (y a : Nat) (h : ℚ) :
    (S.map (fun p => if p.1 = y then (a, h) else p)).map (·.1) =
      (S.map (·.1)).map (fun z => if z = y then a else z) := by
  rw [List.map_map, List.map_map]
  apply List.map_congr_left
  intro p _
  simp only [Function.comp_apply]
  split <;> rfl

theorem mem_replace (L : List Nat) (y a b : Nat) :
    b ∈ L.map (fun z => if z = y then a else z) ↔ (b = a ∧ y ∈ L) ∨ (b ∈ L ∧ b ≠ y) := by
  rw [List.mem_map]
  constructor
  · rintro ⟨z, hz, e⟩
    by_cases hzy : z = y
    · rw [if_pos hzy] at e
      exact Or.inl ⟨e.symm, hzy ▸ hz⟩
    · rw [if_neg hzy] at e
      exact Or.inr ⟨e ▸ hz, e ▸ hzy⟩
  · rintro (⟨e, hy⟩ | ⟨hb, hby⟩)
    · exact ⟨y, hy, by rw [if_pos rfl, e]⟩
    · exact ⟨b, hb, by rw [if_neg hby]⟩

theorem mem_shape_replace (S : List (Nat × ℚ)) (y a : Nat) (h : ℚ) (v : Nat) (l : ℚ) :
    (v, l) ∈ S.map (fun p => if p.1 = y then (a, h) else p) ↔
      (v = a ∧ l = h ∧ ∃ l1, (y, l1) ∈ S) ∨ ((v, l) ∈ S ∧ v ≠ y) := by
  rw [List.mem_map]
  constructor
  · rintro ⟨z, hz, e⟩
    by_cases hzy : z.1 = y
    · rw [if_pos hzy] at e
      have e1 := (Prod.mk.inj e).1
      have e2 := (Prod.mk.inj e).2
      refine Or.inl ⟨e1.symm, e2.symm, z.2, ?_⟩
      rw [← hzy]
      exact hz
    · rw [if_neg hzy] at e
      obtain ⟨z1, z2⟩ := z
      cases e
      exact Or.inr ⟨hz, hzy⟩
  · rintro (⟨e1, e2, l1, hy⟩ | ⟨hb, hby⟩)
    · exact ⟨(y, l1), hy, by rw [if_pos rfl, e1, e2]⟩
    · exact ⟨(v, l), hb, by rw [if_neg hby]⟩

theorem nodup_replace (L : List Nat) (y a : Nat) (hnd : L.Nodup) (ha : a ∉ L) :
    (L.map (fun z => if z = y then a else z)).Nodup := by
  apply List.Nodup.map_on _ hnd
  intro u hu v hv e
  by_cases h1 : u = y
  · by_cases h2 : v = y
    · rw [h1, h2]
    · rw [if_pos h1, if_neg h2] at e
      exact absurd (e ▸ hv) ha
  · by_cases h2 : v = y
    · rw [if_neg h1, if_pos h2] at e
      exact absurd (e ▸ hu) ha
    · rw [if_neg h1, if_neg h2] at e
      exact e

theorem mem_links_iff_shape (t : Tree) (u v : Nat) :
    v ∈ t.links u ↔ ∃ l, (v, l) ∈ shape (t.neighbors u) := by
  rw [links_of_shape, List.mem_map]
  constructor
  · rintro ⟨p, hp, e⟩
    exact ⟨p.2, by rw [← e]; exact hp⟩
  · rintro ⟨l, hl⟩
    exact ⟨(v, l), hl, rfl⟩

/-- The half-edges of the store `ti` that has `added_node`, the node after the new
taxon, in the middle of the branch between `x` and `y` of the store `t`, in terms of
the half-edges of `t`. -/
theorem inserted_table (t tm ti : Tree) (blank : Neighbor) (ph1 ph2 x y : Nat) (len : ℚ)
    (htm : tm.neighbors = Function.update (Function.update t.neighbors t.nodes.length
        [{ blank with node := t.nodes.length + 1, length := 1 }])
        (t.nodes.length + 1)
        [{ blank with node := t.nodes.length, length := 1 },
         { blank with node := ph1, length := 1 }, { blank with node := ph2, length := 1 }])
    (hlen : tm.nodes.length = t.nodes.length + 2)
    (hph1 : t.nodes.length + 2 ≤ ph1) (hph2 : t.nodes.length + 2 ≤ ph2) (hph : ph1 ≠ ph2)
    (hx : x < t.nodes.length) (hy : y < t.nodes.length) (hxy : x ≠ y)
    (hndx : (t.links x).Nodup) (hndy : (t.links y).Nodup)
    (hins : ti.InsertedAt tm (t.nodes.length + 1) ph1 ph2 x y len) :
    shape (ti.neighbors x) =
      (shape (t.neighbors x)).map (fun p => if p.1 = y then (t.nodes.length + 1, len / 2) else p) ∧
    shape (ti.neighbors y) =
      (shape (t.neighbors y)).map (fun p => if p.1 = x then (t.nodes.length + 1, len / 2) else p) ∧
    shape (ti.neighbors (t.nodes.length + 1)) =
      [(t.nodes.length, 1), (x, len / 2), (y, len / 2)] ∧
    shape (ti.neighbors t.nodes.length) = [(t.nodes.length + 1, 1)] ∧
    (∀ m, m ≠ x → m ≠ y → m ≠ t.nodes.length → m ≠ t.nodes.length + 1 →
      ti.neighbors m = t.neighbors m) ∧
    ti.nodes.length = t.nodes.length + 2 ∧ ∀ m, ti.nodeId m = tm.nodeId m := by
  obtain ⟨kx, ky, k1, k2, hkx, hky, hk1, hk2, hl, hi, hv⟩ := hins
  have nx1 : x ≠ t.nodes.length + 1 := by omega
  have ny1 : y ≠ t.nodes.length + 1 := by omega
  have nx0 : x ≠ t.nodes.length := by omega
  have ny0 : y ≠ t.nodes.length := by omega
  have tmx : tm.neighbors x = t.neighbors x := by
    rw [htm, Function.update_noteq nx1, Function.update_noteq nx0]
  have tmy : tm.neighbors y = t.neighbors y := by
    rw [htm, Function.update_noteq ny1, Function.update_noteq ny0]
  have tma : tm.neighbors (t.nodes.length + 1) =
      [{ blank with node := t.nodes.length, length := 1 },
       { blank with node := ph1, length := 1 }, { blank with node := ph2, length := 1 }] := by
    rw [htm, Function.update_same]
  rw [tmx] at hkx hv
  rw [tmy] at hky hv
  rw [tma] at hk1 hk2 hv
  have e1 : k1 = 1 := by
    have : findNeighborIt [({ blank with node := t.nodes.length, length := 1 } : Neighbor),
        { blank with node := ph1, length := 1 }, { blank with node := ph2, length := 1 }] ph1 =
        some 1 := by
      apply findNeighborIt_unique _ ph1 1 { blank with node := ph1, length := 1 } rfl rfl
      intro j e hj he
      match j, hj, he with
      | 0, _, he =>
        simp only [List.getElem?_cons_zero, Option.some.injEq] at he
        rw [← he]
        show t.nodes.length ≠ ph1
        omega
      | 2, _, he =>
        simp only [List.getElem?_cons_succ, List.getElem?_cons_zero, Option.some.injEq] at he
        rw [← he]
        exact Ne.symm hph
      | j + 3, _, he => simp at he
    rw [this] at hk1
    exact (Option.some.inj hk1).symm
  have e2 : k2 = 2 := by
    have : findNeighborIt [({ blank with node := t.nodes.length, length := 1 } : Neighbor),
        { blank with node := ph1, length := 1 }, { blank with node := ph2, length := 1 }] ph2 =
        some 2 := by
      apply findNeighborIt_unique _ ph2 2 { blank with node := ph2, length := 1 } rfl rfl
      intro j e hj he
      match j, hj, he with
      | 0, _, he =>
        simp only [List.getElem?_cons_zero, Option.some.injEq] at he
        rw [← he]
        show t.nodes.length ≠ ph2
        omega
      | 1, _, he =>
        simp only [List.getElem?_cons_succ, List.getElem?_cons_zero, Option.some.injEq] at he
        rw [← he]
        exact hph
      | j + 3, _, he => simp at he
    rw [this] at hk2
    exact (Option.some.inj hk2).symm
  rw [e1, e2] at hv
  refine ⟨?_, ?_, ?_, ?_, ?_, ?_, hi⟩
  · rw [hv, Function.update_noteq nx1, Function.update_noteq hxy, Function.update_same]
    exact shape_modify _ y _ kx _ hkx hndx
  · rw [hv, Function.update_noteq ny1, Function.update_same]
    exact shape_modify _ x _ ky _ hky hndy
  · rw [hv, Function.update_same]
    rfl
  · rw [hv, Function.update_noteq (by omega), Function.update_noteq (Ne.symm ny0),
      Function.update_noteq (Ne.symm nx0), htm, Function.update_noteq (by omega),
      Function.update_same]
    rfl
  · intro m m1 m2 m3 m4
    rw [hv, Function.update_noteq m4, Function.update_noteq m2, Function.update_noteq m1, htm,
      Function.update_noteq m4, Function.update_noteq m3]
  · rw [hl, hlen]

/-- The half-edges of the store with `added_node` inserted, one by one. -/
theorem inserted_halfedges (t ti : Tree) (x y : Nat) (len : ℚ)
    (hx : x < t.nodes.length) (hy : y < t.nodes.length) (hxy : x ≠ y)
    (hyx : y ∈ t.links x) (hxy1 : x ∈ t.links y)
    (ha : shape (ti.neighbors x) = (shape (t.neighbors x)).map
      (fun p => if p.1 = y then (t.nodes.length + 1, len / 2) else p))
    (hb : shape (ti.neighbors y) = (shape (t.neighbors y)).map
      (fun p => if p.1 = x then (t.nodes.length + 1, len / 2) else p))
    (hc : shape (ti.neighbors (t.nodes.length + 1)) =
      [(t.nodes.length, 1), (x, len / 2), (y, len / 2)])
    (hd : shape (ti.neighbors t.nodes.length) = [(t.nodes.length + 1, 1)])
    (he : ∀ m, m ≠ x → m ≠ y → m ≠ t.nodes.length → m ≠ t.nodes.length + 1 →
      ti.neighbors m = t.neighbors m) (u v : Nat) (l : ℚ) :
    (v, l) ∈ shape (ti.neighbors u) ↔
      ((v, l) ∈ shape (t.neighbors u) ∧ ¬((u = x ∧ v = y) ∨ (u = y ∧ v = x))) ∨
      (u = x ∧ v = t.nodes.length + 1 ∧ l = len / 2) ∨
      (u = t.nodes.length + 1 ∧ v = x ∧ l = len / 2) ∨
      (u = y ∧ v = t.nodes.length + 1 ∧ l = len / 2) ∨
      (u = t.nodes.length + 1 ∧ v = y ∧ l = len / 2) ∨
      (u = t.nodes.length + 1 ∧ v = t.nodes.length ∧ l = 1) ∨
      (u = t.nodes.length ∧ v = t.nodes.length + 1 ∧ l = 1) := by
  have nx1 : x ≠ t.nodes.length + 1 := by omega
  have ny1 : y ≠ t.nodes.length + 1 := by omega
  have nx0 : x ≠ t.nodes.length := by omega
  have ny0 : y ≠ t.nodes.length := by omega
  have n01 : t.nodes.length ≠ t.nodes.length + 1 := by omega
  obtain ⟨lx, hlx⟩ := (mem_links_iff_shape t x y).1 hyx
  obtain ⟨ly, hly⟩ := (mem_links_iff_shape t y x).1 hxy1
  have hnil1 : shape (t.neighbors (t.nodes.length + 1)) = [] := by
    rw [neighbors_eq_nil_of_le t _ (by omega)]
    rfl
  have hnil0 : shape (t.neighbors t.nodes.length) = [] := by
    rw [neighbors_eq_nil_of_le t _ (le_refl _)]
    rfl
  by_cases ux : u = x
  · subst ux
    rw [ha, mem_shape_replace]
    constructor
    · rintro (⟨e1, e2, _⟩ | ⟨h1, h2⟩)
      · exact Or.inr (Or.inl ⟨rfl, e1, e2⟩)
      · refine Or.inl ⟨h1, ?_⟩
        rintro (⟨_, e⟩ | ⟨e, _⟩)
        · exact h2 e
        · exact hxy e
    · rintro (⟨h1, h2⟩ | ⟨_, e1, e2⟩ | ⟨e, _⟩ | ⟨e, _⟩ | ⟨e, _⟩ | ⟨e, _⟩ | ⟨e, _⟩)
      · exact Or.inr ⟨h1, fun e => h2 (Or.inl ⟨rfl, e⟩)⟩
      · exact Or.inl ⟨e1, e2, lx, hlx⟩
      · exact absurd e nx1
      · exact absurd e hxy
      · exact absurd e nx1
      · exact absurd e nx1
      · exact absurd e nx0
  by_cases uy : u = y
  · subst uy
    rw [hb, mem_shape_replace]
    constructor
    · rintro (⟨e1, e2, _⟩ | ⟨h1, h2⟩)
      · exact Or.inr (Or.inr (Or.inr (Or.inl ⟨rfl, e1, e2⟩)))
      · refine Or.inl ⟨h1, ?_⟩
        rintro (⟨e, _⟩ | ⟨_, e⟩)
        · exact ux e
        · exact h2 e
    · rintro (⟨h1, h2⟩ | ⟨e, _⟩ | ⟨e, _⟩ | ⟨_, e1, e2⟩ | ⟨e, _⟩ | ⟨e, _⟩ | ⟨e, _⟩)
      · exact Or.inr ⟨h1, fun e => h2 (Or.inr ⟨rfl, e⟩)⟩
      · exact absurd e ux
      · exact absurd e ny1
      · exact Or.inl ⟨e1, e2, ly, hly⟩
      · exact absurd e ny1
      · exact absurd e ny1
      · exact absurd e ny0
  by_cases u1 : u = t.nodes.length + 1
  · subst u1
    rw [hc, hnil1]
    constructor
    · intro h
      simp only [List.mem_cons, Prod.mk.injEq, List.mem_nil_iff, or_false] at h
      rcases h with ⟨e1, e2⟩ | ⟨e1, e2⟩ | ⟨e1, e2⟩
      · exact Or.inr (Or.inr (Or.inr (Or.inr (Or.inr (Or.inl ⟨rfl, e1, e2⟩)))))
      · exact Or.inr (Or.inr (Or.inl ⟨rfl, e1, e2⟩))
      · exact Or.inr (Or.inr (Or.inr (Or.inr (Or.inl ⟨rfl, e1, e2⟩))))
    · rintro (⟨h, _⟩ | ⟨e, _⟩ | ⟨_, e1, e2⟩ | ⟨e, _⟩ | ⟨_, e1, e2⟩ | ⟨_, e1, e2⟩ | ⟨e, _⟩)
      · cases h
      · exact absurd e.symm nx1
      · rw [e1, e2]
        simp
      · exact absurd e.symm ny1
      · rw [e1, e2]
        simp
      · rw [e1, e2]
        simp
      · exact absurd e.symm n01
  by_cases u0 : u = t.nodes.length
  · subst u0
    rw [hd, hnil0]
    constructor
    · intro h
      simp only [List.mem_cons, Prod.mk.injEq, List.mem_nil_iff, or_false] at h
      exact Or.inr (Or.inr (Or.inr (Or.inr (Or.inr (Or.inr ⟨rfl, h.1, h.2⟩)))))
    · rintro (⟨h, _⟩ | ⟨e, _⟩ | ⟨e, _⟩ | ⟨e, _⟩ | ⟨e, _⟩ | ⟨e, _⟩ | ⟨_, e1, e2⟩)
      · cases h
      · exact absurd e.symm nx0
      · exact absurd e n01
      · exact absurd e.symm ny0
      · exact absurd e n01
      · exact absurd e n01
      · rw [e1, e2]
        simp
  rw [he u ux uy u0 u1]
  constructor
  · intro h
    refine Or.inl ⟨h, ?_⟩
    rintro (⟨e, _⟩ | ⟨e, _⟩)
    · exact ux e
    · exact uy e
  · rintro (⟨h1, _⟩ | ⟨e, _⟩ | ⟨e, _⟩ | ⟨e, _⟩ | ⟨e, _⟩ | ⟨e, _⟩ | ⟨e, _⟩)
    · exact h1
    · exact absurd e ux
    · exact absurd e u1
    · exact absurd e uy
    · exact absurd e u1
    · exact absurd e u1
    · exact absurd e u0

/-- With `added_node` and the new taxon inserted in a branch of the tree on `k` taxa,
the store is the tree on `k + 1` taxa. -/
theorem growInv_insert (k : Nat) (t ti : Tree) (x y : Nat) (len : ℚ) (hk : 3 ≤ k)
    (hinv : GrowInv k t) (hx : x < t.nodes.length) (hyx : y ∈ t.links x)
    (ha : shape (ti.neighbors x) = (shape (t.neighbors x)).map
      (fun p => if p.1 = y then (t.nodes.length + 1, len / 2) else p))
    (hb : shape (ti.neighbors y) = (shape (t.neighbors y)).map
      (fun p => if p.1 = x then (t.nodes.length + 1, len / 2) else p))
    (hc : shape (ti.neighbors (t.nodes.length + 1)) =
      [(t.nodes.length, 1), (x, len / 2), (y, len / 2)])
    (hd : shape (ti.neighbors t.nodes.length) = [(t.nodes.length + 1, 1)])
    (he : ∀ m, m ≠ x → m ≠ y → m ≠ t.nodes.length → m ≠ t.nodes.length + 1 →
      ti.neighbors m = t.neighbors m)
    (hf : ti.nodes.length = t.nodes.length + 2)
    (hid : ∀ m, m < t.nodes.length → ti.nodeId m = t.nodeId m)
    (hidn : ti.nodeId t.nodes.length = k) : GrowInv (k + 1) ti := by
  obtain ⟨⟨hsym, hnd, hloop, hdeg, hacy, hconn⟩, hn, hroot, hI1, hleaves, hint⟩ := hinv
  have hxy1 : x ∈ t.links y := hsym x y hyx
  have hy : y < t.nodes.length := lt_of_mem_links t y x hxy1
  have hxy : x ≠ y := fun e => hloop x (by rw [← e] at hyx; exact hyx)
  have hlt : ∀ u v, v ∈ t.links u → v < t.nodes.length := fun u v h =>
    lt_of_mem_links t v u (hsym u v h)
  have hchar := inserted_halfedges t ti x y len hx hy hxy hyx hxy1 ha hb hc hd he
  have hlink : ∀ u v, v ∈ ti.links u ↔
      (v ∈ t.links u ∧ ¬((u = x ∧ v = y) ∨ (u = y ∧ v = x))) ∨
      (u = x ∧ v = t.nodes.length + 1) ∨ (u = t.nodes.length + 1 ∧ v = x) ∨
      (u = y ∧ v = t.nodes.length + 1) ∨ (u = t.nodes.length + 1 ∧ v = y) ∨
      (u = t.nodes.length + 1 ∧ v = t.nodes.length) ∨
      (u = t.nodes.length ∧ v = t.nodes.length + 1) := by
    intro u v
    rw [mem_links_iff_shape, mem_links_iff_shape]
    constructor
    · rintro ⟨l, hl⟩
      rcases (hchar u v l).1 hl with ⟨h1, h2⟩ | ⟨h1, h2, _⟩ | ⟨h1, h2, _⟩ | ⟨h1, h2, _⟩ |
        ⟨h1, h2, _⟩ | ⟨h1, h2, _⟩ | ⟨h1, h2, _⟩
      · exact Or.inl ⟨⟨l, h1⟩, h2⟩
      · exact Or.inr (Or.inl ⟨h1, h2⟩)
      · exact Or.inr (Or.inr (Or.inl ⟨h1, h2⟩))
      · exact Or.inr (Or.inr (Or.inr (Or.inl ⟨h1, h2⟩)))
      · exact Or.inr (Or.inr (Or.inr (Or.inr (Or.inl ⟨h1, h2⟩))))
      · exact Or.inr (Or.inr (Or.inr (Or.inr (Or.inr (Or.inl ⟨h1, h2⟩)))))
      · exact Or.inr (Or.inr (Or.inr (Or.inr (Or.inr (Or.inr ⟨h1, h2⟩)))))
    · rintro (⟨⟨l, h1⟩, h2⟩ | ⟨h1, h2⟩ | ⟨h1, h2⟩ | ⟨h1, h2⟩ | ⟨h1, h2⟩ | ⟨h1, h2⟩ | ⟨h1, h2⟩)
      · exact ⟨l, (hchar u v l).2 (Or.inl ⟨h1, h2⟩)⟩
      · exact ⟨len / 2, (hchar u v _).2 (Or.inr (Or.inl ⟨h1, h2, rfl⟩))⟩
      · exact ⟨len / 2, (hchar u v _).2 (Or.inr (Or.inr (Or.inl ⟨h1, h2, rfl⟩)))⟩
      · exact ⟨len / 2, (hchar u v _).2 (Or.inr (Or.inr (Or.inr (Or.inl ⟨h1, h2, rfl⟩))))⟩
      · exact ⟨len / 2,
          (hchar u v _).2 (Or.inr (Or.inr (Or.inr (Or.inr (Or.inl ⟨h1, h2, rfl⟩)))))⟩
      · exact ⟨1,
          (hchar u v _).2 (Or.inr (Or.inr (Or.inr (Or.inr (Or.inr (Or.inl ⟨h1, h2, rfl⟩))))))⟩
      · exact ⟨1,
          (hchar u v _).2 (Or.inr (Or.inr (Or.inr (Or.inr (Or.inr (Or.inr ⟨h1, h2, rfl⟩))))))⟩
  -- both half-edges of each branch hold the same length
  have hI1' : ∀ u v l, (v, l) ∈ shape (ti.neighbors u) → (u, l) ∈ shape (ti.neighbors v) := by
    intro u v l h
    rw [hchar] at h ⊢
    rcases h with ⟨h1, h2⟩ | h | h | h | h | h | h
    · refine Or.inl ⟨hI1 u v l h1, ?_⟩
      rintro (⟨e1, e2⟩ | ⟨e1, e2⟩)
      · exact h2 (Or.inr ⟨e2, e1⟩)
      · exact h2 (Or.inl ⟨e2, e1⟩)
    · exact Or.inr (Or.inr (Or.inl ⟨h.2.1, h.1, h.2.2⟩))
    · exact Or.inr (Or.inl ⟨h.2.1, h.1, h.2.2⟩)
    · exact Or.inr (Or.inr (Or.inr (Or.inr (Or.inl ⟨h.2.1, h.1, h.2.2⟩))))
    · exact Or.inr (Or.inr (Or.inr (Or.inl ⟨h.2.1, h.1, h.2.2⟩)))
    · exact Or.inr (Or.inr (Or.inr (Or.inr (Or.inr (Or.inr ⟨h.2.1, h.1, h.2.2⟩)))))
    · exact Or.inr (Or.inr (Or.inr (Or.inr (Or.inr (Or.inl ⟨h.2.1, h.1, h.2.2⟩)))))
  have hsym' : ∀ u v, v ∈ ti.links u → u ∈ ti.links v := by
    intro u v h
    rw [mem_links_iff_shape] at h ⊢
    obtain ⟨l, hl⟩ := h
    exact ⟨l, hI1' u v l hl⟩
  have hloop' : ∀ u, u ∉ ti.links u := by
    intro u h
    rw [hlink] at h
    rcases h with ⟨h1, _⟩ | ⟨h1, h2⟩ | ⟨h1, h2⟩ | ⟨h1, h2⟩ | ⟨h1, h2⟩ | ⟨h1, h2⟩ | ⟨h1, h2⟩
    · exact hloop u h1
    all_goals omega
  -- the vectors keep their sizes
  have hsize : ∀ u, u < t.nodes.length → (ti.neighbors u).length = (t.neighbors u).length := by
    intro u hu
    by_cases ux : u = x
    · rw [← length_shape, ux, ha, List.length_map, length_shape]
    by_cases uy : u = y
    · rw [← length_shape, uy, hb, List.length_map, length_shape]
    rw [he u ux uy (by omega) (by omega)]
  have hsize1 : (ti.neighbors (t.nodes.length + 1)).length = 3 := by
    rw [← length_shape, hc]
    rfl
  have hsize0 : (ti.neighbors t.nodes.length).length = 1 := by
    rw [← length_shape, hd]
    rfl
  have hnd' : ∀ u, (ti.links u).Nodup := by
    intro u
    by_cases ux : u = x
    · rw [ux, links_of_shape, ha, map_fst_replace, ← links_of_shape]
      exact nodup_replace _ _ _ (hnd x) (fun h => by have := hlt x _ h; omega)
    by_cases uy : u = y
    · rw [uy, links_of_shape, hb, map_fst_replace, ← links_of_shape]
      exact nodup_replace _ _ _ (hnd y) (fun h => by have := hlt y _ h; omega)
    by_cases u1 : u = t.nodes.length + 1
    · rw [u1, links_of_shape, hc]
      simp only [List.map_cons, List.map_nil, List.nodup_cons, List.mem_cons,
        List.mem_singleton, List.not_mem_nil, not_false_eq_true, List.nodup_nil, and_true,
        not_or]
      exact ⟨⟨by omega, by omega⟩, hxy⟩
    by_cases u0 : u = t.nodes.length
    · rw [u0, links_of_shape, hd]
      simp
    · unfold Tree.links
      rw [he u ux uy u0 u1]
      exact hnd u
  have hdeg' : ∀ u, u < ti.nodes.length →
      (ti.neighbors u).length = 1 ∨ (ti.neighbors u).length = 3 := by
    intro u hu
    rw [hf] at hu
    by_cases u1 : u = t.nodes.length + 1
    · rw [u1, hsize1]
      exact Or.inr rfl
    by_cases u0 : u = t.nodes.length
    · rw [u0, hsize0]
      exact Or.inl rfl
    · rw [hsize u (by omega)]
      exact hdeg u (by omega)
  -- the graph
  have hgraph := subdivide_graph t.graph ti.graph x y (t.nodes.length + 1) t.nodes.length hacy
    ((graph_adj t hsym hloop x y).2 hyx)
    (fun v h => by
      rw [graph_adj t hsym hloop, links_eq_nil_of_le t _ (by omega)] at h
      cases h)
    (fun v h => by
      rw [graph_adj t hsym hloop, links_eq_nil_of_le t _ (le_refl _)] at h
      cases h)
    (by omega)
    (fun a b => by
      rw [graph_adj ti hsym' hloop', graph_adj t hsym hloop]
      exact hlink a b)
  obtain ⟨hacy', hreach, hxp, hpq⟩ := hgraph
  have hconn' : ∀ u v, u < ti.nodes.length → v < ti.nodes.length →
      ti.graph.Reachable u v := by
    have hR : ∀ u, u < ti.nodes.length → ti.graph.Reachable x u := by
      intro u hu
      rw [hf] at hu
      by_cases u1 : u = t.nodes.length + 1
      · rw [u1]
        exact hxp
      by_cases u0 : u = t.nodes.length
      · rw [u0]
        exact hxp.trans hpq
      · exact hreach x u (hconn x u hx (by omega))
    intro u v hu hv
    exact (hR u hu).symm.trans (hR v hv)
  -- the leaves and the other nodes
  have hrange : List.range ti.nodes.length =
      List.range t.nodes.length ++ [t.nodes.length, t.nodes.length + 1] := by
    rw [hf, List.range_succ, List.range_succ, List.append_assoc]
    rfl
  have hleafold : ∀ m, m < t.nodes.length → ti.isLeaf m = t.isLeaf m := by
    intro m hm
    unfold Tree.isLeaf
    rw [hsize m hm]
  have hleaf0 : ti.isLeaf t.nodes.length = true := by
    unfold Tree.isLeaf
    rw [hsize0]
    rfl
  have hleaf1 : ti.isLeaf (t.nodes.length + 1) = false := by
    unfold Tree.isLeaf
    rw [hsize1]
    rfl
  have hfilter : (List.range t.nodes.length).filter (fun n => ti.isLeaf n) =
      (List.range t.nodes.length).filter (fun n => t.isLeaf n) :=
    List.filter_congr (fun m hm => hleafold m (List.mem_range.1 hm))
  have hfilter2 : (List.range t.nodes.length).filter (fun n => !ti.isLeaf n) =
      (List.range t.nodes.length).filter (fun n => !t.isLeaf n) :=
    List.filter_congr (fun m hm => by rw [hleafold m (List.mem_range.1 hm)])
  refine ⟨⟨hsym', hnd', hloop', hdeg', hacy', hconn'⟩, by omega, ?_, hI1', ?_, ?_⟩
  · rw [length_links, hsize 1 (by omega), ← length_links]
    exact hroot
  · rw [hrange, List.filter_append, List.map_append, hfilter]
    have hm1 : ((List.range t.nodes.length).filter (fun n => t.isLeaf n)).map ti.nodeId =
        ((List.range t.nodes.length).filter (fun n => t.isLeaf n)).map t.nodeId :=
      List.map_congr_left (fun m hm => hid m (List.mem_range.1 (List.mem_filter.1 hm).1))
    rw [hm1, hleaves, List.range_succ]
    congr 1
    rw [List.filter_cons_of_pos (by simpa using hleaf0),
      List.filter_cons_of_neg (by simp [hleaf1])]
    simp only [List.filter_nil, List.map_cons, List.map_nil, hidn]
  · rw [hrange, List.filter_append, List.length_append, hfilter2, hint,
      List.filter_cons_of_neg (by simp [hleaf0]),
      List.filter_cons_of_pos (by simp [hleaf1])]
    simp only [List.filter_nil, List.length_cons, List.length_nil]
    omega

theorem find_of_mem_nodup (ns : List Neighbor) (hnd : (ns.map (·.node)).Nodup) (e : Neighbor)
    (he : e ∈ ns) : ns.find? (fun nei => nei.node == e.node) = some e := by
  induction ns with
  | nil => cases he
  | cons a as ih =>
    rw [List.map_cons, List.nodup_cons] at hnd
    rw [List.find?_cons]
    rcases List.mem_cons.1 he with h | h
    · rw [h]
      simp
    · have hne : a.node ≠ e.node := by
        intro hh
        apply hnd.1
        rw [hh]
        exact List.mem_map.2 ⟨e, h, rfl⟩
      have hb : (a.node == e.node) = false := by simp [hne]
      rw [hb]
      exact ih hnd.2 h

theorem edgeLength_of_shape (t : Tree) (u v : Nat) (l : ℚ) (hnd : (t.links u).Nodup)
    (h : (v, l) ∈ shape (t.neighbors u)) : t.edgeLength u v = some l := by
  unfold shape at h
  obtain ⟨e, he, hx⟩ := List.mem_map.1 h
  have h1 := (Prod.mk.inj hx).1
  have h2 := (Prod.mk.inj hx).2
  unfold Tree.edgeLength
  rw [← h1, find_of_mem_nodup _ hnd e he]
  simp only [Option.map_some', h2]

/-- In a store of the growth, both half-edges of a branch have the same length. -/
theorem growInv_edgeLength (k : Nat) (t : Tree) (hinv : GrowInv k t) (u v : Nat)
    (h : v ∈ t.links u) : ∃ len, t.edgeLength v u = some len ∧ t.edgeLength u v = some len := by
  obtain ⟨⟨_, hnd, _, _, _, _⟩, _, _, hI1, _, _⟩ := hinv
  obtain ⟨l, hl⟩ := (mem_links_iff_shape t u v).1 h
  exact ⟨l, edgeLength_of_shape t v u l (hnd v) (hI1 u v l hl),
    edgeLength_of_shape t u v l (hnd u) hl⟩

theorem growInv_leaf_ids (k : Nat) (t : Tree) (hinv : GrowInv k t) (n : Nat)
    (hn : n < t.nodes.length) (hleaf : t.isLeaf n = true) : t.nodeId n < k := by
  obtain ⟨_, _, _, _, hleaves, _⟩ := hinv
  have : t.nodeId n ∈ ((List.range t.nodes.length).filter (fun n => t.isLeaf n)).map t.nodeId :=
    List.mem_map.2 ⟨n, List.mem_filter.2 ⟨List.mem_range.2 hn, hleaf⟩, rfl⟩
  rw [hleaves] at this
  exact List.mem_range.1 this

/-- One turn of the loop of `growTreeMP` that adds the taxon `k` to the tree on the
taxa before it: the turn ends, and the store is the tree on `k + 1` taxa. -/
theorem growTreeMPStep_spec (score : Tree → Option Int) (default_id ph1 ph2 : Nat)
    (blank : Neighbor) (N k : Nat) (t : Tree) (hk : 3 ≤ k) (hkN : k < N)
    (hinv : GrowInv k t) (hph1 : 2 * N - 2 ≤ ph1) (hph2 : 2 * N - 2 ≤ ph2)
    (hph : ph1 ≠ ph2)
    (hscore : ∀ t1 : Tree, t1.IsBinaryTree → (t1.links 1).length = 1 →
      (∀ n, n < t1.nodes.length → t1.isLeaf n = true → t1.nodeId n < N) →
      (score t1).isSome = true) :
    ∃ t1, growTreeMPStep score default_id ph1 ph2 blank 1 t k = some t1 ∧
      GrowInv (k + 1) t1 := by
  have hinv0 := hinv
  obtain ⟨hT, hn, hroot, hI1, hleaves, hint⟩ := hinv
  have hsym := hT.1
  have hnd := hT.2.1
  obtain ⟨v1, v2, v3, v4, v5, v6⟩ := growTreeNewTaxon_view default_id ph1 ph2 blank t k
  have hp1 : t.nodes.length + 2 ≤ ph1 := by omega
  have hp2 : t.nodes.length + 2 ≤ ph2 := by omega
  -- the store with the two new nodes
  have hold : ∀ m, m < t.nodes.length →
      (growTreeNewTaxon default_id ph1 ph2 blank t k).1.neighbors m = t.neighbors m := by
    intro m hm
    rw [v3, Function.update_noteq (by omega), Function.update_noteq (by omega)]
  have holdl : ∀ m, m < t.nodes.length →
      (growTreeNewTaxon default_id ph1 ph2 blank t k).1.links m = t.links m :=
    fun m hm => links_eq_of_neighbors _ _ m m (hold m hm)
  have hadd : (growTreeNewTaxon default_id ph1 ph2 blank t k).1.links (t.nodes.length + 1) =
      [t.nodes.length, ph1, ph2] := by
    unfold Tree.links
    rw [v3, Function.update_same]
    rfl
  have hTon : (growTreeNewTaxon default_id ph1 ph2 blank t k).1.IsBinaryTreeOn
      (fun u => u < t.nodes.length) :=
    isBinaryTreeOn_links_congr t _ _ holdl (isBinaryTreeOn_of_isBinaryTree t hT)
  have h1n : 1 < t.nodes.length := by omega
  obtain ⟨nei0, c, hget, hnei, hlinks1⟩ := links_singleton _ 1 (by
    rw [holdl 1 h1n]
    exact hroot : ((growTreeNewTaxon default_id ph1 ph2 blank t k).1.links 1).length = 1)
  have hhold : (growTreeNewTaxon default_id ph1 ph2 blank t k).1.HoldsPlaceholders
      (t.nodes.length + 1) ph1 ph2 := by
    unfold Tree.HoldsPlaceholders
    rw [hadd]
    refine ⟨by simp, by simp, hph, ?_⟩
    simp only [List.nodup_cons, List.mem_cons, List.mem_singleton, List.not_mem_nil,
      not_false_eq_true, List.nodup_nil, and_true, not_or]
    exact ⟨⟨by omega, by omega⟩, hph⟩
  obtain ⟨hok, hreg, haway, _⟩ := walk_region _ t.nodes.length 1 c (t.nodes.length + 1)
    hTon h1n hlinks1 (by omega)
    (fun v hv => by
      rw [hadd] at hv
      simp only [List.mem_cons, List.mem_singleton, List.not_mem_nil, or_false] at hv
      rcases hv with e | e | e <;> omega)
    (growTreeNewTaxon default_id ph1 ph2 blank t k).1.nodes.length (by rw [v2]; omega)
  -- every branch visited: the lengths, and the store with the taxon inserted
  have hedge : ∀ p ∈ (growTreeNewTaxon default_id ph1 ph2 blank t k).1.walk
      (growTreeNewTaxon default_id ph1 ph2 blank t k).1.nodes.length c (some 1), ∃ len,
      (growTreeNewTaxon default_id ph1 ph2 blank t k).1.edgeLength p.2 p.1 = some len ∧
      (growTreeNewTaxon default_id ph1 ph2 blank t k).1.edgeLength p.1 p.2 = some len := by
    intro p hp
    obtain ⟨q1, q2, q3⟩ := hreg p hp
    rw [holdl p.1 q1] at q3
    obtain ⟨len, e1, e2⟩ := growInv_edgeLength k t hinv0 p.1 p.2 q3
    refine ⟨len, ?_, ?_⟩
    · rw [edgeLength_congr t _ p.2 p.1 (hold p.2 q2)]
      exact e1
    · rw [edgeLength_congr t _ p.1 p.2 (hold p.1 q1)]
      exact e2
  have hgrow : ∀ (cur : Tree) (x y : Nat) (len : ℚ),
      cur.AgreesOff (growTreeNewTaxon default_id ph1 ph2 blank t k).1
        (t.nodes.length + 1) ph1 ph2 →
      x < t.nodes.length → y ∈ t.links x →
      (growTreeNewTaxon default_id ph1 ph2 blank t k).1.BranchAway (t.nodes.length + 1) x y →
      ∃ ti, insertAddedNode cur (t.nodes.length + 1) ph1 ph2 x y len = some ti ∧
        GrowInv (k + 1) ti := by
    intro cur x y len hag hx hyx hbr
    obtain ⟨ti, hins, hview⟩ := insertAddedNode_view cur _ (t.nodes.length + 1) ph1 ph2 x y len
      hag hhold hbr
    have hy : y < t.nodes.length := lt_of_mem_links t y x (hsym x y hyx)
    obtain ⟨ta, tb, tc, td, te, tf, tg⟩ := inserted_table t _ ti blank ph1 ph2 x y len v3 v2
      hp1 hp2 hph hx hy hbr.2.2.1 (hnd x) (hnd y) hview
    refine ⟨ti, hins, growInv_insert k t ti x y len hk hinv0 hx hyx ta tb tc td te tf ?_ ?_⟩
    · intro m hm
      rw [tg, v4 m hm]
    · rw [tg, v5]
  have hscoreW : ∀ p ∈ (growTreeNewTaxon default_id ph1 ph2 blank t k).1.walk
      (growTreeNewTaxon default_id ph1 ph2 blank t k).1.nodes.length c (some 1),
      insertionScore score (growTreeNewTaxon default_id ph1 ph2 blank t k).1
          (t.nodes.length + 1) ph1 ph2 p.1 p.2 =
        some ((insertionScore score (growTreeNewTaxon default_id ph1 ph2 blank t k).1
          (t.nodes.length + 1) ph1 ph2 p.1 p.2).getD 0) := by
    intro p hp
    obtain ⟨q1, _, q3⟩ := hreg p hp
    rw [holdl p.1 q1] at q3
    obtain ⟨len, e1, _⟩ := hedge p hp
    obtain ⟨ti, hins, hg⟩ := hgrow _ p.1 p.2 len (agreesOff_refl _ _ _ _) q1 q3 (haway p hp)
    have := hscore ti hg.1 hg.2.2.1
      (fun n hn hl => lt_of_lt_of_le (growInv_leaf_ids (k + 1) ti hg n hn hl) (by omega))
    obtain ⟨s, hs⟩ := Option.isSome_iff_exists.1 this
    unfold insertionScore
    rw [e1, Option.some_bind, hins, Option.some_bind, hs]
    rfl
  have hval : ∀ p ∈ (growTreeNewTaxon default_id ph1 ph2 blank t k).1.walk
      (growTreeNewTaxon default_id ph1 ph2 blank t k).1.nodes.length c (some 1), ∀ len ti,
      (growTreeNewTaxon default_id ph1 ph2 blank t k).1.edgeLength p.2 p.1 = some len →
      insertAddedNode (growTreeNewTaxon default_id ph1 ph2 blank t k).1
        (t.nodes.length + 1) ph1 ph2 p.1 p.2 len = some ti →
      score ti = some ((insertionScore score (growTreeNewTaxon default_id ph1 ph2 blank t k).1
          (t.nodes.length + 1) ph1 ph2 p.1 p.2).getD 0) := by
    intro p hp len ti h1 h2
    have h3 := hscoreW p hp
    have h4 : insertionScore score (growTreeNewTaxon default_id ph1 ph2 blank t k).1
        (t.nodes.length + 1) ph1 ph2 p.1 p.2 = score ti := by
      unfold insertionScore
      rw [h1, Option.some_bind, h2, Option.some_bind]
    rw [← h4]
    exact h3
  obtain ⟨b, cur1, L, hcall, hbest, hres⟩ := addTaxonMP_core score (t.nodes.length + 1) ph1 ph2
    (growTreeNewTaxon default_id ph1 ph2 blank t k).1
    (fun x y => (insertionScore score (growTreeNewTaxon default_id ph1 ph2 blank t k).1
      (t.nodes.length + 1) ph1 ph2 x y).getD 0) hhold
    (growTreeNewTaxon default_id ph1 ph2 blank t k).1.nodes.length
    (growTreeNewTaxon default_id ph1 ph2 blank t k).1 c 1 (agreesOff_refl _ _ _ _) hok haway
    hedge hval
  obtain ⟨pre, post, hsplit, _, _⟩ := firstBest_spec _ b hbest
  obtain ⟨pre1, post1, hW, _, _, _⟩ := scoredWalk_split _ _ b pre post hsplit
  have htarget : (b.2.1, b.2.2) ∈ (growTreeNewTaxon default_id ph1 ph2 blank t k).1.walk
      (growTreeNewTaxon default_id ph1 ph2 blank t k).1.nodes.length c (some 1) := by
    rw [hW]
    exact List.mem_append_right _ (List.mem_cons_self _ _)
  obtain ⟨q1, q2, q3⟩ := hreg _ htarget
  simp only at q1 q2 q3
  rw [holdl b.2.1 q1] at q3
  obtain ⟨len, e1, _⟩ := hedge _ htarget
  simp only at e1
  have hcl : cur1.edgeLength b.2.2 b.2.1 = some len := by
    rw [edgeLength_congr (growTreeNewTaxon default_id ph1 ph2 blank t k).1 cur1 b.2.2 b.2.1
      (by rw [hres.2.2, Function.update_noteq (by omega)])]
    exact e1
  obtain ⟨ti, hins, hg⟩ := hgrow cur1 b.2.1 b.2.2 len
    (agreesOff_of_restoredTo _ _ _ _ _ L hres) q1 q3 (haway _ htarget)
  refine ⟨ti, ?_, hg⟩
  unfold growTreeMPStep
  simp only
  rw [v1, hget, Option.some_bind, hnei, hcall, Option.some_bind]
  simp only
  rw [hcl, Option.some_bind, hins]

theorem growTree_init (default_id : Nat) (blank : Neighbor) :
    (List.range 3).foldl (growTreeInitStep blank (Tree.newNode ⟨[]⟩ default_id).2)
      (Tree.newNode ⟨[]⟩ default_id).1 = starTree default_id blank := by
  simp [List.range, List.range.loop, growTreeInitStep, Tree.newNode, Tree.addNeighbor,
    Tree.setNeighbors, Tree.neighbors, starTree]

theorem graph_links_congr (t t1 : Tree) (h : ∀ u, t1.links u = t.links u) :
    t1.graph = t.graph := by
  unfold Tree.graph
  congr 1
  funext u v
  rw [h u]

theorem isBinaryTree_links_congr (t t1 : Tree) (hlen : t1.nodes.length = t.nodes.length)
    (h : ∀ u, t1.links u = t.links u) (hT : t.IsBinaryTree) : t1.IsBinaryTree := by
  obtain ⟨h1, h2, h3, h4, h5, h6⟩ := hT
  refine ⟨?_, ?_, ?_, ?_, ?_, ?_⟩
  · intro u v hv
    rw [h u] at hv
    rw [h v]
    exact h1 u v hv
  · intro u
    rw [h u]
    exact h2 u
  · intro u
    rw [h u]
    exact h3 u
  · intro u hu
    rw [← length_links, h u, length_links]
    exact h4 u (by rw [← hlen]; exact hu)
  · rw [graph_links_congr t t1 h]
    exact h5
  · intro u v hu hv
    rw [graph_links_congr t t1 h]
    exact h6 u v (by rw [← hlen]; exact hu) (by rw [← hlen]; exact hv)

theorem starTree_links (default_id : Nat) (blank : Neighbor) (u : Nat) :
    (starTree default_id blank).links u = (starTree 1 ⟨0, 0, 0, 0, 0⟩).links u := by
  match u with
  | 0 => rfl
  | 1 => rfl
  | 2 => rfl
  | 3 => rfl
  | u + 4 =>
    rw [links_eq_nil_of_le _ _ (by show 4 ≤ u + 4; omega),
      links_eq_nil_of_le _ _ (by show 4 ≤ u + 4; omega)]

theorem starTree_closed : (starTree 1 ⟨0, 0, 0, 0, 0⟩).IsBinaryTree := by
  have hs : ∀ u, u < (starTree 1 ⟨0, 0, 0, 0, 0⟩).nodes.length →
      ∀ v ∈ (starTree 1 ⟨0, 0, 0, 0, 0⟩).links u, u ∈ (starTree 1 ⟨0, 0, 0, 0, 0⟩).links v := by
    decide
  have hl : ∀ u, u < (starTree 1 ⟨0, 0, 0, 0, 0⟩).nodes.length →
      u ∉ (starTree 1 ⟨0, 0, 0, 0, 0⟩).links u := by decide
  have hacy : (starTree 1 ⟨0, 0, 0, 0, 0⟩).graph.IsAcyclic := by
    rw [graph_eq_graphOf _ [(0, 3), (0, 2), (0, 1)] (by decide) (by decide)]
    apply pendant_acyclic _ _ _ _ (by decide) (by decide)
    apply pendant_acyclic _ _ _ _ (by decide) (by decide)
    apply pendant_acyclic _ _ _ _ (by decide) (by decide)
    exact graphOf_nil_acyclic
  apply isBinaryTree_of_checks _ hs (by decide) hl (by decide) hacy
  have adj : ∀ u v, v ∈ (starTree 1 ⟨0, 0, 0, 0, 0⟩).links u →
      (starTree 1 ⟨0, 0, 0, 0, 0⟩).graph.Reachable u v := by
    intro u v h
    unfold Tree.graph
    by_cases e : u = v
    · rw [e]
    · exact ((fromRel_adj _ _ _).2 ⟨e, Or.inl h⟩).reachable
  have h0 : ∀ u, u < (starTree 1 ⟨0, 0, 0, 0, 0⟩).nodes.length →
      (starTree 1 ⟨0, 0, 0, 0, 0⟩).graph.Reachable u 0 := by
    intro u hu
    have hu4 : u < 4 := hu
    interval_cases u
    · exact Reachable.refl _
    · exact adj 1 0 (by decide)
    · exact adj 2 0 (by decide)
    · exact adj 3 0 (by decide)
  intro u v hu hv
  exact (h0 u hu).trans (h0 v hv).symm

/-- The initial tree with 3 taxa is the star on the leaves 0, 1, 2. -/
theorem starTree_growInv (default_id : Nat) (blank : Neighbor) :
    GrowInv 3 (starTree default_id blank) := by
  refine ⟨isBinaryTree_links_congr (starTree 1 ⟨0, 0, 0, 0, 0⟩) (starTree default_id blank) rfl
    (starTree_links default_id blank) starTree_closed, rfl, rfl, ?_, rfl, rfl⟩
  intro u v l h
  match u with
  | 0 =>
    have h1 : (v, l) ∈ [((1 : Nat), (1 : ℚ)), (2, 1), (3, 1)] := h
    simp only [List.mem_cons, Prod.mk.injEq, List.mem_singleton, List.not_mem_nil,
      or_false] at h1
    rcases h1 with ⟨e1, e2⟩ | ⟨e1, e2⟩ | ⟨e1, e2⟩ <;> rw [e1, e2] <;>
      exact List.mem_singleton.2 rfl
  | 1 =>
    have h1 : (v, l) ∈ [((0 : Nat), (1 : ℚ))] := h
    rw [List.mem_singleton] at h1
    rw [(Prod.mk.inj h1).1, (Prod.mk.inj h1).2]
    show ((1 : Nat), (1 : ℚ)) ∈ [((1 : Nat), (1 : ℚ)), (2, 1), (3, 1)]
    simp
  | 2 =>
    have h1 : (v, l) ∈ [((0 : Nat), (1 : ℚ))] := h
    rw [List.mem_singleton] at h1
    rw [(Prod.mk.inj h1).1, (Prod.mk.inj h1).2]
    show ((2 : Nat), (1 : ℚ)) ∈ [((1 : Nat), (1 : ℚ)), (2, 1), (3, 1)]
    simp
  | 3 =>
    have h1 : (v, l) ∈ [((0 : Nat), (1 : ℚ))] := h
    rw [List.mem_singleton] at h1
    rw [(Prod.mk.inj h1).1, (Prod.mk.inj h1).2]
    show ((3 : Nat), (1 : ℚ)) ∈ [((1 : Nat), (1 : ℚ)), (2, 1), (3, 1)]
    simp
  | u + 4 =>
    rw [neighbors_eq_nil_of_le _ _ (by show 4 ≤ u + 4; omega)] at h
    cases h

theorem starTree_findNodeID (default_id : Nat) (blank : Neighbor) (hdef : default_id ≠ 0) :
    findNodeID 0 (starTree default_id blank).nodes.length (starTree default_id blank)
      (Tree.newNode ⟨[]⟩ default_id).2 none = some 1 := by
  show findNodeID 0 4 (starTree default_id blank) 0 none = some 1
  unfold findNodeID
  have h0 : (starTree default_id blank).nodeId 0 = default_id := rfl
  rw [h0, if_neg hdef]
  have hl : ((starTree default_id blank).links 0).filter (fun c => some c != none) =
      [1, 2, 3] := rfl
  rw [hl, List.findSome?_cons]
  unfold findNodeID
  have h1 : (starTree default_id blank).nodeId 1 = 0 := rfl
  rw [h1, if_pos rfl]

/-- The loop "stepwise adding the next taxon" of `growTreeMP`, from the tree on `k`
taxa to the tree on all taxa. -/
theorem growTreeMP_loop (score : Tree → Option Int) (default_id ph1 ph2 : Nat)
    (blank : Neighbor) (N : Nat) (hph1 : 2 * N - 2 ≤ ph1) (hph2 : 2 * N - 2 ≤ ph2)
    (hph : ph1 ≠ ph2)
    (hscore : ∀ t1 : Tree, t1.IsBinaryTree → (t1.links 1).length = 1 →
      (∀ n, n < t1.nodes.length → t1.isLeaf n = true → t1.nodeId n < N) →
      (score t1).isSome = true)
    (m k : Nat) (t : Tree) (hk : 3 ≤ k) (hkN : k + m = N) (hinv : GrowInv k t) :
    ∃ t1, (List.range' k m).foldlM (growTreeMPStep score default_id ph1 ph2 blank 1) t =
        some t1 ∧ GrowInv N t1 := by
  induction m generalizing k t with
  | zero =>
    refine ⟨t, rfl, ?_⟩
    rw [← hkN]
    exact hinv
  | succ m ih =>
    obtain ⟨t1, h1, hg⟩ := growTreeMPStep_spec score default_id ph1 ph2 blank N k t hk
      (by omega) hinv hph1 hph2 hph hscore
    obtain ⟨t2, h2, hg2⟩ := ih (k + 1) t1 (by omega) (by omega) hg
    refine ⟨t2, ?_, hg2⟩
    rw [List.range'_succ, List.foldlM_cons, h1]
    exact h2

theorem degree_sum (t : Tree) (hT : t.IsBinaryTree) (L : List Nat)
    (hL : ∀ n ∈ L, n < t.nodes.length) :
    (L.map (fun n => (t.links n).length)).sum =
      (L.filter (fun n => t.isLeaf n)).length + 3 * (L.filter (fun n => !t.isLeaf n)).length := by
  induction L with
  | nil => rfl
  | cons a L ih =>
    have ha := hT.2.2.2.1 a (hL a (List.mem_cons_self _ _))
    have ih1 := ih (fun n hn => hL n (List.mem_cons_of_mem _ hn))
    rw [List.map_cons, List.sum_cons, ih1, length_links]
    rcases ha with h | h
    · have hleaf : t.isLeaf a = true := by
        unfold Tree.isLeaf
        rw [h]
        rfl
      rw [List.filter_cons_of_pos (by simpa using hleaf),
        List.filter_cons_of_neg (by simp [hleaf]), h, List.length_cons]
      omega
    · have hleaf : t.isLeaf a = false := by
        unfold Tree.isLeaf
        rw [h]
        rfl
      rw [List.filter_cons_of_neg (by simp [hleaf]),
        List.filter_cons_of_pos (by simp [hleaf]), h, List.length_cons]
      omega

/-- C24: for every alignment with `N ≥ 3` sequences, `growTreeMP` ends with an unrooted
binary tree on `2N - 2` nodes; its leaves, in the order of the store, have the ids
`0, ..., N - 1`; the other `N - 2` nodes have three neighbors each; the degrees sum to
twice `2N - 3`, the number of branches; no half-edge points to a placeholder;
`leafNum` is `N`, `nodeNum` is `2N - 2`, and `root` is the first taxon. For `N = 3`
the tree is the star on the leaves 0, 1, 2 (the nodes 1, 2, 3 around the node 0). The
id that `newNode()` gives is not the id 0 of the first taxon, the placeholders are no
nodes of the store, and the score routine returns on binary trees on these taxa. -/
theorem growTreeMP_spec (score : Tree → Option Int) (default_id ph1 ph2 : Nat)
    (blank : Neighbor) (N : Nat) (hN : 3 ≤ N) (hdef : default_id ≠ 0)
    (hph1 : 2 * N - 2 ≤ ph1) (hph2 : 2 * N - 2 ≤ ph2) (hph : ph1 ≠ ph2)
    (hscore : ∀ t1 : Tree, t1.IsBinaryTree → (t1.links 1).length = 1 →
      (∀ n, n < t1.nodes.length → t1.isLeaf n = true → t1.nodeId n < N) →
      (score t1).isSome = true) :
    ∃ st, growTreeMP score default_id ph1 ph2 blank N = Except.ok st ∧
      st.tree.IsBinaryTree ∧ st.tree.nodes.length = 2 * N - 2 ∧
      ((List.range st.tree.nodes.length).filter (fun n => st.tree.isLeaf n)).map
        st.tree.nodeId = List.range N ∧
      ((List.range st.tree.nodes.length).filter (fun n => !st.tree.isLeaf n)).length = N - 2 ∧
      (∀ n, n < st.tree.nodes.length → st.tree.isLeaf n = false →
        (st.tree.links n).length = 3) ∧
      ((List.range st.tree.nodes.length).map (fun n => (st.tree.links n).length)).sum =
        2 * (2 * N - 3) ∧
      (∀ n, ph1 ∉ st.tree.links n ∧ ph2 ∉ st.tree.links n) ∧
      st.leafNum = N ∧ st.nodeNum = 2 * N - 2 ∧ st.root = 1 ∧
      (st.tree.links st.root).length = 1 ∧
      (N = 3 → st.tree.links 0 = [1, 2, 3] ∧ st.tree.links 1 = [0] ∧
        st.tree.links 2 = [0] ∧ st.tree.links 3 = [0]) := by
  obtain ⟨t1, hloop, hg⟩ := growTreeMP_loop score default_id ph1 ph2 blank N hph1 hph2 hph
    hscore (N - 3) 3 (starTree default_id blank) (le_refl _) (by omega)
    (starTree_growInv default_id blank)
  have hg0 := hg
  obtain ⟨hT, hn, hroot, _, hleaves, hint⟩ := hg
  have hlt : ∀ u v, v ∈ t1.links u → v < t1.nodes.length := fun u v h =>
    lt_of_mem_links t1 v u (hT.1 u v h)
  have hcount : ((List.range t1.nodes.length).filter (fun n => t1.isLeaf n)).length = N := by
    have := congrArg List.length hleaves
    rw [List.length_map, List.length_range] at this
    exact this
  refine ⟨⟨t1, 1, N, 2 * N - 2⟩, ?_, hT, hn, hleaves, hint, ?_, ?_, ?_, rfl, rfl, rfl, hroot, ?_⟩
  · unfold growTreeMP
    rw [if_neg (by omega)]
    simp only
    rw [growTree_init, starTree_findNodeID default_id blank hdef]
    simp only
    rw [hloop]
  · intro n hn1 hleaf
    rw [length_links]
    rcases hT.2.2.2.1 n hn1 with h | h
    · exfalso
      unfold Tree.isLeaf at hleaf
      rw [h] at hleaf
      simp at hleaf
    · exact h
  · rw [degree_sum t1 hT _ (fun n hn1 => List.mem_range.1 hn1), hcount, hint]
    omega
  · intro n
    constructor
    · intro h
      have := hlt n _ h
      omega
    · intro h
      have := hlt n _ h
      omega
  · intro h3
    subst h3
    have : t1 = starTree default_id blank := by
      have h0 : (List.range' 3 (3 - 3)).foldlM
          (growTreeMPStep score default_id ph1 ph2 blank 1) (starTree default_id blank) =
          some (starTree default_id blank) := rfl
      rw [h0] at hloop
      exact (Option.some.inj hloop).symm
    rw [this]
    exact ⟨rfl, rfl, rfl, rfl⟩

theorem growTreeMP_spec_witness :
    ∃ st, growTreeMP (fun t => some (((t.links 1).getD 0 0 : Nat) : Int)) 9 100 101
        ⟨0, 0, 0, 0, 0⟩ 5 = Except.ok st ∧
      st.tree.IsBinaryTree ∧ st.tree.nodes.length = 2 * 5 - 2 ∧
      ((List.range st.tree.nodes.length).filter (fun n => st.tree.isLeaf n)).map
        st.tree.nodeId = List.range 5 ∧
      ((List.range st.tree.nodes.length).filter (fun n => !st.tree.isLeaf n)).length = 5 - 2 ∧
      (∀ n, n < st.tree.nodes.length → st.tree.isLeaf n = false →
        (st.tree.links n).length = 3) ∧
      ((List.range st.tree.nodes.length).map (fun n => (st.tree.links n).length)).sum =
        2 * (2 * 5 - 3) ∧
      (∀ n, 100 ∉ st.tree.links n ∧ 101 ∉ st.tree.links n) ∧
      st.leafNum = 5 ∧ st.nodeNum = 2 * 5 - 2 ∧ st.root = 1 ∧
      (st.tree.links st.root).length = 1 ∧
      (5 = 3 → st.tree.links 0 = [1, 2, 3] ∧ st.tree.links 1 = [0] ∧
        st.tree.links 2 = [0] ∧ st.tree.links 3 = [0]) :=
  growTreeMP_spec (fun t => some (((t.links 1).getD 0 0 : Nat) : Int)) 9 100 101
    ⟨0, 0, 0, 0, 0⟩ 5 (by decide) (by decide) (by decide) (by decide) (by decide)
    (fun _ _ _ _ => rfl)

theorem foldl_range_sum (n : Nat) (f : Nat → ℚ) (a : ℚ) :
    (List.range n).foldl (fun acc i => acc + f i) a = a + ∑ p in Finset.range n, f p := by
  induction n with
  | zero => simp
  | succ k ih =>
      rw [List.range_succ, List.foldl_append, ih, Finset.sum_range_succ]
      simp [add_assoc]

theorem int_quotient (nsite : Int) (h : 2 ≤ nsite) :
    Int.tdiv nsite (nsite - 1) = if nsite = 2 then 2 else 1 := by
  have h1 : (0 : Int) ≤ nsite := by omega
  have h2 : (0 : Int) ≤ nsite - 1 := by omega
  rw [Int.tdiv_eq_ediv h1 h2]
  split
  · next e => subst e; decide
  · next e =>
      have h3 : nsite = 1 + 1 * (nsite - 1) := by ring
      have h4 : (1 : Int) < nsite - 1 := by omega
      have h5 : (1 + 1 * (nsite - 1)) / (nsite - 1) = 1 / (nsite - 1) + 1 :=
        Int.add_mul_ediv_right 1 1 (by omega)
      have h6 : (1 : Int) / (nsite - 1) = 0 := Int.ediv_eq_zero_of_lt (by omega) h4
      rw [h6, ← h3] at h5
      omega

/-- C40, what the code returns: for every `nsite ≥ 2` the two routines return the sum
`Σ_p freq(p) · (x(p) − mean)²` times the quotient of the `int` division
`nsite / (nsite - 1)`, which is 2 for `nsite = 2` and 1 for every `nsite ≥ 3`; `x` is
the pattern log-likelihood (or its difference to the other tree) and `mean` the tree
log-likelihood over `nsite` (recomputed from the patterns when `tree_lh` is passed
as 0, always so for the differences). -/
theorem computeLogLVariance_int_factor (nptn : Nat) (nsite : Int) (pattern_freq : Nat → Int)
    (computePatternLikelihood pattern_lh_other : Nat → ℚ) (ptn_lh : Option (Nat → ℚ))
    (tree_lh : ℚ) (h : 2 ≤ nsite) :
    computeLogLVariance nptn nsite pattern_freq computePatternLikelihood ptn_lh tree_lh =
      some (weightedSquares nptn pattern_freq (ptn_lh.getD computePatternLikelihood)
          ((if tree_lh = 0 then
              weightedSum nptn pattern_freq (ptn_lh.getD computePatternLikelihood)
            else tree_lh) / nsite) *
        (if nsite = 2 then 2 else 1)) ∧
    computeLogLDiffVariance nptn nsite pattern_freq computePatternLikelihood pattern_lh_other
        ptn_lh =
      some (weightedSquares nptn pattern_freq
          (fun p => (ptn_lh.getD computePatternLikelihood) p - pattern_lh_other p)
          (weightedSum nptn pattern_freq
            (fun p => (ptn_lh.getD computePatternLikelihood) p - pattern_lh_other p) / nsite) *
        (if nsite = 2 then 2 else 1)) := by
  have hne : nsite - 1 ≠ 0 := by omega
  have hq := int_quotient nsite h
  constructor
  · unfold computeLogLVariance weightedSquares weightedSum
    simp only [hne, if_false]
    rw [hq, foldl_range_sum]
    congr 1
    congr 1
    · rw [zero_add]
      have e : (if tree_lh = 0 then
          List.foldl (fun tree_lh i => tree_lh +
            (ptn_lh.getD computePatternLikelihood) i * (pattern_freq i : ℚ)) tree_lh
            (List.range nptn) else tree_lh) =
          (if tree_lh = 0 then ∑ p in Finset.range nptn,
            (ptn_lh.getD computePatternLikelihood) p * (pattern_freq p : ℚ) else tree_lh) := by
        split
        · next e0 => rw [foldl_range_sum, e0, zero_add]
        · rfl
      rw [e]
      apply Finset.sum_congr rfl
      intro p _
      ring
    · split <;> simp
  · unfold computeLogLDiffVariance weightedSquares weightedSum
    simp only [hne, if_false]
    rw [hq, foldl_range_sum, foldl_range_sum]
    congr 1
    congr 1
    · rw [zero_add, zero_add]
      apply Finset.sum_congr rfl
      intro p _
      ring
    · split <;> simp

theorem computeLogLVariance_int_factor_witness :
    computeLogLVariance 2 3 (fun p => if p = 0 then 1 else 2) (fun _ => 0)
        (some (fun p => if p = 0 then -3 else -6)) 0 =
      some (weightedSquares 2 (fun p => if p = 0 then 1 else 2)
          ((some (fun p => if p = 0 then (-3 : ℚ) else -6)).getD (fun _ => 0))
          ((if (0 : ℚ) = 0 then
              weightedSum 2 (fun p => if p = 0 then 1 else 2)
                ((some (fun p => if p = 0 then (-3 : ℚ) else -6)).getD (fun _ => 0))
            else 0) / (3 : Int)) *
        (if (3 : Int) = 2 then 2 else 1)) ∧
    computeLogLDiffVariance 2 3 (fun p => if p = 0 then 1 else 2) (fun _ => 0) (fun _ => 0)
        (some (fun p => if p = 0 then -3 else -6)) =
      some (weightedSquares 2 (fun p => if p = 0 then 1 else 2)
          (fun p => ((some (fun p => if p = 0 then (-3 : ℚ) else -6)).getD (fun _ => 0)) p -
            (fun _ => (0 : ℚ)) p)
          (weightedSum 2 (fun p => if p = 0 then 1 else 2)
            (fun p => ((some (fun p => if p = 0 then (-3 : ℚ) else -6)).getD (fun _ => 0)) p -
              (fun _ => (0 : ℚ)) p) / (3 : Int)) *
        (if (3 : Int) = 2 then 2 else 1)) :=
  computeLogLVariance_int_factor 2 3 (fun p => if p = 0 then 1 else 2) (fun _ => 0)
    (fun _ => 0) (some (fun p => if p = 0 then -3 else -6)) 0 (by decide)

/-- C40, the input at which the claim fails: three sites in two patterns of frequencies
1 and 2 with log-likelihoods -3 and -6. The mean is -5 and the sum of the weighted
squares is 6; the code returns 6 (and 6 for the differences to a tree of pattern
log-likelihoods 0), where the factor `nsite/(nsite - 1) = 3/2` of the claim gives 9. -/
theorem computeLogLVariance_not_rational_factor :
    computeLogLVariance 2 3 (fun p => if p = 0 then 1 else 2) (fun _ => 0)
        (some (fun p => if p = 0 then -3 else -6)) 0 = some 6 ∧
    computeLogLDiffVariance 2 3 (fun p => if p = 0 then 1 else 2) (fun _ => 0) (fun _ => 0)
        (some (fun p => if p = 0 then -3 else -6)) = some 6 ∧
    weightedSquares 2 (fun p => if p = 0 then 1 else 2)
        (fun p => if p = 0 then -3 else -6) (-5) * ((3 : ℚ) / (3 - 1)) = 9 := by
  refine ⟨?_, ?_, ?_⟩
  · simp [computeLogLVariance, List.range, List.range.loop, Int.tdiv]
    norm_num
  · simp [computeLogLDiffVariance, List.range, List.range.loop, Int.tdiv]
    norm_num
  · simp [weightedSquares, Finset.sum_range_succ]
    norm_num

theorem optimizeAllBranchesLoop_mono (sweep : Nat → ℚ) (tolerance : ℚ) (ht : 0 ≤ tolerance)
    (n : Nat) : ∀ (i : Nat) (tree_lh : ℚ),
      tree_lh ≤ optimizeAllBranchesLoop sweep tolerance n i tree_lh ∧
      List.Chain (· < ·) tree_lh (optimizeAllBranchesAccepted sweep tolerance n i tree_lh) ∧
      ∀ x ∈ optimizeAllBranchesAccepted sweep tolerance n i tree_lh,
        x ≤ optimizeAllBranchesLoop sweep tolerance n i tree_lh := by
  induction n with
  | zero =>
      intro i tree_lh
      exact ⟨le_refl _, List.Chain.nil, by simp [optimizeAllBranchesAccepted]⟩
  | succ k ih =>
      intro i tree_lh
      unfold optimizeAllBranchesLoop optimizeAllBranchesAccepted
      simp only
      by_cases h : sweep i ≤ tree_lh + tolerance
      · rw [if_pos h, if_pos h]
        refine ⟨?_, List.Chain.nil, by simp⟩
        split
        · next h1 => exact le_of_lt h1
        · exact le_refl _
      · rw [if_neg h, if_neg h]
        obtain ⟨a, b, c⟩ := ih (i + 1) (sweep i)
        have hlt : tree_lh < sweep i := by
          have := not_le.mp h
          linarith
        refine ⟨le_trans (le_of_lt hlt) a, List.Chain.cons hlt b, ?_⟩
        intro x hx
        rcases List.mem_cons.mp hx with e | e
        · rw [e]; exact a
        · exact c x e

/-- C37: for every tolerance `≥ 0`, every number of iterations and every sequence of
values the passes return, the value `optimizeAllBranches` returns is not lower than the
log-likelihood computed at entry; the values it accepts, from the one at entry on,
increase strictly from one to the next, so they never decrease; and the value returned
is not lower than any of them. -/
theorem optimizeAllBranches_monotone (computeLikelihood : ℚ) (sweep : Nat → ℚ)
    (iterations : Int) (tolerance : ℚ) (ht : 0 ≤ tolerance) :
    computeLikelihood ≤ optimizeAllBranches computeLikelihood sweep iterations tolerance ∧
    List.Sorted (· ≤ ·) (computeLikelihood ::
      optimizeAllBranchesAccepted sweep tolerance iterations.toNat 0 computeLikelihood) ∧
    List.Chain (· < ·) computeLikelihood
      (optimizeAllBranchesAccepted sweep tolerance iterations.toNat 0 computeLikelihood) ∧
    ∀ x ∈ optimizeAllBranchesAccepted sweep tolerance iterations.toNat 0 computeLikelihood,
      x ≤ optimizeAllBranches computeLikelihood sweep iterations tolerance := by
  obtain ⟨a, b, c⟩ :=
    optimizeAllBranchesLoop_mono sweep tolerance ht iterations.toNat 0 computeLikelihood
  refine ⟨a, ?_, b, c⟩
  have hs : List.Sorted (· < ·) (computeLikelihood ::
      optimizeAllBranchesAccepted sweep tolerance iterations.toNat 0 computeLikelihood) :=
    List.chain_iff_pairwise.mp b
  exact hs.imp (fun h => le_of_lt h)

theorem optimizeAllBranches_monotone_witness :
    (-10 : ℚ) ≤ optimizeAllBranches (-10) (fun i => if i = 0 then -8 else -9) 3 1 ∧
    List.Sorted (· ≤ ·) ((-10 : ℚ) ::
      optimizeAllBranchesAccepted (fun i => if i = 0 then -8 else -9) 1
        (3 : Int).toNat 0 (-10)) ∧
    List.Chain (· < ·) (-10 : ℚ)
      (optimizeAllBranchesAccepted (fun i => if i = 0 then -8 else -9) 1
        (3 : Int).toNat 0 (-10)) ∧
    ∀ x ∈ optimizeAllBranchesAccepted (fun i => if i = 0 then -8 else -9) 1
        (3 : Int).toNat 0 (-10),
      x ≤ optimizeAllBranches (-10) (fun i => if i = 0 then -8 else -9) 3 1 :=
  optimizeAllBranches_monotone (-10) (fun i => if i = 0 then -8 else -9) 3 1
    (by decide)

/-- C38, what the code computes: with `RAND_MAX > 0` and a vector of `size > 0` best
branches, for every value `r` of `rand()` from 0 to `RAND_MAX` the index `node_id` is
at least 0 and at most `size`; it is an index of the vector exactly when
`r < RAND_MAX`, and it is `size`, one past the last element, when `r = RAND_MAX`. -/
theorem node_id_range (RAND_MAX r size : Nat) (hm : 0 < RAND_MAX) (hr : r ≤ RAND_MAX)
    (hs : 0 < size) :
    0 ≤ IQPTree.node_id RAND_MAX r size ∧ IQPTree.node_id RAND_MAX r size ≤ size ∧
    (IQPTree.node_id RAND_MAX r size < size ↔ r < RAND_MAX) ∧
    (r = RAND_MAX → IQPTree.node_id RAND_MAX r size = size) := by
  unfold IQPTree.node_id
  have hm' : (0 : ℚ) < (RAND_MAX : ℚ) := by exact_mod_cast hm
  have hs' : (0 : ℚ) < (size : ℚ) := by exact_mod_cast hs
  have hr' : (r : ℚ) ≤ (RAND_MAX : ℚ) := by exact_mod_cast hr
  have h0 : (0 : ℚ) ≤ (r : ℚ) / (RAND_MAX : ℚ) * (size : ℚ) := by positivity
  have h1 : (r : ℚ) / (RAND_MAX : ℚ) ≤ 1 := (div_le_one hm').mpr hr'
  have hfull : r = RAND_MAX → ⌊(r : ℚ) / (RAND_MAX : ℚ) * (size : ℚ)⌋ = size := by
    intro e
    rw [e, div_self (ne_of_gt hm'), one_mul]
    exact Int.floor_natCast size
  refine ⟨Int.floor_nonneg.mpr h0, ?_, ?_, hfull⟩
  · have : (r : ℚ) / (RAND_MAX : ℚ) * (size : ℚ) ≤ ((size : Int) : ℚ) := by
      have := mul_le_mul_of_nonneg_right h1 (le_of_lt hs')
      rw [one_mul] at this
      exact_mod_cast this
    exact (Int.floor_le_floor this).trans (le_of_eq (Int.floor_intCast _))
  · constructor
    · intro h
      by_contra hh
      have e : r = RAND_MAX := le_antisymm hr (not_lt.mp hh)
      rw [hfull e] at h
      exact lt_irrefl _ h
    · intro h
      rw [Int.floor_lt]
      have h2 : (r : ℚ) / (RAND_MAX : ℚ) < 1 := (div_lt_one hm').mpr (by exact_mod_cast h)
      have := mul_lt_mul_of_pos_right h2 hs'
      rw [one_mul] at this
      exact_mod_cast this

theorem node_id_range_witness :
    0 ≤ IQPTree.node_id 2147483647 1073741824 2 ∧
    IQPTree.node_id 2147483647 1073741824 2 ≤ (2 : Nat) ∧
    (IQPTree.node_id 2147483647 1073741824 2 < (2 : Nat) ↔ 1073741824 < 2147483647) ∧
    (1073741824 = 2147483647 → IQPTree.node_id 2147483647 1073741824 2 = (2 : Nat)) :=
  node_id_range 2147483647 1073741824 2 (by decide) (by decide) (by decide)

/-- C38, the input at which the claim fails: `rand()` returns `RAND_MAX` (here
2147483647) and two branches `(4, 5)` and `(6, 5)` share the best bonus. The quotient is
1, so `node_id` is 2, the size of `best_nodes`, and `best_nodes[node_id]` is no element
of the vector. -/
theorem node_id_out_of_range :
    IQPTree.node_id 2147483647 2147483647 2 = 2 ∧
    IQPTree.bestBranch [4, 6] [5, 5] (IQPTree.node_id 2147483647 2147483647 2) = none := by
  have e : IQPTree.node_id 2147483647 2147483647 2 = 2 := by
    unfold IQPTree.node_id
    norm_num
  rw [e]
  exact ⟨rfl, by decide⟩

theorem foldl_mark {α : Type} (n : Nat) (F : (Nat → α) → Nat → (Nat → α)) (idx : Nat)
    (P : Nat → Prop) (v : α)
    (hpos : ∀ a k, k < n → P k → F a k idx = v)
    (hneg : ∀ a k, k < n → ¬ P k → F a k idx = a idx) (a : Nat → α) :
    ((∃ k, k < n ∧ P k) → ((List.range n).foldl F a) idx = v) ∧
    ((¬ ∃ k, k < n ∧ P k) → ((List.range n).foldl F a) idx = a idx) := by
  induction n with
  | zero =>
      constructor
      · rintro ⟨k, hk, _⟩; omega
      · intro _; rfl
  | succ m ih =>
      have ih' := ih (fun a k hk => hpos a k (by omega))
        (fun a k hk => hneg a k (by omega))
      rw [List.range_succ, List.foldl_append]
      simp only [List.foldl_cons, List.foldl_nil]
      constructor
      · rintro ⟨k, hk, hP⟩
        by_cases hm : P m
        · exact hpos _ m (by omega) hm
        · rw [hneg _ m (by omega) hm]
          have hkm : k < m := by
            rcases Nat.lt_succ_iff_lt_or_eq.mp hk with h | h
            · exact h
            · rw [h] at hP; exact absurd hP hm
          exact ih'.1 ⟨k, hkm, hP⟩
      · intro hno
        have hm : ¬ P m := fun h => hno ⟨m, by omega, h⟩
        rw [hneg _ m (by omega) hm]
        exact ih'.2 (fun ⟨k, hk, hP⟩ => hno ⟨k, by omega, hP⟩)

theorem fillRange_in {α : Type} (a : Nat → α) (start n : Nat) (v : α) (idx : Nat)
    (h1 : start ≤ idx) (h2 : idx < start + n) : fillRange a start n v idx = v := by
  unfold fillRange
  refine (foldl_mark n _ idx (fun k => idx = start + k) v ?_ ?_ a).1
    ⟨idx - start, by omega, by omega⟩
  · intro a k _ h
    rw [h, Function.update_same]
  · intro a k _ h
    rw [Function.update_noteq h]

theorem fillRange_out {α : Type} (a : Nat → α) (start n : Nat) (v : α) (idx : Nat)
    (h : idx < start ∨ start + n ≤ idx) : fillRange a start n v idx = a idx := by
  unfold fillRange
  refine (foldl_mark n _ idx (fun k => idx = start + k) v ?_ ?_ a).2 ?_
  · intro a k _ h
    rw [h, Function.update_same]
  · intro a k _ h
    rw [Function.update_noteq h]
  · rintro ⟨k, hk, e⟩
    omega

theorem cell_lt (n ncat c s : Nat) (hc : c < ncat) (hs : s < n) : c * n + s < n * ncat := by
  have h1 : c * n + s < (c + 1) * n := by rw [Nat.add_mul, Nat.one_mul]; omega
  have h2 : (c + 1) * n ≤ ncat * n := Nat.mul_le_mul_right n hc
  rw [Nat.mul_comm n ncat]
  omega

theorem cell_inj (n c s c1 s1 : Nat) (hs : s < n) (hs1 : s1 < n)
    (h : c * n + s = c1 * n + s1) : c = c1 ∧ s = s1 := by
  have hn : 0 < n := by omega
  have e1 : (c * n + s) / n = c := by
    rw [Nat.add_comm, Nat.add_mul_div_right _ _ hn, Nat.div_eq_of_lt hs, Nat.zero_add]
  have e2 : (c1 * n + s1) / n = c1 := by
    rw [Nat.add_comm, Nat.add_mul_div_right _ _ hn, Nat.div_eq_of_lt hs1, Nat.zero_add]
  have hc : c = c1 := by rw [← e1, ← e2, h]
  subst hc
  exact ⟨rfl, by omega⟩

theorem markState_in (ncat n base state : Nat) (a : Nat → ℚ) (c : Nat) (hc : c < ncat) :
    markState ncat n base state a (base + (c * n + state)) = 1 := by
  unfold markState
  refine (foldl_mark ncat _ _ (fun k => base + (c * n + state) = base + (k * n + state)) 1
    ?_ ?_ a).1 ⟨c, hc, rfl⟩
  · intro a k _ h
    rw [h, Function.update_same]
  · intro a k _ h
    rw [Function.update_noteq h]

theorem markState_out (ncat n base state : Nat) (a : Nat → ℚ) (idx : Nat)
    (h : ∀ c, c < ncat → idx ≠ base + (c * n + state)) :
    markState ncat n base state a idx = a idx := by
  unfold markState
  refine (foldl_mark ncat _ idx (fun k => idx = base + (k * n + state)) 1 ?_ ?_ a).2 ?_
  · intro a k _ h
    rw [h, Function.update_same]
  · intro a k _ h
    rw [Function.update_noteq h]
  · rintro ⟨k, hk, e⟩
    exact h k hk e

theorem leafLhStep_eq (aln : Alignment) (U : Nat) (m : LhModel) (id : Nat) (rn : Bool)
    (st : (Nat → ℚ) × (Nat → Int)) (ptn : Nat) :
    leafLhStep aln U m id rn st ptn =
      (leafState aln U id rn ptn).map fun state => leafLhPure aln U m state st ptn := rfl

theorem leafLhPure_out (aln : Alignment) (U : Nat) (m : LhModel) (state : Nat)
    (st : (Nat → ℚ) × (Nat → Int)) (ptn idx : Nat)
    (h : idx < ptn * (aln.num_states * m.ncat) ∨
      (ptn + 1) * (aln.num_states * m.ncat) ≤ idx) :
    (leafLhPure aln U m state st ptn).1 idx = st.1 idx := by
  have hb : (ptn + 1) * (aln.num_states * m.ncat) =
      ptn * (aln.num_states * m.ncat) + aln.num_states * m.ncat := by
    rw [Nat.add_mul, Nat.one_mul]
  have hcell : ∀ c s, c < m.ncat → s < aln.num_states →
      idx ≠ ptn * (aln.num_states * m.ncat) + (c * aln.num_states + s) := by
    intro c s hc hs e
    have := cell_lt aln.num_states m.ncat c s hc hs
    omega
  unfold leafLhPure
  split
  · exact fillRange_out _ _ _ _ _ (by omega)
  · split
    · next hs => exact markState_out _ _ _ _ _ _ (fun c hc => hcell c state hc hs)
    · refine (foldl_mark (min aln.num_states 7) _ idx (fun _ => False) (1 : ℚ) ?_ ?_ st.1).2
        (fun ⟨_, _, f⟩ => f)
      · intro a k _ f; exact absurd f id
      · intro a k hk _
        have hk1 : k < aln.num_states := lt_of_lt_of_le hk (Nat.min_le_left _ _)
        split
        · exact markState_out _ _ _ _ _ _ (fun c hc => hcell c k hc hk1)
        · rfl

theorem leafLhPure_in (aln : Alignment) (U : Nat) (m : LhModel) (state : Nat)
    (st : (Nat → ℚ) × (Nat → Int)) (ptn c s : Nat) (hc : c < m.ncat)
    (hs : s < aln.num_states) :
    (leafLhPure aln U m state st ptn).1
        (ptn * (aln.num_states * m.ncat) + (c * aln.num_states + s)) =
      if compatible aln.num_states U state s then 1
      else st.1 (ptn * (aln.num_states * m.ncat) + (c * aln.num_states + s)) := by
  have hlt := cell_lt aln.num_states m.ncat c s hc hs
  unfold leafLhPure compatible
  by_cases h1 : state = U
  · rw [if_pos h1, if_pos h1]
    simp only [if_true]
    exact fillRange_in _ _ _ _ _ (by omega) (by omega)
  · rw [if_neg h1, if_neg h1]
    by_cases h2 : state < aln.num_states
    · rw [if_pos h2, if_pos h2]
      by_cases h3 : s = state
      · subst h3
        simp only [beq_self_eq_true, if_true]
        exact markState_in _ _ _ _ _ c hc
      · have : (s == state) = false := by simpa using h3
        rw [this]
        simp only [Bool.false_eq_true, if_false]
        apply markState_out
        intro c1 hc1 e
        have := cell_inj aln.num_states c s c1 state hs h2 (by omega)
        exact h3 this.2
    · rw [if_neg h2, if_neg h2]
      simp only
      have key := foldl_mark (min aln.num_states 7)
        (fun a state2 =>
          if (state - (aln.num_states - 1)).testBit state2 then
            markState m.ncat aln.num_states (ptn * (aln.num_states * m.ncat)) state2 a
          else a)
        (ptn * (aln.num_states * m.ncat) + (c * aln.num_states + s))
        (fun k => k = s ∧ (state - (aln.num_states - 1)).testBit k = true) (1 : ℚ)
        (by
          intro a k _ hk
          obtain ⟨hk1, hk2⟩ := hk
          subst hk1
          simp only [hk2, if_true]
          exact markState_in _ _ _ _ _ c hc)
        (by
          intro a k hk hP
          have hk1 : k < aln.num_states := lt_of_lt_of_le hk (Nat.min_le_left _ _)
          beta_reduce
          split
          · next hb =>
              apply markState_out
              intro c1 hc1 e
              have := cell_inj aln.num_states c s c1 k hs hk1 (Nat.add_left_cancel e)
              exact hP ⟨this.2.symm, hb⟩
          · rfl) st.1
      by_cases h4 : s ≤ 6 ∧ (state - (aln.num_states - 1)).testBit s = true
      · have : (decide (s ≤ 6) && (state - (aln.num_states - 1)).testBit s) = true := by
          simp [h4.1, h4.2]
        rw [this]
        simp only [if_true]
        exact key.1 ⟨s, lt_min hs (Nat.lt_succ_of_le h4.1), rfl, h4.2⟩
      · have : (decide (s ≤ 6) && (state - (aln.num_states - 1)).testBit s) = false := by
          rw [Bool.and_eq_false_iff]
          by_cases h5 : s ≤ 6
          · right
            have := fun h => h4 ⟨h5, h⟩
            simpa using this
          · left; simpa using h5
        rw [this]
        simp only [Bool.false_eq_true, if_false]
        apply key.2
        rintro ⟨k, hk, e, hb⟩
        have hk7 : k < 7 := lt_of_lt_of_le hk (Nat.min_le_right _ _)
        rw [e] at hb hk7
        exact h4 ⟨Nat.le_of_lt_succ hk7, hb⟩

theorem leafLhPure_scale (aln : Alignment) (U : Nat) (m : LhModel) (state : Nat)
    (st : (Nat → ℚ) × (Nat → Int)) (ptn p : Nat) :
    (leafLhPure aln U m state st ptn).2 p =
      if p = ptn ∧ state = U then -1 else st.2 p := by
  unfold leafLhPure
  by_cases h1 : state = U
  · rw [if_pos h1]
    by_cases h2 : p = ptn
    · subst h2; simp [h1]
    · simp [h2, Function.update_noteq h2]
  · rw [if_neg h1]
    split <;> simp [h1]

theorem leafState_shown (aln : Alignment) (U id : Nat) (rn : Bool) (ptn : Nat)
    (hid : rn = true ∨ id < aln.nseq) :
    leafState aln U id rn ptn = some (leafShown aln U id rn ptn) := by
  unfold leafState leafShown
  rcases hid with h | h
  · simp [h]
  · by_cases hr : rn = true
    · simp [hr]
    · simp [hr, h]

theorem foldlM_some {σ β : Type} (g : σ → β → σ) (f : σ → β → Option σ) (l : List β)
    (h : ∀ s x, x ∈ l → f s x = some (g s x)) (s : σ) :
    l.foldlM f s = some (l.foldl g s) := by
  induction l generalizing s with
  | nil => rfl
  | cons x xs ih =>
      rw [List.foldlM_cons, h s x (List.mem_cons_self _ _)]
      simp only [Option.bind_eq_bind, Option.some_bind, List.foldl_cons]
      exact ih (fun s y hy => h s y (List.mem_cons_of_mem _ hy)) _

theorem leaf_fold (aln : Alignment) (U : Nat) (m : LhModel) (id : Nat) (rn : Bool)
    (L0 : Nat → ℚ) (S0 : Nat → Int) (nptn : Nat)
    (hL : ∀ idx, idx < nptn * (aln.num_states * m.ncat) → L0 idx = 0)
    (hS : ∀ p, p < nptn → S0 p = 0) (k : Nat) (hk : k ≤ nptn) :
    (∀ p c s, p < k → c < m.ncat → s < aln.num_states →
      ((List.range k).foldl (fun st p => leafLhPure aln U m (leafShown aln U id rn p) st p)
        (L0, S0)).1 (p * (aln.num_states * m.ncat) + (c * aln.num_states + s)) =
        if compatible aln.num_states U (leafShown aln U id rn p) s then 1 else 0) ∧
    (∀ idx, k * (aln.num_states * m.ncat) ≤ idx → idx < nptn * (aln.num_states * m.ncat) →
      ((List.range k).foldl (fun st p => leafLhPure aln U m (leafShown aln U id rn p) st p)
        (L0, S0)).1 idx = 0) ∧
    (∀ p, p < nptn →
      ((List.range k).foldl (fun st p => leafLhPure aln U m (leafShown aln U id rn p) st p)
        (L0, S0)).2 p = if p < k ∧ leafShown aln U id rn p = U then -1 else 0) := by
  induction k with
  | zero =>
      refine ⟨fun p c s hp => by omega, fun idx _ h => hL idx h, fun p hp => ?_⟩
      simp [hS p hp]
  | succ j ih =>
      obtain ⟨i1, i2, i3⟩ := ih (by omega)
      rw [List.range_succ, List.foldl_append]
      simp only [List.foldl_cons, List.foldl_nil]
      have hb : ∀ q, (q + 1) * (aln.num_states * m.ncat) =
          q * (aln.num_states * m.ncat) + aln.num_states * m.ncat := by
        intro q; rw [Nat.add_mul, Nat.one_mul]
      refine ⟨?_, ?_, ?_⟩
      · intro p c s hp hc hs
        have hlt := cell_lt aln.num_states m.ncat c s hc hs
        rcases Nat.lt_succ_iff_lt_or_eq.mp hp with h | h
        · rw [leafLhPure_out]
          · exact i1 p c s h hc hs
          · left
            have : (p + 1) * (aln.num_states * m.ncat) ≤ j * (aln.num_states * m.ncat) :=
              Nat.mul_le_mul_right _ h
            rw [hb] at this
            omega
        · subst h
          rw [leafLhPure_in _ _ _ _ _ _ c s hc hs]
          have hz := i2 (p * (aln.num_states * m.ncat) + (c * aln.num_states + s)) (by omega)
            (by
              have : (p + 1) * (aln.num_states * m.ncat) ≤ nptn * (aln.num_states * m.ncat) :=
                Nat.mul_le_mul_right _ hk
              rw [hb] at this
              omega)
          rw [hz]
      · intro idx h1 h2
        rw [leafLhPure_out]
        · exact i2 idx (by rw [hb] at h1; omega) h2
        · right; exact h1
      · intro p hp
        rw [leafLhPure_scale, i3 p hp]
        by_cases e : p = j
        · subst e
          by_cases u : leafShown aln U id rn p = U
          · simp [u]
          · simp [u]
        · have : p < j + 1 ↔ p < j := by omega
          simp [e, this]

theorem leafCache_spec (aln : Alignment) (STATE_UNKNOWN : Nat)
    (m : LhModel) (nei : LhNeighbor) (id : Nat) (isRootName : Bool)
    (pattern_scale : Option (Nat → ℚ))
    (hflag : nei.partial_lh_computed &&& 1 = 0)
    (hid : isRootName = true ∨ id < aln.nseq) :
    ∃ nei1, computePartialLikelihoodNaive aln STATE_UNKNOWN m (.mk nei id isRootName [])
        pattern_scale = some (.mk nei1 id isRootName [], pattern_scale) ∧
      (∀ p c s, p < aln.size → c < m.ncat → s < aln.num_states →
        nei1.partial_lh (p * (aln.num_states * m.ncat) + (c * aln.num_states + s)) =
          if compatible aln.num_states STATE_UNKNOWN
              (leafShown aln STATE_UNKNOWN id isRootName p) s then 1 else 0) ∧
      (∀ p, p < aln.size →
        nei1.scale_num p =
          if leafShown aln STATE_UNKNOWN id isRootName p = STATE_UNKNOWN then -1 else 0) ∧
      nei1.lh_scale_factor = 0 ∧ nei1.partial_lh_computed = nei.partial_lh_computed ||| 1 ∧
      nei1.length = nei.length := by
  have hfold := foldlM_some
    (fun st p => leafLhPure aln STATE_UNKNOWN m (leafShown aln STATE_UNKNOWN id isRootName p) st p)
    (leafLhStep aln STATE_UNKNOWN m id isRootName) (List.range aln.size)
    (fun st p _ => by
      rw [leafLhStep_eq, leafState_shown aln STATE_UNKNOWN id isRootName p hid]
      rfl)
    (fillRange nei.partial_lh 0 (aln.size * (aln.num_states * m.ncat)) 0,
      fillRange nei.scale_num 0 aln.size 0)
  obtain ⟨i1, _, i3⟩ := leaf_fold aln STATE_UNKNOWN m id isRootName
    (fillRange nei.partial_lh 0 (aln.size * (aln.num_states * m.ncat)) 0)
    (fillRange nei.scale_num 0 aln.size 0) aln.size
    (fun idx h => fillRange_in _ _ _ _ _ (Nat.zero_le _) (by omega))
    (fun p h => fillRange_in _ _ _ _ _ (Nat.zero_le _) (by omega)) aln.size (le_refl _)
  refine ⟨{ nei with
      lh_scale_factor := 0
      partial_lh := ((List.range aln.size).foldl (fun st p => leafLhPure aln STATE_UNKNOWN m
        (leafShown aln STATE_UNKNOWN id isRootName p) st p)
        (fillRange nei.partial_lh 0 (aln.size * (aln.num_states * m.ncat)) 0,
          fillRange nei.scale_num 0 aln.size 0)).1
      scale_num := ((List.range aln.size).foldl (fun st p => leafLhPure aln STATE_UNKNOWN m
        (leafShown aln STATE_UNKNOWN id isRootName p) st p)
        (fillRange nei.partial_lh 0 (aln.size * (aln.num_states * m.ncat)) 0,
          fillRange nei.scale_num 0 aln.size 0)).2
      partial_lh_computed := nei.partial_lh_computed ||| 1 }, ?_, ?_, ?_, ?_, ?_, ?_⟩
  rotate_left
  · exact fun p c s hp hc hs => i1 p c s hp hc hs
  · intro p hp
    show _ = _
    have := i3 p hp
    simp only [hp, true_and] at this
    exact this
  · rfl
  · rfl
  · rfl
  · unfold computePartialLikelihoodNaive
    simp only [hflag, ne_eq, not_true_eq_false, if_false, List.isEmpty_nil, if_true]
    rw [hfold]
    rfl

/-- C31, amended: for a leaf half-edge whose cache is not valid yet,
`computePartialLikelihoodNaive` returns (the leaf being named `ROOT_NAME` or its id a
sequence of the alignment), leaves the tree behind and `pattern_scale` as they are, and
sets, for every pattern `p`, category `c` and state `s`, `L[p,c,s]` to 1 when `s` is
compatible with the state the leaf shows at `p` (every state for `STATE_UNKNOWN`, the
state itself for one of the `nstates` states, the states `s ≤ 6` in the mask
`state - (nstates - 1)` for an ambiguity code) and to 0 when it is not; it sets
`scale_num[p]` to -1 for the patterns at which the leaf shows `STATE_UNKNOWN` and to 0
for every other pattern, `lh_scale_factor` to 0, and bit 0 of the flags. -/
theorem computePartialLikelihoodNaive_leaf (aln : Alignment) (STATE_UNKNOWN : Nat)
    (m : LhModel) (nei : LhNeighbor) (id : Nat) (isRootName : Bool)
    (pattern_scale : Option (Nat → ℚ))
    (hflag : nei.partial_lh_computed &&& 1 = 0)
    (hid : isRootName = true ∨ id < aln.nseq) :
    ∃ nei1, computePartialLikelihoodNaive aln STATE_UNKNOWN m (.mk nei id isRootName [])
        pattern_scale = some (.mk nei1 id isRootName [], pattern_scale) ∧
      (∀ p c s, p < aln.size → c < m.ncat → s < aln.num_states →
        nei1.partial_lh (p * (aln.num_states * m.ncat) + (c * aln.num_states + s)) =
          if compatible aln.num_states STATE_UNKNOWN
              (leafShown aln STATE_UNKNOWN id isRootName p) s then 1 else 0) ∧
      (∀ p, p < aln.size →
        nei1.scale_num p =
          if leafShown aln STATE_UNKNOWN id isRootName p = STATE_UNKNOWN then -1 else 0) ∧
      nei1.lh_scale_factor = 0 ∧ nei1.partial_lh_computed = nei.partial_lh_computed ||| 1 ∧
      nei1.length = nei.length :=
  leafCache_spec aln STATE_UNKNOWN m nei id isRootName pattern_scale hflag hid

theorem computePartialLikelihoodNaive_leaf_witness :
    ∃ nei1, computePartialLikelihoodNaive exampleAln 126 exampleLhModel
        (.mk exampleLhNeighbor 2 false []) none = some (.mk nei1 2 false [], none) ∧
      (∀ p c s, p < exampleAln.size → c < exampleLhModel.ncat → s < exampleAln.num_states →
        nei1.partial_lh (p * (exampleAln.num_states * exampleLhModel.ncat) +
            (c * exampleAln.num_states + s)) =
          if compatible exampleAln.num_states 126 (leafShown exampleAln 126 2 false p) s
          then 1 else 0) ∧
      (∀ p, p < exampleAln.size →
        nei1.scale_num p = if leafShown exampleAln 126 2 false p = 126 then -1 else 0) ∧
      nei1.lh_scale_factor = 0 ∧
      nei1.partial_lh_computed = exampleLhNeighbor.partial_lh_computed ||| 1 ∧
      nei1.length = exampleLhNeighbor.length :=
  computePartialLikelihoodNaive_leaf exampleAln 126 exampleLhModel exampleLhNeighbor 2 false
    none (by decide) (Or.inr (by decide))

/-- C31, the input at which the claim fails: the leaf of sequence 0 of the example
alignment shows the state 0 (`A`) at pattern 0. `computePartialLikelihoodNaive` sets
`L[0,c,0] = 1` and leaves `scale_num[0]` at the 0 of the `memset`, not at the
sentinel -1. -/
theorem computePartialLikelihoodNaive_leaf_scale_num_zero :
    ∃ nei1, computePartialLikelihoodNaive exampleAln 126 exampleLhModel
        (.mk exampleLhNeighbor 0 false []) none = some (.mk nei1 0 false [], none) ∧
      exampleAln.state 0 0 = 0 ∧ nei1.partial_lh 0 = 1 ∧ nei1.scale_num 0 = 0 ∧
      nei1.scale_num 0 ≠ -1 := by
  obtain ⟨nei1, h, hL, hS, _⟩ := leafCache_spec exampleAln 126 exampleLhModel
    exampleLhNeighbor 0 false none (by decide) (Or.inr (by decide))
  have s0 : nei1.scale_num 0 = 0 := by
    rw [hS 0 (by decide)]
    decide
  refine ⟨nei1, h, by decide, ?_, s0, ?_⟩
  · have := hL 0 0 0 (by decide) (by decide) (by decide)
    simp only [Nat.zero_mul, Nat.add_zero] at this
    rw [this]
    decide
  · rw [s0]; decide

theorem lhCat_single (n : Nat) (T : Nat → ℚ) (base x : Nat) (site child : Nat → ℚ)
    (hx : x < n) (hsite : ∀ k, k < n → site k = if k = x then 1 else 0) :
    lhCatNaive n T base x site child =
      generalDoubleSum n (fun i j => T (base + i * n + j)) site child := by
  unfold lhCatNaive generalDoubleSum
  rw [if_pos hx, foldl_range_sum, zero_add]
  have e : ∑ i in Finset.range n,
      site i * ∑ j in Finset.range n, (fun i j => T (base + i * n + j)) i j * child j =
      site x * ∑ j in Finset.range n, (fun i j => T (base + i * n + j)) x j * child j := by
    apply Finset.sum_eq_single x
    · intro i hi hne
      rw [hsite i (Finset.mem_range.mp hi), if_neg hne, zero_mul]
    · intro h
      exact absurd (Finset.mem_range.mpr hx) h
  rw [e, hsite x hx, if_pos rfl, one_mul]
  apply Finset.sum_congr rfl
  intro j _
  ring

theorem lhCat_general (n : Nat) (T : Nat → ℚ) (base d : Nat) (site child : Nat → ℚ)
    (hd : n ≤ d) :
    lhCatNaive n T base d site child =
      generalDoubleSum n (fun i j => T (base + i * n + j)) site child := by
  unfold lhCatNaive generalDoubleSum
  rw [if_neg (by omega)]
  simp only
  rw [foldl_range_sum, zero_add]
  apply Finset.sum_congr rfl
  intro i _
  rw [foldl_range_sum, zero_add, mul_comm]
  congr 1
  apply Finset.sum_congr rfl
  intro j _
  ring

/-- C32: let `dad` be a leaf (not named `ROOT_NAME`) that shows a definite state
`x < nstates` at pattern `p`, and let its half-edge cache be the one that
`computePartialLikelihoodNaive` computes. Then `dad_state` is `x`, the cache at `(p, c)`
is the indicator of `x`, and the value `lh_cat` that `computeLikelihoodBranchNaive`
computes with the single row `Σ_j L_child[j] · P[x,j]` equals the general double sum
`Σ_i L_site[i] · Σ_j P[i,j] · L_child[j]`, for every transition matrix and every
`L_child`; the general branch of the code, taken for any `dad_state ≥ nstates`,
computes that double sum as well. -/
theorem lhCatNaive_single_row (aln : Alignment) (STATE_UNKNOWN : Nat) (m : LhModel)
    (nei : LhNeighbor) (id : Nat) (pattern_scale : Option (Nat → ℚ))
    (trans_mat : Nat → ℚ) (trans_base : Nat) (partial_lh_child : Nat → ℚ) (p c : Nat)
    (hflag : nei.partial_lh_computed &&& 1 = 0) (hid : id < aln.nseq)
    (hp : p < aln.size) (hc : c < m.ncat)
    (hx : aln.state p id < aln.num_states) (hU : aln.state p id ≠ STATE_UNKNOWN) :
    ∃ b, computePartialLikelihoodNaive aln STATE_UNKNOWN m (.mk nei id false [])
        pattern_scale = some (b, pattern_scale) ∧
      dadState aln true id p = aln.state p id ∧
      (∀ k, k < aln.num_states →
        b.nei.partial_lh (c * aln.num_states + p * (aln.num_states * m.ncat) + k) =
          if k = aln.state p id then 1 else 0) ∧
      lhCatNaive aln.num_states trans_mat trans_base (dadState aln true id p)
          (fun k => b.nei.partial_lh (c * aln.num_states + p * (aln.num_states * m.ncat) + k))
          partial_lh_child =
        generalDoubleSum aln.num_states
          (fun i j => trans_mat (trans_base + i * aln.num_states + j))
          (fun k => b.nei.partial_lh (c * aln.num_states + p * (aln.num_states * m.ncat) + k))
          partial_lh_child ∧
      ∀ d, aln.num_states ≤ d →
        lhCatNaive aln.num_states trans_mat trans_base d
          (fun k => b.nei.partial_lh (c * aln.num_states + p * (aln.num_states * m.ncat) + k))
          partial_lh_child =
        generalDoubleSum aln.num_states
          (fun i j => trans_mat (trans_base + i * aln.num_states + j))
          (fun k => b.nei.partial_lh (c * aln.num_states + p * (aln.num_states * m.ncat) + k))
          partial_lh_child := by
  obtain ⟨nei1, h, hL, _⟩ := leafCache_spec aln STATE_UNKNOWN m nei id false pattern_scale
    hflag (Or.inr hid)
  have hsite : ∀ k, k < aln.num_states →
      nei1.partial_lh (c * aln.num_states + p * (aln.num_states * m.ncat) + k) =
        if k = aln.state p id then 1 else 0 := by
    intro k hk
    have e : c * aln.num_states + p * (aln.num_states * m.ncat) + k =
        p * (aln.num_states * m.ncat) + (c * aln.num_states + k) := by omega
    rw [e, hL p c k hp hc hk]
    unfold compatible leafShown
    simp only [Bool.false_eq_true, if_false, hU, hx, if_true, beq_iff_eq]
  have hd : dadState aln true id p = aln.state p id := by simp [dadState]
  refine ⟨.mk nei1 id false [], h, hd, hsite, ?_, ?_⟩
  · rw [hd]
    exact lhCat_single _ _ _ _ _ _ hx hsite
  · intro d hd
    exact lhCat_general _ _ _ _ _ _ hd

theorem lhCatNaive_single_row_witness :
    ∃ b, computePartialLikelihoodNaive exampleAln 126 exampleLhModel
        (.mk exampleLhNeighbor 1 false []) none = some (b, none) ∧
      dadState exampleAln true 1 0 = exampleAln.state 0 1 ∧
      (∀ k, k < exampleAln.num_states →
        b.nei.partial_lh (1 * exampleAln.num_states +
            0 * (exampleAln.num_states * exampleLhModel.ncat) + k) =
          if k = exampleAln.state 0 1 then 1 else 0) ∧
      lhCatNaive exampleAln.num_states (fun i : Nat => (i : ℚ) / 16) 0 (dadState exampleAln true 1 0)
          (fun k => b.nei.partial_lh (1 * exampleAln.num_states +
            0 * (exampleAln.num_states * exampleLhModel.ncat) + k))
          (fun j => (j : ℚ) + 1) =
        generalDoubleSum exampleAln.num_states
          (fun i j => ((0 + i * exampleAln.num_states + j : Nat) : ℚ) / 16)
          (fun k => b.nei.partial_lh (1 * exampleAln.num_states +
            0 * (exampleAln.num_states * exampleLhModel.ncat) + k))
          (fun j => (j : ℚ) + 1) ∧
      ∀ d, exampleAln.num_states ≤ d →
        lhCatNaive exampleAln.num_states (fun i : Nat => (i : ℚ) / 16) 0 d
          (fun k => b.nei.partial_lh (1 * exampleAln.num_states +
            0 * (exampleAln.num_states * exampleLhModel.ncat) + k))
          (fun j => (j : ℚ) + 1) =
        generalDoubleSum exampleAln.num_states
          (fun i j => ((0 + i * exampleAln.num_states + j : Nat) : ℚ) / 16)
          (fun k => b.nei.partial_lh (1 * exampleAln.num_states +
            0 * (exampleAln.num_states * exampleLhModel.ncat) + k))
          (fun j => (j : ℚ) + 1) :=
  lhCatNaive_single_row exampleAln 126 exampleLhModel exampleLhNeighbor 1 none
    (fun i : Nat => (i : ℚ) / 16) 0 (fun j => (j : ℚ) + 1) 0 1 (by decide) (by decide) (by decide)
    (by decide) (by decide) (by decide)

theorem flag_set (x : Nat) : (x ||| 1) &&& 1 ≠ 0 := by
  have h : ((x ||| 1) &&& 1).testBit 0 = true := by
    rw [Nat.testBit_and, Nat.testBit_or]
    simp
  intro e
  rw [e] at h
  simp at h

theorem internalLhStep_skip (aln : Alignment) (m : LhModel) (child : LhNeighbor) (st : LhAcc)
    (p : Nat) (h : child.scale_num p = -1) : internalLhStep aln m child st p = st := by
  unfold internalLhStep
  rw [if_neg (by rw [h]; decide)]

theorem sameAt_refl (aln : Alignment) (m : LhModel) (p : Nat) (a : LhAcc) :
    LhAcc.SameAt aln m p a a := ⟨fun _ _ _ _ => rfl, rfl, rfl⟩

theorem sameAt_trans (aln : Alignment) (m : LhModel) (p : Nat) (a b c : LhAcc)
    (h1 : LhAcc.SameAt aln m p a b) (h2 : LhAcc.SameAt aln m p b c) :
    LhAcc.SameAt aln m p a c :=
  ⟨fun x y hx hy => (h2.1 x y hx hy).trans (h1.1 x y hx hy), h2.2.1.trans h1.2.1,
    h2.2.2.trans h1.2.2⟩

theorem block_disjoint (B p q k j : Nat) (hk : k < B) (hj : j < B) (hne : q ≠ p) :
    p * B + k ≠ q * B + j := by
  intro e
  rcases Nat.lt_or_gt_of_ne hne with h | h
  · have : (q + 1) * B ≤ p * B := Nat.mul_le_mul_right B h
    rw [Nat.add_mul, Nat.one_mul] at this
    omega
  · have : (p + 1) * B ≤ q * B := Nat.mul_le_mul_right B h
    rw [Nat.add_mul, Nat.one_mul] at this
    omega

theorem internalLhStep_frame (aln : Alignment) (m : LhModel) (child : LhNeighbor) (st : LhAcc)
    (p q : Nat) (hne : q ≠ p) :
    LhAcc.SameAt aln m p st (internalLhStep aln m child st q) := by
  have hidx : ∀ c s c1 s1, c < m.ncat → s < aln.num_states → c1 < m.ncat →
      s1 < aln.num_states →
      p * (aln.num_states * m.ncat) + (c * aln.num_states + s) ≠
        c1 * aln.num_states + q * (aln.num_states * m.ncat) + s1 := by
    intro c s c1 s1 hc hs hc1 hs1 e
    refine block_disjoint (aln.num_states * m.ncat) p q (c * aln.num_states + s)
      (c1 * aln.num_states + s1) (cell_lt _ _ _ _ hc hs) (cell_lt _ _ _ _ hc1 hs1) hne ?_
    omega
  -- the array after the products
  have hprod : ∀ (a : Nat → ℚ) c s, c < m.ncat → s < aln.num_states →
      ((List.range m.ncat).foldl (fun a cat =>
        (List.range aln.num_states).foldl (fun a state =>
          Function.update a
            (cat * aln.num_states + q * (aln.num_states * m.ncat) + state)
            (a (cat * aln.num_states + q * (aln.num_states * m.ncat) + state) *
              (List.range aln.num_states).foldl (fun lh_child state2 =>
                lh_child + m.trans child.length q cat state state2 *
                  child.partial_lh
                    (cat * aln.num_states + q * (aln.num_states * m.ncat) + state2)) 0)) a) a)
        (p * (aln.num_states * m.ncat) + (c * aln.num_states + s)) =
      a (p * (aln.num_states * m.ncat) + (c * aln.num_states + s)) := by
    intro a c s hc hs
    refine (foldl_mark m.ncat _ _ (fun _ => False) (1 : ℚ) ?_ ?_ a).2 (fun ⟨_, _, f⟩ => f)
    · intro a k _ f; exact absurd f id
    · intro a c1 hc1 _
      refine (foldl_mark aln.num_states _ _ (fun _ => False) (1 : ℚ) ?_ ?_ a).2
        (fun ⟨_, _, f⟩ => f)
      · intro a k _ f; exact absurd f id
      · intro a s1 hs1 _
        exact Function.update_noteq (hidx c s c1 s1 hc hs hc1 hs1) _ _
  have hscale : ∀ (a : Nat → ℚ) c s, c < m.ncat → s < aln.num_states →
      ((List.range (aln.num_states * m.ncat)).foldl (fun a cat =>
        Function.update a (q * (aln.num_states * m.ncat) + cat)
          (a (q * (aln.num_states * m.ncat) + cat) / m.SCALING_THRESHOLD)) a)
        (p * (aln.num_states * m.ncat) + (c * aln.num_states + s)) =
      a (p * (aln.num_states * m.ncat) + (c * aln.num_states + s)) := by
    intro a c s hc hs
    refine (foldl_mark (aln.num_states * m.ncat) _ _ (fun _ => False) (1 : ℚ) ?_ ?_ a).2
      (fun ⟨_, _, f⟩ => f)
    · intro a k _ f; exact absurd f id
    · intro a j hj _
      exact Function.update_noteq
        (block_disjoint _ p q _ j (cell_lt _ _ _ _ hc hs) hj hne) _ _
  have hpq : p ≠ q := fun e => hne e.symm
  unfold internalLhStep
  simp only
  split
  · split
    · refine ⟨fun c s hc hs => hprod _ c s hc hs, ?_, rfl⟩
      simp only
      rw [Function.update_noteq hpq]
      split
      · rw [Function.update_noteq hpq]
      · rfl
    · refine ⟨fun c s hc hs => ?_, ?_, ?_⟩
      · simp only
        rw [hscale _ c s hc hs, hprod _ c s hc hs]
      · simp only
        rw [Function.update_noteq hpq, Function.update_noteq hpq]
        split
        · rw [Function.update_noteq hpq]
        · rfl
      · simp only
        cases st.pattern_scale with
        | none => rfl
        | some f =>
            simp only [Option.map_some']
            rw [Function.update_noteq hpq]
  · exact sameAt_refl aln m p st

theorem internalLh_fold (aln : Alignment) (m : LhModel) (child : LhNeighbor) (p : Nat)
    (h : child.scale_num p = -1) (n : Nat) (st : LhAcc) :
    LhAcc.SameAt aln m p st ((List.range n).foldl (internalLhStep aln m child) st) := by
  induction n with
  | zero => exact sameAt_refl aln m p st
  | succ k ih =>
      rw [List.range_succ, List.foldl_append]
      simp only [List.foldl_cons, List.foldl_nil]
      refine sameAt_trans aln m p _ _ _ ih ?_
      by_cases e : k = p
      · rw [e, internalLhStep_skip aln m child _ p h]
        exact sameAt_refl aln m p _
      · exact internalLhStep_frame aln m child _ p k e

theorem ones_of_leaf (aln : Alignment) (U : Nat) (m : LhModel) (p : Nat) (hp : p < aln.size)
    (nei : LhNeighbor) (id : Nat) (rn : Bool) (ps : Option (Nat → ℚ))
    (hflag : ¬ nei.valid) (hU : rn = true ∨ (id < aln.nseq ∧ aln.state p id = U)) :
    UnknownResult aln U m p (.mk nei id rn []) ps := by
  have hflag0 : nei.partial_lh_computed &&& 1 = 0 := by
    unfold LhNeighbor.valid at hflag
    exact not_not.mp hflag
  obtain ⟨nei1, h, hL, hS, _, hf, _⟩ := leafCache_spec aln U m nei id rn ps hflag0
    (hU.elim Or.inl (fun x => Or.inr x.1))
  have hshown : leafShown aln U id rn p = U := by
    unfold leafShown
    rcases hU with h | h
    · simp [h]
    · by_cases hr : rn = true
      · simp [hr]
      · simp [hr, h.2]
  have hv : nei1.valid := by
    unfold LhNeighbor.valid
    rw [hf]
    exact flag_set _
  refine ⟨.mk nei1 id rn [], ps, h, hv, rfl, ?_, rfl, ?_⟩
  · intro e he _
    have : e = nei1 := by simpa [LhBranch.halfEdges, LhBranch.halfEdgesOf] using he
    subst this
    refine ⟨fun c s hc hs => ?_, ?_⟩
    · rw [hL p c s hp hc hs, hshown]
      simp [compatible]
    · rw [hS p hp, hshown]
      simp
  · intro _ e he
    have : e = nei1 := by simpa [LhBranch.halfEdges, LhBranch.halfEdgesOf] using he
    subst this
    exact hv

mutual
theorem unknown_branch (aln : Alignment) (U : Nat) (m : LhModel) (p : Nat)
    (hp : p < aln.size) :
    ∀ (b : LhBranch) (ps : Option (Nat → ℚ)),
      (∀ x ∈ b.leaves, x.2 = true ∨ (x.1 < aln.nseq ∧ aln.state p x.1 = U)) →
      (∀ e ∈ b.halfEdges, e.valid → e.Ones aln m p) →
      UnknownResult aln U m p b ps
  | .mk nei id rn [], ps, hl, hc => by
      by_cases hv : nei.valid
      · refine ⟨.mk nei id rn [], ps, ?_, hv, rfl, hc, rfl, ?_⟩
        · unfold computePartialLikelihoodNaive
          unfold LhNeighbor.valid at hv
          rw [if_pos hv]
        · intro h
          exact absurd hv (h nei (by simp [LhBranch.halfEdges]))
      · exact ones_of_leaf aln U m p hp nei id rn ps hv
          (hl (id, rn) (by simp [LhBranch.leaves]))
  | .mk nei id rn (c :: cs), ps, hl, hc => by
      by_cases hv : nei.valid
      · refine ⟨.mk nei id rn (c :: cs), ps, ?_, hv, rfl, hc, rfl, ?_⟩
        · unfold computePartialLikelihoodNaive
          unfold LhNeighbor.valid at hv
          rw [if_pos hv]
        · intro h
          exact absurd hv (h nei (by simp [LhBranch.halfEdges]))
      · have hflag0 : nei.partial_lh_computed &&& 1 = 0 := by
          unfold LhNeighbor.valid at hv
          exact not_not.mp hv
        obtain ⟨cs1, acc1, hrun, hsame, hones, hfresh⟩ :=
          unknown_children aln U m p hp (c :: cs)
            ⟨fillRange nei.partial_lh 0 (aln.size * (aln.num_states * m.ncat)) 1,
              fillRange (fillRange nei.scale_num 0 aln.size 0) 0 aln.size (-1), 0, ps⟩
            (fun x hx => hl x (by
              simp only [LhBranch.leaves, List.isEmpty_cons, Bool.false_eq_true, if_false,
                List.nil_append]
              exact hx))
            (fun e he => hc e (by
              simp only [LhBranch.halfEdges, List.mem_cons]
              exact Or.inr he))
        have hv1 : LhNeighbor.valid
            { nei with lh_scale_factor := acc1.lh_scale_factor, partial_lh := acc1.partial_lh,
                       scale_num := acc1.scale_num,
                       partial_lh_computed := nei.partial_lh_computed ||| 1 } := flag_set _
        refine ⟨.mk { nei with lh_scale_factor := acc1.lh_scale_factor,
                               partial_lh := acc1.partial_lh, scale_num := acc1.scale_num,
                               partial_lh_computed := nei.partial_lh_computed ||| 1 }
            id rn cs1, acc1.pattern_scale, ?_, hv1, rfl, ?_, hsame.2.2, ?_⟩
        · unfold computePartialLikelihoodNaive
          simp only [hflag0, ne_eq, not_true_eq_false, if_false, List.isEmpty_cons,
            Bool.false_eq_true]
          rw [hrun]
          rfl
        · intro e he _
          simp only [LhBranch.halfEdges, List.mem_cons] at he
          rcases he with e1 | e1
          · subst e1
            refine ⟨fun c0 s hc0 hs => ?_, ?_⟩
            · show acc1.partial_lh _ = 1
              rw [hsame.1 c0 s hc0 hs]
              apply fillRange_in
              · exact Nat.zero_le _
              · have h1 := cell_lt aln.num_states m.ncat c0 s hc0 hs
                have h2 : (p + 1) * (aln.num_states * m.ncat) ≤
                    aln.size * (aln.num_states * m.ncat) := Nat.mul_le_mul_right _ hp
                rw [Nat.add_mul, Nat.one_mul] at h2
                omega
            · show acc1.scale_num p = -1
              rw [hsame.2.1]
              exact fillRange_in _ _ _ _ _ (Nat.zero_le _) (by omega)
          · exact hones e e1 ‹_›
        · intro h e he
          simp only [LhBranch.halfEdges, List.mem_cons] at he
          rcases he with e1 | e1
          · subst e1; exact hv1
          · exact hfresh (fun e0 he0 => h e0 (by
              simp only [LhBranch.halfEdges, List.mem_cons]
              exact Or.inr he0)) e e1
theorem unknown_children (aln : Alignment) (U : Nat) (m : LhModel) (p : Nat)
    (hp : p < aln.size) :
    ∀ (cs : List LhBranch) (acc : LhAcc),
      (∀ x ∈ LhBranch.leavesOf cs, x.2 = true ∨ (x.1 < aln.nseq ∧ aln.state p x.1 = U)) →
      (∀ e ∈ LhBranch.halfEdgesOf cs, e.valid → e.Ones aln m p) →
      UnknownResults aln U m p cs acc
  | [], acc, _, _ => by
      refine ⟨[], acc, ?_, sameAt_refl aln m p acc, ?_, ?_⟩
      · unfold computePartialLikelihoodChildren
        rfl
      · intro e he
        simp [LhBranch.halfEdgesOf] at he
      · intro _ e he
        simp [LhBranch.halfEdgesOf] at he
  | it :: rest, acc, hl, hc => by
      by_cases hr : it.isRootName = true
      · obtain ⟨cs1, acc1, hrun, hsame, hones, hfresh⟩ :=
          unknown_children aln U m p hp rest acc
            (fun x hx => hl x (by
              simp only [LhBranch.leavesOf, List.mem_append]
              exact Or.inr hx))
            (fun e he => hc e (by
              simp only [LhBranch.halfEdgesOf, List.mem_append]
              exact Or.inr he))
        refine ⟨it :: cs1, acc1, ?_, hsame, ?_, ?_⟩
        · unfold computePartialLikelihoodChildren
          rw [if_pos hr, hrun]
          rfl
        · intro e he
          simp only [LhBranch.halfEdgesOf, hr, if_true, List.nil_append] at he
          exact hones e he
        · intro h e he
          simp only [LhBranch.halfEdgesOf, hr, if_true, List.nil_append] at he
          exact hfresh (fun e0 he0 => h e0 (by
            simp only [LhBranch.halfEdgesOf, List.mem_append]
            exact Or.inr he0)) e he
      · obtain ⟨c1, ps1, hrun1, hv1, hrn1, hones1, hps1, hfresh1⟩ :=
          unknown_branch aln U m p hp it acc.pattern_scale
            (fun x hx => hl x (by
              simp only [LhBranch.leavesOf, hr, if_false, List.mem_append]
              exact Or.inl hx))
            (fun e he => hc e (by
              simp only [LhBranch.halfEdgesOf, hr, if_false, List.mem_append]
              exact Or.inl he))
        have hc1 : c1.nei ∈ c1.halfEdges := by
          cases c1 with
          | mk n i r ch => simp [LhBranch.halfEdges, LhBranch.nei]
        have hsent : c1.nei.scale_num p = -1 := (hones1 c1.nei hc1 hv1).2
        have hfold := internalLh_fold aln m c1.nei p hsent aln.size
          ⟨acc.partial_lh, acc.scale_num, 0, ps1⟩
        obtain ⟨cs1, acc1, hrun, hsame, hones, hfresh⟩ :=
          unknown_children aln U m p hp rest
            ⟨((List.range aln.size).foldl (internalLhStep aln m c1.nei)
                ⟨acc.partial_lh, acc.scale_num, 0, ps1⟩).partial_lh,
              ((List.range aln.size).foldl (internalLhStep aln m c1.nei)
                ⟨acc.partial_lh, acc.scale_num, 0, ps1⟩).scale_num,
              acc.lh_scale_factor + c1.nei.lh_scale_factor +
                ((List.range aln.size).foldl (internalLhStep aln m c1.nei)
                  ⟨acc.partial_lh, acc.scale_num, 0, ps1⟩).lh_scale_factor,
              ((List.range aln.size).foldl (internalLhStep aln m c1.nei)
                ⟨acc.partial_lh, acc.scale_num, 0, ps1⟩).pattern_scale⟩
            (fun x hx => hl x (by
              simp only [LhBranch.leavesOf, List.mem_append]
              exact Or.inr hx))
            (fun e he => hc e (by
              simp only [LhBranch.halfEdgesOf, List.mem_append]
              exact Or.inr he))
        have hr1 : ¬ c1.isRootName = true := by rw [hrn1]; exact hr
        refine ⟨c1 :: cs1, acc1, ?_, ?_, ?_, ?_⟩
        · unfold computePartialLikelihoodChildren
          rw [if_neg hr, hrun1]
          simp only [Option.bind_eq_bind, Option.some_bind]
          rw [hrun]
          rfl
        · refine ⟨fun c0 s hc0 hs => ?_, ?_, ?_⟩
          · rw [hsame.1 c0 s hc0 hs]
            exact hfold.1 c0 s hc0 hs
          · rw [hsame.2.1]
            exact hfold.2.1
          · rw [hsame.2.2]
            exact hfold.2.2.trans hps1
        · intro e he
          simp only [LhBranch.halfEdgesOf, hr1, if_false, List.mem_append] at he
          rcases he with h | h
          · exact hones1 e h
          · exact hones e h
        · intro h e he
          simp only [LhBranch.halfEdgesOf, hr1, if_false, List.mem_append] at he
          rcases he with h1 | h1
          · exact hfresh1 (fun e0 he0 => h e0 (by
              simp only [LhBranch.halfEdgesOf, hr, if_false, List.mem_append]
              exact Or.inl he0)) e h1
          · exact hfresh (fun e0 he0 => h e0 (by
              simp only [LhBranch.halfEdgesOf, List.mem_append]
              exact Or.inr he0)) e h1
end

/-- C33: let pattern `p` show `STATE_UNKNOWN` at every leaf behind the half-edge (a leaf
named `ROOT_NAME` shows it by definition), and let every cache that is already valid
hold the value 1 and the sentinel at `p`, as the routine leaves it. Then
`computePartialLikelihoodNaive` returns, the cache of the half-edge is valid, and every
valid cache of a half-edge behind it, of a leaf or of an internal node, holds
`L[p,c,s] = 1` for every category `c` and state `s` and `scale_num[p] = -1`: no scaling
is applied at `p`, and `pattern_scale[p]` is left as it was. When no cache was valid at
the call, this holds for every half-edge the routine reaches. -/
theorem computePartialLikelihoodNaive_unknown (aln : Alignment) (STATE_UNKNOWN : Nat)
    (m : LhModel) (b : LhBranch) (pattern_scale : Option (Nat → ℚ)) (p : Nat)
    (hp : p < aln.size)
    (hleaves : ∀ x ∈ b.leaves,
      x.2 = true ∨ (x.1 < aln.nseq ∧ aln.state p x.1 = STATE_UNKNOWN))
    (hcache : ∀ e ∈ b.halfEdges, e.valid → e.Ones aln m p) :
    ∃ b1 ps1, computePartialLikelihoodNaive aln STATE_UNKNOWN m b pattern_scale =
        some (b1, ps1) ∧
      b1.nei.valid ∧ b1.nei.Ones aln m p ∧
      (∀ e ∈ b1.halfEdges, e.valid →
        (∀ c s, c < m.ncat → s < aln.num_states →
          e.partial_lh (p * (aln.num_states * m.ncat) + (c * aln.num_states + s)) = 1) ∧
        e.scale_num p = -1) ∧
      ((∀ e ∈ b.halfEdges, ¬ e.valid) → ∀ e ∈ b1.halfEdges, e.valid ∧ e.Ones aln m p) ∧
      ps1.map (fun f => f p) = pattern_scale.map (fun f => f p) := by
  obtain ⟨b1, ps1, hrun, hv, _, hones, hps, hfresh⟩ :=
    unknown_branch aln STATE_UNKNOWN m p hp b pattern_scale hleaves hcache
  have hb1 : b1.nei ∈ b1.halfEdges := by
    cases b1 with
    | mk n i r ch => simp [LhBranch.halfEdges, LhBranch.nei]
  exact ⟨b1, ps1, hrun, hv, hones b1.nei hb1 hv, hones,
    fun h e he => ⟨hfresh h e he, hones e he (hfresh h e he)⟩, hps⟩

theorem computePartialLikelihoodNaive_unknown_witness :
    ∃ b1 ps1, computePartialLikelihoodNaive exampleUnknownAln 126 exampleLhModel
        exampleLhBody (some (fun _ => 0)) = some (b1, ps1) ∧
      b1.nei.valid ∧ b1.nei.Ones exampleUnknownAln exampleLhModel 4 ∧
      (∀ e ∈ b1.halfEdges, e.valid →
        (∀ c s, c < exampleLhModel.ncat → s < exampleUnknownAln.num_states →
          e.partial_lh (4 * (exampleUnknownAln.num_states * exampleLhModel.ncat) +
            (c * exampleUnknownAln.num_states + s)) = 1) ∧
        e.scale_num 4 = -1) ∧
      ((∀ e ∈ exampleLhBody.halfEdges, ¬ e.valid) →
        ∀ e ∈ b1.halfEdges, e.valid ∧ e.Ones exampleUnknownAln exampleLhModel 4) ∧
      ps1.map (fun f => f 4) = (some (fun _ => (0 : ℚ))).map (fun f => f 4) :=
  computePartialLikelihoodNaive_unknown exampleUnknownAln 126 exampleLhModel exampleLhBody
    (some (fun _ => 0)) 4 (by decide) (by decide)
    (fun e he hv => by
      have h0 : e.partial_lh_computed = 0 := by
        simp only [exampleLhBody, LhBranch.halfEdges, LhBranch.halfEdgesOf,
          LhBranch.isRootName, Bool.false_eq_true, if_false, List.append_nil,
          List.mem_cons, List.mem_append, List.not_mem_nil, or_false, List.cons_append,
          List.nil_append, or_self] at he
        rw [he]
        rfl
      unfold LhNeighbor.valid at hv
      rw [h0] at hv
      exact absurd rfl hv)

theorem edgeLength_shape (t : Tree) (u v : Nat) :
    t.edgeLength u v =
      ((shape (t.neighbors u)).find? (fun p => p.1 == v)).map (fun p => p.2) := by
  unfold Tree.edgeLength shape
  rw [List.find?_map, Option.map_map]
  rfl

theorem sameShape_edgeLength (t t1 : Tree) (h : t.SameShape t1) (u v : Nat) :
    t1.edgeLength u v = t.edgeLength u v := by
  rw [edgeLength_shape, edgeLength_shape, h u]

theorem sameShape_find (t t1 : Tree) (h : t.SameShape t1) (u v : Nat) :
    findNeighborIt (t1.neighbors u) v = findNeighborIt (t.neighbors u) v := by
  rw [findNeighborIt_shape, findNeighborIt_shape, h u]

theorem sameShape_refl (t : Tree) : t.SameShape t := fun _ => rfl

theorem sameShape_trans (t t1 t2 : Tree) (h1 : t.SameShape t1) (h2 : t1.SameShape t2) :
    t.SameShape t2 := fun u => (h2 u).trans (h1 u)

theorem sameShape_clearReverse (t : Tree) (n d : Nat) :
    t.SameShape (t.clearReversePartialLh n d) :=
  fun u => shape_clearReversePartialLh t n d u

theorem neighbors_setLengthAt (t : Tree) (n k : Nat) (v : ℚ) (m : Nat) :
    (t.setLengthAt n k v).neighbors m =
      if m = n then (t.neighbors n).modify (fun nei => { nei with length := v }) k
      else t.neighbors m := by
  unfold Tree.setLengthAt
  rw [neighbors_setNeighbors]
  by_cases hm : m = n
  · subst hm
    by_cases hn : m < t.nodes.length
    · simp [hn]
    · have : t.neighbors m = [] := neighbors_eq_nil_of_le t m (by omega)
      simp [hn, this]
  · simp [hm]

theorem links_setLengthAt (t : Tree) (n k : Nat) (v : ℚ) (m : Nat) :
    ((t.setLengthAt n k v).neighbors m).map (·.node) = (t.neighbors m).map (·.node) := by
  rw [neighbors_setLengthAt]
  split
  · next h =>
      subst h
      apply List.ext_getElem?
      intro j
      simp only [List.getElem?_map, List.getElem?_modify]
      cases (t.neighbors m)[j]? with
      | none => rfl
      | some e => by_cases hj : k = j <;> simp [hj]
  · rfl

theorem find_setLengthAt (t : Tree) (n k : Nat) (v : ℚ) (m x : Nat) :
    findNeighborIt ((t.setLengthAt n k v).neighbors m) x = findNeighborIt (t.neighbors m) x :=
  findNeighborIt_congr _ _ (links_setLengthAt t n k v m) x

theorem edgeLength_setLengthAt (t : Tree) (n k : Nat) (v : ℚ) (u x : Nat) :
    (t.setLengthAt n k v).edgeLength u x =
      if u = n ∧ findNeighborIt (t.neighbors n) x = some k then some v
      else t.edgeLength u x := by
  by_cases hu : u = n
  · subst hu
    cases hf : findNeighborIt (t.neighbors u) x with
    | none =>
        have h1 : findNeighborIt ((t.setLengthAt u k v).neighbors u) x = none := by
          rw [find_setLengthAt, hf]
        have e1 : ∀ (s : Tree), findNeighborIt (s.neighbors u) x = none →
            s.edgeLength u x = none := by
          intro s hs
          unfold Tree.edgeLength
          unfold findNeighborIt at hs
          rw [List.findIdx?_eq_none_iff] at hs
          rw [List.find?_eq_none.2 (fun e he => by simpa using hs e he)]
          rfl
        rw [e1 _ h1, e1 _ hf]
        simp
    | some i =>
        have h1 : findNeighborIt ((t.setLengthAt u k v).neighbors u) x = some i := by
          rw [find_setLengthAt, hf]
        rw [edgeLength_of_find _ u x i h1, edgeLength_of_find _ u x i hf,
          neighbors_setLengthAt, if_pos rfl, List.getElem?_modify]
        obtain ⟨e, he, _, _⟩ := (findNeighborIt_eq_some _ x i).1 hf
        rw [he]
        by_cases hik : i = k
        · subst hik
          simp
        · have : ¬ (k = i) := fun h => hik h.symm
          simp [this, hik]
  · have : (t.setLengthAt n k v).neighbors u = t.neighbors u := by
      rw [neighbors_setLengthAt, if_neg hu]
    rw [edgeLength_congr _ _ u x this]
    simp [hu]

theorem find_of_links (t t0 : Tree) (h : ∀ u, t.links u = t0.links u) (u x : Nat) :
    findNeighborIt (t.neighbors u) x = findNeighborIt (t0.neighbors u) x :=
  findNeighborIt_congr _ _ (h u) x

theorem edgeAt_setLengths (t t0 : Tree) (node1 it node2 it_back : Nat) (v : ℚ)
    (hl : ∀ u, t.links u = t0.links u)
    (hit : findNeighborIt (t0.neighbors node1) node2 = some it)
    (hback : findNeighborIt (t0.neighbors node2) node1 = some it_back) :
    ((t.setLengthAt node1 it v).setLengthAt node2 it_back v).EdgeAt node1 node2 v ∧
    ∀ u, ((t.setLengthAt node1 it v).setLengthAt node2 it_back v).links u = t0.links u := by
  have f1 : findNeighborIt (t.neighbors node1) node2 = some it := by
    rw [find_of_links t t0 hl]; exact hit
  have f2 : findNeighborIt ((t.setLengthAt node1 it v).neighbors node2) node1 = some it_back := by
    rw [find_setLengthAt, find_of_links t t0 hl]; exact hback
  refine ⟨⟨?_, ?_⟩, ?_⟩
  · rw [edgeLength_setLengthAt]
    split
    · rfl
    · rw [edgeLength_setLengthAt, if_pos ⟨rfl, f1⟩]
  · rw [edgeLength_setLengthAt, if_pos ⟨rfl, f2⟩]
  · intro u
    unfold Tree.links
    rw [links_setLengthAt, links_setLengthAt]
    exact hl u

theorem edgeAt_sameShape (t t1 : Tree) (h : t.SameShape t1) (node1 node2 : Nat) (l : ℚ)
    (he : t.EdgeAt node1 node2 l) : t1.EdgeAt node1 node2 l :=
  ⟨(sameShape_edgeLength t t1 h _ _).trans he.1, (sameShape_edgeLength t t1 h _ _).trans he.2⟩

theorem links_sameShape (t t1 : Tree) (h : t.SameShape t1) (u : Nat) :
    t1.links u = t.links u := links_eq_of_shape t t1 u (h u)

theorem run_spec (computeLikelihoodBranch : Tree → ℚ × Tree)
    (computeLikelihoodDerv : Tree → (ℚ × ℚ × ℚ) × Tree) (node1 it node2 it_back : Nat)
    (lo hi : ℚ) (t0 : Tree)
    (hB : ∀ s : Tree, s.SameShape (computeLikelihoodBranch s).2)
    (hD : ∀ s : Tree, s.SameShape (computeLikelihoodDerv s).2)
    (hit : findNeighborIt (t0.neighbors node1) node2 = some it)
    (hback : findNeighborIt (t0.neighbors node2) node1 = some it_back)
    (M : Minimizer) :
    ∀ (t : Tree) (last : Option ℚ), (∀ u, t.links u = t0.links u) → M.Within lo hi →
      (∀ l, last = some l → t.EdgeAt node1 node2 l ∧ lo ≤ l ∧ l ≤ hi) →
      (∀ u, (M.run computeLikelihoodBranch computeLikelihoodDerv node1 it node2 it_back
        t).2.2.links u = t0.links u) ∧
      lo ≤ (M.run computeLikelihoodBranch computeLikelihoodDerv node1 it node2 it_back t).1 ∧
      (M.run computeLikelihoodBranch computeLikelihoodDerv node1 it node2 it_back t).1 ≤ hi ∧
      (∀ l, M.lastValue computeLikelihoodBranch computeLikelihoodDerv node1 it node2 it_back
          t last = some l →
        (M.run computeLikelihoodBranch computeLikelihoodDerv node1 it node2 it_back
          t).2.2.EdgeAt node1 node2 l ∧ lo ≤ l ∧ l ≤ hi) ∧
      (last.isSome → (M.lastValue computeLikelihoodBranch computeLikelihoodDerv node1 it node2
        it_back t last).isSome) ∧
      (M.lastValue computeLikelihoodBranch computeLikelihoodDerv node1 it node2 it_back
          t last = none →
        (M.run computeLikelihoodBranch computeLikelihoodDerv node1 it node2 it_back
          t).2.2 = t) := by
  induction M with
  | ret optx nlh =>
      intro t last hl hw hlast
      exact ⟨hl, hw.1, hw.2, hlast, fun h => h, fun _ => rfl⟩
  | evalFunction value next ih =>
      intro t last hl hw hlast
      obtain ⟨hw1, hw2, hw3⟩ := hw
      obtain ⟨hE, hL⟩ := edgeAt_setLengths t t0 node1 it node2 it_back value hl hit hback
      have hs := hB ((t.setLengthAt node1 it value).setLengthAt node2 it_back value)
      obtain ⟨a, b, c, d, e, _⟩ := ih
        (computeFunction computeLikelihoodBranch node1 it node2 it_back t value).1
        (computeFunction computeLikelihoodBranch node1 it node2 it_back t value).2
        (some value)
        (fun u => (links_sameShape _ _ hs u).trans (hL u))
        (hw3 _)
        (fun l hl0 => by
          cases hl0
          exact ⟨edgeAt_sameShape _ _ hs _ _ _ hE, hw1, hw2⟩)
      refine ⟨a, b, c, d, fun _ => e rfl, ?_⟩
      intro h
      have := e rfl
      simp only [Minimizer.lastValue] at h
      rw [h] at this
      cases this
  | evalFuncDerv value next ih =>
      intro t last hl hw hlast
      obtain ⟨hw1, hw2, hw3⟩ := hw
      obtain ⟨hE, hL⟩ := edgeAt_setLengths t t0 node1 it node2 it_back value hl hit hback
      have hs := hD ((t.setLengthAt node1 it value).setLengthAt node2 it_back value)
      obtain ⟨a, b, c, d, e, _⟩ := ih
        (computeFuncDerv computeLikelihoodDerv node1 it node2 it_back t value).1
        (computeFuncDerv computeLikelihoodDerv node1 it node2 it_back t value).2
        (some value)
        (fun u => (links_sameShape _ _ hs u).trans (hL u))
        (hw3 _)
        (fun l hl0 => by
          cases hl0
          exact ⟨edgeAt_sameShape _ _ hs _ _ _ hE, hw1, hw2⟩)
      refine ⟨a, b, c, d, fun _ => e rfl, ?_⟩
      intro h
      have := e rfl
      simp only [Minimizer.lastValue] at h
      rw [h] at this
      cases this

theorem optimizeOneBranch_core (MIN_BRANCH_LEN MAX_BRANCH_LEN TOL_BRANCH_LEN : ℚ)
    (optimize_by_newton : Bool) (minimizeNewton minimizeOneDimen : ℚ → ℚ → ℚ → ℚ → Minimizer)
    (computeLikelihoodBranch : Tree → ℚ × Tree)
    (computeLikelihoodDerv : Tree → (ℚ × ℚ × ℚ) × Tree)
    (t : Tree) (node1 node2 : Nat) (clearLH : Bool) (current_len : ℚ)
    (hB : ∀ s : Tree, s.SameShape (computeLikelihoodBranch s).2)
    (hD : ∀ s : Tree, s.SameShape (computeLikelihoodDerv s).2)
    (hedge : t.EdgeAt node1 node2 current_len)
    (hw : (optimizeOneBranchMinimizer MIN_BRANCH_LEN MAX_BRANCH_LEN TOL_BRANCH_LEN
      optimize_by_newton minimizeNewton minimizeOneDimen current_len).Within
      MIN_BRANCH_LEN MAX_BRANCH_LEN) :
    ∃ it it_back lh t1,
      findNeighborIt (t.neighbors node1) node2 = some it ∧
      findNeighborIt (t.neighbors node2) node1 = some it_back ∧
      optimizeOneBranch MIN_BRANCH_LEN MAX_BRANCH_LEN TOL_BRANCH_LEN optimize_by_newton
        minimizeNewton minimizeOneDimen computeLikelihoodBranch computeLikelihoodDerv
        t node1 node2 clearLH = some (lh, t1) ∧
      (∀ u, t1.links u = t.links u) ∧
      t1.EdgeAt node1 node2
        (if current_len =
            ((optimizeOneBranchMinimizer MIN_BRANCH_LEN MAX_BRANCH_LEN TOL_BRANCH_LEN
              optimize_by_newton minimizeNewton minimizeOneDimen current_len).run
              computeLikelihoodBranch computeLikelihoodDerv node1 it node2 it_back t).1
         then ((optimizeOneBranchMinimizer MIN_BRANCH_LEN MAX_BRANCH_LEN TOL_BRANCH_LEN
              optimize_by_newton minimizeNewton minimizeOneDimen current_len).lastValue
              computeLikelihoodBranch computeLikelihoodDerv node1 it node2 it_back t
              none).getD current_len
         else ((optimizeOneBranchMinimizer MIN_BRANCH_LEN MAX_BRANCH_LEN TOL_BRANCH_LEN
              optimize_by_newton minimizeNewton minimizeOneDimen current_len).run
              computeLikelihoodBranch computeLikelihoodDerv node1 it node2 it_back t).1) ∧
      MIN_BRANCH_LEN ≤
        (if current_len =
            ((optimizeOneBranchMinimizer MIN_BRANCH_LEN MAX_BRANCH_LEN TOL_BRANCH_LEN
              optimize_by_newton minimizeNewton minimizeOneDimen current_len).run
              computeLikelihoodBranch computeLikelihoodDerv node1 it node2 it_back t).1
         then ((optimizeOneBranchMinimizer MIN_BRANCH_LEN MAX_BRANCH_LEN TOL_BRANCH_LEN
              optimize_by_newton minimizeNewton minimizeOneDimen current_len).lastValue
              computeLikelihoodBranch computeLikelihoodDerv node1 it node2 it_back t
              none).getD current_len
         else ((optimizeOneBranchMinimizer MIN_BRANCH_LEN MAX_BRANCH_LEN TOL_BRANCH_LEN
              optimize_by_newton minimizeNewton minimizeOneDimen current_len).run
              computeLikelihoodBranch computeLikelihoodDerv node1 it node2 it_back t).1) ∧
      (if current_len =
            ((optimizeOneBranchMinimizer MIN_BRANCH_LEN MAX_BRANCH_LEN TOL_BRANCH_LEN
              optimize_by_newton minimizeNewton minimizeOneDimen current_len).run
              computeLikelihoodBranch computeLikelihoodDerv node1 it node2 it_back t).1
         then ((optimizeOneBranchMinimizer MIN_BRANCH_LEN MAX_BRANCH_LEN TOL_BRANCH_LEN
              optimize_by_newton minimizeNewton minimizeOneDimen current_len).lastValue
              computeLikelihoodBranch computeLikelihoodDerv node1 it node2 it_back t
              none).getD current_len
         else ((optimizeOneBranchMinimizer MIN_BRANCH_LEN MAX_BRANCH_LEN TOL_BRANCH_LEN
              optimize_by_newton minimizeNewton minimizeOneDimen current_len).run
              computeLikelihoodBranch computeLikelihoodDerv node1 it node2 it_back t).1)
        ≤ MAX_BRANCH_LEN := by
  have hmem : ∀ a b l, t.edgeLength a b = some l → ∃ k e, findNeighborIt (t.neighbors a) b = some k
      ∧ (t.neighbors a)[k]? = some e ∧ e.length = l := by
    intro a b l h
    cases hf : findNeighborIt (t.neighbors a) b with
    | none =>
        exfalso
        unfold Tree.edgeLength at h
        unfold findNeighborIt at hf
        rw [List.findIdx?_eq_none_iff] at hf
        rw [List.find?_eq_none.2 (fun e he => by simpa using hf e he)] at h
        cases h
    | some k =>
        rw [edgeLength_of_find t a b k hf] at h
        obtain ⟨e, he, _, _⟩ := (findNeighborIt_eq_some _ b k).1 hf
        rw [he] at h
        exact ⟨k, e, rfl, he, by simpa using h⟩
  obtain ⟨it, e1, hit, he1, hlen1⟩ := hmem node1 node2 current_len hedge.1
  obtain ⟨it_back, e2, hback, _, _⟩ := hmem node2 node1 current_len hedge.2
  obtain ⟨rl, rlo, rhi, rlast, _, rnone⟩ := run_spec computeLikelihoodBranch
    computeLikelihoodDerv node1 it node2 it_back MIN_BRANCH_LEN MAX_BRANCH_LEN t hB hD hit hback
    (optimizeOneBranchMinimizer MIN_BRANCH_LEN MAX_BRANCH_LEN TOL_BRANCH_LEN
      optimize_by_newton minimizeNewton minimizeOneDimen current_len) t none (fun _ => rfl) hw
    (fun l h => by cases h)
  have hrun : optimizeOneBranch MIN_BRANCH_LEN MAX_BRANCH_LEN TOL_BRANCH_LEN optimize_by_newton
      minimizeNewton minimizeOneDimen computeLikelihoodBranch computeLikelihoodDerv
      t node1 node2 clearLH =
      (let r := (optimizeOneBranchMinimizer MIN_BRANCH_LEN MAX_BRANCH_LEN TOL_BRANCH_LEN
          optimize_by_newton minimizeNewton minimizeOneDimen current_len).run
          computeLikelihoodBranch computeLikelihoodDerv node1 it node2 it_back t
       if current_len = r.1 then some (-r.2.1, r.2.2)
       else if clearLH then
          some (-r.2.1, (((r.2.2.setLengthAt node1 it r.1).setLengthAt node2 it_back
            r.1).clearReversePartialLh node1 node2).clearReversePartialLh node2 node1)
        else some (-r.2.1, (r.2.2.setLengthAt node1 it r.1).setLengthAt node2 it_back r.1)) := by
    unfold optimizeOneBranch optimizeOneBranchMinimizer
    have hget : (t.neighbors node1).get? it = some e1 := by
      rw [List.get?_eq_getElem?]; exact he1
    simp only [hit, hback, hget, hlen1]
    cases optimize_by_newton <;> simp only [Bool.false_eq_true, if_false, if_true]
  obtain ⟨r, hr⟩ : ∃ r, (optimizeOneBranchMinimizer MIN_BRANCH_LEN MAX_BRANCH_LEN TOL_BRANCH_LEN
      optimize_by_newton minimizeNewton minimizeOneDimen current_len).run
      computeLikelihoodBranch computeLikelihoodDerv node1 it node2 it_back t = r := ⟨_, rfl⟩
  rw [hr] at rl rlo rhi rlast rnone hrun
  simp only at hrun
  by_cases hc : current_len = r.1
  · rw [if_pos hc] at hrun
    refine ⟨it, it_back, _, _, hit, hback, hrun, rl, ?_⟩
    rw [hr, if_pos hc]
    cases hlast : (optimizeOneBranchMinimizer MIN_BRANCH_LEN MAX_BRANCH_LEN TOL_BRANCH_LEN
      optimize_by_newton minimizeNewton minimizeOneDimen current_len).lastValue
      computeLikelihoodBranch computeLikelihoodDerv node1 it node2 it_back t none with
    | none =>
        rw [rnone hlast]
        simp only [Option.getD_none]
        refine ⟨hedge, ?_, ?_⟩
        · rw [hc]; exact rlo
        · rw [hc]; exact rhi
    | some l =>
        simp only [Option.getD_some]
        exact rlast l hlast
  · rw [if_neg hc] at hrun
    obtain ⟨hE, hL⟩ := edgeAt_setLengths r.2.2 t node1 it node2 it_back r.1 rl hit hback
    cases clearLH with
    | false =>
        simp only [Bool.false_eq_true, if_false] at hrun
        refine ⟨it, it_back, _, _, hit, hback, hrun, hL, ?_⟩
        rw [hr, if_neg hc]
        exact ⟨hE, rlo, rhi⟩
    | true =>
        simp only [if_true] at hrun
        have hs := sameShape_trans _ _ _
          (sameShape_clearReverse ((r.2.2.setLengthAt node1 it r.1).setLengthAt node2 it_back
            r.1) node1 node2)
          (sameShape_clearReverse _ node2 node1)
        refine ⟨it, it_back, _, _, hit, hback, hrun,
          fun u => (links_sameShape _ _ hs u).trans (hL u), ?_⟩
        rw [hr, if_neg hc]
        exact ⟨edgeAt_sameShape _ _ hs _ _ _ hE, rlo, rhi⟩

/-- C35, what the code guarantees: let both half-edges of the branch hold the length
`current_len` at the call, let the minimizer return a point of
`[MIN_BRANCH_LEN, MAX_BRANCH_LEN]` and evaluate the objective at points of that interval
only, and let the likelihood routines leave the half-edges and their lengths alone.
Then `optimizeOneBranch` returns, the topology is as it was, both half-edges of the
branch hold the same length, and this length is in
`[MIN_BRANCH_LEN, MAX_BRANCH_LEN]`. The length is the optimum `optx` when `optx`
differs from `current_len`; when `optx = current_len` it is the last point at which the
minimizer evaluated the objective, which need not be the optimum. -/
theorem optimizeOneBranch_lengths (MIN_BRANCH_LEN MAX_BRANCH_LEN TOL_BRANCH_LEN : ℚ)
    (optimize_by_newton : Bool) (minimizeNewton minimizeOneDimen : ℚ → ℚ → ℚ → ℚ → Minimizer)
    (computeLikelihoodBranch : Tree → ℚ × Tree)
    (computeLikelihoodDerv : Tree → (ℚ × ℚ × ℚ) × Tree)
    (t : Tree) (node1 node2 : Nat) (clearLH : Bool) (current_len : ℚ)
    (hB : ∀ s : Tree, s.SameShape (computeLikelihoodBranch s).2)
    (hD : ∀ s : Tree, s.SameShape (computeLikelihoodDerv s).2)
    (hedge : t.edgeLength node1 node2 = some current_len ∧
      t.edgeLength node2 node1 = some current_len)
    (hw : (optimizeOneBranchMinimizer MIN_BRANCH_LEN MAX_BRANCH_LEN TOL_BRANCH_LEN
      optimize_by_newton minimizeNewton minimizeOneDimen current_len).Within
      MIN_BRANCH_LEN MAX_BRANCH_LEN) :
    ∃ it it_back lh t1 len,
      findNeighborIt (t.neighbors node1) node2 = some it ∧
      findNeighborIt (t.neighbors node2) node1 = some it_back ∧
      optimizeOneBranch MIN_BRANCH_LEN MAX_BRANCH_LEN TOL_BRANCH_LEN optimize_by_newton
        minimizeNewton minimizeOneDimen computeLikelihoodBranch computeLikelihoodDerv
        t node1 node2 clearLH = some (lh, t1) ∧
      (∀ u, t1.links u = t.links u) ∧
      t1.edgeLength node1 node2 = some len ∧ t1.edgeLength node2 node1 = some len ∧
      MIN_BRANCH_LEN ≤ len ∧ len ≤ MAX_BRANCH_LEN ∧
      len = lengthLeft computeLikelihoodBranch computeLikelihoodDerv node1 it node2 it_back
        (optimizeOneBranchMinimizer MIN_BRANCH_LEN MAX_BRANCH_LEN TOL_BRANCH_LEN
          optimize_by_newton minimizeNewton minimizeOneDimen current_len) t current_len ∧
      (current_len ≠ ((optimizeOneBranchMinimizer MIN_BRANCH_LEN MAX_BRANCH_LEN
          TOL_BRANCH_LEN optimize_by_newton minimizeNewton minimizeOneDimen current_len).run
          computeLikelihoodBranch computeLikelihoodDerv node1 it node2 it_back t).1 →
        len = ((optimizeOneBranchMinimizer MIN_BRANCH_LEN MAX_BRANCH_LEN
          TOL_BRANCH_LEN optimize_by_newton minimizeNewton minimizeOneDimen current_len).run
          computeLikelihoodBranch computeLikelihoodDerv node1 it node2 it_back t).1) := by
  obtain ⟨it, it_back, lh, t1, h1, h2, h3, h4, h5, h6, h7⟩ :=
    optimizeOneBranch_core MIN_BRANCH_LEN MAX_BRANCH_LEN TOL_BRANCH_LEN optimize_by_newton
      minimizeNewton minimizeOneDimen computeLikelihoodBranch computeLikelihoodDerv t node1
      node2 clearLH current_len hB hD hedge hw
  refine ⟨it, it_back, lh, t1, _, h1, h2, h3, h4, h5.1, h5.2, h6, h7, rfl, ?_⟩
  intro hne
  rw [if_neg hne]

theorem optimizeOneBranch_lengths_witness :
    ∃ it it_back lh t1 len,
      findNeighborIt (exampleTree.neighbors 4) 5 = some it ∧
      findNeighborIt (exampleTree.neighbors 5) 4 = some it_back ∧
      optimizeOneBranch 1 9 1 false exampleMinimizer exampleMinimizer (fun s => (0, s))
        (fun s => ((0, 0, 0), s)) exampleTree 4 5 true = some (lh, t1) ∧
      (∀ u, t1.links u = exampleTree.links u) ∧
      t1.edgeLength 4 5 = some len ∧ t1.edgeLength 5 4 = some len ∧
      1 ≤ len ∧ len ≤ 9 ∧
      len = lengthLeft (fun s => (0, s)) (fun s => ((0, 0, 0), s)) 4 it 5 it_back
        (optimizeOneBranchMinimizer 1 9 1 false exampleMinimizer exampleMinimizer 5)
        exampleTree 5 ∧
      ((5 : ℚ) ≠ ((optimizeOneBranchMinimizer 1 9 1 false exampleMinimizer
          exampleMinimizer 5).run (fun s => (0, s)) (fun s => ((0, 0, 0), s)) 4 it 5 it_back
          exampleTree).1 →
        len = ((optimizeOneBranchMinimizer 1 9 1 false exampleMinimizer
          exampleMinimizer 5).run (fun s => (0, s)) (fun s => ((0, 0, 0), s)) 4 it 5 it_back
          exampleTree).1) :=
  optimizeOneBranch_lengths 1 9 1 false exampleMinimizer exampleMinimizer (fun s => (0, s))
    (fun s => ((0, 0, 0), s)) exampleTree 4 5 true 5 (fun s => sameShape_refl s)
    (fun s => sameShape_refl s) ⟨by decide, by decide⟩
    ⟨by decide, by decide, fun _ => ⟨by decide, by decide⟩⟩

/-- C35, the input at which the claim fails: on the example tree the branch between the
nodes 4 and 5 has length 5 at both ends; the minimizer evaluates the objective at 3 and
returns `optx = 5`, the incoming length, all in `[1, 9]`. `computeFunction` has written 3
into both half-edges, `optimizeOneBranch` returns early because `current_len == optx`,
and both half-edges are left at 3, which is not the optimum 5. -/
theorem optimizeOneBranch_keeps_last_point :
    exampleTree.edgeLength 4 5 = some 5 ∧ exampleTree.edgeLength 5 4 = some 5 ∧
    (Minimizer.run (fun s => (0, s)) (fun s => ((0, 0, 0), s)) 4 2 5 0
      (exampleMinimizer 1 5 9 1) exampleTree).1 = 5 ∧
    (optimizeOneBranch 1 9 1 false exampleMinimizer exampleMinimizer (fun s => (0, s))
        (fun s => ((0, 0, 0), s)) exampleTree 4 5 true).map
      (fun r => (r.2.edgeLength 4 5, r.2.edgeLength 5 4)) = some (some 3, some 3) := by
  decide

theorem edgeLength_none_of_find (t : Tree) (u x : Nat)
    (h : findNeighborIt (t.neighbors u) x = none) : t.edgeLength u x = none := by
  unfold Tree.edgeLength
  unfold findNeighborIt at h
  rw [List.findIdx?_eq_none_iff] at h
  rw [List.find?_eq_none.2 (fun e he => by simpa using h e he)]
  rfl

theorem find_of_edgeLength (t : Tree) (u x : Nat) (l : ℚ) (h : t.edgeLength u x = some l) :
    ∃ k e, findNeighborIt (t.neighbors u) x = some k ∧ (t.neighbors u)[k]? = some e ∧
      e.node = x ∧ e.length = l := by
  cases hf : findNeighborIt (t.neighbors u) x with
  | none => rw [edgeLength_none_of_find t u x hf] at h; cases h
  | some k =>
      rw [edgeLength_of_find t u x k hf] at h
      obtain ⟨e, he, hx, _⟩ := (findNeighborIt_eq_some _ x k).1 hf
      rw [he] at h
      exact ⟨k, e, rfl, he, hx, by simpa using h⟩

theorem find_same_slot (ns : List Neighbor) (x y k : Nat) (hx : findNeighborIt ns x = some k) :
    findNeighborIt ns y = some k ↔ y = x := by
  constructor
  · intro hy
    obtain ⟨e, he, hex, _⟩ := (findNeighborIt_eq_some ns x k).1 hx
    obtain ⟨e1, he1, hey, _⟩ := (findNeighborIt_eq_some ns y k).1 hy
    rw [he] at he1
    cases he1
    rw [← hey, hex]
  · intro h
    rw [h]; exact hx

/-- The lengths after the two assignments that write `v` to both half-edges of the
branch between `n1` and `n2`. -/
theorem edgeLength_setPair (t : Tree) (n1 k1 n2 k2 : Nat) (v : ℚ)
    (h1 : findNeighborIt (t.neighbors n1) n2 = some k1)
    (h2 : findNeighborIt (t.neighbors n2) n1 = some k2) (u x : Nat) :
    ((t.setLengthAt n1 k1 v).setLengthAt n2 k2 v).edgeLength u x =
      if (u = n1 ∧ x = n2) ∨ (u = n2 ∧ x = n1) then some v else t.edgeLength u x := by
  have h2' : findNeighborIt ((t.setLengthAt n1 k1 v).neighbors n2) n1 = some k2 := by
    rw [find_setLengthAt]; exact h2
  rw [edgeLength_setLengthAt, edgeLength_setLengthAt, find_setLengthAt]
  by_cases c2 : u = n2 ∧ x = n1
  · obtain ⟨rfl, rfl⟩ := c2
    simp [h2]
  · have c2' : ¬ (u = n2 ∧ findNeighborIt (t.neighbors n2) x = some k2) := by
      rintro ⟨e, hx⟩
      exact c2 ⟨e, (find_same_slot _ n1 x k2 h2).1 hx⟩
    rw [if_neg c2']
    by_cases c1 : u = n1 ∧ x = n2
    · obtain ⟨rfl, rfl⟩ := c1
      simp [h1]
    · have c1' : ¬ (u = n1 ∧ findNeighborIt (t.neighbors n1) x = some k1) := by
        rintro ⟨e, hx⟩
        exact c1 ⟨e, (find_same_slot _ n2 x k1 h1).1 hx⟩
      rw [if_neg c1']
      have : ¬ ((u = n1 ∧ x = n2) ∨ (u = n2 ∧ x = n1)) := by
        rintro (h | h)
        · exact c1 h
        · exact c2 h
      rw [if_neg this]

theorem I1_setPair (t : Tree) (n1 k1 n2 k2 : Nat) (v : ℚ) (hI : t.I1)
    (h1 : findNeighborIt (t.neighbors n1) n2 = some k1)
    (h2 : findNeighborIt (t.neighbors n2) n1 = some k2) :
    ((t.setLengthAt n1 k1 v).setLengthAt n2 k2 v).I1 := by
  intro u x l l1 e1 e2
  rw [edgeLength_setPair t n1 k1 n2 k2 v h1 h2] at e1 e2
  by_cases c : (u = n1 ∧ x = n2) ∨ (u = n2 ∧ x = n1)
  · have c' : (x = n1 ∧ u = n2) ∨ (x = n2 ∧ u = n1) := by
      rcases c with ⟨a, b⟩ | ⟨a, b⟩
      · exact Or.inr ⟨b, a⟩
      · exact Or.inl ⟨b, a⟩
    rw [if_pos c] at e1
    rw [if_pos c'] at e2
    cases e1; cases e2; rfl
  · have c' : ¬ ((x = n1 ∧ u = n2) ∨ (x = n2 ∧ u = n1)) := by
      rintro (⟨a, b⟩ | ⟨a, b⟩)
      · exact c (Or.inr ⟨b, a⟩)
      · exact c (Or.inl ⟨b, a⟩)
    rw [if_neg c] at e1
    rw [if_neg c'] at e2
    exact hI u x l l1 e1 e2

theorem I1_sameShape (t t1 : Tree) (h : t.SameShape t1) (hI : t.I1) : t1.I1 := by
  intro u x l l1 e1 e2
  rw [sameShape_edgeLength t t1 h] at e1 e2
  exact hI u x l l1 e1 e2

theorem I1_of_check (t : Tree) (h : t.checkI1 = true) : t.I1 := by
  intro u v l l1 e1 e2
  obtain ⟨k, e, hk, he, hx, _⟩ := find_of_edgeLength t u v l e1
  have hu : u < t.nodes.length := lt_of_find_neighbors t u v k hk
  have hv : v ∈ t.links u := by
    unfold Tree.links
    rw [← hx]
    exact List.mem_map_of_mem _ (List.getElem?_mem he)
  unfold Tree.checkI1 at h
  rw [List.all_eq_true] at h
  have h1 := h u (List.mem_range.2 hu)
  rw [List.all_eq_true] at h1
  have h2 := h1 v hv
  rw [e1, e2] at h2
  simpa using h2

theorem applyBranchLengthChange_I1 (lamda : ℚ) (mapOptBranLens : Nat × Nat → ℚ) (t : Tree)
    (node1 node2 : Nat) (nonNNIBranch : Bool) (hI : t.I1)
    (h12 : node2 ∈ t.links node1) (h21 : node1 ∈ t.links node2) :
    ∃ new_len t1, IQPTree.applyBranchLengthChange lamda mapOptBranLens t node1 node2
        nonNNIBranch = some (new_len, t1) ∧ t1.I1 ∧
      t1.edgeLength node1 node2 = some new_len ∧ t1.edgeLength node2 node1 = some new_len ∧
      ∀ u, t1.links u = t.links u := by
  obtain ⟨k1, hk1⟩ := findNeighborIt_of_mem (t.neighbors node1) node2 h12
  obtain ⟨k2, hk2⟩ := findNeighborIt_of_mem (t.neighbors node2) node1 h21
  obtain ⟨e, he, _, _⟩ := (findNeighborIt_eq_some _ node2 k1).1 hk1
  have hget : (t.neighbors node1).get? k1 = some e := by
    rw [List.get?_eq_getElem?]; exact he
  obtain ⟨new_len, hn⟩ : ∃ new_len, new_len =
      (if nonNNIBranch then e.length + lamda * (mapOptBranLens
          (if t.nodeId node1 < t.nodeId node2 then (t.nodeId node1, t.nodeId node2)
           else (t.nodeId node2, t.nodeId node1)) - e.length)
       else mapOptBranLens
          (if t.nodeId node1 < t.nodeId node2 then (t.nodeId node1, t.nodeId node2)
           else (t.nodeId node2, t.nodeId node1))) := ⟨_, rfl⟩
  have hs := sameShape_trans _ _ _
    (sameShape_clearReverse ((t.setLengthAt node1 k1 new_len).setLengthAt node2 k2 new_len)
      node1 node2)
    (sameShape_clearReverse _ node2 node1)
  have hE := edgeAt_setLengths t t node1 k1 node2 k2 new_len (fun _ => rfl) hk1 hk2
  refine ⟨new_len, _, ?_, I1_sameShape _ _ hs (I1_setPair t node1 k1 node2 k2 new_len hI hk1 hk2),
    (edgeAt_sameShape _ _ hs _ _ _ hE.1).1, (edgeAt_sameShape _ _ hs _ _ _ hE.1).2,
    fun u => (links_sameShape _ _ hs u).trans (hE.2 u)⟩
  unfold IQPTree.applyBranchLengthChange
  simp only [hk1, hk2, hget]
  rw [← hn]

theorem computeLikelihoodZeroBranch_I1 (computeLikelihoodBranch : Tree → ℚ × Tree) (t : Tree)
    (dad dad_branch node : Nat) (hI : t.I1)
    (hB : ∀ s : Tree, s.SameShape (computeLikelihoodBranch s).2)
    (hk : findNeighborIt (t.neighbors dad) node = some dad_branch)
    (hback : dad ∈ t.links node) :
    ∃ lh t1, computeLikelihoodZeroBranch computeLikelihoodBranch t dad dad_branch =
        some (lh, t1) ∧ t1.I1 ∧ (∀ u, t1.links u = t.links u) ∧
      ∀ u x, t1.edgeLength u x = t.edgeLength u x := by
  obtain ⟨e, he, hex, _⟩ := (findNeighborIt_eq_some _ node dad_branch).1 hk
  obtain ⟨k2, hk2⟩ := findNeighborIt_of_mem (t.neighbors node) dad hback
  have hget : (t.neighbors dad).get? dad_branch = some e := by
    rw [List.get?_eq_getElem?]; exact he
  have hE0 := edgeAt_setLengths t t dad dad_branch node k2 0 (fun _ => rfl) hk hk2
  have hs := hB ((t.setLengthAt dad dad_branch 0).setLengthAt node k2 0)
  have hl : ∀ u, (computeLikelihoodBranch
      ((t.setLengthAt dad dad_branch 0).setLengthAt node k2 0)).2.links u = t.links u :=
    fun u => (links_sameShape _ _ hs u).trans (hE0.2 u)
  have hk' := (find_of_links _ t hl dad node).trans hk
  have hk2' := (find_of_links _ t hl node dad).trans hk2
  have hlen : t.edgeLength dad node = some e.length := by
    rw [edgeLength_of_find t dad node dad_branch hk, he]; rfl
  have hlen2 : t.edgeLength node dad = some e.length := by
    obtain ⟨l1, h1⟩ := edgeLength_isSome_of_mem t node dad hback
    rw [h1, hI dad node e.length l1 hlen h1]
  -- the lengths after the restore
  have hE : ∀ u x, (((computeLikelihoodBranch
      ((t.setLengthAt dad dad_branch 0).setLengthAt node k2 0)).2.setLengthAt dad dad_branch
        e.length).setLengthAt node k2 e.length).edgeLength u x = t.edgeLength u x := by
    intro u x
    rw [edgeLength_setPair _ dad dad_branch node k2 e.length hk' hk2',
      sameShape_edgeLength _ _ hs, edgeLength_setPair t dad dad_branch node k2 0 hk hk2]
    by_cases c : (u = dad ∧ x = node) ∨ (u = node ∧ x = dad)
    · rw [if_pos c]
      rcases c with ⟨rfl, rfl⟩ | ⟨rfl, rfl⟩
      · exact hlen.symm
      · exact hlen2.symm
    · rw [if_neg c, if_neg c]
  have hrun : computeLikelihoodZeroBranch computeLikelihoodBranch t dad dad_branch =
      some ((computeLikelihoodBranch
        ((t.setLengthAt dad dad_branch 0).setLengthAt node k2 0)).1,
        ((computeLikelihoodBranch
          ((t.setLengthAt dad dad_branch 0).setLengthAt node k2 0)).2.setLengthAt dad dad_branch
            e.length).setLengthAt node k2 e.length) := by
    unfold computeLikelihoodZeroBranch
    simp only [hget, hex, hk2]
  refine ⟨_, _, hrun, ?_, ?_, hE⟩
  · intro u x l l1 e1 e2
    rw [hE] at e1 e2
    exact hI u x l l1 e1 e2
  · exact (edgeAt_setLengths _ t dad dad_branch node k2 e.length hl hk hk2).2

theorem edgeLength_lengthIn (t : Tree) (u v : Nat) :
    t.edgeLength u v = lengthIn (shape (t.neighbors u)) v := edgeLength_shape t u v

theorem lengthIn_modify_other (L : List (Nat × ℚ)) (g : Nat × ℚ → Nat × ℚ) (v : Nat) :
    ∀ (k : Nat) (e : Nat × ℚ), L[k]? = some e → e.1 ≠ v → (g e).1 ≠ v →
      lengthIn (L.modify g k) v = lengthIn L v := by
  induction L with
  | nil => intro k e h; simp at h
  | cons a as ih =>
      intro k e h h1 h2
      cases k with
      | zero =>
          simp only [List.getElem?_cons_zero, Option.some.injEq] at h
          subst h
          have c1 : (a.1 == v) = false := by simpa using h1
          have c2 : ((g a).1 == v) = false := by simpa using h2
          simp only [lengthIn, List.modify_zero_cons, List.find?_cons, c1, c2]
      | succ k =>
          simp only [List.getElem?_cons_succ] at h
          have := ih k e h h1 h2
          simp only [lengthIn, List.modify_succ_cons, List.find?_cons] at this ⊢
          cases hc : (a.1 == v) with
          | true => rfl
          | false => exact this

theorem lengthIn_modify_new (L : List (Nat × ℚ)) (g : Nat × ℚ → Nat × ℚ) (y : Nat) :
    ∀ (k : Nat) (e : Nat × ℚ), L[k]? = some e → (∀ p ∈ L, p.1 ≠ y) → (g e).1 = y →
      lengthIn (L.modify g k) y = some (g e).2 := by
  induction L with
  | nil => intro k e h; simp at h
  | cons a as ih =>
      intro k e h hno hg
      cases k with
      | zero =>
          simp only [List.getElem?_cons_zero, Option.some.injEq] at h
          subst h
          have c2 : ((g a).1 == y) = true := by simpa using hg
          simp only [lengthIn, List.modify_zero_cons, List.find?_cons, c2, Option.map_some']
      | succ k =>
          simp only [List.getElem?_cons_succ] at h
          have := ih k e h (fun p hp => hno p (List.mem_cons_of_mem _ hp)) hg
          have c1 : (a.1 == y) = false := by simpa using hno a (List.mem_cons_self _ _)
          simp only [lengthIn, List.modify_succ_cons, List.find?_cons, c1] at this ⊢
          exact this

theorem lengthIn_none (L : List (Nat × ℚ)) (x : Nat) (h : ∀ p ∈ L, p.1 ≠ x) :
    lengthIn L x = none := by
  unfold lengthIn
  rw [List.find?_eq_none.2 (fun p hp => by simpa using h p hp)]
  rfl

theorem lengthIn_modify_old (L : List (Nat × ℚ)) (g : Nat × ℚ → Nat × ℚ) (x : Nat) :
    ∀ (k : Nat) (e : Nat × ℚ), (L.map (fun p => p.1)).Nodup → L[k]? = some e → e.1 = x →
      (g e).1 ≠ x → lengthIn (L.modify g k) x = none := by
  induction L with
  | nil => intro k e _ h; simp at h
  | cons a as ih =>
      intro k e hnd h hx hg
      rw [List.map_cons, List.nodup_cons] at hnd
      cases k with
      | zero =>
          simp only [List.getElem?_cons_zero, Option.some.injEq] at h
          subst h
          have c2 : ((g a).1 == x) = false := by simpa using hg
          have hno : ∀ p ∈ as, p.1 ≠ x := by
            intro p hp hpx
            apply hnd.1
            rw [hx, ← hpx]
            exact List.mem_map_of_mem _ hp
          have := lengthIn_none as x hno
          simp only [lengthIn, List.modify_zero_cons, List.find?_cons, c2] at this ⊢
          exact this
      | succ k =>
          simp only [List.getElem?_cons_succ] at h
          have hax : a.1 ≠ x := by
            intro hh
            apply hnd.1
            rw [hh, ← hx]
            exact List.mem_map_of_mem _ (List.getElem?_mem h)
          have c1 : (a.1 == x) = false := by simpa using hax
          have := ih k e hnd.2 h hx hg
          simp only [lengthIn, List.modify_succ_cons, List.find?_cons, c1] at this ⊢
          exact this

theorem shape_modify_to (ns : List Neighbor) (y k : Nat) (l : ℚ) :
    shape (ns.modify (fun nei => { nei with node := y, length := l }) k) =
      (shape ns).modify (fun _ => (y, l)) k := by
  unfold shape
  apply List.ext_getElem?
  intro j
  simp only [List.getElem?_map, List.getElem?_modify]
  cases ns[j]? with
  | none => rfl
  | some e => by_cases h : k = j <;> simp [h]

theorem shape_nodup (t : Tree) (u : Nat) (h : (t.links u).Nodup) :
    ((shape (t.neighbors u)).map (fun p => p.1)).Nodup := by
  have : (shape (t.neighbors u)).map (fun p => p.1) = t.links u := by
    unfold shape Tree.links
    rw [List.map_map]
    rfl
  rw [this]
  exact h

theorem shape_find_none (ns : List Neighbor) (y : Nat) (h : findNeighborIt ns y = none) :
    ∀ p ∈ shape ns, p.1 ≠ y := by
  intro p hp
  unfold shape at hp
  obtain ⟨e, he, rfl⟩ := List.mem_map.1 hp
  unfold findNeighborIt at h
  rw [List.findIdx?_eq_none_iff] at h
  simpa using h e he

theorem shape_slot (ns : List Neighbor) (x k : Nat) (h : findNeighborIt ns x = some k) :
    ∃ e, (shape ns)[k]? = some e ∧ e.1 = x := by
  obtain ⟨e, he, hx, _⟩ := (findNeighborIt_eq_some ns x k).1 h
  refine ⟨(e.node, e.length), ?_, hx⟩
  rw [shape_getElem?, he]
  rfl

/-- The lengths after a slot of `u` that pointed to `x` is made to point to `y`, a node
that `u` had no half-edge to, with the length `l`. -/
theorem edgeLength_retarget (t t1 : Tree) (u x y k : Nat) (l : ℚ)
    (hv : t1.neighbors u =
      (t.neighbors u).modify (fun nei => { nei with node := y, length := l }) k)
    (hk : findNeighborIt (t.neighbors u) x = some k)
    (hy : findNeighborIt (t.neighbors u) y = none)
    (hnd : (t.links u).Nodup) (hxy : x ≠ y) (v : Nat) :
    t1.edgeLength u v =
      if v = y then some l else if v = x then none else t.edgeLength u v := by
  obtain ⟨e, he, hex⟩ := shape_slot _ x k hk
  rw [edgeLength_lengthIn, edgeLength_lengthIn, hv, shape_modify_to]
  by_cases h1 : v = y
  · rw [if_pos h1, h1]
    exact lengthIn_modify_new _ _ y k e he (shape_find_none _ y hy) rfl
  · rw [if_neg h1]
    by_cases h2 : v = x
    · rw [if_pos h2, h2]
      exact lengthIn_modify_old _ _ x k e (shape_nodup t u hnd) he hex (fun h => hxy h.symm)
    · rw [if_neg h2]
      exact lengthIn_modify_other _ _ v k e he (by rw [hex]; exact fun h => h2 h.symm)
        (fun h => h1 h.symm)

theorem deleteLeaf_I1 (t : Tree) (x near a b : Nat) (hI : t.I1)
    (h : t.leafAt x near a b = true)
    (hna : (t.links a).Nodup) (hnb : (t.links b).Nodup) :
    ∃ t1, deleteLeaf t x = some t1 ∧ IQPTree.deleteLeaf t x = some t1 ∧ t1.I1 := by
  obtain ⟨_, _, ⟨f1, f2, hf, _, _⟩, hab, han, hbn, _, ⟨i, hi⟩, hanb, ⟨j, hj⟩, hbna⟩ :=
    leafAt_facts t x near a b h
  obtain ⟨t1, hdel, _, hv⟩ := deleteLeaf_view t x near a b i j f1 f2 h hf hi hj
  have hva : t1.neighbors a = (t.neighbors a).modify
      (fun nei => { nei with node := b, length := 0 + f1.length + f2.length }) i := by
    rw [hv, Function.update_noteq hab, Function.update_same]
  have hvb : t1.neighbors b = (t.neighbors b).modify
      (fun nei => { nei with node := a, length := 0 + f1.length + f2.length }) j := by
    rw [hv, Function.update_same]
  have hvo : ∀ u, u ≠ a → u ≠ b → t1.neighbors u = t.neighbors u := by
    intro u ha hb
    rw [hv, Function.update_noteq hb, Function.update_noteq ha]
  have Ea := edgeLength_retarget t t1 a near b i _ hva hi hanb hna (fun e => hbn e.symm)
  have Eb := edgeLength_retarget t t1 b near a j _ hvb hj hbna hnb (fun e => han e.symm)
  have Eo : ∀ u v, u ≠ a → u ≠ b → t1.edgeLength u v = t.edgeLength u v :=
    fun u v ha hb => edgeLength_congr t t1 u v (hvo u ha hb)
  refine ⟨t1, hdel, by rw [IQPTree_deleteLeaf_eq]; exact hdel, ?_⟩
  -- every length after the deletion, as a function of the lengths before
  have E : ∀ u v, t1.edgeLength u v =
      if (u = a ∧ v = b) ∨ (u = b ∧ v = a) then some (0 + f1.length + f2.length)
      else if (u = a ∨ u = b) ∧ v = near then none else t.edgeLength u v := by
    intro u v
    have hba : b ≠ a := fun e => hab e.symm
    have hnb' : near ≠ b := fun e => hbn e.symm
    have hna' : near ≠ a := fun e => han e.symm
    by_cases ua : u = a
    · subst ua
      rw [Ea]
      by_cases vb : v = b
      · subst vb
        simp
      · by_cases vn : v = near
        · subst vn
          simp [hnb', hab, han]
        · simp [vb, vn, hab]
    · by_cases ub : u = b
      · subst ub
        rw [Eb]
        by_cases va : v = a
        · subst va
          simp
        · by_cases vn : v = near
          · subst vn
            simp [hna', hba, hbn]
          · simp [va, vn, hba]
      · rw [Eo u v ua ub]
        simp [ua, ub]
  intro u v l l1 e1 e2
  rw [E] at e1 e2
  by_cases c : (u = a ∧ v = b) ∨ (u = b ∧ v = a)
  · have c' : (v = a ∧ u = b) ∨ (v = b ∧ u = a) := by
      rcases c with ⟨p, q⟩ | ⟨p, q⟩
      · exact Or.inr ⟨q, p⟩
      · exact Or.inl ⟨q, p⟩
    rw [if_pos c] at e1
    rw [if_pos c'] at e2
    cases e1; cases e2; rfl
  · have c' : ¬ ((v = a ∧ u = b) ∨ (v = b ∧ u = a)) := by
      rintro (⟨p, q⟩ | ⟨p, q⟩)
      · exact c (Or.inr ⟨q, p⟩)
      · exact c (Or.inl ⟨q, p⟩)
    rw [if_neg c] at e1
    rw [if_neg c'] at e2
    by_cases d : (u = a ∨ u = b) ∧ v = near
    · rw [if_pos d] at e1; cases e1
    · rw [if_neg d] at e1
      by_cases d' : (v = a ∨ v = b) ∧ u = near
      · rw [if_pos d'] at e2; cases e2
      · rw [if_neg d'] at e2
        exact hI u v l l1 e1 e2

theorem edgeLength_adjacent_after (L : List Neighbor) (x a b node dad v : Nat) (l : ℚ)
    (f1 f2 : Neighbor) (hlen : L.length = 3)
    (hf : L.filter (fun nei => nei.node != x) = [f1, f2])
    (hfa : f1.node = a) (hfb : f2.node = b) (hab : a ≠ b)
    (hnd : node ≠ dad) (hnx : node ≠ x) (hdx : dad ≠ x) :
    ((L.map fun e => if e.node = x then e
        else { e with node := if e.node = a then node else dad, length := l }).find?
      (fun nei => nei.node == v)).map (·.length) =
      if v = node ∨ v = dad then some l
      else if v = x then (L.find? (fun nei => nei.node == x)).map (·.length)
      else none := by
  obtain ⟨ex, hex, hL, hf1, hf2⟩ := three_slots _ x f1 f2 hlen hf
  have hax : ¬ (a = x) := by rw [← hfa]; exact hf1
  have hbx : ¬ (b = x) := by rw [← hfb]; exact hf2
  have hba : ¬ (b = a) := fun h => hab h.symm
  have hxn : ¬ (x = node) := fun h => hnx h.symm
  have hxd : ¬ (x = dad) := fun h => hdx h.symm
  have hdn : ¬ (dad = node) := fun h => hnd h.symm
  by_cases hvn : v = node
  · subst hvn
    rcases hL with hL | hL | hL <;> rw [hL] <;>
      simp [List.find?_cons, hex, hfa, hfb, hax, hbx, hab, hba, hxn, hxd, hnd, hdn]
  · by_cases hvd : v = dad
    · subst hvd
      rcases hL with hL | hL | hL <;> rw [hL] <;>
        simp [List.find?_cons, hex, hfa, hfb, hax, hbx, hab, hba, hxn, hxd, hnd, hdn]
    · have hnv : ¬ (node = v) := fun h => hvn h.symm
      have hdv : ¬ (dad = v) := fun h => hvd h.symm
      by_cases hvx : v = x
      · subst hvx
        rcases hL with hL | hL | hL <;> rw [hL] <;>
          simp [List.find?_cons, hex, hfa, hfb, hax, hbx, hab, hba, hnv, hdv, hvn, hvd]
      · have hxv : ¬ (x = v) := fun h => hvx h.symm
        rcases hL with hL | hL | hL <;> rw [hL] <;>
          simp [List.find?_cons, hex, hfa, hfb, hax, hbx, hab, hba, hnv, hdv, hvn, hvd, hvx,
            hxv]

/-- The body of `reinsertLeaf` keeps invariant I1: `near` is the node of the deleted
leaf `x`, with its two other half-edges left over from the deletion (they point to `a`
and `b`), and `(node, dad)` is a branch of the tree that no half-edge joins to
`near`. -/
theorem reinsertLeafAt_I1 (t1 : Tree) (x near a b node dad : Nat) (f1 f2 : Neighbor)
    (hI : t1.I1) (hlen : (t1.neighbors near).length = 3)
    (hf : (t1.neighbors near).filter (fun nei => nei.node != x) = [f1, f2])
    (hfa : f1.node = a) (hfb : f2.node = b) (hab : a ≠ b)
    (hnd : node ≠ dad) (hnn : node ≠ near) (hdn : dad ≠ near)
    (hnx : node ≠ x) (hdx : dad ≠ x) (hxn : x ≠ near)
    (h12 : dad ∈ t1.links node) (h21 : node ∈ t1.links dad)
    (hn0 : near ∉ t1.links node) (hd0 : near ∉ t1.links dad)
    (hndn : (t1.links node).Nodup) (hndd : (t1.links dad).Nodup) :
    ∃ t2, reinsertLeafAt t1 x near node dad = some t2 ∧ t2.I1 := by
  obtain ⟨p, hp⟩ := findNeighborIt_of_mem (t1.neighbors node) dad h12
  obtain ⟨q, hq⟩ := findNeighborIt_of_mem (t1.neighbors dad) node h21
  obtain ⟨e, he, _, _⟩ := (findNeighborIt_eq_some _ dad p).1 hp
  obtain ⟨t2, h2, hv⟩ := reinsertLeafAt_view t1 x near a b node dad e.length p q f1 f2 hlen hf
    hfa hfb hab hnd hnn hdn hp ⟨e, he, rfl⟩ hq
  have hfn : ∀ u w, w ∉ t1.links u → findNeighborIt (t1.neighbors u) w = none := by
    intro u w hw
    cases hc : findNeighborIt (t1.neighbors u) w with
    | none => rfl
    | some k =>
        exfalso
        apply hw
        have := findNeighborIt_getElem? t1 u w k hc
        exact List.getElem?_mem this
  have En : ∀ v, t2.edgeLength node v =
      if v = near then some (e.length / 2) else if v = dad then none
      else t1.edgeLength node v :=
    edgeLength_retarget t1 t2 node dad near p _
      (by rw [hv, if_neg hnn, if_pos rfl]) hp (hfn _ _ hn0) hndn hdn
  have Ed : ∀ v, t2.edgeLength dad v =
      if v = near then some (e.length / 2) else if v = node then none
      else t1.edgeLength dad v :=
    edgeLength_retarget t1 t2 dad node near q _
      (by rw [hv, if_neg hdn, if_neg (fun h => hnd h.symm), if_pos rfl]) hq (hfn _ _ hd0) hndd hnn
  have Ea : ∀ v, t2.edgeLength near v =
      if v = node ∨ v = dad then some (e.length / 2)
      else if v = x then t1.edgeLength near x else none := by
    intro v
    unfold Tree.edgeLength
    rw [hv, if_pos rfl]
    exact edgeLength_adjacent_after _ x a b node dad v _ f1 f2 hlen hf hfa hfb hab hnd hnx hdx
  have Eo : ∀ u v, u ≠ near → u ≠ node → u ≠ dad → t2.edgeLength u v = t1.edgeLength u v := by
    intro u v h1 h2 h3
    apply edgeLength_congr
    rw [hv, if_neg h1, if_neg h2, if_neg h3]
  refine ⟨t2, h2, ?_⟩
  intro u v l l1 e1 e2
  by_cases huv : u = v
  · subst huv
    rw [e1] at e2
    exact Option.some.inj e2
  have E : ∀ u v, t2.edgeLength u v =
      if u = near then
        (if v = node ∨ v = dad then some (e.length / 2)
         else if v = x then t1.edgeLength near x else none)
      else if u = node then
        (if v = near then some (e.length / 2) else if v = dad then none
         else t1.edgeLength node v)
      else if u = dad then
        (if v = near then some (e.length / 2) else if v = node then none
         else t1.edgeLength dad v)
      else t1.edgeLength u v := by
    intro u v
    by_cases c1 : u = near
    · rw [if_pos c1, c1]; exact Ea v
    · rw [if_neg c1]
      by_cases c2 : u = node
      · rw [if_pos c2, c2]; exact En v
      · rw [if_neg c2]
        by_cases c3 : u = dad
        · rw [if_pos c3, c3]; exact Ed v
        · rw [if_neg c3]; exact Eo u v c1 c2 c3
  rw [E] at e1 e2
  split_ifs at e1 e2 <;>
    first
      | omega
      | (cases e1; done)
      | (cases e2; done)
      | (cases e1; cases e2; rfl)
      | (subst_vars; exact hI _ _ _ _ e1 e2)

/-- `PhyloTree::reinsertLeaf` and `IQPTree::reinsertLeaf` keep invariant I1. -/
theorem reinsertLeaf_I1 (t1 : Tree) (x near a b node dad : Nat) (f1 f2 : Neighbor)
    (hI : t1.I1) (hx : (t1.links x)[0]? = some near)
    (hlen : (t1.neighbors near).length = 3)
    (hf : (t1.neighbors near).filter (fun nei => nei.node != x) = [f1, f2])
    (hfa : f1.node = a) (hfb : f2.node = b) (hab : a ≠ b)
    (hnd : node ≠ dad) (hnn : node ≠ near) (hdn : dad ≠ near)
    (hnx : node ≠ x) (hdx : dad ≠ x) (hxn : x ≠ near)
    (h12 : dad ∈ t1.links node) (h21 : node ∈ t1.links dad)
    (hn0 : near ∉ t1.links node) (hd0 : near ∉ t1.links dad)
    (hndn : (t1.links node).Nodup) (hndd : (t1.links dad).Nodup) :
    ∃ t2, reinsertLeaf t1 x node dad = some t2 ∧
      IQPTree.reinsertLeaf t1 x near node dad = some t2 ∧ t2.I1 := by
  obtain ⟨t2, h2, hI2⟩ := reinsertLeafAt_I1 t1 x near a b node dad f1 f2 hI hlen hf hfa hfb hab
    hnd hnn hdn hnx hdx hxn h12 h21 hn0 hd0 hndn hndd
  refine ⟨t2, ?_, h2, hI2⟩
  unfold reinsertLeaf
  unfold Tree.links at hx
  rw [List.getElem?_map] at hx
  cases h0 : (t1.neighbors x)[0]? with
  | none => rw [h0] at hx; cases hx
  | some nei0 =>
      rw [h0] at hx
      simp only [Option.map_some', Option.some.injEq] at hx
      rw [List.get?_eq_getElem?, h0]
      simp only [hx]
      exact h2

theorem lengthIn_slot (L : List (Nat × ℚ)) :
    ∀ (k : Nat) (e : Nat × ℚ), (L.map (fun p => p.1)).Nodup → L[k]? = some e →
      lengthIn L e.1 = some e.2 := by
  induction L with
  | nil => intro k e _ h; simp at h
  | cons a as ih =>
      intro k e hnd h
      rw [List.map_cons, List.nodup_cons] at hnd
      cases k with
      | zero =>
          simp only [List.getElem?_cons_zero, Option.some.injEq] at h
          subst h
          simp [lengthIn, List.find?_cons]
      | succ k =>
          simp only [List.getElem?_cons_succ] at h
          have hax : a.1 ≠ e.1 := by
            intro hh
            apply hnd.1
            rw [hh]
            exact List.mem_map_of_mem _ (List.getElem?_mem h)
          have c1 : (a.1 == e.1) = false := by simpa using hax
          have := ih k e hnd.2 h
          simp only [lengthIn, List.find?_cons, c1] at this ⊢
          exact this

/-- The lengths that `u` keeps after its slot `k`, which pointed to `x`, holds a
half-edge to `y` of length `l`, `u` having had no half-edge to `y`. -/
theorem edgeLength_slot_replaced (t t1 : Tree) (u k x y : Nat) (l : ℚ)
    (g : Nat × ℚ → Nat × ℚ) (e : Nat × ℚ)
    (hv : shape (t1.neighbors u) = (shape (t.neighbors u)).modify g k)
    (he : (shape (t.neighbors u))[k]? = some e) (hex : e.1 = x) (hg : g e = (y, l))
    (hy : y ∉ t.links u) (hnd : (t.links u).Nodup) (hxy : x ≠ y) (v : Nat) :
    t1.edgeLength u v =
      if v = y then some l else if v = x then none else t.edgeLength u v := by
  have hno : ∀ p ∈ shape (t.neighbors u), p.1 ≠ y := by
    intro p hp hpy
    apply hy
    unfold shape at hp
    obtain ⟨e0, he0, rfl⟩ := List.mem_map.1 hp
    unfold Tree.links
    rw [← hpy]
    exact List.mem_map_of_mem _ he0
  rw [edgeLength_lengthIn, edgeLength_lengthIn, hv]
  by_cases h1 : v = y
  · rw [if_pos h1, h1]
    have := lengthIn_modify_new _ g y k e he hno (by rw [hg])
    rw [this, hg]
  · rw [if_neg h1]
    by_cases h2 : v = x
    · rw [if_pos h2, h2]
      exact lengthIn_modify_old _ g x k e (shape_nodup t u hnd) he hex
        (by rw [hg]; exact fun h => hxy h.symm)
    · rw [if_neg h2]
      exact lengthIn_modify_other _ g v k e he (by rw [hex]; exact fun h => h2 h.symm)
        (by rw [hg]; exact fun h => h1 h.symm)

theorem I1_exchange (E E1 : Nat → Nat → Option ℚ) (A B n1 n2 : Nat)
    (h12 : n1 ≠ n2) (ha1 : A ≠ n1) (ha2 : A ≠ n2) (hb1 : B ≠ n1) (hb2 : B ≠ n2) (hab : A ≠ B)
    (hE : ∀ u v, E1 u v =
      if u = A then
        (if v = n2 then E A n1 else if v = n1 then none else E A v)
      else if u = n2 then
        (if v = A then E n1 A else if v = B then none else E n2 v)
      else if u = B then
        (if v = n1 then E B n2 else if v = n2 then none else E B v)
      else if u = n1 then
        (if v = B then E n2 B else if v = A then none else E n1 v)
      else E u v)
    (hI : ∀ u v l l1, E u v = some l → E v u = some l1 → l = l1) :
    ∀ u v l l1, E1 u v = some l → E1 v u = some l1 → l = l1 := by
  intro u v l l1 e1 e2
  by_cases huv : u = v
  · subst huv
    rw [e1] at e2
    exact Option.some.inj e2
  rw [hE] at e1 e2
  split_ifs at e1 e2 <;>
    first
      | omega
      | cases e1
      | cases e2
      | exact hI _ _ _ _ e1 e2
      | (subst_vars; exact hI _ _ _ _ e1 e2)

theorem doNNI_I1 (t : Tree) (m : NNIMove) (hI : t.I1) (h : m.valid t = true)
    (hsym : ∀ u v, v ∈ t.links u → u ∈ t.links v) (hnd : ∀ u, (t.links u).Nodup) :
    ∃ t1, doNNI t m = some t1 ∧ t1.I1 := by
  obtain ⟨a, b, ka, kb, ha, hb, h1, h2, h12, ha1, ha2, hb1, hb2, hab, hka, hkb, hna, hnb⟩ :=
    valid_shape t m h
  obtain ⟨t1, e1, _, s1⟩ := doNNI_shape' t m a b ka kb ha hb h1 h2 h12 ha1 ha2 hb1 hb2 hab
    hka hkb
  refine ⟨t1, e1, ?_⟩
  obtain ⟨A, la⟩ := a
  obtain ⟨B, lb⟩ := b
  simp only at ha1 ha2 hb1 hb2 hab hka hkb hna hnb
  rw [← findNeighborIt_shape] at hka hkb hna hnb
  -- membership facts
  have mem_of_slot : ∀ (u k : Nat) (p : Nat × ℚ), (shape (t.neighbors u))[k]? = some p →
      p.1 ∈ t.links u := by
    intro u k p hp
    have := List.getElem?_mem hp
    unfold shape at this
    obtain ⟨e0, he0, rfl⟩ := List.mem_map.1 this
    exact List.mem_map_of_mem _ he0
  have notmem_of_find : ∀ (u w : Nat), findNeighborIt (t.neighbors u) w = none → w ∉ t.links u := by
    intro u w hw hmem
    obtain ⟨k, hk⟩ := findNeighborIt_of_mem (t.neighbors u) w hmem
    rw [hk] at hw
    cases hw
  have hA1 : A ∈ t.links m.node1 := mem_of_slot _ _ _ ha
  have hB2 : B ∈ t.links m.node2 := mem_of_slot _ _ _ hb
  have hAn2 : m.node2 ∉ t.links A := notmem_of_find _ _ hna
  have hBn1 : m.node1 ∉ t.links B := notmem_of_find _ _ hnb
  have h2A : A ∉ t.links m.node2 := fun hh => hAn2 (hsym _ _ hh)
  have h1B : B ∉ t.links m.node1 := fun hh => hBn1 (hsym _ _ hh)
  obtain ⟨eA, heA, heA1⟩ := shape_slot _ m.node1 ka hka
  obtain ⟨eB, heB, heB2⟩ := shape_slot _ m.node2 kb hkb
  -- the lengths before, in the four slots
  have LA : t.edgeLength A m.node1 = some eA.2 := by
    rw [edgeLength_lengthIn, ← heA1]
    exact lengthIn_slot _ ka eA (shape_nodup t A (hnd A)) heA
  have LB : t.edgeLength B m.node2 = some eB.2 := by
    rw [edgeLength_lengthIn, ← heB2]
    exact lengthIn_slot _ kb eB (shape_nodup t B (hnd B)) heB
  have L1 : t.edgeLength m.node1 A = some la := by
    rw [edgeLength_lengthIn]
    exact lengthIn_slot _ m.node1Nei_it (A, la) (shape_nodup t _ (hnd _)) ha
  have L2 : t.edgeLength m.node2 B = some lb := by
    rw [edgeLength_lengthIn]
    exact lengthIn_slot _ m.node2Nei_it (B, lb) (shape_nodup t _ (hnd _)) hb
  -- the lengths after
  have EA : ∀ v, t1.edgeLength A v =
      if v = m.node2 then t.edgeLength A m.node1 else if v = m.node1 then none
      else t.edgeLength A v := by
    intro v
    rw [LA]
    exact edgeLength_slot_replaced t t1 A ka m.node1 m.node2 eA.2 (fun p => (m.node2, p.2)) eA
      (by rw [s1]; simp [nniS, retarget]) heA heA1 rfl hAn2 (hnd A) h12 v
  have E2 : ∀ v, t1.edgeLength m.node2 v =
      if v = A then t.edgeLength m.node1 A else if v = B then none
      else t.edgeLength m.node2 v := by
    intro v
    rw [L1]
    exact edgeLength_slot_replaced t t1 m.node2 m.node2Nei_it B A la (fun _ => (A, la)) (B, lb)
      (by rw [s1]; simp [nniS, Ne.symm ha2, List.set_eq_modify]) hb rfl rfl h2A (hnd _)
      (Ne.symm hab) v
  have EB : ∀ v, t1.edgeLength B v =
      if v = m.node1 then t.edgeLength B m.node2 else if v = m.node2 then none
      else t.edgeLength B v := by
    intro v
    rw [LB]
    exact edgeLength_slot_replaced t t1 B kb m.node2 m.node1 eB.2 (fun p => (m.node1, p.2)) eB
      (by rw [s1]; simp [nniS, retarget, Ne.symm hab, hb2]) heB heB2 rfl hBn1 (hnd B)
      (Ne.symm h12) v
  have E1 : ∀ v, t1.edgeLength m.node1 v =
      if v = B then t.edgeLength m.node2 B else if v = A then none
      else t.edgeLength m.node1 v := by
    intro v
    rw [L2]
    exact edgeLength_slot_replaced t t1 m.node1 m.node1Nei_it A B lb (fun _ => (B, lb)) (A, la)
      (by rw [s1]; simp [nniS, Ne.symm ha1, Ne.symm hb1, h12, List.set_eq_modify]) ha rfl rfl
      h1B (hnd _) hab v
  have EO : ∀ u v, u ≠ A → u ≠ m.node2 → u ≠ B → u ≠ m.node1 →
      t1.edgeLength u v = t.edgeLength u v := by
    intro u v c1 c2 c3 c4
    rw [edgeLength_lengthIn, edgeLength_lengthIn, s1]
    simp [nniS, c1, c2, c3, c4]
  have E : ∀ u v, t1.edgeLength u v =
      if u = A then
        (if v = m.node2 then t.edgeLength A m.node1 else if v = m.node1 then none
         else t.edgeLength A v)
      else if u = m.node2 then
        (if v = A then t.edgeLength m.node1 A else if v = B then none
         else t.edgeLength m.node2 v)
      else if u = B then
        (if v = m.node1 then t.edgeLength B m.node2 else if v = m.node2 then none
         else t.edgeLength B v)
      else if u = m.node1 then
        (if v = B then t.edgeLength m.node2 B else if v = A then none
         else t.edgeLength m.node1 v)
      else t.edgeLength u v := by
    intro u v
    by_cases c1 : u = A
    · rw [if_pos c1, c1]; exact EA v
    · rw [if_neg c1]
      by_cases c2 : u = m.node2
      · rw [if_pos c2, c2]; exact E2 v
      · rw [if_neg c2]
        by_cases c3 : u = B
        · rw [if_pos c3, c3]; exact EB v
        · rw [if_neg c3]
          by_cases c4 : u = m.node1
          · rw [if_pos c4, c4]; exact E1 v
          · rw [if_neg c4]; exact EO u v c1 c2 c3 c4
  exact I1_exchange (fun u v => t.edgeLength u v) (fun u v => t1.edgeLength u v) A B m.node1
    m.node2 h12 ha1 ha2 hb1 hb2 hab E hI

theorem links_setLengthAt' (t : Tree) (n k : Nat) (v : ℚ) (m : Nat) :
    (t.setLengthAt n k v).links m = t.links m := links_setLengthAt t n k v m

theorem find_of_nodup_slot (t : Tree) (u k : Nat) (nei : Neighbor)
    (hnd : (t.links u).Nodup) (hk : (t.neighbors u)[k]? = some nei) :
    findNeighborIt (t.neighbors u) nei.node = some k := by
  rw [findNeighborIt_eq_some]
  refine ⟨nei, hk, rfl, ?_⟩
  intro j e1 hj he1 heq
  have hkl : k < (t.links u).length := by
    unfold Tree.links
    rw [List.length_map]
    exact (List.getElem?_eq_some_iff.1 hk).1
  have hjl : j < (t.links u).length := by omega
  have e1' : (t.links u)[j] = e1.node := by
    have : (t.links u)[j]? = some e1.node := by
      unfold Tree.links
      rw [List.getElem?_map, he1]; rfl
    rw [List.getElem?_eq_getElem hjl] at this
    exact Option.some.inj this
  have e2' : (t.links u)[k] = nei.node := by
    have : (t.links u)[k]? = some nei.node := by
      unfold Tree.links
      rw [List.getElem?_map, hk]; rfl
    rw [List.getElem?_eq_getElem hkl] at this
    exact Option.some.inj this
  have := (List.Nodup.getElem_inj_iff hnd).1 (e1'.trans (heq.trans e2'.symm))
  omega

/-- Where the store behind `(node, dad)` is a tree within the depth `fuel`, with no node
holding two half-edges to the same node and every half-edge kept at both ends,
`fixNegativeBranch` returns, changes no link, and keeps the two half-edges of every
branch at one length if they were. -/
theorem fixNegativeBranchAux_I1 (fixed_length : ℚ) (fuel : Nat) (t0 : Tree)
    (hsym : ∀ u v, v ∈ t0.links u → u ∈ t0.links v) (hnd : ∀ u, (t0.links u).Nodup) :
    ∀ (t : Tree) (node : Nat) (dad : Option Nat), (∀ m, t.links m = t0.links m) →
      t.I1 → t0.walkOK fuel node dad = true →
      ∃ r, fixNegativeBranchAux fixed_length fuel t node dad = some r ∧
        r.2.I1 ∧ ∀ m, r.2.links m = t0.links m := by
  induction fuel with
  | zero =>
    intro t node dad _ _ hw
    simp [Tree.walkOK] at hw
  | succ fuel ih =>
    intro t node dad hl hI hw
    simp only [Tree.walkOK, Bool.and_eq_true, List.all_eq_true, List.mem_filter] at hw
    obtain ⟨_, hch⟩ := hw
    unfold fixNegativeBranchAux
    have key := foldlM_range_inv
      (fixNegativeBranchTurn fixed_length
          (fun t1 n d => fixNegativeBranchAux fixed_length fuel t1 n (some d)) node dad)
      (fun _ (s : Int × Tree) => s.2.I1 ∧ ∀ m, s.2.links m = t0.links m)
      (0, t) (t.neighbors node).length ⟨hI, hl⟩ ?_
    · obtain ⟨s, hs, hi⟩ := key
      exact ⟨s, hs, hi⟩
    · intro k s hk ⟨sI, sl⟩
      have hlen : (s.2.neighbors node).length = (t.neighbors node).length := by
        have := congrArg List.length ((sl node).trans (hl node).symm)
        unfold Tree.links at this
        simpa using this
      have hk' : k < (s.2.neighbors node).length := by omega
      have hget : (s.2.neighbors node)[k]? = some ((s.2.neighbors node)[k]) :=
        List.getElem?_eq_getElem hk'
      obtain ⟨nei, hnei⟩ : ∃ nei, (s.2.neighbors node)[k]? = some nei := ⟨_, hget⟩
      have hmem : nei.node ∈ t0.links node := by
        rw [← sl node]
        unfold Tree.links
        exact List.mem_map_of_mem _ (List.getElem?_mem hnei)
      unfold fixNegativeBranchTurn
      simp only [hnei]
      by_cases hd : some nei.node = dad
      · rw [if_pos hd]
        exact ⟨s, rfl, sI, sl⟩
      · rw [if_neg hd]
        have hwc : t0.walkOK fuel nei.node (some node) = true := by
          apply hch nei.node
          refine ⟨hmem, ?_⟩
          simpa using hd
        have hfix : ∃ st1 : Int × Tree,
            (if nei.length ≤ 0 then
              (findNeighborIt (s.2.neighbors nei.node) node).map fun back =>
                (s.1 + 1,
                  (s.2.setLengthAt node k fixed_length).setLengthAt nei.node back fixed_length)
            else some s) = some st1 ∧ st1.2.I1 ∧ ∀ m, st1.2.links m = t0.links m := by
          by_cases hneg : nei.length ≤ 0
          · rw [if_pos hneg]
            have hback : node ∈ (s.2.neighbors nei.node).map (·.node) := by
              have := hsym node nei.node hmem
              rw [← sl nei.node] at this
              exact this
            obtain ⟨back, hb⟩ := findNeighborIt_of_mem _ _ hback
            have hslot : findNeighborIt (s.2.neighbors node) nei.node = some k :=
              find_of_nodup_slot s.2 node k nei (by rw [sl node]; exact hnd node) hnei
            refine ⟨_, by rw [hb]; rfl, I1_setPair s.2 node k nei.node back fixed_length sI hslot hb, ?_⟩
            intro m
            show ((s.2.setLengthAt node k fixed_length).setLengthAt nei.node back fixed_length).links m = _
            rw [links_setLengthAt', links_setLengthAt', sl m]
          · rw [if_neg hneg]
            exact ⟨s, rfl, sI, sl⟩
        obtain ⟨st1, h1, I1', l1⟩ := hfix
        rw [h1]
        obtain ⟨r, hr, rI, rl⟩ := ih st1.2 nei.node (some node) l1 I1' hwc
        refine ⟨(st1.1 + r.1, r.2), ?_, rI, rl⟩
        simp only [Option.bind_eq_bind, Option.some_bind, hr, Option.map_some']

theorem walkOK_root (t : Tree) (hT : t.IsBinaryTree) (root : Nat) (hr : root < t.nodes.length) :
    t.walkOK (t.nodes.length + 1) root none = true := by
  have hTo := isBinaryTreeOn_of_isBinaryTree t hT
  simp only [Tree.walkOK, Bool.true_and, List.all_eq_true, List.mem_filter]
  rintro c ⟨hc, _⟩
  exact walkOK_of_tree t _ t.nodes.length hTo (fun u hu => hu) c root
    (hTo.1 root hr c hc).1 (hT.1 root c hc) _ (le_refl _)

/-- On a binary tree `fixNegativeBranch` returns, changes no link, and keeps the two
half-edges of every branch at one length if they were. -/
theorem fixNegativeBranch_I1 (fixed_length : ℚ) (t : Tree) (root : Nat) (hT : t.IsBinaryTree)
    (hr : root < t.nodes.length) (hI : t.I1) :
    ∃ r, fixNegativeBranch fixed_length t root = some r ∧ r.2.I1 ∧
      ∀ m, r.2.links m = t.links m :=
  fixNegativeBranchAux_I1 fixed_length _ t hT.1 hT.2.1 t root none (fun _ => rfl) hI
    (walkOK_root t hT root hr)

/-- C36: invariant I1 is preserved by every operation that changes lengths or the
topology. In a store where the two half-edges of every branch hold the same length,
each of `deleteLeaf` (at a leaf `x` whose neighbor `near` has the other neighbors `a` and
`b`), `reinsertLeaf` (of a deleted leaf `x` with its node `near` into the branch between
`node` and `dad`), `doNNI` (of a valid move), `applyBranchLengthChange` (on a branch
between `node1` and `node2`), `fixNegativeBranch` (on a binary tree) and
`computeLikelihoodZeroBranch` (on the half-edge of `dad` to `node`, with a likelihood
routine that writes caches only) returns a store in which the two half-edges of every
branch hold the same length again; `computeLikelihoodZeroBranch` moreover leaves every
half-edge, that of the branch it set to zero included, at the length it had. -/
theorem I1_preserved (t : Tree) (hI : t.I1) :
    (∀ x near a b, t.leafAt x near a b = true → (t.links a).Nodup → (t.links b).Nodup →
      ∃ t1, deleteLeaf t x = some t1 ∧ IQPTree.deleteLeaf t x = some t1 ∧ t1.I1) ∧
    (∀ (x near a b node dad : Nat) (f1 f2 : Neighbor), (t.links x)[0]? = some near →
      (t.neighbors near).length = 3 →
      (t.neighbors near).filter (fun nei => nei.node != x) = [f1, f2] →
      f1.node = a → f2.node = b → a ≠ b → node ≠ dad → node ≠ near → dad ≠ near →
      node ≠ x → dad ≠ x → x ≠ near → dad ∈ t.links node → node ∈ t.links dad →
      near ∉ t.links node → near ∉ t.links dad → (t.links node).Nodup →
      (t.links dad).Nodup →
      ∃ t2, reinsertLeaf t x node dad = some t2 ∧
        IQPTree.reinsertLeaf t x near node dad = some t2 ∧ t2.I1) ∧
    (∀ m : NNIMove, m.valid t = true → (∀ u v, v ∈ t.links u → u ∈ t.links v) →
      (∀ u, (t.links u).Nodup) → ∃ t1, doNNI t m = some t1 ∧ t1.I1) ∧
    (∀ (lamda : ℚ) (mapOptBranLens : Nat × Nat → ℚ) (node1 node2 : Nat) (nonNNIBranch : Bool),
      node2 ∈ t.links node1 → node1 ∈ t.links node2 →
      ∃ new_len t1, IQPTree.applyBranchLengthChange lamda mapOptBranLens t node1 node2
          nonNNIBranch = some (new_len, t1) ∧ t1.I1 ∧
        t1.edgeLength node1 node2 = some new_len ∧
        t1.edgeLength node2 node1 = some new_len) ∧
    (∀ (fixed_length : ℚ) (root : Nat), t.IsBinaryTree → root < t.nodes.length →
      ∃ r, fixNegativeBranch fixed_length t root = some r ∧ r.2.I1) ∧
    (∀ (computeLikelihoodBranch : Tree → ℚ × Tree) (dad dad_branch node : Nat),
      (∀ s : Tree, s.SameShape (computeLikelihoodBranch s).2) →
      findNeighborIt (t.neighbors dad) node = some dad_branch → dad ∈ t.links node →
      ∃ lh t1, computeLikelihoodZeroBranch computeLikelihoodBranch t dad dad_branch =
          some (lh, t1) ∧ t1.I1 ∧ ∀ u x, t1.edgeLength u x = t.edgeLength u x) := by
  refine ⟨?_, ?_, ?_, ?_, ?_, ?_⟩
  · intro x near a b h hna hnb
    exact deleteLeaf_I1 t x near a b hI h hna hnb
  · intro x near a b node dad f1 f2 hx hlen hf hfa hfb hab hnd hnn hdn hnx hdx hxn h12 h21
      hn0 hd0 hndn hndd
    exact reinsertLeaf_I1 t x near a b node dad f1 f2 hI hx hlen hf hfa hfb hab hnd hnn hdn
      hnx hdx hxn h12 h21 hn0 hd0 hndn hndd
  · intro m h hsym hnd
    exact doNNI_I1 t m hI h hsym hnd
  · intro lamda mapOptBranLens node1 node2 nonNNIBranch h12 h21
    obtain ⟨new_len, t1, h1, h2, h3, h4, _⟩ :=
      applyBranchLengthChange_I1 lamda mapOptBranLens t node1 node2 nonNNIBranch hI h12 h21
    exact ⟨new_len, t1, h1, h2, h3, h4⟩
  · intro fixed_length root hT hr
    obtain ⟨r, h1, h2, _⟩ := fixNegativeBranch_I1 fixed_length t root hT hr hI
    exact ⟨r, h1, h2⟩
  · intro computeLikelihoodBranch dad dad_branch node hB hk hback
    obtain ⟨lh, t1, h1, h2, _, h4⟩ :=
      computeLikelihoodZeroBranch_I1 computeLikelihoodBranch t dad dad_branch node hI hB hk hback
    exact ⟨lh, t1, h1, h2, h4⟩

theorem I1_preserved_witness :
    exampleTree.I1 ∧ exampleDeletedTree.I1 ∧
    (∃ t1, deleteLeaf exampleTree 0 = some t1 ∧ IQPTree.deleteLeaf exampleTree 0 = some t1 ∧
      t1.I1) ∧
    (∃ t2, reinsertLeaf exampleDeletedTree 0 5 2 = some t2 ∧
      IQPTree.reinsertLeaf exampleDeletedTree 0 4 5 2 = some t2 ∧ t2.I1) ∧
    (∃ t1, doNNI exampleTree exampleMove = some t1 ∧ t1.I1) ∧
    (∃ new_len t1, IQPTree.applyBranchLengthChange 1 (fun _ => 7) exampleTree 4 5 true =
        some (new_len, t1) ∧ t1.I1 ∧ t1.edgeLength 4 5 = some new_len ∧
      t1.edgeLength 5 4 = some new_len) ∧
    (∃ r, fixNegativeBranch 1 exampleTree 0 = some r ∧ r.2.I1) ∧
    (∃ lh t1, computeLikelihoodZeroBranch (fun s => (0, s)) exampleTree 4 2 = some (lh, t1) ∧
      t1.I1 ∧ ∀ u x, t1.edgeLength u x = exampleTree.edgeLength u x) :=
  ⟨I1_of_check exampleTree (by decide), I1_of_check exampleDeletedTree (by decide),
    (I1_preserved exampleTree (I1_of_check exampleTree (by decide))).1 0 4 1 5 (by decide)
      (by decide) (by decide),
    (I1_preserved exampleDeletedTree (I1_of_check exampleDeletedTree (by decide))).2.1
      0 4 1 5 5 2 ⟨1, 2, 1, 3, 0⟩ ⟨5, 5, 4, 3, 0⟩ (by decide) (by decide) (by decide)
      (by decide) (by decide) (by decide) (by decide) (by decide) (by decide) (by decide)
      (by decide) (by decide) (by decide) (by decide) (by decide) (by decide) (by decide)
      (by decide),
    (I1_preserved exampleTree (I1_of_check exampleTree (by decide))).2.2.1 exampleMove
      (by decide) exampleTree_isBinaryTree.1 exampleTree_isBinaryTree.2.1,
    (I1_preserved exampleTree (I1_of_check exampleTree (by decide))).2.2.2.1 1 (fun _ => 7)
      4 5 true (by decide) (by decide),
    (I1_preserved exampleTree (I1_of_check exampleTree (by decide))).2.2.2.2.1 1 0
      exampleTree_isBinaryTree (by decide),
    (I1_preserved exampleTree (I1_of_check exampleTree (by decide))).2.2.2.2.2
      (fun s => (0, s)) 4 2 5 (fun s => sameShape_refl s) (by decide) (by decide)⟩

theorem repl_of_map (L : List Nat) (x y k : Nat) (hnd : L.Nodup) (hk : L[k]? = some x) :
    Repl L (L.map (fun z => if z = x then y else z)) k y := by
  intro j
  rw [List.getElem?_map]
  by_cases hj : j = k
  · rw [if_pos hj, hj, hk]
    simp
  · rw [if_neg hj]
    cases hL : L[j]? with
    | none => rfl
    | some z =>
      have hz : z ≠ x := by
        intro e
        rw [e] at hL
        exact hj (nodup_getElem?_inj L hnd j k x hL hk)
      simp [hz]

/-- The exchange of parsimony `swapNNI` turns a binary tree into a binary tree with the
same degrees. -/
theorem swappedNNI_isBinaryTree (t t1 : Tree) (n1 a n2 c : Nat) (hT : t.IsBinaryTree)
    (hadj : n2 ∈ t.links n1) (ha : a ∈ t.links n1) (ha2 : a ≠ n2)
    (hc : c ∈ t.links n2) (hc1 : c ≠ n1) (hsw : t.SwappedNNI t1 n1 a n2 c) :
    t1.IsBinaryTree ∧ t1.nodes.length = t.nodes.length ∧
      ∀ n, (t1.neighbors n).length = (t.neighbors n).length := by
  obtain ⟨hlen, _, _, l1, la, l2, lc, lrest⟩ := hsw
  have hsym := hT.1
  have hnd := hT.2.1
  have hloop := hT.2.2.1
  have hacyc := hT.2.2.2.2.1
  have adj : ∀ u v, v ∈ t.links u → t.graph.Adj u v := fun u v h =>
    (graph_adj t hsym hloop u v).2 h
  have h12 : n1 ≠ n2 := fun e => hloop n1 (e ▸ hadj)
  have hA1 : a ≠ n1 := fun e => hloop n1 (by rw [e] at ha; exact ha)
  have hB2 : c ≠ n2 := fun e => hloop n2 (by rw [e] at hc; exact hc)
  have hAB : a ≠ c := by
    intro e
    rw [← e] at hc
    exact no_triangle _ hacyc n2 n1 a (adj _ _ (hsym _ _ hadj)) (adj _ _ ha) (adj _ _ hc)
  have hA2n : n2 ∉ t.links a := fun h =>
    no_triangle _ hacyc a n1 n2 (adj _ _ (hsym _ _ ha)) (adj _ _ hadj) (adj _ _ h)
  have hB1n : n1 ∉ t.links c := fun h =>
    no_triangle _ hacyc c n2 n1 (adj _ _ (hsym _ _ hc)) (adj _ _ (hsym _ _ hadj)) (adj _ _ h)
  obtain ⟨i, hi⟩ := List.mem_iff_getElem?.1 ha
  obtain ⟨j, hj⟩ := List.mem_iff_getElem?.1 hc
  obtain ⟨ka, hka⟩ := List.mem_iff_getElem?.1 (hsym _ _ ha)
  obtain ⟨kb, hkb⟩ := List.mem_iff_getElem?.1 (hsym _ _ hc)
  have rA : Repl (t.links a) (t1.links a) ka n2 := by
    rw [la]; exact repl_of_map _ _ _ _ (hnd a) hka
  have r2 : Repl (t.links n2) (t1.links n2) j a := by
    rw [l2]; exact repl_of_map _ _ _ _ (hnd n2) hj
  have rB : Repl (t.links c) (t1.links c) kb n1 := by
    rw [lc]; exact repl_of_map _ _ _ _ (hnd c) hkb
  have r1 : Repl (t.links n1) (t1.links n1) i c := by
    rw [l1]; exact repl_of_map _ _ _ _ (hnd n1) hi
  obtain ⟨hT1, hl1⟩ := isBinaryTree_of_exchange t t1 n1 n2 a c ka kb i j hT hlen hadj hi hj hka
    hkb h12 hA1 ha2 hc1 hB2 hAB hA2n hB1n rA r2 rB r1
    (fun n e1 e2 e3 e4 => lrest n e4 e1 e2 e3)
  exact ⟨hT1, hlen, hl1⟩

theorem mem_of_filter_pair (L : List Nat) (x a b : Nat)
    (h : L.filter (fun c => c != x) = [a, b]) : (a ∈ L ∧ a ≠ x) ∧ (b ∈ L ∧ b ≠ x) := by
  have ha : a ∈ L.filter (fun c => c != x) := by rw [h]; simp
  have hb : b ∈ L.filter (fun c => c != x) := by rw [h]; simp
  rw [List.mem_filter] at ha hb
  exact ⟨⟨ha.1, by simpa using ha.2⟩, ⟨hb.1, by simpa using hb.2⟩⟩

theorem swapNNI_result (score : Tree → Option Int) (cur_score : ℚ) (t : Tree)
    (node1 node2 : Nat) (hT : t.IsBinaryTree)
    (hscore : ∀ s : Tree, s.IsBinaryTree → ∃ v : Nat, score s = some (v : Int))
    (hadj : node2 ∈ t.links node1)
    (h1 : (t.neighbors node1).length = 3) (h2 : (t.neighbors node2).length = 3) :
    ∃ r, swapNNI score cur_score t node1 node2 = some r ∧ SearchResult score cur_score t r := by
  obtain ⟨a, b, c, d, t1, t2, fa, fc, _, sw1, _, sw2, heq⟩ :=
    swapNNI_view score cur_score t node1 node2 hT hadj h1 h2
  obtain ⟨⟨ha, ha2⟩, _⟩ := mem_of_filter_pair _ _ _ _ fa
  obtain ⟨⟨hc, hc1⟩, ⟨hd, hd1⟩⟩ := mem_of_filter_pair _ _ _ _ fc
  obtain ⟨hT1, hn1, _⟩ := swappedNNI_isBinaryTree t t1 node1 a node2 c hT hadj ha ha2 hc hc1 sw1
  obtain ⟨hT2, hn2, _⟩ := swappedNNI_isBinaryTree t t2 node1 a node2 d hT hadj ha ha2 hd hd1 sw2
  obtain ⟨v1, hv1⟩ := hscore t1 hT1
  obtain ⟨v2, hv2⟩ := hscore t2 hT2
  rw [heq, hv1, hv2]
  simp only [Option.some_bind, Int.cast_natCast]
  by_cases c1 : (v1 : ℚ) < cur_score
  · rw [if_pos c1]
    exact ⟨_, rfl, Or.inr ⟨v1, rfl, c1, hT1, hv1, hn1⟩⟩
  · rw [if_neg c1]
    by_cases c2 : (v2 : ℚ) < cur_score
    · rw [if_pos c2]
      exact ⟨_, rfl, Or.inr ⟨v2, rfl, c2, hT2, hv2, hn2⟩⟩
    · rw [if_neg c2]
      exact ⟨_, rfl, Or.inl rfl⟩

theorem searchResult_lt (score : Tree → Option Int) (cur_score : ℚ) (t : Tree) (r : ℚ × Tree)
    (h : SearchResult score cur_score t r) (hlt : ¬ r.1 < cur_score) : r = (cur_score, t) := by
  rcases h with h | ⟨v, e, hv, _⟩
  · exact h
  · rw [e] at hlt
    exact absurd hv hlt

theorem searchNNILoop_result (score : Tree → Option Int)
    (recurse : Tree → Nat → Option (ℚ × Tree)) (cur_score : ℚ) (t : Tree) (node : Nat)
    (dad : Option Nat)
    (hrec : ∀ c, c ∈ t.links node → some c ≠ dad →
      ∃ r, recurse t c = some r ∧ SearchResult score cur_score t r)
    (fuel it : Nat) (hf : (t.neighbors node).length + 1 ≤ fuel + it)
    (hi : it ≤ (t.neighbors node).length) :
    ∃ r, searchNNILoop recurse cur_score node dad fuel it t = some r ∧
      SearchResult score cur_score t r := by
  induction fuel generalizing it with
  | zero => omega
  | succ fuel ih =>
    unfold searchNNILoop
    by_cases hlt : it < (t.neighbors node).length
    · have hget : (t.neighbors node).get? it = some ((t.neighbors node)[it]) := by
        rw [List.get?_eq_getElem?, List.getElem?_eq_getElem hlt]
      rw [hget]
      simp only
      by_cases hd : some (t.neighbors node)[it].node = dad
      · rw [if_pos hd]
        exact ih (it + 1) (by omega) (by omega)
      · rw [if_neg hd]
        have hmem : (t.neighbors node)[it].node ∈ t.links node := by
          unfold Tree.links
          exact List.mem_map.2 ⟨_, List.getElem_mem hlt, rfl⟩
        obtain ⟨r, hr, hres⟩ := hrec _ hmem hd
        rw [hr, Option.some_bind]
        by_cases c : r.1 < cur_score
        · rw [if_pos c]
          exact ⟨r, rfl, hres⟩
        · rw [if_neg c, searchResult_lt score cur_score t r hres c]
          exact ih (it + 1) (by omega) (by omega)
    · have hget : (t.neighbors node).get? it = none := by
        rw [List.get?_eq_getElem?, List.getElem?_eq_none (by omega)]
      rw [hget]
      exact ⟨_, rfl, Or.inl rfl⟩

/-- A call of the recursion of `searchNNI` on a binary tree returns, within the depth of
the tree behind the branch: it gives `cur_score` and leaves the store as it was, or it
gives a smaller score with the binary tree that has it. -/
theorem searchNNIAux_result (score : Tree → Option Int) (cur_score : ℚ) (t : Tree)
    (hT : t.IsBinaryTree)
    (hscore : ∀ s : Tree, s.IsBinaryTree → ∃ v : Nat, score s = some (v : Int))
    (depth : Nat) : ∀ (node : Nat) (dad : Option Nat), t.walkOK depth node dad = true →
      ∃ r, searchNNIAux score cur_score depth t node dad = some r ∧
        SearchResult score cur_score t r := by
  induction depth with
  | zero =>
    intro node dad hw
    simp [Tree.walkOK] at hw
  | succ depth ih =>
    intro node dad hw
    simp only [Tree.walkOK, Bool.and_eq_true, List.all_eq_true, List.mem_filter] at hw
    obtain ⟨hdad, hch⟩ := hw
    have hfirst : ∃ r, (match dad with
        | some d =>
            if !t.isLeaf node && !t.isLeaf d then swapNNI score cur_score t node d
            else some (cur_score, t)
        | none => some (cur_score, t)) = some r ∧ SearchResult score cur_score t r := by
      cases dad with
      | none => exact ⟨_, rfl, Or.inl rfl⟩
      | some d =>
        simp only
        by_cases hc : (!t.isLeaf node && !t.isLeaf d) = true
        · rw [if_pos hc]
          simp only [Bool.and_eq_true, decide_eq_true_eq] at hdad
          simp only [Bool.and_eq_true, Bool.not_eq_true', Tree.isLeaf, decide_eq_false_iff_not,
            not_le] at hc
          have hn : node < t.nodes.length := lt_of_mem_links t node d hdad.1
          have hd : d < t.nodes.length := lt_of_mem_links t d node hdad.2
          have h1 : (t.neighbors node).length = 3 := by
            rcases hT.2.2.2.1 node hn with h | h
            · omega
            · exact h
          have h2 : (t.neighbors d).length = 3 := by
            rcases hT.2.2.2.1 d hd with h | h
            · omega
            · exact h
          exact swapNNI_result score cur_score t node d hT hscore hdad.1 h1 h2
        · rw [if_neg hc]
          exact ⟨_, rfl, Or.inl rfl⟩
    obtain ⟨r, hr, hres⟩ := hfirst
    unfold searchNNIAux
    rw [hr, Option.some_bind]
    by_cases c : r.1 < cur_score
    · rw [if_pos c]
      exact ⟨r, rfl, hres⟩
    · rw [if_neg c, searchResult_lt score cur_score t r hres c]
      apply searchNNILoop_result score _ cur_score t node dad _ _ 0 (le_refl _) (Nat.zero_le _)
      intro ch hmem hne
      apply ih ch (some node)
      apply hch ch
      exact ⟨hmem, by simpa using hne⟩

theorem walkOK_from_root (t : Tree) (hT : t.IsBinaryTree) (root : Nat)
    (hr : root < t.nodes.length) (depth : Nat) (hd : t.nodes.length + 1 ≤ depth) :
    t.walkOK depth root none = true := by
  have hTo := isBinaryTreeOn_of_isBinaryTree t hT
  obtain ⟨d, rfl⟩ : ∃ d, depth = d + 1 := ⟨depth - 1, by omega⟩
  simp only [Tree.walkOK, Bool.true_and, List.all_eq_true, List.mem_filter]
  rintro c ⟨hc, _⟩
  exact walkOK_of_tree t _ t.nodes.length hTo (fun u hu => hu) c root
    (hTo.1 root hr c hc).1 (hT.1 root c hc) _ (by omega)

/-- One round of the loop of `searchNNI()` on a binary tree whose score is `cur`: the
loop stops with `cur` and the store as it was, or it goes on with a smaller score and
the binary tree that has it. -/
theorem searchNNIRounds_step (score : Tree → Option Int) (root depth : Nat)
    (hscore : ∀ s : Tree, s.IsBinaryTree → ∃ v : Nat, score s = some (v : Int))
    (s : Tree) (cur rounds : Nat) (hT : s.IsBinaryTree) (hr : root < s.nodes.length)
    (hd : s.nodes.length + 1 ≤ depth) :
    searchNNIRounds score root depth (rounds + 1) (cur : ℚ) s = some ((cur : ℚ), s) ∨
    ∃ (v : Nat) (s1 : Tree), v < cur ∧ s1.IsBinaryTree ∧ score s1 = some (v : Int) ∧
      s1.nodes.length = s.nodes.length ∧
      searchNNIRounds score root depth (rounds + 1) (cur : ℚ) s =
        searchNNIRounds score root depth rounds (v : ℚ) s1 := by
  obtain ⟨r, hr1, hres⟩ := searchNNIAux_result score (cur : ℚ) s hT hscore depth root none
    (walkOK_from_root s hT root hr depth hd)
  have step : searchNNIRounds score root depth (rounds + 1) (cur : ℚ) s =
      (searchNNIAux score (cur : ℚ) depth s root none).bind fun r =>
        if r.1 ≥ (cur : ℚ) then some ((cur : ℚ), r.2)
        else searchNNIRounds score root depth rounds r.1 r.2 := rfl
  rw [step, hr1, Option.some_bind]
  rcases hres with h | ⟨v, e, hv, hT1, hs1, hn1⟩
  · left
    rw [h]
    simp
  · right
    refine ⟨v, r.2, by exact_mod_cast hv, hT1, hs1, hn1, ?_⟩
    rw [if_neg (by rw [e]; exact not_le.2 hv), e]

theorem searchNNIRounds_result (score : Tree → Option Int) (root depth : Nat)
    (hscore : ∀ s : Tree, s.IsBinaryTree → ∃ v : Nat, score s = some (v : Int))
    (rounds : Nat) : ∀ (s : Tree) (cur : Nat), s.IsBinaryTree → root < s.nodes.length →
      s.nodes.length + 1 ≤ depth → score s = some (cur : Int) → cur + 1 ≤ rounds →
      ∃ (final : Nat) (t1 : Tree),
        searchNNIRounds score root depth rounds (cur : ℚ) s = some ((final : ℚ), t1) ∧
          final ≤ cur ∧ t1.IsBinaryTree ∧ score t1 = some (final : Int) := by
  induction rounds with
  | zero =>
    intro s cur _ _ _ _ h
    omega
  | succ rounds ih =>
    intro s cur hT hr hd hs hc
    rcases searchNNIRounds_step score root depth hscore s cur rounds hT hr hd with
      h | ⟨v, s1, hv, hT1, hs1, hn1, h⟩
    · exact ⟨cur, s, h, le_refl _, hT, hs⟩
    · obtain ⟨final, t1, h1, h2, h3, h4⟩ := ih s1 v hT1 (by omega) (by omega) hs1 (by omega)
      exact ⟨final, t1, by rw [h, h1], by omega, h3, h4⟩

/-- C39: the parsimony search `searchNNI()` ends on every binary tree, for every
alignment, the parsimony score `computeParsimonyScore()` being a parameter that gives a
natural number on every binary tree. With `s0` the score of the tree at the start, the
recursion over the branches returns within a depth of the number of nodes plus one and
the loop ends within `s0 + 1` rounds, with a score `final` that is at most `s0` and is
the score of the binary tree then in the store. Each round, on a binary tree with the
score `cur`, either stops the loop with `cur` and the store as it was, or replaces the
score by a smaller natural number `v`, the score of the binary tree then in the store,
and the loop goes on from there. -/
theorem searchNNI_terminates (score : Tree → Option Int) (t : Tree) (root : Nat)
    (hT : t.IsBinaryTree) (hroot : root < t.nodes.length)
    (hscore : ∀ s : Tree, s.IsBinaryTree → ∃ v : Nat, score s = some (v : Int)) :
    ∃ s0 : Nat, score t = some (s0 : Int) ∧
      (∀ depth rounds, t.nodes.length + 1 ≤ depth → s0 + 1 ≤ rounds →
        ∃ (final : Nat) (t1 : Tree),
          searchNNI score t root depth rounds = some ((final : ℚ), t1) ∧
          final ≤ s0 ∧ t1.IsBinaryTree ∧ score t1 = some (final : Int)) ∧
      ∀ (s : Tree) (cur depth rounds : Nat), s.IsBinaryTree → root < s.nodes.length →
        s.nodes.length + 1 ≤ depth →
        searchNNIRounds score root depth (rounds + 1) (cur : ℚ) s = some ((cur : ℚ), s) ∨
        ∃ (v : Nat) (s1 : Tree), v < cur ∧ s1.IsBinaryTree ∧ score s1 = some (v : Int) ∧
          s1.nodes.length = s.nodes.length ∧
          searchNNIRounds score root depth (rounds + 1) (cur : ℚ) s =
            searchNNIRounds score root depth rounds (v : ℚ) s1 := by
  obtain ⟨s0, h0⟩ := hscore t hT
  refine ⟨s0, h0, ?_, ?_⟩
  · intro depth rounds hd hr
    obtain ⟨final, t1, h1, h2, h3, h4⟩ :=
      searchNNIRounds_result score root depth hscore rounds t s0 hT hroot hd h0 hr
    refine ⟨final, t1, ?_, h2, h3, h4⟩
    unfold searchNNI
    rw [h0, Option.some_bind, Int.cast_natCast]
    exact h1
  · intro s cur depth rounds hs hr hd
    exact searchNNIRounds_step score root depth hscore s cur rounds hs hr hd

theorem searchNNI_terminates_witness :
    ∃ s0 : Nat, exampleScore exampleTree = some (s0 : Int) ∧
      (∀ depth rounds, exampleTree.nodes.length + 1 ≤ depth → s0 + 1 ≤ rounds →
        ∃ (final : Nat) (t1 : Tree),
          searchNNI exampleScore exampleTree 0 depth rounds = some ((final : ℚ), t1) ∧
          final ≤ s0 ∧ t1.IsBinaryTree ∧ exampleScore t1 = some (final : Int)) ∧
      ∀ (s : Tree) (cur depth rounds : Nat), s.IsBinaryTree → 0 < s.nodes.length →
        s.nodes.length + 1 ≤ depth →
        searchNNIRounds exampleScore 0 depth (rounds + 1) (cur : ℚ) s = some ((cur : ℚ), s) ∨
        ∃ (v : Nat) (s1 : Tree), v < cur ∧ s1.IsBinaryTree ∧ exampleScore s1 = some (v : Int) ∧
          s1.nodes.length = s.nodes.length ∧
          searchNNIRounds exampleScore 0 depth (rounds + 1) (cur : ℚ) s =
            searchNNIRounds exampleScore 0 depth rounds (v : ℚ) s1 :=
  searchNNI_terminates exampleScore exampleTree 0 exampleTree_isBinaryTree (by decide)
    (fun s _ => ⟨(s.links 5).sum, rfl⟩)

end PhyloTree
